import Mathlib

/-! # asm.js function compiler and x64 jump patching

Shallow embedding of `js/src/asmjs/AsmJSCompile.cpp` (class `FunctionCompiler`
and the `Emit*` decoder functions) and of `PatchJump` from
`js/src/jit/x64/Assembler-x64.h`.

Conventions of the embedding:

* `MBasicBlock*` and `MDefinition*` are indices into two arenas held by the
  graph; a null pointer is `none`.
* `uint32_t` arithmetic is written on `Nat` with an explicit `% 2 ^ 32`.
* The bytecode of a function is represented by the tree of its opcodes
  (`Stmt`, `Expr`, ...); every decoder read advances `pc_` by the encoded
  width of what it reads, as `AsmFunction::read*` does.
* `Option` as a result type stands for a run that does not complete (undefined
  behaviour such as `back()` on an empty vector, or a failed allocation).
  Allocations of the arena and of vectors are taken to succeed.
-/

set_option autoImplicit false

namespace AsmJS

/-! ## Small utilities -/

/-- Apply `fn` to the element at index `i`; other indices and out-of-range
indices leave the list as it is. -/
def updateAt {α : Type} : List α → Nat → (α → α) → List α
  | [], _, _ => []
  | a :: as, 0, fn => fn a :: as
  | a :: as, i + 1, fn => a :: updateAt as i fn

/-- Truncation of a natural number to `uint32_t`. -/
def u32 (n : Nat) : Nat := n % 2 ^ 32

/-- The helper `ComputeByteAlignment(bytes, alignment)` of `jit/shared/Assembler-shared.h`. -/
def ComputeByteAlignment (bytes alignment : Nat) : Nat :=
  (alignment - bytes % alignment) % alignment

/-- The helper `AlignBytes(bytes, alignment)` on `uint32_t`. -/
def AlignBytes (bytes alignment : Nat) : Nat :=
  u32 (bytes + ComputeByteAlignment bytes alignment)

/-- The constant `AsmJSStackAlignment` (16 on x64, the SIMD alignment). -/
def AsmJSStackAlignment : Nat := 16

/-! ## MIR data model -/

abbrev BlockId := Nat
abbrev DefId := Nat

/-- The enum `AsmType` of AsmJSCompile.cpp. -/
inductive AsmType where
  | Int32 | Float32 | Float64 | Int32x4 | Float32x4
deriving DecidableEq, Repr

/-- The MIR types that asm.js values can have. -/
inductive MIRType where
  | Int32 | Float32 | Double | Int32x4 | Float32x4
deriving DecidableEq, Repr

/-- The function `MIRTypeFromAsmType`. -/
def MIRTypeFromAsmType : AsmType → MIRType
  | .Int32 => .Int32
  | .Float32 => .Float32
  | .Float64 => .Double
  | .Int32x4 => .Int32x4
  | .Float32x4 => .Float32x4

/-- Result of `ABIArgGenerator::next`: a register or a stack slot at an offset
from the argument base. -/
inductive ABIArg where
  | reg (r : Nat)
  | stack (offsetFromArgBase : Nat)
deriving DecidableEq, Repr

/-- Modelled from the spec: `ABIArgGenerator` is declared outside the given
sources. Section 4.3 says each argument is classified by the platform ABI into
a register slot or a stack slot at a frame offset. The generator is
deterministic, so it is a function of the types passed so far; it is a
parameter of every operation that marshals arguments. -/
structure ABIArgGenerator where
  next : List MIRType → MIRType → ABIArg
  stackBytesConsumedSoFar : List MIRType → Nat

/-- The class `MAsmJSCall::Callee`. -/
inductive Callee where
  | Internal (funcIndex : Nat)
  | Dynamic (ptrFun : Option DefId)
  | Builtin (imm : Nat)
deriving DecidableEq, Repr

/-- The relational operators that `EmitComparison` hands to `compare`. -/
inductive JSOp where
  | JSOP_EQ | JSOP_NE | JSOP_LT | JSOP_LE | JSOP_GT | JSOP_GE
deriving DecidableEq, Repr

/-- The enum `MCompare::CompareType` (the variants the asm.js builder uses). -/
inductive CompareType where
  | Compare_Int32 | Compare_UInt32 | Compare_Float32 | Compare_Double
deriving DecidableEq, Repr

/-- The enum `Scalar::Type` (the view types of the asm.js heap). -/
inductive Scalar where
  | Int8 | Uint8 | Int16 | Uint16 | Int32 | Uint32 | Float32 | Float64 | Float32x4 | Int32x4
deriving DecidableEq, Repr

/-- Modelled from the spec: the barrier constants of `jit/AtomicOp.h` are not
in the given sources. Section 4.2 says that atomic operations request before and
after memory barriers and that plain loads and stores do not. The builder
passes the constants by name and the model keeps the names; `MembarNobits` is
the default of the two barrier parameters of `MAsmJSLoadHeap::New` and
`MAsmJSStoreHeap::New`, which `loadHeap` and `storeHeap` leave out. -/
inductive MemoryBarrierBits where
  | MembarNobits | MembarBeforeLoad | MembarAfterLoad | MembarBeforeStore | MembarAfterStore
  | MembarFull
deriving DecidableEq, Repr

/-- Kinds of MIR definitions the builder creates, with their immediates. The
kind `op` stands for the instructions that the model does not tell apart. -/
inductive MOpcode where
  | constant (type : MIRType) (v : Int)
  | parameter (index : Nat)
  | op (code : Nat)
  | compare (jsop : JSOp) (compareType : CompareType)
  | asmJSLoadHeap (accessType : Scalar) (needsBoundsCheck : Bool) (numElems : Nat)
      (barrierBefore barrierAfter : MemoryBarrierBits)
  | asmJSStoreHeap (accessType : Scalar) (needsBoundsCheck : Bool) (numElems : Nat)
      (barrierBefore barrierAfter : MemoryBarrierBits)
  | asmJSCompareExchangeHeap (accessType : Scalar) (needsBoundsCheck : Bool)
  | asmJSAtomicExchangeHeap (accessType : Scalar) (needsBoundsCheck : Bool)
  | asmJSAtomicBinopHeap (atomicOp : Nat) (accessType : Scalar) (needsBoundsCheck : Bool)
  | passStackArg (spOffset : Nat)
  | loadFuncPtr (globalDataOffset : Nat)
  | loadFFIFunc (globalDataOffset : Nat)
  | call (callee : Callee) (regArgs : List (Nat × Option DefId)) (spIncrement : Nat)
  | interruptCheck
  | memoryBarrier
  | phi
deriving DecidableEq, Repr

/-- An `MDefinition`: opcode, operand list and the `Unused` flag. -/
structure MDefinition where
  op : MOpcode
  operands : List (Option DefId)
  unused : Bool
deriving DecidableEq, Repr

instance : Inhabited MDefinition := ⟨⟨.op 0, [], false⟩⟩

/-- Control instructions that end a block. The table switch holds its
successor list and its case list (indices into the successor list). -/
inductive MControl where
  | goto (target : BlockId)
  | test (cond : Option DefId) (ifTrue ifFalse : BlockId)
  | tableSwitch (expr : Option DefId) (low high : Int)
      (successors : List (Option BlockId)) (cases : List Nat)
  | asmJSReturn (v : Option DefId)
  | asmJSVoidReturn
deriving DecidableEq, Repr

/-- The enum `MBasicBlock::Kind` (the kinds the asm.js builder uses). -/
inductive Kind where
  | NORMAL | PENDING_LOOP_HEADER | LOOP_HEADER
deriving DecidableEq, Repr

/-- An `MBasicBlock`. `slots` is the slot array up to `stackPosition_`. -/
structure MBasicBlock where
  kind : Kind
  slots : List (Option DefId)
  predecessors : List BlockId
  phis : List DefId
  instructions : List DefId
  lastIns : Option MControl
  loopDepth : Nat
deriving DecidableEq, Repr

instance : Inhabited MBasicBlock := ⟨⟨.NORMAL, [], [], [], [], none, 0⟩⟩

/-- The `MIRGraph`: arena of blocks, arena of definitions, the block list in
graph order, and the phi free list. -/
structure MIRGraph where
  blocks : List MBasicBlock
  defs : List MDefinition
  order : List BlockId
  phiFreeList : List DefId
deriving DecidableEq, Repr

namespace MIRGraph

/-- Dereference a block pointer. -/
def block (g : MIRGraph) (b : BlockId) : MBasicBlock := g.blocks.getD b default

/-- Dereference a definition pointer. -/
def getDef (g : MIRGraph) (d : DefId) : MDefinition := g.defs.getD d default

/-- Mutate one block in place. -/
def modifyBlock (g : MIRGraph) (b : BlockId) (fn : MBasicBlock → MBasicBlock) : MIRGraph :=
  { g with blocks := updateAt g.blocks b fn }

/-- Mutate one definition in place. -/
def modifyDef (g : MIRGraph) (d : DefId) (fn : MDefinition → MDefinition) : MIRGraph :=
  { g with defs := updateAt g.defs d fn }

/-- Allocate a definition in the arena and return its pointer. -/
def newDef (g : MIRGraph) (d : MDefinition) : MIRGraph × DefId :=
  ({ g with defs := g.defs ++ [d] }, g.defs.length)

/-- The method `MBasicBlock::add(ins)` for a freshly built instruction. -/
def add (g : MIRGraph) (b : BlockId) (op : MOpcode) (operands : List (Option DefId)) :
    MIRGraph × DefId :=
  let r := g.newDef ⟨op, operands, false⟩
  (r.1.modifyBlock b (fun blk => { blk with instructions := blk.instructions ++ [r.2] }), r.2)

/-- The method `MBasicBlock::end(ins)`. -/
def endBlock (g : MIRGraph) (b : BlockId) (c : MControl) : MIRGraph :=
  g.modifyBlock b (fun blk => { blk with lastIns := some c })

/-- The method `MIRGraph::addBlock`. -/
def addBlock (g : MIRGraph) (blk : MBasicBlock) : MIRGraph × BlockId :=
  ({ g with blocks := g.blocks ++ [blk], order := g.order ++ [g.blocks.length] }, g.blocks.length)

/-- The method `MIRGraph::moveBlockToEnd`. -/
def moveBlockToEnd (g : MIRGraph) (b : BlockId) : MIRGraph :=
  { g with order := g.order.filter (fun x => x != b) ++ [b] }

/-- The method `MBasicBlock::getSlot`. -/
def getSlot (g : MIRGraph) (b : BlockId) (i : Nat) : Option DefId :=
  ((g.block b).slots.getD i none)

/-- The method `MBasicBlock::setSlot`. -/
def setSlot (g : MIRGraph) (b : BlockId) (i : Nat) (d : Option DefId) : MIRGraph :=
  g.modifyBlock b (fun blk => { blk with slots := blk.slots.set i d })

end MIRGraph

/-- Modelled from the spec: `MBasicBlock::NewAsmJS` (jit/MIRGraph.cpp) is not
in the given sources. Section 4.2: a pending loop header is a placeholder
block created before the condition is known; it gets one phi per slot, each
with the predecessor's slot value as its first input. Any other block copies
the slot array of its predecessor; the entry block (no predecessor) starts
with `numLocals` empty slots. The block records `pred` as its first
predecessor. The new block is not yet added to the graph. -/
def MBasicBlock.NewAsmJS (g : MIRGraph) (numLocals : Nat) (pred : Option BlockId) (kind : Kind) :
    MIRGraph × MBasicBlock :=
  match pred with
  | none => (g, ⟨kind, List.replicate numLocals none, [], [], [], none, 0⟩)
  | some p =>
    let predSlots := (g.block p).slots
    match kind with
    | .PENDING_LOOP_HEADER =>
      let base := g.defs.length
      let phiDefs := predSlots.map (fun s => (⟨.phi, [s], false⟩ : MDefinition))
      let ids := (List.range predSlots.length).map (fun i => base + i)
      ({ g with defs := g.defs ++ phiDefs },
        ⟨kind, ids.map some, [p], ids, [], none, 0⟩)
    | _ => (g, ⟨kind, predSlots, [p], [], [], none, 0⟩)

/-- The phi creation of `MBasicBlock::addPredecessor`: a new phi of block `b`
whose inputs are the block's value `mine`, once per existing predecessor, and
then the incoming value `other`; the phi is stored in slot `i`. -/
def addPhiForSlot (g : MIRGraph) (b : BlockId) (i : Nat) (mine other : Option DefId) : MIRGraph :=
  let r := g.newDef ⟨.phi, List.replicate (g.block b).predecessors.length mine ++ [other], false⟩
  (r.1.modifyBlock b (fun blk => { blk with phis := blk.phis ++ [r.2] })).setSlot b i (some r.2)

/-- One slot of `MBasicBlock::addPredecessor`. -/
def addPredecessorSlot (b pred : BlockId) (g : MIRGraph) (i : Nat) : MIRGraph :=
  let mine := g.getSlot b i
  let other := g.getSlot pred i
  if mine = other then g
  else
    match mine with
    | some m =>
      if (g.getDef m).op = .phi ∧ m ∈ (g.block b).phis then
        g.modifyDef m (fun d => { d with operands := d.operands ++ [other] })
      else addPhiForSlot g b i mine other
    | none => addPhiForSlot g b i mine other

/-- Modelled from the spec: `MBasicBlock::addPredecessor` (jit/MIRGraph.cpp) is
not in the given sources. Section 4.2: block-entry phis are synthesized when a
slot's incoming value differs across predecessors. For each slot whose value in
`pred` differs from the block's, a phi of this block is extended by the
incoming value, or a new phi is created with the block's value once per
existing predecessor followed by the incoming value. Then `pred` is appended to
the predecessor list. -/
def MBasicBlock.addPredecessor (g : MIRGraph) (b pred : BlockId) : MIRGraph :=
  let g1 := (List.range (g.block b).slots.length).foldl (addPredecessorSlot b pred) g
  g1.modifyBlock b (fun blk => { blk with predecessors := blk.predecessors ++ [pred] })

/-- One phi of `MBasicBlock::setBackedgeAsmJS`. -/
def setBackedgeSlot (b pred : BlockId) (g : MIRGraph) (x : Nat × DefId) : MIRGraph :=
  let entryDef := x.2
  let exitDef0 := g.getSlot pred x.1
  let exitDef := if exitDef0 = some entryDef then (g.getDef entryDef).operands.getD 0 none else exitDef0
  (g.modifyDef entryDef (fun d => { d with operands := d.operands ++ [exitDef] })).setSlot b x.1
    (some entryDef)

/-- Modelled from the spec: `MBasicBlock::setBackedgeAsmJS` (jit/MIRGraph.cpp)
is not in the given sources. Section 4.2: the pending loop header becomes a
true loop header once the backedge is closed. The phis of the header are in
slot order; each gets the backedge block's slot value as its second input,
and when that value is the phi itself the first input is used instead (the phi
is then redundant). The block becomes a `LOOP_HEADER` and records `pred`. -/
def MBasicBlock.setBackedgeAsmJS (g : MIRGraph) (b pred : BlockId) : MIRGraph :=
  let g1 := ((g.block b).phis.enum).foldl (setBackedgeSlot b pred) g
  g1.modifyBlock b (fun blk =>
    { blk with kind := .LOOP_HEADER, predecessors := blk.predecessors ++ [pred] })

/-- Replace an operand that refers to `old` by `new`. -/
def replaceOperand (old : DefId) (new : Option DefId) (o : Option DefId) : Option DefId :=
  if o = some old then new else o

/-- Rewrite of the operand of a control instruction. -/
def MControl.replaceUses (old : DefId) (new : Option DefId) : MControl → MControl
  | .goto t => .goto t
  | .test c a b => .test (replaceOperand old new c) a b
  | .tableSwitch e lo hi succs cases => .tableSwitch (replaceOperand old new e) lo hi succs cases
  | .asmJSReturn v => .asmJSReturn (replaceOperand old new v)
  | .asmJSVoidReturn => .asmJSVoidReturn

/-- Modelled from the spec: `MDefinition::justReplaceAllUsesWith` (jit/MIR.cpp)
is not in the given sources. Section 4.2: the uses of an elided phi are
rewritten to the single surviving value. Every operand of every definition and
control instruction that refers to `old` is made to refer to `new`. -/
def justReplaceAllUsesWith (g : MIRGraph) (old : DefId) (new : Option DefId) : MIRGraph :=
  { g with
    defs := g.defs.map (fun d => { d with operands := d.operands.map (replaceOperand old new) })
    blocks := g.blocks.map (fun blk =>
      { blk with lastIns := blk.lastIns.map (MControl.replaceUses old new) }) }

/-- The method `MBasicBlock::discardPhi`. -/
def discardPhi (g : MIRGraph) (b : BlockId) (phi : DefId) : MIRGraph :=
  g.modifyBlock b (fun blk => { blk with phis := blk.phis.filter (fun p => p != phi) })

/-- The method `MIRGraph::addPhiToFreeList`. -/
def addPhiToFreeList (g : MIRGraph) (phi : DefId) : MIRGraph :=
  { g with phiFreeList := g.phiFreeList ++ [phi] }

/-! ## Pending-branch maps -/

abbrev BlockVector := List BlockId
abbrev LabelVector := List Nat

/-- A `HashMap<key, BlockVector>` as an association list with unique keys. -/
abbrev BlockMap := List (Nat × BlockVector)

/-- The method `HashMap::lookup`. -/
def BlockMap.lookup (m : BlockMap) (k : Nat) : Option BlockVector :=
  match m with
  | [] => none
  | e :: rest => if e.1 = k then some e.2 else BlockMap.lookup rest k

/-- The method `HashMap::remove` of the entry with key `k`. -/
def BlockMap.remove (m : BlockMap) (k : Nat) : BlockMap :=
  m.filter (fun e => e.1 != k)

/-- The sequence `lookupForAdd(key)`, `add(p, key, empty)` when absent, then
`p->value().append(block)` of `addBreakOrContinue`. -/
def BlockMap.append (m : BlockMap) (k : Nat) (b : BlockId) : BlockMap :=
  match m with
  | [] => [(k, [b])]
  | e :: rest => if e.1 = k then (e.1, e.2 ++ [b]) :: rest else e :: BlockMap.append rest k b

/-- The keys present in a map. -/
def BlockMap.keys (m : BlockMap) : List Nat := m.map (fun e => e.1)

/-! ## The function compiler -/

/-- The class `FunctionCompiler::Call`. `abi_` holds the types handed to the
ABI generator so far. -/
structure Call where
  lineno_ : Nat
  column_ : Nat
  abi_ : List MIRType
  prevMaxStackBytes_ : Nat
  maxChildStackBytes_ : Nat
  spIncrement_ : Nat
  regArgs_ : List (Nat × Option DefId)
  stackArgs_ : List DefId
  childClobbers_ : Bool
deriving DecidableEq, Repr

/-- The constructor `Call(f, lineno, column)`. -/
def Call.new (lineno column : Nat) : Call :=
  ⟨lineno, column, [], 0, 0, 0, [], [], false⟩

/-- The four pending-branch maps of the function compiler. -/
inductive MapSel where
  | unlabeledBreaks | unlabeledContinues | labeledBreaks | labeledContinues
deriving DecidableEq, Repr

/-- The state of a `FunctionCompiler` after local scope setup, together with
the stack-argument counter of its `MIRGenerator`. -/
structure FunctionCompiler where
  pc_ : Nat
  graph_ : MIRGraph
  maxAsmJSStackArgBytes_ : Nat
  numLocals : Nat
  curBlock_ : Option BlockId
  loopStack_ : List Nat
  breakableStack_ : List Nat
  unlabeledBreaks_ : BlockMap
  unlabeledContinues_ : BlockMap
  labeledBreaks_ : BlockMap
  labeledContinues_ : BlockMap
deriving DecidableEq, Repr

namespace FunctionCompiler

/-- Read access to one of the pending-branch maps. -/
def getMap (f : FunctionCompiler) : MapSel → BlockMap
  | .unlabeledBreaks => f.unlabeledBreaks_
  | .unlabeledContinues => f.unlabeledContinues_
  | .labeledBreaks => f.labeledBreaks_
  | .labeledContinues => f.labeledContinues_

/-- Write access to one of the pending-branch maps. -/
def setMap (f : FunctionCompiler) (sel : MapSel) (m : BlockMap) : FunctionCompiler :=
  match sel with
  | .unlabeledBreaks => { f with unlabeledBreaks_ := m }
  | .unlabeledContinues => { f with unlabeledContinues_ := m }
  | .labeledBreaks => { f with labeledBreaks_ := m }
  | .labeledContinues => { f with labeledContinues_ := m }

/-- The method `inDeadCode`. -/
def inDeadCode (f : FunctionCompiler) : Bool := f.curBlock_.isNone

/-- Advance the decoder by `n` bytes (any of the `read*` methods). -/
def advance (f : FunctionCompiler) (n : Nat) : FunctionCompiler := { f with pc_ := f.pc_ + n }

/-- The method `getLocalDef`; `info().localSlot(slot)` is `slot` for asm.js. -/
def getLocalDef (f : FunctionCompiler) (slot : Nat) : Option DefId :=
  match f.curBlock_ with
  | none => none
  | some cur => f.graph_.getSlot cur slot

/-- The common body of the instruction constructors: dead-code check, build the
instruction, `curBlock_->add(ins)`, return it. -/
def emit (f : FunctionCompiler) (op : MOpcode) (operands : List (Option DefId)) :
    FunctionCompiler × Option DefId :=
  match f.curBlock_ with
  | none => (f, none)
  | some cur =>
    let r := f.graph_.add cur op operands
    ({ f with graph_ := r.1 }, some r.2)

/-- The methods `constant(v, type)`. -/
def constant (f : FunctionCompiler) (v : Int) (type : MIRType) : FunctionCompiler × Option DefId :=
  f.emit (.constant type v) []

/-- The methods `unary`, `binary`, `minMax`, `mul`, `div`, `mod`, `bitwise`,
`compare`, the SIMD constructors, the heap and global loads and stores and the
atomics: each builds one instruction of kind `code` on its operands. -/
def emitOp (f : FunctionCompiler) (code : Nat) (operands : List (Option DefId)) :
    FunctionCompiler × Option DefId :=
  f.emit (.op code) operands

/-- The method `compare`. -/
def compare (f : FunctionCompiler) (lhs rhs : Option DefId) (op : JSOp) (type : CompareType) :
    FunctionCompiler × Option DefId :=
  f.emit (.compare op type) [lhs, rhs]

/-- The method `loadHeap`; `needsBoundsCheck` is `chk == NEEDS_BOUNDS_CHECK`. -/
def loadHeap (f : FunctionCompiler) (accessType : Scalar) (ptr : Option DefId)
    (needsBoundsCheck : Bool) : FunctionCompiler × Option DefId :=
  f.emit (.asmJSLoadHeap accessType needsBoundsCheck 0 .MembarNobits .MembarNobits) [ptr]

/-- The method `storeHeap`. -/
def storeHeap (f : FunctionCompiler) (accessType : Scalar) (ptr v : Option DefId)
    (needsBoundsCheck : Bool) : FunctionCompiler :=
  (f.emit (.asmJSStoreHeap accessType needsBoundsCheck 0 .MembarNobits .MembarNobits) [ptr, v]).1

/-- The method `atomicLoadHeap`. -/
def atomicLoadHeap (f : FunctionCompiler) (accessType : Scalar) (ptr : Option DefId)
    (needsBoundsCheck : Bool) : FunctionCompiler × Option DefId :=
  f.emit (.asmJSLoadHeap accessType needsBoundsCheck 0 .MembarBeforeLoad .MembarAfterLoad) [ptr]

/-- The method `atomicStoreHeap`. -/
def atomicStoreHeap (f : FunctionCompiler) (accessType : Scalar) (ptr v : Option DefId)
    (needsBoundsCheck : Bool) : FunctionCompiler :=
  (f.emit (.asmJSStoreHeap accessType needsBoundsCheck 0 .MembarBeforeStore .MembarAfterStore)
    [ptr, v]).1

/-- The method `atomicCompareExchangeHeap`. -/
def atomicCompareExchangeHeap (f : FunctionCompiler) (accessType : Scalar)
    (ptr oldv newv : Option DefId) (needsBoundsCheck : Bool) : FunctionCompiler × Option DefId :=
  f.emit (.asmJSCompareExchangeHeap accessType needsBoundsCheck) [ptr, oldv, newv]

/-- The method `atomicExchangeHeap`. -/
def atomicExchangeHeap (f : FunctionCompiler) (accessType : Scalar) (ptr value : Option DefId)
    (needsBoundsCheck : Bool) : FunctionCompiler × Option DefId :=
  f.emit (.asmJSAtomicExchangeHeap accessType needsBoundsCheck) [ptr, value]

/-- The method `atomicBinopHeap`. -/
def atomicBinopHeap (f : FunctionCompiler) (op : Nat) (accessType : Scalar)
    (ptr v : Option DefId) (needsBoundsCheck : Bool) : FunctionCompiler × Option DefId :=
  f.emit (.asmJSAtomicBinopHeap op accessType needsBoundsCheck) [ptr, v]

/-- The method `assign`. -/
def assign (f : FunctionCompiler) (slot : Nat) (d : Option DefId) : FunctionCompiler :=
  match f.curBlock_ with
  | none => f
  | some cur => { f with graph_ := f.graph_.setSlot cur slot d }

/-- The method `memoryBarrier`. -/
def memoryBarrier (f : FunctionCompiler) : FunctionCompiler := (f.emit .memoryBarrier []).1

/-- The method `addInterruptCheck`. -/
def addInterruptCheck (f : FunctionCompiler) : FunctionCompiler := (f.emit .interruptCheck []).1

/-! ### Calls -/

/-- Modelled from the spec: `MIRGenerator::resetAsmJSMaxStackArgBytes`
(jit/MIRGenerator.h) is not in the given sources; it returns the function's
maximum stack-argument byte counter and sets it to zero. -/
def resetAsmJSMaxStackArgBytes (f : FunctionCompiler) : Nat × FunctionCompiler :=
  (f.maxAsmJSStackArgBytes_, { f with maxAsmJSStackArgBytes_ := 0 })

/-- The method `startCallArgs`. -/
def startCallArgs (f : FunctionCompiler) (call : Call) : FunctionCompiler × Call :=
  match f.curBlock_ with
  | none => (f, call)
  | some _ =>
    let r := f.resetAsmJSMaxStackArgBytes
    (r.2, { call with prevMaxStackBytes_ := r.1 })

/-- The method `passArg`. -/
def passArg (abi : ABIArgGenerator) (f : FunctionCompiler) (argDef : Option DefId)
    (mirType : MIRType) (call : Call) : FunctionCompiler × Call :=
  match f.curBlock_ with
  | none => (f, call)
  | some cur =>
    let r := f.resetAsmJSMaxStackArgBytes
    let childStackBytes := r.1
    let f1 := r.2
    let call1 : Call :=
      { call with
        maxChildStackBytes_ := max call.maxChildStackBytes_ childStackBytes
        childClobbers_ :=
          if 0 < childStackBytes ∧ call.stackArgs_ ≠ [] then true else call.childClobbers_ }
    let arg := abi.next call.abi_ mirType
    let call2 : Call := { call1 with abi_ := call.abi_ ++ [mirType] }
    match arg with
    | .stack offsetFromArgBase =>
      let a := f1.graph_.add cur (.passStackArg offsetFromArgBase) [argDef]
      ({ f1 with graph_ := a.1 }, { call2 with stackArgs_ := call2.stackArgs_ ++ [a.2] })
    | .reg reg =>
      (f1, { call2 with regArgs_ := call2.regArgs_ ++ [(reg, argDef)] })

/-- The method `MAsmJSPassStackArg::incrementOffset` applied through a pointer. -/
def incrementOffset (g : MIRGraph) (d : DefId) (inc : Nat) : MIRGraph :=
  g.modifyDef d (fun x =>
    match x.op with
    | .passStackArg o => { x with op := .passStackArg (u32 (o + inc)) }
    | _ => x)

/-- The method `finishCallArgs`. -/
def finishCallArgs (abi : ABIArgGenerator) (f : FunctionCompiler) (call : Call) :
    FunctionCompiler × Call :=
  match f.curBlock_ with
  | none => (f, call)
  | some _ =>
    let parentStackBytes := abi.stackBytesConsumedSoFar call.abi_
    if call.childClobbers_ then
      let spIncrement := AlignBytes call.maxChildStackBytes_ AsmJSStackAlignment
      let g := call.stackArgs_.foldl (fun g d => incrementOffset g d spIncrement) f.graph_
      let newStackBytes := max call.prevMaxStackBytes_ (u32 (spIncrement + parentStackBytes))
      ({ f with graph_ := g, maxAsmJSStackArgBytes_ := newStackBytes },
        { call with spIncrement_ := spIncrement })
    else
      let newStackBytes :=
        max call.prevMaxStackBytes_ (max call.maxChildStackBytes_ parentStackBytes)
      ({ f with maxAsmJSStackArgBytes_ := newStackBytes }, { call with spIncrement_ := 0 })

/-- The method `callPrivate`: the call instruction carries the callee, the
register arguments and `spIncrement_`. -/
def callPrivate (f : FunctionCompiler) (callee : Callee) (call : Call) :
    FunctionCompiler × Option DefId :=
  f.emit (.call callee call.regArgs_ call.spIncrement_) (call.regArgs_.map (fun a => a.2))

/-- The method `internalCall`. -/
def internalCall (f : FunctionCompiler) (funcIndex : Nat) (call : Call) :
    FunctionCompiler × Option DefId :=
  f.callPrivate (.Internal funcIndex) call

/-- The method `funcPtrCall`: mask constant, `MBitAnd` of index and mask (code
0 of `op`), table load, then the call. -/
def funcPtrCall (f : FunctionCompiler) (maskLit globalDataOffset : Nat) (index : Option DefId)
    (call : Call) : FunctionCompiler × Option DefId :=
  match f.curBlock_ with
  | none => (f, none)
  | some _ =>
    let m := f.emit (.constant .Int32 maskLit) []
    let a := m.1.emit (.op 0) [index, m.2]
    let p := a.1.emit (.loadFuncPtr globalDataOffset) [a.2]
    p.1.callPrivate (.Dynamic p.2) call

/-- The method `ffiCall`. -/
def ffiCall (f : FunctionCompiler) (globalDataOffset : Nat) (call : Call) :
    FunctionCompiler × Option DefId :=
  match f.curBlock_ with
  | none => (f, none)
  | some _ =>
    let p := f.emit (.loadFFIFunc globalDataOffset) []
    p.1.callPrivate (.Dynamic p.2) call

/-- The method `builtinCall`. -/
def builtinCall (f : FunctionCompiler) (builtin : Nat) (call : Call) :
    FunctionCompiler × Option DefId :=
  f.callPrivate (.Builtin builtin) call

/-! ### Control flow -/

/-- The method `newBlockWithDepth`. -/
def newBlockWithDepth (f : FunctionCompiler) (pred : Option BlockId) (loopDepth : Nat) :
    FunctionCompiler × BlockId :=
  let r := MBasicBlock.NewAsmJS f.graph_ f.numLocals pred .NORMAL
  let a := r.1.addBlock { r.2 with loopDepth := loopDepth }
  ({ f with graph_ := a.1 }, a.2)

/-- The method `newBlock`. -/
def newBlock (f : FunctionCompiler) (pred : Option BlockId) : FunctionCompiler × BlockId :=
  f.newBlockWithDepth pred f.loopStack_.length

/-- The method `returnExpr`. -/
def returnExpr (f : FunctionCompiler) (expr : Option DefId) : FunctionCompiler :=
  match f.curBlock_ with
  | none => f
  | some cur => { f with graph_ := f.graph_.endBlock cur (.asmJSReturn expr), curBlock_ := none }

/-- The method `returnVoid`. -/
def returnVoid (f : FunctionCompiler) : FunctionCompiler :=
  match f.curBlock_ with
  | none => f
  | some cur => { f with graph_ := f.graph_.endBlock cur .asmJSVoidReturn, curBlock_ := none }

/-- The method `branchAndStartThen`; the two block pointers are in-out
parameters. -/
def branchAndStartThen (f : FunctionCompiler) (cond : Option DefId)
    (thenBlock elseBlock : Option BlockId) :
    FunctionCompiler × Option BlockId × Option BlockId :=
  match f.curBlock_ with
  | none => (f, thenBlock, elseBlock)
  | some cur =>
    let t := match thenBlock with
      | some tb => (f, tb)
      | none => f.newBlock (some cur)
    let e := match elseBlock with
      | some eb => (t.1, eb)
      | none => t.1.newBlock (some cur)
    let g0 := e.1.graph_.endBlock cur (.test cond t.2 e.2)
    let g1 := if thenBlock.isSome then MBasicBlock.addPredecessor g0 t.2 cur else g0
    let g2 := if elseBlock.isSome then MBasicBlock.addPredecessor g1 e.2 cur else g1
    ({ e.1 with graph_ := g2.moveBlockToEnd t.2, curBlock_ := some t.2 }, some t.2, some e.2)

/-- The method `appendThenBlock`. -/
def appendThenBlock (f : FunctionCompiler) (thenBlocks : BlockVector) : BlockVector :=
  match f.curBlock_ with
  | none => thenBlocks
  | some cur => thenBlocks ++ [cur]

/-- The method `joinIf`. -/
def joinIf (f : FunctionCompiler) (thenBlocks : BlockVector) (joinBlock : Option BlockId) :
    FunctionCompiler :=
  match joinBlock with
  | none => f
  | some j =>
    let g := thenBlocks.foldl
      (fun g t => MBasicBlock.addPredecessor (g.endBlock t (.goto j)) j t) f.graph_
    { f with graph_ := g.moveBlockToEnd j, curBlock_ := some j }

/-- The method `switchToElse`. -/
def switchToElse (f : FunctionCompiler) (elseBlock : Option BlockId) : FunctionCompiler :=
  match elseBlock with
  | none => f
  | some e => { f with graph_ := f.graph_.moveBlockToEnd e, curBlock_ := some e }

/-- The loop body of `joinIfElse`: end the then-block with a jump to the join
block and add it as a predecessor unless it is the block the join was created
from. -/
def joinIfElseStep (join : BlockId) (predIsCur : Bool) (g : MIRGraph) (x : Nat × BlockId) :
    MIRGraph :=
  let g1 := g.endBlock x.2 (.goto join)
  if predIsCur ∨ 0 < x.1 then MBasicBlock.addPredecessor g1 join x.2 else g1

/-- The method `joinIfElse`. -/
def joinIfElse (f : FunctionCompiler) (thenBlocks : BlockVector) : FunctionCompiler :=
  match f.curBlock_, thenBlocks with
  | none, [] => f
  | none, t0 :: rest =>
    let n := f.newBlock (some t0)
    let g := ((t0 :: rest).enum).foldl (joinIfElseStep n.2 false) n.1.graph_
    { n.1 with graph_ := g, curBlock_ := some n.2 }
  | some cur, _ =>
    let n := f.newBlock (some cur)
    let g0 := n.1.graph_.endBlock cur (.goto n.2)
    let g := (thenBlocks.enum).foldl (joinIfElseStep n.2 true) g0
    { n.1 with graph_ := g, curBlock_ := some n.2 }

/-- The method `pushPhiInput`. -/
def pushPhiInput (f : FunctionCompiler) (d : Option DefId) : FunctionCompiler :=
  match f.curBlock_ with
  | none => f
  | some cur =>
    { f with graph_ := f.graph_.modifyBlock cur (fun blk => { blk with slots := blk.slots ++ [d] }) }

/-- The method `popPhiOutput`. -/
def popPhiOutput (f : FunctionCompiler) : FunctionCompiler × Option DefId :=
  match f.curBlock_ with
  | none => (f, none)
  | some cur =>
    ({ f with graph_ := f.graph_.modifyBlock cur (fun blk => { blk with slots := blk.slots.dropLast }) },
      ((f.graph_.block cur).slots.getLast?).join)

/-- The method `startPendingLoop`. -/
def startPendingLoop (f : FunctionCompiler) (pos : Nat) : FunctionCompiler × Option BlockId :=
  let f1 := { f with loopStack_ := f.loopStack_ ++ [pos], breakableStack_ := f.breakableStack_ ++ [pos] }
  match f1.curBlock_ with
  | none => (f1, none)
  | some cur =>
    let r := MBasicBlock.NewAsmJS f1.graph_ f1.numLocals (some cur) .PENDING_LOOP_HEADER
    let a := r.1.addBlock { r.2 with loopDepth := f1.loopStack_.length }
    ({ f1 with graph_ := a.1.endBlock cur (.goto a.2), curBlock_ := some a.2 }, some a.2)

/-- The test `cond->isConstant() && cond->toConstant()->valueToBoolean()`. -/
def isConstantTrue (g : MIRGraph) (cond : Option DefId) : Bool :=
  match cond with
  | none => false
  | some c =>
    match (g.getDef c).op with
    | .constant _ v => v != 0
    | _ => false

/-- The test `cond->isConstant()`. -/
def isConstant (g : MIRGraph) (cond : Option DefId) : Bool :=
  match cond with
  | none => false
  | some c =>
    match (g.getDef c).op with
    | .constant _ _ => true
    | _ => false

/-- The method `branchAndStartLoopBody`. -/
def branchAndStartLoopBody (f : FunctionCompiler) (cond : Option DefId) :
    FunctionCompiler × Option BlockId :=
  match f.curBlock_ with
  | none => (f, none)
  | some cur =>
    let b := f.newBlock (some cur)
    if isConstantTrue b.1.graph_ cond then
      ({ b.1 with graph_ := b.1.graph_.endBlock cur (.goto b.2), curBlock_ := some b.2 }, none)
    else
      let a := b.1.newBlockWithDepth (some cur) ((b.1.graph_.block cur).loopDepth - 1)
      ({ a.1 with graph_ := a.1.graph_.endBlock cur (.test cond b.2 a.2), curBlock_ := some b.2 },
        some a.2)

/-- The method `popLoop`; `popCopy` on an empty stack does not complete. -/
def popLoop (f : FunctionCompiler) : Option (Nat × FunctionCompiler) :=
  match f.loopStack_.getLast? with
  | none => none
  | some pos =>
    some (pos, { f with loopStack_ := f.loopStack_.dropLast,
                        breakableStack_ := f.breakableStack_.dropLast })

/-- The slot update of `fixupRedundantPhis(b)`. -/
def fixupSlot (g : MIRGraph) (s : Option DefId) : Option DefId :=
  match s with
  | none => none
  | some d => if (g.getDef d).unused then (g.getDef d).operands.getD 0 none else s

/-- The method `fixupRedundantPhis(MBasicBlock* b)`. -/
def fixupRedundantPhis (g : MIRGraph) (b : BlockId) : MIRGraph :=
  g.modifyBlock b (fun blk => { blk with slots := blk.slots.map (fixupSlot g) })

/-- The method `fixupRedundantPhis(MBasicBlock* loopEntry, T& map)`. -/
def fixupRedundantPhisMap (g : MIRGraph) (loopEntry : BlockId) (m : BlockMap) : MIRGraph :=
  m.foldl (fun g e =>
    e.2.foldl (fun g b =>
      if (g.block loopEntry).loopDepth ≤ (g.block b).loopDepth then fixupRedundantPhis g b else g) g) g

/-- First loop of `setLoopBackedge`: flag all redundant phis as unused. -/
def flagRedundantPhis (g : MIRGraph) (loopEntry : BlockId) : MIRGraph :=
  (g.block loopEntry).phis.foldl (fun g p =>
    if (g.getDef p).operands.getD 0 none = (g.getDef p).operands.getD 1 none then
      g.modifyDef p (fun d => { d with unused := true })
    else g) g

/-- Last loop of `setLoopBackedge`: discard redundant phis and add them to the
free list. -/
def discardRedundantPhis (g : MIRGraph) (loopEntry : BlockId) : MIRGraph :=
  (g.block loopEntry).phis.foldl (fun g p =>
    if (g.getDef p).unused then
      addPhiToFreeList
        (discardPhi (justReplaceAllUsesWith g p ((g.getDef p).operands.getD 0 none)) loopEntry p) p
    else g) g

/-- The method `setLoopBackedge`. -/
def setLoopBackedge (f : FunctionCompiler) (loopEntry backedge : BlockId)
    (afterLoop : Option BlockId) : FunctionCompiler :=
  let g0 := MBasicBlock.setBackedgeAsmJS f.graph_ loopEntry backedge
  let g1 := flagRedundantPhis g0 loopEntry
  let g2 := match afterLoop with
    | some a => fixupRedundantPhis g1 a
    | none => g1
  let g3 := fixupRedundantPhisMap g2 loopEntry f.labeledContinues_
  let g4 := fixupRedundantPhisMap g3 loopEntry f.labeledBreaks_
  let g5 := fixupRedundantPhisMap g4 loopEntry f.unlabeledContinues_
  let g6 := fixupRedundantPhisMap g5 loopEntry f.unlabeledBreaks_
  { f with graph_ := discardRedundantPhis g6 loopEntry }

/-- One iteration of the loop of `bindBreaksOrContinues`. -/
def bindBreaksOrContinuesStep (st : FunctionCompiler × Bool) (pred : BlockId) :
    FunctionCompiler × Bool :=
  if st.2 then
    match st.1.curBlock_ with
    | some cur =>
      ({ st.1 with graph_ :=
          MBasicBlock.addPredecessor (st.1.graph_.endBlock pred (.goto cur)) cur pred }, true)
    | none => (st.1, true)
  else
    let n := st.1.newBlock (some pred)
    let g0 := n.1.graph_.endBlock pred (.goto n.2)
    let g1 := match st.1.curBlock_ with
      | some cur => MBasicBlock.addPredecessor (g0.endBlock cur (.goto n.2)) n.2 cur
      | none => g0
    ({ n.1 with graph_ := g1, curBlock_ := some n.2 }, true)

/-- The method `bindBreaksOrContinues`; the vector is cleared by the caller's
removal of the map entry. -/
def bindBreaksOrContinues (f : FunctionCompiler) (preds : BlockVector) (createdJoinBlock : Bool) :
    FunctionCompiler × Bool :=
  preds.foldl bindBreaksOrContinuesStep (f, createdJoinBlock)

/-- One iteration of the loop of `bindLabeledBreaksOrContinues`. -/
def bindLabeledStep (sel : MapSel) (st : FunctionCompiler × Bool) (label : Nat) :
    FunctionCompiler × Bool :=
  match BlockMap.lookup (st.1.getMap sel) label with
  | none => st
  | some preds =>
    let r := bindBreaksOrContinues st.1 preds st.2
    (r.1.setMap sel (BlockMap.remove (r.1.getMap sel) label), r.2)

/-- The method `bindLabeledBreaksOrContinues`. -/
def bindLabeledBreaksOrContinues (f : FunctionCompiler) (maybeLabels : Option LabelVector)
    (sel : MapSel) (createdJoinBlock : Bool) : FunctionCompiler × Bool :=
  match maybeLabels with
  | none => (f, createdJoinBlock)
  | some labels => labels.foldl (bindLabeledStep sel) (f, createdJoinBlock)

/-- The method `bindUnlabeledBreaks`. -/
def bindUnlabeledBreaks (f : FunctionCompiler) (pos : Nat) : FunctionCompiler :=
  match BlockMap.lookup f.unlabeledBreaks_ pos with
  | none => f
  | some preds =>
    let r := bindBreaksOrContinues f preds false
    { r.1 with unlabeledBreaks_ := BlockMap.remove r.1.unlabeledBreaks_ pos }

/-- The method `bindContinues`. -/
def bindContinues (f : FunctionCompiler) (pos : Nat) (maybeLabels : Option LabelVector) :
    FunctionCompiler :=
  let r := match BlockMap.lookup f.unlabeledContinues_ pos with
    | none => (f, false)
    | some preds =>
      let b := bindBreaksOrContinues f preds false
      ({ b.1 with unlabeledContinues_ := BlockMap.remove b.1.unlabeledContinues_ pos }, b.2)
  (bindLabeledBreaksOrContinues r.1 maybeLabels .labeledContinues r.2).1

/-- The method `bindLabeledBreaks`. -/
def bindLabeledBreaks (f : FunctionCompiler) (maybeLabels : Option LabelVector) :
    FunctionCompiler :=
  (bindLabeledBreaksOrContinues f maybeLabels .labeledBreaks false).1

/-- The method `closeLoop`. -/
def closeLoop (f : FunctionCompiler) (loopEntry afterLoop : Option BlockId) :
    Option FunctionCompiler :=
  match f.popLoop with
  | none => none
  | some (pos, f1) =>
    match loopEntry with
    | none => some f1
    | some le =>
      let f2 := match f1.curBlock_ with
        | some cur =>
          setLoopBackedge { f1 with graph_ := f1.graph_.endBlock cur (.goto le) } le cur afterLoop
        | none => f1
      let f3 := match afterLoop with
        | some a => { f2 with curBlock_ := some a, graph_ := f2.graph_.moveBlockToEnd a }
        | none => { f2 with curBlock_ := none }
      some (f3.bindUnlabeledBreaks pos)

/-- The method `branchAndCloseDoWhileLoop`. -/
def branchAndCloseDoWhileLoop (f : FunctionCompiler) (cond : Option DefId)
    (loopEntry : Option BlockId) : Option FunctionCompiler :=
  match f.popLoop with
  | none => none
  | some (pos, f1) =>
    match loopEntry with
    | none => some f1
    | some le =>
      let f2 := match f1.curBlock_ with
        | none => f1
        | some cur =>
          if isConstant f1.graph_ cond then
            if isConstantTrue f1.graph_ cond then
              let s := setLoopBackedge { f1 with graph_ := f1.graph_.endBlock cur (.goto le) } le cur none
              { s with curBlock_ := none }
            else
              let a := f1.newBlock (some cur)
              { a.1 with graph_ := a.1.graph_.endBlock cur (.goto a.2), curBlock_ := some a.2 }
          else
            let a := f1.newBlock (some cur)
            let s := setLoopBackedge
              { a.1 with graph_ := a.1.graph_.endBlock cur (.test cond le a.2) } le cur (some a.2)
            { s with curBlock_ := some a.2 }
      some (f2.bindUnlabeledBreaks pos)

/-- The method `addBreakOrContinue`. -/
def addBreakOrContinue (f : FunctionCompiler) (key : Nat) (sel : MapSel) : FunctionCompiler :=
  match f.curBlock_ with
  | none => f
  | some cur =>
    { (f.setMap sel (BlockMap.append (f.getMap sel) key cur)) with curBlock_ := none }

/-- The method `addBreak`; `breakableStack_.back()` on an empty stack does not
complete. -/
def addBreak (f : FunctionCompiler) (maybeLabelId : Option Nat) : Option FunctionCompiler :=
  match maybeLabelId with
  | some labelId => some (f.addBreakOrContinue labelId .labeledBreaks)
  | none =>
    match f.breakableStack_.getLast? with
    | none => none
    | some pos => some (f.addBreakOrContinue pos .unlabeledBreaks)

/-- The method `addContinue`; `loopStack_.back()` on an empty stack does not
complete. -/
def addContinue (f : FunctionCompiler) (maybeLabelId : Option Nat) : Option FunctionCompiler :=
  match maybeLabelId with
  | some labelId => some (f.addBreakOrContinue labelId .labeledContinues)
  | none =>
    match f.loopStack_.getLast? with
    | none => none
    | some pos => some (f.addBreakOrContinue pos .unlabeledContinues)

/-- The method `startSwitch`. -/
def startSwitch (f : FunctionCompiler) (pos : Nat) (expr : Option DefId) (low high : Int) :
    FunctionCompiler × Option BlockId :=
  let f1 := { f with breakableStack_ := f.breakableStack_ ++ [pos] }
  match f1.curBlock_ with
  | none => (f1, none)
  | some cur =>
    ({ f1 with graph_ := f1.graph_.endBlock cur (.tableSwitch expr low high [] []),
               curBlock_ := none }, some cur)

/-- The method `startSwitchCase`. -/
def startSwitchCase (f : FunctionCompiler) (switchBlock : Option BlockId) :
    FunctionCompiler × Option BlockId :=
  match switchBlock with
  | none => (f, none)
  | some sb =>
    let n := f.newBlock (some sb)
    let g := match f.curBlock_ with
      | some cur => MBasicBlock.addPredecessor (n.1.graph_.endBlock cur (.goto n.2)) n.2 cur
      | none => n.1.graph_
    ({ n.1 with graph_ := g, curBlock_ := some n.2 }, some n.2)

/-- The method `startSwitchDefault`. -/
def startSwitchDefault (f : FunctionCompiler) (switchBlock : Option BlockId) :
    FunctionCompiler × Option BlockId :=
  let r := f.startSwitchCase switchBlock
  match r.2 with
  | none => r
  | some d => ({ r.1 with graph_ := r.1.graph_.moveBlockToEnd d }, some d)

/-- Modelled from the spec: `MTableSwitch::addDefault`, `addSuccessor` and
`addCase` (jit/MIR.h) are not in the given sources. Section 4.2: a dense jump
table over `[low, high]` where absent cases redirect to the default arm. The
default is the first successor; `addSuccessor` appends a successor and returns
its index; `addCase` appends a successor index to the case list. This is the
loop of `joinSwitch` over `cases`. -/
def addCases (cases : List (Option BlockId)) (defaultIndex : Nat)
    (table : List (Option BlockId) × List Nat) : List (Option BlockId) × List Nat :=
  cases.foldl (fun t c =>
    match c with
    | none => (t.1, t.2 ++ [defaultIndex])
    | some b => (t.1 ++ [some b], t.2 ++ [t.1.length])) table

/-- The table-switch part of `joinSwitch`: `addDefault` then the case loop. -/
def fillTableSwitch (cases : List (Option BlockId)) (defaultBlock : Option BlockId) :
    MControl → MControl
  | .tableSwitch e lo hi succs cs =>
    let t := addCases cases succs.length (succs ++ [defaultBlock], cs)
    .tableSwitch e lo hi t.1 t.2
  | c => c

/-- The method `joinSwitch`; `breakableStack_.popCopy()` on an empty stack
does not complete. -/
def joinSwitch (f : FunctionCompiler) (switchBlock : Option BlockId)
    (cases : List (Option BlockId)) (defaultBlock : Option BlockId) : Option FunctionCompiler :=
  match f.breakableStack_.getLast? with
  | none => none
  | some pos =>
    let f1 := { f with breakableStack_ := f.breakableStack_.dropLast }
    match switchBlock with
    | none => some f1
    | some sb =>
      let g := f1.graph_.modifyBlock sb (fun blk =>
        { blk with lastIns := blk.lastIns.map (fillTableSwitch cases defaultBlock) })
      let f2 := { f1 with graph_ := g }
      let f3 := match f2.curBlock_ with
        | some cur =>
          let n := f2.newBlock (some cur)
          { n.1 with graph_ := n.1.graph_.endBlock cur (.goto n.2), curBlock_ := some n.2 }
        | none => f2
      some (f3.bindUnlabeledBreaks pos)

/-- The method `prepareEmitMIR`: entry block, one parameter per argument type,
one constant per variable initializer, each stored in its local slot. -/
def prepareEmitMIR (argTypes : List MIRType) (varInitializers : List (MIRType × Int)) :
    FunctionCompiler :=
  let numLocals := argTypes.length + varInitializers.length
  let g0 : MIRGraph := ⟨[], [], [], []⟩
  let r := MBasicBlock.NewAsmJS g0 numLocals none .NORMAL
  let a := r.1.addBlock r.2
  let g1 := (List.range argTypes.length).foldl (fun g i =>
    let x := g.add a.2 (.parameter i) []
    x.1.setSlot a.2 i (some x.2)) a.1
  let g2 := (varInitializers.enum).foldl (fun g iv =>
    let x := g.add a.2 (.constant iv.2.1 iv.2.2) []
    x.1.setSlot a.2 (argTypes.length + iv.1) (some x.2)) g1
  ⟨0, g2, 0, numLocals, some a.2, [], [], [], [], [], []⟩

/-- The method `checkPostconditions` (its assertions as a predicate); `size` is
`func_.size()`. -/
def checkPostconditions (f : FunctionCompiler) (size : Nat) : Prop :=
  f.loopStack_ = [] ∧ f.unlabeledBreaks_ = [] ∧ f.unlabeledContinues_ = [] ∧
  f.labeledBreaks_ = [] ∧ f.labeledContinues_ = [] ∧ f.curBlock_ = none ∧ f.pc_ = size

end FunctionCompiler

/-! ## The bytecode, as the tree of its opcodes -/

/-- Immediates of the operator emitters that evaluate their operand
expressions in order and then build one instruction on them: `EmitUnary`,
`EmitUnaryMir`, `EmitBitwise`, `EmitAddOrSub`, `EmitMultiply`, `EmitDivOrMod`,
`EmitComparison`, `EmitGetGlo`, `EmitSetGlo`, `EmitLoadArray`, `EmitStore`,
`EmitSignMask`, the `EmitAtomics*` and `EmitSimd*` functions. `immBefore` and
`immAfter` are the bytes of immediates read before and after the operands;
`yieldsLast` is set for the store emitters, whose result is their last operand
and not the instruction. -/
structure Operator where
  code : Nat
  immBefore : Nat
  immAfter : Nat
  yieldsLast : Bool
deriving DecidableEq, Repr

/-- Instruction code of `MBitAnd`. -/
def Op.bitAnd : Nat := 0
/-- Instruction code of `MMinMax`. -/
def Op.minMax : Nat := 1
/-- Instruction code of the coercions `MToDouble` and `MToFloat32`. -/
def Op.coerce : Nat := 2
/-- Instruction code of `MAsmJSStoreHeap`. -/
def Op.storeHeap : Nat := 3

/-- The callee of a direct call emitter: `EmitInternalCall`, `EmitFFICall` or
`EmitMathBuiltinCall`. -/
inductive CallKind where
  | Internal (funcIndex : Nat)
  | FFI (globalDataOffset : Nat)
  | MathBuiltin (builtin : Nat)
deriving DecidableEq, Repr

/-- Bytes of immediates a direct call emitter reads before its arguments:
function index or global offset (4), signature pointer (8), line and column
(4 + 4); the math builtins read line and column only. -/
def CallKind.immBytes : CallKind → Nat
  | .Internal _ => 20
  | .FFI _ => 20
  | .MathBuiltin _ => 8

/-- Encoded width of a literal of the given type. -/
def literalWidth : AsmType → Nat
  | .Int32 => 4
  | .Float32 => 4
  | .Float64 => 8
  | .Int32x4 => 16
  | .Float32x4 => 16

mutual
/-- Expressions (the opcodes of the enums `I32`, `F32`, `F64`, `I32X4`,
`F32X4`). -/
inductive Expr where
  | literal (type : AsmType) (v : Int)
  | getLocal (slot : Nat)
  | setLocal (slot : Nat) (e : Expr)
  | idExpr (e : Expr)
  | operator (o : Operator) (args : Args)
  | minMax (first : Expr) (rest : Args)
  | storeWithCoercion (ptr : Expr) (rhs : Expr)
  | call (c : CallExpr)
  | conditional (cond : Expr) (ifTrue : Expr) (ifFalse : Expr)
  | comma (stmts : Stmts) (last : Expr)
/-- Operand and argument lists; an argument carries its signature type. -/
inductive Args where
  | nil
  | cons (type : AsmType) (e : Expr) (rest : Args)
/-- Calls: direct calls and calls through a function-pointer table. -/
inductive CallExpr where
  | direct (kind : CallKind) (lineno column : Nat) (args : Args)
  | indirect (mask globalDataOffset lineno column : Nat) (index : Expr) (args : Args)
/-- One link of an if / else-if chain: `Stmt::IfThen` or `Stmt::IfElse`. -/
inductive IfChain where
  | ifThen (cond : Expr) (thenStmt : Stmt)
  | ifElse (cond : Expr) (thenStmt : Stmt) (elseStmt : Stmt)
/-- Statements (the opcodes of the enum `Stmt`). -/
inductive Stmt where
  | block (stmts : Stmts)
  | ifStmt (chain : IfChain)
  | switchStmt (low high : Int) (expr : Expr) (cases : Cases) (dflt : OptStmt)
  | whileStmt (cond : Expr) (body : Stmt)
  | doWhile (body : Stmt) (cond : Expr)
  | forStmt (init : OptStmt) (cond : Expr) (body : Stmt) (inc : OptStmt)
  | label (labelId : Nat) (s : Stmt)
  | continueStmt
  | continueLabel (labelId : Nat)
  | breakStmt
  | breakLabel (labelId : Nat)
  | retVoid
  | ret (e : Expr)
  | exprStmt (e : Expr)
  | callStmt (c : CallExpr)
  | atomicsFence
  | noop
  | idStmt (s : Stmt)
  | interruptCheckHead
  | interruptCheckLoop (s : Stmt)
/-- An optional statement: the default arm of a switch, the initializer and
the increment of a `for`. -/
inductive OptStmt where
  | absent
  | present (s : Stmt)
/-- Statement lists. -/
inductive Stmts where
  | nil
  | cons (s : Stmt) (rest : Stmts)
/-- The explicit cases of a switch, in encoding order. -/
inductive Cases where
  | nil
  | cons (caseValue : Int) (body : Stmt) (rest : Cases)
end

/-- Number of statements in a list (`numStmt`, `numExpr - 1`). -/
def Stmts.length : Stmts → Nat
  | .nil => 0
  | .cons _ rest => rest.length + 1

/-- Number of explicit cases (`numCases`). -/
def Cases.length : Cases → Nat
  | .nil => 0
  | .cons _ _ rest => rest.length + 1

/-- Number of arguments of a signature. -/
def Args.length : Args → Nat
  | .nil => 0
  | .cons _ _ rest => rest.length + 1

/-- The table size `high - low + 1` of `EmitSwitch`; a negative size makes
`resize` fail. -/
def tableLength (low high : Int) : Option Nat :=
  if 0 ≤ high - low + 1 then some (high - low + 1).toNat else none

/-- The index `caseValue - low` into the case vector; out of range is an
invalid access. -/
def caseIndex (low caseValue : Int) (len : Nat) : Option Nat :=
  if low ≤ caseValue ∧ (caseValue - low).toNat < len then some (caseValue - low).toNat else none

/-- The call instruction of a direct call emitter, after `finishCallArgs`:
`internalCall`, `ffiCall` or `builtinCall`. -/
def emitDirectCall (kind : CallKind) (fin : FunctionCompiler × Call) :
    FunctionCompiler × Option DefId :=
  match kind with
  | .Internal funcIndex => fin.1.internalCall funcIndex fin.2
  | .FFI globalDataOffset => fin.1.ffiCall globalDataOffset fin.2
  | .MathBuiltin builtin => fin.1.builtinCall builtin fin.2

/-- The test `!hasDefault && numCases == 0` of `EmitSwitch`. -/
def switchIsEmpty : Cases → OptStmt → Bool
  | .nil, .absent => true
  | _, _ => false

/-! ## The decoder functions -/

mutual
/-- The functions `EmitI32Expr`, `EmitF32Expr`, `EmitF64Expr`, `EmitI32X4Expr`,
`EmitF32X4Expr` (one opcode byte, then the emitter of that opcode). -/
def EmitExpr (abi : ABIArgGenerator) :
    Expr → FunctionCompiler → Option (FunctionCompiler × Option DefId)
  -- EmitLiteral
  | .literal type v, f =>
    some ((f.advance (1 + literalWidth type)).constant v (MIRTypeFromAsmType type))
  -- EmitGetLoc
  | .getLocal slot, f =>
    some (f.advance 5, (f.advance 5).getLocalDef slot)
  -- EmitSetLoc
  | .setLocal slot e, f => do
    let r ← EmitExpr abi e (f.advance 5)
    pure (r.1.assign slot r.2, r.2)
  -- the opcode Id
  | .idExpr e, f => EmitExpr abi e (f.advance 1)
  -- the operator emitters
  | .operator o args, f => do
    let r ← EmitOperands abi args (f.advance (1 + o.immBefore))
    pure (((r.1.advance o.immAfter).emitOp o.code r.2).1,
      if o.yieldsLast then r.2.getLast?.join else ((r.1.advance o.immAfter).emitOp o.code r.2).2)
  -- EmitMathMinMax
  | .minMax first rest, f => do
    let r ← EmitExpr abi first (f.advance 2)
    EmitMinMaxRest abi rest r.2 r.1
  -- EmitStoreWithCoercion
  | .storeWithCoercion ptr rhs, f => do
    let p ← EmitExpr abi ptr (f.advance 2)
    let r ← EmitExpr abi rhs p.1
    pure (((r.1.emitOp Op.coerce [r.2]).1.emitOp Op.storeHeap
      [p.2, (r.1.emitOp Op.coerce [r.2]).2]).1, r.2)
  -- EmitInternalCall, EmitFuncPtrCall, EmitFFICall, EmitMathBuiltinCall
  | .call c, f => EmitCall abi c (f.advance 1)
  -- EmitConditional
  | .conditional cond ifTrue ifFalse, f => do
    let c ← EmitExpr abi cond (f.advance 1)
    let t ← EmitExpr abi ifTrue (c.1.branchAndStartThen c.2 none none).1
    let e ← EmitExpr abi ifFalse
      ((t.1.pushPhiInput t.2).switchToElse (c.1.branchAndStartThen c.2 none none).2.2)
    pure (((e.1.pushPhiInput e.2).joinIfElse (t.1.appendThenBlock [])).popPhiOutput)
  -- EmitComma
  | .comma stmts last, f => do
    let f1 ← EmitStatements abi stmts (f.advance 5)
    EmitExpr abi last f1
/-- The operand expressions of an operator, evaluated in order. -/
def EmitOperands (abi : ABIArgGenerator) :
    Args → FunctionCompiler → Option (FunctionCompiler × List (Option DefId))
  | .nil, f => some (f, [])
  | .cons _ e rest, f => do
    let r ← EmitExpr abi e f
    let rs ← EmitOperands abi rest r.1
    pure (rs.1, r.2 :: rs.2)
/-- The loop of `EmitMathMinMax` over the operands after the first. -/
def EmitMinMaxRest (abi : ABIArgGenerator) :
    Args → Option DefId → FunctionCompiler → Option (FunctionCompiler × Option DefId)
  | .nil, lastDef, f => some (f, lastDef)
  | .cons _ e rest, lastDef, f => do
    let r ← EmitExpr abi e f
    EmitMinMaxRest abi rest (r.1.emitOp Op.minMax [lastDef, r.2]).2
      (r.1.emitOp Op.minMax [lastDef, r.2]).1
/-- The loop of `EmitCallArgs`: evaluate argument `i`, then `passArg` it. -/
def EmitCallArgsLoop (abi : ABIArgGenerator) :
    Args → Call → FunctionCompiler → Option (FunctionCompiler × Call)
  | .nil, call, f => some (f, call)
  | .cons type e rest, call, f => do
    let r ← EmitExpr abi e f
    EmitCallArgsLoop abi rest (FunctionCompiler.passArg abi r.1 r.2 (MIRTypeFromAsmType type) call).2
      (FunctionCompiler.passArg abi r.1 r.2 (MIRTypeFromAsmType type) call).1
/-- The call emitters. The direct ones read their immediates, then run
`EmitCallArgs` (`startCallArgs`, the argument loop, `finishCallArgs`) and emit
the call; `EmitFuncPtrCall` evaluates the index expression before the
arguments. -/
def EmitCall (abi : ABIArgGenerator) :
    CallExpr → FunctionCompiler → Option (FunctionCompiler × Option DefId)
  | .direct kind lineno column args, f => do
    let a ← EmitCallArgsLoop abi args
      ((f.advance kind.immBytes).startCallArgs (Call.new lineno column)).2
      ((f.advance kind.immBytes).startCallArgs (Call.new lineno column)).1
    pure (emitDirectCall kind (FunctionCompiler.finishCallArgs abi a.1 a.2))
  | .indirect mask globalDataOffset lineno column index args, f => do
    let ix ← EmitExpr abi index (f.advance 24)
    let a ← EmitCallArgsLoop abi args (ix.1.startCallArgs (Call.new lineno column)).2
      (ix.1.startCallArgs (Call.new lineno column)).1
    pure ((FunctionCompiler.finishCallArgs abi a.1 a.2).1.funcPtrCall mask globalDataOffset ix.2
      (FunctionCompiler.finishCallArgs abi a.1 a.2).2)
/-- The function `EmitIfElse`, entered after the opcode of the link was read.
The recursion on an `else` arm that is itself an if statement is the source's
`goto recurse`; the opcode byte of the `else` arm is read here
(`readStmtOp`) in that case and by `EmitStatement` otherwise. -/
def EmitIfElse (abi : ABIArgGenerator) :
    IfChain → BlockVector → FunctionCompiler → Option FunctionCompiler
  | .ifThen cond thenStmt, thenBlocks, f => do
    let c ← EmitExpr abi cond f
    let t ← EmitStatement abi thenStmt none (c.1.branchAndStartThen c.2 none none).1
    pure (t.1.joinIf (t.1.appendThenBlock thenBlocks) (c.1.branchAndStartThen c.2 none none).2.2)
  | .ifElse cond thenStmt elseStmt, thenBlocks, f => do
    let c ← EmitExpr abi cond f
    let t ← EmitStatement abi thenStmt none (c.1.branchAndStartThen c.2 none none).1
    match elseStmt with
    | .ifStmt chain =>
      EmitIfElse abi chain (t.1.appendThenBlock thenBlocks)
        ((t.1.switchToElse (c.1.branchAndStartThen c.2 none none).2.2).advance 1)
    | s => do
      let e ← EmitStatement abi s none
        (t.1.switchToElse (c.1.branchAndStartThen c.2 none none).2.2)
      pure (e.1.joinIfElse (t.1.appendThenBlock thenBlocks))
/-- The two overloads of `EmitStatement`: read the statement opcode (one
byte), then dispatch on it; each arm is the `Emit*` function of that opcode.
The label vector is part of the result because `EmitLabel` appends to the
vector of its caller. -/
def EmitStatement (abi : ABIArgGenerator) :
    Stmt → Option LabelVector → FunctionCompiler →
      Option (FunctionCompiler × Option LabelVector)
  -- EmitBlock
  | .block stmts, l, f => do
    let f1 ← EmitStatements abi stmts (f.advance 5)
    pure (f1, l)
  -- EmitIfElse
  | .ifStmt chain, l, f => do
    let f1 ← EmitIfElse abi chain [] (f.advance 1)
    pure (f1, l)
  -- EmitSwitch
  | .switchStmt low high expr cases dflt, l, f => do
    let e ← EmitExpr abi expr (f.advance 14)
    if switchIsEmpty cases dflt then pure (e.1, l)
    else do
      let len ← tableLength low high
      let cs ← EmitSwitchCases abi cases low (e.1.startSwitch e.1.pc_ e.2 low high).2
        (List.replicate len none) (e.1.startSwitch e.1.pc_ e.2 low high).1
      let f1 ← EmitOptStmt abi dflt
        (cs.1.startSwitchDefault (e.1.startSwitch e.1.pc_ e.2 low high).2).1
      let f2 ← f1.joinSwitch (e.1.startSwitch e.1.pc_ e.2 low high).2 cs.2
        (cs.1.startSwitchDefault (e.1.startSwitch e.1.pc_ e.2 low high).2).2
      pure (f2, l)
  -- EmitWhile, with `headPc` the position after the opcode
  | .whileStmt cond body, l, f => do
    let c ← EmitExpr abi cond ((f.advance 1).startPendingLoop (f.advance 1).pc_).1
    let s ← EmitStatement abi body none (c.1.branchAndStartLoopBody c.2).1
    let f1 ← (s.1.bindContinues (f.advance 1).pc_ l).closeLoop
      ((f.advance 1).startPendingLoop (f.advance 1).pc_).2 (c.1.branchAndStartLoopBody c.2).2
    pure (f1, l)
  -- EmitDoWhile
  | .doWhile body cond, l, f => do
    let s ← EmitStatement abi body none ((f.advance 1).startPendingLoop (f.advance 1).pc_).1
    let c ← EmitExpr abi cond (s.1.bindContinues (f.advance 1).pc_ l)
    let f1 ← c.1.branchAndCloseDoWhileLoop c.2
      ((f.advance 1).startPendingLoop (f.advance 1).pc_).2
    pure (f1, l)
  -- EmitFor
  | .forStmt init cond body inc, l, f => do
    let f0 ← EmitOptStmt abi init (f.advance 1)
    let c ← EmitExpr abi cond (f0.startPendingLoop (f.advance 1).pc_).1
    let s ← EmitStatement abi body none (c.1.branchAndStartLoopBody c.2).1
    let f1 ← EmitOptStmt abi inc (s.1.bindContinues (f.advance 1).pc_ l)
    let f2 ← f1.closeLoop (f0.startPendingLoop (f.advance 1).pc_).2
      (c.1.branchAndStartLoopBody c.2).2
    pure (f2, l)
  -- EmitLabel
  | .label labelId s, some labels, f =>
    EmitStatement abi s (some (labels ++ [labelId])) (f.advance 5)
  | .label labelId s, none, f => do
    let r ← EmitStatement abi s (some [labelId]) (f.advance 5)
    pure (r.1.bindLabeledBreaks r.2, none)
  -- EmitContinue
  | .continueStmt, l, f => do
    let f1 ← (f.advance 1).addContinue none
    pure (f1, l)
  | .continueLabel labelId, l, f => do
    let f1 ← (f.advance 5).addContinue (some labelId)
    pure (f1, l)
  -- EmitBreak
  | .breakStmt, l, f => do
    let f1 ← (f.advance 1).addBreak none
    pure (f1, l)
  | .breakLabel labelId, l, f => do
    let f1 ← (f.advance 5).addBreak (some labelId)
    pure (f1, l)
  -- EmitRet
  | .retVoid, l, f => some ((f.advance 1).returnVoid, l)
  | .ret e, l, f => do
    let r ← EmitExpr abi e (f.advance 1)
    pure (r.1.returnExpr r.2, l)
  -- the expression statements I32Expr, F32Expr, F64Expr, I32X4Expr, F32X4Expr
  | .exprStmt e, l, f => do
    let r ← EmitExpr abi e (f.advance 1)
    pure (r.1, l)
  -- the statements CallInternal, CallIndirect, CallImport
  | .callStmt c, l, f => do
    let r ← EmitCall abi c (f.advance 1)
    pure (r.1, l)
  | .atomicsFence, l, f => some ((f.advance 1).memoryBarrier, l)
  | .noop, l, f => some (f.advance 1, l)
  | .idStmt s, l, f => do
    let r ← EmitStatement abi s none (f.advance 1)
    pure (r.1, l)
  -- EmitInterruptCheck
  | .interruptCheckHead, l, f => some ((f.advance 9).addInterruptCheck, l)
  -- EmitInterruptCheckLoop
  | .interruptCheckLoop s, l, f => do
    let r ← EmitStatement abi s none (f.advance 9).addInterruptCheck
    pure (r.1, l)
/-- An optional statement: emitted when present. -/
def EmitOptStmt (abi : ABIArgGenerator) :
    OptStmt → FunctionCompiler → Option FunctionCompiler
  | .absent, f => some f
  | .present s, f => do
    let r ← EmitStatement abi s none f
    pure r.1
/-- The loops over statements of `EmitBlock`, `EmitComma` and
`GenerateAsmFunctionMIR`. -/
def EmitStatements (abi : ABIArgGenerator) :
    Stmts → FunctionCompiler → Option FunctionCompiler
  | .nil, f => some f
  | .cons s rest, f => do
    let r ← EmitStatement abi s none f
    EmitStatements abi rest r.1
/-- The case loop of `EmitSwitch`: read the case value, start the case block
and store it at `cases[caseValue - low]`, emit the case body. -/
def EmitSwitchCases (abi : ABIArgGenerator) :
    Cases → Int → Option BlockId → List (Option BlockId) → FunctionCompiler →
      Option (FunctionCompiler × List (Option BlockId))
  | .nil, _, _, cases, f => some (f, cases)
  | .cons caseValue body rest, low, switchBlock, cases, f => do
    let idx ← caseIndex low caseValue cases.length
    let r ← EmitStatement abi body none ((f.advance 4).startSwitchCase switchBlock).1
    EmitSwitchCases abi rest low switchBlock
      (cases.set idx ((f.advance 4).startSwitchCase switchBlock).2) r.1
end

/-- A function as the builder receives it: argument types, variable
initializers and the statements of the body. -/
structure AsmFunction where
  argTypes : List MIRType
  varInitializers : List (MIRType × Int)
  body : Stmts

/-- The function `GenerateAsmFunctionMIR` up to `extractMIR`: local scope setup,
then statements until the decoder is done. -/
def GenerateAsmFunctionMIR (abi : ABIArgGenerator) (func : AsmFunction) :
    Option FunctionCompiler :=
  EmitStatements abi func.body (FunctionCompiler.prepareEmitMIR func.argTypes func.varInitializers)

/-! ## A concrete ABI for evaluating the model -/

/-- State of the x64 argument generator: next integer register, next float
register, stack bytes used. -/
structure ABIState where
  intRegIndex : Nat
  floatRegIndex : Nat
  stackOffset : Nat
deriving DecidableEq, Repr

/-- One call of `next` on the generator state. -/
def ABIState.step (s : ABIState) (t : MIRType) : ABIArg × ABIState :=
  match t with
  | .Int32 =>
    if s.intRegIndex = 6 then (.stack s.stackOffset, { s with stackOffset := s.stackOffset + 8 })
    else (.reg s.intRegIndex, { s with intRegIndex := s.intRegIndex + 1 })
  | .Float32 | .Double =>
    if s.floatRegIndex = 8 then (.stack s.stackOffset, { s with stackOffset := s.stackOffset + 8 })
    else (.reg (16 + s.floatRegIndex), { s with floatRegIndex := s.floatRegIndex + 1 })
  | .Int32x4 | .Float32x4 =>
    if s.floatRegIndex = 8 then
      (.stack (AlignBytes s.stackOffset 16), { s with stackOffset := AlignBytes s.stackOffset 16 + 16 })
    else (.reg (16 + s.floatRegIndex), { s with floatRegIndex := s.floatRegIndex + 1 })

/-- The generator state after the given argument types. -/
def ABIState.after (seen : List MIRType) : ABIState :=
  seen.foldl (fun s t => (s.step t).2) ⟨0, 0, 0⟩

/-- Modelled from the spec: the platform `ABIArgGenerator` is not in the given
sources. Section 4.3: each argument goes to a register slot or to a stack slot
at a specific frame offset. This instance is the usual non-Windows x64
convention: six integer registers (numbered 0 to 5), eight float registers
(numbered 16 to 23), then 8-byte stack slots (16-byte aligned 16-byte slots
for SIMD values). It is used to evaluate the model at concrete inputs; the
general theorems hold for every generator. -/
def x64ABI : ABIArgGenerator where
  next := fun seen t => ((ABIState.after seen).step t).1
  stackBytesConsumedSoFar := fun seen => (ABIState.after seen).stackOffset

/-- An `Int32` literal expression. -/
def lit (n : Int) : Expr := .literal .Int32 n

/-- Argument list of `Int32` literals `1, ..., 7`: six register arguments and
one stack argument under `x64ABI`. -/
def sevenInts : Args :=
  .cons .Int32 (lit 1) (.cons .Int32 (lit 2) (.cons .Int32 (lit 3) (.cons .Int32 (lit 4)
    (.cons .Int32 (lit 5) (.cons .Int32 (lit 6) (.cons .Int32 (lit 7) .nil))))))

/-- A call of an internal function with seven `Int32` arguments; it needs 8
bytes of stack-argument space. -/
def callSevenInts : Expr := .call (.direct (.Internal 1) 0 0 sevenInts)

/-- Marshalling trace of a call `g(1, ..., 6, a0, a1, a2)` whose arguments
`a0, a1, a2` are stack-passed and where `a1` is `callSevenInts`: the bytes
consumed by the sub-evaluation of `a1`, the stack arguments assigned before
it, the offset of `a0` before and after `finishCallArgs`, and `spIncrement_`. -/
def clobberTrace : Option (Nat × List DefId × MOpcode × MOpcode × Nat) :=
  let s := (FunctionCompiler.prepareEmitMIR [] []).startCallArgs (Call.new 0 0)
  match EmitCallArgsLoop x64ABI sevenInts s.2 s.1 with
  | none => none
  | some a =>
    match EmitExpr x64ABI callSevenInts a.1 with
    | none => none
    | some r =>
      let p1 := FunctionCompiler.passArg x64ABI r.1 r.2 .Int32 a.2
      let a2 := p1.1.constant 9 .Int32
      let p2 := FunctionCompiler.passArg x64ABI a2.1 a2.2 .Int32 p1.2
      let fin := FunctionCompiler.finishCallArgs x64ABI p2.1 p2.2
      some (r.1.maxAsmJSStackArgBytes_, a.2.stackArgs_,
        (r.1.graph_.getDef (a.2.stackArgs_.getD 0 0)).op,
        (fin.1.graph_.getDef (a.2.stackArgs_.getD 0 0)).op, fin.2.spIncrement_)

/-! ## Jump patching (Assembler-x64.h) -/

/-- Code memory: the byte stored at each address. -/
abbrev Memory := Nat → Nat

/-- Store one byte. -/
def Memory.write (m : Memory) (addr byte : Nat) : Memory :=
  fun x => if x = addr then byte else m x

/-- Byte `i` of the little-endian representation of `v`. -/
def byteAt (v i : Nat) : Nat := v / 256 ^ i % 256

/-- The constant `Assembler::SizeOfExtendedJump`. -/
def SizeOfExtendedJump : Nat := 1 + 1 + 4 + 2 + 8

/-- The class `CodeLocationJump`: address just after the jump instruction and
the address of its entry in the extended jump table. -/
structure CodeLocationJump where
  raw : Nat
  jumpTableEntry : Nat
deriving DecidableEq, Repr

/-- Modelled from the spec: `X86Encoding::CanRelinkJump` is not in the given
sources. Section 4.5: the jump is patched directly if the computed
displacement fits the instruction's native field width, a signed 32-bit
relative field. -/
def CanRelinkJump (jump target : Nat) : Bool :=
  decide (-(2 : Int) ^ 31 ≤ (target : Int) - jump ∧ (target : Int) - jump < 2 ^ 31)

/-- Modelled from the spec: `X86Encoding::SetInt32` is not in the given
sources; it stores a 32-bit value in the four bytes that end at `loc`
(little-endian, two's complement), the displacement field of the instruction
that ends there. -/
def SetInt32 (m : Memory) (loc : Nat) (value : Int) : Memory :=
  let u := (value % 2 ^ 32).toNat
  (((m.write (loc - 4) (byteAt u 0)).write (loc - 4 + 1) (byteAt u 1)).write
    (loc - 4 + 2) (byteAt u 2)).write (loc - 4 + 3) (byteAt u 3)

/-- Modelled from the spec: `X86Encoding::SetRel32` is not in the given
sources; it patches the short encoding with the displacement from the jump to
the target, and does not complete when the displacement does not fit. -/
def SetRel32 (m : Memory) (jump target : Nat) : Option Memory :=
  if CanRelinkJump jump target then some (SetInt32 m jump ((target : Int) - jump)) else none

/-- Modelled from the spec: `Assembler::PatchJumpEntry` is not in the given
sources. Section 4.5: the slot holds the real target address; the address is
in the last eight bytes of the entry (see the layout comment in the class
`Assembler`). -/
def PatchJumpEntry (m : Memory) (entry target : Nat) : Memory :=
  let a := entry + SizeOfExtendedJump - 8
  let u := target % 2 ^ 64
  (((((((m.write a (byteAt u 0)).write (a + 1) (byteAt u 1)).write (a + 2) (byteAt u 2)).write
    (a + 3) (byteAt u 3)).write (a + 4) (byteAt u 4)).write (a + 5) (byteAt u 5)).write
    (a + 6) (byteAt u 6)).write (a + 7) (byteAt u 7)

/-- The function `PatchJump`. -/
def PatchJump (m : Memory) (jump : CodeLocationJump) (label : Nat) : Option Memory :=
  if CanRelinkJump jump.raw label then
    SetRel32 m jump.raw label
  else
    match SetRel32 m jump.raw jump.jumpTableEntry with
    | none => none
    | some m1 => some (PatchJumpEntry m1 jump.jumpTableEntry label)

/-- The signed 32-bit displacement stored in the four bytes that end at `loc`. -/
def readRel32 (m : Memory) (loc : Nat) : Int :=
  let u := m (loc - 4) + 256 * m (loc - 4 + 1) + 65536 * m (loc - 4 + 2) + 16777216 * m (loc - 4 + 3)
  if u < 2 ^ 31 then (u : Int) else (u : Int) - 2 ^ 32

/-- The 64-bit address stored in the last eight bytes of a jump table entry. -/
def readEntryTarget (m : Memory) (entry : Nat) : Nat :=
  let a := entry + SizeOfExtendedJump - 8
  m a + 256 * m (a + 1) + 256 ^ 2 * m (a + 2) + 256 ^ 3 * m (a + 3) + 256 ^ 4 * m (a + 4) +
    256 ^ 5 * m (a + 5) + 256 ^ 6 * m (a + 6) + 256 ^ 7 * m (a + 7)

/-! ## Predicates used in the statements -/

/-- Two graphs with the same number of blocks and the same control instruction
at the end of every block. -/
def SameControl (g g' : MIRGraph) : Prop :=
  g'.blocks.length = g.blocks.length ∧ ∀ c, (g'.block c).lastIns = (g.block c).lastIns

/-- The method `MTableSwitch::getCase(i)`: the successor that case `i` of the
table targets. -/
def MControl.getCase : MControl → Nat → Option BlockId
  | .tableSwitch _ _ _ successors cases, i => successors.getD (cases.getD i 0) none
  | _, _ => none

/-- The method `MTableSwitch::numCases`. -/
def MControl.numCases : MControl → Nat
  | .tableSwitch _ _ _ _ cases => cases.length
  | _ => 0

/-- Block `b` ends with a jump to block `j`. -/
def JumpsTo (g : MIRGraph) (b j : BlockId) : Prop :=
  (g.block b).lastIns = some (.goto j)

/-- From `g` to `g'` no block was removed, every block of `S` that exists in
`g` now ends with a jump to `j`, and every other block of `g` kept its control
instruction. -/
def ControlChange (S : List BlockId) (j : BlockId) (g g' : MIRGraph) : Prop :=
  g.blocks.length ≤ g'.blocks.length ∧
  ∀ c, c < g.blocks.length →
    (c ∈ S → JumpsTo g' c j) ∧ (c ∉ S → (g'.block c).lastIns = (g.block c).lastIns)

/-- The blocks parked in a map under one key. -/
def parkedUnder (m : BlockMap) (k : Nat) : BlockVector := (BlockMap.lookup m k).getD []

/-- The blocks that `bindLabeledBreaksOrContinues` finds for a label vector:
those parked under each label, the entry of a label being removed once it was
bound. -/
def parkedSeq : LabelVector → BlockMap → BlockVector
  | [], _ => []
  | l :: ls, m => parkedUnder m l ++ parkedSeq ls (BlockMap.remove m l)

/-- The blocks of `S` were bound from state `f` to state `f'` through one
shared join block: nothing changes when `S` is empty; otherwise exactly one
block is created, it becomes the current block, and every block of `S`, and the
block that was current if the builder was in live code, ends with a jump to
it. -/
def SharesJoin (S : List BlockId) (f f' : FunctionCompiler) : Prop :=
  (S = [] → f'.graph_ = f.graph_ ∧ f'.curBlock_ = f.curBlock_) ∧
  (S ≠ [] →
    f'.graph_.blocks.length = f.graph_.blocks.length + 1 ∧
    f'.curBlock_ = some f.graph_.blocks.length ∧
    ∀ b, (b ∈ S ∨ f.curBlock_ = some b) → b < f.graph_.blocks.length →
      JumpsTo f'.graph_ b f.graph_.blocks.length)

/-- The function `function f(x) { L: while (x) { if (x) break; else break L; } }`:
a loop that is the target of an unlabeled break and, through its label 7, of a
labeled break. -/
def breakBothWays : AsmFunction :=
  ⟨[.Int32], [],
    .cons (.label 7 (.whileStmt (.getLocal 0)
      (.ifStmt (.ifElse (.getLocal 0) .breakStmt (.breakLabel 7))))) (.cons .retVoid .nil)⟩

/-- The explicit cases `case 2: break; case 5: break;` of the example switch. -/
def sparseCases : Cases := .cons 2 .breakStmt (.cons 5 .breakStmt .nil)

/-- The statement `switch (x) { case 2: break; case 5: break; default: ; }`
over the range `[2, 5]`. -/
def sparseSwitch : Stmt := .switchStmt 2 5 (.getLocal 0) sparseCases (.present .noop)

/-- The steps of `EmitSwitch` on `sparseSwitch` up to the call of
`joinSwitch`: the state, the switch block, the case vector and the default
block that `joinSwitch` receives. -/
def sparseSwitchBeforeJoin :
    FunctionCompiler × Option BlockId × List (Option BlockId) × Option BlockId :=
  let f0 := FunctionCompiler.prepareEmitMIR [.Int32] []
  match EmitExpr x64ABI (.getLocal 0) (f0.advance 14) with
  | none => (f0, none, [], none)
  | some e =>
    let sw := e.1.startSwitch e.1.pc_ e.2 2 5
    match EmitSwitchCases x64ABI sparseCases 2 sw.2 (List.replicate 4 none) sw.1 with
    | none => (f0, none, [], none)
    | some cs =>
      let d := cs.1.startSwitchDefault sw.2
      match EmitOptStmt x64ABI (.present .noop) d.1 with
      | none => (f0, none, [], none)
      | some f1 => (f1, sw.2, cs.2, d.2)

/-- The state after `joinSwitch` in the example. -/
def sparseSwitchAfterJoin : FunctionCompiler :=
  (sparseSwitchBeforeJoin.1.joinSwitch sparseSwitchBeforeJoin.2.1 sparseSwitchBeforeJoin.2.2.1
    sparseSwitchBeforeJoin.2.2.2).getD sparseSwitchBeforeJoin.1

/-- Number of conditions of an if / else-if chain. -/
def IfChain.numConds : IfChain → Nat
  | .ifThen _ _ => 1
  | .ifElse _ _ (.ifStmt chain) => chain.numConds + 1
  | .ifElse _ _ _ => 1

/-- The arms of an if / else-if chain emitted link by link with no join, as
the description of the chain has it: branch on the condition, emit the then
arm, collect its terminal block if it ended in live code, switch to the else
block and go on with the next link. The result is the state after the last
arm, the blocks collected, and for a chain without a final else the else
block of the last branch (`none` stands for a chain with a final else). -/
def collectThenArms (abi : ABIArgGenerator) :
    IfChain → BlockVector → FunctionCompiler →
      Option (FunctionCompiler × BlockVector × Option (Option BlockId))
  | .ifThen cond thenStmt, thenBlocks, f => do
    let c ← EmitExpr abi cond f
    let t ← EmitStatement abi thenStmt none (c.1.branchAndStartThen c.2 none none).1
    pure (t.1, t.1.appendThenBlock thenBlocks,
      some (c.1.branchAndStartThen c.2 none none).2.2)
  | .ifElse cond thenStmt (.ifStmt chain), thenBlocks, f => do
    let c ← EmitExpr abi cond f
    let t ← EmitStatement abi thenStmt none (c.1.branchAndStartThen c.2 none none).1
    collectThenArms abi chain (t.1.appendThenBlock thenBlocks)
      ((t.1.switchToElse (c.1.branchAndStartThen c.2 none none).2.2).advance 1)
  | .ifElse cond thenStmt s, thenBlocks, f => do
    let c ← EmitExpr abi cond f
    let t ← EmitStatement abi thenStmt none (c.1.branchAndStartThen c.2 none none).1
    let e ← EmitStatement abi s none
      (t.1.switchToElse (c.1.branchAndStartThen c.2 none none).2.2)
    pure (e.1, t.1.appendThenBlock thenBlocks, none)

/-- What the single join at the end of an if / else-if chain does, from the
state `pre` after the last arm and the collected then-arm blocks `blocks`:
with a final else (`lastElse = none`), `joinIfElse` creates nothing when every
arm ended in dead code, and otherwise creates exactly one block to which every
collected block and the live else arm jump; without a final else, `joinIf`
creates no block and makes every collected block jump to the else block of
the last link, which becomes the current block. -/
def JoinResult (pre : FunctionCompiler) (blocks : BlockVector)
    (lastElse : Option (Option BlockId)) (f' : FunctionCompiler) : Prop :=
  match lastElse with
  | none =>
    f' = pre.joinIfElse blocks ∧
    ((pre.curBlock_ = none ∧ blocks = []) → f' = pre) ∧
    (¬(pre.curBlock_ = none ∧ blocks = []) →
      f'.graph_.blocks.length = pre.graph_.blocks.length + 1 ∧
      f'.curBlock_ = some pre.graph_.blocks.length ∧
      ∀ b, (b ∈ blocks ∨ pre.curBlock_ = some b) → b < pre.graph_.blocks.length →
        JumpsTo f'.graph_ b pre.graph_.blocks.length)
  | some j =>
    f' = pre.joinIf blocks j ∧
    (j = none → f' = pre) ∧
    (∀ jb, j = some jb →
      f'.graph_.blocks.length = pre.graph_.blocks.length ∧
      f'.curBlock_ = some jb ∧
      ∀ b, b ∈ blocks → b < pre.graph_.blocks.length → JumpsTo f'.graph_ b jb)

/-- The builder at the start of a function with one `int` argument and no
variables. -/
def oneIntArg : FunctionCompiler := FunctionCompiler.prepareEmitMIR [.Int32] []

/-- The chain `if (x) return; else return;` in a function without result. -/
def ifBothReturn : IfChain := .ifElse (.getLocal 0) .retVoid .retVoid

/-- The chain `if (x) ; else if (x) ; else if (x) ; else ;`, three conditions
with a final else. -/
def ifChainOfThree : IfChain :=
  .ifElse (.getLocal 0) .noop (.ifStmt (.ifElse (.getLocal 0) .noop
    (.ifStmt (.ifElse (.getLocal 0) .noop .noop))))

/-- The control instructions of all blocks of a graph, by block id. -/
def MIRGraph.controls (g : MIRGraph) : List (Option MControl) :=
  g.blocks.map fun blk => blk.lastIns

/-- The test of the first loop of `setLoopBackedge`:
`phi->getOperand(0) == phi->getOperand(1)`. -/
def redundantPhi (g : MIRGraph) (p : DefId) : Bool :=
  (g.getDef p).operands.getD 0 none == (g.getDef p).operands.getD 1 none

/-- The operand `o` after every use of a phi of `R` was rewritten to the
operand 0 that the phi has in `g`. -/
def rewriteUse (g : MIRGraph) (R : List DefId) (o : Option DefId) : Option DefId :=
  match o with
  | none => none
  | some d => if d ∈ R then (g.getDef d).operands.getD 0 none else some d

/-- Apply a rewrite to the operand of a control instruction. -/
def MControl.mapOperand (fn : Option DefId → Option DefId) : MControl → MControl
  | .goto t => .goto t
  | .test c a b => .test (fn c) a b
  | .tableSwitch e lo hi succs cases => .tableSwitch (fn e) lo hi succs cases
  | .asmJSReturn v => .asmJSReturn (fn v)
  | .asmJSVoidReturn => .asmJSVoidReturn

/-- The steps of `EmitWhile` and `closeLoop` on
`function f(x) { var y = 0; y = x; while (x) { x = y; } }` up to the call of
`setLoopBackedge`: the state, the loop header, the backedge block and the
block after the loop. -/
def copyBackBeforeBackedge : FunctionCompiler × BlockId × BlockId × Option BlockId :=
  let f0 := FunctionCompiler.prepareEmitMIR [.Int32] [(.Int32, 0)]
  match EmitStatement x64ABI (.exprStmt (.setLocal 1 (.getLocal 0))) none f0 with
  | none => (f0, 0, 0, none)
  | some a =>
    let lp := (a.1.advance 1).startPendingLoop (a.1.advance 1).pc_
    match EmitExpr x64ABI (.getLocal 0) lp.1 with
    | none => (f0, 0, 0, none)
    | some c =>
      let b := c.1.branchAndStartLoopBody c.2
      match EmitStatement x64ABI (.exprStmt (.setLocal 0 (.getLocal 1))) none b.1 with
      | none => (f0, 0, 0, none)
      | some s =>
        match (s.1.bindContinues (a.1.advance 1).pc_ none).popLoop with
        | none => (f0, 0, 0, none)
        | some p =>
          match p.2.curBlock_, lp.2 with
          | some cur, some le =>
            ({ p.2 with graph_ := p.2.graph_.endBlock cur (.goto le) }, le, cur, b.2)
          | _, _ => (f0, 0, 0, none)

/-- The state after `setLoopBackedge` in the example. -/
def copyBackAfterBackedge : FunctionCompiler :=
  copyBackBeforeBackedge.1.setLoopBackedge copyBackBeforeBackedge.2.1
    copyBackBeforeBackedge.2.2.1 copyBackBeforeBackedge.2.2.2

/-- The graphs `g` and `g'` have the same definitions and their blocks have
the same phis and control instructions (they may differ in slots). -/
def SamePhis (g g' : MIRGraph) : Prop :=
  g'.defs = g.defs ∧ g'.blocks.length = g.blocks.length ∧
  ∀ c, (g'.block c).phis = (g.block c).phis ∧ (g'.block c).lastIns = (g.block c).lastIns

/-- The state of the last loop of `setLoopBackedge` after the phis `S` of the
header `le` were discarded, relative to the graph `G` the loop started from:
flags are unchanged, every operand is the rewrite of the operand in `G`, and
the header has lost the phis of `S`. -/
def DiscardedPhis (le : BlockId) (G : MIRGraph) (S : List DefId) (g : MIRGraph) : Prop :=
  (∀ d, (g.getDef d).unused = (G.getDef d).unused) ∧
  (∀ d, (g.getDef d).operands = (G.getDef d).operands.map (rewriteUse G S)) ∧
  (∀ c, (g.block c).lastIns = (G.block c).lastIns.map (MControl.mapOperand (rewriteUse G S))) ∧
  (g.block le).phis = (G.block le).phis.filter (fun p => decide (p ∉ S))

/-- The graph right after `setBackedgeAsmJS` in `setLoopBackedge`. -/
def backedgeGraph (f : FunctionCompiler) (loopEntry backedge : BlockId) : MIRGraph :=
  MBasicBlock.setBackedgeAsmJS f.graph_ loopEntry backedge

/-- The header phis that the first loop of `setLoopBackedge` flags: those
whose two operands are the same definition when the backedge has been set. -/
def flaggedPhis (f : FunctionCompiler) (loopEntry backedge : BlockId) : List DefId :=
  ((backedgeGraph f loopEntry backedge).block loopEntry).phis.filter
    (redundantPhi (backedgeGraph f loopEntry backedge))

/-- The statement `g(1, 2, 3, 4, 5, 6, 7);`, a call whose seventh argument is
passed on the stack under `x64ABI`. -/
def callSevenIntsStmt : Stmt := .callStmt (.direct (.Internal 0) 1 1 sevenInts)

/-- A function without result whose body is `g(1, ..., 7);` followed by a call
`h((return, 0));` whose only argument is a comma expression that starts with
a return statement, so that the evaluation of the argument ends in dead
code. -/
def callThenDeadArg : AsmFunction :=
  ⟨[], [], .cons callSevenIntsStmt
    (.cons (.callStmt (.direct (.Internal 1) 2 2
      (.cons .Int32 (.comma (.cons .retVoid .nil) (lit 0)) .nil))) .nil)⟩

/-- The stack-argument stores of a graph: the offsets of its
`MAsmJSPassStackArg` definitions. -/
def MIRGraph.stackArgOffsets (g : MIRGraph) : List Nat :=
  g.defs.filterMap fun d =>
    match d.op with
    | .passStackArg o => some o
    | _ => none

/-- The calls of a graph: callee and stack-pointer increment of its
`MAsmJSCall` definitions. -/
def MIRGraph.calls (g : MIRGraph) : List (Callee × Nat) :=
  g.defs.filterMap fun d =>
    match d.op with
    | .call callee _ spIncrement => some (callee, spIncrement)
    | _ => none

/-! ## Well-formed bytecode and the pending-branch bookkeeping (C8, C9) -/

mutual
/-- Encoded size of an expression: the opcode byte, the immediates and the
operands, as the `read*` methods consume them. -/
def Expr.bytes : Expr → Nat
  | .literal type _ => 1 + literalWidth type
  | .getLocal _ => 5
  | .setLocal _ e => 5 + e.bytes
  | .idExpr e => 1 + e.bytes
  | .operator o args => 1 + o.immBefore + args.bytes + o.immAfter
  | .minMax first rest => 2 + first.bytes + rest.bytes
  | .storeWithCoercion ptr rhs => 2 + ptr.bytes + rhs.bytes
  | .call c => 1 + c.bytes
  | .conditional cond ifTrue ifFalse => 1 + cond.bytes + ifTrue.bytes + ifFalse.bytes
  | .comma stmts last => 5 + stmts.bytes + last.bytes
/-- Encoded size of an operand or argument list. -/
def Args.bytes : Args → Nat
  | .nil => 0
  | .cons _ e rest => e.bytes + rest.bytes
/-- Encoded size of a call after its opcode. -/
def CallExpr.bytes : CallExpr → Nat
  | .direct kind _ _ args => kind.immBytes + args.bytes
  | .indirect _ _ _ _ index args => 24 + index.bytes + args.bytes
/-- Encoded size of an if chain after the opcode of its first link. -/
def IfChain.bytes : IfChain → Nat
  | .ifThen cond thenStmt => cond.bytes + thenStmt.bytes
  | .ifElse cond thenStmt elseStmt => cond.bytes + thenStmt.bytes + elseStmt.bytes
/-- Encoded size of a statement. -/
def Stmt.bytes : Stmt → Nat
  | .block stmts => 5 + stmts.bytes
  | .ifStmt chain => 1 + chain.bytes
  | .switchStmt _ _ expr cases dflt => 14 + expr.bytes + cases.bytes + dflt.bytes
  | .whileStmt cond body => 1 + cond.bytes + body.bytes
  | .doWhile body cond => 1 + body.bytes + cond.bytes
  | .forStmt init cond body inc => 1 + init.bytes + cond.bytes + body.bytes + inc.bytes
  | .label _ s => 5 + s.bytes
  | .continueStmt => 1
  | .continueLabel _ => 5
  | .breakStmt => 1
  | .breakLabel _ => 5
  | .retVoid => 1
  | .ret e => 1 + e.bytes
  | .exprStmt e => 1 + e.bytes
  | .callStmt c => 1 + c.bytes
  | .atomicsFence => 1
  | .noop => 1
  | .idStmt s => 1 + s.bytes
  | .interruptCheckHead => 9
  | .interruptCheckLoop s => 9 + s.bytes
/-- Encoded size of an optional statement. -/
def OptStmt.bytes : OptStmt → Nat
  | .absent => 0
  | .present s => s.bytes
/-- Encoded size of a statement list. -/
def Stmts.bytes : Stmts → Nat
  | .nil => 0
  | .cons s rest => s.bytes + rest.bytes
/-- Encoded size of the explicit cases of a switch. -/
def Cases.bytes : Cases → Nat
  | .nil => 0
  | .cons _ body rest => 4 + body.bytes + rest.bytes
end

/-- The labels of a label chain: the ids of the `Stmt::Label` opcodes that
directly precede a statement. -/
def Stmt.chainLabels : Stmt → List Nat
  | .label labelId s => labelId :: s.chainLabels
  | _ => []

/-- What a statement may jump to, from where it stands in the function:
whether it is inside a loop and inside a loop or switch, the labels in scope,
the labels an enclosing statement gives as targets of `break` and of
`continue`, and the labels of the chain that directly precedes it. -/
structure Ctx where
  inLoop : Bool
  inBreakable : Bool
  scope : List Nat
  brkLabels : List Nat
  contLabels : List Nat
  pending : List Nat
deriving DecidableEq, Repr

/-- The context of a function body. -/
def Ctx.top : Ctx := ⟨false, false, [], [], [], []⟩

/-- The context of the statements inside a block, an if arm, the initializer
of a `for`, or any statement that is not a loop: the label chain does not
reach them. -/
def Ctx.inner (c : Ctx) : Ctx := { c with pending := [] }

/-- The context of a loop body: the labels of the chain become targets of
`continue`. -/
def Ctx.loopBody (c : Ctx) : Ctx :=
  { c with inLoop := true, inBreakable := true, contLabels := c.pending ++ c.contLabels,
           pending := [] }

/-- The context of the part of a loop that comes after its continues were
bound (the condition of a `do` loop, the increment of a `for`), seen from the
loop: a `break` of the loop may still be pending, a `continue` may not. -/
def Ctx.loopTail (c : Ctx) : Ctx := { c with inLoop := false, inBreakable := true, pending := [] }

/-- The context of the cases of a switch. -/
def Ctx.switchBody (c : Ctx) : Ctx := { c with inBreakable := true, pending := [] }

/-- The context of the statements inside an expression and of the increment
of a `for`: no jump out of them. -/
def Ctx.noJump (c : Ctx) : Ctx := ⟨false, false, c.scope, [], [], []⟩

/-- The context under a label chain with the given labels. -/
def Ctx.chain (c : Ctx) (labels : List Nat) : Ctx :=
  { c with scope := labels ++ c.scope, brkLabels := labels ++ c.brkLabels, pending := labels }

mutual
/-- Well-formed expression: the statements inside it are well formed and do
not jump out of it. -/
def wfExpr (c : Ctx) : Expr → Bool
  | .literal _ _ => true
  | .getLocal _ => true
  | .setLocal _ e => wfExpr c e
  | .idExpr e => wfExpr c e
  | .operator _ args => wfArgs c args
  | .minMax first rest => wfExpr c first && wfArgs c rest
  | .storeWithCoercion ptr rhs => wfExpr c ptr && wfExpr c rhs
  | .call call => wfCall c call
  | .conditional cond ifTrue ifFalse => wfExpr c cond && wfExpr c ifTrue && wfExpr c ifFalse
  | .comma stmts last => wfStmts c.noJump stmts && wfExpr c last
/-- Well-formed operand list. -/
def wfArgs (c : Ctx) : Args → Bool
  | .nil => true
  | .cons _ e rest => wfExpr c e && wfArgs c rest
/-- Well-formed call. -/
def wfCall (c : Ctx) : CallExpr → Bool
  | .direct _ _ _ args => wfArgs c args
  | .indirect _ _ _ _ index args => wfExpr c index && wfArgs c args
/-- Well-formed if chain. -/
def wfIf (c : Ctx) : IfChain → Bool
  | .ifThen cond thenStmt => wfExpr c cond && wfStmt c.inner thenStmt
  | .ifElse cond thenStmt elseStmt =>
    wfExpr c cond && wfStmt c.inner thenStmt && wfStmt c.inner elseStmt
/-- Well-formed statement: `break` and `continue` have a target. An
unlabeled `break` is inside a loop or switch and an unlabeled `continue`
inside a loop; a labeled `break` names a label in scope; a labeled `continue`
names a label of the chain of an enclosing loop whose body it is in; the
labels of a chain are distinct and not in scope already. -/
def wfStmt (c : Ctx) : Stmt → Bool
  | .block stmts => wfStmts c.inner stmts
  | .ifStmt chain => wfIf c chain
  | .switchStmt _ _ expr cases dflt =>
    wfExpr c expr && wfCases c.switchBody cases && wfOpt c.switchBody dflt
  | .whileStmt cond body => wfExpr c cond && wfStmt c.loopBody body
  | .doWhile body cond => wfStmt c.loopBody body && wfExpr c cond
  | .forStmt init cond body inc =>
    wfOpt c.inner init && wfExpr c cond && wfStmt c.loopBody body && wfOpt c.noJump inc
  | .label labelId s =>
    if c.pending = [] then
      (labelId :: s.chainLabels).Nodup && (labelId :: s.chainLabels).all (fun x => x ∉ c.scope) &&
        wfStmt (c.chain (labelId :: s.chainLabels)) s
    else wfStmt c s
  | .continueStmt => c.inLoop
  | .continueLabel labelId => labelId ∈ c.contLabels
  | .breakStmt => c.inBreakable
  | .breakLabel labelId => labelId ∈ c.brkLabels
  | .retVoid => true
  | .ret e => wfExpr c e
  | .exprStmt e => wfExpr c e
  | .callStmt call => wfCall c call
  | .atomicsFence => true
  | .noop => true
  | .idStmt s => wfStmt c.inner s
  | .interruptCheckHead => true
  | .interruptCheckLoop s => wfStmt c.inner s
/-- Well-formed optional statement. -/
def wfOpt (c : Ctx) : OptStmt → Bool
  | .absent => true
  | .present s => wfStmt c.inner s
/-- Well-formed statement list. -/
def wfStmts (c : Ctx) : Stmts → Bool
  | .nil => true
  | .cons s rest => wfStmt c.inner s && wfStmts c rest
/-- Well-formed cases of a switch. -/
def wfCases (c : Ctx) : Cases → Bool
  | .nil => true
  | .cons _ body rest => wfStmt c.inner body && wfCases c rest
end

/-- Well-formed function: the body is well formed at the top of the
function. -/
def AsmFunction.wellFormed (func : AsmFunction) : Bool := wfStmts Ctx.top func.body

/-- The decoder position, the two stacks and the four pending-branch maps of
the function compiler. -/
structure Bookkeeping where
  pc : Nat
  loopStack : List Nat
  breakableStack : List Nat
  unlabeledBreaks : BlockMap
  unlabeledContinues : BlockMap
  labeledBreaks : BlockMap
  labeledContinues : BlockMap
deriving DecidableEq, Repr

/-- The bookkeeping part of the state. -/
def FunctionCompiler.bookkeeping (f : FunctionCompiler) : Bookkeeping :=
  ⟨f.pc_, f.loopStack_, f.breakableStack_, f.unlabeledBreaks_, f.unlabeledContinues_,
    f.labeledBreaks_, f.labeledContinues_⟩

/-- The pending-branch maps of the state. -/
def FunctionCompiler.maps (f : FunctionCompiler) :
    BlockMap × BlockMap × BlockMap × BlockMap :=
  (f.unlabeledBreaks_, f.unlabeledContinues_, f.labeledBreaks_, f.labeledContinues_)

/-- The labels and contexts are consistent: targets are in scope and a label
of the pending chain is not yet a target of `continue`. -/
def Ctx.ok (c : Ctx) : Prop :=
  (∀ x ∈ c.brkLabels, x ∈ c.scope) ∧ (∀ x ∈ c.contLabels, x ∈ c.scope) ∧
  (∀ x ∈ c.pending, x ∈ c.scope) ∧ (∀ x ∈ c.pending, x ∉ c.contLabels)

/-- The state invariant under a context: every unlabeled entry is keyed by a
position on the stack of its kind, the positions on the stacks are positions
already read, and every labeled entry is keyed by a label in scope, the
labeled continues not by a label of the pending chain. -/
def Inv (c : Ctx) (f : FunctionCompiler) : Prop :=
  c.ok ∧
  (∀ k ∈ BlockMap.keys f.unlabeledBreaks_, k ∈ f.breakableStack_) ∧
  (∀ k ∈ BlockMap.keys f.unlabeledContinues_, k ∈ f.loopStack_) ∧
  (∀ x ∈ f.breakableStack_, x ≤ f.pc_) ∧
  (∀ x ∈ f.loopStack_, x ≤ f.pc_) ∧
  (∀ k ∈ BlockMap.keys f.labeledBreaks_, k ∈ c.scope) ∧
  (∀ k ∈ BlockMap.keys f.labeledContinues_, k ∈ c.scope ∧ k ∉ c.pending)

/-- The effect of emitting `n` bytes of bytecode under a context on the
bookkeeping, from state `f` to state `f'`: the decoder advanced by `n`, the
stacks are as before, and every entry of a pending-branch map was there
before or is keyed by a target the context allows (the innermost loop or
switch, a label of the context). -/
def Moves (c : Ctx) (f f' : FunctionCompiler) (n : Nat) : Prop :=
  f'.pc_ = f.pc_ + n ∧ f'.loopStack_ = f.loopStack_ ∧ f'.breakableStack_ = f.breakableStack_ ∧
  (∀ k ∈ BlockMap.keys f'.unlabeledBreaks_, k ∈ BlockMap.keys f.unlabeledBreaks_ ∨
    (c.inBreakable = true ∧ f.breakableStack_.getLast? = some k)) ∧
  (∀ k ∈ BlockMap.keys f'.unlabeledContinues_, k ∈ BlockMap.keys f.unlabeledContinues_ ∨
    (c.inLoop = true ∧ f.loopStack_.getLast? = some k)) ∧
  (∀ k ∈ BlockMap.keys f'.labeledBreaks_, k ∈ BlockMap.keys f.labeledBreaks_ ∨ k ∈ c.brkLabels) ∧
  (∀ k ∈ BlockMap.keys f'.labeledContinues_,
    k ∈ BlockMap.keys f.labeledContinues_ ∨ k ∈ c.contLabels)

/-- Code entered dead is left dead, with the pending-branch maps untouched. -/
def StaysDead (f f' : FunctionCompiler) : Prop :=
  f.curBlock_ = none → f'.curBlock_ = none ∧ f'.maps = f.maps

/-- The effect of emitting `n` bytes of bytecode under a context, from state
`f` to state `f'`. -/
def Step (c : Ctx) (f f' : FunctionCompiler) (n : Nat) : Prop :=
  Moves c f f' n ∧ StaysDead f f'

/-- The label vector handed to `EmitStatement` agrees with the context: no
vector outside a label chain, and inside a chain the labels read so far,
which together with the labels still to come make up the chain. -/
def LabelsOk (l : Option LabelVector) (c : Ctx) (s : Stmt) : Prop :=
  match l with
  | none => c.pending = []
  | some labels => labels ++ s.chainLabels = c.pending ∧ c.pending ≠ []

/-- The key under which a loop or switch parks its unlabeled breaks and
continues: the decoder position after the opcode of a loop, after the
expression of a switch that has a case or a default. `pc` is the position of
the statement. -/
def Stmt.ownPos (pc : Nat) : Stmt → Option Nat
  | .whileStmt _ _ => some (pc + 1)
  | .doWhile _ _ => some (pc + 1)
  | .forStmt _ _ _ _ => some (pc + 1)
  | .switchStmt _ _ expr cases dflt =>
    if switchIsEmpty cases dflt then none else some (pc + 14 + expr.bytes)
  | _ => none

/-- The loop `while (x) { if (x) break; else break L; }`, where `L` is the
label id 7. -/
def innerLoop : Stmt :=
  .whileStmt (.getLocal 0) (.ifStmt (.ifElse (.getLocal 0) .breakStmt (.breakLabel 7)))

/-- The statement `L: while (x) { if (x) break; else break L; }`, the first
statement of `breakBothWays`. -/
def labeledLoop : Stmt := .label 7 innerLoop

/-- The state after `EmitStatement` on `labeledLoop` at the start of a
function with one `int` argument. -/
def labeledLoopResult : FunctionCompiler × Option LabelVector :=
  (EmitStatement x64ABI labeledLoop none oneIntArg).getD (oneIntArg, none)

/-- The state after `EmitStatement` on `innerLoop` as `EmitLabel` calls it:
after the five bytes of the label, with the label vector `[7]`. -/
def innerLoopResult : FunctionCompiler × Option LabelVector :=
  (EmitStatement x64ABI innerLoop (some [7]) (oneIntArg.advance 5)).getD (oneIntArg, none)

/-- The state in which `GenerateAsmFunctionMIR` leaves the builder on
`breakBothWays`. -/
def breakBothWaysResult : FunctionCompiler :=
  (GenerateAsmFunctionMIR x64ABI breakBothWays).getD oneIntArg

/-! ## Examples for the dead-code and parking properties -/

/-- A state in dead code inside a loop: one `int` argument, after `return;`
and the start of a loop at position 1. -/
def deadInLoop : FunctionCompiler := (oneIntArg.returnVoid.startPendingLoop 1).1

/-- A live state inside a loop: one `int` argument, after the start of a loop
at position 1 (the current block is the loop header, block 1). -/
def liveInLoop : FunctionCompiler := (oneIntArg.startPendingLoop 1).1

/-- The state at the start of a function with two `int` arguments. -/
def twoIntArgs : FunctionCompiler := FunctionCompiler.prepareEmitMIR [.Int32, .Int32] []

/-- The current block `cur` of state `f` was parked in the map `sel` under
`key`, giving state `f'`: the block is appended to the list of that key, the
lists of the other keys and the other maps are as before, the graph is
untouched (no jump was emitted), and the builder is in dead code. -/
def ParkedIn (f f' : FunctionCompiler) (sel : MapSel) (key : Nat) (cur : BlockId) : Prop :=
  parkedUnder (f'.getMap sel) key = parkedUnder (f.getMap sel) key ++ [cur] ∧
  (∀ k, k ≠ key → BlockMap.lookup (f'.getMap sel) k = BlockMap.lookup (f.getMap sel) k) ∧
  (∀ s, s ≠ sel → f'.getMap s = f.getMap s) ∧
  f'.graph_ = f.graph_ ∧ f'.curBlock_ = none ∧
  f'.loopStack_ = f.loopStack_ ∧ f'.breakableStack_ = f.breakableStack_

/-- A live state in a case of a switch (position 9) inside a loop (position
1): the current block is the case block, block 2. -/
def liveInSwitchInLoop : FunctionCompiler :=
  ((liveInLoop.startSwitch 9 none 0 0).1.startSwitchCase (some 1)).1

/-- Modelled from the spec: the value that an `MBitAnd` computes on two
`Int32` values (jit/MIR.h is not in the given sources): the bitwise AND of the
two 32-bit patterns. Section 4.3 says that the runtime index is masked with
the mask literal. -/
def MBitAnd.value (lhs rhs : Nat) : Nat := u32 lhs &&& u32 rhs

/-- The comparison opcodes of the enum `I32`, in the order in which
`EmitI32Expr` lists them, and `Bad` for an opcode that is not a comparison. -/
inductive I32 where
  | EqI32 | NeI32 | SLtI32 | SLeI32 | SGtI32 | SGeI32 | ULtI32 | ULeI32 | UGtI32 | UGeI32
  | EqF32 | NeF32 | LtF32 | LeF32 | GtF32 | GeF32
  | EqF64 | NeF64 | LtF64 | LeF64 | GtF64 | GeF64
  | Bad
deriving DecidableEq, Repr

/-- Modelled from the spec: the numbering of the enum `I32` (asmjs/AsmJSGlobals.h)
is not in the given sources. Section 4.2 says that the opcode space is
arranged so that a single threshold split distinguishes signed from unsigned
integer comparisons, and the comment in `EmitComparison` says that all signed
comparisons stand before `ULtI32`. The numbers here follow the order of the
case list of `EmitI32Expr`; only their order matters. -/
def I32.number : I32 → Nat
  | .EqI32 => 0 | .NeI32 => 1 | .SLtI32 => 2 | .SLeI32 => 3 | .SGtI32 => 4 | .SGeI32 => 5
  | .ULtI32 => 6 | .ULeI32 => 7 | .UGtI32 => 8 | .UGeI32 => 9
  | .EqF32 => 10 | .NeF32 => 11 | .LtF32 => 12 | .LeF32 => 13 | .GtF32 => 14 | .GeF32 => 15
  | .EqF64 => 16 | .NeF64 => 17 | .LtF64 => 18 | .LeF64 => 19 | .GtF64 => 20 | .GeF64 => 21
  | .Bad => 22

/-- The first switch of `EmitComparison`: the compare type. `num` is the
numbering of the opcodes; an opcode that is not a comparison crashes. -/
def compareTypeOf (num : I32 → Nat) (stmt : I32) : Option CompareType :=
  match stmt with
  | .EqI32 | .NeI32 | .SLeI32 | .SLtI32 | .ULeI32 | .ULtI32 | .SGeI32 | .SGtI32 | .UGeI32
  | .UGtI32 =>
    some (if num stmt < num .ULtI32 then .Compare_Int32 else .Compare_UInt32)
  | .EqF32 | .NeF32 | .LeF32 | .LtF32 | .GeF32 | .GtF32 => some .Compare_Float32
  | .EqF64 | .NeF64 | .LeF64 | .LtF64 | .GeF64 | .GtF64 => some .Compare_Double
  | .Bad => none

/-- The second switch of `EmitComparison`: the relational operator. -/
def compareOpOf : I32 → Option JSOp
  | .EqI32 | .EqF32 | .EqF64 => some .JSOP_EQ
  | .NeI32 | .NeF32 | .NeF64 => some .JSOP_NE
  | .SLeI32 | .ULeI32 | .LeF32 | .LeF64 => some .JSOP_LE
  | .SLtI32 | .ULtI32 | .LtF32 | .LtF64 => some .JSOP_LT
  | .SGeI32 | .UGeI32 | .GeF32 | .GeF64 => some .JSOP_GE
  | .SGtI32 | .UGtI32 | .GtF32 | .GtF64 => some .JSOP_GT
  | .Bad => none

/-- The function `EmitComparison`, entered after `EmitI32Expr` read the opcode
`stmt`: the two operand expressions, then `compare` with the operator and the
compare type of the opcode. -/
def EmitComparison (abi : ABIArgGenerator) (num : I32 → Nat) (stmt : I32) (lhs rhs : Expr)
    (f : FunctionCompiler) : Option (FunctionCompiler × Option DefId) := do
  let compareType ← compareTypeOf num stmt
  let l ← EmitExpr abi lhs f
  let r ← EmitExpr abi rhs l.1
  let compareOp ← compareOpOf stmt
  pure (r.1.compare l.2 r.2 compareOp compareType)

/-- The arrangement of the opcode numbers that `EmitComparison` relies on: the
signed integer comparisons are below `ULtI32` and the unsigned ones are
not. -/
def ThresholdSplit (num : I32 → Nat) : Prop :=
  (∀ s ∈ [I32.EqI32, .NeI32, .SLtI32, .SLeI32, .SGtI32, .SGeI32], num s < num .ULtI32) ∧
  (∀ u ∈ [I32.ULtI32, .ULeI32, .UGtI32, .UGeI32], num .ULtI32 ≤ num u)

/-- The instruction built by an operation that took the builder from state
`f` to state `f'`: the first definition that `f` did not have. -/
def newIns (f f' : FunctionCompiler) : MDefinition := f'.graph_.getDef f.graph_.defs.length

/-! ## Resource exhaustion in `prepareEmitMIR` -/

/-- The fallible steps of `prepareEmitMIR`, in the order of the source: the
four `lifo_.new_` allocations, the entry block, and for the local with index
`i` (arguments first, then variables) `ensureBallast` and
`localVarTypes_.append`. -/
inductive PrepareStep where
  | newTempAllocator | newMIRGraph | newCompileInfo | newMIRGenerator | newBlock
  | ensureBallast (i : Nat)
  | appendLocalVarType (i : Nat)
deriving DecidableEq, Repr

/-- Modelled from the spec: `Vector::append` (mfbt/Vector.h) is not in the
given sources. `LocalVarTypes` is `Vector<Type, 4, SystemAllocPolicy>`: an
append that finds room in the inline storage of four elements cannot fail; a
later append may have to allocate, and when that allocation fails (Section 7,
resource exhaustion) it returns false and leaves the vector as it was. The
result is the returned flag and the vector. -/
def appendLocalVarType (allocationFails : Bool) (v : List MIRType) (t : MIRType) :
    Bool × List MIRType :=
  if v.length < 4 then (true, v ++ [t])
  else if allocationFails then (false, v)
  else (true, v ++ [t])

/-- The two loops of `prepareEmitMIR` over the arguments and the variables,
seen from their fallible steps; `i` is the index of the first local of the
list and `v` is `localVarTypes_`. A failed `ensureBallast` makes the method
return false (`none`); the flag returned by `localVarTypes_.append` is not
looked at. -/
def prepareLocals (fails : PrepareStep → Bool) : Nat → List MIRType → List MIRType →
    Option (List MIRType)
  | _, [], v => some v
  | i, t :: rest, v =>
    if fails (.ensureBallast i) then none
    else prepareLocals fails (i + 1) rest (appendLocalVarType (fails (.appendLocalVarType i)) v t).2

/-- The method `prepareEmitMIR` with its fallible steps: `fails` tells which
steps fail. The result is `none` when the method returns false, and otherwise
the builder state together with `localVarTypes_`. -/
def prepareEmitMIRFallible (fails : PrepareStep → Bool) (argTypes : List MIRType)
    (varInitializers : List (MIRType × Int)) : Option (FunctionCompiler × List MIRType) :=
  if fails .newTempAllocator then none
  else if fails .newMIRGraph then none
  else if fails .newCompileInfo then none
  else if fails .newMIRGenerator then none
  else if fails .newBlock then none
  else
    (prepareLocals fails 0 (argTypes ++ varInitializers.map (fun x => x.1)) []).map
      (fun v => (FunctionCompiler.prepareEmitMIR argTypes varInitializers, v))

/-- Only the allocation of the fifth `localVarTypes_.append` fails. -/
def fifthAppendFails : PrepareStep → Bool := fun s => decide (s = .appendLocalVarType 4)

/-- The argument types of a function with five `int` arguments. -/
def fiveIntArgs : List MIRType := [.Int32, .Int32, .Int32, .Int32, .Int32]

/-! ## Argument classification (C16) -/

/-- The types of the arguments of a signature, in order. -/
def Args.types : Args → List MIRType
  | .nil => []
  | .cons type _ rest => MIRTypeFromAsmType type :: rest.types

/-- The loop of `EmitCallArgs` with a record per argument, in signature order:
the type of the argument, its value, and the state and the call descriptor
after its `passArg`. -/
def EmitCallArgsTrace (abi : ABIArgGenerator) :
    Args → Call → FunctionCompiler → List (MIRType × Option DefId × FunctionCompiler × Call)
  | .nil, _, _ => []
  | .cons type e rest, call, f =>
    match EmitExpr abi e f with
    | none => []
    | some r =>
      (MIRTypeFromAsmType type, r.2,
        FunctionCompiler.passArg abi r.1 r.2 (MIRTypeFromAsmType type) call) ::
      EmitCallArgsTrace abi rest
        (FunctionCompiler.passArg abi r.1 r.2 (MIRTypeFromAsmType type) call).2
        (FunctionCompiler.passArg abi r.1 r.2 (MIRTypeFromAsmType type) call).1

/-- Classification in the spec's words: each argument of the list, in order,
is classified by `ABIArgGenerator::next` given the types passed before it;
`seen` are the types the generator was given already. -/
def classifyArgs {α : Type} (abi : ABIArgGenerator) : List MIRType → List (MIRType × α) →
    List (ABIArg × α)
  | _, [] => []
  | seen, x :: rest => (abi.next seen x.1, x.2) :: classifyArgs abi (seen ++ [x.1]) rest

/-- The arguments classified as register arguments, in order, each with its
register. -/
def registerArgs {α : Type} (cl : List (ABIArg × α)) : List (Nat × α) :=
  cl.filterMap (fun x =>
    match x.1 with
    | .reg r => some (r, x.2)
    | .stack _ => none)

/-- The arguments classified as stack arguments, in order, each with its
offset from the argument base. -/
def stackArgsAt {α : Type} (cl : List (ABIArg × α)) : List (Nat × α) :=
  cl.filterMap (fun x =>
    match x.1 with
    | .reg _ => none
    | .stack offsetFromArgBase => some (offsetFromArgBase, x.2))

/-- The state and the call descriptor after the argument loop of a call with
the seven `int` literals `1, ..., 7`, at the start of a function with one
`int` argument. -/
def sevenIntsMarshalled : FunctionCompiler × Call :=
  (EmitCallArgsLoop x64ABI sevenInts (Call.new 0 0) oneIntArg).getD (oneIntArg, Call.new 0 0)

/-! ## The value stack of the blocks (C15) -/

/-- The method `MBasicBlock::stackDepth` of block `b`. -/
def MIRGraph.stackDepth (g : MIRGraph) (b : BlockId) : Nat := (g.block b).slots.length

/-- The graphs `g` and `g'` have the same number of blocks and every block has
the same stack depth in both. -/
def SameDepth (g g' : MIRGraph) : Prop :=
  g'.blocks.length = g.blocks.length ∧ ∀ b, g'.stackDepth b = g.stackDepth b

/-- Block `b` is parked in one of the pending-branch maps. -/
def FunctionCompiler.parked (f : FunctionCompiler) (b : BlockId) : Prop :=
  ∃ sel, ∃ e ∈ f.getMap sel, b ∈ e.2

/-- The stack-depth invariant of the builder between two expressions: the
current block and every parked block is a block of the graph whose stack
depth is `firstStackSlot` (the number of locals), and the current block is not
parked. -/
def DepthOk (f : FunctionCompiler) : Prop :=
  (∀ cur, f.curBlock_ = some cur →
    cur < f.graph_.blocks.length ∧ f.graph_.stackDepth cur = f.numLocals ∧ ¬ f.parked cur) ∧
  (∀ b, f.parked b → b < f.graph_.blocks.length ∧ f.graph_.stackDepth b = f.numLocals)

/-- The effect of a piece of the builder's work on the value stacks, from state
`f` to state `f'`, relative to the blocks below `n`: no block below `n` changed
its stack depth, the current block and the newly parked blocks are the block
that was current or blocks from `n` on, and the invariant holds in `f'`. -/
def DepthStep (n : Nat) (f f' : FunctionCompiler) : Prop :=
  n ≤ f.graph_.blocks.length ∧
  f'.numLocals = f.numLocals ∧ f.graph_.blocks.length ≤ f'.graph_.blocks.length ∧
  (∀ b, b < n → f'.graph_.stackDepth b = f.graph_.stackDepth b) ∧
  (∀ c, f'.curBlock_ = some c → f.curBlock_ = some c ∨ n ≤ c) ∧
  (∀ b, f'.parked b → f.parked b ∨ f.curBlock_ = some b ∨ n ≤ b) ∧
  DepthOk f'

/-- A block held by an emitter for later use (the else block of a branch, the
block after a loop): it is a block of the graph with the stack depth
`firstStackSlot`, neither parked nor current. -/
def Held (f : FunctionCompiler) (b : BlockId) : Prop :=
  b < f.graph_.blocks.length ∧ f.graph_.stackDepth b = f.numLocals ∧ ¬ f.parked b ∧
  f.curBlock_ ≠ some b

/-! ## Example for the conditional expression (C15) -/

/-- The general-purpose registers of x64 (`jit/x64/Assembler-x64.h`). -/
inductive Register where
  | rax | rcx | rdx | rbx | rsp | rbp | rsi | rdi
  | r8 | r9 | r10 | r11 | r12 | r13 | r14 | r15
deriving DecidableEq, Repr

/-- The SSE registers of x64. -/
inductive FloatRegister where
  | xmm0 | xmm1 | xmm2 | xmm3 | xmm4 | xmm5 | xmm6 | xmm7
  | xmm8 | xmm9 | xmm10 | xmm11 | xmm12 | xmm13 | xmm14 | xmm15
deriving DecidableEq, Repr

/-- The constant `NumIntArgRegs`; `win64` is the configuration `defined(_WIN64)`. -/
def NumIntArgRegs (win64 : Bool) : Nat := if win64 then 4 else 6

/-- The array `IntArgRegs`. -/
def IntArgRegs (win64 : Bool) : List Register :=
  if win64 then [.rcx, .rdx, .r8, .r9] else [.rdi, .rsi, .rdx, .rcx, .r8, .r9]

/-- The array `CallTempNonArgRegs`. -/
def CallTempNonArgRegs (win64 : Bool) : List Register :=
  if win64 then [.rax, .rdi, .rbx, .rsi] else [.rax, .rbx]

/-- The constant `NumCallTempNonArgRegs`, `mozilla::ArrayLength(CallTempNonArgRegs)`. -/
def NumCallTempNonArgRegs (win64 : Bool) : Nat := (CallTempNonArgRegs win64).length

/-- The constant `NumFloatArgRegs`. -/
def NumFloatArgRegs (win64 : Bool) : Nat := if win64 then 4 else 8

/-- The array `FloatArgRegs`. -/
def FloatArgRegs (win64 : Bool) : List FloatRegister :=
  if win64 then [.xmm0, .xmm1, .xmm2, .xmm3]
  else [.xmm0, .xmm1, .xmm2, .xmm3, .xmm4, .xmm5, .xmm6, .xmm7]

/-- The read `a[i]` of a C array: the element, or the error `i` when the index
is not below the length of the array. -/
def readArray {α : Type} (a : List α) (i : Nat) : Except Nat α :=
  match a[i]? with
  | some x => .ok x
  | none => .error i

/-- The function `GetIntArgReg`, on `uint32_t` arguments: `.ok none` is
`return false`, `.ok (some r)` is `*out = r; return true`, `.error i` is a read
of the array at the index `i` beyond its end. -/
def GetIntArgReg (win64 : Bool) (intArg floatArg : Nat) : Except Nat (Option Register) :=
  let arg := if win64 then u32 (intArg + floatArg) else intArg
  if arg ≥ NumIntArgRegs win64 then .ok none
  else (readArray (IntArgRegs win64) arg).map some

/-- The function `GetTempRegForIntArg`; `arg -= NumIntArgRegs` is a `uint32_t`
subtraction. -/
def GetTempRegForIntArg (win64 : Bool) (usedIntArgs usedFloatArgs : Nat) :
    Except Nat (Option Register) :=
  match GetIntArgReg win64 usedIntArgs usedFloatArgs with
  | .error i => .error i
  | .ok (some r) => .ok (some r)
  | .ok none =>
    let arg := if win64 then u32 (usedIntArgs + usedFloatArgs) else usedIntArgs
    let arg := u32 (arg + (2 ^ 32 - NumIntArgRegs win64))
    if arg ≥ NumCallTempNonArgRegs win64 then .ok none
    else (readArray (CallTempNonArgRegs win64) arg).map some

/-- The function `GetFloatArgReg`. -/
def GetFloatArgReg (win64 : Bool) (intArg floatArg : Nat) : Except Nat (Option FloatRegister) :=
  let arg := if win64 then u32 (intArg + floatArg) else floatArg
  if floatArg ≥ NumFloatArgRegs win64 then .ok none
  else (readArray (FloatArgRegs win64) arg).map some

/-- The argument index that `GetIntArgReg` and `GetTempRegForIntArg` compute. -/
def intArgIndex (win64 : Bool) (usedIntArgs usedFloatArgs : Nat) : Nat :=
  if win64 then u32 (usedIntArgs + usedFloatArgs) else usedIntArgs

/-! ## The shift of the stack arguments over all arguments (C27) -/

/-- The loop of `EmitCallArgs` with, per argument in signature order, the value
`childStackBytes` that its `passArg` reads: the stack-argument bytes that the
sub-evaluation of the argument left in the function's counter, which
`startCallArgs` or the `passArg` before it had reset to zero. -/
def EmitCallArgsChildBytes (abi : ABIArgGenerator) :
    Args → Call → FunctionCompiler → List Nat
  | .nil, _, _ => []
  | .cons type e rest, call, f =>
    match EmitExpr abi e f with
    | none => []
    | some r =>
      r.1.maxAsmJSStackArgBytes_ ::
      EmitCallArgsChildBytes abi rest
        (FunctionCompiler.passArg abi r.1 r.2 (MIRTypeFromAsmType type) call).2
        (FunctionCompiler.passArg abi r.1 r.2 (MIRTypeFromAsmType type) call).1

/-- The arguments of a call `g(1, ..., 7, h(1, ..., 7), 9)`: six register
arguments, then three stack arguments of which the second is a call that
itself needs 8 bytes of stack-argument space. -/
def clobberArgs : Args :=
  .cons .Int32 (lit 1) (.cons .Int32 (lit 2) (.cons .Int32 (lit 3) (.cons .Int32 (lit 4)
    (.cons .Int32 (lit 5) (.cons .Int32 (lit 6) (.cons .Int32 (lit 7)
      (.cons .Int32 callSevenInts (.cons .Int32 (lit 9) .nil))))))))

/-- The state and the call descriptor after the argument loop on `clobberArgs`
at the start of a function without arguments. -/
def clobberMarshalled : FunctionCompiler × Call :=
  (EmitCallArgsLoop x64ABI clobberArgs
    ((FunctionCompiler.prepareEmitMIR [] []).startCallArgs (Call.new 0 0)).2
    ((FunctionCompiler.prepareEmitMIR [] []).startCallArgs (Call.new 0 0)).1).getD
    (FunctionCompiler.prepareEmitMIR [] [], Call.new 0 0)

/-! ## Predecessors, phis and loop depth of the blocks (C21, C24, C25) -/

/-- Every phi of a block is a definition of the graph, and no definition is a
phi of two blocks (`phi->block()` is one block). -/
def PhisOk (g : MIRGraph) : Prop :=
  (∀ b, ∀ p ∈ (g.block b).phis, p < g.defs.length) ∧
  (∀ b b', b ≠ b' → ∀ p ∈ (g.block b).phis, p ∉ (g.block b').phis)

/-- Every block of the graph other than the entry block has a predecessor. -/
def PredsOk (g : MIRGraph) : Prop :=
  ∀ b, 0 < b → b < g.blocks.length → (g.block b).predecessors ≠ []

/-- The graph invariants of the builder on phis and predecessors. -/
def GOk (g : MIRGraph) : Prop := PhisOk g ∧ PredsOk g

/-- From graph `g` to graph `g'` blocks and definitions were only added, no
block changed its loop depth, and every block of `g` that satisfies `P` has
kept its predecessor list, its phi list and the number of operands of each of
its phis. -/
def Keeps (P : BlockId → Prop) (g g' : MIRGraph) : Prop :=
  g.blocks.length ≤ g'.blocks.length ∧ g.defs.length ≤ g'.defs.length ∧
  (∀ b, b < g.blocks.length → (g'.block b).loopDepth = (g.block b).loopDepth) ∧
  (∀ b, b < g.blocks.length → P b →
    (g'.block b).predecessors = (g.block b).predecessors ∧
    (g'.block b).phis = (g.block b).phis ∧
    ∀ p ∈ (g.block b).phis, (g'.getDef p).operands.length = (g.getDef p).operands.length)

/-- A piece of graph construction that keeps the graph invariants and the
blocks that satisfy `P`. -/
def GStep (P : BlockId → Prop) (g g' : MIRGraph) : Prop := GOk g' ∧ Keeps P g g'

/-! ## Example for the predecessors of the join block (C28) -/

/-- The builder after the condition of `if (x) ... else ...` was branched on at
the start of a function with one `int` argument, with the else block made
current: block 1 is the then block, block 2 the else block. -/
def afterBranch : FunctionCompiler :=
  (oneIntArg.branchAndStartThen (oneIntArg.getLocalDef 0) none none).1.switchToElse
    (oneIntArg.branchAndStartThen (oneIntArg.getLocalDef 0) none none).2.2

/-! ## The builder's invariants on blocks (C21, C24, C25) -/

/-- The loop-depth invariant of the builder: in live code the current block is
a block of the graph and its loop depth is the number of open loops. -/
def LoopOk (f : FunctionCompiler) : Prop :=
  ∀ cur, f.curBlock_ = some cur →
    cur < f.graph_.blocks.length ∧ (f.graph_.block cur).loopDepth = f.loopStack_.length

/-- The invariant of the builder on the blocks: the graph invariants on phis
and predecessors, and the loop-depth invariant. -/
def FrameOk (f : FunctionCompiler) : Prop := GOk f.graph_ ∧ LoopOk f

/-- The effect of a piece of the builder's work on the blocks, from state `f`
to state `f'`, relative to the blocks below `n`: blocks and definitions were
only added, no block changed its loop depth, no block below `n` changed its
predecessors, its phis or the operand count of its phis, and the invariant
holds in `f'`. -/
def FrameStep (n : Nat) (f f' : FunctionCompiler) : Prop :=
  n ≤ f.graph_.blocks.length ∧ Keeps (fun b => b < n) f.graph_ f'.graph_ ∧ FrameOk f'

/-- A block held by an emitter for later use (the else block of a branch, the
block after a loop, the loop header): a block of the graph with loop depth
`d`. -/
def HeldAt (f : FunctionCompiler) (b : BlockId) (d : Nat) : Prop :=
  b < f.graph_.blocks.length ∧ (f.graph_.block b).loopDepth = d

/-! ## Statements entered in dead code (C26) -/

/-- From state `f` to state `f'` the builder was in dead code and did nothing
but move its decoder: graph, current block, stacks, maps and counters are as
in `f`. -/
def Idle (f f' : FunctionCompiler) : Prop :=
  f.curBlock_ = none ∧ f' = { f with pc_ := f'.pc_ }

/-! ## The calls of the loop methods (C24, C25, C26) -/

/-- A call of one of the methods `startPendingLoop`, `branchAndStartLoopBody`,
`closeLoop` and `branchAndCloseDoWhileLoop`: the state `f` it is made in and
its arguments. For the two closing methods the `loopEntry` argument is given
by the call of `startPendingLoop` of the same loop, made in state `f0` with
position `pos`: the emitters pass the block that this call returned. -/
inductive LoopCall where
  | start (f : FunctionCompiler) (pos : Nat)
  | branch (f : FunctionCompiler) (cond : Option DefId)
  | close (f0 : FunctionCompiler) (pos : Nat) (f : FunctionCompiler)
      (afterLoop : Option BlockId)
  | closeDoWhile (f0 : FunctionCompiler) (pos : Nat) (f : FunctionCompiler)
      (cond : Option DefId)

/-- The state in which the call is made. -/
def LoopCall.state : LoopCall → FunctionCompiler
  | .start f _ => f
  | .branch f _ => f
  | .close _ _ f _ => f
  | .closeDoWhile _ _ f _ => f

/-- The calls made by the rest of an emitter, after a step that may fail. -/
def callsAfter {α : Type} (o : Option α) (k : α → List LoopCall) : List LoopCall :=
  match o with
  | none => []
  | some a => k a

mutual
/-- The calls of the loop methods made while `EmitExpr` runs, in order, up to
the first step that fails; the functions of this block follow the `Emit*`
functions arm by arm. -/
def callsExpr (abi : ABIArgGenerator) : Expr → FunctionCompiler → List LoopCall
  | .literal _ _, _ => []
  | .getLocal _, _ => []
  | .setLocal _ e, f => callsExpr abi e (f.advance 5)
  | .idExpr e, f => callsExpr abi e (f.advance 1)
  | .operator o args, f => callsOperands abi args (f.advance (1 + o.immBefore))
  | .minMax first rest, f =>
    callsExpr abi first (f.advance 2) ++
      callsAfter (EmitExpr abi first (f.advance 2)) (fun r => callsMinMaxRest abi rest r.2 r.1)
  | .storeWithCoercion ptr rhs, f =>
    callsExpr abi ptr (f.advance 2) ++
      callsAfter (EmitExpr abi ptr (f.advance 2)) (fun p => callsExpr abi rhs p.1)
  | .call c, f => callsCall abi c (f.advance 1)
  | .conditional cond ifTrue ifFalse, f =>
    callsExpr abi cond (f.advance 1) ++
      callsAfter (EmitExpr abi cond (f.advance 1)) (fun c =>
        callsExpr abi ifTrue (c.1.branchAndStartThen c.2 none none).1 ++
          callsAfter (EmitExpr abi ifTrue (c.1.branchAndStartThen c.2 none none).1) (fun t =>
            callsExpr abi ifFalse
              ((t.1.pushPhiInput t.2).switchToElse (c.1.branchAndStartThen c.2 none none).2.2)))
  | .comma stmts last, f =>
    callsStatements abi stmts (f.advance 5) ++
      callsAfter (EmitStatements abi stmts (f.advance 5)) (fun f1 => callsExpr abi last f1)
/-- The calls made while `EmitOperands` runs. -/
def callsOperands (abi : ABIArgGenerator) : Args → FunctionCompiler → List LoopCall
  | .nil, _ => []
  | .cons _ e rest, f =>
    callsExpr abi e f ++ callsAfter (EmitExpr abi e f) (fun r => callsOperands abi rest r.1)
/-- The calls made while `EmitMinMaxRest` runs. -/
def callsMinMaxRest (abi : ABIArgGenerator) :
    Args → Option DefId → FunctionCompiler → List LoopCall
  | .nil, _, _ => []
  | .cons _ e rest, lastDef, f =>
    callsExpr abi e f ++ callsAfter (EmitExpr abi e f) (fun r =>
      callsMinMaxRest abi rest (r.1.emitOp Op.minMax [lastDef, r.2]).2
        (r.1.emitOp Op.minMax [lastDef, r.2]).1)
/-- The calls made while `EmitCallArgsLoop` runs. -/
def callsCallArgsLoop (abi : ABIArgGenerator) :
    Args → Call → FunctionCompiler → List LoopCall
  | .nil, _, _ => []
  | .cons type e rest, call, f =>
    callsExpr abi e f ++ callsAfter (EmitExpr abi e f) (fun r =>
      callsCallArgsLoop abi rest
        (FunctionCompiler.passArg abi r.1 r.2 (MIRTypeFromAsmType type) call).2
        (FunctionCompiler.passArg abi r.1 r.2 (MIRTypeFromAsmType type) call).1)
/-- The calls made while `EmitCall` runs. -/
def callsCall (abi : ABIArgGenerator) : CallExpr → FunctionCompiler → List LoopCall
  | .direct kind lineno column args, f =>
    callsCallArgsLoop abi args
      ((f.advance kind.immBytes).startCallArgs (Call.new lineno column)).2
      ((f.advance kind.immBytes).startCallArgs (Call.new lineno column)).1
  | .indirect _ _ lineno column index args, f =>
    callsExpr abi index (f.advance 24) ++
      callsAfter (EmitExpr abi index (f.advance 24)) (fun ix =>
        callsCallArgsLoop abi args (ix.1.startCallArgs (Call.new lineno column)).2
          (ix.1.startCallArgs (Call.new lineno column)).1)
/-- The calls made while `EmitIfElse` runs; they do not depend on the vector
of then blocks, which is used only by the join at the end. -/
def callsIfElse (abi : ABIArgGenerator) : IfChain → FunctionCompiler → List LoopCall
  | .ifThen cond thenStmt, f =>
    callsExpr abi cond f ++ callsAfter (EmitExpr abi cond f) (fun c =>
      callsStatement abi thenStmt none (c.1.branchAndStartThen c.2 none none).1)
  | .ifElse cond thenStmt elseStmt, f =>
    callsExpr abi cond f ++ callsAfter (EmitExpr abi cond f) (fun c =>
      callsStatement abi thenStmt none (c.1.branchAndStartThen c.2 none none).1 ++
        callsAfter (EmitStatement abi thenStmt none (c.1.branchAndStartThen c.2 none none).1)
          (fun t =>
            match elseStmt with
            | .ifStmt chain =>
              callsIfElse abi chain
                ((t.1.switchToElse (c.1.branchAndStartThen c.2 none none).2.2).advance 1)
            | s =>
              callsStatement abi s none
                (t.1.switchToElse (c.1.branchAndStartThen c.2 none none).2.2)))
/-- The calls made while `EmitStatement` runs: those of the statements and
expressions inside the statement and, for a loop, those of `EmitWhile`,
`EmitDoWhile` and `EmitFor` themselves. -/
def callsStatement (abi : ABIArgGenerator) :
    Stmt → Option LabelVector → FunctionCompiler → List LoopCall
  | .block stmts, _, f => callsStatements abi stmts (f.advance 5)
  | .ifStmt chain, _, f => callsIfElse abi chain (f.advance 1)
  | .switchStmt low high expr cases dflt, _, f =>
    callsExpr abi expr (f.advance 14) ++
      callsAfter (EmitExpr abi expr (f.advance 14)) (fun e =>
        if switchIsEmpty cases dflt then []
        else callsAfter (tableLength low high) (fun len =>
          callsSwitchCases abi cases low (e.1.startSwitch e.1.pc_ e.2 low high).2
              (List.replicate len none) (e.1.startSwitch e.1.pc_ e.2 low high).1 ++
            callsAfter (EmitSwitchCases abi cases low (e.1.startSwitch e.1.pc_ e.2 low high).2
                (List.replicate len none) (e.1.startSwitch e.1.pc_ e.2 low high).1) (fun cs =>
              callsOptStmt abi dflt
                (cs.1.startSwitchDefault (e.1.startSwitch e.1.pc_ e.2 low high).2).1)))
  | .whileStmt cond body, l, f =>
    .start (f.advance 1) (f.advance 1).pc_ ::
      (callsExpr abi cond ((f.advance 1).startPendingLoop (f.advance 1).pc_).1 ++
        callsAfter (EmitExpr abi cond ((f.advance 1).startPendingLoop (f.advance 1).pc_).1)
          (fun c =>
            .branch c.1 c.2 ::
              (callsStatement abi body none (c.1.branchAndStartLoopBody c.2).1 ++
                callsAfter (EmitStatement abi body none (c.1.branchAndStartLoopBody c.2).1)
                  (fun s =>
                    [.close (f.advance 1) (f.advance 1).pc_
                      (s.1.bindContinues (f.advance 1).pc_ l)
                      (c.1.branchAndStartLoopBody c.2).2]))))
  | .doWhile body cond, l, f =>
    .start (f.advance 1) (f.advance 1).pc_ ::
      (callsStatement abi body none ((f.advance 1).startPendingLoop (f.advance 1).pc_).1 ++
        callsAfter
          (EmitStatement abi body none ((f.advance 1).startPendingLoop (f.advance 1).pc_).1)
          (fun s =>
            callsExpr abi cond (s.1.bindContinues (f.advance 1).pc_ l) ++
              callsAfter (EmitExpr abi cond (s.1.bindContinues (f.advance 1).pc_ l)) (fun c =>
                [.closeDoWhile (f.advance 1) (f.advance 1).pc_ c.1 c.2])))
  | .forStmt init cond body inc, l, f =>
    callsOptStmt abi init (f.advance 1) ++
      callsAfter (EmitOptStmt abi init (f.advance 1)) (fun f0 =>
        .start f0 (f.advance 1).pc_ ::
          (callsExpr abi cond (f0.startPendingLoop (f.advance 1).pc_).1 ++
            callsAfter (EmitExpr abi cond (f0.startPendingLoop (f.advance 1).pc_).1) (fun c =>
              .branch c.1 c.2 ::
                (callsStatement abi body none (c.1.branchAndStartLoopBody c.2).1 ++
                  callsAfter (EmitStatement abi body none (c.1.branchAndStartLoopBody c.2).1)
                    (fun s =>
                      callsOptStmt abi inc (s.1.bindContinues (f.advance 1).pc_ l) ++
                        callsAfter
                          (EmitOptStmt abi inc (s.1.bindContinues (f.advance 1).pc_ l))
                          (fun f1 =>
                            [.close f0 (f.advance 1).pc_ f1
                              (c.1.branchAndStartLoopBody c.2).2]))))))
  | .label labelId s, some labels, f =>
    callsStatement abi s (some (labels ++ [labelId])) (f.advance 5)
  | .label labelId s, none, f => callsStatement abi s (some [labelId]) (f.advance 5)
  | .continueStmt, _, _ => []
  | .continueLabel _, _, _ => []
  | .breakStmt, _, _ => []
  | .breakLabel _, _, _ => []
  | .retVoid, _, _ => []
  | .ret e, _, f => callsExpr abi e (f.advance 1)
  | .exprStmt e, _, f => callsExpr abi e (f.advance 1)
  | .callStmt c, _, f => callsCall abi c (f.advance 1)
  | .atomicsFence, _, _ => []
  | .noop, _, _ => []
  | .idStmt s, _, f => callsStatement abi s none (f.advance 1)
  | .interruptCheckHead, _, _ => []
  | .interruptCheckLoop s, _, f => callsStatement abi s none (f.advance 9).addInterruptCheck
/-- The calls made while `EmitOptStmt` runs. -/
def callsOptStmt (abi : ABIArgGenerator) : OptStmt → FunctionCompiler → List LoopCall
  | .absent, _ => []
  | .present s, f => callsStatement abi s none f
/-- The calls made while `EmitStatements` runs. -/
def callsStatements (abi : ABIArgGenerator) : Stmts → FunctionCompiler → List LoopCall
  | .nil, _ => []
  | .cons s rest, f =>
    callsStatement abi s none f ++
      callsAfter (EmitStatement abi s none f) (fun r => callsStatements abi rest r.1)
/-- The calls made while `EmitSwitchCases` runs. -/
def callsSwitchCases (abi : ABIArgGenerator) :
    Cases → Int → Option BlockId → List (Option BlockId) → FunctionCompiler → List LoopCall
  | .nil, _, _, _, _ => []
  | .cons caseValue body rest, low, switchBlock, cases, f =>
    callsAfter (caseIndex low caseValue cases.length) (fun idx =>
      callsStatement abi body none ((f.advance 4).startSwitchCase switchBlock).1 ++
        callsAfter (EmitStatement abi body none ((f.advance 4).startSwitchCase switchBlock).1)
          (fun r =>
            callsSwitchCases abi rest low switchBlock
              (cases.set idx ((f.advance 4).startSwitchCase switchBlock).2) r.1))
end

/-- The assertions on `loopDepth()` of the method called: the one of
`startPendingLoop` (after the position was appended to the loop stack), the
one of `branchAndStartLoopBody`, and those of `closeLoop` and
`branchAndCloseDoWhileLoop` (after `popLoop`, which has a position to pop). -/
def LoopCall.depthAsserts : LoopCall → Prop
  | .start f pos =>
    ∀ cur, f.curBlock_ = some cur →
      (f.graph_.block cur).loopDepth = (f.loopStack_ ++ [pos]).length - 1
  | .branch f _ => ∀ cur, f.curBlock_ = some cur → 0 < (f.graph_.block cur).loopDepth
  | .close f0 pos f al =>
    ∃ p f1, f.popLoop = some (p, f1) ∧ ∀ H, (f0.startPendingLoop pos).2 = some H →
      (f1.graph_.block H).loopDepth = f1.loopStack_.length + 1 ∧
      (∀ A, al = some A → (f1.graph_.block A).loopDepth = f1.loopStack_.length) ∧
      (∀ cur, f1.curBlock_ = some cur →
        (f1.graph_.block cur).loopDepth = f1.loopStack_.length + 1)
  | .closeDoWhile f0 pos f _ =>
    ∃ p f1, f.popLoop = some (p, f1) ∧ ∀ H, (f0.startPendingLoop pos).2 = some H →
      (f1.graph_.block H).loopDepth = f1.loopStack_.length + 1 ∧
      (∀ cur, f1.curBlock_ = some cur →
        (f1.graph_.block cur).loopDepth = f1.loopStack_.length + 1)

/-- The assertions of `closeLoop` and `branchAndCloseDoWhileLoop` for a null
`loopEntry`, after `popLoop` returned `p`: `!afterLoop` (in `closeLoop`),
`inDeadCode()` and `!unlabeledBreaks_.has(p)`. -/
def LoopCall.deadAsserts : LoopCall → Prop
  | .close f0 pos f al =>
    (f0.startPendingLoop pos).2 = none →
      ∃ p f1, f.popLoop = some (p, f1) ∧ al = none ∧ f1.inDeadCode = true ∧
        BlockMap.lookup f1.unlabeledBreaks_ p = none
  | .closeDoWhile f0 pos f _ =>
    (f0.startPendingLoop pos).2 = none →
      ∃ p f1, f.popLoop = some (p, f1) ∧ f1.inDeadCode = true ∧
        BlockMap.lookup f1.unlabeledBreaks_ p = none
  | _ => True

/-- The call of `setLoopBackedge` that a call of `closeLoop` or
`branchAndCloseDoWhileLoop` makes, if it makes one: the state it is made in,
the loop header and the backedge block. -/
def LoopCall.backedge : LoopCall → Option (FunctionCompiler × BlockId × BlockId)
  | .close f0 pos f _ =>
    match (f0.startPendingLoop pos).2, f.popLoop with
    | some H, some (_, f1) =>
      match f1.curBlock_ with
      | none => none
      | some cur => some ({ f1 with graph_ := f1.graph_.endBlock cur (.goto H) }, H, cur)
    | _, _ => none
  | .closeDoWhile f0 pos f cond =>
    match (f0.startPendingLoop pos).2, f.popLoop with
    | some H, some (_, f1) =>
      match f1.curBlock_ with
      | none => none
      | some cur =>
        if FunctionCompiler.isConstant f1.graph_ cond then
          if FunctionCompiler.isConstantTrue f1.graph_ cond then
            some ({ f1 with graph_ := f1.graph_.endBlock cur (.goto H) }, H, cur)
          else none
        else
          some ({ (f1.newBlock (some cur)).1 with
            graph_ := (f1.newBlock (some cur)).1.graph_.endBlock cur
              (.test cond H (f1.newBlock (some cur)).2) }, H, cur)
    | _, _ => none
  | _ => none

/-- Block `H` is a pending loop header entered from block `entry`: a block of
the graph whose only predecessor is `entry` and whose phis are distinct
definitions with one operand each. -/
def PendingHeader (g : MIRGraph) (H entry : BlockId) : Prop :=
  H < g.blocks.length ∧ (g.block H).predecessors = [entry] ∧ (g.block H).phis.Nodup ∧
  ∀ p ∈ (g.block H).phis, p < g.defs.length ∧ (g.getDef p).operands.length = 1

/-- What the emitter of a loop statement has established when it closes the
loop: `f0` is the state in which `startPendingLoop(pos)` was called, under
context `c`, `g` the state in which the loop is closed and `al` the block
after the loop. The invariants held in `f0` and `pos` was a new position;
no continue of the loop is parked any more; from the state after
`startPendingLoop` to `g` the blocks that existed were kept; the loop stack of `g` is that of `f0` with `pos` on top; the block after
the loop has the depth of the code around the loop; and a loop started in
dead code did nothing but move the decoder and has no block after it. -/
def LoopReady (c : Ctx) (f0 : FunctionCompiler) (pos : Nat) (g : FunctionCompiler)
    (al : Option BlockId) : Prop :=
  Inv c f0 ∧ FrameOk f0 ∧ pos ∉ f0.breakableStack_ ∧
  pos ∉ BlockMap.keys g.unlabeledContinues_ ∧
  FrameStep (f0.startPendingLoop pos).1.graph_.blocks.length (f0.startPendingLoop pos).1 g ∧
  g.loopStack_ = f0.loopStack_ ++ [pos] ∧
  (∀ A, al = some A → HeldAt g A f0.loopStack_.length) ∧
  (f0.curBlock_ = none → Idle (f0.startPendingLoop pos).1 g ∧ al = none)

/-- What the emitters establish at a call of a loop method: the graph and
loop-depth invariants hold in the state of the call, at `branchAndStartLoopBody`
the loop stack is not empty, and a closing call is made in a state that is
ready for it. -/
def LoopCall.ok : LoopCall → Prop
  | .start f _ => FrameOk f
  | .branch f _ => FrameOk f ∧ f.loopStack_ ≠ []
  | .close f0 pos f al => ∃ c, LoopReady c f0 pos f al
  | .closeDoWhile f0 pos f _ => ∃ c, LoopReady c f0 pos f none

/-! ## Examples for the loop claims (C21, C24, C25, C26) -/

/-- The statements `while (x) { x = x; } do { } while (x);` of a function with
one `int` argument: two loops whose bodies end in live code. -/
def twoLoops : Stmts :=
  .cons (.whileStmt (.getLocal 0) (.exprStmt (.setLocal 0 (.getLocal 0))))
    (.cons (.doWhile .noop (.getLocal 0)) .nil)

/-- The statements `return; while (x) { } do { } while (x);`: two loops in
dead code. -/
def loopsAfterReturn : Stmts :=
  .cons .retVoid (.cons (.whileStmt (.getLocal 0) .noop)
    (.cons (.doWhile .noop (.getLocal 0)) .nil))

/-- The header and the backedge block of the call of `setLoopBackedge` made by
a call of a loop method, if it makes one. -/
def LoopCall.backedgeBlocks (call : LoopCall) : Option (BlockId × BlockId) :=
  call.backedge.map (fun x => (x.2.1, x.2.2))

/-- Every block from index `n` on has a predecessor. -/
def CreatedWithPred (n : Nat) (g : MIRGraph) : Prop :=
  ∀ b, n ≤ b → b < g.blocks.length → (g.block b).predecessors ≠ []

/-! ## The slots of pending blocks after `setLoopBackedge` (C23) -/

/-- The blocks whose slots `setLoopBackedge` fixes up: the block after the loop
and every block parked in one of the four pending-branch maps whose loop depth
is at least that of the loop header. -/
def fixedUp (f : FunctionCompiler) (loopEntry backedge : BlockId) (afterLoop : Option BlockId)
    (b : BlockId) : Prop :=
  afterLoop = some b ∨
  (f.parked b ∧ ((backedgeGraph f loopEntry backedge).block loopEntry).loopDepth ≤
    ((backedgeGraph f loopEntry backedge).block b).loopDepth)

/-- Graph `g` is graph `g1` after `fixupRedundantPhis` ran on the blocks of
`T`: the definitions and loop depths are those of `g1`, the slots of a block
of `T` are those of `g1` under the slot update, the slots of the other blocks
are those of `g1`. -/
def SlotsFixed (g1 : MIRGraph) (T : BlockId → Prop) (g : MIRGraph) : Prop :=
  g.defs = g1.defs ∧ g.blocks.length = g1.blocks.length ∧
  ∀ c, (g.block c).loopDepth = (g1.block c).loopDepth ∧
    (T c → (g.block c).slots = (g1.block c).slots.map (FunctionCompiler.fixupSlot g1)) ∧
    (¬ T c → (g.block c).slots = (g1.block c).slots)

/-- The loop `while (x) { }`. -/
def emptyWhile : Stmt := .whileStmt (.getLocal 0) .noop

/-! ## Loading and pushing an `ImmWord` on x64 (C31, C32) -/

/-- The constant `UINT32_MAX`. -/
def UINT32_MAX : Nat := 2 ^ 32 - 1

/-- The constant `INT32_MAX`. -/
def INT32_MAX : Int := 2 ^ 31 - 1

/-- The constant `INT32_MIN`. -/
def INT32_MIN : Int := -(2 ^ 31)

/-- The cast `(intptr_t)` of a `uintptr_t` on x64: the 64-bit pattern read in
two's complement. -/
def toIntptr (w : Nat) : Int :=
  if w % 2 ^ 64 < 2 ^ 63 then ((w % 2 ^ 64 : Nat) : Int) else ((w % 2 ^ 64 : Nat) : Int) - 2 ^ 64

/-- The conversion of a signed integer to `uintptr_t` on x64: the value modulo
`2 ^ 64`. -/
def toUintptr (x : Int) : Nat := (x % 2 ^ 64).toNat

/-- The conversion of an integer to `int32_t`: the low 32 bits read in two's
complement. -/
def toInt32 (x : Int) : Int := (x + 2 ^ 31) % 2 ^ 32 - 2 ^ 31

/-- The register `ScratchReg` of x64. -/
def ScratchReg : Register := .r11

/-- The instructions that `push`, `mov` and `movq` of an `ImmWord` emit, named
after the emitters of the base assembler that these methods call (`masm.movl_i32r`
and so on; `xorl(Register, Register)`, `push(Imm32)` and `push(Register)` of the
shared x86 assembler emit `xorl_rr`, `push_i32` and `push_r`). An immediate is
the value that the method passes to the emitter. -/
inductive Instruction where
  | xorl_rr (src dst : Register)
  | movl_i32r (imm : Nat) (dst : Register)
  | movq_i32r (imm : Int) (dst : Register)
  | movq_i64r (imm : Nat) (dst : Register)
  | push_i32 (imm : Int)
  | push_r (reg : Register)
deriving DecidableEq, Repr

/-- The x64 assembler: the instructions emitted so far, in order. -/
structure Assembler where
  masm : List Instruction
deriving DecidableEq, Repr

namespace Assembler

/-- Modelled from the spec: `xorl(Register, Register)` of the shared x86
assembler (jit/x86-shared/Assembler-x86-shared.h) is not in the given sources;
it emits the instruction `xorl src, dest`. -/
def xorl (a : Assembler) (src dest : Register) : Assembler :=
  { a with masm := a.masm ++ [.xorl_rr src dest] }

/-- Modelled from the spec: `push(Imm32)` of the shared x86 assembler is not in
the given sources; it emits the push of a 32-bit immediate. The constructor of
`Imm32` takes an `int32_t`. -/
def pushImm32 (a : Assembler) (imm : Int) : Assembler :=
  { a with masm := a.masm ++ [.push_i32 (toInt32 imm)] }

/-- Modelled from the spec: `push(Register)` of the shared x86 assembler is not
in the given sources; it emits the push of the register. -/
def pushReg (a : Assembler) (reg : Register) : Assembler :=
  { a with masm := a.masm ++ [.push_r reg] }

/-- The method `movq(ImmWord, Register)`; `word` is the `uintptr_t` value of the
`ImmWord`. The cast `(uint32_t)` is `u32`. -/
def movq (a : Assembler) (word : Nat) (dest : Register) : Assembler :=
  if word ≤ UINT32_MAX then
    { a with masm := a.masm ++ [.movl_i32r (u32 word) dest] }
  else if toIntptr word ≥ INT32_MIN ∧ toIntptr word ≤ INT32_MAX then
    { a with masm := a.masm ++ [.movq_i32r (toInt32 (toIntptr word)) dest] }
  else
    { a with masm := a.masm ++ [.movq_i64r word dest] }

/-- The method `mov(ImmWord, Register)`. -/
def mov (a : Assembler) (word : Nat) (dest : Register) : Assembler :=
  if word = 0 then a.xorl dest dest
  else a.movq word dest

/-- The method `push(ImmWord)`; the comparison `ptr.value <= INT32_MAX` is made
in `uintptr_t`, to which `INT32_MAX` is converted. -/
def push (a : Assembler) (ptr : Nat) : Assembler :=
  if ptr ≤ toUintptr INT32_MAX then a.pushImm32 ptr
  else (a.movq ptr ScratchReg).pushReg ScratchReg

end Assembler

/-- The part of the machine that the instructions act on: the 64-bit value of
each general-purpose register and the values on the stack, the top first. -/
structure Machine where
  regs : Register → Nat
  stack : List Nat

/-- The machine with the value `v` in the register `dst`. -/
def Machine.setReg (m : Machine) (dst : Register) (v : Nat) : Machine :=
  { m with regs := Function.update m.regs dst v }

/-- The machine with the value `v` pushed on the stack. -/
def Machine.pushValue (m : Machine) (v : Nat) : Machine :=
  { m with stack := v :: m.stack }

/-- The zero extension of a 32-bit immediate or result to 64 bits. -/
def zeroExtend32 (imm : Nat) : Nat := imm % 2 ^ 32

/-- The sign extension of a 32-bit immediate to 64 bits. -/
def signExtend32 (imm : Int) : Nat := toUintptr (toInt32 imm)

/-- Modelled from the spec: the emitters of the base assembler
(jit/x86-shared/BaseAssembler-x86-shared.h) are not in the given sources, and
the spec names the target only as native machine instructions. The effect of
each instruction is the one that the comments of `Assembler-x64.h` rely on:
`xorl` and `movl` are 32-bit instructions, which zero-extend their result to 64
bits, and `movl` has an unsigned 32-bit immediate field; `movq_i32r` has a
signed 32-bit immediate field, sign-extended to 64 bits; `movq_i64r` (movabs)
has a 64-bit immediate; a pushed 32-bit immediate is sign-extended to 64 bits;
a pushed register is pushed with its value. -/
def Instruction.exec : Instruction → Machine → Machine
  | .xorl_rr src dst, m =>
    m.setReg dst (zeroExtend32 ((m.regs dst % 2 ^ 32) ^^^ (m.regs src % 2 ^ 32)))
  | .movl_i32r imm dst, m => m.setReg dst (zeroExtend32 imm)
  | .movq_i32r imm dst, m => m.setReg dst (signExtend32 imm)
  | .movq_i64r imm dst, m => m.setReg dst (imm % 2 ^ 64)
  | .push_i32 imm, m => m.pushValue (signExtend32 imm)
  | .push_r reg, m => m.pushValue (m.regs reg)

/-- The machine after the instructions of `code`, executed in order. -/
def run (code : List Instruction) (m : Machine) : Machine :=
  code.foldl (fun m i => i.exec m) m

/-- An assembler that has emitted nothing. -/
def emptyAssembler : Assembler := ⟨[]⟩

/-- A machine with zero in every register and an empty stack. -/
def zeroMachine : Machine := ⟨fun _ => 0, []⟩

/-! ## Fall-through between the arms of a switch (C33) -/

/-- The cases `case 0: ; case 1: return;` of a switch over `[0, 1]`: the first
arm falls through into the second, the second ends in dead code. -/
def fallThroughCases : Cases := .cons 0 .noop (.cons 1 .retVoid .nil)

/-- The state and the switch block after `startSwitch` for
`switch (x) { case 0: ; case 1: return; default: ; }` at the start of a
function with one `int` argument. -/
def fallThroughStart : FunctionCompiler × Option BlockId :=
  match EmitExpr x64ABI (.getLocal 0) (oneIntArg.advance 14) with
  | none => (oneIntArg, none)
  | some e => e.1.startSwitch e.1.pc_ e.2 0 1

/-- The state after the body of the first arm, with the case value of the
second arm read: the state in which `startSwitchCase` starts the second arm. -/
def fallThroughSecond : FunctionCompiler :=
  match EmitStatement x64ABI .noop none
      ((fallThroughStart.1.advance 4).startSwitchCase fallThroughStart.2).1 with
  | none => oneIntArg
  | some r => r.1.advance 4

/-- The state after the body of the second arm: the state in which
`startSwitchDefault` starts the default arm. -/
def fallThroughDefault : FunctionCompiler :=
  match EmitStatement x64ABI .retVoid none (fallThroughSecond.startSwitchCase fallThroughStart.2).1 with
  | none => oneIntArg
  | some r => r.1

/-! ## The stack-argument byte count of a function (C3) -/

mutual
/-- Modelled from the spec: the encoder of the stream is not in the given
sources. Section 4.1: the decoder trusts that its input was produced by the
paired encoder. The operands of an asm.js comma are expressions, so in the
stream every operand of a comma before the last is an expression statement or a
call statement, never a statement that ends the block or opens control flow;
`EmitComma` reads them with `EmitStatement`. This is the one property of the
encoder that `plainExpr` states, for every comma inside the expression. -/
def plainExpr : Expr → Bool
  | .literal _ _ => true
  | .getLocal _ => true
  | .setLocal _ e => plainExpr e
  | .idExpr e => plainExpr e
  | .operator _ args => plainArgs args
  | .minMax first rest => plainExpr first && plainArgs rest
  | .storeWithCoercion ptr rhs => plainExpr ptr && plainExpr rhs
  | .call c => plainCall c
  | .conditional cond ifTrue ifFalse => plainExpr cond && plainExpr ifTrue && plainExpr ifFalse
  | .comma stmts last => operandStmts stmts && plainExpr last
/-- Every expression of the list is plain. -/
def plainArgs : Args → Bool
  | .nil => true
  | .cons _ e rest => plainExpr e && plainArgs rest
/-- The index expression and the arguments of the call are plain. -/
def plainCall : CallExpr → Bool
  | .direct _ _ _ args => plainArgs args
  | .indirect _ _ _ _ index args => plainExpr index && plainArgs args
/-- The operands of a comma before the last: expression statements (`I32Expr`,
`F32Expr`, `F64Expr`, `I32X4Expr`, `F32X4Expr`) and call statements, on plain
expressions. -/
def operandStmts : Stmts → Bool
  | .nil => true
  | .cons (.exprStmt e) rest => plainExpr e && operandStmts rest
  | .cons (.callStmt c) rest => plainCall c && operandStmts rest
  | .cons _ _ => false
/-- Every expression of the chain is plain. -/
def plainIf : IfChain → Bool
  | .ifThen cond thenStmt => plainExpr cond && plainStmt thenStmt
  | .ifElse cond thenStmt elseStmt => plainExpr cond && plainStmt thenStmt && plainStmt elseStmt
/-- Every expression of the statement is plain. -/
def plainStmt : Stmt → Bool
  | .block stmts => plainStmts stmts
  | .ifStmt chain => plainIf chain
  | .switchStmt _ _ expr cases dflt => plainExpr expr && plainCases cases && plainOpt dflt
  | .whileStmt cond body => plainExpr cond && plainStmt body
  | .doWhile body cond => plainStmt body && plainExpr cond
  | .forStmt init cond body inc =>
    plainOpt init && plainExpr cond && plainStmt body && plainOpt inc
  | .label _ s => plainStmt s
  | .continueStmt => true
  | .continueLabel _ => true
  | .breakStmt => true
  | .breakLabel _ => true
  | .retVoid => true
  | .ret e => plainExpr e
  | .exprStmt e => plainExpr e
  | .callStmt c => plainCall c
  | .atomicsFence => true
  | .noop => true
  | .idStmt s => plainStmt s
  | .interruptCheckHead => true
  | .interruptCheckLoop s => plainStmt s
/-- Every expression of the optional statement is plain. -/
def plainOpt : OptStmt → Bool
  | .absent => true
  | .present s => plainStmt s
/-- Every expression of the statements is plain. -/
def plainStmts : Stmts → Bool
  | .nil => true
  | .cons s rest => plainStmt s && plainStmts rest
/-- Every expression of the case bodies is plain. -/
def plainCases : Cases → Bool
  | .nil => true
  | .cons _ body rest => plainStmt body && plainCases rest
end

/-- Modelled from the spec: the function body is one that the paired encoder of
section 4.1 writes, as far as the operands of commas are concerned. -/
def AsmFunction.plain (func : AsmFunction) : Bool := plainStmts func.body

/-- The stack-argument requirement of a call after `finishCallArgs`: the
stack-pointer increment plus the call's own stack-argument bytes. -/
def stackArgRequirement (abi : ABIArgGenerator) (call : Call) : Nat :=
  call.spIncrement_ + abi.stackBytesConsumedSoFar call.abi_

/-- The `uint32_t` sums of `finishCallArgs` on the call do not wrap. There are
sums only when a child clobbers: `AlignBytes` of the maximum over the arguments,
and the shift plus the stack bytes of the call itself. -/
def fitsUint32 (abi : ABIArgGenerator) (call : Call) : Prop :=
  call.childClobbers_ = true →
    call.maxChildStackBytes_ + 16 + abi.stackBytesConsumedSoFar call.abi_ ≤ 2 ^ 32

instance (abi : ABIArgGenerator) (call : Call) : Decidable (fitsUint32 abi call) := by
  unfold fitsUint32
  infer_instance

/-- The state and the call descriptor after `finishCallArgs`, if the call
instruction is emitted: `callPrivate` and `funcPtrCall` emit it in live code
only. -/
def callIfLive (fin : FunctionCompiler × Call) : List (FunctionCompiler × Call) :=
  if fin.1.curBlock_.isSome then [fin] else []

/-- The emitted calls of the rest of an emitter, after a step that may fail. -/
def emittedAfter {α : Type} (o : Option α) (k : α → List (FunctionCompiler × Call)) :
    List (FunctionCompiler × Call) :=
  match o with
  | none => []
  | some a => k a

mutual
/-- The calls for which a call instruction is emitted while `EmitExpr` runs, in
order, up to the first step that fails, each given by the state and the call
descriptor after its `finishCallArgs`; the functions of this block follow the
`Emit*` functions arm by arm. -/
def emittedExpr (abi : ABIArgGenerator) :
    Expr → FunctionCompiler → List (FunctionCompiler × Call)
  | .literal _ _, _ => []
  | .getLocal _, _ => []
  | .setLocal _ e, f => emittedExpr abi e (f.advance 5)
  | .idExpr e, f => emittedExpr abi e (f.advance 1)
  | .operator o args, f => emittedOperands abi args (f.advance (1 + o.immBefore))
  | .minMax first rest, f =>
    emittedExpr abi first (f.advance 2) ++
      emittedAfter (EmitExpr abi first (f.advance 2)) (fun r => emittedMinMaxRest abi rest r.2 r.1)
  | .storeWithCoercion ptr rhs, f =>
    emittedExpr abi ptr (f.advance 2) ++
      emittedAfter (EmitExpr abi ptr (f.advance 2)) (fun p => emittedExpr abi rhs p.1)
  | .call c, f => emittedCall abi c (f.advance 1)
  | .conditional cond ifTrue ifFalse, f =>
    emittedExpr abi cond (f.advance 1) ++
      emittedAfter (EmitExpr abi cond (f.advance 1)) (fun c =>
        emittedExpr abi ifTrue (c.1.branchAndStartThen c.2 none none).1 ++
          emittedAfter (EmitExpr abi ifTrue (c.1.branchAndStartThen c.2 none none).1) (fun t =>
            emittedExpr abi ifFalse
              ((t.1.pushPhiInput t.2).switchToElse (c.1.branchAndStartThen c.2 none none).2.2)))
  | .comma stmts last, f =>
    emittedStatements abi stmts (f.advance 5) ++
      emittedAfter (EmitStatements abi stmts (f.advance 5)) (fun f1 => emittedExpr abi last f1)
/-- The calls emitted while `EmitOperands` runs. -/
def emittedOperands (abi : ABIArgGenerator) :
    Args → FunctionCompiler → List (FunctionCompiler × Call)
  | .nil, _ => []
  | .cons _ e rest, f =>
    emittedExpr abi e f ++ emittedAfter (EmitExpr abi e f) (fun r => emittedOperands abi rest r.1)
/-- The calls emitted while `EmitMinMaxRest` runs. -/
def emittedMinMaxRest (abi : ABIArgGenerator) :
    Args → Option DefId → FunctionCompiler → List (FunctionCompiler × Call)
  | .nil, _, _ => []
  | .cons _ e rest, lastDef, f =>
    emittedExpr abi e f ++ emittedAfter (EmitExpr abi e f) (fun r =>
      emittedMinMaxRest abi rest (r.1.emitOp Op.minMax [lastDef, r.2]).2
        (r.1.emitOp Op.minMax [lastDef, r.2]).1)
/-- The calls emitted while `EmitCallArgsLoop` runs: those inside the arguments. -/
def emittedCallArgsLoop (abi : ABIArgGenerator) :
    Args → Call → FunctionCompiler → List (FunctionCompiler × Call)
  | .nil, _, _ => []
  | .cons type e rest, call, f =>
    emittedExpr abi e f ++ emittedAfter (EmitExpr abi e f) (fun r =>
      emittedCallArgsLoop abi rest
        (FunctionCompiler.passArg abi r.1 r.2 (MIRTypeFromAsmType type) call).2
        (FunctionCompiler.passArg abi r.1 r.2 (MIRTypeFromAsmType type) call).1)
/-- The calls emitted while `EmitCall` runs: those inside the index expression
and the arguments, then the call itself. -/
def emittedCall (abi : ABIArgGenerator) :
    CallExpr → FunctionCompiler → List (FunctionCompiler × Call)
  | .direct kind lineno column args, f =>
    emittedCallArgsLoop abi args
        ((f.advance kind.immBytes).startCallArgs (Call.new lineno column)).2
        ((f.advance kind.immBytes).startCallArgs (Call.new lineno column)).1 ++
      emittedAfter (EmitCallArgsLoop abi args
          ((f.advance kind.immBytes).startCallArgs (Call.new lineno column)).2
          ((f.advance kind.immBytes).startCallArgs (Call.new lineno column)).1) (fun a =>
        callIfLive (FunctionCompiler.finishCallArgs abi a.1 a.2))
  | .indirect _ _ lineno column index args, f =>
    emittedExpr abi index (f.advance 24) ++
      emittedAfter (EmitExpr abi index (f.advance 24)) (fun ix =>
        emittedCallArgsLoop abi args (ix.1.startCallArgs (Call.new lineno column)).2
            (ix.1.startCallArgs (Call.new lineno column)).1 ++
          emittedAfter (EmitCallArgsLoop abi args
              (ix.1.startCallArgs (Call.new lineno column)).2
              (ix.1.startCallArgs (Call.new lineno column)).1) (fun a =>
            callIfLive (FunctionCompiler.finishCallArgs abi a.1 a.2)))
/-- The calls emitted while `EmitIfElse` runs; they do not depend on the vector
of then blocks, which is used only by the join at the end. -/
def emittedIfElse (abi : ABIArgGenerator) :
    IfChain → FunctionCompiler → List (FunctionCompiler × Call)
  | .ifThen cond thenStmt, f =>
    emittedExpr abi cond f ++ emittedAfter (EmitExpr abi cond f) (fun c =>
      emittedStatement abi thenStmt none (c.1.branchAndStartThen c.2 none none).1)
  | .ifElse cond thenStmt elseStmt, f =>
    emittedExpr abi cond f ++ emittedAfter (EmitExpr abi cond f) (fun c =>
      emittedStatement abi thenStmt none (c.1.branchAndStartThen c.2 none none).1 ++
        emittedAfter (EmitStatement abi thenStmt none (c.1.branchAndStartThen c.2 none none).1)
          (fun t =>
            match elseStmt with
            | .ifStmt chain =>
              emittedIfElse abi chain
                ((t.1.switchToElse (c.1.branchAndStartThen c.2 none none).2.2).advance 1)
            | s =>
              emittedStatement abi s none
                (t.1.switchToElse (c.1.branchAndStartThen c.2 none none).2.2)))
/-- The calls emitted while `EmitStatement` runs: those of the statements and
expressions inside the statement. -/
def emittedStatement (abi : ABIArgGenerator) :
    Stmt → Option LabelVector → FunctionCompiler → List (FunctionCompiler × Call)
  | .block stmts, _, f => emittedStatements abi stmts (f.advance 5)
  | .ifStmt chain, _, f => emittedIfElse abi chain (f.advance 1)
  | .switchStmt low high expr cases dflt, _, f =>
    emittedExpr abi expr (f.advance 14) ++
      emittedAfter (EmitExpr abi expr (f.advance 14)) (fun e =>
        if switchIsEmpty cases dflt then []
        else emittedAfter (tableLength low high) (fun len =>
          emittedSwitchCases abi cases low (e.1.startSwitch e.1.pc_ e.2 low high).2
              (List.replicate len none) (e.1.startSwitch e.1.pc_ e.2 low high).1 ++
            emittedAfter (EmitSwitchCases abi cases low (e.1.startSwitch e.1.pc_ e.2 low high).2
                (List.replicate len none) (e.1.startSwitch e.1.pc_ e.2 low high).1) (fun cs =>
              emittedOptStmt abi dflt
                (cs.1.startSwitchDefault (e.1.startSwitch e.1.pc_ e.2 low high).2).1)))
  | .whileStmt cond body, _, f =>
    emittedExpr abi cond ((f.advance 1).startPendingLoop (f.advance 1).pc_).1 ++
      emittedAfter (EmitExpr abi cond ((f.advance 1).startPendingLoop (f.advance 1).pc_).1)
        (fun c => emittedStatement abi body none (c.1.branchAndStartLoopBody c.2).1)
  | .doWhile body cond, l, f =>
    emittedStatement abi body none ((f.advance 1).startPendingLoop (f.advance 1).pc_).1 ++
      emittedAfter
        (EmitStatement abi body none ((f.advance 1).startPendingLoop (f.advance 1).pc_).1)
        (fun s => emittedExpr abi cond (s.1.bindContinues (f.advance 1).pc_ l))
  | .forStmt init cond body inc, l, f =>
    emittedOptStmt abi init (f.advance 1) ++
      emittedAfter (EmitOptStmt abi init (f.advance 1)) (fun f0 =>
        emittedExpr abi cond (f0.startPendingLoop (f.advance 1).pc_).1 ++
          emittedAfter (EmitExpr abi cond (f0.startPendingLoop (f.advance 1).pc_).1) (fun c =>
            emittedStatement abi body none (c.1.branchAndStartLoopBody c.2).1 ++
              emittedAfter (EmitStatement abi body none (c.1.branchAndStartLoopBody c.2).1)
                (fun s => emittedOptStmt abi inc (s.1.bindContinues (f.advance 1).pc_ l))))
  | .label labelId s, some labels, f =>
    emittedStatement abi s (some (labels ++ [labelId])) (f.advance 5)
  | .label labelId s, none, f => emittedStatement abi s (some [labelId]) (f.advance 5)
  | .continueStmt, _, _ => []
  | .continueLabel _, _, _ => []
  | .breakStmt, _, _ => []
  | .breakLabel _, _, _ => []
  | .retVoid, _, _ => []
  | .ret e, _, f => emittedExpr abi e (f.advance 1)
  | .exprStmt e, _, f => emittedExpr abi e (f.advance 1)
  | .callStmt c, _, f => emittedCall abi c (f.advance 1)
  | .atomicsFence, _, _ => []
  | .noop, _, _ => []
  | .idStmt s, _, f => emittedStatement abi s none (f.advance 1)
  | .interruptCheckHead, _, _ => []
  | .interruptCheckLoop s, _, f => emittedStatement abi s none (f.advance 9).addInterruptCheck
/-- The calls emitted while `EmitOptStmt` runs. -/
def emittedOptStmt (abi : ABIArgGenerator) :
    OptStmt → FunctionCompiler → List (FunctionCompiler × Call)
  | .absent, _ => []
  | .present s, f => emittedStatement abi s none f
/-- The calls emitted while `EmitStatements` runs. -/
def emittedStatements (abi : ABIArgGenerator) :
    Stmts → FunctionCompiler → List (FunctionCompiler × Call)
  | .nil, _ => []
  | .cons s rest, f =>
    emittedStatement abi s none f ++
      emittedAfter (EmitStatement abi s none f) (fun r => emittedStatements abi rest r.1)
/-- The calls emitted while `EmitSwitchCases` runs. -/
def emittedSwitchCases (abi : ABIArgGenerator) :
    Cases → Int → Option BlockId → List (Option BlockId) → FunctionCompiler →
      List (FunctionCompiler × Call)
  | .nil, _, _, _, _ => []
  | .cons caseValue body rest, low, switchBlock, cases, f =>
    emittedAfter (caseIndex low caseValue cases.length) (fun idx =>
      emittedStatement abi body none ((f.advance 4).startSwitchCase switchBlock).1 ++
        emittedAfter (EmitStatement abi body none ((f.advance 4).startSwitchCase switchBlock).1)
          (fun r =>
            emittedSwitchCases abi rest low switchBlock
              (cases.set idx ((f.advance 4).startSwitchCase switchBlock).2) r.1))
end

/-- The calls for which `GenerateAsmFunctionMIR` emits a call instruction. -/
def emittedCalls (abi : ABIArgGenerator) (func : AsmFunction) : List (FunctionCompiler × Call) :=
  emittedStatements abi func.body
    (FunctionCompiler.prepareEmitMIR func.argTypes func.varInitializers)

/-- From state `f` to state `f'` the maximum stack-argument byte count did not
drop, and in `f'` it is at least the requirement of every call of `T`. -/
def Covers (abi : ABIArgGenerator) (f f' : FunctionCompiler) (T : List (FunctionCompiler × Call)) :
    Prop :=
  f.maxAsmJSStackArgBytes_ ≤ f'.maxAsmJSStackArgBytes_ ∧
  ∀ x ∈ T, stackArgRequirement abi x.2 ≤ f'.maxAsmJSStackArgBytes_

open FunctionCompiler

/-! ## List and arena lemmas -/

theorem updateAt_length {α : Type} (l : List α) (i : Nat) (fn : α → α) :
    (updateAt l i fn).length = l.length := by
  induction l generalizing i with
  | nil => rfl
  | cons a as ih => cases i <;> simp [updateAt, ih]

theorem updateAt_getD {α : Type} (l : List α) (i j : Nat) (fn : α → α) (d : α) :
    (updateAt l i fn).getD j d = if i = j ∧ j < l.length then fn (l.getD j d) else l.getD j d := by
  induction l generalizing i j with
  | nil => simp [updateAt]
  | cons a as ih =>
    cases i with
    | zero =>
      cases j with
      | zero => simp [updateAt]
      | succ j => simp [updateAt]
    | succ i =>
      cases j with
      | zero => simp [updateAt]
      | succ j =>
        have := ih i j
        simp only [updateAt, List.getD_cons_succ, List.length_cons, Nat.add_lt_add_iff_right,
          Nat.add_right_cancel_iff, this]

theorem getDef_modifyDef (g : MIRGraph) (d e : DefId) (fn : MDefinition → MDefinition) :
    (g.modifyDef d fn).getDef e = if d = e ∧ e < g.defs.length then fn (g.getDef e) else g.getDef e := by
  simp only [MIRGraph.modifyDef, MIRGraph.getDef, updateAt_getD]

theorem getDef_passStackArg_lt (g : MIRGraph) (d : DefId) (o : Nat)
    (h : (g.getDef d).op = .passStackArg o) : d < g.defs.length := by
  by_contra hlt
  rw [MIRGraph.getDef, List.getD_eq_default _ _ (Nat.le_of_not_lt hlt)] at h
  cases h

theorem incrementOffset_foldl_other (l : List DefId) (g : MIRGraph) (inc : Nat) (e : DefId)
    (he : e ∉ l) :
    ((l.foldl (fun g d => incrementOffset g d inc) g).getDef e) = g.getDef e := by
  induction l generalizing g with
  | nil => rfl
  | cons a as ih =>
    simp only [List.mem_cons, not_or] at he
    simp only [List.foldl_cons]
    rw [ih _ he.2, incrementOffset, getDef_modifyDef]
    simp [Ne.symm he.1]

theorem incrementOffset_foldl_mem (l : List DefId) (g : MIRGraph) (inc : Nat) (e : DefId) (o : Nat)
    (hn : l.Nodup) (he : e ∈ l) (ho : (g.getDef e).op = .passStackArg o) :
    ((l.foldl (fun g d => incrementOffset g d inc) g).getDef e).op = .passStackArg (u32 (o + inc)) := by
  induction l generalizing g with
  | nil => cases he
  | cons a as ih =>
    simp only [List.nodup_cons] at hn
    simp only [List.foldl_cons]
    rcases List.mem_cons.1 he with rfl | hmem
    · rw [incrementOffset_foldl_other _ _ _ _ hn.1, incrementOffset, getDef_modifyDef]
      simp [getDef_passStackArg_lt g e o ho, ho]
    · have hne : a ≠ e := fun h => hn.1 (h ▸ hmem)
      apply ih _ hn.2 hmem
      rw [incrementOffset, getDef_modifyDef]
      simp [hne, ho]

theorem AlignBytes_16_spec (n : Nat) (h : n + 16 ≤ 2 ^ 32) :
    n ≤ AlignBytes n 16 ∧ AlignBytes n 16 % 16 = 0 ∧ AlignBytes n 16 < n + 16 := by
  unfold AlignBytes ComputeByteAlignment u32
  have : n + (16 - n % 16) % 16 < 2 ^ 32 := by omega
  rw [Nat.mod_eq_of_lt this]
  omega

/-! ## Call marshalling (C1, C2) -/

theorem passArg_live (abi : ABIArgGenerator) (f : FunctionCompiler) (argDef : Option DefId)
    (mirType : MIRType) (call : Call) (cur : BlockId) (hlive : f.curBlock_ = some cur) :
    (passArg abi f argDef mirType call).2.maxChildStackBytes_ =
        max call.maxChildStackBytes_ f.maxAsmJSStackArgBytes_ ∧
    (passArg abi f argDef mirType call).2.childClobbers_ =
        (if 0 < f.maxAsmJSStackArgBytes_ ∧ call.stackArgs_ ≠ [] then true
          else call.childClobbers_) := by
  unfold passArg
  simp only [hlive, resetAsmJSMaxStackArgBytes]
  cases abi.next call.abi_ mirType <;> exact ⟨rfl, rfl⟩

theorem callPrivate_live (f : FunctionCompiler) (callee : Callee) (call : Call) (cur : BlockId)
    (hlive : f.curBlock_ = some cur) :
    (f.callPrivate callee call).2 = some f.graph_.defs.length ∧
    ((f.callPrivate callee call).1.graph_.getDef f.graph_.defs.length).op =
      .call callee call.regArgs_ call.spIncrement_ := by
  simp only [callPrivate, emit, hlive, MIRGraph.add, MIRGraph.newDef, MIRGraph.modifyBlock,
    MIRGraph.getDef, List.getD_eq_getElem?_getD, List.getElem?_append_right (Nat.le_refl _),
    Nat.sub_self, List.getElem?_cons_zero, Option.getD_some, and_self]

/-- Amended C1. In live code: (1) when the sub-evaluation of an argument
consumed `k > 0` bytes of stack-argument space and an earlier argument of the
call already has a stack slot, `passArg` records the clobber and a maximum of
at least `k`; (2) the clobber flag stays set and the maximum does not decrease
under later `passArg` calls; (3) `finishCallArgs` on a call with the flag set
makes `spIncrement_` equal to `AlignBytes(maxChildStackBytes_, 16)`, raises the
offset of every stack-passed argument by exactly that amount (in `uint32_t`
arithmetic), and the call instruction built by `callPrivate` carries the same
amount; (4) without overflow that amount is the least multiple of 16 that is
at least the maximum, so it is at least `k`, and it is 32 when the maximum
is 32. -/
theorem C1_shift_is_aligned_max_child (abi : ABIArgGenerator) (f : FunctionCompiler)
    (call : Call) (cur : BlockId) (hlive : f.curBlock_ = some cur) :
    (∀ argDef mirType, 0 < f.maxAsmJSStackArgBytes_ → call.stackArgs_ ≠ [] →
      (passArg abi f argDef mirType call).2.childClobbers_ = true ∧
      f.maxAsmJSStackArgBytes_ ≤ (passArg abi f argDef mirType call).2.maxChildStackBytes_) ∧
    (∀ argDef mirType,
      (call.childClobbers_ = true → (passArg abi f argDef mirType call).2.childClobbers_ = true) ∧
      call.maxChildStackBytes_ ≤ (passArg abi f argDef mirType call).2.maxChildStackBytes_) ∧
    (call.childClobbers_ = true → call.stackArgs_.Nodup →
      (finishCallArgs abi f call).2.spIncrement_ =
          AlignBytes call.maxChildStackBytes_ AsmJSStackAlignment ∧
      (finishCallArgs abi f call).1.curBlock_ = some cur ∧
      (∀ d ∈ call.stackArgs_, ∀ o, (f.graph_.getDef d).op = .passStackArg o →
        ((finishCallArgs abi f call).1.graph_.getDef d).op =
          .passStackArg (u32 (o + AlignBytes call.maxChildStackBytes_ AsmJSStackAlignment))) ∧
      (∀ callee,
        (((finishCallArgs abi f call).1.callPrivate callee (finishCallArgs abi f call).2).1.graph_.getDef
          (finishCallArgs abi f call).1.graph_.defs.length).op =
          .call callee call.regArgs_ (AlignBytes call.maxChildStackBytes_ AsmJSStackAlignment))) ∧
    (call.maxChildStackBytes_ + 16 ≤ 2 ^ 32 →
      call.maxChildStackBytes_ ≤ AlignBytes call.maxChildStackBytes_ AsmJSStackAlignment ∧
      AlignBytes call.maxChildStackBytes_ AsmJSStackAlignment % 16 = 0 ∧
      AlignBytes call.maxChildStackBytes_ AsmJSStackAlignment < call.maxChildStackBytes_ + 16) := by
  refine ⟨?_, ?_, ?_, ?_⟩
  · intro argDef mirType hk hs
    obtain ⟨h1, h2⟩ := passArg_live abi f argDef mirType call cur hlive
    rw [h1, h2]
    simp [hk, hs]
  · intro argDef mirType
    obtain ⟨h1, h2⟩ := passArg_live abi f argDef mirType call cur hlive
    rw [h1, h2]
    refine ⟨?_, Nat.le_max_left _ _⟩
    intro hc
    simp [hc]
  · intro hc hn
    have hfin : finishCallArgs abi f call =
        ({ f with
            graph_ := call.stackArgs_.foldl (fun g d => incrementOffset g d
              (AlignBytes call.maxChildStackBytes_ AsmJSStackAlignment)) f.graph_,
            maxAsmJSStackArgBytes_ := max call.prevMaxStackBytes_
              (u32 (AlignBytes call.maxChildStackBytes_ AsmJSStackAlignment +
                abi.stackBytesConsumedSoFar call.abi_)) },
          { call with spIncrement_ := AlignBytes call.maxChildStackBytes_ AsmJSStackAlignment }) := by
      simp [finishCallArgs, hlive, hc]
    have hsp : (finishCallArgs abi f call).2.spIncrement_ =
        AlignBytes call.maxChildStackBytes_ AsmJSStackAlignment := by rw [hfin]
    have hreg : (finishCallArgs abi f call).2.regArgs_ = call.regArgs_ := by rw [hfin]
    have hcur : (finishCallArgs abi f call).1.curBlock_ = some cur := by rw [hfin]; exact hlive
    refine ⟨hsp, hcur, ?_, ?_⟩
    · intro d hd o ho
      rw [hfin]
      exact incrementOffset_foldl_mem _ _ _ _ _ hn hd ho
    · intro callee
      have h := (callPrivate_live (finishCallArgs abi f call).1 callee
        (finishCallArgs abi f call).2 cur hcur).2
      rw [hsp, hreg] at h
      exact h
  · intro h
    exact AlignBytes_16_spec _ h

/-- Witness for C1: a live state whose counter holds 8 bytes consumed by a
child call, and a call with one stack argument already assigned. -/
theorem C1_shift_is_aligned_max_child_witness :
    (prepareEmitMIR [] []).curBlock_ = some 0 ∧
    (passArg x64ABI { prepareEmitMIR [] [] with maxAsmJSStackArgBytes_ := 8 } none .Int32
        { Call.new 0 0 with stackArgs_ := [0] }).2.childClobbers_ = true ∧
    8 ≤ (passArg x64ABI { prepareEmitMIR [] [] with maxAsmJSStackArgBytes_ := 8 } none .Int32
        { Call.new 0 0 with stackArgs_ := [0] }).2.maxChildStackBytes_ :=
  ⟨rfl, (C1_shift_is_aligned_max_child x64ABI
    { prepareEmitMIR [] [] with maxAsmJSStackArgBytes_ := 8 }
    { Call.new 0 0 with stackArgs_ := [0] } 0 rfl).1 none .Int32 (by decide) (by decide)⟩

/-- Counterexample to C1 as stated: in the call `g(1, ..., 6, a0, a1, a2)` the
sub-evaluation of `a1` consumes `k = 8` bytes after `a0` got the stack slot at
offset 0, yet `finishCallArgs` moves `a0` to offset 16 and sets the
stack-pointer increment to 16, not to `k = 8`. -/
theorem C1_counterexample :
    clobberTrace = some (8, [7], .passStackArg 0, .passStackArg 16, 16) ∧ (0 + 8 ≠ 16) := by
  decide

/-- C2. In live code `startCallArgs` saves the function's maximum
stack-argument byte counter in the call, and `finishCallArgs` on a call with a
detected clobber sets the counter to the maximum of that saved value and
`spIncrement_ + stackBytesConsumedSoFar` (a `uint32_t` sum), where
`spIncrement_` is the shift amount; without overflow, a call one of whose
arguments needed `k` bytes (for instance 32) gets a counter of at least
`k +` the call's own stack-argument bytes. -/
theorem C2_max_stack_arg_bytes (abi : ABIArgGenerator) (f : FunctionCompiler) (call : Call)
    (cur : BlockId) (hlive : f.curBlock_ = some cur) (hc : call.childClobbers_ = true) :
    (∀ c0 : Call, (f.startCallArgs c0).2.prevMaxStackBytes_ = f.maxAsmJSStackArgBytes_ ∧
      (f.startCallArgs c0).1.maxAsmJSStackArgBytes_ = 0) ∧
    (finishCallArgs abi f call).1.maxAsmJSStackArgBytes_ =
      max call.prevMaxStackBytes_
        (u32 ((finishCallArgs abi f call).2.spIncrement_ + abi.stackBytesConsumedSoFar call.abi_)) ∧
    (call.maxChildStackBytes_ + 16 + abi.stackBytesConsumedSoFar call.abi_ ≤ 2 ^ 32 →
      (finishCallArgs abi f call).1.maxAsmJSStackArgBytes_ =
        max call.prevMaxStackBytes_
          ((finishCallArgs abi f call).2.spIncrement_ + abi.stackBytesConsumedSoFar call.abi_) ∧
      ∀ k, k ≤ call.maxChildStackBytes_ →
        k + abi.stackBytesConsumedSoFar call.abi_ ≤
          (finishCallArgs abi f call).1.maxAsmJSStackArgBytes_) := by
  have hfin : finishCallArgs abi f call =
      ({ f with
          graph_ := call.stackArgs_.foldl (fun g d => incrementOffset g d
            (AlignBytes call.maxChildStackBytes_ AsmJSStackAlignment)) f.graph_,
          maxAsmJSStackArgBytes_ := max call.prevMaxStackBytes_
            (u32 (AlignBytes call.maxChildStackBytes_ AsmJSStackAlignment +
              abi.stackBytesConsumedSoFar call.abi_)) },
        { call with spIncrement_ := AlignBytes call.maxChildStackBytes_ AsmJSStackAlignment }) := by
    simp [finishCallArgs, hlive, hc]
  refine ⟨?_, ?_, ?_⟩
  · intro c0
    simp [startCallArgs, hlive, resetAsmJSMaxStackArgBytes]
  · rw [hfin]
  · intro hno
    rw [hfin]
    obtain ⟨h1, _, h3⟩ := AlignBytes_16_spec call.maxChildStackBytes_ (by omega)
    have hu : u32 (AlignBytes call.maxChildStackBytes_ AsmJSStackAlignment +
        abi.stackBytesConsumedSoFar call.abi_) =
        AlignBytes call.maxChildStackBytes_ AsmJSStackAlignment +
        abi.stackBytesConsumedSoFar call.abi_ := by
      unfold u32
      apply Nat.mod_eq_of_lt
      simp only [AsmJSStackAlignment]
      omega
    simp only [hu]
    refine ⟨trivial, ?_⟩
    intro k hk
    simp only [AsmJSStackAlignment] at *
    omega

/-- Witness for C2: a live state and a call with a detected clobber whose
child needed 32 bytes. -/
theorem C2_max_stack_arg_bytes_witness :
    (finishCallArgs x64ABI (prepareEmitMIR [] [])
      { Call.new 0 0 with childClobbers_ := true, maxChildStackBytes_ := 32 }).1.maxAsmJSStackArgBytes_ =
      max 0 (u32 (32 + 0)) :=
  (C2_max_stack_arg_bytes x64ABI (prepareEmitMIR [] [])
    { Call.new 0 0 with childClobbers_ := true, maxChildStackBytes_ := 32 } 0 rfl rfl).2.1

/-! ## Jump patching (C10) -/

theorem readRel32_SetInt32 (m : Memory) (loc : Nat) (v : Int)
    (h : -(2 : Int) ^ 31 ≤ v ∧ v < 2 ^ 31) : readRel32 (SetInt32 m loc v) loc = v := by
  unfold readRel32 SetInt32 Memory.write byteAt
  simp only [Nat.add_right_cancel_iff, Nat.add_eq_left, OfNat.ofNat_ne_zero, OfNat.ofNat_ne_one,
    if_true, if_false, Nat.succ_ne_self, reduceCtorEq, Nat.reduceEqDiff, OfNat.one_ne_ofNat]
  have hu : ((v % 2 ^ 32).toNat : Int) = v % 2 ^ 32 := Int.toNat_of_nonneg (Int.emod_nonneg _ (by norm_num))
  generalize (v % 2 ^ 32).toNat = u at hu ⊢
  have hlt : (u : Int) < 2 ^ 32 := by rw [hu]; exact Int.emod_lt_of_pos _ (by norm_num)
  norm_num at *
  split <;> omega


theorem SetInt32_frame (m : Memory) (loc : Nat) (v : Int) (a : Nat)
    (h : a < loc - 4 ∨ loc - 4 + 3 < a) : SetInt32 m loc v a = m a := by
  unfold SetInt32 Memory.write
  have h0 : a ≠ loc - 4 := by omega
  have h1 : a ≠ loc - 4 + 1 := by omega
  have h2 : a ≠ loc - 4 + 2 := by omega
  have h3 : a ≠ loc - 4 + 3 := by omega
  simp only [h0, h1, h2, h3, if_false]

theorem PatchJumpEntry_frame (m : Memory) (entry target : Nat) (a : Nat)
    (h : a < entry + 8 ∨ entry + 15 < a) : PatchJumpEntry m entry target a = m a := by
  unfold PatchJumpEntry Memory.write SizeOfExtendedJump
  have h0 : a ≠ entry + (1 + 1 + 4 + 2 + 8) - 8 := by omega
  have h1 : a ≠ entry + (1 + 1 + 4 + 2 + 8) - 8 + 1 := by omega
  have h2 : a ≠ entry + (1 + 1 + 4 + 2 + 8) - 8 + 2 := by omega
  have h3 : a ≠ entry + (1 + 1 + 4 + 2 + 8) - 8 + 3 := by omega
  have h4 : a ≠ entry + (1 + 1 + 4 + 2 + 8) - 8 + 4 := by omega
  have h5 : a ≠ entry + (1 + 1 + 4 + 2 + 8) - 8 + 5 := by omega
  have h6 : a ≠ entry + (1 + 1 + 4 + 2 + 8) - 8 + 6 := by omega
  have h7 : a ≠ entry + (1 + 1 + 4 + 2 + 8) - 8 + 7 := by omega
  simp only [h0, h1, h2, h3, h4, h5, h6, h7, if_false]

theorem readEntryTarget_PatchJumpEntry (m : Memory) (entry target : Nat) :
    readEntryTarget (PatchJumpEntry m entry target) entry = target % 2 ^ 64 := by
  unfold readEntryTarget PatchJumpEntry Memory.write byteAt
  simp only [Nat.add_right_cancel_iff, Nat.add_eq_left, OfNat.ofNat_ne_zero, OfNat.ofNat_ne_one,
    if_true, if_false, Nat.succ_ne_self, reduceCtorEq, Nat.reduceEqDiff, OfNat.one_ne_ofNat]
  have hlt : target % 2 ^ 64 < 2 ^ 64 := Nat.mod_lt _ (by norm_num)
  generalize target % 2 ^ 64 = u at hlt ⊢
  norm_num at *
  omega

theorem readRel32_congr (m m' : Memory) (loc : Nat)
    (h : ∀ a, loc - 4 ≤ a → a ≤ loc - 4 + 3 → m' a = m a) : readRel32 m' loc = readRel32 m loc := by
  unfold readRel32
  rw [h (loc - 4) (by omega) (by omega), h (loc - 4 + 1) (by omega) (by omega),
    h (loc - 4 + 2) (by omega) (by omega), h (loc - 4 + 3) (by omega) (by omega)]

theorem CanRelinkJump_iff (jump target : Nat) :
    CanRelinkJump jump target = true ↔
      (-(2 : Int) ^ 31 ≤ (target : Int) - jump ∧ (target : Int) - jump < 2 ^ 31) := by
  simp [CanRelinkJump]

/-- C10. `PatchJump` resolves a jump by exactly one path. If the displacement
to the target fits the signed 32-bit field (`CanRelinkJump`), the rel32 of the
jump is patched to the target itself and no byte outside that field is
written, so the jump is not redirected and its table entry is untouched.
Otherwise (the table entry being in rel32 range of the jump, as it is in the
same code allocation) the table entry is patched to hold exactly the target
address, the rel32 of the jump points at the entry when the two patched fields
do not overlap, and no byte outside the two fields is written. -/
theorem C10_PatchJump_one_path (m : Memory) (jump : CodeLocationJump) (label : Nat) :
    (CanRelinkJump jump.raw label = true →
      ∃ m', PatchJump m jump label = some m' ∧
        readRel32 m' jump.raw = (label : Int) - jump.raw ∧
        ∀ a, (a < jump.raw - 4 ∨ jump.raw - 4 + 3 < a) → m' a = m a) ∧
    (CanRelinkJump jump.raw label = false →
      CanRelinkJump jump.raw jump.jumpTableEntry = true →
      ∃ m', PatchJump m jump label = some m' ∧
        readEntryTarget m' jump.jumpTableEntry = label % 2 ^ 64 ∧
        ((jump.raw - 4 + 3 < jump.jumpTableEntry + 8 ∨ jump.jumpTableEntry + 15 < jump.raw - 4) →
          readRel32 m' jump.raw = (jump.jumpTableEntry : Int) - jump.raw) ∧
        ∀ a, (a < jump.raw - 4 ∨ jump.raw - 4 + 3 < a) →
          (a < jump.jumpTableEntry + 8 ∨ jump.jumpTableEntry + 15 < a) → m' a = m a) := by
  constructor
  · intro h
    refine ⟨SetInt32 m jump.raw ((label : Int) - jump.raw), ?_, ?_, ?_⟩
    · simp [PatchJump, SetRel32, h]
    · exact readRel32_SetInt32 _ _ _ ((CanRelinkJump_iff _ _).1 h)
    · intro a ha
      exact SetInt32_frame _ _ _ _ ha
  · intro h he
    refine ⟨PatchJumpEntry (SetInt32 m jump.raw ((jump.jumpTableEntry : Int) - jump.raw))
      jump.jumpTableEntry label, ?_, ?_, ?_, ?_⟩
    · simp [PatchJump, SetRel32, h, he]
    · exact readEntryTarget_PatchJumpEntry _ _ _
    · intro hd
      rw [readRel32_congr (SetInt32 m jump.raw ((jump.jumpTableEntry : Int) - jump.raw))]
      · exact readRel32_SetInt32 _ _ _ ((CanRelinkJump_iff _ _).1 he)
      · intro a h1 h2
        apply PatchJumpEntry_frame
        omega
    · intro a ha hb
      rw [PatchJumpEntry_frame _ _ _ _ hb, SetInt32_frame _ _ _ _ ha]

/-- Witness for C10: a jump at address 100 with its table entry at 1000; the
target 200 is in direct range, the target `2 ^ 40` is not. -/
theorem C10_PatchJump_one_path_witness :
    CanRelinkJump 100 200 = true ∧ CanRelinkJump 100 (2 ^ 40) = false ∧
    CanRelinkJump 100 1000 = true ∧
    (∃ m', PatchJump (fun _ => 0) ⟨100, 1000⟩ 200 = some m' ∧
        readRel32 m' 100 = ((200 : Nat) : Int) - (100 : Nat) ∧
        ∀ a, (a < 100 - 4 ∨ 100 - 4 + 3 < a) → m' a = 0) ∧
    (∃ m', PatchJump (fun _ => 0) ⟨100, 1000⟩ (2 ^ 40) = some m' ∧
        readEntryTarget m' 1000 = 2 ^ 40 % 2 ^ 64 ∧
        ((100 - 4 + 3 < 1000 + 8 ∨ 1000 + 15 < 100 - 4) →
          readRel32 m' 100 = ((1000 : Nat) : Int) - (100 : Nat)) ∧
        ∀ a, (a < 100 - 4 ∨ 100 - 4 + 3 < a) → (a < 1000 + 8 ∨ 1000 + 15 < a) → m' a = 0) :=
  ⟨by decide, by decide, by decide,
    (C10_PatchJump_one_path (fun _ => 0) ⟨100, 1000⟩ 200).1 (by decide),
    (C10_PatchJump_one_path (fun _ => 0) ⟨100, 1000⟩ (2 ^ 40)).2 (by decide) (by decide)⟩

/-! ## Frame lemmas for control instructions -/

theorem block_modifyBlock (g : MIRGraph) (b c : BlockId) (fn : MBasicBlock → MBasicBlock) :
    (g.modifyBlock b fn).block c =
      if b = c ∧ c < g.blocks.length then fn (g.block c) else g.block c := by
  simp only [MIRGraph.modifyBlock, MIRGraph.block, updateAt_getD]

theorem blocks_length_modifyBlock (g : MIRGraph) (b : BlockId) (fn : MBasicBlock → MBasicBlock) :
    (g.modifyBlock b fn).blocks.length = g.blocks.length := by
  simp only [MIRGraph.modifyBlock, updateAt_length]

theorem SameControl.sc_refl (g : MIRGraph) : SameControl g g := ⟨rfl, fun _ => rfl⟩

theorem SameControl.sc_trans {g1 g2 g3 : MIRGraph} (h1 : SameControl g1 g2) (h2 : SameControl g2 g3) :
    SameControl g1 g3 :=
  ⟨h2.1.trans h1.1, fun c => (h2.2 c).trans (h1.2 c)⟩

theorem sameControl_modifyBlock (g : MIRGraph) (b : BlockId) (fn : MBasicBlock → MBasicBlock)
    (h : ∀ blk, (fn blk).lastIns = blk.lastIns) : SameControl g (g.modifyBlock b fn) := by
  refine ⟨blocks_length_modifyBlock g b fn, fun c => ?_⟩
  rw [block_modifyBlock]
  split
  · exact h _
  · rfl

theorem sameControl_modifyDef (g : MIRGraph) (d : DefId) (fn : MDefinition → MDefinition) :
    SameControl g (g.modifyDef d fn) := ⟨rfl, fun _ => rfl⟩

theorem sameControl_newDef (g : MIRGraph) (d : MDefinition) : SameControl g (g.newDef d).1 :=
  ⟨rfl, fun _ => rfl⟩

theorem sameControl_setSlot (g : MIRGraph) (b : BlockId) (i : Nat) (d : Option DefId) :
    SameControl g (g.setSlot b i d) := by
  unfold MIRGraph.setSlot
  refine sameControl_modifyBlock g b _ ?_
  intro blk; rfl

theorem sameControl_moveBlockToEnd (g : MIRGraph) (b : BlockId) :
    SameControl g (g.moveBlockToEnd b) := ⟨rfl, fun _ => rfl⟩

theorem sameControl_foldl {α : Type} (step : MIRGraph → α → MIRGraph) (l : List α)
    (h : ∀ g a, SameControl g (step g a)) (g : MIRGraph) : SameControl g (l.foldl step g) := by
  induction l generalizing g with
  | nil => exact SameControl.sc_refl g
  | cons a as ih => exact (h g a).sc_trans (ih _)

theorem sameControl_addPhiForSlot (g : MIRGraph) (b : BlockId) (i : Nat)
    (mine other : Option DefId) : SameControl g (addPhiForSlot g b i mine other) := by
  unfold addPhiForSlot
  dsimp only
  apply SameControl.sc_trans _ (sameControl_setSlot _ b i _)
  refine SameControl.sc_trans ?_ (sameControl_modifyBlock _ b _ ?_)
  · exact sameControl_newDef g _
  · intro blk; rfl

theorem sameControl_addPredecessorSlot (b pred : BlockId) (g : MIRGraph) (i : Nat) :
    SameControl g (addPredecessorSlot b pred g i) := by
  unfold addPredecessorSlot
  dsimp only
  split
  · exact SameControl.sc_refl g
  · split
    · split
      · exact sameControl_modifyDef g _ _
      · exact sameControl_addPhiForSlot _ _ _ _ _
    · exact sameControl_addPhiForSlot _ _ _ _ _

theorem sameControl_addPredecessor (g : MIRGraph) (b pred : BlockId) :
    SameControl g (MBasicBlock.addPredecessor g b pred) := by
  unfold MBasicBlock.addPredecessor
  refine SameControl.sc_trans ?_ (sameControl_modifyBlock _ b _ ?_)
  · exact sameControl_foldl _ _ (fun g i => sameControl_addPredecessorSlot b pred g i) g
  · intro blk; rfl

theorem lastIns_endBlock (g : MIRGraph) (b c : BlockId) (ctl : MControl) :
    ((g.endBlock b ctl).block c).lastIns =
      if b = c ∧ c < g.blocks.length then some ctl else (g.block c).lastIns := by
  rw [MIRGraph.endBlock, block_modifyBlock]
  split <;> rfl

theorem blocks_length_endBlock (g : MIRGraph) (b : BlockId) (ctl : MControl) :
    (g.endBlock b ctl).blocks.length = g.blocks.length :=
  blocks_length_modifyBlock g b _


/-! ## Binding parked blocks -/

theorem ControlChange.cc_refl (j : BlockId) (g : MIRGraph) : ControlChange [] j g g :=
  ⟨Nat.le_refl _, fun _ _ => ⟨fun h => absurd h (List.not_mem_nil _), fun _ => rfl⟩⟩

theorem ControlChange.cc_trans {S T : List BlockId} {j : BlockId} {g1 g2 g3 : MIRGraph}
    (h1 : ControlChange S j g1 g2) (h2 : ControlChange T j g2 g3) :
    ControlChange (S ++ T) j g1 g3 := by
  refine ⟨Nat.le_trans h1.1 h2.1, fun c hc => ⟨fun hm => ?_, fun hm => ?_⟩⟩
  · by_cases hT : c ∈ T
    · exact ((h2.2 c (Nat.lt_of_lt_of_le hc h1.1)).1 hT)
    · have hS : c ∈ S := by
        rcases List.mem_append.1 hm with h | h
        · exact h
        · exact absurd h hT
      unfold JumpsTo
      rw [(h2.2 c (Nat.lt_of_lt_of_le hc h1.1)).2 hT]
      exact (h1.2 c hc).1 hS
  · have hS : c ∉ S := fun h => hm (List.mem_append_left _ h)
    have hT : c ∉ T := fun h => hm (List.mem_append_right _ h)
    rw [(h2.2 c (Nat.lt_of_lt_of_le hc h1.1)).2 hT, (h1.2 c hc).2 hS]

theorem ControlChange.cc_congr {S T : List BlockId} {j : BlockId} {g1 g2 : MIRGraph}
    (h : ControlChange S j g1 g2) (hST : ∀ c, c ∈ S ↔ c ∈ T) : ControlChange T j g1 g2 :=
  ⟨h.1, fun c hc => ⟨fun hm => (h.2 c hc).1 ((hST c).2 hm),
    fun hm => (h.2 c hc).2 (fun hs => hm ((hST c).1 hs))⟩⟩

theorem ControlChange.cc_of_sameControl {j : BlockId} {g1 g2 : MIRGraph} (h : SameControl g1 g2) :
    ControlChange [] j g1 g2 :=
  ⟨Nat.le_of_eq h.1.symm, fun c _ => ⟨fun hm => absurd hm (List.not_mem_nil _), fun _ => h.2 c⟩⟩

theorem ControlChange.cc_endBlock (g : MIRGraph) (b j : BlockId) :
    ControlChange [b] j g (g.endBlock b (.goto j)) := by
  refine ⟨Nat.le_of_eq (blocks_length_endBlock g b _).symm, fun c hc => ⟨fun hm => ?_, fun hm => ?_⟩⟩
  · have : b = c := (List.mem_singleton.1 hm).symm
    unfold JumpsTo
    rw [lastIns_endBlock]
    simp [this, hc]
  · have : b ≠ c := fun h => hm (List.mem_singleton.2 h.symm)
    rw [lastIns_endBlock]
    simp [this]

theorem NewAsmJS_normal_graph (g : MIRGraph) (n : Nat) (pred : Option BlockId) :
    (MBasicBlock.NewAsmJS g n pred .NORMAL).1 = g := by
  cases pred <;> rfl

theorem NewAsmJS_lastIns (g : MIRGraph) (n : Nat) (pred : Option BlockId) (k : Kind) :
    (MBasicBlock.NewAsmJS g n pred k).2.lastIns = none := by
  cases pred <;> cases k <;> rfl

theorem block_append_lt (g : MIRGraph) (blk : MBasicBlock) (o : List BlockId) (c : BlockId)
    (hc : c < g.blocks.length) :
    ({ g with blocks := g.blocks ++ [blk], order := o } : MIRGraph).block c = g.block c := by
  simp only [MIRGraph.block]
  exact List.getD_append _ _ _ _ hc

theorem newBlockWithDepth_spec (f : FunctionCompiler) (pred : Option BlockId) (d : Nat) :
    (f.newBlockWithDepth pred d).2 = f.graph_.blocks.length ∧
    (f.newBlockWithDepth pred d).1.graph_.blocks.length = f.graph_.blocks.length + 1 ∧
    (∀ c, c < f.graph_.blocks.length →
      (f.newBlockWithDepth pred d).1.graph_.block c = f.graph_.block c) ∧
    (f.newBlockWithDepth pred d).1 =
      { f with graph_ := (f.newBlockWithDepth pred d).1.graph_ } := by
  have hg := NewAsmJS_normal_graph f.graph_ f.numLocals pred
  refine ⟨?_, ?_, ?_, rfl⟩
  · simp only [newBlockWithDepth, MIRGraph.addBlock, hg]
  · simp only [newBlockWithDepth, MIRGraph.addBlock, hg, List.length_append, List.length_singleton]
  · intro c hc
    simp only [newBlockWithDepth, MIRGraph.addBlock, hg]
    exact block_append_lt _ _ _ _ hc

theorem ControlChange.cc_newBlock (f : FunctionCompiler) (pred : Option BlockId) (d : Nat)
    (j : BlockId) : ControlChange [] j f.graph_ (f.newBlockWithDepth pred d).1.graph_ := by
  obtain ⟨_, h2, h3, _⟩ := newBlockWithDepth_spec f pred d
  refine ⟨by omega, fun c hc => ⟨fun hm => absurd hm (List.not_mem_nil _), fun _ => ?_⟩⟩
  rw [h3 c hc]



theorem bindStep_created (f : FunctionCompiler) (pred j : BlockId) (hj : f.curBlock_ = some j) :
    bindBreaksOrContinuesStep (f, true) pred =
      ({ f with graph_ := MBasicBlock.addPredecessor (f.graph_.endBlock pred (.goto j)) j pred },
        true) := by
  simp only [bindBreaksOrContinuesStep, hj, if_true]

theorem bindStep_created_spec (f : FunctionCompiler) (pred j : BlockId) (hj : f.curBlock_ = some j) :
    ControlChange [pred] j f.graph_ (bindBreaksOrContinuesStep (f, true) pred).1.graph_ ∧
    (bindBreaksOrContinuesStep (f, true) pred).1.graph_.blocks.length = f.graph_.blocks.length ∧
    (bindBreaksOrContinuesStep (f, true) pred).2 = true ∧
    (bindBreaksOrContinuesStep (f, true) pred).1.curBlock_ = some j ∧
    (bindBreaksOrContinuesStep (f, true) pred).1 =
      { f with graph_ := (bindBreaksOrContinuesStep (f, true) pred).1.graph_ } := by
  rw [bindStep_created f pred j hj]
  refine ⟨?_, ?_, ?_, ?_, ?_⟩
  · exact ((ControlChange.cc_endBlock f.graph_ pred j).cc_trans
      (ControlChange.cc_of_sameControl (sameControl_addPredecessor _ j pred))).cc_congr (by simp)
  · exact (sameControl_addPredecessor _ j pred).1.trans (blocks_length_endBlock _ _ _)
  · rfl
  · exact hj
  · rfl

theorem bindStep_first_spec (f : FunctionCompiler) (pred : BlockId) :
    ControlChange (pred :: f.curBlock_.toList) f.graph_.blocks.length f.graph_
      (bindBreaksOrContinuesStep (f, false) pred).1.graph_ ∧
    (bindBreaksOrContinuesStep (f, false) pred).1.graph_.blocks.length =
      f.graph_.blocks.length + 1 ∧
    (bindBreaksOrContinuesStep (f, false) pred).2 = true ∧
    (bindBreaksOrContinuesStep (f, false) pred).1.curBlock_ = some f.graph_.blocks.length ∧
    (bindBreaksOrContinuesStep (f, false) pred).1 =
      { f with graph_ := (bindBreaksOrContinuesStep (f, false) pred).1.graph_,
               curBlock_ := (bindBreaksOrContinuesStep (f, false) pred).1.curBlock_ } := by
  obtain ⟨h1, h2, h3, h4⟩ := newBlockWithDepth_spec f (some pred) f.loopStack_.length
  have hcc := ControlChange.cc_newBlock f (some pred) f.loopStack_.length f.graph_.blocks.length
  simp only [bindBreaksOrContinuesStep, Bool.false_eq_true, if_false, newBlock]
  rw [h1]
  cases hcur : f.curBlock_ with
  | none =>
    refine ⟨?_, ?_, trivial, rfl, ?_⟩
    · exact (hcc.cc_trans (ControlChange.cc_endBlock _ pred _)).cc_congr (by simp)
    · simp only [blocks_length_endBlock, h2]
    · rw [h4]
  | some cur =>
    refine ⟨?_, ?_, trivial, rfl, ?_⟩
    · exact (((hcc.cc_trans (ControlChange.cc_endBlock _ pred _)).cc_trans
        (ControlChange.cc_endBlock _ cur _)).cc_trans
        (ControlChange.cc_of_sameControl (sameControl_addPredecessor _ _ cur))).cc_congr (by simp)
    · simp only [(sameControl_addPredecessor _ _ cur).1, blocks_length_endBlock, h2]
    · rw [h4]

theorem bindBreaksOrContinues_spec (preds : BlockVector) :
    ∀ (f : FunctionCompiler) (created : Bool) (j : BlockId),
    (created = true → f.curBlock_ = some j) → (created = false → j = f.graph_.blocks.length) →
    ControlChange (preds ++ (if created = true ∨ preds = [] then [] else f.curBlock_.toList)) j
      f.graph_ (bindBreaksOrContinues f preds created).1.graph_ ∧
    (bindBreaksOrContinues f preds created).1.graph_.blocks.length =
      f.graph_.blocks.length + (if created = true ∨ preds = [] then 0 else 1) ∧
    (bindBreaksOrContinues f preds created).2 = (created || !preds.isEmpty) ∧
    ((created = true ∨ preds ≠ []) → (bindBreaksOrContinues f preds created).1.curBlock_ = some j) ∧
    (preds = [] → (bindBreaksOrContinues f preds created).1 = f) ∧
    (bindBreaksOrContinues f preds created).1 =
      { f with graph_ := (bindBreaksOrContinues f preds created).1.graph_,
               curBlock_ := (bindBreaksOrContinues f preds created).1.curBlock_ } := by
  induction preds with
  | nil =>
    intro f created j h1 h2
    refine ⟨?_, ?_, ?_, ?_, fun _ => rfl, rfl⟩
    · simpa [bindBreaksOrContinues] using ControlChange.cc_refl j f.graph_
    · simp [bindBreaksOrContinues]
    · simp [bindBreaksOrContinues]
    · intro h
      rcases h with h | h
      · simpa [bindBreaksOrContinues] using h1 h
      · exact absurd rfl h
  | cons p ps ih =>
    intro f created j h1 h2
    have hunf : bindBreaksOrContinues f (p :: ps) created =
        bindBreaksOrContinues (bindBreaksOrContinuesStep (f, created) p).1 ps
          (bindBreaksOrContinuesStep (f, created) p).2 := by
      simp only [bindBreaksOrContinues, List.foldl_cons]
    rw [hunf]
    cases created with
    | true =>
      obtain ⟨s1, s2, s3, s4, s5⟩ := bindStep_created_spec f p j (h1 rfl)
      rw [s3]
      obtain ⟨i1, i2, i3, i4, _, i6⟩ := ih _ true j (fun _ => s4) (fun h => by cases h)
      refine ⟨?_, ?_, ?_, ?_, fun h => absurd h (List.cons_ne_nil _ _), ?_⟩
      · exact (s1.cc_trans i1).cc_congr (by simp)
      · rw [i2, s2]; simp
      · rw [i3]; rfl
      · intro _; exact i4 (Or.inl rfl)
      · rw [i6, s5]
    | false =>
      have hj := h2 rfl
      subst hj
      obtain ⟨s1, s2, s3, s4, s5⟩ := bindStep_first_spec f p
      rw [s3]
      obtain ⟨i1, i2, i3, i4, _, i6⟩ := ih _ true f.graph_.blocks.length (fun _ => s4)
        (fun h => by cases h)
      refine ⟨?_, ?_, ?_, ?_, fun h => absurd h (List.cons_ne_nil _ _), ?_⟩
      · refine (s1.cc_trans i1).cc_congr ?_
        intro c
        simp only [List.mem_append, List.mem_cons, if_true, Bool.false_eq_true, false_or,
          reduceCtorEq, if_false, true_or, List.not_mem_nil, or_false]
        tauto
      · rw [i2, s2]; simp
      · rw [i3]; rfl
      · intro _; exact i4 (Or.inl rfl)
      · rw [i6, s5]



theorem getMap_setMap (f : FunctionCompiler) (sel : MapSel) (m : BlockMap) :
    (f.setMap sel m).getMap sel = m := by
  cases sel <;> rfl

theorem setMap_graph (f : FunctionCompiler) (sel : MapSel) (m : BlockMap) :
    (f.setMap sel m).graph_ = f.graph_ ∧ (f.setMap sel m).curBlock_ = f.curBlock_ ∧
    (f.setMap sel m).pc_ = f.pc_ ∧ (f.setMap sel m).loopStack_ = f.loopStack_ ∧
    (f.setMap sel m).breakableStack_ = f.breakableStack_ := by
  cases sel <;> exact ⟨rfl, rfl, rfl, rfl, rfl⟩

theorem BlockMap.remove_of_lookup_none (m : BlockMap) (k : Nat) (h : BlockMap.lookup m k = none) :
    BlockMap.remove m k = m := by
  induction m with
  | nil => rfl
  | cons e rest ih =>
    simp only [BlockMap.lookup] at h
    split at h
    · cases h
    · rename_i hne
      simp only [BlockMap.remove, List.filter_cons, bne_iff_ne, ne_eq, hne, not_false_eq_true,
        if_true, List.cons.injEq, true_and]
      exact ih h

theorem bindLabeledStep_spec (sel : MapSel) (f : FunctionCompiler) (created : Bool) (l : Nat)
    (j : BlockId) (h1 : created = true → f.curBlock_ = some j)
    (h2 : created = false → j = f.graph_.blocks.length) :
    ControlChange (parkedUnder (f.getMap sel) l ++
        (if created = true ∨ parkedUnder (f.getMap sel) l = [] then [] else f.curBlock_.toList)) j
      f.graph_ (bindLabeledStep sel (f, created) l).1.graph_ ∧
    (bindLabeledStep sel (f, created) l).1.graph_.blocks.length = f.graph_.blocks.length +
      (if created = true ∨ parkedUnder (f.getMap sel) l = [] then 0 else 1) ∧
    (bindLabeledStep sel (f, created) l).2 =
      (created || !(parkedUnder (f.getMap sel) l).isEmpty) ∧
    ((created = true ∨ parkedUnder (f.getMap sel) l ≠ []) →
      (bindLabeledStep sel (f, created) l).1.curBlock_ = some j) ∧
    (parkedUnder (f.getMap sel) l = [] →
      (bindLabeledStep sel (f, created) l).1.curBlock_ = f.curBlock_ ∧
      (bindLabeledStep sel (f, created) l).1.graph_ = f.graph_) ∧
    (bindLabeledStep sel (f, created) l).1.getMap sel = BlockMap.remove (f.getMap sel) l := by
  cases hl : BlockMap.lookup (f.getMap sel) l with
  | none =>
    have hPU : parkedUnder (f.getMap sel) l = [] := by simp [parkedUnder, hl]
    have hstep : bindLabeledStep sel (f, created) l = (f, created) := by
      simp [bindLabeledStep, hl]
    rw [hstep, hPU]
    refine ⟨?_, ?_, ?_, ?_, ?_, ?_⟩
    · simpa using ControlChange.cc_refl j f.graph_
    · simp
    · simp
    · intro h
      rcases h with h | h
      · exact h1 h
      · exact absurd rfl h
    · intro _; exact ⟨rfl, rfl⟩
    · exact (BlockMap.remove_of_lookup_none _ _ hl).symm
  | some preds =>
    obtain ⟨b1, b2, b3, b4, b5, b6⟩ := bindBreaksOrContinues_spec preds f created j h1 h2
    have hPU : parkedUnder (f.getMap sel) l = preds := by simp [parkedUnder, hl]
    have hstep : bindLabeledStep sel (f, created) l =
        ((bindBreaksOrContinues f preds created).1.setMap sel
          (BlockMap.remove ((bindBreaksOrContinues f preds created).1.getMap sel) l),
         (bindBreaksOrContinues f preds created).2) := by
      simp [bindLabeledStep, hl]
    have hg := (setMap_graph (bindBreaksOrContinues f preds created).1 sel
      (BlockMap.remove ((bindBreaksOrContinues f preds created).1.getMap sel) l))
    rw [hstep, hPU]
    dsimp only
    rw [hg.1, hg.2.1, getMap_setMap]
    refine ⟨b1, b2, b3, b4, fun h => ?_, ?_⟩
    · rw [b5 h]; exact ⟨rfl, rfl⟩
    · rw [b6]
      cases sel <;> rfl

theorem parkedSeq_cons (l : Nat) (ls : LabelVector) (m : BlockMap) :
    parkedSeq (l :: ls) m = parkedUnder m l ++ parkedSeq ls (BlockMap.remove m l) := rfl

theorem bindLabeled_spec (sel : MapSel) (labels : LabelVector) :
    ∀ (f : FunctionCompiler) (created : Bool) (j : BlockId),
    (created = true → f.curBlock_ = some j) → (created = false → j = f.graph_.blocks.length) →
    ControlChange (parkedSeq labels (f.getMap sel) ++
        (if created = true ∨ parkedSeq labels (f.getMap sel) = [] then []
          else f.curBlock_.toList)) j
      f.graph_ (labels.foldl (bindLabeledStep sel) (f, created)).1.graph_ ∧
    (labels.foldl (bindLabeledStep sel) (f, created)).1.graph_.blocks.length =
      f.graph_.blocks.length +
        (if created = true ∨ parkedSeq labels (f.getMap sel) = [] then 0 else 1) ∧
    ((created = true ∨ parkedSeq labels (f.getMap sel) ≠ []) →
      (labels.foldl (bindLabeledStep sel) (f, created)).1.curBlock_ = some j) ∧
    (parkedSeq labels (f.getMap sel) = [] →
      (labels.foldl (bindLabeledStep sel) (f, created)).1.curBlock_ = f.curBlock_ ∧
      (labels.foldl (bindLabeledStep sel) (f, created)).1.graph_ = f.graph_) := by
  induction labels with
  | nil =>
    intro f created j h1 h2
    refine ⟨?_, ?_, ?_, ?_⟩
    · simpa [parkedSeq] using ControlChange.cc_refl j f.graph_
    · simp [parkedSeq]
    · intro h
      rcases h with h | h
      · exact h1 h
      · exact absurd rfl h
    · intro _; exact ⟨rfl, rfl⟩
  | cons l ls ih =>
    intro f created j h1 h2
    obtain ⟨s1, s2, s3, s4, s5, s6⟩ := bindLabeledStep_spec sel f created l j h1 h2
    rw [List.foldl_cons, parkedSeq_cons]
    have heta : bindLabeledStep sel (f, created) l =
        ((bindLabeledStep sel (f, created) l).1, (bindLabeledStep sel (f, created) l).2) := rfl
    rw [heta]
    generalize (bindLabeledStep sel (f, created) l).1 = f1 at s1 s2 s3 s4 s5 s6 ⊢
    generalize (bindLabeledStep sel (f, created) l).2 = c1 at s3 ⊢
    rw [← s6]
    generalize parkedUnder (f.getMap sel) l = P at s1 s2 s3 s4 s5 ⊢
    by_cases hP : P = []
    · -- nothing parked under this label
      subst hP
      obtain ⟨hc, hg⟩ := s5 rfl
      have hc1 : c1 = created := by rw [s3]; simp
      subst hc1
      have := ih f1 c1 j (by rw [hc]; exact h1) (by rw [hg]; exact h2)
      rw [hc, hg] at this
      simpa using this
    · have hc1 : c1 = true := by
        rw [s3]
        cases P with
        | nil => exact absurd rfl hP
        | cons a as => simp
      subst hc1
      have hcur := s4 (Or.inr hP)
      have ih1 := ih f1 true j (fun _ => hcur) (fun h => by cases h)
      generalize parkedSeq ls (f1.getMap sel) = Q at ih1 ⊢
      obtain ⟨i1, i2, i3, i4⟩ := ih1
      have happ : P ++ Q ≠ [] := by
        intro h
        exact hP (List.append_eq_nil.1 h).1
      refine ⟨?_, ?_, fun _ => i3 (Or.inl rfl), fun h => absurd h happ⟩
      · refine (s1.cc_trans i1).cc_congr ?_
        intro c
        by_cases hcr : created = true
        · simp [hcr]
        · simp only [hcr, hP, happ, or_self, if_false, List.mem_append, true_or, if_true,
            List.not_mem_nil, or_false]
          exact or_right_comm
      · have e1 : (if true = true ∨ Q = [] then 0 else 1) = 0 := by simp
        have e2 : (if created = true ∨ P = [] then 0 else 1) =
            (if created = true ∨ P ++ Q = [] then 0 else 1) := by
          by_cases hcr : created = true
          · simp [hcr]
          · simp [hcr, hP]
        rw [e1] at i2
        rw [e2] at s2
        exact i2.trans s2



theorem sharesJoin_of (S : List BlockId) (f f' : FunctionCompiler)
    (hcc : ControlChange (S ++ (if False ∨ S = [] then [] else f.curBlock_.toList))
      f.graph_.blocks.length f.graph_ f'.graph_)
    (hlen : f'.graph_.blocks.length = f.graph_.blocks.length + (if False ∨ S = [] then 0 else 1))
    (hcur : S ≠ [] → f'.curBlock_ = some f.graph_.blocks.length)
    (hnil : S = [] → f'.curBlock_ = f.curBlock_ ∧ f'.graph_ = f.graph_) : SharesJoin S f f' := by
  refine ⟨fun h => ⟨(hnil h).2, (hnil h).1⟩, fun h => ⟨?_, hcur h, ?_⟩⟩
  · rw [hlen]; simp [h]
  · intro b hb hlt
    apply (hcc.2 b hlt).1
    simp only [false_or, h, if_false, List.mem_append, Option.mem_toList, Option.mem_def]
    exact hb

theorem bindLabeledBreaks_sharesJoin (f : FunctionCompiler) (labels : LabelVector) :
    SharesJoin (parkedSeq labels f.labeledBreaks_) f (f.bindLabeledBreaks (some labels)) := by
  obtain ⟨h1, h2, h3, h4⟩ := bindLabeled_spec .labeledBreaks labels f false f.graph_.blocks.length
    (fun h => by cases h) (fun _ => rfl)
  apply sharesJoin_of
  · simpa [bindLabeledBreaks, bindLabeledBreaksOrContinues, getMap] using h1
  · simpa [bindLabeledBreaks, bindLabeledBreaksOrContinues, getMap] using h2
  · intro h; exact h3 (Or.inr h)
  · exact h4

theorem bindUnlabeledBreaks_sharesJoin (f : FunctionCompiler) (pos : Nat) :
    SharesJoin (parkedUnder f.unlabeledBreaks_ pos) f (f.bindUnlabeledBreaks pos) := by
  cases hl : BlockMap.lookup f.unlabeledBreaks_ pos with
  | none =>
    have hS : parkedUnder f.unlabeledBreaks_ pos = [] := by simp [parkedUnder, hl]
    have hf : f.bindUnlabeledBreaks pos = f := by simp [bindUnlabeledBreaks, hl]
    rw [hS, hf]
    exact ⟨fun _ => ⟨rfl, rfl⟩, fun h => absurd rfl h⟩
  | some preds =>
    have hS : parkedUnder f.unlabeledBreaks_ pos = preds := by simp [parkedUnder, hl]
    have hf : f.bindUnlabeledBreaks pos =
        { (bindBreaksOrContinues f preds false).1 with
          unlabeledBreaks_ := BlockMap.remove
            (bindBreaksOrContinues f preds false).1.unlabeledBreaks_ pos } := by
      simp [bindUnlabeledBreaks, hl]
    obtain ⟨b1, b2, _, b4, b5, _⟩ := bindBreaksOrContinues_spec preds f false
      f.graph_.blocks.length (fun h => by cases h) (fun _ => rfl)
    rw [hS, hf]
    apply sharesJoin_of
    · simpa using b1
    · simpa using b2
    · intro h; exact b4 (Or.inr h)
    · intro h
      dsimp only
      rw [b5 h]
      exact ⟨rfl, rfl⟩

theorem bindContinues_sharesJoin (f : FunctionCompiler) (pos : Nat) (labels : LabelVector) :
    SharesJoin (parkedUnder f.unlabeledContinues_ pos ++ parkedSeq labels f.labeledContinues_) f
      (f.bindContinues pos (some labels)) := by
  cases hl : BlockMap.lookup f.unlabeledContinues_ pos with
  | none =>
    have hS : parkedUnder f.unlabeledContinues_ pos = [] := by simp [parkedUnder, hl]
    have hf : f.bindContinues pos (some labels) =
        (labels.foldl (bindLabeledStep .labeledContinues) (f, false)).1 := by
      simp [bindContinues, hl, bindLabeledBreaksOrContinues]
    obtain ⟨h1, h2, h3, h4⟩ := bindLabeled_spec .labeledContinues labels f false
      f.graph_.blocks.length (fun h => by cases h) (fun _ => rfl)
    rw [hS, hf, List.nil_append]
    apply sharesJoin_of
    · simpa [getMap] using h1
    · simpa [getMap] using h2
    · intro h; exact h3 (Or.inr h)
    · exact h4
  | some preds =>
    have hS : parkedUnder f.unlabeledContinues_ pos = preds := by simp [parkedUnder, hl]
    obtain ⟨b1, b2, b3, b4, b5, b6⟩ := bindBreaksOrContinues_spec preds f false
      f.graph_.blocks.length (fun h => by cases h) (fun _ => rfl)
    have hf : f.bindContinues pos (some labels) =
        (labels.foldl (bindLabeledStep .labeledContinues)
          ({ (bindBreaksOrContinues f preds false).1 with
              unlabeledContinues_ := BlockMap.remove
                (bindBreaksOrContinues f preds false).1.unlabeledContinues_ pos },
            (bindBreaksOrContinues f preds false).2)).1 := by
      simp [bindContinues, hl, bindLabeledBreaksOrContinues]
    rw [hS, hf]
    generalize hr : (bindBreaksOrContinues f preds false).1 = r at *
    generalize hc : (bindBreaksOrContinues f preds false).2 = c1 at *
    have hmap : ({ r with unlabeledContinues_ := BlockMap.remove r.unlabeledContinues_ pos } :
        FunctionCompiler).getMap .labeledContinues = f.labeledContinues_ := by
      rw [b6]; rfl
    by_cases hP : preds = []
    · have hrf : r = f := b5 hP
      have hc1 : c1 = false := by rw [b3, hP]; rfl
      subst hP
      rw [hc1]
      obtain ⟨h1, h2, h3, h4⟩ := bindLabeled_spec .labeledContinues labels
        { r with unlabeledContinues_ := BlockMap.remove r.unlabeledContinues_ pos } false
        f.graph_.blocks.length (fun h => by cases h) (fun _ => by rw [hrf])
      rw [hmap] at h1 h2 h3 h4
      rw [List.nil_append]
      apply sharesJoin_of
      · simpa [hrf] using h1
      · simpa [hrf] using h2
      · intro h; exact h3 (Or.inr h)
      · simpa [hrf] using h4
    · have hc1 : c1 = true := by
        rw [b3]
        cases preds with
        | nil => exact absurd rfl hP
        | cons a as => rfl
      rw [hc1]
      have hcur := b4 (Or.inr hP)
      obtain ⟨h1, h2, h3, h4⟩ := bindLabeled_spec .labeledContinues labels
        { r with unlabeledContinues_ := BlockMap.remove r.unlabeledContinues_ pos } true
        f.graph_.blocks.length (fun _ => hcur) (fun h => by cases h)
      rw [hmap] at h1 h2 h3 h4
      have happ : preds ++ parkedSeq labels f.labeledContinues_ ≠ [] := by
        intro h
        exact hP (List.append_eq_nil.1 h).1
      apply sharesJoin_of
      · refine (b1.cc_trans h1).cc_congr ?_
        intro c
        simp only [Bool.false_eq_true, hP, happ, or_self, if_false, List.mem_append, true_or,
          if_true, List.not_mem_nil, or_false, false_or]
        exact or_right_comm
      · have e1 : (if true = true ∨ parkedSeq labels f.labeledContinues_ = [] then 0 else 1) = 0 := by
          simp
        have e2 : (if false = true ∨ preds = [] then 0 else 1) =
            (if False ∨ preds ++ parkedSeq labels f.labeledContinues_ = [] then 0 else 1) := by
          simp [hP]
        rw [e1] at h2
        rw [e2] at b2
        exact h2.trans b2
      · intro _; exact h3 (Or.inl rfl)
      · intro h; exact absurd h happ


/-- Amended C7. Each binding operation shares one join block among all the
blocks it binds: `bindContinues` for the blocks parked as unlabeled continues
of the loop together with those parked as continues under any of its labels,
`bindUnlabeledBreaks` for the unlabeled breaks of a loop or switch, and
`bindLabeledBreaks` for the breaks parked under all labels of a label chain.
When at least one block is parked, exactly one block is created, and every
parked block and the fall-through current block (if live) end with a jump to
it; when none is parked nothing is created. -/
theorem C7_bind_shares_one_join_block (f : FunctionCompiler) (pos : Nat) (labels : LabelVector) :
    SharesJoin (parkedUnder f.unlabeledContinues_ pos ++ parkedSeq labels f.labeledContinues_) f
      (f.bindContinues pos (some labels)) ∧
    SharesJoin (parkedUnder f.unlabeledBreaks_ pos) f (f.bindUnlabeledBreaks pos) ∧
    SharesJoin (parkedSeq labels f.labeledBreaks_) f (f.bindLabeledBreaks (some labels)) :=
  ⟨bindContinues_sharesJoin f pos labels, bindUnlabeledBreaks_sharesJoin f pos,
    bindLabeledBreaks_sharesJoin f labels⟩

/-- Counterexample to C7 as stated: in `breakBothWays` the block parked by the
unlabeled break (block 4) and the block parked by the labeled break through the
loop's label (block 5) reach the same point after the loop, but they end with
jumps to two different join blocks (6 and 7, the first jumping to the
second). -/
theorem C7_counterexample :
    (GenerateAsmFunctionMIR x64ABI breakBothWays).map (fun f =>
      ((f.graph_.block 4).lastIns, (f.graph_.block 5).lastIns, (f.graph_.block 6).lastIns,
        f.graph_.blocks.length)) =
      some (some (.goto 6), some (.goto 7), some (.goto 7), 8) := by
  decide


/-! ## Switch tables (C6) -/

theorem addCases_spec (cases : List (Option BlockId)) (di : Nat) :
    ∀ (s0 : List (Option BlockId)) (c0 : List Nat),
    ∃ s1 c1, addCases cases di (s0, c0) = (s0 ++ s1, c0 ++ c1) ∧ c1.length = cases.length ∧
      ∀ i, i < cases.length →
        (cases.getD i none = none → c1.getD i 0 = di) ∧
        (∀ b, cases.getD i none = some b →
          (s0 ++ s1).getD (c1.getD i 0) none = some b) := by
  induction cases with
  | nil =>
    intro s0 c0
    exact ⟨[], [], by simp [addCases], rfl, fun i hi => absurd hi (Nat.not_lt_zero _)⟩
  | cons c cs ih =>
    intro s0 c0
    cases c with
    | none =>
      obtain ⟨s1, c1, h1, h2, h3⟩ := ih s0 (c0 ++ [di])
      refine ⟨s1, di :: c1, ?_, by simp [h2], ?_⟩
      · have : addCases (none :: cs) di (s0, c0) = addCases cs di (s0, c0 ++ [di]) := by
          simp [addCases]
        rw [this, h1]
        simp
      · intro i hi
        cases i with
        | zero => exact ⟨fun _ => rfl, fun b hb => (by cases hb)⟩
        | succ i =>
          have := h3 i (by simpa using hi)
          simpa using this
    | some b =>
      obtain ⟨s1, c1, h1, h2, h3⟩ := ih (s0 ++ [some b]) (c0 ++ [s0.length])
      refine ⟨some b :: s1, s0.length :: c1, ?_, by simp [h2], ?_⟩
      · have : addCases (some b :: cs) di (s0, c0) =
            addCases cs di (s0 ++ [some b], c0 ++ [s0.length]) := by
          simp [addCases]
        rw [this, h1]
        simp
      · intro i hi
        cases i with
        | zero =>
          refine ⟨fun h => (by cases h), fun b' hb => ?_⟩
          simp only [List.getD_cons_zero, Option.some.injEq] at hb
          subst hb
          simp [List.getElem_append_right]
        | succ i =>
          have := h3 i (by simpa using hi)
          simpa using this



theorem bindUnlabeledBreaks_frame (f : FunctionCompiler) (pos : Nat) (c : BlockId)
    (hc : c < f.graph_.blocks.length) (h1 : c ∉ parkedUnder f.unlabeledBreaks_ pos)
    (h2 : f.curBlock_ ≠ some c) :
    ((f.bindUnlabeledBreaks pos).graph_.block c).lastIns = (f.graph_.block c).lastIns := by
  cases hl : BlockMap.lookup f.unlabeledBreaks_ pos with
  | none => simp [bindUnlabeledBreaks, hl]
  | some preds =>
    have hS : parkedUnder f.unlabeledBreaks_ pos = preds := by simp [parkedUnder, hl]
    have hf : (f.bindUnlabeledBreaks pos).graph_ = (bindBreaksOrContinues f preds false).1.graph_ := by
      simp [bindUnlabeledBreaks, hl]
    obtain ⟨b1, _⟩ := bindBreaksOrContinues_spec preds f false
      f.graph_.blocks.length (fun h => by cases h) (fun _ => rfl)
    rw [hf]
    apply (b1.2 c hc).2
    rw [hS] at h1
    intro hm
    rcases List.mem_append.1 hm with h | h
    · exact h1 h
    · split at h
      · exact absurd h (List.not_mem_nil _)
      · exact h2 (by simpa using h)

theorem fillTableSwitch_spec (cases : List (Option BlockId)) (dflt : Option BlockId)
    (e : Option DefId) (low high : Int) :
    (fillTableSwitch cases dflt (.tableSwitch e low high [] [])).numCases = cases.length ∧
    ∀ i, i < cases.length →
      (fillTableSwitch cases dflt (.tableSwitch e low high [] [])).getCase i =
        (match cases.getD i none with
          | some b => some b
          | none => dflt) := by
  obtain ⟨s1, c1, h1, h2, h3⟩ := addCases_spec cases 0 [dflt] []
  have hfill : fillTableSwitch cases dflt (.tableSwitch e low high [] []) =
      .tableSwitch e low high ([dflt] ++ s1) c1 := by
    simp only [fillTableSwitch, List.length_nil, List.nil_append, h1]
  rw [hfill]
  refine ⟨h2, fun i hi => ?_⟩
  simp only [MControl.getCase]
  cases hci : cases.getD i none with
  | none =>
    rw [(h3 i hi).1 hci]
    rfl
  | some b => exact (h3 i hi).2 b hci

/-- C6. For a switch block `sb` that `startSwitch` ended with an empty table
switch over `[low, high]`, and a case vector of `high - low + 1` entries (as
`EmitSwitch` sizes it), `joinSwitch` leaves in `sb` a table with exactly
`high - low + 1` cases, in index order, where case `i` (the value `low + i`)
targets the block of the explicit case if there is one and the default block
otherwise. The switch block is neither the current block nor parked as a
break of this switch. -/
theorem C6_joinSwitch_dense_table (f f' : FunctionCompiler) (sb : BlockId)
    (cases : List (Option BlockId)) (dflt : Option BlockId) (e : Option DefId) (low high : Int)
    (hsw : (f.graph_.block sb).lastIns = some (.tableSwitch e low high [] []))
    (hlen : cases.length = (high - low + 1).toNat)
    (hcur : f.curBlock_ ≠ some sb)
    (hpark : ∀ pos, f.breakableStack_.getLast? = some pos →
      sb ∉ parkedUnder f.unlabeledBreaks_ pos)
    (hj : f.joinSwitch (some sb) cases dflt = some f') :
    ∃ t, (f'.graph_.block sb).lastIns = some t ∧ t.numCases = (high - low + 1).toNat ∧
      ∀ i, i < (high - low + 1).toNat →
        t.getCase i = (match cases.getD i none with
          | some b => some b
          | none => dflt) := by
  have hsb : sb < f.graph_.blocks.length := by
    by_contra hlt
    rw [MIRGraph.block, List.getD_eq_default _ _ (Nat.le_of_not_lt hlt)] at hsw
    cases hsw
  obtain ⟨ht1, ht2⟩ := fillTableSwitch_spec cases dflt e low high
  refine ⟨fillTableSwitch cases dflt (.tableSwitch e low high [] []), ?_, by rw [ht1, hlen],
    by rw [← hlen]; exact ht2⟩
  unfold joinSwitch at hj
  cases hpos : f.breakableStack_.getLast? with
  | none => rw [hpos] at hj; cases hj
  | some pos =>
    rw [hpos] at hj
    simp only [Option.some.injEq] at hj
    subst hj
    have hg2 : ((f.graph_.modifyBlock sb (fun blk =>
        { blk with lastIns := blk.lastIns.map (fillTableSwitch cases dflt) })).block sb).lastIns =
        some (fillTableSwitch cases dflt (.tableSwitch e low high [] [])) := by
      rw [block_modifyBlock]
      simp [hsb, hsw]
    cases hc : f.curBlock_ with
    | none =>
      simp only [hc]
      rw [bindUnlabeledBreaks_frame]
      · exact hg2
      · simpa [blocks_length_modifyBlock] using hsb
      · exact hpark pos hpos
      · simp [hc]
    | some cur =>
      simp only [hc]
      have hne : cur ≠ sb := fun h => hcur (by rw [hc, h])
      have hlen2 : (f.graph_.modifyBlock sb (fun blk =>
          { blk with lastIns := blk.lastIns.map (fillTableSwitch cases dflt) })).blocks.length =
          f.graph_.blocks.length := blocks_length_modifyBlock _ _ _
      rw [bindUnlabeledBreaks_frame]
      · dsimp only [newBlock]
        rw [lastIns_endBlock]
        simp only [hne, false_and, if_false]
        rw [(newBlockWithDepth_spec _ (some cur) _).2.2.1 sb (by simpa [hlen2] using hsb)]
        exact hg2
      · dsimp only [newBlock]
        rw [blocks_length_endBlock, (newBlockWithDepth_spec _ (some cur) _).2.1]
        dsimp only
        rw [hlen2]
        exact Nat.lt_succ_of_lt hsb
      · dsimp only [newBlock]
        rw [(newBlockWithDepth_spec _ (some cur) _).2.2.2]
        exact hpark pos hpos
      · dsimp only [newBlock]
        rw [(newBlockWithDepth_spec _ (some cur) _).1]
        dsimp only
        rw [hlen2]
        intro h
        have h' := Option.some.inj h
        rw [h'] at hsb
        exact Nat.lt_irrefl _ hsb


/-- Witness for C6: the switch over `[2, 5]` with explicit cases 2 and 5 only.
The case blocks are 1 and 2, the default block is 3; the entries for the
values 3 and 4 (indices 1 and 2) target the default block. -/
theorem C6_joinSwitch_dense_table_witness :
    sparseSwitchBeforeJoin.2 = (some 0, [some 1, none, none, some 2], some 3) ∧
    ∃ t, (sparseSwitchAfterJoin.graph_.block 0).lastIns = some t ∧
      t.numCases = ((5 : Int) - 2 + 1).toNat ∧
      ∀ i, i < ((5 : Int) - 2 + 1).toNat →
        t.getCase i = (match [some 1, none, none, some 2].getD i none with
          | some b => some b
          | none => some 3) :=
  ⟨by decide,
    C6_joinSwitch_dense_table sparseSwitchBeforeJoin.1 sparseSwitchAfterJoin 0
      [some 1, none, none, some 2] (some 3) (some 0) 2 5 (by decide) (by decide) (by decide)
      (by
        intro pos h
        have h' : sparseSwitchBeforeJoin.1.breakableStack_.getLast? = some 19 := by decide
        rw [h'] at h
        cases h
        decide)
      (by decide)⟩


/-! ## Joining the arms of an if chain (C5) -/

theorem controlChange_foldl {α : Type} (step : MIRGraph → α → MIRGraph) (key : α → BlockId)
    (j : BlockId) (h : ∀ g a, ControlChange [key a] j g (step g a)) (l : List α) (g : MIRGraph) :
    ControlChange (l.map key) j g (l.foldl step g) := by
  induction l generalizing g with
  | nil => exact ControlChange.cc_refl j g
  | cons a as ih =>
    simp only [List.map_cons, List.foldl_cons]
    exact ((h g a).cc_trans (ih (step g a))).cc_congr (by simp)

theorem blocks_length_foldl {α : Type} (step : MIRGraph → α → MIRGraph)
    (h : ∀ g a, (step g a).blocks.length = g.blocks.length) (l : List α) (g : MIRGraph) :
    (l.foldl step g).blocks.length = g.blocks.length := by
  induction l generalizing g with
  | nil => rfl
  | cons a as ih =>
    simp only [List.foldl_cons]
    rw [ih, h]

theorem joinStep_controlChange (j : BlockId) (g : MIRGraph) (t : BlockId) :
    ControlChange [t] j g (MBasicBlock.addPredecessor (g.endBlock t (.goto j)) j t) :=
  ((ControlChange.cc_endBlock g t j).cc_trans
    (ControlChange.cc_of_sameControl (sameControl_addPredecessor _ j t))).cc_congr (by simp)

theorem joinStep_length (j : BlockId) (g : MIRGraph) (t : BlockId) :
    (MBasicBlock.addPredecessor (g.endBlock t (.goto j)) j t).blocks.length = g.blocks.length :=
  (sameControl_addPredecessor _ j t).1.trans (blocks_length_endBlock _ _ _)

theorem joinIf_spec (f : FunctionCompiler) (blocks : BlockVector) (j : BlockId) :
    (f.joinIf blocks (some j)).graph_.blocks.length = f.graph_.blocks.length ∧
    (f.joinIf blocks (some j)).curBlock_ = some j ∧
    ∀ b, b ∈ blocks → b < f.graph_.blocks.length → JumpsTo (f.joinIf blocks (some j)).graph_ b j := by
  have hcc := controlChange_foldl
    (fun g t => MBasicBlock.addPredecessor (g.endBlock t (.goto j)) j t) id j
    (fun g t => joinStep_controlChange j g t) blocks f.graph_
  have hlen := blocks_length_foldl
    (fun g t => MBasicBlock.addPredecessor (g.endBlock t (.goto j)) j t)
    (fun g t => joinStep_length j g t) blocks f.graph_
  refine ⟨hlen, rfl, fun b hb hlt => ?_⟩
  have := (hcc.2 b hlt).1 (by simpa using hb)
  exact this

theorem joinIfElseStep_controlChange (join : BlockId) (p : Bool) (g : MIRGraph) (x : Nat × BlockId) :
    ControlChange [x.2] join g (joinIfElseStep join p g x) := by
  unfold joinIfElseStep
  dsimp only
  split
  · exact joinStep_controlChange join g x.2
  · exact ControlChange.cc_endBlock g x.2 join

theorem joinIfElseStep_length (join : BlockId) (p : Bool) (g : MIRGraph) (x : Nat × BlockId) :
    (joinIfElseStep join p g x).blocks.length = g.blocks.length := by
  unfold joinIfElseStep
  dsimp only
  split
  · exact joinStep_length join g x.2
  · exact blocks_length_endBlock _ _ _

theorem enum_map_snd {α : Type} (l : List α) : l.enum.map (fun x => x.2) = l := by
  simp [List.enum, List.enumFrom_map_snd]

theorem joinIfElse_dead_empty (f : FunctionCompiler) (h : f.curBlock_ = none) :
    f.joinIfElse [] = f := by
  simp [joinIfElse, h]

theorem joinIfElse_spec (f : FunctionCompiler) (blocks : BlockVector)
    (h : ¬(f.curBlock_ = none ∧ blocks = [])) :
    (f.joinIfElse blocks).graph_.blocks.length = f.graph_.blocks.length + 1 ∧
    (f.joinIfElse blocks).curBlock_ = some f.graph_.blocks.length ∧
    ∀ b, (b ∈ blocks ∨ f.curBlock_ = some b) → b < f.graph_.blocks.length →
      JumpsTo (f.joinIfElse blocks).graph_ b f.graph_.blocks.length := by
  cases hc : f.curBlock_ with
  | none =>
    cases blocks with
    | nil => exact absurd ⟨hc, rfl⟩ h
    | cons t0 rest =>
      obtain ⟨n1, n2, n3, n4⟩ := newBlockWithDepth_spec f (some t0) f.loopStack_.length
      have hcc0 := ControlChange.cc_newBlock f (some t0) f.loopStack_.length f.graph_.blocks.length
      have hcc := controlChange_foldl (joinIfElseStep f.graph_.blocks.length false)
        (fun x => x.2) f.graph_.blocks.length
        (fun g x => joinIfElseStep_controlChange _ _ g x) (t0 :: rest).enum
        (f.newBlockWithDepth (some t0) f.loopStack_.length).1.graph_
      have hlen := blocks_length_foldl (joinIfElseStep f.graph_.blocks.length false)
        (fun g x => joinIfElseStep_length _ _ g x) (t0 :: rest).enum
        (f.newBlockWithDepth (some t0) f.loopStack_.length).1.graph_
      rw [enum_map_snd] at hcc
      have hj : f.joinIfElse (t0 :: rest) =
          { (f.newBlockWithDepth (some t0) f.loopStack_.length).1 with
            graph_ := ((t0 :: rest).enum).foldl (joinIfElseStep f.graph_.blocks.length false)
              (f.newBlockWithDepth (some t0) f.loopStack_.length).1.graph_,
            curBlock_ := some f.graph_.blocks.length } := by
        simp only [joinIfElse, hc, newBlock, n1]
      rw [hj]
      refine ⟨?_, rfl, fun b hb hlt => ?_⟩
      · exact hlen.trans n2
      have hb' : b ∈ t0 :: rest := by
        rcases hb with hb | hb
        · exact hb
        · cases hb
      exact ((hcc0.cc_trans hcc).2 b hlt).1 (by simpa using hb')
  | some cur =>
    obtain ⟨n1, n2, n3, n4⟩ := newBlockWithDepth_spec f (some cur) f.loopStack_.length
    have hcc0 := ControlChange.cc_newBlock f (some cur) f.loopStack_.length f.graph_.blocks.length
    have hcc := controlChange_foldl (joinIfElseStep f.graph_.blocks.length true)
      (fun x => x.2) f.graph_.blocks.length
      (fun g x => joinIfElseStep_controlChange _ _ g x) blocks.enum
      ((f.newBlockWithDepth (some cur) f.loopStack_.length).1.graph_.endBlock cur
        (.goto f.graph_.blocks.length))
    have hlen := blocks_length_foldl (joinIfElseStep f.graph_.blocks.length true)
      (fun g x => joinIfElseStep_length _ _ g x) blocks.enum
      ((f.newBlockWithDepth (some cur) f.loopStack_.length).1.graph_.endBlock cur
        (.goto f.graph_.blocks.length))
    rw [enum_map_snd] at hcc
    have hj : f.joinIfElse blocks =
        { (f.newBlockWithDepth (some cur) f.loopStack_.length).1 with
          graph_ := (blocks.enum).foldl (joinIfElseStep f.graph_.blocks.length true)
            ((f.newBlockWithDepth (some cur) f.loopStack_.length).1.graph_.endBlock cur
              (.goto f.graph_.blocks.length)),
          curBlock_ := some f.graph_.blocks.length } := by
      simp only [joinIfElse, hc, newBlock, n1]
    rw [hj]
    refine ⟨?_, rfl, fun b hb hlt => ?_⟩
    · exact hlen.trans ((blocks_length_endBlock _ _ _).trans n2)
    have hb' : b ∈ [cur] ++ blocks := by
      rcases hb with hb | hb
      · exact List.mem_append_right _ hb
      · simp only [Option.some.injEq] at hb
        simp [hb]
    exact (((hcc0.cc_trans (ControlChange.cc_endBlock _ cur _)).cc_trans hcc).2 b hlt).1
      (by simpa using hb')



theorem joinResult_joinIfElse (pre : FunctionCompiler) (blocks : BlockVector) :
    JoinResult pre blocks none (pre.joinIfElse blocks) := by
  refine ⟨rfl, ?_, fun h => joinIfElse_spec pre blocks h⟩
  intro h
  rw [h.2]
  exact joinIfElse_dead_empty pre h.1

theorem joinResult_joinIf (pre : FunctionCompiler) (blocks : BlockVector) (j : Option BlockId) :
    JoinResult pre blocks (some j) (pre.joinIf blocks j) := by
  refine ⟨rfl, ?_, ?_⟩
  · intro h
    rw [h]
    rfl
  · intro jb h
    rw [h]
    exact joinIf_spec pre blocks jb

theorem appendThenBlock_extends (f : FunctionCompiler) (thenBlocks : BlockVector) :
    ∃ more, f.appendThenBlock thenBlocks = thenBlocks ++ more ∧ more.length ≤ 1 := by
  unfold appendThenBlock
  cases f.curBlock_ with
  | none => exact ⟨[], by simp, by simp⟩
  | some cur => exact ⟨[cur], rfl, by simp⟩

theorem EmitIfElse_ifThen (abi : ABIArgGenerator) (cond : Expr) (thenStmt : Stmt)
    (thenBlocks : BlockVector) (f : FunctionCompiler) :
    EmitIfElse abi (.ifThen cond thenStmt) thenBlocks f =
      (EmitExpr abi cond f).bind fun c =>
        (EmitStatement abi thenStmt none (c.1.branchAndStartThen c.2 none none).1).bind fun t =>
          some (t.1.joinIf (t.1.appendThenBlock thenBlocks)
            (c.1.branchAndStartThen c.2 none none).2.2) := rfl

theorem EmitIfElse_elseIf (abi : ABIArgGenerator) (cond : Expr) (thenStmt : Stmt)
    (chain : IfChain) (thenBlocks : BlockVector) (f : FunctionCompiler) :
    EmitIfElse abi (.ifElse cond thenStmt (.ifStmt chain)) thenBlocks f =
      (EmitExpr abi cond f).bind fun c =>
        (EmitStatement abi thenStmt none (c.1.branchAndStartThen c.2 none none).1).bind fun t =>
          EmitIfElse abi chain (t.1.appendThenBlock thenBlocks)
            ((t.1.switchToElse (c.1.branchAndStartThen c.2 none none).2.2).advance 1) := rfl

theorem EmitIfElse_else (abi : ABIArgGenerator) (cond : Expr) (thenStmt s : Stmt)
    (thenBlocks : BlockVector) (f : FunctionCompiler) (hs : ∀ chain, s ≠ .ifStmt chain) :
    EmitIfElse abi (.ifElse cond thenStmt s) thenBlocks f =
      (EmitExpr abi cond f).bind fun c =>
        (EmitStatement abi thenStmt none (c.1.branchAndStartThen c.2 none none).1).bind fun t =>
          (EmitStatement abi s none
              (t.1.switchToElse (c.1.branchAndStartThen c.2 none none).2.2)).bind fun e =>
            some (e.1.joinIfElse (t.1.appendThenBlock thenBlocks)) := by
  cases s with
  | ifStmt chain => exact absurd rfl (hs chain)
  | _ => rfl

theorem collectThenArms_ifThen (abi : ABIArgGenerator) (cond : Expr) (thenStmt : Stmt)
    (thenBlocks : BlockVector) (f : FunctionCompiler) :
    collectThenArms abi (.ifThen cond thenStmt) thenBlocks f =
      (EmitExpr abi cond f).bind fun c =>
        (EmitStatement abi thenStmt none (c.1.branchAndStartThen c.2 none none).1).bind fun t =>
          some (t.1, t.1.appendThenBlock thenBlocks,
            some (c.1.branchAndStartThen c.2 none none).2.2) := rfl

theorem collectThenArms_elseIf (abi : ABIArgGenerator) (cond : Expr) (thenStmt : Stmt)
    (chain : IfChain) (thenBlocks : BlockVector) (f : FunctionCompiler) :
    collectThenArms abi (.ifElse cond thenStmt (.ifStmt chain)) thenBlocks f =
      (EmitExpr abi cond f).bind fun c =>
        (EmitStatement abi thenStmt none (c.1.branchAndStartThen c.2 none none).1).bind fun t =>
          collectThenArms abi chain (t.1.appendThenBlock thenBlocks)
            ((t.1.switchToElse (c.1.branchAndStartThen c.2 none none).2.2).advance 1) := rfl

theorem collectThenArms_else (abi : ABIArgGenerator) (cond : Expr) (thenStmt s : Stmt)
    (thenBlocks : BlockVector) (f : FunctionCompiler) (hs : ∀ chain, s ≠ .ifStmt chain) :
    collectThenArms abi (.ifElse cond thenStmt s) thenBlocks f =
      (EmitExpr abi cond f).bind fun c =>
        (EmitStatement abi thenStmt none (c.1.branchAndStartThen c.2 none none).1).bind fun t =>
          (EmitStatement abi s none
              (t.1.switchToElse (c.1.branchAndStartThen c.2 none none).2.2)).bind fun e =>
            some (e.1, t.1.appendThenBlock thenBlocks, none) := by
  cases s with
  | ifStmt chain => exact absurd rfl (hs chain)
  | _ => rfl

theorem numConds_elseIf (cond : Expr) (thenStmt : Stmt) (chain : IfChain) :
    (IfChain.ifElse cond thenStmt (.ifStmt chain)).numConds = chain.numConds + 1 := rfl

theorem numConds_else (cond : Expr) (thenStmt s : Stmt) (hs : ∀ chain, s ≠ .ifStmt chain) :
    (IfChain.ifElse cond thenStmt s).numConds = 1 := by
  cases s with
  | ifStmt chain => exact absurd rfl (hs chain)
  | _ => rfl

theorem EmitIfElse_joins_once (abi : ABIArgGenerator) :
    ∀ (chain : IfChain) (thenBlocks : BlockVector) (f f' : FunctionCompiler),
      EmitIfElse abi chain thenBlocks f = some f' →
      ∃ pre blocks lastElse, collectThenArms abi chain thenBlocks f = some (pre, blocks, lastElse) ∧
        (∃ more, blocks = thenBlocks ++ more ∧ more.length ≤ chain.numConds) ∧
        JoinResult pre blocks lastElse f'
  | .ifThen cond thenStmt, thenBlocks, f, f', h => by
    rw [EmitIfElse_ifThen] at h
    simp only [Option.bind_eq_some, Option.some.injEq] at h
    obtain ⟨c, hc, t, ht, h⟩ := h
    subst h
    refine ⟨t.1, _, _, ?_, appendThenBlock_extends _ _, joinResult_joinIf _ _ _⟩
    rw [collectThenArms_ifThen, hc, Option.some_bind, ht, Option.some_bind]
  | .ifElse cond thenStmt (.ifStmt chain), thenBlocks, f, f', h => by
    rw [EmitIfElse_elseIf] at h
    simp only [Option.bind_eq_some] at h
    obtain ⟨c, hc, t, ht, h⟩ := h
    obtain ⟨m1, hm1, hl1⟩ := appendThenBlock_extends t.1 thenBlocks
    obtain ⟨pre, blocks, lastElse, hcol, ⟨m2, hm2, hl2⟩, hj⟩ :=
      EmitIfElse_joins_once abi chain _ _ _ h
    refine ⟨pre, blocks, lastElse, ?_, ⟨m1 ++ m2, ?_, ?_⟩, hj⟩
    · rw [collectThenArms_elseIf, hc, Option.some_bind, ht, Option.some_bind]
      exact hcol
    · rw [hm2, hm1, List.append_assoc]
    · rw [numConds_elseIf, List.length_append]
      omega
  | .ifElse cond thenStmt elseStmt, thenBlocks, f, f', h => by
    by_cases hs : ∀ chain, elseStmt ≠ .ifStmt chain
    · rw [EmitIfElse_else _ _ _ _ _ _ hs] at h
      simp only [Option.bind_eq_some, Option.some.injEq] at h
      obtain ⟨c, hc, t, ht, e, he, h⟩ := h
      subst h
      refine ⟨e.1, _, _, ?_, ?_, joinResult_joinIfElse _ _⟩
      · rw [collectThenArms_else _ _ _ _ _ _ hs, hc, Option.some_bind, ht, Option.some_bind, he,
          Option.some_bind]
      · rw [numConds_else _ _ _ hs]
        exact appendThenBlock_extends _ _
    · push_neg at hs
      obtain ⟨chain, rfl⟩ := hs
      rw [EmitIfElse_elseIf] at h
      simp only [Option.bind_eq_some] at h
      obtain ⟨c, hc, t, ht, h⟩ := h
      obtain ⟨m1, hm1, hl1⟩ := appendThenBlock_extends t.1 thenBlocks
      obtain ⟨pre, blocks, lastElse, hcol, ⟨m2, hm2, hl2⟩, hj⟩ :=
        EmitIfElse_joins_once abi chain _ _ _ h
      refine ⟨pre, blocks, lastElse, ?_, ⟨m1 ++ m2, ?_, ?_⟩, hj⟩
      · rw [collectThenArms_elseIf, hc, Option.some_bind, ht, Option.some_bind]
        exact hcol
      · rw [hm2, hm1, List.append_assoc]
      · rw [numConds_elseIf, List.length_append]
        omega

/-- C5 (amended). `EmitIfElse` on a chain of N conditions emits the arms link
by link, collecting at most N then-arm terminal blocks (those that ended in
live code), and joins once, after the last arm. With a final else the join
creates exactly one new block, to which every collected block and the live
else arm jump, unless every arm ended in dead code, in which case no block is
created; without a final else the join creates no block and every collected
block jumps to the else block of the last branch. -/
theorem C5_chain_joins_once (abi : ABIArgGenerator) (chain : IfChain) (f f' : FunctionCompiler)
    (h : EmitIfElse abi chain [] f = some f') :
    ∃ pre blocks lastElse, collectThenArms abi chain [] f = some (pre, blocks, lastElse) ∧
      blocks.length ≤ chain.numConds ∧ JoinResult pre blocks lastElse f' := by
  obtain ⟨pre, blocks, lastElse, hcol, ⟨more, hm, hl⟩, hj⟩ :=
    EmitIfElse_joins_once abi chain [] f f' h
  refine ⟨pre, blocks, lastElse, hcol, ?_, hj⟩
  rw [hm]
  simpa using hl

/-- The result of `EmitIfElse` on the chain of three conditions. -/
theorem C5_chain_joins_once_witness :
    ((EmitIfElse x64ABI ifChainOfThree [] oneIntArg).getD oneIntArg).graph_.controls =
      [some (.test (some 0) 1 2), some (.goto 7), some (.test (some 0) 3 4), some (.goto 7),
        some (.test (some 0) 5 6), some (.goto 7), some (.goto 7), none] ∧
    ∃ pre blocks lastElse,
      collectThenArms x64ABI ifChainOfThree [] oneIntArg = some (pre, blocks, lastElse) ∧
      blocks.length ≤ ifChainOfThree.numConds ∧
      JoinResult pre blocks lastElse ((EmitIfElse x64ABI ifChainOfThree [] oneIntArg).getD oneIntArg) :=
  ⟨by decide, C5_chain_joins_once x64ABI ifChainOfThree oneIntArg
    ((EmitIfElse x64ABI ifChainOfThree [] oneIntArg).getD oneIntArg) (by decide)⟩

/-- C5, as stated, fails on `if (x) return; else return;` started in live
code: the chain yields three blocks (the entry block ending in the test and
the two arms ending in a return), no join block is created and no block ends
with a jump. -/
theorem C5_counterexample :
    oneIntArg.curBlock_ = some 0 ∧
    (EmitIfElse x64ABI ifBothReturn [] oneIntArg).map (fun r => (r.graph_.controls, r.curBlock_)) =
      some ([some (.test (some 0) 1 2), some .asmJSVoidReturn, some .asmJSVoidReturn], none) := by
  decide



/-! ## Redundant phis of a loop header (C4) -/

theorem flag_fold (l : List DefId) (g : MIRGraph) :
    (l.foldl (fun g p =>
      if (g.getDef p).operands.getD 0 none = (g.getDef p).operands.getD 1 none then
        g.modifyDef p (fun d => { d with unused := true })
      else g) g).blocks = g.blocks ∧
    (∀ d, ((l.foldl (fun g p =>
      if (g.getDef p).operands.getD 0 none = (g.getDef p).operands.getD 1 none then
        g.modifyDef p (fun d => { d with unused := true })
      else g) g).getDef d).operands = (g.getDef d).operands) ∧
    (∀ d, d < g.defs.length → (((l.foldl (fun g p =>
      if (g.getDef p).operands.getD 0 none = (g.getDef p).operands.getD 1 none then
        g.modifyDef p (fun d => { d with unused := true })
      else g) g).getDef d).unused = true ↔
        ((g.getDef d).unused = true ∨ (d ∈ l ∧ redundantPhi g d = true)))) ∧
    (l.foldl (fun g p =>
      if (g.getDef p).operands.getD 0 none = (g.getDef p).operands.getD 1 none then
        g.modifyDef p (fun d => { d with unused := true })
      else g) g).defs.length = g.defs.length := by
  induction l generalizing g with
  | nil => simp
  | cons p ps ih =>
    simp only [List.foldl_cons]
    by_cases hc : (g.getDef p).operands.getD 0 none = (g.getDef p).operands.getD 1 none
    · rw [if_pos hc]
      obtain ⟨h1, h2, h3, h4⟩ := ih (g.modifyDef p (fun d => { d with unused := true }))
      have hops : ∀ d, ((g.modifyDef p (fun d => { d with unused := true })).getDef d).operands =
          (g.getDef d).operands := by
        intro d
        rw [getDef_modifyDef]
        split <;> rfl
      have hlen : (g.modifyDef p (fun d => { d with unused := true })).defs.length =
          g.defs.length := by
        simp only [MIRGraph.modifyDef, updateAt_length]
      refine ⟨h1, fun d => (h2 d).trans (hops d), ?_, h4.trans hlen⟩
      intro d hd
      rw [h3 d (hlen ▸ hd)]
      have hr : redundantPhi (g.modifyDef p (fun d => { d with unused := true })) d =
          redundantPhi g d := by
        simp only [redundantPhi, hops]
      rw [hr, getDef_modifyDef]
      by_cases hpd : p = d
      · subst hpd
        have hrp : redundantPhi g p = true := by simpa [redundantPhi] using hc
        simp [hd, hrp]
      · simp [hpd, Ne.symm hpd]
    · rw [if_neg hc]
      obtain ⟨h1, h2, h3, h4⟩ := ih g
      refine ⟨h1, h2, ?_, h4⟩
      intro d hd
      rw [h3 d hd]
      by_cases hpd : d = p
      · subst hpd
        have hrp : redundantPhi g d = false := by simpa [redundantPhi] using hc
        simp [hrp]
      · simp [hpd]

theorem SamePhis.sp_refl (g : MIRGraph) : SamePhis g g := ⟨rfl, rfl, fun _ => ⟨rfl, rfl⟩⟩

theorem SamePhis.sp_trans {g1 g2 g3 : MIRGraph} (h1 : SamePhis g1 g2) (h2 : SamePhis g2 g3) :
    SamePhis g1 g3 :=
  ⟨h2.1.trans h1.1, h2.2.1.trans h1.2.1,
    fun c => ⟨((h2.2.2 c).1).trans (h1.2.2 c).1, ((h2.2.2 c).2).trans (h1.2.2 c).2⟩⟩

theorem samePhis_fixup (g : MIRGraph) (b : BlockId) : SamePhis g (fixupRedundantPhis g b) := by
  refine ⟨rfl, blocks_length_modifyBlock _ _ _, fun c => ?_⟩
  unfold fixupRedundantPhis
  rw [block_modifyBlock]
  split <;> exact ⟨rfl, rfl⟩

theorem samePhis_foldl {α : Type} (step : MIRGraph → α → MIRGraph)
    (h : ∀ g a, SamePhis g (step g a)) (l : List α) (g : MIRGraph) :
    SamePhis g (l.foldl step g) := by
  induction l generalizing g with
  | nil => exact SamePhis.sp_refl g
  | cons a as ih => exact (h g a).sp_trans (ih (step g a))

theorem samePhis_fixupMap (g : MIRGraph) (le : BlockId) (m : BlockMap) :
    SamePhis g (fixupRedundantPhisMap g le m) := by
  unfold fixupRedundantPhisMap
  refine samePhis_foldl _ (fun g e => ?_) m g
  refine samePhis_foldl _ (fun g b => ?_) e.2 g
  dsimp only
  split
  · exact samePhis_fixup g b
  · exact SamePhis.sp_refl g

theorem getDef_justReplace (g : MIRGraph) (old : DefId) (new : Option DefId) (d : DefId) :
    ((justReplaceAllUsesWith g old new).getDef d).operands =
      (g.getDef d).operands.map (replaceOperand old new) ∧
    ((justReplaceAllUsesWith g old new).getDef d).unused = (g.getDef d).unused := by
  have hd : (default : MDefinition) =
      (fun x : MDefinition => { x with operands := x.operands.map (replaceOperand old new) })
        default := rfl
  simp only [justReplaceAllUsesWith, MIRGraph.getDef]
  rw [hd, List.getD_map]
  exact ⟨rfl, rfl⟩

theorem block_justReplace (g : MIRGraph) (old : DefId) (new : Option DefId) (c : BlockId) :
    ((justReplaceAllUsesWith g old new).block c).lastIns =
      (g.block c).lastIns.map (MControl.replaceUses old new) ∧
    ((justReplaceAllUsesWith g old new).block c).phis = (g.block c).phis := by
  have hd : (default : MBasicBlock) =
      (fun x : MBasicBlock => { x with lastIns := x.lastIns.map (MControl.replaceUses old new) })
        default := rfl
  simp only [justReplaceAllUsesWith, MIRGraph.block]
  rw [hd, List.getD_map]
  exact ⟨rfl, rfl⟩

theorem block_discardPhi (g : MIRGraph) (le p c : BlockId) :
    ((discardPhi g le p).block c).lastIns = (g.block c).lastIns ∧
    ((discardPhi g le p).block le).phis = (g.block le).phis.filter (fun x => x != p) := by
  unfold discardPhi
  rw [block_modifyBlock, block_modifyBlock]
  refine ⟨by split <;> rfl, ?_⟩
  by_cases h : le < g.blocks.length
  · simp [h]
  · have hb : g.block le = default := by
      simp only [MIRGraph.block]
      exact List.getD_eq_default _ _ (Nat.le_of_not_lt h)
    simp [h, hb]
    rfl

theorem replaceUses_eq_mapOperand (old : DefId) (new : Option DefId) (c : MControl) :
    c.replaceUses old new = c.mapOperand (replaceOperand old new) := by
  cases c <;> rfl

theorem mapOperand_mapOperand (fn gn : Option DefId → Option DefId) (c : MControl) :
    (c.mapOperand fn).mapOperand gn = c.mapOperand (fun o => gn (fn o)) := by
  cases c <;> rfl

theorem mapOperand_congr (fn gn : Option DefId → Option DefId) (h : ∀ o, fn o = gn o)
    (c : MControl) : c.mapOperand fn = c.mapOperand gn := by
  cases c <;> simp [MControl.mapOperand, h]

theorem rewriteUse_congr (G G' : MIRGraph) (S S' : List DefId)
    (hG : ∀ d, (G'.getDef d).operands = (G.getDef d).operands)
    (hS : ∀ d, d ∈ S ↔ d ∈ S') (o : Option DefId) :
    rewriteUse G S o = rewriteUse G' S' o := by
  cases o with
  | none => rfl
  | some d =>
    simp only [rewriteUse, hG]
    by_cases h : d ∈ S
    · rw [if_pos h, if_pos ((hS d).1 h)]
    · rw [if_neg h, if_neg (fun h' => h ((hS d).2 h'))]

theorem rewriteUse_fixed (G : MIRGraph) (S : List DefId) (o : Option DefId)
    (h : ∀ r ∈ S, o ≠ some r) : rewriteUse G S o = o := by
  cases o with
  | none => rfl
  | some d =>
    simp only [rewriteUse]
    rw [if_neg]
    intro hd
    exact h d hd rfl

theorem replace_rewriteUse (G : MIRGraph) (R S : List DefId) (p : DefId)
    (hS : ∀ d ∈ S, d ∈ R) (hp : p ∈ R)
    (hR : ∀ q ∈ R, ∀ r ∈ R, (G.getDef q).operands.getD 0 none ≠ some r) (o : Option DefId) :
    replaceOperand p ((G.getDef p).operands.getD 0 none) (rewriteUse G S o) =
      rewriteUse G (S ++ [p]) o := by
  cases o with
  | none => simp [rewriteUse, replaceOperand]
  | some d =>
    simp only [rewriteUse, List.mem_append, List.mem_singleton]
    by_cases hd : d ∈ S
    · rw [if_pos hd, if_pos (Or.inl hd)]
      unfold replaceOperand
      rw [if_neg (hR d (hS d hd) p hp)]
    · rw [if_neg hd]
      by_cases hdp : d = p
      · subst hdp
        rw [if_pos (Or.inr rfl)]
        simp [replaceOperand]
      · rw [if_neg (by tauto)]
        unfold replaceOperand
        rw [if_neg]
        intro h
        exact hdp (Option.some.inj h)

theorem discard_step (le : BlockId) (G : MIRGraph) (R S : List DefId) (g : MIRGraph) (p : DefId)
    (hS : ∀ d ∈ S, d ∈ R) (hp : p ∈ R)
    (hR : ∀ q ∈ R, ∀ r ∈ R, (G.getDef q).operands.getD 0 none ≠ some r)
    (inv : DiscardedPhis le G S g) :
    DiscardedPhis le G (S ++ [p])
      (addPhiToFreeList
        (discardPhi (justReplaceAllUsesWith g p ((g.getDef p).operands.getD 0 none)) le p) p) := by
  obtain ⟨i1, i2, i3, i4⟩ := inv
  have hnew : (g.getDef p).operands.getD 0 none = (G.getDef p).operands.getD 0 none := by
    rw [i2]
    have hn : (none : Option DefId) = rewriteUse G S none := rfl
    rw [hn, List.getD_map]
    exact rewriteUse_fixed G S _ (fun r hr => hR p hp r (hS r hr))
  rw [hnew]
  have hdefs : ∀ d, (addPhiToFreeList
        (discardPhi (justReplaceAllUsesWith g p ((G.getDef p).operands.getD 0 none)) le p) p).getDef d =
      (justReplaceAllUsesWith g p ((G.getDef p).operands.getD 0 none)).getDef d := fun _ => rfl
  have hblk : ∀ c, (addPhiToFreeList
        (discardPhi (justReplaceAllUsesWith g p ((G.getDef p).operands.getD 0 none)) le p) p).block c =
      (discardPhi (justReplaceAllUsesWith g p ((G.getDef p).operands.getD 0 none)) le p).block c :=
    fun _ => rfl
  refine ⟨?_, ?_, ?_, ?_⟩
  · intro d
    rw [hdefs, (getDef_justReplace _ _ _ d).2, i1]
  · intro d
    rw [hdefs, (getDef_justReplace _ _ _ d).1, i2, List.map_map]
    apply List.map_congr_left
    intro o _
    exact replace_rewriteUse G R S p hS hp hR o
  · intro c
    rw [hblk, (block_discardPhi _ le p c).1, (block_justReplace _ _ _ c).1, i3, Option.map_map]
    congr 1
    funext x
    simp only [Function.comp, replaceUses_eq_mapOperand, mapOperand_mapOperand]
    exact mapOperand_congr _ _ (replace_rewriteUse G R S p hS hp hR) x
  · rw [hblk, (block_discardPhi _ le p le).2, (block_justReplace _ _ _ le).2, i4, List.filter_filter]
    apply List.filter_congr
    intro x _
    simp only [List.mem_append, List.mem_singleton, not_or, Bool.decide_and, bne_iff_ne, ne_eq,
      Bool.and_comm]
    by_cases hx : x = p <;> by_cases hxs : x ∈ S <;> simp [hx, hxs]

theorem discard_fold (le : BlockId) (G : MIRGraph) (R : List DefId)
    (hR : ∀ q ∈ R, ∀ r ∈ R, (G.getDef q).operands.getD 0 none ≠ some r)
    (l : List DefId) (hl : ∀ p ∈ l, (p ∈ R ↔ (G.getDef p).unused = true)) :
    ∀ (S : List DefId) (g : MIRGraph), (∀ d ∈ S, d ∈ R) → DiscardedPhis le G S g →
      DiscardedPhis le G (S ++ l.filter (fun p => decide (p ∈ R)))
        (l.foldl (fun g p =>
          if (g.getDef p).unused then
            addPhiToFreeList
              (discardPhi (justReplaceAllUsesWith g p ((g.getDef p).operands.getD 0 none)) le p) p
          else g) g) := by
  induction l with
  | nil =>
    intro S g _ inv
    simpa using inv
  | cons p ps ih =>
    intro S g hS inv
    simp only [List.foldl_cons]
    have hl' : ∀ q ∈ ps, (q ∈ R ↔ (G.getDef q).unused = true) :=
      fun q hq => hl q (List.mem_cons_of_mem _ hq)
    by_cases hp : p ∈ R
    · have hu : (g.getDef p).unused = true := by
        rw [inv.1]
        exact (hl p (List.mem_cons_self _ _)).1 hp
      rw [if_pos hu]
      have h := ih hl' (S ++ [p]) _ (by
        intro d hd
        rcases List.mem_append.1 hd with h | h
        · exact hS d h
        · rw [List.mem_singleton.1 h]
          exact hp) (discard_step le G R S g p hS hp hR inv)
      simpa [List.filter_cons, hp, List.append_assoc] using h
    · have hu : ¬ (g.getDef p).unused = true := by
        rw [inv.1]
        exact fun h => hp ((hl p (List.mem_cons_self _ _)).2 h)
      rw [if_neg hu]
      have h := ih hl' S g hS inv
      simpa [List.filter_cons, hp] using h

theorem rewriteUse_nil (G : MIRGraph) (o : Option DefId) : rewriteUse G [] o = o := by
  cases o <;> simp [rewriteUse]

theorem mapOperand_id (fn : Option DefId → Option DefId) (h : ∀ o, fn o = o) (c : MControl) :
    c.mapOperand fn = c := by
  cases c <;> simp [MControl.mapOperand, h]

theorem discardedPhis_start (le : BlockId) (G : MIRGraph) : DiscardedPhis le G [] G := by
  refine ⟨fun _ => rfl, fun d => ?_, fun c => ?_, ?_⟩
  · rw [List.map_congr_left (fun o _ => rewriteUse_nil G o), List.map_id']
  · cases (G.block c).lastIns with
    | none => rfl
    | some x => simp [mapOperand_id _ (rewriteUse_nil G)]
  · simp

theorem setLoopBackedge_graph (f : FunctionCompiler) (le be : BlockId) (afterLoop : Option BlockId) :
    ∃ G6, SamePhis (flagRedundantPhis (backedgeGraph f le be) le) G6 ∧
      (f.setLoopBackedge le be afterLoop).graph_ = discardRedundantPhis G6 le := by
  refine ⟨_, ?_, rfl⟩
  refine SamePhis.sp_trans (SamePhis.sp_trans (SamePhis.sp_trans (SamePhis.sp_trans ?_
    (samePhis_fixupMap _ le f.labeledContinues_)) (samePhis_fixupMap _ le f.labeledBreaks_))
    (samePhis_fixupMap _ le f.unlabeledContinues_)) (samePhis_fixupMap _ le f.unlabeledBreaks_)
  cases afterLoop with
  | none => exact SamePhis.sp_refl _
  | some a => exact samePhis_fixup _ a

/-- C4 (amended). In `setLoopBackedge`, the redundant phis are found by one
scan made right after the backedge was set: the header phis whose two operands
are then the same definition. Provided the header phis are definitions of the
graph not flagged before, and the entry operand of a flagged phi is not itself
a flagged phi of this header, exactly the flagged phis are removed from the
header (the others stay, in order), and every operand of every definition and
control instruction that referred to a flagged phi refers to that phi's
operand 0 afterwards, all other operands being unchanged. -/
theorem C4_setLoopBackedge_single_scan (f : FunctionCompiler) (le be : BlockId)
    (afterLoop : Option BlockId)
    (hlt : ∀ p ∈ ((backedgeGraph f le be).block le).phis, p < (backedgeGraph f le be).defs.length)
    (hfresh : ∀ p ∈ ((backedgeGraph f le be).block le).phis,
      ((backedgeGraph f le be).getDef p).unused = false)
    (hentry : ∀ q ∈ flaggedPhis f le be, ∀ r ∈ flaggedPhis f le be,
      ((backedgeGraph f le be).getDef q).operands.getD 0 none ≠ some r) :
    ((f.setLoopBackedge le be afterLoop).graph_.block le).phis =
      ((backedgeGraph f le be).block le).phis.filter
        (fun p => !redundantPhi (backedgeGraph f le be) p) ∧
    (∀ d, ((f.setLoopBackedge le be afterLoop).graph_.getDef d).operands =
      ((backedgeGraph f le be).getDef d).operands.map
        (rewriteUse (backedgeGraph f le be) (flaggedPhis f le be))) ∧
    (∀ c, ((f.setLoopBackedge le be afterLoop).graph_.block c).lastIns =
      ((backedgeGraph f le be).block c).lastIns.map
        (MControl.mapOperand (rewriteUse (backedgeGraph f le be) (flaggedPhis f le be)))) := by
  obtain ⟨G6, hs, hg⟩ := setLoopBackedge_graph f le be afterLoop
  rw [hg]
  obtain ⟨f1, f2, f3, f4⟩ := flag_fold ((backedgeGraph f le be).block le).phis (backedgeGraph f le be)
  change (flagRedundantPhis (backedgeGraph f le be) le).blocks = _ at f1
  change ∀ d, ((flagRedundantPhis (backedgeGraph f le be) le).getDef d).operands = _ at f2
  change ∀ d, d < _ → (((flagRedundantPhis (backedgeGraph f le be) le).getDef d).unused = true ↔ _) at f3
  generalize flagRedundantPhis (backedgeGraph f le be) le = G1 at hs f1 f2 f3
  generalize hG0 : backedgeGraph f le be = G0 at *
  have hR : flaggedPhis f le be = (G0.block le).phis.filter (redundantPhi G0) := by
    rw [← hG0]
    rfl
  rw [hR] at hentry ⊢
  obtain ⟨s1, s2, s3⟩ := hs
  have hdef6 : ∀ d, G6.getDef d = G1.getDef d := by
    intro d
    simp only [MIRGraph.getDef, s1]
  have hblk1 : ∀ c, G1.block c = G0.block c := by
    intro c
    simp only [MIRGraph.block, f1]
  have hops : ∀ d, (G6.getDef d).operands = (G0.getDef d).operands := by
    intro d
    rw [hdef6, f2]
  have hphis : (G6.block le).phis = (G0.block le).phis := by
    rw [(s3 le).1, hblk1]
  have hlast : ∀ c, (G6.block c).lastIns = (G0.block c).lastIns := by
    intro c
    rw [(s3 c).2, hblk1]
  have hmemR : ∀ p, p ∈ (G0.block le).phis.filter (redundantPhi G0) ↔
      (p ∈ (G0.block le).phis ∧ redundantPhi G0 p = true) := fun p => List.mem_filter
  have hfold := discard_fold le G6 ((G0.block le).phis.filter (redundantPhi G0))
    (by
      intro q hq r hr
      rw [hops]
      exact hentry q hq r hr)
    (G6.block le).phis
    (by
      intro p hp
      rw [hphis] at hp
      rw [hdef6, f3 p (hlt p hp), hmemR, hfresh p hp]
      simp [hp])
    [] G6 (by simp) (discardedPhis_start le G6)
  change DiscardedPhis le G6 _ (discardRedundantPhis G6 le) at hfold
  generalize hSdef : ([] ++ (G6.block le).phis.filter
      (fun p => decide (p ∈ (G0.block le).phis.filter (redundantPhi G0)))) = S' at hfold
  obtain ⟨-, d2, d3, d4⟩ := hfold
  have hmemS : ∀ d, d ∈ S' ↔ d ∈ (G0.block le).phis.filter (redundantPhi G0) := by
    intro d
    rw [← hSdef, List.nil_append, hphis, List.mem_filter, decide_eq_true_eq]
    exact ⟨fun h => h.2, fun h => ⟨((hmemR d).1 h).1, h⟩⟩
  refine ⟨?_, ?_, ?_⟩
  · rw [d4, hphis]
    apply List.filter_congr
    intro x hx
    by_cases hxs : x ∈ S'
    · have hr : redundantPhi G0 x = true := ((hmemR x).1 ((hmemS x).1 hxs)).2
      simp [hxs, hr]
    · have hr : redundantPhi G0 x = false := by
        cases h : redundantPhi G0 x with
        | false => rfl
        | true => exact absurd ((hmemS x).2 ((hmemR x).2 ⟨hx, h⟩)) hxs
      simp [hxs, hr]
  · intro d
    rw [d2, hops]
    apply List.map_congr_left
    intro o _
    exact rewriteUse_congr G6 G0 _ _ (fun d => (hops d).symm) hmemS o
  · intro c
    rw [d3, hlast]
    congr 1
    funext x
    exact mapOperand_congr _ _ (rewriteUse_congr G6 G0 _ _ (fun d => (hops d).symm) hmemS) x

/-- Witness for C4: the loop of `function f(x) { var y = 0; y = x; while (x)
{ x = y; } }`, header block 1 with the phis 2 (for `x`) and 3 (for `y`),
backedge block 2. -/
theorem C4_setLoopBackedge_single_scan_witness :
    ((copyBackBeforeBackedge.1.setLoopBackedge 1 2 (some 3)).graph_.block 1).phis =
      ((backedgeGraph copyBackBeforeBackedge.1 1 2).block 1).phis.filter
        (fun p => !redundantPhi (backedgeGraph copyBackBeforeBackedge.1 1 2) p) ∧
    (∀ d, ((copyBackBeforeBackedge.1.setLoopBackedge 1 2 (some 3)).graph_.getDef d).operands =
      ((backedgeGraph copyBackBeforeBackedge.1 1 2).getDef d).operands.map
        (rewriteUse (backedgeGraph copyBackBeforeBackedge.1 1 2)
          (flaggedPhis copyBackBeforeBackedge.1 1 2))) ∧
    (∀ c, ((copyBackBeforeBackedge.1.setLoopBackedge 1 2 (some 3)).graph_.block c).lastIns =
      ((backedgeGraph copyBackBeforeBackedge.1 1 2).block c).lastIns.map
        (MControl.mapOperand (rewriteUse (backedgeGraph copyBackBeforeBackedge.1 1 2)
          (flaggedPhis copyBackBeforeBackedge.1 1 2)))) :=
  C4_setLoopBackedge_single_scan copyBackBeforeBackedge.1 1 2 (some 3)
    (by decide) (by decide) (by decide)

/-- C4, as stated, fails on `function f(x) { var y = 0; y = x; while (x)
{ x = y; } }`: `setLoopBackedge` is called with header 1, backedge block 2 and
exit block 3. When the backedge is set the phi 3 (of `y`) has the operands
`(x, x)` and the phi 2 (of `x`) has the operands `(x, phi 3)`. After the call
the phi 3 is gone and the phi 2 is still in the header with the two identical
operands `(x, x)`: its operands differed at the scan, and it was not left
untouched. -/
theorem C4_counterexample :
    copyBackBeforeBackedge.2 = (1, 2, some 3) ∧
    ((backedgeGraph copyBackBeforeBackedge.1 1 2).block 1).phis = [2, 3] ∧
    ((backedgeGraph copyBackBeforeBackedge.1 1 2).getDef 2).operands = [some 0, some 3] ∧
    ((backedgeGraph copyBackBeforeBackedge.1 1 2).getDef 3).operands = [some 0, some 0] ∧
    (copyBackAfterBackedge.graph_.block 1).phis = [2] ∧
    (copyBackAfterBackedge.graph_.getDef 2).operands = [some 0, some 0] := by
  decide



/-! ## Pending-branch bookkeeping (C8, C9) -/

theorem BlockMap.mem_keys_remove (m : BlockMap) (x k : Nat) :
    k ∈ BlockMap.keys (BlockMap.remove m x) ↔ k ∈ BlockMap.keys m ∧ k ≠ x := by
  simp only [BlockMap.keys, BlockMap.remove, List.mem_map, List.mem_filter, bne_iff_ne, ne_eq]
  constructor
  · rintro ⟨e, ⟨he, hne⟩, rfl⟩
    exact ⟨⟨e, he, rfl⟩, hne⟩
  · rintro ⟨⟨e, he, rfl⟩, hne⟩
    exact ⟨e, ⟨he, hne⟩, rfl⟩

theorem BlockMap.mem_keys_append (m : BlockMap) (x : Nat) (b : BlockId) (k : Nat) :
    k ∈ BlockMap.keys (BlockMap.append m x b) ↔ k ∈ BlockMap.keys m ∨ k = x := by
  induction m with
  | nil => simp [BlockMap.append, BlockMap.keys]
  | cons e rest ih =>
    simp only [BlockMap.append]
    split
    · rename_i he
      simp only [BlockMap.keys, List.map_cons, List.mem_cons]
      constructor
      · rintro (h | h)
        · exact Or.inl (Or.inl h)
        · exact Or.inl (Or.inr h)
      · rintro ((h | h) | h)
        · exact Or.inl h
        · exact Or.inr h
        · exact Or.inl (h.trans he.symm)
    · simp only [BlockMap.keys, List.map_cons, List.mem_cons] at ih ⊢
      rw [ih]
      tauto

theorem BlockMap.lookup_eq_none (m : BlockMap) (k : Nat) (h : k ∉ BlockMap.keys m) :
    BlockMap.lookup m k = none := by
  induction m with
  | nil => rfl
  | cons e rest ih =>
    simp only [BlockMap.keys, List.map_cons, List.mem_cons, not_or] at h
    simp only [BlockMap.lookup]
    rw [if_neg (fun he => h.1 he.symm)]
    exact ih h.2

theorem BlockMap.eq_nil_of_keys (m : BlockMap) (h : ∀ k, k ∉ BlockMap.keys m) : m = [] := by
  cases m with
  | nil => rfl
  | cons e rest => exact absurd (List.mem_cons_self _ _) (h e.1)

theorem step_refl (c : Ctx) (f : FunctionCompiler) : Step c f f 0 :=
  ⟨⟨rfl, rfl, rfl, fun _ h => Or.inl h, fun _ h => Or.inl h, fun _ h => Or.inl h,
    fun _ h => Or.inl h⟩, fun h => ⟨h, rfl⟩⟩

theorem moves_trans {c : Ctx} {f f' f'' : FunctionCompiler} {n m : Nat}
    (h1 : Moves c f f' n) (h2 : Moves c f' f'' m) : Moves c f f'' (n + m) := by
  obtain ⟨a1, a2, a3, a4, a5, a6, a7⟩ := h1
  obtain ⟨b1, b2, b3, b4, b5, b6, b7⟩ := h2
  refine ⟨by rw [b1, a1, Nat.add_assoc], b2.trans a2, b3.trans a3, ?_, ?_, ?_, ?_⟩
  · intro k hk
    rcases b4 k hk with h | h
    · exact a4 k h
    · rw [a3] at h
      exact Or.inr h
  · intro k hk
    rcases b5 k hk with h | h
    · exact a5 k h
    · rw [a2] at h
      exact Or.inr h
  · intro k hk
    rcases b6 k hk with h | h
    · exact a6 k h
    · exact Or.inr h
  · intro k hk
    rcases b7 k hk with h | h
    · exact a7 k h
    · exact Or.inr h

theorem staysDead_trans {f f' f'' : FunctionCompiler} (h1 : StaysDead f f')
    (h2 : StaysDead f' f'') : StaysDead f f'' := by
  intro hd
  obtain ⟨d1, m1⟩ := h1 hd
  obtain ⟨d2, m2⟩ := h2 d1
  exact ⟨d2, m2.trans m1⟩

theorem step_trans {c : Ctx} {f f' f'' : FunctionCompiler} {n m : Nat}
    (h1 : Step c f f' n) (h2 : Step c f' f'' m) : Step c f f'' (n + m) :=
  ⟨moves_trans h1.1 h2.1, staysDead_trans h1.2 h2.2⟩

theorem moves_weaken {c c' : Ctx} {f f' : FunctionCompiler} {n : Nat} (h : Moves c f f' n)
    (h1 : c.inBreakable = true → c'.inBreakable = true) (h2 : c.inLoop = true → c'.inLoop = true)
    (h3 : ∀ x ∈ c.brkLabels, x ∈ c'.brkLabels) (h4 : ∀ x ∈ c.contLabels, x ∈ c'.contLabels) :
    Moves c' f f' n := by
  obtain ⟨a1, a2, a3, a4, a5, a6, a7⟩ := h
  refine ⟨a1, a2, a3, ?_, ?_, ?_, ?_⟩
  · intro k hk
    rcases a4 k hk with h | h
    · exact Or.inl h
    · exact Or.inr ⟨h1 h.1, h.2⟩
  · intro k hk
    rcases a5 k hk with h | h
    · exact Or.inl h
    · exact Or.inr ⟨h2 h.1, h.2⟩
  · intro k hk
    rcases a6 k hk with h | h
    · exact Or.inl h
    · exact Or.inr (h3 k h)
  · intro k hk
    rcases a7 k hk with h | h
    · exact Or.inl h
    · exact Or.inr (h4 k h)

theorem step_weaken {c c' : Ctx} {f f' : FunctionCompiler} {n : Nat} (h : Step c f f' n)
    (h1 : c.inBreakable = true → c'.inBreakable = true) (h2 : c.inLoop = true → c'.inLoop = true)
    (h3 : ∀ x ∈ c.brkLabels, x ∈ c'.brkLabels) (h4 : ∀ x ∈ c.contLabels, x ∈ c'.contLabels) :
    Step c' f f' n :=
  ⟨moves_weaken h.1 h1 h2 h3 h4, h.2⟩

theorem step_of_noJump {c : Ctx} {f f' : FunctionCompiler} {n : Nat} (h : Step c.noJump f f' n) :
    Step c f f' n :=
  step_weaken h (fun h => by cases h) (fun h => by cases h)
    (fun _ h => absurd h (List.not_mem_nil _)) (fun _ h => absurd h (List.not_mem_nil _))

theorem step_size {c : Ctx} {f f' : FunctionCompiler} {n m : Nat} (h : Step c f f' n)
    (e : n = m) : Step c f f' m := e ▸ h

theorem moves_size {c : Ctx} {f f' : FunctionCompiler} {n m : Nat} (h : Moves c f f' n)
    (e : n = m) : Moves c f f' m := e ▸ h

theorem maps_of_bookkeeping {f f' : FunctionCompiler} {n : Nat}
    (hb : f'.bookkeeping = { f.bookkeeping with pc := n }) : f'.maps = f.maps := by
  simp only [FunctionCompiler.bookkeeping, Bookkeeping.mk.injEq] at hb
  obtain ⟨-, -, -, b4, b5, b6, b7⟩ := hb
  simp only [FunctionCompiler.maps, b4, b5, b6, b7]

theorem moves_frame (c : Ctx) (f f' : FunctionCompiler) (n : Nat)
    (hb : f'.bookkeeping = { f.bookkeeping with pc := f.pc_ + n }) : Moves c f f' n := by
  simp only [FunctionCompiler.bookkeeping, Bookkeeping.mk.injEq] at hb
  obtain ⟨b1, b2, b3, b4, b5, b6, b7⟩ := hb
  refine ⟨b1, b2, b3, ?_, ?_, ?_, ?_⟩
  · rw [b4]
    exact fun _ h => Or.inl h
  · rw [b5]
    exact fun _ h => Or.inl h
  · rw [b6]
    exact fun _ h => Or.inl h
  · rw [b7]
    exact fun _ h => Or.inl h

theorem moves_quiet (c : Ctx) (f f' : FunctionCompiler) (hb : f'.bookkeeping = f.bookkeeping) :
    Moves c f f' 0 :=
  moves_frame c f f' 0 (by rw [hb]; rfl)

theorem step_frame (c : Ctx) (f f' : FunctionCompiler) (n : Nat)
    (hb : f'.bookkeeping = { f.bookkeeping with pc := f.pc_ + n })
    (hd : f.curBlock_ = none → f'.curBlock_ = none) : Step c f f' n :=
  ⟨moves_frame c f f' n hb, fun h => ⟨hd h, maps_of_bookkeeping hb⟩⟩

theorem step_quiet (c : Ctx) (f f' : FunctionCompiler)
    (hb : f'.bookkeeping = f.bookkeeping) (hd : f.curBlock_ = none → f'.curBlock_ = none) :
    Step c f f' 0 :=
  step_frame c f f' 0 (by rw [hb]; rfl) hd

theorem step_advance (c : Ctx) (f : FunctionCompiler) (n : Nat) : Step c f (f.advance n) n :=
  step_frame c f _ n rfl (fun h => h)

theorem inv_moves {c : Ctx} {f f' : FunctionCompiler} {n : Nat} (hi : Inv c f)
    (h : Moves c f f' n) : Inv c f' := by
  obtain ⟨ok, i1, i2, i3, i4, i5, i6⟩ := hi
  obtain ⟨a1, a2, a3, a4, a5, a6, a7⟩ := h
  refine ⟨ok, ?_, ?_, ?_, ?_, ?_, ?_⟩
  · intro k hk
    rw [a3]
    rcases a4 k hk with h | h
    · exact i1 k h
    · exact List.mem_of_getLast?_eq_some h.2
  · intro k hk
    rw [a2]
    rcases a5 k hk with h | h
    · exact i2 k h
    · exact List.mem_of_getLast?_eq_some h.2
  · intro x hx
    rw [a3] at hx
    rw [a1]
    exact Nat.le_trans (i3 x hx) (Nat.le_add_right _ _)
  · intro x hx
    rw [a2] at hx
    rw [a1]
    exact Nat.le_trans (i4 x hx) (Nat.le_add_right _ _)
  · intro k hk
    rcases a6 k hk with h | h
    · exact i5 k h
    · exact ok.1 k h
  · intro k hk
    rcases a7 k hk with h | h
    · exact i6 k h
    · exact ⟨ok.2.1 k h, fun hp => ok.2.2.2 k hp h⟩

theorem inv_step {c : Ctx} {f f' : FunctionCompiler} {n : Nat} (hi : Inv c f)
    (h : Step c f f' n) : Inv c f' := inv_moves hi h.1

theorem inv_ctx {c c' : Ctx} {f : FunctionCompiler} (hi : Inv c f) (hok : c'.ok)
    (hs : ∀ x ∈ c.scope, x ∈ c'.scope)
    (hp : ∀ x ∈ c'.pending, x ∈ c.pending ∨ x ∉ c.scope) : Inv c' f := by
  obtain ⟨-, i1, i2, i3, i4, i5, i6⟩ := hi
  refine ⟨hok, i1, i2, i3, i4, fun k hk => hs k (i5 k hk), fun k hk => ⟨hs k (i6 k hk).1, ?_⟩⟩
  intro hkp
  rcases hp k hkp with h | h
  · exact (i6 k hk).2 h
  · exact h (i6 k hk).1

theorem ok_noJump (c : Ctx) : c.noJump.ok :=
  ⟨fun _ h => absurd h (List.not_mem_nil _), fun _ h => absurd h (List.not_mem_nil _), fun _ h => absurd h (List.not_mem_nil _), fun _ h => absurd h (List.not_mem_nil _)⟩

theorem ok_inner {c : Ctx} (h : c.ok) : c.inner.ok :=
  ⟨h.1, h.2.1, fun _ h => absurd h (List.not_mem_nil _), fun _ h => absurd h (List.not_mem_nil _)⟩

theorem ok_switchBody {c : Ctx} (h : c.ok) : c.switchBody.ok :=
  ⟨h.1, h.2.1, fun _ h => absurd h (List.not_mem_nil _), fun _ h => absurd h (List.not_mem_nil _)⟩

theorem ok_loopBody {c : Ctx} (h : c.ok) : c.loopBody.ok := by
  refine ⟨h.1, ?_, fun _ h => absurd h (List.not_mem_nil _), fun _ h => absurd h (List.not_mem_nil _)⟩
  intro x hx
  rcases List.mem_append.1 hx with h' | h'
  · exact h.2.2.1 x h'
  · exact h.2.1 x h'

theorem ok_chain {c : Ctx} (h : c.ok) (labels : List Nat) (hl : ∀ x ∈ labels, x ∉ c.scope) :
    (c.chain labels).ok := by
  refine ⟨?_, ?_, ?_, ?_⟩
  · intro x hx
    rcases List.mem_append.1 hx with h' | h'
    · exact List.mem_append_left _ h'
    · exact List.mem_append_right _ (h.1 x h')
  · intro x hx
    exact List.mem_append_right _ (h.2.1 x hx)
  · intro x hx
    exact List.mem_append_left _ hx
  · intro x hx hc
    exact hl x hx (h.2.1 x hc)

theorem inv_noJump {c : Ctx} {f : FunctionCompiler} (hi : Inv c f) : Inv c.noJump f :=
  inv_ctx hi (ok_noJump c) (fun _ h => h) (fun _ h => absurd h (List.not_mem_nil _))

theorem inv_inner {c : Ctx} {f : FunctionCompiler} (hi : Inv c f) : Inv c.inner f :=
  inv_ctx hi (ok_inner hi.1) (fun _ h => h) (fun _ h => absurd h (List.not_mem_nil _))

theorem inv_switchBody {c : Ctx} {f : FunctionCompiler} (hi : Inv c f) : Inv c.switchBody f :=
  inv_ctx hi (ok_switchBody hi.1) (fun _ h => h) (fun _ h => absurd h (List.not_mem_nil _))

theorem inv_loopBody {c : Ctx} {f : FunctionCompiler} (hi : Inv c f) : Inv c.loopBody f :=
  inv_ctx hi (ok_loopBody hi.1) (fun _ h => h) (fun _ h => absurd h (List.not_mem_nil _))

theorem inv_chain {c : Ctx} {f : FunctionCompiler} (hi : Inv c f) (labels : List Nat)
    (hl : ∀ x ∈ labels, x ∉ c.scope) : Inv (c.chain labels) f :=
  inv_ctx hi (ok_chain hi.1 labels hl) (fun _ h => List.mem_append_right _ h)
    (fun x h => Or.inr (hl x h))

theorem inv_of_bookkeeping {c : Ctx} {f f' : FunctionCompiler} (hi : Inv c f)
    (hb : f'.bookkeeping = { f.bookkeeping with pc := f'.pc_ }) (hpc : f.pc_ ≤ f'.pc_) :
    Inv c f' := by
  simp only [FunctionCompiler.bookkeeping, Bookkeeping.mk.injEq, true_and] at hb
  obtain ⟨b2, b3, b4, b5, b6, b7⟩ := hb
  obtain ⟨ok, i1, i2, i3, i4, i5, i6⟩ := hi
  refine ⟨ok, ?_, ?_, ?_, ?_, ?_, ?_⟩
  · rw [b4, b3]; exact i1
  · rw [b5, b2]; exact i2
  · rw [b3]; exact fun x hx => Nat.le_trans (i3 x hx) hpc
  · rw [b2]; exact fun x hx => Nat.le_trans (i4 x hx) hpc
  · rw [b6]; exact i5
  · rw [b7]; exact i6

/-! ### The builder methods on the bookkeeping -/

theorem emit_quiet (f : FunctionCompiler) (op : MOpcode) (ops : List (Option DefId)) :
    (f.emit op ops).1.bookkeeping = f.bookkeeping ∧ (f.emit op ops).1.curBlock_ = f.curBlock_ := by
  unfold emit
  split <;> exact ⟨rfl, rfl⟩

theorem assign_quiet (f : FunctionCompiler) (slot : Nat) (d : Option DefId) :
    (f.assign slot d).bookkeeping = f.bookkeeping ∧ (f.assign slot d).curBlock_ = f.curBlock_ := by
  unfold assign
  split <;> exact ⟨rfl, rfl⟩

theorem startCallArgs_quiet (f : FunctionCompiler) (call : Call) :
    (f.startCallArgs call).1.bookkeeping = f.bookkeeping ∧
    (f.startCallArgs call).1.curBlock_ = f.curBlock_ := by
  unfold startCallArgs
  split <;> exact ⟨rfl, rfl⟩

theorem passArg_quiet (abi : ABIArgGenerator) (f : FunctionCompiler) (d : Option DefId)
    (t : MIRType) (call : Call) :
    (passArg abi f d t call).1.bookkeeping = f.bookkeeping ∧
    (passArg abi f d t call).1.curBlock_ = f.curBlock_ := by
  unfold passArg
  split
  · exact ⟨rfl, rfl⟩
  · dsimp only
    split <;> exact ⟨rfl, rfl⟩

theorem finishCallArgs_quiet (abi : ABIArgGenerator) (f : FunctionCompiler) (call : Call) :
    (finishCallArgs abi f call).1.bookkeeping = f.bookkeeping ∧
    (finishCallArgs abi f call).1.curBlock_ = f.curBlock_ := by
  unfold finishCallArgs
  split
  · exact ⟨rfl, rfl⟩
  · dsimp only
    split <;> exact ⟨rfl, rfl⟩

theorem callPrivate_quiet (f : FunctionCompiler) (callee : Callee) (call : Call) :
    (f.callPrivate callee call).1.bookkeeping = f.bookkeeping ∧
    (f.callPrivate callee call).1.curBlock_ = f.curBlock_ :=
  emit_quiet f _ _

theorem funcPtrCall_quiet (f : FunctionCompiler) (m g : Nat) (index : Option DefId) (call : Call) :
    (f.funcPtrCall m g index call).1.bookkeeping = f.bookkeeping ∧
    (f.funcPtrCall m g index call).1.curBlock_ = f.curBlock_ := by
  unfold funcPtrCall
  split
  · exact ⟨rfl, rfl⟩
  · dsimp only
    obtain ⟨a1, a2⟩ := emit_quiet f (.constant .Int32 m) []
    obtain ⟨b1, b2⟩ := emit_quiet (f.emit (.constant .Int32 m) []).1 (.op 0)
      [index, (f.emit (.constant .Int32 m) []).2]
    obtain ⟨c1, c2⟩ := emit_quiet ((f.emit (.constant .Int32 m) []).1.emit (.op 0)
      [index, (f.emit (.constant .Int32 m) []).2]).1 (.loadFuncPtr g)
      [((f.emit (.constant .Int32 m) []).1.emit (.op 0) [index, (f.emit (.constant .Int32 m) []).2]).2]
    obtain ⟨d1, d2⟩ := callPrivate_quiet (((f.emit (.constant .Int32 m) []).1.emit (.op 0)
      [index, (f.emit (.constant .Int32 m) []).2]).1.emit (.loadFuncPtr g)
      [((f.emit (.constant .Int32 m) []).1.emit (.op 0) [index, (f.emit (.constant .Int32 m) []).2]).2]).1
      (.Dynamic (((f.emit (.constant .Int32 m) []).1.emit (.op 0)
      [index, (f.emit (.constant .Int32 m) []).2]).1.emit (.loadFuncPtr g)
      [((f.emit (.constant .Int32 m) []).1.emit (.op 0) [index, (f.emit (.constant .Int32 m) []).2]).2]).2)
      call
    exact ⟨d1.trans (c1.trans (b1.trans a1)), d2.trans (c2.trans (b2.trans a2))⟩

theorem ffiCall_quiet (f : FunctionCompiler) (g : Nat) (call : Call) :
    (f.ffiCall g call).1.bookkeeping = f.bookkeeping ∧
    (f.ffiCall g call).1.curBlock_ = f.curBlock_ := by
  unfold ffiCall
  split
  · exact ⟨rfl, rfl⟩
  · dsimp only
    obtain ⟨a1, a2⟩ := emit_quiet f (.loadFFIFunc g) []
    obtain ⟨d1, d2⟩ := callPrivate_quiet (f.emit (.loadFFIFunc g) []).1
      (.Dynamic (f.emit (.loadFFIFunc g) []).2) call
    exact ⟨d1.trans a1, d2.trans a2⟩

theorem emitDirectCall_quiet (kind : CallKind) (fin : FunctionCompiler × Call) :
    (emitDirectCall kind fin).1.bookkeeping = fin.1.bookkeeping ∧
    (emitDirectCall kind fin).1.curBlock_ = fin.1.curBlock_ := by
  cases kind with
  | Internal i => exact callPrivate_quiet _ _ _
  | FFI g => exact ffiCall_quiet _ _ _
  | MathBuiltin b => exact callPrivate_quiet _ _ _

theorem returnVoid_quiet (f : FunctionCompiler) :
    f.returnVoid.bookkeeping = f.bookkeeping ∧ f.returnVoid.curBlock_ = none := by
  unfold returnVoid
  split
  · rename_i h
    exact ⟨rfl, h⟩
  · exact ⟨rfl, rfl⟩

theorem returnExpr_quiet (f : FunctionCompiler) (e : Option DefId) :
    (f.returnExpr e).bookkeeping = f.bookkeeping ∧ (f.returnExpr e).curBlock_ = none := by
  unfold returnExpr
  split
  · rename_i h
    exact ⟨rfl, h⟩
  · exact ⟨rfl, rfl⟩

theorem pushPhiInput_quiet (f : FunctionCompiler) (d : Option DefId) :
    (f.pushPhiInput d).bookkeeping = f.bookkeeping ∧ (f.pushPhiInput d).curBlock_ = f.curBlock_ := by
  unfold pushPhiInput
  split <;> exact ⟨rfl, rfl⟩

theorem popPhiOutput_quiet (f : FunctionCompiler) :
    f.popPhiOutput.1.bookkeeping = f.bookkeeping ∧ f.popPhiOutput.1.curBlock_ = f.curBlock_ := by
  unfold popPhiOutput
  split <;> exact ⟨rfl, rfl⟩

theorem newBlockWithDepth_quiet (f : FunctionCompiler) (pred : Option BlockId) (d : Nat) :
    (f.newBlockWithDepth pred d).1.bookkeeping = f.bookkeeping ∧
    (f.newBlockWithDepth pred d).1.curBlock_ = f.curBlock_ := ⟨rfl, rfl⟩

theorem newBlock_quiet (f : FunctionCompiler) (pred : Option BlockId) :
    (f.newBlock pred).1.bookkeeping = f.bookkeeping ∧
    (f.newBlock pred).1.curBlock_ = f.curBlock_ := ⟨rfl, rfl⟩

theorem branchAndStartThen_quiet (f : FunctionCompiler) (cond : Option DefId)
    (tb eb : Option BlockId) :
    (f.branchAndStartThen cond tb eb).1.bookkeeping = f.bookkeeping ∧
    (f.curBlock_ = none → f.branchAndStartThen cond tb eb = (f, tb, eb)) := by
  unfold branchAndStartThen
  split
  · exact ⟨rfl, fun _ => rfl⟩
  · rename_i cur h
    refine ⟨?_, fun h' => by rw [h] at h'; cases h'⟩
    dsimp only
    cases tb <;> cases eb <;> rfl

theorem switchToElse_quiet (f : FunctionCompiler) (e : Option BlockId) :
    (f.switchToElse e).bookkeeping = f.bookkeeping ∧ (e = none → f.switchToElse e = f) := by
  cases e with
  | none => exact ⟨rfl, fun _ => rfl⟩
  | some b => exact ⟨rfl, fun h => by cases h⟩

theorem joinIf_quiet (f : FunctionCompiler) (tb : BlockVector) (j : Option BlockId) :
    (f.joinIf tb j).bookkeeping = f.bookkeeping ∧ (j = none → f.joinIf tb j = f) := by
  cases j with
  | none => exact ⟨rfl, fun _ => rfl⟩
  | some b => exact ⟨rfl, fun h => by cases h⟩

theorem joinIfElse_quiet (f : FunctionCompiler) (tb : BlockVector) :
    (f.joinIfElse tb).bookkeeping = f.bookkeeping := by
  unfold joinIfElse
  split <;> rfl

theorem appendThenBlock_dead (f : FunctionCompiler) (tb : BlockVector) (h : f.curBlock_ = none) :
    f.appendThenBlock tb = tb := by
  unfold appendThenBlock
  rw [h]

theorem setLoopBackedge_quiet (f : FunctionCompiler) (le be : BlockId) (a : Option BlockId) :
    (f.setLoopBackedge le be a).bookkeeping = f.bookkeeping ∧
    (f.setLoopBackedge le be a).curBlock_ = f.curBlock_ := ⟨rfl, rfl⟩

theorem branchAndStartLoopBody_quiet (f : FunctionCompiler) (cond : Option DefId) :
    (f.branchAndStartLoopBody cond).1.bookkeeping = f.bookkeeping ∧
    (f.curBlock_ = none → (f.branchAndStartLoopBody cond).1.curBlock_ = none) := by
  unfold branchAndStartLoopBody
  split
  · rename_i h
    exact ⟨rfl, fun _ => h⟩
  · rename_i cur h
    refine ⟨?_, fun h' => by rw [h] at h'; cases h'⟩
    dsimp only
    split <;> rfl

theorem startPendingLoop_spec (f : FunctionCompiler) (pos : Nat) :
    (f.startPendingLoop pos).1.bookkeeping =
      { f.bookkeeping with loopStack := f.loopStack_ ++ [pos],
                           breakableStack := f.breakableStack_ ++ [pos] } ∧
    (f.curBlock_ = none →
      (f.startPendingLoop pos).1.curBlock_ = none ∧ (f.startPendingLoop pos).2 = none) ∧
    ((f.startPendingLoop pos).2 = none → f.curBlock_ = none) := by
  unfold startPendingLoop
  dsimp only
  split
  · rename_i h
    exact ⟨rfl, fun _ => ⟨h, rfl⟩, fun _ => h⟩
  · rename_i cur h
    exact ⟨rfl, fun h' => (by rw [h] at h'; cases h'), fun h' => (by cases h')⟩

theorem startSwitch_spec (f : FunctionCompiler) (pos : Nat) (e : Option DefId) (low high : Int) :
    (f.startSwitch pos e low high).1.bookkeeping =
      { f.bookkeeping with breakableStack := f.breakableStack_ ++ [pos] } ∧
    (f.startSwitch pos e low high).1.curBlock_ = none ∧
    (f.curBlock_ = none → (f.startSwitch pos e low high).2 = none) ∧
    ((f.startSwitch pos e low high).2 = none → f.curBlock_ = none) := by
  unfold startSwitch
  dsimp only
  split
  · rename_i h
    exact ⟨rfl, h, fun _ => rfl, fun _ => h⟩
  · rename_i cur h
    exact ⟨rfl, rfl, fun h' => (by rw [h] at h'; cases h'), fun h' => (by cases h')⟩

theorem startSwitchCase_quiet (f : FunctionCompiler) (sb : Option BlockId) :
    (f.startSwitchCase sb).1.bookkeeping = f.bookkeeping ∧
    (sb = none → f.startSwitchCase sb = (f, none)) := by
  cases sb with
  | none => exact ⟨rfl, fun _ => rfl⟩
  | some b => exact ⟨rfl, fun h => by cases h⟩

theorem startSwitchDefault_quiet (f : FunctionCompiler) (sb : Option BlockId) :
    (f.startSwitchDefault sb).1.bookkeeping = f.bookkeeping ∧
    (sb = none → f.startSwitchDefault sb = (f, none)) := by
  cases sb with
  | none => exact ⟨rfl, fun _ => rfl⟩
  | some b => exact ⟨rfl, fun h => by cases h⟩

theorem getMap_of_bookkeeping {f f' : FunctionCompiler} (h : f'.bookkeeping = f.bookkeeping)
    (sel : MapSel) : f'.getMap sel = f.getMap sel := by
  simp only [FunctionCompiler.bookkeeping, Bookkeeping.mk.injEq] at h
  obtain ⟨-, -, -, b4, b5, b6, b7⟩ := h
  cases sel
  · exact b4
  · exact b5
  · exact b6
  · exact b7

theorem getMap_setMap_ne (f : FunctionCompiler) (sel s' : MapSel) (m : BlockMap) (h : s' ≠ sel) :
    (f.setMap sel m).getMap s' = f.getMap s' := by
  cases sel <;> cases s' <;> first | rfl | exact absurd rfl h

theorem bindStep_bookkeeping (st : FunctionCompiler × Bool) (pred : BlockId) :
    (bindBreaksOrContinuesStep st pred).1.bookkeeping = st.1.bookkeeping := by
  unfold bindBreaksOrContinuesStep
  split
  · split <;> rfl
  · dsimp only
    split <;> rfl

theorem bindBreaksOrContinues_bookkeeping (preds : BlockVector) (f : FunctionCompiler) (c : Bool) :
    (bindBreaksOrContinues f preds c).1.bookkeeping = f.bookkeeping := by
  unfold bindBreaksOrContinues
  induction preds generalizing f c with
  | nil => rfl
  | cons p ps ih =>
    simp only [List.foldl_cons]
    have h := ih (bindBreaksOrContinuesStep (f, c) p).1 (bindBreaksOrContinuesStep (f, c) p).2
    exact h.trans (bindStep_bookkeeping (f, c) p)

theorem bindUnlabeledBreaks_spec (f : FunctionCompiler) (pos : Nat) :
    (f.bindUnlabeledBreaks pos).bookkeeping =
      { f.bookkeeping with unlabeledBreaks := BlockMap.remove f.unlabeledBreaks_ pos } ∧
    (pos ∉ BlockMap.keys f.unlabeledBreaks_ → f.bindUnlabeledBreaks pos = f) := by
  unfold bindUnlabeledBreaks
  cases hl : BlockMap.lookup f.unlabeledBreaks_ pos with
  | none =>
    refine ⟨?_, fun _ => rfl⟩
    dsimp only
    rw [BlockMap.remove_of_lookup_none _ _ hl]
    rfl
  | some preds =>
    refine ⟨?_, fun h => ?_⟩
    · dsimp only
      have hb := bindBreaksOrContinues_bookkeeping preds f false
      simp only [FunctionCompiler.bookkeeping, Bookkeeping.mk.injEq] at hb ⊢
      obtain ⟨b1, b2, b3, b4, b5, b6, b7⟩ := hb
      exact ⟨b1, b2, b3, by rw [b4], b5, b6, b7⟩
    · rw [BlockMap.lookup_eq_none _ _ h] at hl
      cases hl

theorem bindLabeledStep_maps (sel : MapSel) (st : FunctionCompiler × Bool) (label : Nat) :
    (bindLabeledStep sel st label).1.getMap sel = BlockMap.remove (st.1.getMap sel) label ∧
    (∀ s', s' ≠ sel → (bindLabeledStep sel st label).1.getMap s' = st.1.getMap s') ∧
    (bindLabeledStep sel st label).1.pc_ = st.1.pc_ ∧
    (bindLabeledStep sel st label).1.loopStack_ = st.1.loopStack_ ∧
    (bindLabeledStep sel st label).1.breakableStack_ = st.1.breakableStack_ ∧
    (label ∉ BlockMap.keys (st.1.getMap sel) → bindLabeledStep sel st label = st) := by
  unfold bindLabeledStep
  cases hl : BlockMap.lookup (st.1.getMap sel) label with
  | none =>
    dsimp only
    exact ⟨(BlockMap.remove_of_lookup_none _ _ hl).symm, fun _ _ => rfl, rfl, rfl, rfl, fun _ => rfl⟩
  | some preds =>
    dsimp only
    have hb := bindBreaksOrContinues_bookkeeping preds st.1 st.2
    obtain ⟨-, -, g3, g4, g5⟩ := setMap_graph (bindBreaksOrContinues st.1 preds st.2).1 sel
      (BlockMap.remove ((bindBreaksOrContinues st.1 preds st.2).1.getMap sel) label)
    have hb' := hb
    simp only [FunctionCompiler.bookkeeping, Bookkeeping.mk.injEq] at hb'
    refine ⟨?_, ?_, g3.trans hb'.1, g4.trans hb'.2.1, g5.trans hb'.2.2.1, fun h => ?_⟩
    · rw [getMap_setMap, getMap_of_bookkeeping hb]
    · intro s' hs
      rw [getMap_setMap_ne _ _ _ _ hs, getMap_of_bookkeeping hb]
    · rw [BlockMap.lookup_eq_none _ _ h] at hl
      cases hl

theorem bindLabeled_maps (sel : MapSel) (labels : LabelVector) :
    ∀ st : FunctionCompiler × Bool,
    (∀ k, k ∈ BlockMap.keys ((labels.foldl (bindLabeledStep sel) st).1.getMap sel) ↔
      (k ∈ BlockMap.keys (st.1.getMap sel) ∧ k ∉ labels)) ∧
    (∀ s', s' ≠ sel → (labels.foldl (bindLabeledStep sel) st).1.getMap s' = st.1.getMap s') ∧
    (labels.foldl (bindLabeledStep sel) st).1.pc_ = st.1.pc_ ∧
    (labels.foldl (bindLabeledStep sel) st).1.loopStack_ = st.1.loopStack_ ∧
    (labels.foldl (bindLabeledStep sel) st).1.breakableStack_ = st.1.breakableStack_ ∧
    ((∀ x ∈ labels, x ∉ BlockMap.keys (st.1.getMap sel)) →
      labels.foldl (bindLabeledStep sel) st = st) := by
  induction labels with
  | nil =>
    intro st
    exact ⟨fun k => by simp, fun _ _ => rfl, rfl, rfl, rfl, fun _ => rfl⟩
  | cons l ls ih =>
    intro st
    simp only [List.foldl_cons]
    obtain ⟨a1, a2, a3, a4, a5, a6⟩ := bindLabeledStep_maps sel st l
    obtain ⟨b1, b2, b3, b4, b5, b6⟩ := ih (bindLabeledStep sel st l)
    refine ⟨?_, fun s' hs => (b2 s' hs).trans (a2 s' hs), b3.trans a3, b4.trans a4, b5.trans a5,
      fun h => ?_⟩
    · intro k
      rw [b1, a1, BlockMap.mem_keys_remove]
      simp only [List.mem_cons, not_or]
      tauto
    · have e := a6 (h l (List.mem_cons_self _ _))
      rw [e]
      apply (ih st).2.2.2.2.2
      exact fun x hx => h x (List.mem_cons_of_mem _ hx)

theorem bindLabeledBreaksOrContinues_maps (f : FunctionCompiler) (l : Option LabelVector)
    (sel : MapSel) (c : Bool) :
    (∀ k, k ∈ BlockMap.keys ((bindLabeledBreaksOrContinues f l sel c).1.getMap sel) ↔
      (k ∈ BlockMap.keys (f.getMap sel) ∧ k ∉ l.getD [])) ∧
    (∀ s', s' ≠ sel → (bindLabeledBreaksOrContinues f l sel c).1.getMap s' = f.getMap s') ∧
    (bindLabeledBreaksOrContinues f l sel c).1.pc_ = f.pc_ ∧
    (bindLabeledBreaksOrContinues f l sel c).1.loopStack_ = f.loopStack_ ∧
    (bindLabeledBreaksOrContinues f l sel c).1.breakableStack_ = f.breakableStack_ ∧
    ((∀ x ∈ l.getD [], x ∉ BlockMap.keys (f.getMap sel)) →
      (bindLabeledBreaksOrContinues f l sel c).1 = f) := by
  cases l with
  | none =>
    exact ⟨fun k => by simp [bindLabeledBreaksOrContinues], fun _ _ => rfl, rfl, rfl, rfl,
      fun _ => rfl⟩
  | some labels =>
    obtain ⟨b1, b2, b3, b4, b5, b6⟩ := bindLabeled_maps sel labels (f, c)
    refine ⟨b1, b2, b3, b4, b5, fun h => ?_⟩
    have e := b6 h
    simp only [bindLabeledBreaksOrContinues]
    rw [e]

theorem bindLabeledBreaks_spec (f : FunctionCompiler) (l : Option LabelVector) :
    (∀ k, k ∈ BlockMap.keys (f.bindLabeledBreaks l).labeledBreaks_ ↔
      (k ∈ BlockMap.keys f.labeledBreaks_ ∧ k ∉ l.getD [])) ∧
    (f.bindLabeledBreaks l).unlabeledBreaks_ = f.unlabeledBreaks_ ∧
    (f.bindLabeledBreaks l).unlabeledContinues_ = f.unlabeledContinues_ ∧
    (f.bindLabeledBreaks l).labeledContinues_ = f.labeledContinues_ ∧
    (f.bindLabeledBreaks l).pc_ = f.pc_ ∧
    (f.bindLabeledBreaks l).loopStack_ = f.loopStack_ ∧
    (f.bindLabeledBreaks l).breakableStack_ = f.breakableStack_ ∧
    ((∀ x ∈ l.getD [], x ∉ BlockMap.keys f.labeledBreaks_) → f.bindLabeledBreaks l = f) := by
  obtain ⟨b1, b2, b3, b4, b5, b6⟩ := bindLabeledBreaksOrContinues_maps f l .labeledBreaks false
  exact ⟨b1, b2 .unlabeledBreaks (by decide), b2 .unlabeledContinues (by decide),
    b2 .labeledContinues (by decide), b3, b4, b5, b6⟩

theorem bindContinues_spec (f : FunctionCompiler) (pos : Nat) (l : Option LabelVector) :
    (∀ k, k ∈ BlockMap.keys (f.bindContinues pos l).unlabeledContinues_ ↔
      (k ∈ BlockMap.keys f.unlabeledContinues_ ∧ k ≠ pos)) ∧
    (∀ k, k ∈ BlockMap.keys (f.bindContinues pos l).labeledContinues_ ↔
      (k ∈ BlockMap.keys f.labeledContinues_ ∧ k ∉ l.getD [])) ∧
    (f.bindContinues pos l).unlabeledBreaks_ = f.unlabeledBreaks_ ∧
    (f.bindContinues pos l).labeledBreaks_ = f.labeledBreaks_ ∧
    (f.bindContinues pos l).pc_ = f.pc_ ∧
    (f.bindContinues pos l).loopStack_ = f.loopStack_ ∧
    (f.bindContinues pos l).breakableStack_ = f.breakableStack_ ∧
    (pos ∉ BlockMap.keys f.unlabeledContinues_ →
      (∀ x ∈ l.getD [], x ∉ BlockMap.keys f.labeledContinues_) → f.bindContinues pos l = f) := by
  have key : ∀ (r : FunctionCompiler × Bool),
      r.1.bookkeeping = { f.bookkeeping with
        unlabeledContinues := BlockMap.remove f.unlabeledContinues_ pos } →
      (pos ∉ BlockMap.keys f.unlabeledContinues_ → r.1 = f) →
      (∀ k, k ∈ BlockMap.keys
          (bindLabeledBreaksOrContinues r.1 l .labeledContinues r.2).1.unlabeledContinues_ ↔
        (k ∈ BlockMap.keys f.unlabeledContinues_ ∧ k ≠ pos)) ∧
      (∀ k, k ∈ BlockMap.keys
          (bindLabeledBreaksOrContinues r.1 l .labeledContinues r.2).1.labeledContinues_ ↔
        (k ∈ BlockMap.keys f.labeledContinues_ ∧ k ∉ l.getD [])) ∧
      (bindLabeledBreaksOrContinues r.1 l .labeledContinues r.2).1.unlabeledBreaks_ =
        f.unlabeledBreaks_ ∧
      (bindLabeledBreaksOrContinues r.1 l .labeledContinues r.2).1.labeledBreaks_ =
        f.labeledBreaks_ ∧
      (bindLabeledBreaksOrContinues r.1 l .labeledContinues r.2).1.pc_ = f.pc_ ∧
      (bindLabeledBreaksOrContinues r.1 l .labeledContinues r.2).1.loopStack_ = f.loopStack_ ∧
      (bindLabeledBreaksOrContinues r.1 l .labeledContinues r.2).1.breakableStack_ =
        f.breakableStack_ ∧
      (pos ∉ BlockMap.keys f.unlabeledContinues_ →
        (∀ x ∈ l.getD [], x ∉ BlockMap.keys f.labeledContinues_) →
        (bindLabeledBreaksOrContinues r.1 l .labeledContinues r.2).1 = f) := by
    intro r hb hf
    obtain ⟨b1, b2, b3, b4, b5, b6⟩ := bindLabeledBreaksOrContinues_maps r.1 l .labeledContinues r.2
    simp only [FunctionCompiler.bookkeeping, Bookkeeping.mk.injEq] at hb
    obtain ⟨c1, c2, c3, c4, c5, c6, c7⟩ := hb
    have e5 : (bindLabeledBreaksOrContinues r.1 l .labeledContinues r.2).1.unlabeledContinues_ =
        r.1.unlabeledContinues_ := b2 .unlabeledContinues (by decide)
    have e4 : (bindLabeledBreaksOrContinues r.1 l .labeledContinues r.2).1.unlabeledBreaks_ =
        r.1.unlabeledBreaks_ := b2 .unlabeledBreaks (by decide)
    have e6 : (bindLabeledBreaksOrContinues r.1 l .labeledContinues r.2).1.labeledBreaks_ =
        r.1.labeledBreaks_ := b2 .labeledBreaks (by decide)
    refine ⟨?_, ?_, e4.trans c4, e6.trans c6, b3.trans c1, b4.trans c2, b5.trans c3, ?_⟩
    · intro k
      rw [e5, c5, BlockMap.mem_keys_remove]
    · intro k
      have h7 : k ∈ BlockMap.keys
          (bindLabeledBreaksOrContinues r.1 l .labeledContinues r.2).1.labeledContinues_ ↔
          k ∈ BlockMap.keys r.1.labeledContinues_ ∧ k ∉ l.getD [] := b1 k
      rw [c7] at h7
      exact h7
    · intro h1 h2
      have e := hf h1
      have h8 : (∀ x ∈ l.getD [], x ∉ BlockMap.keys r.1.labeledContinues_) →
          (bindLabeledBreaksOrContinues r.1 l .labeledContinues r.2).1 = r.1 := b6
      rw [c7] at h8
      exact (h8 h2).trans e
  unfold bindContinues
  cases hl : BlockMap.lookup f.unlabeledContinues_ pos with
  | none =>
    apply key (f, false)
    · dsimp only
      rw [BlockMap.remove_of_lookup_none _ _ hl]
      rfl
    · exact fun _ => rfl
  | some preds =>
    apply key
    · dsimp only
      have hb := bindBreaksOrContinues_bookkeeping preds f false
      simp only [FunctionCompiler.bookkeeping, Bookkeeping.mk.injEq] at hb ⊢
      obtain ⟨b1, b2, b3, b4, b5, b6, b7⟩ := hb
      exact ⟨b1, b2, b3, b4, by rw [b5], b6, b7⟩
    · intro h
      rw [BlockMap.lookup_eq_none _ _ h] at hl
      cases hl

theorem bub_pc (f : FunctionCompiler) (pos : Nat) :
    (f.bindUnlabeledBreaks pos).pc_ = f.pc_ :=
  congrArg Bookkeeping.pc (bindUnlabeledBreaks_spec f pos).1

theorem bub_loopStack (f : FunctionCompiler) (pos : Nat) :
    (f.bindUnlabeledBreaks pos).loopStack_ = f.loopStack_ :=
  congrArg Bookkeeping.loopStack (bindUnlabeledBreaks_spec f pos).1

theorem bub_breakableStack (f : FunctionCompiler) (pos : Nat) :
    (f.bindUnlabeledBreaks pos).breakableStack_ = f.breakableStack_ :=
  congrArg Bookkeeping.breakableStack (bindUnlabeledBreaks_spec f pos).1

theorem bub_unlabeledBreaks (f : FunctionCompiler) (pos : Nat) :
    (f.bindUnlabeledBreaks pos).unlabeledBreaks_ = BlockMap.remove f.unlabeledBreaks_ pos :=
  congrArg Bookkeeping.unlabeledBreaks (bindUnlabeledBreaks_spec f pos).1

theorem bub_unlabeledContinues (f : FunctionCompiler) (pos : Nat) :
    (f.bindUnlabeledBreaks pos).unlabeledContinues_ = f.unlabeledContinues_ :=
  congrArg Bookkeeping.unlabeledContinues (bindUnlabeledBreaks_spec f pos).1

theorem bub_labeledBreaks (f : FunctionCompiler) (pos : Nat) :
    (f.bindUnlabeledBreaks pos).labeledBreaks_ = f.labeledBreaks_ :=
  congrArg Bookkeeping.labeledBreaks (bindUnlabeledBreaks_spec f pos).1

theorem bub_labeledContinues (f : FunctionCompiler) (pos : Nat) :
    (f.bindUnlabeledBreaks pos).labeledContinues_ = f.labeledContinues_ :=
  congrArg Bookkeeping.labeledContinues (bindUnlabeledBreaks_spec f pos).1

theorem closeLoop_spec (f f' : FunctionCompiler) (le al : Option BlockId)
    (h : f.closeLoop le al = some f') :
    ∃ pos, f.loopStack_.getLast? = some pos ∧
      f'.pc_ = f.pc_ ∧ f'.loopStack_ = f.loopStack_.dropLast ∧
      f'.breakableStack_ = f.breakableStack_.dropLast ∧
      f'.unlabeledContinues_ = f.unlabeledContinues_ ∧ f'.labeledBreaks_ = f.labeledBreaks_ ∧
      f'.labeledContinues_ = f.labeledContinues_ ∧
      (le = none → f'.unlabeledBreaks_ = f.unlabeledBreaks_ ∧ f'.curBlock_ = f.curBlock_) ∧
      (le ≠ none → f'.unlabeledBreaks_ = BlockMap.remove f.unlabeledBreaks_ pos) := by
  unfold closeLoop popLoop at h
  cases hp : f.loopStack_.getLast? with
  | none => rw [hp] at h; cases h
  | some pos =>
    rw [hp] at h
    refine ⟨pos, rfl, ?_⟩
    cases le with
    | none =>
      simp only [Option.some.injEq] at h
      subst h
      exact ⟨rfl, rfl, rfl, rfl, rfl, rfl, fun _ => ⟨rfl, rfl⟩, fun h => absurd rfl h⟩
    | some l =>
      simp only [Option.some.injEq] at h
      subst h
      simp only [bub_pc, bub_loopStack, bub_breakableStack, bub_unlabeledBreaks,
        bub_unlabeledContinues, bub_labeledBreaks, bub_labeledContinues]
      refine ⟨?_, ?_, ?_, ?_, ?_, ?_, fun h => (by cases h), fun _ => ?_⟩ <;>
        cases al <;> dsimp only <;> split <;> rfl

theorem doWhileClose_spec (f f' : FunctionCompiler) (cond : Option DefId) (le : Option BlockId)
    (h : f.branchAndCloseDoWhileLoop cond le = some f') :
    ∃ pos, f.loopStack_.getLast? = some pos ∧
      f'.pc_ = f.pc_ ∧ f'.loopStack_ = f.loopStack_.dropLast ∧
      f'.breakableStack_ = f.breakableStack_.dropLast ∧
      f'.unlabeledContinues_ = f.unlabeledContinues_ ∧ f'.labeledBreaks_ = f.labeledBreaks_ ∧
      f'.labeledContinues_ = f.labeledContinues_ ∧
      (le = none → f'.unlabeledBreaks_ = f.unlabeledBreaks_ ∧ f'.curBlock_ = f.curBlock_) ∧
      (le ≠ none → f'.unlabeledBreaks_ = BlockMap.remove f.unlabeledBreaks_ pos) := by
  unfold branchAndCloseDoWhileLoop popLoop at h
  cases hp : f.loopStack_.getLast? with
  | none => rw [hp] at h; cases h
  | some pos =>
    rw [hp] at h
    refine ⟨pos, rfl, ?_⟩
    cases le with
    | none =>
      simp only [Option.some.injEq] at h
      subst h
      exact ⟨rfl, rfl, rfl, rfl, rfl, rfl, fun _ => ⟨rfl, rfl⟩, fun h => absurd rfl h⟩
    | some l =>
      simp only [Option.some.injEq] at h
      subst h
      simp only [bub_pc, bub_loopStack, bub_breakableStack, bub_unlabeledBreaks,
        bub_unlabeledContinues, bub_labeledBreaks, bub_labeledContinues]
      refine ⟨?_, ?_, ?_, ?_, ?_, ?_, fun h => (by cases h), fun _ => ?_⟩ <;>
        (try dsimp only) <;> split <;> (try split) <;> (try split) <;> rfl

theorem joinSwitch_spec (f f' : FunctionCompiler) (sb : Option BlockId)
    (cases : List (Option BlockId)) (d : Option BlockId)
    (h : f.joinSwitch sb cases d = some f') :
    ∃ pos, f.breakableStack_.getLast? = some pos ∧
      f'.pc_ = f.pc_ ∧ f'.loopStack_ = f.loopStack_ ∧
      f'.breakableStack_ = f.breakableStack_.dropLast ∧
      f'.unlabeledContinues_ = f.unlabeledContinues_ ∧ f'.labeledBreaks_ = f.labeledBreaks_ ∧
      f'.labeledContinues_ = f.labeledContinues_ ∧
      (sb = none → f'.unlabeledBreaks_ = f.unlabeledBreaks_ ∧ f'.curBlock_ = f.curBlock_) ∧
      (sb ≠ none → f'.unlabeledBreaks_ = BlockMap.remove f.unlabeledBreaks_ pos) := by
  unfold joinSwitch at h
  cases hp : f.breakableStack_.getLast? with
  | none => rw [hp] at h; cases h
  | some pos =>
    rw [hp] at h
    refine ⟨pos, rfl, ?_⟩
    cases sb with
    | none =>
      simp only [Option.some.injEq] at h
      subst h
      exact ⟨rfl, rfl, rfl, rfl, rfl, rfl, fun _ => ⟨rfl, rfl⟩, fun h => absurd rfl h⟩
    | some l =>
      simp only [Option.some.injEq] at h
      subst h
      simp only [bub_pc, bub_loopStack, bub_breakableStack, bub_unlabeledBreaks,
        bub_unlabeledContinues, bub_labeledBreaks, bub_labeledContinues]
      refine ⟨?_, ?_, ?_, ?_, ?_, ?_, fun h => (by cases h), fun _ => ?_⟩ <;>
        (try dsimp only) <;> split <;> rfl

theorem addBreakOrContinue_spec (f : FunctionCompiler) (key : Nat) (sel : MapSel) :
    (f.addBreakOrContinue key sel).pc_ = f.pc_ ∧
    (f.addBreakOrContinue key sel).loopStack_ = f.loopStack_ ∧
    (f.addBreakOrContinue key sel).breakableStack_ = f.breakableStack_ ∧
    (f.addBreakOrContinue key sel).curBlock_ = none ∧
    (f.curBlock_ = none → f.addBreakOrContinue key sel = f) ∧
    (∀ k ∈ BlockMap.keys ((f.addBreakOrContinue key sel).getMap sel),
      k ∈ BlockMap.keys (f.getMap sel) ∨ k = key) ∧
    (∀ s', s' ≠ sel → (f.addBreakOrContinue key sel).getMap s' = f.getMap s') := by
  unfold addBreakOrContinue
  cases hc : f.curBlock_ with
  | none => exact ⟨rfl, rfl, rfl, hc, fun _ => rfl, fun k hk => Or.inl hk, fun _ _ => rfl⟩
  | some cur =>
    dsimp only
    obtain ⟨-, -, g3, g4, g5⟩ := setMap_graph f sel (BlockMap.append (f.getMap sel) key cur)
    refine ⟨g3, g4, g5, rfl, fun h => (by cases h), ?_, ?_⟩
    · intro k hk
      have e : ({ f.setMap sel (BlockMap.append (f.getMap sel) key cur) with
          curBlock_ := none } : FunctionCompiler).getMap sel =
          BlockMap.append (f.getMap sel) key cur := by
        cases sel <;> rfl
      rw [e] at hk
      exact (BlockMap.mem_keys_append _ _ _ _).1 hk
    · intro s' hs
      have e : ({ f.setMap sel (BlockMap.append (f.getMap sel) key cur) with
          curBlock_ := none } : FunctionCompiler).getMap s' =
          (f.setMap sel (BlockMap.append (f.getMap sel) key cur)).getMap s' := by
        cases sel <;> cases s' <;> rfl
      rw [e]
      exact getMap_setMap_ne _ _ _ _ hs

theorem keys_cast {f f' : FunctionCompiler} {s : MapSel} {k : Nat}
    (e : f'.getMap s = f.getMap s) (hk : k ∈ BlockMap.keys (f'.getMap s)) :
    k ∈ BlockMap.keys (f.getMap s) := e ▸ hk

theorem step_addBreakOrContinue (c : Ctx) (f : FunctionCompiler) (key : Nat) (sel : MapSel)
    (h : match sel with
      | .unlabeledBreaks => c.inBreakable = true ∧ f.breakableStack_.getLast? = some key
      | .unlabeledContinues => c.inLoop = true ∧ f.loopStack_.getLast? = some key
      | .labeledBreaks => key ∈ c.brkLabels
      | .labeledContinues => key ∈ c.contLabels) :
    Step c f (f.addBreakOrContinue key sel) 0 := by
  obtain ⟨a1, a2, a3, a4, a5, a6, a7⟩ := addBreakOrContinue_spec f key sel
  refine ⟨⟨a1, a2, a3, ?_, ?_, ?_, ?_⟩, fun hd => ?_⟩
  · intro k hk
    cases sel with
    | unlabeledBreaks =>
      rcases a6 k hk with h' | h'
      · exact Or.inl h'
      · rw [h']
        exact Or.inr h
    | unlabeledContinues => exact Or.inl (keys_cast (a7 .unlabeledBreaks (by decide)) hk)
    | labeledBreaks => exact Or.inl (keys_cast (a7 .unlabeledBreaks (by decide)) hk)
    | labeledContinues => exact Or.inl (keys_cast (a7 .unlabeledBreaks (by decide)) hk)
  · intro k hk
    cases sel with
    | unlabeledContinues =>
      rcases a6 k hk with h' | h'
      · exact Or.inl h'
      · rw [h']
        exact Or.inr h
    | unlabeledBreaks => exact Or.inl (keys_cast (a7 .unlabeledContinues (by decide)) hk)
    | labeledBreaks => exact Or.inl (keys_cast (a7 .unlabeledContinues (by decide)) hk)
    | labeledContinues => exact Or.inl (keys_cast (a7 .unlabeledContinues (by decide)) hk)
  · intro k hk
    cases sel with
    | labeledBreaks =>
      rcases a6 k hk with h' | h'
      · exact Or.inl h'
      · rw [h']
        exact Or.inr h
    | unlabeledBreaks => exact Or.inl (keys_cast (a7 .labeledBreaks (by decide)) hk)
    | unlabeledContinues => exact Or.inl (keys_cast (a7 .labeledBreaks (by decide)) hk)
    | labeledContinues => exact Or.inl (keys_cast (a7 .labeledBreaks (by decide)) hk)
  · intro k hk
    cases sel with
    | labeledContinues =>
      rcases a6 k hk with h' | h'
      · exact Or.inl h'
      · rw [h']
        exact Or.inr h
    | unlabeledBreaks => exact Or.inl (keys_cast (a7 .labeledContinues (by decide)) hk)
    | unlabeledContinues => exact Or.inl (keys_cast (a7 .labeledContinues (by decide)) hk)
    | labeledBreaks => exact Or.inl (keys_cast (a7 .labeledContinues (by decide)) hk)
  · rw [a5 hd]
    exact ⟨hd, rfl⟩



/-! ### The decoder functions on the bookkeeping -/

theorem step_quiet2 (c : Ctx) {f g : FunctionCompiler}
    (h : g.bookkeeping = f.bookkeeping ∧ g.curBlock_ = f.curBlock_) : Step c f g 0 :=
  step_quiet c f g h.1 (fun hd => h.2.trans hd)

theorem step_dead (c : Ctx) {f g : FunctionCompiler}
    (h : g.bookkeeping = f.bookkeeping ∧ g.curBlock_ = none) : Step c f g 0 :=
  step_quiet c f g h.1 (fun _ => h.2)

theorem maps_bk {f g : FunctionCompiler} (h : g.bookkeeping = f.bookkeeping) : g.maps = f.maps := by
  simp only [FunctionCompiler.bookkeeping, Bookkeeping.mk.injEq] at h
  obtain ⟨-, -, -, b4, b5, b6, b7⟩ := h
  simp only [FunctionCompiler.maps, b4, b5, b6, b7]

theorem inv_bk {c : Ctx} {f g : FunctionCompiler} (hi : Inv c f)
    (h : g.bookkeeping = f.bookkeeping) : Inv c g :=
  inv_moves hi (moves_quiet c f g h)

theorem step_of_inner {c : Ctx} {f f' : FunctionCompiler} {n : Nat} (h : Step c.inner f f' n) :
    Step c f f' n :=
  step_weaken h (fun h => h) (fun h => h) (fun _ h => h) (fun _ h => h)

theorem moves_of_noJump {c : Ctx} {f f' : FunctionCompiler} {n : Nat}
    (h : Moves c.noJump f f' n) : Moves c f f' n :=
  moves_weaken h (fun h => by cases h) (fun h => by cases h)
    (fun _ h => absurd h (List.not_mem_nil _)) (fun _ h => absurd h (List.not_mem_nil _))

theorem inv_moves_of {c c' : Ctx} {f f' : FunctionCompiler} {n : Nat} (hi : Inv c f)
    (h : Moves c' f f' n) (h3 : ∀ x ∈ c'.brkLabels, x ∈ c.brkLabels)
    (h4 : ∀ x ∈ c'.contLabels, x ∈ c.contLabels) : Inv c f' := by
  obtain ⟨ok, i1, i2, i3, i4, i5, i6⟩ := hi
  obtain ⟨a1, a2, a3, a4, a5, a6, a7⟩ := h
  refine ⟨ok, ?_, ?_, ?_, ?_, ?_, ?_⟩
  · intro k hk
    rw [a3]
    rcases a4 k hk with h | h
    · exact i1 k h
    · exact List.mem_of_getLast?_eq_some h.2
  · intro k hk
    rw [a2]
    rcases a5 k hk with h | h
    · exact i2 k h
    · exact List.mem_of_getLast?_eq_some h.2
  · intro x hx
    rw [a3] at hx
    rw [a1]
    exact Nat.le_trans (i3 x hx) (Nat.le_add_right _ _)
  · intro x hx
    rw [a2] at hx
    rw [a1]
    exact Nat.le_trans (i4 x hx) (Nat.le_add_right _ _)
  · intro k hk
    rcases a6 k hk with h | h
    · exact i5 k h
    · exact ok.1 k (h3 k h)
  · intro k hk
    rcases a7 k hk with h | h
    · exact i6 k h
    · exact ⟨ok.2.1 k (h4 k h), fun hp => ok.2.2.2 k hp (h4 k h)⟩

theorem inv_push {c : Ctx} {f g : FunctionCompiler} (hi : Inv c f) (pos : Nat)
    (hpc : g.pc_ = f.pc_) (hmaps : g.maps = f.maps)
    (hloop : g.loopStack_ = f.loopStack_ ∨ g.loopStack_ = f.loopStack_ ++ [pos])
    (hbrk : g.breakableStack_ = f.breakableStack_ ++ [pos]) (hpos : pos ≤ f.pc_) : Inv c g := by
  obtain ⟨ok, i1, i2, i3, i4, i5, i6⟩ := hi
  simp only [FunctionCompiler.maps, Prod.mk.injEq] at hmaps
  obtain ⟨m1, m2, m3, m4⟩ := hmaps
  refine ⟨ok, ?_, ?_, ?_, ?_, ?_, ?_⟩
  · rw [m1, hbrk]
    exact fun k hk => List.mem_append_left _ (i1 k hk)
  · rw [m2]
    rcases hloop with h | h
    · rw [h]; exact i2
    · rw [h]; exact fun k hk => List.mem_append_left _ (i2 k hk)
  · rw [hbrk, hpc]
    intro x hx
    rcases List.mem_append.1 hx with h | h
    · exact i3 x h
    · rw [List.mem_singleton.1 h]; exact hpos
  · rw [hpc]
    rcases hloop with h | h
    · rw [h]; exact i4
    · rw [h]
      intro x hx
      rcases List.mem_append.1 hx with h | h
      · exact i4 x h
      · rw [List.mem_singleton.1 h]; exact hpos
  · rw [m3]; exact i5
  · rw [m4]; exact i6

theorem map_append_nil (l : Option LabelVector) : l.map (fun v => v ++ []) = l := by
  cases l <;> simp

theorem switchIsEmpty_true (cases : Cases) (dflt : OptStmt) (h : switchIsEmpty cases dflt = true) :
    cases = .nil ∧ dflt = .absent := by
  cases cases <;> cases dflt <;> first | exact ⟨rfl, rfl⟩ | cases h

theorem bindContinues_moves (c : Ctx) (lp1 s : FunctionCompiler) (pos n : Nat)
    (l : Option LabelVector) (hm : Moves c.loopBody lp1 s n) (hl : l.getD [] = c.pending)
    (hlast : lp1.loopStack_.getLast? = some pos) :
    Moves c.loopTail lp1 (s.bindContinues pos l) n := by
  obtain ⟨a1, a2, a3, a4, a5, a6, a7⟩ := hm
  obtain ⟨b1, b2, b3, b4, b5, b6, b7, -⟩ := bindContinues_spec s pos l
  refine ⟨b5.trans a1, b6.trans a2, b7.trans a3, ?_, ?_, ?_, ?_⟩
  · rw [b3]
    intro k hk
    rcases a4 k hk with h | h
    · exact Or.inl h
    · exact Or.inr ⟨rfl, h.2⟩
  · intro k hk
    obtain ⟨hk1, hk2⟩ := (b1 k).1 hk
    rcases a5 k hk1 with h | h
    · exact Or.inl h
    · rw [hlast] at h
      exact absurd (Option.some.inj h.2).symm hk2
  · rw [b4]
    exact a6
  · intro k hk
    obtain ⟨hk1, hk2⟩ := (b2 k).1 hk
    rcases a7 k hk1 with h | h
    · exact Or.inl h
    · rcases List.mem_append.1 h with h' | h'
      · rw [hl] at hk2
        exact absurd h' hk2
      · exact Or.inr h'

theorem loop_close_moves (c : Ctx) (f0 lp1 g f' : FunctionCompiler) (pos n : Nat)
    (le : Option BlockId)
    (hpc : lp1.pc_ = f0.pc_) (hmaps : lp1.maps = f0.maps)
    (hloop : lp1.loopStack_ = f0.loopStack_ ++ [pos])
    (hbrk : lp1.breakableStack_ = f0.breakableStack_ ++ [pos])
    (hm : Moves c.loopTail lp1 g n)
    (hclose : ∃ pos', g.loopStack_.getLast? = some pos' ∧
      f'.pc_ = g.pc_ ∧ f'.loopStack_ = g.loopStack_.dropLast ∧
      f'.breakableStack_ = g.breakableStack_.dropLast ∧
      f'.unlabeledContinues_ = g.unlabeledContinues_ ∧ f'.labeledBreaks_ = g.labeledBreaks_ ∧
      f'.labeledContinues_ = g.labeledContinues_ ∧
      (le = none → f'.unlabeledBreaks_ = g.unlabeledBreaks_ ∧ f'.curBlock_ = g.curBlock_) ∧
      (le ≠ none → f'.unlabeledBreaks_ = BlockMap.remove g.unlabeledBreaks_ pos'))
    (hdead : le = none → g.maps = f0.maps) :
    Moves c f0 f' n := by
  obtain ⟨a1, a2, a3, a4, a5, a6, a7⟩ := hm
  obtain ⟨pos', c0, c1, c2, c3, c4, c5, c6, c7, c8⟩ := hclose
  simp only [FunctionCompiler.maps, Prod.mk.injEq] at hmaps
  obtain ⟨m1, m2, m3, m4⟩ := hmaps
  have hpos : pos' = pos := by
    rw [a2, hloop, List.getLast?_concat] at c0
    exact (Option.some.inj c0).symm
  refine ⟨?_, ?_, ?_, ?_, ?_, ?_, ?_⟩
  · rw [c1, a1, hpc]
  · rw [c2, a2, hloop, List.dropLast_concat]
  · rw [c3, a3, hbrk, List.dropLast_concat]
  · intro k hk
    cases hle : le with
    | none =>
      have hg := hdead hle
      simp only [FunctionCompiler.maps, Prod.mk.injEq] at hg
      rw [(c7 hle).1, hg.1] at hk
      exact Or.inl hk
    | some b =>
      rw [c8 (by rw [hle]; exact fun h => by cases h), BlockMap.mem_keys_remove] at hk
      rcases a4 k hk.1 with h | h
      · rw [m1] at h
        exact Or.inl h
      · rw [hbrk, List.getLast?_concat] at h
        exact absurd ((Option.some.inj h.2).symm.trans hpos.symm) hk.2
  · intro k hk
    rw [c4] at hk
    rcases a5 k hk with h | h
    · rw [m2] at h
      exact Or.inl h
    · exact absurd h.1 Bool.false_ne_true
  · intro k hk
    rw [c5] at hk
    rcases a6 k hk with h | h
    · rw [m3] at h
      exact Or.inl h
    · exact Or.inr h
  · intro k hk
    rw [c6] at hk
    rcases a7 k hk with h | h
    · rw [m4] at h
      exact Or.inl h
    · exact Or.inr h



theorem fresh_pos {c : Ctx} {f : FunctionCompiler} (hi : Inv c f) (pos : Nat) (h : f.pc_ < pos) :
    pos ∉ f.loopStack_ ∧ pos ∉ f.breakableStack_ :=
  ⟨fun hm => Nat.lt_irrefl _ (Nat.lt_of_lt_of_le h (hi.2.2.2.2.1 pos hm)),
    fun hm => Nat.lt_irrefl _ (Nat.lt_of_lt_of_le h (hi.2.2.2.1 pos hm))⟩

theorem labelsOk_getD {l : Option LabelVector} {c : Ctx} {s : Stmt} (hl : LabelsOk l c s)
    (hs : s.chainLabels = []) : l.getD [] = c.pending := by
  cases l with
  | none => exact hl.symm
  | some labels =>
    have h := hl.1
    rw [hs, List.append_nil] at h
    exact h

theorem startPendingLoop_fields (f : FunctionCompiler) (pos : Nat) :
    (f.startPendingLoop pos).1.pc_ = f.pc_ ∧ (f.startPendingLoop pos).1.maps = f.maps ∧
    (f.startPendingLoop pos).1.loopStack_ = f.loopStack_ ++ [pos] ∧
    (f.startPendingLoop pos).1.breakableStack_ = f.breakableStack_ ++ [pos] := by
  have lb := (startPendingLoop_spec f pos).1
  simp only [FunctionCompiler.bookkeeping, Bookkeeping.mk.injEq] at lb
  obtain ⟨b1, b2, b3, b4, b5, b6, b7⟩ := lb
  exact ⟨b1, by simp only [FunctionCompiler.maps, b4, b5, b6, b7], b2, b3⟩

theorem inv_startPendingLoop {c : Ctx} {f : FunctionCompiler} (hi : Inv c f) (pos : Nat)
    (hpos : pos ≤ f.pc_) : Inv c (f.startPendingLoop pos).1 := by
  obtain ⟨b1, b2, b3, b4⟩ := startPendingLoop_fields f pos
  exact inv_push hi pos b1 b2 (Or.inr b3) b4 hpos

theorem loop_mid (c : Ctx) (f0 s : FunctionCompiler) (pos n1 : Nat) (l : Option LabelVector)
    (hi : Inv c f0) (hpos : pos ≤ f0.pc_) (hfresh : pos ∉ f0.loopStack_)
    (hlab : l.getD [] = c.pending)
    (hmid : Step c.loopBody (f0.startPendingLoop pos).1 s n1) :
    Inv c (s.bindContinues pos l) ∧
    Moves c.loopTail (f0.startPendingLoop pos).1 (s.bindContinues pos l) n1 ∧
    StaysDead (f0.startPendingLoop pos).1 (s.bindContinues pos l) := by
  obtain ⟨b1, b2, b3, b4⟩ := startPendingLoop_fields f0 pos
  have hlast : (f0.startPendingLoop pos).1.loopStack_.getLast? = some pos := by
    rw [b3, List.getLast?_concat]
  have mT := bindContinues_moves c _ s pos n1 l hmid.1 hlab hlast
  refine ⟨inv_moves_of (inv_startPendingLoop hi pos hpos) mT (fun _ h => h) (fun _ h => h), mT, ?_⟩
  intro hd
  obtain ⟨d1, e1⟩ := hmid.2 hd
  have e2 := e1.trans b2
  simp only [FunctionCompiler.maps, Prod.mk.injEq] at e2
  have hno : s.bindContinues pos l = s := by
    apply (bindContinues_spec s pos l).2.2.2.2.2.2.2
    · rw [e2.2.1]
      exact fun hk => hfresh (hi.2.2.1 pos hk)
    · intro x hx
      rw [e2.2.2.2]
      rw [hlab] at hx
      exact fun hk => (hi.2.2.2.2.2.2 x hk).2 hx
  rw [hno]
  exact ⟨d1, e1⟩

theorem loop_step (c : Ctx) (f0 s g f' : FunctionCompiler) (pos n1 n2 : Nat)
    (l : Option LabelVector)
    (hi : Inv c f0) (hpos : pos ≤ f0.pc_) (hfresh : pos ∉ f0.loopStack_)
    (hlab : l.getD [] = c.pending)
    (hmid : Step c.loopBody (f0.startPendingLoop pos).1 s n1)
    (htail : Step c.noJump (s.bindContinues pos l) g n2)
    (hclose : ∃ pos', g.loopStack_.getLast? = some pos' ∧
      f'.pc_ = g.pc_ ∧ f'.loopStack_ = g.loopStack_.dropLast ∧
      f'.breakableStack_ = g.breakableStack_.dropLast ∧
      f'.unlabeledContinues_ = g.unlabeledContinues_ ∧ f'.labeledBreaks_ = g.labeledBreaks_ ∧
      f'.labeledContinues_ = g.labeledContinues_ ∧
      ((f0.startPendingLoop pos).2 = none →
        f'.unlabeledBreaks_ = g.unlabeledBreaks_ ∧ f'.curBlock_ = g.curBlock_) ∧
      ((f0.startPendingLoop pos).2 ≠ none →
        f'.unlabeledBreaks_ = BlockMap.remove g.unlabeledBreaks_ pos')) :
    Step c f0 f' (n1 + n2) := by
  obtain ⟨b1, b2, b3, b4⟩ := startPendingLoop_fields f0 pos
  obtain ⟨-, mT, sd⟩ := loop_mid c f0 s pos n1 l hi hpos hfresh hlab hmid
  obtain ⟨-, ld, ln⟩ := startPendingLoop_spec f0 pos
  have hm : Moves c.loopTail (f0.startPendingLoop pos).1 g (n1 + n2) :=
    moves_trans mT (moves_weaken htail.1 (fun h => by cases h) (fun h => by cases h)
      (fun _ h => absurd h (List.not_mem_nil _)) (fun _ h => absurd h (List.not_mem_nil _)))
  have hdead : f0.curBlock_ = none → g.curBlock_ = none ∧ g.maps = f0.maps := by
    intro hd
    obtain ⟨d1, e1⟩ := sd (ld hd).1
    obtain ⟨d2, e2⟩ := htail.2 d1
    exact ⟨d2, e2.trans (e1.trans b2)⟩
  refine ⟨loop_close_moves c f0 _ g f' pos (n1 + n2) _ b1 b2 b3 b4 hm hclose
    (fun hle => (hdead (ln hle)).2), ?_⟩
  intro hd
  obtain ⟨d2, e2⟩ := hdead hd
  obtain ⟨pos', -, -, -, -, c4, c5, c6, c7, -⟩ := hclose
  obtain ⟨u1, u2⟩ := c7 (ld hd).2
  refine ⟨u2.trans d2, ?_⟩
  rw [← e2]
  simp only [FunctionCompiler.maps, u1, c4, c5, c6]

theorem startSwitch_fields (f : FunctionCompiler) (pos : Nat) (e : Option DefId) (low high : Int) :
    (f.startSwitch pos e low high).1.pc_ = f.pc_ ∧
    (f.startSwitch pos e low high).1.maps = f.maps ∧
    (f.startSwitch pos e low high).1.loopStack_ = f.loopStack_ ∧
    (f.startSwitch pos e low high).1.breakableStack_ = f.breakableStack_ ++ [pos] := by
  have lb := (startSwitch_spec f pos e low high).1
  simp only [FunctionCompiler.bookkeeping, Bookkeeping.mk.injEq] at lb
  obtain ⟨b1, b2, b3, b4, b5, b6, b7⟩ := lb
  exact ⟨b1, by simp only [FunctionCompiler.maps, b4, b5, b6, b7], b2, b3⟩

theorem switch_step (c : Ctx) (f0 g f' : FunctionCompiler) (pos n : Nat) (e : Option DefId)
    (low high : Int)
    (hm : Moves c.switchBody (f0.startSwitch pos e low high).1 g n)
    (hsd : (f0.startSwitch pos e low high).2 = none →
      StaysDead (f0.startSwitch pos e low high).1 g)
    (hclose : ∃ pos', g.breakableStack_.getLast? = some pos' ∧
      f'.pc_ = g.pc_ ∧ f'.loopStack_ = g.loopStack_ ∧
      f'.breakableStack_ = g.breakableStack_.dropLast ∧
      f'.unlabeledContinues_ = g.unlabeledContinues_ ∧ f'.labeledBreaks_ = g.labeledBreaks_ ∧
      f'.labeledContinues_ = g.labeledContinues_ ∧
      ((f0.startSwitch pos e low high).2 = none →
        f'.unlabeledBreaks_ = g.unlabeledBreaks_ ∧ f'.curBlock_ = g.curBlock_) ∧
      ((f0.startSwitch pos e low high).2 ≠ none →
        f'.unlabeledBreaks_ = BlockMap.remove g.unlabeledBreaks_ pos')) :
    Step c f0 f' n := by
  obtain ⟨b1, b2, b3, b4⟩ := startSwitch_fields f0 pos e low high
  obtain ⟨-, sdead, sn, sc⟩ := startSwitch_spec f0 pos e low high
  obtain ⟨a1, a2, a3, a4, a5, a6, a7⟩ := hm
  obtain ⟨pos', c0, c1, c2, c3, c4, c5, c6, c7, c8⟩ := hclose
  have hmaps := b2
  simp only [FunctionCompiler.maps, Prod.mk.injEq] at hmaps
  obtain ⟨m1, m2, m3, m4⟩ := hmaps
  have hpos : pos' = pos := by
    rw [a3, b4, List.getLast?_concat] at c0
    exact (Option.some.inj c0).symm
  have hdead : (f0.startSwitch pos e low high).2 = none → g.curBlock_ = none ∧ g.maps = f0.maps := by
    intro hn
    obtain ⟨d1, e1⟩ := hsd hn sdead
    exact ⟨d1, e1.trans b2⟩
  refine ⟨⟨?_, ?_, ?_, ?_, ?_, ?_, ?_⟩, ?_⟩
  · rw [c1, a1, b1]
  · rw [c2, a2, b3]
  · rw [c3, a3, b4, List.dropLast_concat]
  · intro k hk
    cases hle : (f0.startSwitch pos e low high).2 with
    | none =>
      have hg := (hdead hle).2
      simp only [FunctionCompiler.maps, Prod.mk.injEq] at hg
      rw [(c7 hle).1, hg.1] at hk
      exact Or.inl hk
    | some b =>
      rw [c8 (by rw [hle]; exact fun h => by cases h), BlockMap.mem_keys_remove] at hk
      rcases a4 k hk.1 with h | h
      · rw [m1] at h
        exact Or.inl h
      · rw [b4, List.getLast?_concat] at h
        exact absurd ((Option.some.inj h.2).symm.trans hpos.symm) hk.2
  · intro k hk
    rw [c4] at hk
    rcases a5 k hk with h | h
    · rw [m2] at h
      exact Or.inl h
    · rw [b3] at h
      exact Or.inr h
  · intro k hk
    rw [c5] at hk
    rcases a6 k hk with h | h
    · rw [m3] at h
      exact Or.inl h
    · exact Or.inr h
  · intro k hk
    rw [c6] at hk
    rcases a7 k hk with h | h
    · rw [m4] at h
      exact Or.inl h
    · exact Or.inr h
  · intro hd
    obtain ⟨d2, e2⟩ := hdead (sn hd)
    obtain ⟨u1, u2⟩ := c7 (sn hd)
    refine ⟨u2.trans d2, ?_⟩
    rw [← e2]
    simp only [FunctionCompiler.maps, u1, c4, c5, c6]

theorem inv_startSwitch {c : Ctx} {f : FunctionCompiler} (hi : Inv c f) (pos : Nat)
    (e : Option DefId) (low high : Int) (hpos : pos ≤ f.pc_) :
    Inv c (f.startSwitch pos e low high).1 := by
  obtain ⟨b1, b2, b3, b4⟩ := startSwitch_fields f pos e low high
  exact inv_push hi pos b1 b2 (Or.inl b3) b4 hpos

theorem addContinue_none (f f' : FunctionCompiler) (h : f.addContinue none = some f') :
    ∃ pos, f.loopStack_.getLast? = some pos ∧ f' = f.addBreakOrContinue pos .unlabeledContinues := by
  unfold addContinue at h
  dsimp only at h
  cases hp : f.loopStack_.getLast? with
  | none => rw [hp] at h; cases h
  | some pos =>
    rw [hp] at h
    exact ⟨pos, rfl, (Option.some.inj h).symm⟩

theorem addBreak_none (f f' : FunctionCompiler) (h : f.addBreak none = some f') :
    ∃ pos, f.breakableStack_.getLast? = some pos ∧
      f' = f.addBreakOrContinue pos .unlabeledBreaks := by
  unfold addBreak at h
  dsimp only at h
  cases hp : f.breakableStack_.getLast? with
  | none => rw [hp] at h; cases h
  | some pos =>
    rw [hp] at h
    exact ⟨pos, rfl, (Option.some.inj h).symm⟩

theorem label_close (c : Ctx) (f0 g : FunctionCompiler) (chain : List Nat) (n : Nat)
    (hi : Inv c f0) (hfresh : ∀ x ∈ chain, x ∉ c.scope)
    (hs : Step (c.chain chain) f0 g n) :
    Step c f0 (g.bindLabeledBreaks (some chain)) n := by
  obtain ⟨b1, b2, b3, b4, b5, b6, b7, b8⟩ := bindLabeledBreaks_spec g (some chain)
  obtain ⟨⟨a1, a2, a3, a4, a5, a6, a7⟩, sd⟩ := hs
  refine ⟨⟨b5.trans a1, b6.trans a2, b7.trans a3, ?_, ?_, ?_, ?_⟩, ?_⟩
  · rw [b2]; exact a4
  · rw [b3]; exact a5
  · intro k hk
    obtain ⟨hk1, hk2⟩ := (b1 k).1 hk
    rcases a6 k hk1 with h | h
    · exact Or.inl h
    · rcases List.mem_append.1 h with h' | h'
      · exact absurd h' hk2
      · exact Or.inr h'
  · rw [b4]; exact a7
  · intro hd
    obtain ⟨d1, e1⟩ := sd hd
    have e2 := e1
    simp only [FunctionCompiler.maps, Prod.mk.injEq] at e2
    have hno : g.bindLabeledBreaks (some chain) = g := by
      apply b8
      intro x hx
      rw [e2.2.2.1]
      exact fun hk => hfresh x hx (hi.2.2.2.2.2.1 x hk)
    rw [hno]
    exact ⟨d1, e1⟩



set_option maxHeartbeats 4000000 in
mutual
theorem step_EmitExpr (abi : ABIArgGenerator) :
    ∀ (e : Expr) (c : Ctx) (f : FunctionCompiler) (r : FunctionCompiler × Option DefId),
      Inv c f → wfExpr c e = true → EmitExpr abi e f = some r → Step c.noJump f r.1 e.bytes
  | .literal type v, c, f, r, _, _, h => by
    have h2 : some ((f.advance (1 + literalWidth type)).constant v (MIRTypeFromAsmType type)) =
        some r := h
    simp only [Option.some.injEq] at h2
    subst h2
    exact step_size (step_trans (step_advance c.noJump f (1 + literalWidth type))
      (step_quiet2 _ (emit_quiet _ _ _))) rfl
  | .getLocal slot, c, f, r, _, _, h => by
    have h2 : some (f.advance 5, (f.advance 5).getLocalDef slot) = some r := h
    simp only [Option.some.injEq] at h2
    subst h2
    exact step_advance _ f 5
  | .setLocal slot e, c, f, r, hi, hw, h => by
    have h2 : (EmitExpr abi e (f.advance 5)).bind (fun r => some (r.1.assign slot r.2, r.2)) =
        some r := h
    simp only [Option.bind_eq_some, Option.some.injEq] at h2
    obtain ⟨r1, h1, rfl⟩ := h2
    have hw1 : wfExpr c e = true := hw
    have s0 := step_advance c.noJump f 5
    have s1 := step_EmitExpr abi e c (f.advance 5) r1 (inv_step hi (step_of_noJump s0)) hw1 h1
    exact step_trans s0 (step_trans s1 (step_quiet2 _ (assign_quiet _ _ _)))
  | .idExpr e, c, f, r, hi, hw, h => by
    have h2 : EmitExpr abi e (f.advance 1) = some r := h
    have hw1 : wfExpr c e = true := hw
    have s0 := step_advance c.noJump f 1
    exact step_trans s0 (step_EmitExpr abi e c _ r (inv_step hi (step_of_noJump s0)) hw1 h2)
  | .operator o args, c, f, r, hi, hw, h => by
    have h2 : (EmitOperands abi args (f.advance (1 + o.immBefore))).bind (fun r =>
        some (((r.1.advance o.immAfter).emitOp o.code r.2).1,
          if o.yieldsLast then r.2.getLast?.join
          else ((r.1.advance o.immAfter).emitOp o.code r.2).2)) = some r := h
    simp only [Option.bind_eq_some, Option.some.injEq] at h2
    obtain ⟨r1, h1, rfl⟩ := h2
    have hw1 : wfArgs c args = true := hw
    have s0 := step_advance c.noJump f (1 + o.immBefore)
    have s1 := step_EmitOperands abi args c _ r1 (inv_step hi (step_of_noJump s0)) hw1 h1
    have s2 := step_advance c.noJump r1.1 o.immAfter
    have s3 : Step c.noJump (r1.1.advance o.immAfter)
        ((r1.1.advance o.immAfter).emitOp o.code r1.2).1 0 := step_quiet2 _ (emit_quiet _ _ _)
    refine step_size (step_trans s0 (step_trans s1 (step_trans s2 s3))) ?_
    show (1 + o.immBefore) + (args.bytes + (o.immAfter + 0)) =
      1 + o.immBefore + args.bytes + o.immAfter
    omega
  | .minMax first rest, c, f, r, hi, hw, h => by
    have h2 : (EmitExpr abi first (f.advance 2)).bind
        (fun r => EmitMinMaxRest abi rest r.2 r.1) = some r := h
    simp only [Option.bind_eq_some] at h2
    obtain ⟨r1, h1, h3⟩ := h2
    have hw1 : (wfExpr c first && wfArgs c rest) = true := hw
    simp only [Bool.and_eq_true] at hw1
    have s0 := step_advance c.noJump f 2
    have i0 := inv_step hi (step_of_noJump s0)
    have s1 := step_EmitExpr abi first c _ r1 i0 hw1.1 h1
    have s2 := step_EmitMinMaxRest abi rest r1.2 c r1.1 r (inv_step i0 (step_of_noJump s1))
      hw1.2 h3
    refine step_size (step_trans s0 (step_trans s1 s2)) ?_
    show 2 + (first.bytes + rest.bytes) = 2 + first.bytes + rest.bytes
    omega
  | .storeWithCoercion ptr rhs, c, f, r, hi, hw, h => by
    have h2 : (EmitExpr abi ptr (f.advance 2)).bind (fun p =>
        (EmitExpr abi rhs p.1).bind (fun r =>
          some (((r.1.emitOp Op.coerce [r.2]).1.emitOp Op.storeHeap
            [p.2, (r.1.emitOp Op.coerce [r.2]).2]).1, r.2))) = some r := h
    simp only [Option.bind_eq_some, Option.some.injEq] at h2
    obtain ⟨p, h1, r1, h3, rfl⟩ := h2
    have hw1 : (wfExpr c ptr && wfExpr c rhs) = true := hw
    simp only [Bool.and_eq_true] at hw1
    have s0 := step_advance c.noJump f 2
    have i0 := inv_step hi (step_of_noJump s0)
    have s1 := step_EmitExpr abi ptr c _ p i0 hw1.1 h1
    have s2 := step_EmitExpr abi rhs c _ r1 (inv_step i0 (step_of_noJump s1)) hw1.2 h3
    have s3 : Step c.noJump r1.1 (r1.1.emitOp Op.coerce [r1.2]).1 0 :=
      step_quiet2 _ (emit_quiet _ _ _)
    have s4 : Step c.noJump (r1.1.emitOp Op.coerce [r1.2]).1
        ((r1.1.emitOp Op.coerce [r1.2]).1.emitOp Op.storeHeap
          [p.2, (r1.1.emitOp Op.coerce [r1.2]).2]).1 0 := step_quiet2 _ (emit_quiet _ _ _)
    refine step_size (step_trans s0 (step_trans s1 (step_trans s2 (step_trans s3 s4)))) ?_
    show 2 + (ptr.bytes + (rhs.bytes + (0 + 0))) = 2 + ptr.bytes + rhs.bytes
    omega
  | .call ce, c, f, r, hi, hw, h => by
    have h2 : EmitCall abi ce (f.advance 1) = some r := h
    have hw1 : wfCall c ce = true := hw
    have s0 := step_advance c.noJump f 1
    exact step_trans s0 (step_EmitCall abi ce c _ r (inv_step hi (step_of_noJump s0)) hw1 h2)
  | .conditional cond ifTrue ifFalse, c, f, r, hi, hw, h => by
    have h2 : (EmitExpr abi cond (f.advance 1)).bind (fun cr =>
        (EmitExpr abi ifTrue (cr.1.branchAndStartThen cr.2 none none).1).bind (fun t =>
          (EmitExpr abi ifFalse ((t.1.pushPhiInput t.2).switchToElse
              (cr.1.branchAndStartThen cr.2 none none).2.2)).bind (fun e =>
            some (((e.1.pushPhiInput e.2).joinIfElse (t.1.appendThenBlock [])).popPhiOutput)))) =
        some r := h
    simp only [Option.bind_eq_some, Option.some.injEq] at h2
    obtain ⟨cr, h1, t, ht, e, he, rfl⟩ := h2
    have hw1 : (wfExpr c cond && wfExpr c ifTrue && wfExpr c ifFalse) = true := hw
    simp only [Bool.and_eq_true] at hw1
    obtain ⟨⟨w1, w2⟩, w3⟩ := hw1
    have s0 := step_advance c.noJump f 1
    have i0 := inv_step hi (step_of_noJump s0)
    have s1 := step_EmitExpr abi cond c _ cr i0 w1 h1
    have i1 := inv_step i0 (step_of_noJump s1)
    obtain ⟨q1, q2⟩ := branchAndStartThen_quiet cr.1 cr.2 none none
    have i2 : Inv c (cr.1.branchAndStartThen cr.2 none none).1 := inv_bk i1 q1
    have s3 := step_EmitExpr abi ifTrue c _ t i2 w2 ht
    have i3 := inv_step i2 (step_of_noJump s3)
    have q3 : ((t.1.pushPhiInput t.2).switchToElse
        (cr.1.branchAndStartThen cr.2 none none).2.2).bookkeeping = t.1.bookkeeping :=
      (switchToElse_quiet _ _).1.trans (pushPhiInput_quiet _ _).1
    have s5 := step_EmitExpr abi ifFalse c _ e (inv_bk i3 q3) w3 he
    have q5 : (((e.1.pushPhiInput e.2).joinIfElse (t.1.appendThenBlock [])).popPhiOutput).1.bookkeeping
        = e.1.bookkeeping :=
      (popPhiOutput_quiet _).1.trans ((joinIfElse_quiet _ _).trans (pushPhiInput_quiet _ _).1)
    refine ⟨?_, ?_⟩
    · refine moves_size (moves_trans s0.1 (moves_trans s1.1 (moves_trans (moves_quiet _ _ _ q1)
        (moves_trans s3.1 (moves_trans (moves_quiet _ _ _ q3)
          (moves_trans s5.1 (moves_quiet _ _ _ q5))))))) ?_
      show 1 + (cond.bytes + (0 + (ifTrue.bytes + (0 + (ifFalse.bytes + 0))))) =
        1 + cond.bytes + ifTrue.bytes + ifFalse.bytes
      omega
    · intro hd
      obtain ⟨d0, e0⟩ := s0.2 hd
      obtain ⟨d1, e1⟩ := s1.2 d0
      have hb := q2 d1
      have d2 : (cr.1.branchAndStartThen cr.2 none none).1.curBlock_ = none := by
        rw [hb]; exact d1
      obtain ⟨d3, e3⟩ := s3.2 d2
      have hse : (t.1.pushPhiInput t.2).switchToElse (cr.1.branchAndStartThen cr.2 none none).2.2 =
          t.1.pushPhiInput t.2 := (switchToElse_quiet _ _).2 (by rw [hb])
      have d4 : ((t.1.pushPhiInput t.2).switchToElse
          (cr.1.branchAndStartThen cr.2 none none).2.2).curBlock_ = none := by
        rw [hse, (pushPhiInput_quiet _ _).2]; exact d3
      obtain ⟨d5, e5⟩ := s5.2 d4
      have d6 : (e.1.pushPhiInput e.2).curBlock_ = none := by
        rw [(pushPhiInput_quiet _ _).2]; exact d5
      have hj : (e.1.pushPhiInput e.2).joinIfElse (t.1.appendThenBlock []) =
          e.1.pushPhiInput e.2 := by
        rw [appendThenBlock_dead _ _ d3]; exact joinIfElse_dead_empty _ d6
      refine ⟨?_, ?_⟩
      · rw [(popPhiOutput_quiet _).2, hj]; exact d6
      · exact (maps_bk q5).trans (e5.trans ((maps_bk q3).trans (e3.trans ((maps_bk q1).trans
          (e1.trans e0)))))
  | .comma stmts last, c, f, r, hi, hw, h => by
    have h2 : (EmitStatements abi stmts (f.advance 5)).bind (fun f1 => EmitExpr abi last f1) =
        some r := h
    simp only [Option.bind_eq_some] at h2
    obtain ⟨f1, h1, h3⟩ := h2
    have hw1 : (wfStmts c.noJump stmts && wfExpr c last) = true := hw
    simp only [Bool.and_eq_true] at hw1
    have s0 := step_advance c.noJump f 5
    have i0 := inv_step hi (step_of_noJump s0)
    have s1 := step_EmitStatements abi stmts c.noJump (f.advance 5) f1 (inv_noJump i0) hw1.1 h1
    have s2 := step_EmitExpr abi last c f1 r (inv_step i0 (step_of_noJump s1)) hw1.2 h3
    refine step_size (step_trans s0 (step_trans s1 s2)) ?_
    show 5 + (stmts.bytes + last.bytes) = 5 + stmts.bytes + last.bytes
    omega
theorem step_EmitOperands (abi : ABIArgGenerator) :
    ∀ (args : Args) (c : Ctx) (f : FunctionCompiler)
      (r : FunctionCompiler × List (Option DefId)),
      Inv c f → wfArgs c args = true → EmitOperands abi args f = some r →
      Step c.noJump f r.1 args.bytes
  | .nil, c, f, r, _, _, h => by
    have h2 : some (f, ([] : List (Option DefId))) = some r := h
    simp only [Option.some.injEq] at h2
    subst h2
    exact step_refl _ f
  | .cons _ e rest, c, f, r, hi, hw, h => by
    have h2 : (EmitExpr abi e f).bind (fun r =>
        (EmitOperands abi rest r.1).bind (fun rs => some (rs.1, r.2 :: rs.2))) = some r := h
    simp only [Option.bind_eq_some, Option.some.injEq] at h2
    obtain ⟨r1, h1, rs, h3, rfl⟩ := h2
    have hw1 : (wfExpr c e && wfArgs c rest) = true := hw
    simp only [Bool.and_eq_true] at hw1
    have s1 := step_EmitExpr abi e c f r1 hi hw1.1 h1
    have s2 := step_EmitOperands abi rest c r1.1 rs (inv_step hi (step_of_noJump s1)) hw1.2 h3
    exact step_trans s1 s2
theorem step_EmitMinMaxRest (abi : ABIArgGenerator) :
    ∀ (args : Args) (d : Option DefId) (c : Ctx) (f : FunctionCompiler)
      (r : FunctionCompiler × Option DefId),
      Inv c f → wfArgs c args = true → EmitMinMaxRest abi args d f = some r →
      Step c.noJump f r.1 args.bytes
  | .nil, d, c, f, r, _, _, h => by
    have h2 : some (f, d) = some r := h
    simp only [Option.some.injEq] at h2
    subst h2
    exact step_refl _ f
  | .cons _ e rest, d, c, f, r, hi, hw, h => by
    have h2 : (EmitExpr abi e f).bind (fun r =>
        EmitMinMaxRest abi rest (r.1.emitOp Op.minMax [d, r.2]).2
          (r.1.emitOp Op.minMax [d, r.2]).1) = some r := h
    simp only [Option.bind_eq_some] at h2
    obtain ⟨r1, h1, h3⟩ := h2
    have hw1 : (wfExpr c e && wfArgs c rest) = true := hw
    simp only [Bool.and_eq_true] at hw1
    have s1 := step_EmitExpr abi e c f r1 hi hw1.1 h1
    have i1 := inv_step hi (step_of_noJump s1)
    have s2 : Step c.noJump r1.1 (r1.1.emitOp Op.minMax [d, r1.2]).1 0 :=
      step_quiet2 _ (emit_quiet _ _ _)
    have s3 := step_EmitMinMaxRest abi rest _ c _ r (inv_step i1 (step_of_noJump s2)) hw1.2 h3
    refine step_size (step_trans s1 (step_trans s2 s3)) ?_
    show e.bytes + (0 + rest.bytes) = e.bytes + rest.bytes
    omega
theorem step_EmitCallArgsLoop (abi : ABIArgGenerator) :
    ∀ (args : Args) (call : Call) (c : Ctx) (f : FunctionCompiler)
      (r : FunctionCompiler × Call),
      Inv c f → wfArgs c args = true → EmitCallArgsLoop abi args call f = some r →
      Step c.noJump f r.1 args.bytes
  | .nil, call, c, f, r, _, _, h => by
    have h2 : some (f, call) = some r := h
    simp only [Option.some.injEq] at h2
    subst h2
    exact step_refl _ f
  | .cons type e rest, call, c, f, r, hi, hw, h => by
    have h2 : (EmitExpr abi e f).bind (fun r =>
        EmitCallArgsLoop abi rest
          (FunctionCompiler.passArg abi r.1 r.2 (MIRTypeFromAsmType type) call).2
          (FunctionCompiler.passArg abi r.1 r.2 (MIRTypeFromAsmType type) call).1) = some r := h
    simp only [Option.bind_eq_some] at h2
    obtain ⟨r1, h1, h3⟩ := h2
    have hw1 : (wfExpr c e && wfArgs c rest) = true := hw
    simp only [Bool.and_eq_true] at hw1
    have s1 := step_EmitExpr abi e c f r1 hi hw1.1 h1
    have i1 := inv_step hi (step_of_noJump s1)
    have s2 : Step c.noJump r1.1
        (FunctionCompiler.passArg abi r1.1 r1.2 (MIRTypeFromAsmType type) call).1 0 :=
      step_quiet2 _ (passArg_quiet _ _ _ _ _)
    have s3 := step_EmitCallArgsLoop abi rest _ c _ r (inv_step i1 (step_of_noJump s2)) hw1.2 h3
    refine step_size (step_trans s1 (step_trans s2 s3)) ?_
    show e.bytes + (0 + rest.bytes) = e.bytes + rest.bytes
    omega
theorem step_EmitCall (abi : ABIArgGenerator) :
    ∀ (ce : CallExpr) (c : Ctx) (f : FunctionCompiler) (r : FunctionCompiler × Option DefId),
      Inv c f → wfCall c ce = true → EmitCall abi ce f = some r → Step c.noJump f r.1 ce.bytes
  | .direct kind lineno column args, c, f, r, hi, hw, h => by
    have h2 : (EmitCallArgsLoop abi args
        ((f.advance kind.immBytes).startCallArgs (Call.new lineno column)).2
        ((f.advance kind.immBytes).startCallArgs (Call.new lineno column)).1).bind (fun a =>
          some (emitDirectCall kind (FunctionCompiler.finishCallArgs abi a.1 a.2))) = some r := h
    simp only [Option.bind_eq_some, Option.some.injEq] at h2
    obtain ⟨a, h1, rfl⟩ := h2
    have hw1 : wfArgs c args = true := hw
    have s0 := step_advance c.noJump f kind.immBytes
    have i0 := inv_step hi (step_of_noJump s0)
    have s1 : Step c.noJump (f.advance kind.immBytes)
        ((f.advance kind.immBytes).startCallArgs (Call.new lineno column)).1 0 :=
      step_quiet2 _ (startCallArgs_quiet _ _)
    have s2 := step_EmitCallArgsLoop abi args _ c _ a (inv_step i0 (step_of_noJump s1)) hw1 h1
    have s3 : Step c.noJump a.1 (FunctionCompiler.finishCallArgs abi a.1 a.2).1 0 :=
      step_quiet2 _ (finishCallArgs_quiet _ _ _)
    have s4 : Step c.noJump (FunctionCompiler.finishCallArgs abi a.1 a.2).1
        (emitDirectCall kind (FunctionCompiler.finishCallArgs abi a.1 a.2)).1 0 :=
      step_quiet2 _ (emitDirectCall_quiet _ _)
    refine step_size (step_trans s0 (step_trans s1 (step_trans s2 (step_trans s3 s4)))) ?_
    show kind.immBytes + (0 + (args.bytes + (0 + 0))) = kind.immBytes + args.bytes
    omega
  | .indirect mask globalDataOffset lineno column index args, c, f, r, hi, hw, h => by
    have h2 : (EmitExpr abi index (f.advance 24)).bind (fun ix =>
        (EmitCallArgsLoop abi args (ix.1.startCallArgs (Call.new lineno column)).2
          (ix.1.startCallArgs (Call.new lineno column)).1).bind (fun a =>
            some ((FunctionCompiler.finishCallArgs abi a.1 a.2).1.funcPtrCall mask globalDataOffset
              ix.2 (FunctionCompiler.finishCallArgs abi a.1 a.2).2))) = some r := h
    simp only [Option.bind_eq_some, Option.some.injEq] at h2
    obtain ⟨ix, h1, a, h3, rfl⟩ := h2
    have hw1 : (wfExpr c index && wfArgs c args) = true := hw
    simp only [Bool.and_eq_true] at hw1
    have s0 := step_advance c.noJump f 24
    have i0 := inv_step hi (step_of_noJump s0)
    have s1 := step_EmitExpr abi index c _ ix i0 hw1.1 h1
    have i1 := inv_step i0 (step_of_noJump s1)
    have s2 : Step c.noJump ix.1 (ix.1.startCallArgs (Call.new lineno column)).1 0 :=
      step_quiet2 _ (startCallArgs_quiet _ _)
    have s3 := step_EmitCallArgsLoop abi args _ c _ a (inv_step i1 (step_of_noJump s2)) hw1.2 h3
    have s4 : Step c.noJump a.1 (FunctionCompiler.finishCallArgs abi a.1 a.2).1 0 :=
      step_quiet2 _ (finishCallArgs_quiet _ _ _)
    have s5 : Step c.noJump (FunctionCompiler.finishCallArgs abi a.1 a.2).1
        ((FunctionCompiler.finishCallArgs abi a.1 a.2).1.funcPtrCall mask globalDataOffset
          ix.2 (FunctionCompiler.finishCallArgs abi a.1 a.2).2).1 0 :=
      step_quiet2 _ (funcPtrCall_quiet _ _ _ _ _)
    refine step_size (step_trans s0 (step_trans s1 (step_trans s2 (step_trans s3
      (step_trans s4 s5))))) ?_
    show 24 + (index.bytes + (0 + (args.bytes + (0 + 0)))) = 24 + index.bytes + args.bytes
    omega
theorem step_EmitStatements (abi : ABIArgGenerator) :
    ∀ (stmts : Stmts) (c : Ctx) (f f' : FunctionCompiler),
      Inv c f → wfStmts c stmts = true → EmitStatements abi stmts f = some f' →
      Step c f f' stmts.bytes
  | .nil, c, f, f', _, _, h => by
    have h2 : some f = some f' := h
    simp only [Option.some.injEq] at h2
    subst h2
    exact step_refl _ f
  | .cons s rest, c, f, f', hi, hw, h => by
    have h2 : (EmitStatement abi s none f).bind (fun r => EmitStatements abi rest r.1) =
        some f' := h
    simp only [Option.bind_eq_some] at h2
    obtain ⟨r1, h1, h3⟩ := h2
    have hw1 : (wfStmt c.inner s && wfStmts c rest) = true := hw
    simp only [Bool.and_eq_true] at hw1
    have s1 := step_of_inner (step_EmitStatement abi s none c.inner f r1 (inv_inner hi) rfl hw1.1 h1).1
    have s2 := step_EmitStatements abi rest c r1.1 f' (inv_step hi s1) hw1.2 h3
    exact step_trans s1 s2
theorem step_EmitIfElse (abi : ABIArgGenerator) :
    ∀ (chain : IfChain) (tb : BlockVector) (c : Ctx) (f f' : FunctionCompiler),
      Inv c f → wfIf c chain = true → EmitIfElse abi chain tb f = some f' →
      Moves c f f' chain.bytes ∧ (tb = [] → StaysDead f f')
  | .ifThen cond thenStmt, tb, c, f, f', hi, hw, h => by
    have h2 : (EmitExpr abi cond f).bind (fun cr =>
        (EmitStatement abi thenStmt none (cr.1.branchAndStartThen cr.2 none none).1).bind (fun t =>
          some (t.1.joinIf (t.1.appendThenBlock tb)
            (cr.1.branchAndStartThen cr.2 none none).2.2))) = some f' := h
    simp only [Option.bind_eq_some, Option.some.injEq] at h2
    obtain ⟨cr, h1, t, ht, rfl⟩ := h2
    have hw1 : (wfExpr c cond && wfStmt c.inner thenStmt) = true := hw
    simp only [Bool.and_eq_true] at hw1
    have s1 := step_EmitExpr abi cond c f cr hi hw1.1 h1
    have i1 := inv_step hi (step_of_noJump s1)
    obtain ⟨q1, q2⟩ := branchAndStartThen_quiet cr.1 cr.2 none none
    have i2 : Inv c (cr.1.branchAndStartThen cr.2 none none).1 := inv_bk i1 q1
    have s3 := step_of_inner
      (step_EmitStatement abi thenStmt none c.inner _ t (inv_inner i2) rfl hw1.2 ht).1
    obtain ⟨q3, q4⟩ := joinIf_quiet t.1 (t.1.appendThenBlock tb)
      (cr.1.branchAndStartThen cr.2 none none).2.2
    refine ⟨?_, fun _ hd => ?_⟩
    · refine moves_size (moves_trans (moves_of_noJump s1.1) (moves_trans (moves_quiet _ _ _ q1)
        (moves_trans s3.1 (moves_quiet _ _ _ q3)))) ?_
      show cond.bytes + (0 + (thenStmt.bytes + 0)) = cond.bytes + thenStmt.bytes
      omega
    · obtain ⟨d1, e1⟩ := s1.2 hd
      have hb := q2 d1
      have d2 : (cr.1.branchAndStartThen cr.2 none none).1.curBlock_ = none := by
        rw [hb]; exact d1
      obtain ⟨d3, e3⟩ := s3.2 d2
      rw [q4 (by rw [hb])]
      exact ⟨d3, e3.trans ((maps_bk q1).trans e1)⟩
  | .ifElse cond thenStmt elseStmt, tb, c, f, f', hi, hw, h => by
    by_cases hs : ∀ chain, elseStmt ≠ .ifStmt chain
    · rw [EmitIfElse_else _ _ _ _ _ _ hs] at h
      simp only [Option.bind_eq_some, Option.some.injEq] at h
      obtain ⟨cr, h1, t, ht, e, he, rfl⟩ := h
      have hw1 : (wfExpr c cond && wfStmt c.inner thenStmt && wfStmt c.inner elseStmt) = true := hw
      simp only [Bool.and_eq_true] at hw1
      obtain ⟨⟨w1, w2⟩, w3⟩ := hw1
      have s1 := step_EmitExpr abi cond c f cr hi w1 h1
      have i1 := inv_step hi (step_of_noJump s1)
      obtain ⟨q1, q2⟩ := branchAndStartThen_quiet cr.1 cr.2 none none
      have i2 : Inv c (cr.1.branchAndStartThen cr.2 none none).1 := inv_bk i1 q1
      have s3 := step_of_inner
        (step_EmitStatement abi thenStmt none c.inner _ t (inv_inner i2) rfl w2 ht).1
      have i3 := inv_step i2 s3
      obtain ⟨q4, q5⟩ := switchToElse_quiet t.1 (cr.1.branchAndStartThen cr.2 none none).2.2
      have i4 := inv_bk i3 q4
      have s5 := step_of_inner
        (step_EmitStatement abi elseStmt none c.inner _ e (inv_inner i4) rfl w3 he).1
      have q6 := joinIfElse_quiet e.1 (t.1.appendThenBlock tb)
      refine ⟨?_, fun htb hd => ?_⟩
      · refine moves_size (moves_trans (moves_of_noJump s1.1) (moves_trans (moves_quiet _ _ _ q1)
          (moves_trans s3.1 (moves_trans (moves_quiet _ _ _ q4) (moves_trans s5.1
            (moves_quiet _ _ _ q6)))))) ?_
        show cond.bytes + (0 + (thenStmt.bytes + (0 + (elseStmt.bytes + 0)))) =
          cond.bytes + thenStmt.bytes + elseStmt.bytes
        omega
      · obtain ⟨d1, e1⟩ := s1.2 hd
        have hb := q2 d1
        have d2 : (cr.1.branchAndStartThen cr.2 none none).1.curBlock_ = none := by
          rw [hb]; exact d1
        obtain ⟨d3, e3⟩ := s3.2 d2
        have hse := q5 (by rw [hb])
        have d4 : (t.1.switchToElse (cr.1.branchAndStartThen cr.2 none none).2.2).curBlock_ =
            none := by
          rw [hse]; exact d3
        obtain ⟨d5, e5⟩ := s5.2 d4
        rw [appendThenBlock_dead _ _ d3, htb, joinIfElse_dead_empty _ d5]
        refine ⟨d5, e5.trans ?_⟩
        rw [hse]
        exact e3.trans ((maps_bk q1).trans e1)
    · push_neg at hs
      obtain ⟨chain, rfl⟩ := hs
      have h2 : (EmitExpr abi cond f).bind (fun cr =>
          (EmitStatement abi thenStmt none (cr.1.branchAndStartThen cr.2 none none).1).bind (fun t =>
            EmitIfElse abi chain (t.1.appendThenBlock tb)
              ((t.1.switchToElse (cr.1.branchAndStartThen cr.2 none none).2.2).advance 1))) =
          some f' := h
      simp only [Option.bind_eq_some] at h2
      obtain ⟨cr, h1, t, ht, h3⟩ := h2
      have hw1 : (wfExpr c cond && wfStmt c.inner thenStmt && wfIf c.inner chain) = true := hw
      simp only [Bool.and_eq_true] at hw1
      obtain ⟨⟨w1, w2⟩, w3⟩ := hw1
      have s1 := step_EmitExpr abi cond c f cr hi w1 h1
      have i1 := inv_step hi (step_of_noJump s1)
      obtain ⟨q1, q2⟩ := branchAndStartThen_quiet cr.1 cr.2 none none
      have i2 : Inv c (cr.1.branchAndStartThen cr.2 none none).1 := inv_bk i1 q1
      have s3 := step_of_inner
        (step_EmitStatement abi thenStmt none c.inner _ t (inv_inner i2) rfl w2 ht).1
      have i3 := inv_step i2 s3
      obtain ⟨q4, q5⟩ := switchToElse_quiet t.1 (cr.1.branchAndStartThen cr.2 none none).2.2
      have i4 := inv_bk i3 q4
      have s5 := step_advance c (t.1.switchToElse (cr.1.branchAndStartThen cr.2 none none).2.2) 1
      obtain ⟨m6, d6⟩ := step_EmitIfElse abi chain (t.1.appendThenBlock tb) c.inner _ f'
        (inv_inner (inv_step i4 s5)) w3 h3
      refine ⟨?_, fun htb hd => ?_⟩
      · refine moves_size (moves_trans (moves_of_noJump s1.1) (moves_trans (moves_quiet _ _ _ q1)
          (moves_trans s3.1 (moves_trans (moves_quiet _ _ _ q4) (moves_trans s5.1
            (moves_weaken m6 (fun h => h) (fun h => h) (fun _ h => h) (fun _ h => h))))))) ?_
        show cond.bytes + (0 + (thenStmt.bytes + (0 + (1 + chain.bytes)))) =
          cond.bytes + thenStmt.bytes + (1 + chain.bytes)
        omega
      · obtain ⟨d1, e1⟩ := s1.2 hd
        have hb := q2 d1
        have d2 : (cr.1.branchAndStartThen cr.2 none none).1.curBlock_ = none := by
          rw [hb]; exact d1
        obtain ⟨d3, e3⟩ := s3.2 d2
        have hse := q5 (by rw [hb])
        have d5 : ((t.1.switchToElse (cr.1.branchAndStartThen cr.2 none none).2.2).advance 1).curBlock_
            = none := by
          rw [hse]; exact d3
        obtain ⟨d7, e7⟩ := d6 (by rw [appendThenBlock_dead _ _ d3, htb]) d5
        refine ⟨d7, e7.trans ?_⟩
        rw [hse]
        exact e3.trans ((maps_bk q1).trans e1)
theorem step_EmitOptStmt (abi : ABIArgGenerator) :
    ∀ (o : OptStmt) (c : Ctx) (f f' : FunctionCompiler),
      Inv c f → wfOpt c o = true → EmitOptStmt abi o f = some f' → Step c f f' o.bytes
  | .absent, c, f, f', _, _, h => by
    have h2 : some f = some f' := h
    simp only [Option.some.injEq] at h2
    subst h2
    exact step_refl _ f
  | .present s, c, f, f', hi, hw, h => by
    have h2 : (EmitStatement abi s none f).bind (fun r => some r.1) = some f' := h
    simp only [Option.bind_eq_some, Option.some.injEq] at h2
    obtain ⟨r1, h1, rfl⟩ := h2
    have hw1 : wfStmt c.inner s = true := hw
    exact step_of_inner (step_EmitStatement abi s none c.inner f r1 (inv_inner hi) rfl hw1 h1).1
theorem step_EmitSwitchCases (abi : ABIArgGenerator) :
    ∀ (cases : Cases) (low : Int) (sb : Option BlockId) (table : List (Option BlockId))
      (c : Ctx) (f : FunctionCompiler) (r : FunctionCompiler × List (Option BlockId)),
      Inv c f → wfCases c cases = true → EmitSwitchCases abi cases low sb table f = some r →
      Moves c f r.1 cases.bytes ∧ (sb = none → StaysDead f r.1)
  | .nil, low, sb, table, c, f, r, _, _, h => by
    have h2 : some (f, table) = some r := h
    simp only [Option.some.injEq] at h2
    subst h2
    exact ⟨(step_refl c f).1, fun _ => (step_refl c f).2⟩
  | .cons caseValue body rest, low, sb, table, c, f, r, hi, hw, h => by
    have h2 : (caseIndex low caseValue table.length).bind (fun idx =>
        (EmitStatement abi body none ((f.advance 4).startSwitchCase sb).1).bind (fun r =>
          EmitSwitchCases abi rest low sb
            (table.set idx ((f.advance 4).startSwitchCase sb).2) r.1)) = some r := h
    simp only [Option.bind_eq_some] at h2
    obtain ⟨idx, -, r1, h1, h3⟩ := h2
    have hw1 : (wfStmt c.inner body && wfCases c rest) = true := hw
    simp only [Bool.and_eq_true] at hw1
    have s0 := step_advance c f 4
    have i0 := inv_step hi s0
    obtain ⟨q1, q2⟩ := startSwitchCase_quiet (f.advance 4) sb
    have i1 := inv_bk i0 q1
    have s2 := step_of_inner
      (step_EmitStatement abi body none c.inner _ r1 (inv_inner i1) rfl hw1.1 h1).1
    obtain ⟨m3, d3⟩ := step_EmitSwitchCases abi rest low sb _ c r1.1 r (inv_step i1 s2) hw1.2 h3
    refine ⟨?_, fun hsb hd => ?_⟩
    · refine moves_size (moves_trans s0.1 (moves_trans (moves_quiet _ _ _ q1)
        (moves_trans s2.1 m3))) ?_
      show 4 + (0 + (body.bytes + rest.bytes)) = 4 + body.bytes + rest.bytes
      omega
    · obtain ⟨d0, e0⟩ := s0.2 hd
      have hq := q2 hsb
      have d1 : ((f.advance 4).startSwitchCase sb).1.curBlock_ = none := by
        rw [hq]; exact d0
      obtain ⟨d2, e2⟩ := s2.2 d1
      obtain ⟨d4, e4⟩ := d3 hsb d2
      exact ⟨d4, e4.trans (e2.trans ((maps_bk q1).trans e0))⟩
theorem step_EmitStatement (abi : ABIArgGenerator) :
    ∀ (s : Stmt) (l : Option LabelVector) (c : Ctx) (f : FunctionCompiler)
      (r : FunctionCompiler × Option LabelVector),
      Inv c f → LabelsOk l c s → wfStmt c s = true → EmitStatement abi s l f = some r →
      Step c f r.1 s.bytes ∧ r.2 = l.map (fun v => v ++ s.chainLabels)
  | .block stmts, l, c, f, r, hi, _, hw, h => by
    have h2 : (EmitStatements abi stmts (f.advance 5)).bind (fun f1 => some (f1, l)) = some r := h
    simp only [Option.bind_eq_some, Option.some.injEq] at h2
    obtain ⟨f1, h1, rfl⟩ := h2
    have hw1 : wfStmts c.inner stmts = true := hw
    have s0 := step_advance c f 5
    have s1 := step_of_inner
      (step_EmitStatements abi stmts c.inner _ f1 (inv_inner (inv_step hi s0)) hw1 h1)
    exact ⟨step_trans s0 s1, (map_append_nil l).symm⟩
  | .ifStmt chain, l, c, f, r, hi, _, hw, h => by
    have h2 : (EmitIfElse abi chain [] (f.advance 1)).bind (fun f1 => some (f1, l)) = some r := h
    simp only [Option.bind_eq_some, Option.some.injEq] at h2
    obtain ⟨f1, h1, rfl⟩ := h2
    have hw1 : wfIf c chain = true := hw
    have s0 := step_advance c f 1
    obtain ⟨m1, d1⟩ := step_EmitIfElse abi chain [] c _ f1 (inv_step hi s0) hw1 h1
    have s1 : Step c (f.advance 1) f1 chain.bytes := ⟨m1, d1 rfl⟩
    exact ⟨step_trans s0 s1, (map_append_nil l).symm⟩
  | .switchStmt low high expr cases dflt, l, c, f, r, hi, _, hw, h => by
    have h2 : (EmitExpr abi expr (f.advance 14)).bind (fun e =>
        if switchIsEmpty cases dflt then some (e.1, l)
        else (tableLength low high).bind (fun len =>
          (EmitSwitchCases abi cases low (e.1.startSwitch e.1.pc_ e.2 low high).2
            (List.replicate len none) (e.1.startSwitch e.1.pc_ e.2 low high).1).bind (fun cs =>
            (EmitOptStmt abi dflt
              (cs.1.startSwitchDefault (e.1.startSwitch e.1.pc_ e.2 low high).2).1).bind (fun f1 =>
              (f1.joinSwitch (e.1.startSwitch e.1.pc_ e.2 low high).2 cs.2
                (cs.1.startSwitchDefault (e.1.startSwitch e.1.pc_ e.2 low high).2).2).bind
                  (fun f2 => some (f2, l)))))) = some r := h
    simp only [Option.bind_eq_some] at h2
    obtain ⟨e, h1, h3⟩ := h2
    have hw1 : (wfExpr c expr && wfCases c.switchBody cases && wfOpt c.switchBody dflt) = true :=
      hw
    simp only [Bool.and_eq_true] at hw1
    obtain ⟨⟨w1, w2⟩, w3⟩ := hw1
    have s0 := step_advance c f 14
    have i0 := inv_step hi s0
    have s1 := step_of_noJump (step_EmitExpr abi expr c _ e i0 w1 h1)
    have i1 := inv_step i0 s1
    by_cases hempty : switchIsEmpty cases dflt = true
    · rw [if_pos hempty] at h3
      simp only [Option.some.injEq] at h3
      subst h3
      obtain ⟨rfl, rfl⟩ := switchIsEmpty_true cases dflt hempty
      refine ⟨step_size (step_trans s0 s1) ?_, (map_append_nil l).symm⟩
      show 14 + expr.bytes = 14 + expr.bytes + 0 + 0
      omega
    · rw [if_neg hempty] at h3
      simp only [Option.bind_eq_some, Option.some.injEq] at h3
      obtain ⟨len, -, cs, hcs, f1, hf1, f2, hj, rfl⟩ := h3
      have isw := inv_switchBody (inv_startSwitch i1 e.1.pc_ e.2 low high (Nat.le_refl _))
      obtain ⟨m2, d2⟩ := step_EmitSwitchCases abi cases low _ _ c.switchBody _ cs isw w2 hcs
      obtain ⟨q3, q4⟩ := startSwitchDefault_quiet cs.1 (e.1.startSwitch e.1.pc_ e.2 low high).2
      have i3 := inv_bk (inv_moves isw m2) q3
      have s4 := step_EmitOptStmt abi dflt c.switchBody _ f1 i3 w3 hf1
      have hm : Moves c.switchBody (e.1.startSwitch e.1.pc_ e.2 low high).1 f1
          (cases.bytes + (0 + dflt.bytes)) :=
        moves_trans m2 (moves_trans (moves_quiet _ _ _ q3) s4.1)
      have hsd : (e.1.startSwitch e.1.pc_ e.2 low high).2 = none →
          StaysDead (e.1.startSwitch e.1.pc_ e.2 low high).1 f1 := by
        intro hn hd
        obtain ⟨d5, e5⟩ := d2 hn hd
        have hq := q4 hn
        have d6 : (cs.1.startSwitchDefault (e.1.startSwitch e.1.pc_ e.2 low high).2).1.curBlock_ =
            none := by
          rw [hq]; exact d5
        obtain ⟨d7, e7⟩ := s4.2 d6
        exact ⟨d7, e7.trans ((maps_bk q3).trans e5)⟩
      have s5 := switch_step c e.1 f1 f2 e.1.pc_ _ e.2 low high hm hsd
        (joinSwitch_spec f1 f2 _ _ _ hj)
      refine ⟨step_size (step_trans s0 (step_trans s1 s5)) ?_, (map_append_nil l).symm⟩
      show 14 + (expr.bytes + (cases.bytes + (0 + dflt.bytes))) =
        14 + expr.bytes + cases.bytes + dflt.bytes
      omega
  | .whileStmt cond body, l, c, f, r, hi, hl, hw, h => by
    have h2 : (EmitExpr abi cond ((f.advance 1).startPendingLoop (f.advance 1).pc_).1).bind
        (fun cr =>
          (EmitStatement abi body none (cr.1.branchAndStartLoopBody cr.2).1).bind (fun s =>
            ((s.1.bindContinues (f.advance 1).pc_ l).closeLoop
              ((f.advance 1).startPendingLoop (f.advance 1).pc_).2
              (cr.1.branchAndStartLoopBody cr.2).2).bind (fun f1 => some (f1, l)))) = some r := h
    simp only [Option.bind_eq_some, Option.some.injEq] at h2
    obtain ⟨cr, h1, s, hs, f1, hc, rfl⟩ := h2
    have hw1 : (wfExpr c cond && wfStmt c.loopBody body) = true := hw
    simp only [Bool.and_eq_true] at hw1
    have hlab : l.getD [] = c.pending := labelsOk_getD hl rfl
    have s0 := step_advance c f 1
    have i0 := inv_step hi s0
    have hfresh := (fresh_pos hi (f.advance 1).pc_ (Nat.lt_succ_self _)).1
    have iL := inv_startPendingLoop i0 (f.advance 1).pc_ (Nat.le_refl _)
    have s1 := step_EmitExpr abi cond c _ cr iL hw1.1 h1
    have i1 := inv_step iL (step_of_noJump s1)
    obtain ⟨q2, q3⟩ := branchAndStartLoopBody_quiet cr.1 cr.2
    have i2 := inv_loopBody (inv_bk i1 q2)
    have s3 := (step_EmitStatement abi body none c.loopBody _ s i2 rfl hw1.2 hs).1
    have hmid : Step c.loopBody ((f.advance 1).startPendingLoop (f.advance 1).pc_).1 s.1
        (cond.bytes + (0 + body.bytes)) :=
      step_trans (step_weaken s1 (fun h => by cases h) (fun h => by cases h)
        (fun _ h => absurd h (List.not_mem_nil _)) (fun _ h => absurd h (List.not_mem_nil _)))
        (step_trans (step_quiet _ _ _ q2 q3) s3)
    have s4 := loop_step c (f.advance 1) s.1 _ f1 (f.advance 1).pc_ _ 0 l i0 (Nat.le_refl _)
      hfresh hlab hmid (step_refl _ _) (closeLoop_spec _ _ _ _ hc)
    refine ⟨step_size (step_trans s0 s4) ?_, (map_append_nil l).symm⟩
    show 1 + (cond.bytes + (0 + body.bytes) + 0) = 1 + cond.bytes + body.bytes
    omega
  | .doWhile body cond, l, c, f, r, hi, hl, hw, h => by
    have h2 : (EmitStatement abi body none
        ((f.advance 1).startPendingLoop (f.advance 1).pc_).1).bind (fun s =>
          (EmitExpr abi cond (s.1.bindContinues (f.advance 1).pc_ l)).bind (fun cr =>
            (cr.1.branchAndCloseDoWhileLoop cr.2
              ((f.advance 1).startPendingLoop (f.advance 1).pc_).2).bind
                (fun f1 => some (f1, l)))) = some r := h
    simp only [Option.bind_eq_some, Option.some.injEq] at h2
    obtain ⟨s, hs, cr, h1, f1, hc, rfl⟩ := h2
    have hw1 : (wfStmt c.loopBody body && wfExpr c cond) = true := hw
    simp only [Bool.and_eq_true] at hw1
    have hlab : l.getD [] = c.pending := labelsOk_getD hl rfl
    have s0 := step_advance c f 1
    have i0 := inv_step hi s0
    have hfresh := (fresh_pos hi (f.advance 1).pc_ (Nat.lt_succ_self _)).1
    have iL := inv_startPendingLoop i0 (f.advance 1).pc_ (Nat.le_refl _)
    have hmid := (step_EmitStatement abi body none c.loopBody _ s (inv_loopBody iL) rfl
      hw1.1 hs).1
    obtain ⟨iB, -, -⟩ := loop_mid c (f.advance 1) s.1 (f.advance 1).pc_ _ l i0 (Nat.le_refl _)
      hfresh hlab hmid
    have s3 := step_EmitExpr abi cond c _ cr iB hw1.2 h1
    have s4 := loop_step c (f.advance 1) s.1 cr.1 f1 (f.advance 1).pc_ _ _ l i0 (Nat.le_refl _)
      hfresh hlab hmid s3 (doWhileClose_spec _ _ _ _ hc)
    refine ⟨step_size (step_trans s0 s4) ?_, (map_append_nil l).symm⟩
    show 1 + (body.bytes + cond.bytes) = 1 + body.bytes + cond.bytes
    omega
  | .forStmt init cond body inc, l, c, f, r, hi, hl, hw, h => by
    have h2 : (EmitOptStmt abi init (f.advance 1)).bind (fun f0 =>
        (EmitExpr abi cond (f0.startPendingLoop (f.advance 1).pc_).1).bind (fun cr =>
          (EmitStatement abi body none (cr.1.branchAndStartLoopBody cr.2).1).bind (fun s =>
            (EmitOptStmt abi inc (s.1.bindContinues (f.advance 1).pc_ l)).bind (fun f1 =>
              (f1.closeLoop (f0.startPendingLoop (f.advance 1).pc_).2
                (cr.1.branchAndStartLoopBody cr.2).2).bind (fun f2 => some (f2, l)))))) =
        some r := h
    simp only [Option.bind_eq_some, Option.some.injEq] at h2
    obtain ⟨f0, hf0, cr, h1, s, hs, f1, hf1, f2, hc, rfl⟩ := h2
    have hw1 : (wfOpt c.inner init && wfExpr c cond && wfStmt c.loopBody body &&
        wfOpt c.noJump inc) = true := hw
    simp only [Bool.and_eq_true] at hw1
    obtain ⟨⟨⟨w1, w2⟩, w3⟩, w4⟩ := hw1
    have hlab : l.getD [] = c.pending := labelsOk_getD hl rfl
    have s0 := step_advance c f 1
    have i0 := inv_step hi s0
    have sI := step_of_inner (step_EmitOptStmt abi init c.inner _ f0 (inv_inner i0) w1 hf0)
    have iI := inv_step i0 sI
    have hpos : (f.advance 1).pc_ ≤ f0.pc_ := by
      rw [sI.1.1]
      exact Nat.le_add_right _ _
    have hfresh : (f.advance 1).pc_ ∉ f0.loopStack_ := by
      rw [sI.1.2.1]
      exact (fresh_pos hi (f.advance 1).pc_ (Nat.lt_succ_self _)).1
    have iL := inv_startPendingLoop iI (f.advance 1).pc_ hpos
    have s1 := step_EmitExpr abi cond c _ cr iL w2 h1
    have i1 := inv_step iL (step_of_noJump s1)
    obtain ⟨q2, q3⟩ := branchAndStartLoopBody_quiet cr.1 cr.2
    have i2 := inv_loopBody (inv_bk i1 q2)
    have s3 := (step_EmitStatement abi body none c.loopBody _ s i2 rfl w3 hs).1
    have hmid : Step c.loopBody (f0.startPendingLoop (f.advance 1).pc_).1 s.1
        (cond.bytes + (0 + body.bytes)) :=
      step_trans (step_weaken s1 (fun h => by cases h) (fun h => by cases h)
        (fun _ h => absurd h (List.not_mem_nil _)) (fun _ h => absurd h (List.not_mem_nil _)))
        (step_trans (step_quiet _ _ _ q2 q3) s3)
    obtain ⟨iB, -, -⟩ := loop_mid c f0 s.1 (f.advance 1).pc_ _ l iI hpos hfresh hlab hmid
    have s4 := step_EmitOptStmt abi inc c.noJump _ f1 (inv_noJump iB) w4 hf1
    have s5 := loop_step c f0 s.1 f1 f2 (f.advance 1).pc_ _ _ l iI hpos hfresh hlab hmid s4
      (closeLoop_spec _ _ _ _ hc)
    refine ⟨step_size (step_trans s0 (step_trans sI s5)) ?_, (map_append_nil l).symm⟩
    show 1 + (init.bytes + (cond.bytes + (0 + body.bytes) + inc.bytes)) =
      1 + init.bytes + cond.bytes + body.bytes + inc.bytes
    omega
  | .label labelId s, some labels, c, f, r, hi, hl, hw, h => by
    have h2 : EmitStatement abi s (some (labels ++ [labelId])) (f.advance 5) = some r := h
    have hw0 : (if c.pending = [] then
        ((labelId :: s.chainLabels).Nodup && (labelId :: s.chainLabels).all (fun x => x ∉ c.scope) &&
          wfStmt (c.chain (labelId :: s.chainLabels)) s)
        else wfStmt c s) = true := hw
    rw [if_neg hl.2] at hw0
    have hl1 : labels ++ (labelId :: s.chainLabels) = c.pending := hl.1
    have hl' : LabelsOk (some (labels ++ [labelId])) c s :=
      ⟨by rw [List.append_assoc]; exact hl1, hl.2⟩
    have s0 := step_advance c f 5
    obtain ⟨s1, e1⟩ := step_EmitStatement abi s _ c _ r (inv_step hi s0) hl' hw0 h2
    refine ⟨step_trans s0 s1, ?_⟩
    rw [e1]
    show some (labels ++ [labelId] ++ s.chainLabels) = some (labels ++ labelId :: s.chainLabels)
    rw [List.append_assoc]
    rfl
  | .label labelId s, none, c, f, r, hi, hl, hw, h => by
    have h2 : (EmitStatement abi s (some [labelId]) (f.advance 5)).bind (fun r =>
        some (r.1.bindLabeledBreaks r.2, none)) = some r := h
    simp only [Option.bind_eq_some, Option.some.injEq] at h2
    obtain ⟨r1, h1, rfl⟩ := h2
    have hw0 : (if c.pending = [] then
        ((labelId :: s.chainLabels).Nodup && (labelId :: s.chainLabels).all (fun x => x ∉ c.scope) &&
          wfStmt (c.chain (labelId :: s.chainLabels)) s)
        else wfStmt c s) = true := hw
    have hp : c.pending = [] := hl
    rw [if_pos hp] at hw0
    simp only [Bool.and_eq_true, List.all_eq_true, decide_eq_true_eq] at hw0
    obtain ⟨⟨-, wfresh⟩, w3⟩ := hw0
    have s0 := step_advance c f 5
    have i0 := inv_step hi s0
    have hl' : LabelsOk (some [labelId]) (c.chain (labelId :: s.chainLabels)) s :=
      ⟨rfl, List.cons_ne_nil _ _⟩
    obtain ⟨s1, e1⟩ := step_EmitStatement abi s _ (c.chain (labelId :: s.chainLabels)) _ r1
      (inv_chain i0 _ wfresh) hl' w3 h1
    have e2 : r1.2 = some (labelId :: s.chainLabels) := e1
    have s2 := label_close c (f.advance 5) r1.1 (labelId :: s.chainLabels) s.bytes i0 wfresh s1
    rw [← e2] at s2
    exact ⟨step_trans s0 s2, rfl⟩
  | .continueStmt, l, c, f, r, _, _, hw, h => by
    have h2 : ((f.advance 1).addContinue none).bind (fun f1 => some (f1, l)) = some r := h
    simp only [Option.bind_eq_some, Option.some.injEq] at h2
    obtain ⟨f1, h1, rfl⟩ := h2
    have hw1 : c.inLoop = true := hw
    obtain ⟨pos, hp, rfl⟩ := addContinue_none _ _ h1
    exact ⟨step_trans (step_advance c f 1)
      (step_addBreakOrContinue c _ pos .unlabeledContinues ⟨hw1, hp⟩), (map_append_nil l).symm⟩
  | .continueLabel labelId, l, c, f, r, _, _, hw, h => by
    have h2 : some ((f.advance 5).addBreakOrContinue labelId .labeledContinues, l) = some r := h
    simp only [Option.some.injEq] at h2
    subst h2
    have hw1 : labelId ∈ c.contLabels := of_decide_eq_true hw
    exact ⟨step_trans (step_advance c f 5)
      (step_addBreakOrContinue c _ labelId .labeledContinues hw1), (map_append_nil l).symm⟩
  | .breakStmt, l, c, f, r, _, _, hw, h => by
    have h2 : ((f.advance 1).addBreak none).bind (fun f1 => some (f1, l)) = some r := h
    simp only [Option.bind_eq_some, Option.some.injEq] at h2
    obtain ⟨f1, h1, rfl⟩ := h2
    have hw1 : c.inBreakable = true := hw
    obtain ⟨pos, hp, rfl⟩ := addBreak_none _ _ h1
    exact ⟨step_trans (step_advance c f 1)
      (step_addBreakOrContinue c _ pos .unlabeledBreaks ⟨hw1, hp⟩), (map_append_nil l).symm⟩
  | .breakLabel labelId, l, c, f, r, _, _, hw, h => by
    have h2 : some ((f.advance 5).addBreakOrContinue labelId .labeledBreaks, l) = some r := h
    simp only [Option.some.injEq] at h2
    subst h2
    have hw1 : labelId ∈ c.brkLabels := of_decide_eq_true hw
    exact ⟨step_trans (step_advance c f 5)
      (step_addBreakOrContinue c _ labelId .labeledBreaks hw1), (map_append_nil l).symm⟩
  | .retVoid, l, c, f, r, _, _, _, h => by
    have h2 : some ((f.advance 1).returnVoid, l) = some r := h
    simp only [Option.some.injEq] at h2
    subst h2
    exact ⟨step_trans (step_advance c f 1) (step_dead c (returnVoid_quiet _)),
      (map_append_nil l).symm⟩
  | .ret e, l, c, f, r, hi, _, hw, h => by
    have h2 : (EmitExpr abi e (f.advance 1)).bind (fun r => some (r.1.returnExpr r.2, l)) =
        some r := h
    simp only [Option.bind_eq_some, Option.some.injEq] at h2
    obtain ⟨r1, h1, rfl⟩ := h2
    have hw1 : wfExpr c e = true := hw
    have s0 := step_advance c f 1
    have s1 := step_of_noJump (step_EmitExpr abi e c (f.advance 1) r1 (inv_step hi s0) hw1 h1)
    exact ⟨step_trans s0 (step_trans s1 (step_dead c (returnExpr_quiet _ _))),
      (map_append_nil l).symm⟩
  | .exprStmt e, l, c, f, r, hi, _, hw, h => by
    have h2 : (EmitExpr abi e (f.advance 1)).bind (fun r => some (r.1, l)) = some r := h
    simp only [Option.bind_eq_some, Option.some.injEq] at h2
    obtain ⟨r1, h1, rfl⟩ := h2
    have hw1 : wfExpr c e = true := hw
    have s0 := step_advance c f 1
    have s1 := step_of_noJump (step_EmitExpr abi e c (f.advance 1) r1 (inv_step hi s0) hw1 h1)
    exact ⟨step_trans s0 s1, (map_append_nil l).symm⟩
  | .callStmt ce, l, c, f, r, hi, _, hw, h => by
    have h2 : (EmitCall abi ce (f.advance 1)).bind (fun r => some (r.1, l)) = some r := h
    simp only [Option.bind_eq_some, Option.some.injEq] at h2
    obtain ⟨r1, h1, rfl⟩ := h2
    have hw1 : wfCall c ce = true := hw
    have s0 := step_advance c f 1
    have s1 := step_of_noJump (step_EmitCall abi ce c (f.advance 1) r1 (inv_step hi s0) hw1 h1)
    exact ⟨step_trans s0 s1, (map_append_nil l).symm⟩
  | .atomicsFence, l, c, f, r, _, _, _, h => by
    have h2 : some ((f.advance 1).memoryBarrier, l) = some r := h
    simp only [Option.some.injEq] at h2
    subst h2
    exact ⟨step_trans (step_advance c f 1) (step_quiet2 c (emit_quiet _ _ _)),
      (map_append_nil l).symm⟩
  | .noop, l, c, f, r, _, _, _, h => by
    have h2 : some (f.advance 1, l) = some r := h
    simp only [Option.some.injEq] at h2
    subst h2
    exact ⟨step_advance c f 1, (map_append_nil l).symm⟩
  | .idStmt s, l, c, f, r, hi, _, hw, h => by
    have h2 : (EmitStatement abi s none (f.advance 1)).bind (fun r => some (r.1, l)) = some r := h
    simp only [Option.bind_eq_some, Option.some.injEq] at h2
    obtain ⟨r1, h1, rfl⟩ := h2
    have hw1 : wfStmt c.inner s = true := hw
    have s0 := step_advance c f 1
    have s1 := step_of_inner
      (step_EmitStatement abi s none c.inner _ r1 (inv_inner (inv_step hi s0)) rfl hw1 h1).1
    exact ⟨step_trans s0 s1, (map_append_nil l).symm⟩
  | .interruptCheckHead, l, c, f, r, _, _, _, h => by
    have h2 : some ((f.advance 9).addInterruptCheck, l) = some r := h
    simp only [Option.some.injEq] at h2
    subst h2
    exact ⟨step_trans (step_advance c f 9) (step_quiet2 c (emit_quiet _ _ _)),
      (map_append_nil l).symm⟩
  | .interruptCheckLoop s, l, c, f, r, hi, _, hw, h => by
    have h2 : (EmitStatement abi s none (f.advance 9).addInterruptCheck).bind
        (fun r => some (r.1, l)) = some r := h
    simp only [Option.bind_eq_some, Option.some.injEq] at h2
    obtain ⟨r1, h1, rfl⟩ := h2
    have hw1 : wfStmt c.inner s = true := hw
    have s0 := step_advance c f 9
    have s1 : Step c (f.advance 9) (f.advance 9).addInterruptCheck 0 :=
      step_quiet2 c (emit_quiet _ _ _)
    have i1 := inv_step (inv_step hi s0) s1
    have s2 := step_of_inner
      (step_EmitStatement abi s none c.inner _ r1 (inv_inner i1) rfl hw1 h1).1
    refine ⟨step_size (step_trans s0 (step_trans s1 s2)) ?_, (map_append_nil l).symm⟩
    show 9 + (0 + s.bytes) = 9 + s.bytes
    omega
end



theorem inv_prepareEmitMIR (argTypes : List MIRType) (varInitializers : List (MIRType × Int)) :
    Inv Ctx.top (prepareEmitMIR argTypes varInitializers) :=
  ⟨⟨fun _ h => absurd h (List.not_mem_nil _), fun _ h => absurd h (List.not_mem_nil _),
      fun _ h => absurd h (List.not_mem_nil _), fun _ h => absurd h (List.not_mem_nil _)⟩,
    fun _ h => absurd h (List.not_mem_nil _), fun _ h => absurd h (List.not_mem_nil _),
    fun _ h => absurd h (List.not_mem_nil _), fun _ h => absurd h (List.not_mem_nil _),
    fun _ h => absurd h (List.not_mem_nil _), fun _ h => absurd h (List.not_mem_nil _)⟩

theorem ownPos_gt (s : Stmt) (pc pos : Nat) (h : s.ownPos pc = some pos) : pc < pos := by
  cases s <;> simp only [Stmt.ownPos, Option.some.injEq] at h <;> try omega
  all_goals first
    | (split at h
       · cases h
       · simp only [Option.some.injEq] at h
         omega)
    | cases h

theorem chainLabels_fresh (c : Ctx) (s : Stmt) (hp : c.pending = []) (hw : wfStmt c s = true) :
    ∀ x ∈ s.chainLabels, x ∉ c.scope := by
  cases s with
  | label labelId s' =>
    have hw0 : (if c.pending = [] then
        ((labelId :: s'.chainLabels).Nodup &&
          (labelId :: s'.chainLabels).all (fun x => x ∉ c.scope) &&
          wfStmt (c.chain (labelId :: s'.chainLabels)) s')
        else wfStmt c s') = true := hw
    rw [if_pos hp] at hw0
    simp only [Bool.and_eq_true, List.all_eq_true, decide_eq_true_eq] at hw0
    exact hw0.1.2
  | _ => exact fun _ h => absurd h (List.not_mem_nil _)

/-- C8. For every well-formed function on which the statement loop of
`GenerateAsmFunctionMIR` succeeds, the decoder position at the end is the
encoded size of the function body (`done()`), all four pending-branch maps
are empty, and the loop stack and the breakable stack are empty. -/
theorem C8_postconditions_hold (abi : ABIArgGenerator) (func : AsmFunction)
    (f' : FunctionCompiler) (hwf : func.wellFormed = true)
    (h : GenerateAsmFunctionMIR abi func = some f') :
    f'.pc_ = func.body.bytes ∧
    f'.unlabeledBreaks_ = [] ∧ f'.unlabeledContinues_ = [] ∧
    f'.labeledBreaks_ = [] ∧ f'.labeledContinues_ = [] ∧
    f'.loopStack_ = [] ∧ f'.breakableStack_ = [] := by
  obtain ⟨⟨a1, a2, a3, a4, a5, a6, a7⟩, -⟩ := step_EmitStatements abi func.body Ctx.top
    (prepareEmitMIR func.argTypes func.varInitializers) f'
    (inv_prepareEmitMIR _ _) hwf h
  refine ⟨?_, ?_, ?_, ?_, ?_, a2, a3⟩
  · rw [a1]
    exact Nat.zero_add _
  · apply BlockMap.eq_nil_of_keys
    intro k hk
    rcases a4 k hk with h' | h'
    · exact absurd h' (List.not_mem_nil _)
    · exact absurd h'.1 Bool.false_ne_true
  · apply BlockMap.eq_nil_of_keys
    intro k hk
    rcases a5 k hk with h' | h'
    · exact absurd h' (List.not_mem_nil _)
    · exact absurd h'.1 Bool.false_ne_true
  · apply BlockMap.eq_nil_of_keys
    intro k hk
    rcases a6 k hk with h' | h'
    · exact absurd h' (List.not_mem_nil _)
    · exact absurd h' (List.not_mem_nil _)
  · apply BlockMap.eq_nil_of_keys
    intro k hk
    rcases a7 k hk with h' | h'
    · exact absurd h' (List.not_mem_nil _)
    · exact absurd h' (List.not_mem_nil _)

/-- Witness for C8: the function `breakBothWays`, a labeled loop with an
unlabeled and a labeled break, followed by a return; its body takes 24
bytes. -/
theorem C8_postconditions_hold_witness :
    breakBothWays.body.bytes = 24 ∧
    breakBothWaysResult.pc_ = breakBothWays.body.bytes ∧
    breakBothWaysResult.unlabeledBreaks_ = [] ∧ breakBothWaysResult.unlabeledContinues_ = [] ∧
    breakBothWaysResult.labeledBreaks_ = [] ∧ breakBothWaysResult.labeledContinues_ = [] ∧
    breakBothWaysResult.loopStack_ = [] ∧ breakBothWaysResult.breakableStack_ = [] :=
  ⟨by decide, C8_postconditions_hold x64ABI breakBothWays breakBothWaysResult (by decide)
    (by decide)⟩

/-- C9. Let a well-formed statement be emitted successfully from a state that
satisfies the bookkeeping invariant `Inv` (the state after `prepareEmitMIR`
satisfies it, and it holds again afterwards). If the statement is a loop or a
switch with a case or a default, no entry keyed by its position remains in
`unlabeledBreaks_` or `unlabeledContinues_`; if it is the outermost label of a
label chain, no entry keyed by a label of the chain remains in
`labeledBreaks_` or `labeledContinues_`. -/
theorem C9_entries_drained (abi : ABIArgGenerator) (s : Stmt) (l : Option LabelVector)
    (c : Ctx) (f : FunctionCompiler) (r : FunctionCompiler × Option LabelVector)
    (hi : Inv c f) (hl : LabelsOk l c s) (hw : wfStmt c s = true)
    (h : EmitStatement abi s l f = some r) :
    (∀ pos, s.ownPos f.pc_ = some pos →
      pos ∉ BlockMap.keys r.1.unlabeledBreaks_ ∧ pos ∉ BlockMap.keys r.1.unlabeledContinues_) ∧
    (l = none → ∀ x ∈ s.chainLabels,
      x ∉ BlockMap.keys r.1.labeledBreaks_ ∧ x ∉ BlockMap.keys r.1.labeledContinues_) ∧
    Inv c r.1 := by
  obtain ⟨st, -⟩ := step_EmitStatement abi s l c f r hi hl hw h
  have hi' := inv_step hi st
  obtain ⟨⟨a1, a2, a3, a4, a5, a6, a7⟩, -⟩ := st
  obtain ⟨ok, i1, i2, i3, i4, i5, i6⟩ := hi
  refine ⟨?_, ?_, hi'⟩
  · intro pos hpos
    have hgt := ownPos_gt s f.pc_ pos hpos
    constructor
    · intro hk
      have hm : pos ∈ f.breakableStack_ := by
        rcases a4 pos hk with h' | h'
        · exact i1 pos h'
        · exact List.mem_of_getLast?_eq_some h'.2
      exact Nat.lt_irrefl _ (Nat.lt_of_lt_of_le hgt (i3 pos hm))
    · intro hk
      have hm : pos ∈ f.loopStack_ := by
        rcases a5 pos hk with h' | h'
        · exact i2 pos h'
        · exact List.mem_of_getLast?_eq_some h'.2
      exact Nat.lt_irrefl _ (Nat.lt_of_lt_of_le hgt (i4 pos hm))
  · intro hn x hx
    subst hn
    have hfresh := chainLabels_fresh c s hl hw x hx
    constructor
    · intro hk
      rcases a6 x hk with h' | h'
      · exact hfresh (i5 x h')
      · exact hfresh (ok.1 x h')
    · intro hk
      rcases a7 x hk with h' | h'
      · exact hfresh (i6 x h').1
      · exact hfresh (ok.2.1 x h')

/-- Witness for C9: the labeled loop `L: while (x) { if (x) break; else
break L; }` emitted at the start of a function, and the loop itself as
`EmitLabel` emits it. The position of the loop is 6 (the label takes 5 bytes
and the opcode of the loop 1); the chain of the label statement is the
label 7. -/
theorem C9_entries_drained_witness :
    (labeledLoop.chainLabels = [7] ∧
      ((∀ pos, labeledLoop.ownPos oneIntArg.pc_ = some pos →
        pos ∉ BlockMap.keys labeledLoopResult.1.unlabeledBreaks_ ∧
        pos ∉ BlockMap.keys labeledLoopResult.1.unlabeledContinues_) ∧
      ((none : Option LabelVector) = none → ∀ x ∈ labeledLoop.chainLabels,
        x ∉ BlockMap.keys labeledLoopResult.1.labeledBreaks_ ∧
        x ∉ BlockMap.keys labeledLoopResult.1.labeledContinues_) ∧
      Inv Ctx.top labeledLoopResult.1)) ∧
    (innerLoop.ownPos (oneIntArg.advance 5).pc_ = some 6 ∧
      ((∀ pos, innerLoop.ownPos (oneIntArg.advance 5).pc_ = some pos →
        pos ∉ BlockMap.keys innerLoopResult.1.unlabeledBreaks_ ∧
        pos ∉ BlockMap.keys innerLoopResult.1.unlabeledContinues_) ∧
      (some [7] = none → ∀ x ∈ innerLoop.chainLabels,
        x ∉ BlockMap.keys innerLoopResult.1.labeledBreaks_ ∧
        x ∉ BlockMap.keys innerLoopResult.1.labeledContinues_) ∧
      Inv (Ctx.top.chain [7]) innerLoopResult.1)) :=
  ⟨⟨by decide, C9_entries_drained x64ABI labeledLoop none Ctx.top oneIntArg labeledLoopResult
      (inv_prepareEmitMIR _ _) rfl (by decide) (by decide)⟩,
    ⟨by decide, C9_entries_drained x64ABI innerLoop (some [7]) (Ctx.top.chain [7])
      (oneIntArg.advance 5) innerLoopResult
      (inv_chain (inv_step (inv_prepareEmitMIR _ _) (step_advance Ctx.top _ 5)) [7] (by decide))
      ⟨rfl, by decide⟩ (by decide) (by decide)⟩⟩

/-! ## Dead code (C11, C12) -/

theorem emit_dead (f : FunctionCompiler) (h : f.curBlock_ = none) (op : MOpcode)
    (operands : List (Option DefId)) : f.emit op operands = (f, none) := by
  unfold emit
  rw [h]

theorem addBreakOrContinue_dead (f : FunctionCompiler) (h : f.curBlock_ = none) (key : Nat)
    (sel : MapSel) : f.addBreakOrContinue key sel = f := by
  unfold addBreakOrContinue
  rw [h]

/-- C11. In dead code (`curBlock_` is null) every instruction-emission
operation of the function compiler returns the state it was given: no
instruction and no block is added, the graph, the pending-branch maps and the
stack-argument counter are as before, and the builder is still in dead code.
The value-returning operations return the null placeholder, the call
marshalling operations return the call descriptor unchanged, and the
operations that return `bool` complete (return true). The unlabeled forms of
`addBreak` and `addContinue` read the top of their stack before the dead-code
check, so they complete when that stack is not empty. -/
theorem C11_dead_code_no_ops (abi : ABIArgGenerator) (f : FunctionCompiler)
    (h : f.curBlock_ = none) :
    (∀ op operands, f.emit op operands = (f, none)) ∧
    (∀ v type, f.constant v type = (f, none)) ∧
    (∀ code operands, f.emitOp code operands = (f, none)) ∧
    (∀ lhs rhs op type, f.compare lhs rhs op type = (f, none)) ∧
    (∀ slot, f.getLocalDef slot = none) ∧
    (∀ slot d, f.assign slot d = f) ∧
    (∀ t ptr chk, f.loadHeap t ptr chk = (f, none)) ∧
    (∀ t ptr v chk, f.storeHeap t ptr v chk = f) ∧
    (∀ t ptr chk, f.atomicLoadHeap t ptr chk = (f, none)) ∧
    (∀ t ptr v chk, f.atomicStoreHeap t ptr v chk = f) ∧
    (∀ t ptr oldv newv chk, f.atomicCompareExchangeHeap t ptr oldv newv chk = (f, none)) ∧
    (∀ t ptr v chk, f.atomicExchangeHeap t ptr v chk = (f, none)) ∧
    (∀ op t ptr v chk, f.atomicBinopHeap op t ptr v chk = (f, none)) ∧
    f.memoryBarrier = f ∧
    f.addInterruptCheck = f ∧
    (∀ call, f.startCallArgs call = (f, call)) ∧
    (∀ argDef mirType call, passArg abi f argDef mirType call = (f, call)) ∧
    (∀ call, finishCallArgs abi f call = (f, call)) ∧
    (∀ callee call, f.callPrivate callee call = (f, none)) ∧
    (∀ funcIndex call, f.internalCall funcIndex call = (f, none)) ∧
    (∀ maskLit globalDataOffset index call,
      f.funcPtrCall maskLit globalDataOffset index call = (f, none)) ∧
    (∀ globalDataOffset call, f.ffiCall globalDataOffset call = (f, none)) ∧
    (∀ builtin call, f.builtinCall builtin call = (f, none)) ∧
    (∀ expr, f.returnExpr expr = f) ∧
    f.returnVoid = f ∧
    (∀ key sel, f.addBreakOrContinue key sel = f) ∧
    (∀ labelId, f.addBreak (some labelId) = some f) ∧
    (∀ labelId, f.addContinue (some labelId) = some f) ∧
    (f.breakableStack_ ≠ [] → f.addBreak none = some f) ∧
    (f.loopStack_ ≠ [] → f.addContinue none = some f) ∧
    (∀ d, f.pushPhiInput d = f) ∧
    f.popPhiOutput = (f, none) := by
  have he := emit_dead f h
  have hb := addBreakOrContinue_dead f h
  refine ⟨he, fun _ _ => he _ _, fun _ _ => he _ _, fun _ _ _ _ => he _ _, ?_, ?_,
    fun _ _ _ => he _ _, ?_, fun _ _ _ => he _ _, ?_, fun _ _ _ _ _ => he _ _,
    fun _ _ _ _ => he _ _, fun _ _ _ _ _ => he _ _, ?_, ?_, ?_, ?_, ?_, fun _ _ => he _ _,
    fun _ _ => he _ _, ?_, ?_, fun _ _ => he _ _, ?_, ?_, hb, ?_, ?_, ?_, ?_, ?_, ?_⟩
  · intro slot
    unfold getLocalDef
    rw [h]
  · intro slot d
    unfold assign
    rw [h]
  · intro t ptr v chk
    unfold storeHeap
    rw [he]
  · intro t ptr v chk
    unfold atomicStoreHeap
    rw [he]
  · unfold memoryBarrier
    rw [he]
  · unfold addInterruptCheck
    rw [he]
  · intro call
    unfold startCallArgs
    rw [h]
  · intro argDef mirType call
    unfold passArg
    rw [h]
  · intro call
    unfold finishCallArgs
    rw [h]
  · intro maskLit globalDataOffset index call
    unfold funcPtrCall
    rw [h]
  · intro globalDataOffset call
    unfold ffiCall
    rw [h]
  · intro expr
    unfold returnExpr
    rw [h]
  · unfold returnVoid
    rw [h]
  · intro labelId
    unfold addBreak
    simp only [hb]
  · intro labelId
    unfold addContinue
    simp only [hb]
  · intro hne
    unfold addBreak
    cases hl : f.breakableStack_.getLast? with
    | none => exact absurd (List.getLast?_eq_none_iff.1 hl) hne
    | some pos => simp only [hb]
  · intro hne
    unfold addContinue
    cases hl : f.loopStack_.getLast? with
    | none => exact absurd (List.getLast?_eq_none_iff.1 hl) hne
    | some pos => simp only [hb]
  · intro d
    unfold pushPhiInput
    rw [h]
  · unfold popPhiOutput
    rw [h]

theorem C11_dead_code_no_ops_witness :
    deadInLoop.curBlock_ = none ∧ deadInLoop.breakableStack_ = [1] ∧
    deadInLoop.loopStack_ = [1] ∧
    (deadInLoop.constant 5 .Int32 = (deadInLoop, none) ∧
     deadInLoop.addBreak none = some deadInLoop ∧
     deadInLoop.addContinue none = some deadInLoop ∧
     passArg x64ABI deadInLoop none .Int32 (Call.new 0 0) = (deadInLoop, Call.new 0 0)) :=
  have w := C11_dead_code_no_ops x64ABI deadInLoop (by decide)
  ⟨by decide, by decide, by decide, w.2.1 5 .Int32,
    w.2.2.2.2.2.2.2.2.2.2.2.2.2.2.2.2.2.2.2.2.2.2.2.2.2.2.2.2.1 (by decide),
    w.2.2.2.2.2.2.2.2.2.2.2.2.2.2.2.2.2.2.2.2.2.2.2.2.2.2.2.2.2.1 (by decide),
    w.2.2.2.2.2.2.2.2.2.2.2.2.2.2.2.2.1 none .Int32 (Call.new 0 0)⟩

theorem addBreakOrContinue_inDeadCode (f : FunctionCompiler) (key : Nat) (sel : MapSel) :
    (f.addBreakOrContinue key sel).inDeadCode = true := by
  unfold inDeadCode
  rw [(addBreakOrContinue_spec f key sel).2.2.2.1]
  rfl

/-- C12. In live code, with `cur` the current block (a block of the graph):
`returnExpr` and `returnVoid` end `cur` with the return instruction (of the
given value, or the void return) and leave the builder in dead code;
`addBreak` and `addContinue` complete and leave the builder in dead code (the
unlabeled forms when the stack they read is not empty); `startSwitch` leaves
the builder in dead code. -/
theorem C12_terminators_enter_dead_code (f : FunctionCompiler) (cur : BlockId)
    (h : f.curBlock_ = some cur) (hcur : cur < f.graph_.blocks.length) :
    (∀ expr, (f.returnExpr expr).inDeadCode = true ∧
      ((f.returnExpr expr).graph_.block cur).lastIns = some (.asmJSReturn expr)) ∧
    (f.returnVoid.inDeadCode = true ∧
      (f.returnVoid.graph_.block cur).lastIns = some .asmJSVoidReturn) ∧
    (∀ labelId, ∃ f', f.addBreak (some labelId) = some f' ∧ f'.inDeadCode = true) ∧
    (∀ labelId, ∃ f', f.addContinue (some labelId) = some f' ∧ f'.inDeadCode = true) ∧
    (f.breakableStack_ ≠ [] → ∃ f', f.addBreak none = some f' ∧ f'.inDeadCode = true) ∧
    (f.loopStack_ ≠ [] → ∃ f', f.addContinue none = some f' ∧ f'.inDeadCode = true) ∧
    (∀ pos expr low high, (f.startSwitch pos expr low high).1.inDeadCode = true) := by
  refine ⟨?_, ?_, ?_, ?_, ?_, ?_, ?_⟩
  · intro expr
    unfold returnExpr
    rw [h]
    exact ⟨rfl, (lastIns_endBlock _ _ _ _).trans (by simp [hcur])⟩
  · unfold returnVoid
    rw [h]
    exact ⟨rfl, (lastIns_endBlock _ _ _ _).trans (by simp [hcur])⟩
  · intro labelId
    exact ⟨_, rfl, addBreakOrContinue_inDeadCode _ _ _⟩
  · intro labelId
    exact ⟨_, rfl, addBreakOrContinue_inDeadCode _ _ _⟩
  · intro hne
    unfold addBreak
    cases hl : f.breakableStack_.getLast? with
    | none => exact absurd (List.getLast?_eq_none_iff.1 hl) hne
    | some pos => exact ⟨_, rfl, addBreakOrContinue_inDeadCode _ _ _⟩
  · intro hne
    unfold addContinue
    cases hl : f.loopStack_.getLast? with
    | none => exact absurd (List.getLast?_eq_none_iff.1 hl) hne
    | some pos => exact ⟨_, rfl, addBreakOrContinue_inDeadCode _ _ _⟩
  · intro pos expr low high
    unfold startSwitch
    simp only [h]
    rfl

theorem C12_terminators_enter_dead_code_witness :
    liveInLoop.curBlock_ = some 1 ∧ liveInLoop.breakableStack_ = [1] ∧
    (liveInLoop.returnVoid.inDeadCode = true ∧
      (liveInLoop.returnVoid.graph_.block 1).lastIns = some .asmJSVoidReturn) ∧
    (∃ f', liveInLoop.addBreak none = some f' ∧ f'.inDeadCode = true) :=
  have w := C12_terminators_enter_dead_code liveInLoop 1 (by decide) (by decide)
  ⟨by decide, by decide, w.2.1, w.2.2.2.2.1 (by decide)⟩

/-! ## Local slots (C13) -/

theorem block_setSlot (g : MIRGraph) (b c : BlockId) (i : Nat) (d : Option DefId) :
    (g.setSlot b i d).block c =
      if b = c ∧ c < g.blocks.length then { g.block c with slots := (g.block c).slots.set i d }
      else g.block c := by
  rw [MIRGraph.setSlot, block_modifyBlock]

/-- C13. In live code, with `cur` the current block and `s` one of its slots:
after `assign(s, d)`, `getLocalDef(s)` returns `d` and `getLocalDef(t)` of any
other slot `t` returns what it returned before. `assign` adds no definition
and no block and leaves the instruction list of every block as it was;
`getLocalDef` only reads the state. -/
theorem C13_assign_then_getLocalDef (f : FunctionCompiler) (cur : BlockId) (s : Nat)
    (d : Option DefId) (h : f.curBlock_ = some cur) (hcur : cur < f.graph_.blocks.length)
    (hs : s < (f.graph_.block cur).slots.length) :
    (f.assign s d).getLocalDef s = d ∧
    (∀ t, t ≠ s → (f.assign s d).getLocalDef t = f.getLocalDef t) ∧
    (f.assign s d).curBlock_ = some cur ∧
    (f.assign s d).graph_.defs = f.graph_.defs ∧
    (f.assign s d).graph_.blocks.length = f.graph_.blocks.length ∧
    (∀ b, ((f.assign s d).graph_.block b).instructions = (f.graph_.block b).instructions) ∧
    (∀ b, ((f.assign s d).graph_.block b).phis = (f.graph_.block b).phis) := by
  have ha : f.assign s d = { f with graph_ := f.graph_.setSlot cur s d } := by
    unfold assign
    rw [h]
  rw [ha]
  refine ⟨?_, ?_, h, rfl, blocks_length_modifyBlock _ _ _, ?_, ?_⟩
  · unfold getLocalDef
    simp only [h, MIRGraph.getSlot, block_setSlot, hcur, and_self, if_true]
    rw [List.getD_eq_getElem?_getD, List.getElem?_set_self hs]
    rfl
  · intro t ht
    unfold getLocalDef
    simp only [h, MIRGraph.getSlot, block_setSlot, hcur, and_self, if_true]
    rw [List.getD_eq_getElem?_getD, List.getD_eq_getElem?_getD, List.getElem?_set_ne (Ne.symm ht)]
  · intro b
    show ((f.graph_.setSlot cur s d).block b).instructions = _
    rw [block_setSlot]
    split <;> rfl
  · intro b
    show ((f.graph_.setSlot cur s d).block b).phis = _
    rw [block_setSlot]
    split <;> rfl

theorem C13_assign_then_getLocalDef_witness :
    twoIntArgs.curBlock_ = some 0 ∧ twoIntArgs.getLocalDef 0 = some 0 ∧
    twoIntArgs.getLocalDef 1 = some 1 ∧
    (twoIntArgs.assign 0 (some 1)).getLocalDef 0 = some 1 ∧
    (twoIntArgs.assign 0 (some 1)).getLocalDef 1 = twoIntArgs.getLocalDef 1 :=
  have w := C13_assign_then_getLocalDef twoIntArgs 0 0 (some 1) (by decide) (by decide)
    (by decide)
  ⟨by decide, by decide, by decide, w.1, w.2.1 1 (by decide)⟩

/-! ## Parking breaks and continues (C14) -/

theorem BlockMap.lookup_append_self (m : BlockMap) (k : Nat) (b : BlockId) :
    BlockMap.lookup (BlockMap.append m k b) k = some ((BlockMap.lookup m k).getD [] ++ [b]) := by
  induction m with
  | nil => simp [BlockMap.append, BlockMap.lookup]
  | cons e rest ih =>
    unfold BlockMap.append
    by_cases hk : e.1 = k
    · simp [hk, BlockMap.lookup]
    · simp only [hk, if_false, BlockMap.lookup]
      exact ih

theorem BlockMap.lookup_append_ne (m : BlockMap) (k k' : Nat) (b : BlockId) (h : k' ≠ k) :
    BlockMap.lookup (BlockMap.append m k b) k' = BlockMap.lookup m k' := by
  induction m with
  | nil =>
    simp only [BlockMap.append, BlockMap.lookup]
    rw [if_neg (Ne.symm h)]
  | cons e rest ih =>
    unfold BlockMap.append
    by_cases hk : e.1 = k
    · simp only [hk, if_true, BlockMap.lookup]
      rw [if_neg (Ne.symm h), if_neg (Ne.symm h)]
    · simp only [hk, if_false, BlockMap.lookup]
      rw [ih]

theorem addBreakOrContinue_parks (f : FunctionCompiler) (cur : BlockId) (key : Nat) (sel : MapSel)
    (h : f.curBlock_ = some cur) : ParkedIn f (f.addBreakOrContinue key sel) sel key cur := by
  have hs := addBreakOrContinue_spec f key sel
  have hm : (f.addBreakOrContinue key sel).getMap sel = BlockMap.append (f.getMap sel) key cur := by
    unfold addBreakOrContinue
    rw [h]
    cases sel <;> rfl
  have hg : (f.addBreakOrContinue key sel).graph_ = f.graph_ := by
    unfold addBreakOrContinue
    rw [h]
    cases sel <;> rfl
  refine ⟨?_, ?_, hs.2.2.2.2.2.2, hg, hs.2.2.2.1, hs.2.1, hs.2.2.1⟩
  · rw [hm]
    unfold parkedUnder
    rw [BlockMap.lookup_append_self]
    rfl
  · intro k hk
    rw [hm, BlockMap.lookup_append_ne _ _ _ _ hk]

/-- C14. In live code with non-empty `loopStack_` and `breakableStack_`, with
`cur` the current block: an unlabeled break parks `cur` in `unlabeledBreaks_`
under the position on top of `breakableStack_`, an unlabeled continue parks it
in `unlabeledContinues_` under the position on top of `loopStack_`, a labeled
break parks it in `labeledBreaks_` and a labeled continue in
`labeledContinues_` under the label id. Parking appends the block to the list
of that key, changes no other list of any map, and leaves the graph as it is,
so no jump is emitted from the parked block. -/
theorem C14_break_continue_parked (f : FunctionCompiler) (cur : BlockId)
    (h : f.curBlock_ = some cur) (hl : f.loopStack_ ≠ []) (hb : f.breakableStack_ ≠ []) :
    (∃ f', f.addBreak none = some f' ∧
      ParkedIn f f' .unlabeledBreaks (f.breakableStack_.getLast hb) cur) ∧
    (∃ f', f.addContinue none = some f' ∧
      ParkedIn f f' .unlabeledContinues (f.loopStack_.getLast hl) cur) ∧
    (∀ labelId, ∃ f', f.addBreak (some labelId) = some f' ∧
      ParkedIn f f' .labeledBreaks labelId cur) ∧
    (∀ labelId, ∃ f', f.addContinue (some labelId) = some f' ∧
      ParkedIn f f' .labeledContinues labelId cur) := by
  refine ⟨⟨_, ?_, addBreakOrContinue_parks f cur _ _ h⟩, ⟨_, ?_, addBreakOrContinue_parks f cur _ _ h⟩,
    fun labelId => ⟨_, rfl, addBreakOrContinue_parks f cur _ _ h⟩,
    fun labelId => ⟨_, rfl, addBreakOrContinue_parks f cur _ _ h⟩⟩
  · unfold addBreak
    simp only [List.getLast?_eq_getLast _ hb]
  · unfold addContinue
    simp only [List.getLast?_eq_getLast _ hl]

theorem C14_break_continue_parked_witness :
    liveInSwitchInLoop.curBlock_ = some 2 ∧ liveInSwitchInLoop.loopStack_ = [1] ∧
    liveInSwitchInLoop.breakableStack_ = [1, 9] ∧
    (∃ f', liveInSwitchInLoop.addBreak none = some f' ∧
      ParkedIn liveInSwitchInLoop f' .unlabeledBreaks 9 2) ∧
    (∃ f', liveInSwitchInLoop.addContinue none = some f' ∧
      ParkedIn liveInSwitchInLoop f' .unlabeledContinues 1 2) :=
  have w := C14_break_continue_parked liveInSwitchInLoop 2 (by decide) (by decide) (by decide)
  ⟨by decide, by decide, by decide, w.1, w.2.1⟩

/-! ## Instructions built in live code (C17, C18, C19) -/

theorem defs_add (g : MIRGraph) (b : BlockId) (op : MOpcode) (operands : List (Option DefId)) :
    (g.add b op operands).1.defs = g.defs ++ [⟨op, operands, false⟩] := rfl

theorem blocks_length_add (g : MIRGraph) (b : BlockId) (op : MOpcode)
    (operands : List (Option DefId)) : (g.add b op operands).1.blocks.length = g.blocks.length := by
  unfold MIRGraph.add
  exact blocks_length_modifyBlock _ _ _

theorem block_add (g : MIRGraph) (b c : BlockId) (op : MOpcode) (operands : List (Option DefId)) :
    (g.add b op operands).1.block c =
      if b = c ∧ c < g.blocks.length then
        { g.block c with instructions := (g.block c).instructions ++ [g.defs.length] }
      else g.block c := by
  unfold MIRGraph.add
  rw [block_modifyBlock]
  rfl

theorem getDef_append_self (g : MIRGraph) (l : List MDefinition) (d : MDefinition)
    (h : l = g.defs ++ [d]) : ({ g with defs := l } : MIRGraph).getDef g.defs.length = d := by
  subst h
  simp [MIRGraph.getDef, List.getD_eq_getElem?_getD]

theorem getDef_append_lt (g : MIRGraph) (l : List MDefinition) (d : MDefinition) (e : DefId)
    (h : l = g.defs ++ [d]) (he : e < g.defs.length) :
    ({ g with defs := l } : MIRGraph).getDef e = g.getDef e := by
  subst h
  simp [MIRGraph.getDef, List.getD_eq_getElem?_getD, List.getElem?_append_left he]

theorem getDef_add_self (g : MIRGraph) (b : BlockId) (op : MOpcode)
    (operands : List (Option DefId)) :
    (g.add b op operands).1.getDef g.defs.length = ⟨op, operands, false⟩ := by
  simp [MIRGraph.getDef, defs_add, List.getD_eq_getElem?_getD]

theorem getDef_add_lt (g : MIRGraph) (b : BlockId) (op : MOpcode)
    (operands : List (Option DefId)) (e : DefId) (he : e < g.defs.length) :
    (g.add b op operands).1.getDef e = g.getDef e := by
  simp [MIRGraph.getDef, defs_add, List.getD_eq_getElem?_getD, List.getElem?_append_left he]

theorem emit_live (f : FunctionCompiler) (cur : BlockId) (h : f.curBlock_ = some cur)
    (op : MOpcode) (operands : List (Option DefId)) :
    f.emit op operands =
      ({ f with graph_ := (f.graph_.add cur op operands).1 }, some f.graph_.defs.length) := by
  unfold emit
  rw [h]
  rfl

/-- The instruction that `emit` builds in live code: it is the new last
definition, it is returned, it is appended to the current block, and the
older definitions are left as they are. -/
theorem emit_spec (f : FunctionCompiler) (cur : BlockId) (h : f.curBlock_ = some cur)
    (op : MOpcode) (operands : List (Option DefId)) :
    (f.emit op operands).2 = some f.graph_.defs.length ∧
    (f.emit op operands).1.curBlock_ = some cur ∧
    (f.emit op operands).1.graph_.defs.length = f.graph_.defs.length + 1 ∧
    (f.emit op operands).1.graph_.blocks.length = f.graph_.blocks.length ∧
    (f.emit op operands).1.graph_.getDef f.graph_.defs.length = ⟨op, operands, false⟩ ∧
    (∀ e, e < f.graph_.defs.length →
      (f.emit op operands).1.graph_.getDef e = f.graph_.getDef e) ∧
    (cur < f.graph_.blocks.length →
      ((f.emit op operands).1.graph_.block cur).instructions =
        (f.graph_.block cur).instructions ++ [f.graph_.defs.length]) := by
  rw [emit_live f cur h]
  refine ⟨rfl, h, ?_, blocks_length_add _ _ _ _, getDef_add_self _ _ _ _,
    fun e he => getDef_add_lt _ _ _ _ e he, ?_⟩
  · show (f.graph_.add cur op operands).1.defs.length = _
    rw [defs_add]
    simp
  · intro hc
    show ((f.graph_.add cur op operands).1.block cur).instructions = _
    rw [block_add]
    simp [hc]

theorem and_mask_lt (k index : Nat) : MBitAnd.value index (2 ^ k - 1) < 2 ^ k := by
  unfold MBitAnd.value
  have h1 : u32 index &&& u32 (2 ^ k - 1) ≤ u32 (2 ^ k - 1) := Nat.and_le_right
  have h2 : u32 (2 ^ k - 1) ≤ 2 ^ k - 1 := Nat.mod_le _ _
  have h3 : 0 < 2 ^ k := Nat.two_pow_pos k
  omega

/-- C17. In live code `funcPtrCall` builds four instructions in this order, at
the end of the current block: the constant of the mask literal, the `MBitAnd`
of the runtime index and that constant, the load from the function-pointer
table whose only operand is the `MBitAnd`, and the call through the loaded
pointer, which is the result. `EmitFuncPtrCall` hands over the mask it decoded
and the value of the index expression. For a mask `2^k - 1` the value of the
`MBitAnd`, the index of the load, is below `2^k` for every runtime index. -/
theorem C17_funcPtrCall_masks_index (abi : ABIArgGenerator) (f : FunctionCompiler) (cur : BlockId)
    (h : f.curBlock_ = some cur) (hcur : cur < f.graph_.blocks.length) :
    (∀ maskLit globalDataOffset index call,
      (f.funcPtrCall maskLit globalDataOffset index call).1.graph_.getDef f.graph_.defs.length =
        ⟨.constant .Int32 maskLit, [], false⟩ ∧
      (f.funcPtrCall maskLit globalDataOffset index call).1.graph_.getDef
          (f.graph_.defs.length + 1) =
        ⟨.op Op.bitAnd, [index, some f.graph_.defs.length], false⟩ ∧
      (f.funcPtrCall maskLit globalDataOffset index call).1.graph_.getDef
          (f.graph_.defs.length + 2) =
        ⟨.loadFuncPtr globalDataOffset, [some (f.graph_.defs.length + 1)], false⟩ ∧
      ((f.funcPtrCall maskLit globalDataOffset index call).1.graph_.getDef
          (f.graph_.defs.length + 3)).op =
        .call (.Dynamic (some (f.graph_.defs.length + 2))) call.regArgs_ call.spIncrement_ ∧
      (f.funcPtrCall maskLit globalDataOffset index call).2 = some (f.graph_.defs.length + 3) ∧
      ((f.funcPtrCall maskLit globalDataOffset index call).1.graph_.block cur).instructions =
        (f.graph_.block cur).instructions ++
          [f.graph_.defs.length, f.graph_.defs.length + 1, f.graph_.defs.length + 2,
            f.graph_.defs.length + 3]) ∧
    (∀ mask globalDataOffset lineno column index args r,
      EmitCall abi (.indirect mask globalDataOffset lineno column index args) f = some r →
      ∃ (ix : FunctionCompiler × Option DefId) (a : FunctionCompiler × Call),
        EmitExpr abi index (f.advance 24) = some ix ∧
        EmitCallArgsLoop abi args (ix.1.startCallArgs (Call.new lineno column)).2
          (ix.1.startCallArgs (Call.new lineno column)).1 = some a ∧
        r = (finishCallArgs abi a.1 a.2).1.funcPtrCall mask globalDataOffset ix.2
          (finishCallArgs abi a.1 a.2).2) ∧
    (∀ k index, MBitAnd.value index (2 ^ k - 1) < 2 ^ k) := by
  refine ⟨?_, ?_, and_mask_lt⟩
  · intro maskLit globalDataOffset index call
    have e0 : f.funcPtrCall maskLit globalDataOffset index call =
        (((f.emit (.constant .Int32 maskLit) []).1.emit (.op 0)
            [index, (f.emit (.constant .Int32 maskLit) []).2]).1.emit
          (.loadFuncPtr globalDataOffset)
            [((f.emit (.constant .Int32 maskLit) []).1.emit (.op 0)
              [index, (f.emit (.constant .Int32 maskLit) []).2]).2]).1.callPrivate
          (.Dynamic (((f.emit (.constant .Int32 maskLit) []).1.emit (.op 0)
            [index, (f.emit (.constant .Int32 maskLit) []).2]).1.emit
          (.loadFuncPtr globalDataOffset)
            [((f.emit (.constant .Int32 maskLit) []).1.emit (.op 0)
              [index, (f.emit (.constant .Int32 maskLit) []).2]).2]).2) call := by
      unfold funcPtrCall
      rw [h]
    rw [e0]
    unfold callPrivate
    obtain ⟨a1, a2, a3, a4, a5, a6, a7⟩ := emit_spec f cur h (.constant .Int32 maskLit) []
    generalize f.emit (.constant .Int32 maskLit) [] = m at *
    obtain ⟨b1, b2, b3, b4, b5, b6, b7⟩ := emit_spec m.1 cur a2 (.op 0) [index, m.2]
    generalize m.1.emit (.op 0) [index, m.2] = a at *
    obtain ⟨c1, c2, c3, c4, c5, c6, c7⟩ := emit_spec a.1 cur b2 (.loadFuncPtr globalDataOffset) [a.2]
    generalize a.1.emit (.loadFuncPtr globalDataOffset) [a.2] = p at *
    obtain ⟨d1, d2, d3, d4, d5, d6, d7⟩ := emit_spec p.1 cur c2
      (.call (.Dynamic p.2) call.regArgs_ call.spIncrement_) (call.regArgs_.map (fun x => x.2))
    generalize p.1.emit (.call (.Dynamic p.2) call.regArgs_ call.spIncrement_)
      (call.regArgs_.map (fun x => x.2)) = q at *
    have hm : m.1.graph_.defs.length = f.graph_.defs.length + 1 := a3
    have ha : a.1.graph_.defs.length = f.graph_.defs.length + 2 := by rw [b3, a3]
    have hp : p.1.graph_.defs.length = f.graph_.defs.length + 3 := by rw [c3, b3, a3]
    refine ⟨?_, ?_, ?_, ?_, ?_, ?_⟩
    · rw [d6 _ (by omega), c6 _ (by omega), b6 _ (by omega), a5]
    · rw [d6 _ (by omega), c6 _ (by omega), ← hm, b5, a1]
      rfl
    · rw [d6 _ (by omega), ← ha, c5, b1, hm]
    · rw [← hp, d5, c1, ha]
    · rw [d1, hp]
    · rw [d7 (by rw [c4, b4, a4]; exact hcur), c7 (by rw [b4, a4]; exact hcur),
        b7 (by rw [a4]; exact hcur), a7 hcur, hm, ha, hp]
      simp
  · intro mask globalDataOffset lineno column index args r hr
    have h2 : (EmitExpr abi index (f.advance 24)).bind (fun ix =>
        (EmitCallArgsLoop abi args (ix.1.startCallArgs (Call.new lineno column)).2
          (ix.1.startCallArgs (Call.new lineno column)).1).bind (fun a =>
          some ((finishCallArgs abi a.1 a.2).1.funcPtrCall mask globalDataOffset ix.2
            (finishCallArgs abi a.1 a.2).2))) = some r := hr
    simp only [Option.bind_eq_some, Option.some.injEq] at h2
    obtain ⟨ix, hix, a, ha, rfl⟩ := h2
    exact ⟨ix, a, hix, ha, rfl⟩

theorem C17_funcPtrCall_masks_index_witness :
    oneIntArg.curBlock_ = some 0 ∧
    (oneIntArg.funcPtrCall 7 64 (some 0) (Call.new 1 1)).1.graph_.getDef 2 =
      ⟨.op Op.bitAnd, [some 0, some 1], false⟩ ∧
    (oneIntArg.funcPtrCall 7 64 (some 0) (Call.new 1 1)).1.graph_.getDef 3 =
      ⟨.loadFuncPtr 64, [some 2], false⟩ ∧
    MBitAnd.value 12 (2 ^ 3 - 1) < 2 ^ 3 :=
  have w := C17_funcPtrCall_masks_index x64ABI oneIntArg 0 (by decide) (by decide)
  ⟨by decide, (w.1 7 64 (some 0) (Call.new 1 1)).2.1, (w.1 7 64 (some 0) (Call.new 1 1)).2.2.1,
    w.2.2 3 12⟩

theorem thresholdSplit_number : ThresholdSplit I32.number := by
  constructor <;> decide

/-- C18. `EmitComparison` takes the compare type and the relational operator
from the opcode alone. For every numbering of the opcodes in which the signed
integer comparisons stand before `ULtI32` and the unsigned ones do not:
`EqI32`, `NeI32`, `SLtI32`, `SLeI32`, `SGtI32`, `SGeI32` give `Compare_Int32`;
`ULtI32`, `ULeI32`, `UGtI32`, `UGeI32` give `Compare_UInt32`; the `F32`
opcodes give `Compare_Float32` and the `F64` opcodes `Compare_Double`. The
operator is the one the opcode names, whatever the type. The instruction
built in live code is the `MCompare` of the two operand values with that
operator and compare type. -/
theorem C18_comparison_variant_from_opcode (num : I32 → Nat) (hnum : ThresholdSplit num) :
    (∀ s ∈ [I32.EqI32, .NeI32, .SLtI32, .SLeI32, .SGtI32, .SGeI32],
      compareTypeOf num s = some .Compare_Int32) ∧
    (∀ u ∈ [I32.ULtI32, .ULeI32, .UGtI32, .UGeI32],
      compareTypeOf num u = some .Compare_UInt32) ∧
    (∀ s ∈ [I32.EqF32, .NeF32, .LtF32, .LeF32, .GtF32, .GeF32],
      compareTypeOf num s = some .Compare_Float32) ∧
    (∀ s ∈ [I32.EqF64, .NeF64, .LtF64, .LeF64, .GtF64, .GeF64],
      compareTypeOf num s = some .Compare_Double) ∧
    (∀ s ∈ [I32.EqI32, .EqF32, .EqF64], compareOpOf s = some .JSOP_EQ) ∧
    (∀ s ∈ [I32.NeI32, .NeF32, .NeF64], compareOpOf s = some .JSOP_NE) ∧
    (∀ s ∈ [I32.SLtI32, .ULtI32, .LtF32, .LtF64], compareOpOf s = some .JSOP_LT) ∧
    (∀ s ∈ [I32.SLeI32, .ULeI32, .LeF32, .LeF64], compareOpOf s = some .JSOP_LE) ∧
    (∀ s ∈ [I32.SGtI32, .UGtI32, .GtF32, .GtF64], compareOpOf s = some .JSOP_GT) ∧
    (∀ s ∈ [I32.SGeI32, .UGeI32, .GeF32, .GeF64], compareOpOf s = some .JSOP_GE) ∧
    (∀ abi stmt lhs rhs f res, EmitComparison abi num stmt lhs rhs f = some res →
      ∃ compareType compareOp l r, compareTypeOf num stmt = some compareType ∧
        compareOpOf stmt = some compareOp ∧ EmitExpr abi lhs f = some l ∧
        EmitExpr abi rhs l.1 = some r ∧ res = r.1.compare l.2 r.2 compareOp compareType ∧
        (∀ cur, r.1.curBlock_ = some cur →
          res.2 = some r.1.graph_.defs.length ∧
          res.1.graph_.getDef r.1.graph_.defs.length =
            ⟨.compare compareOp compareType, [l.2, r.2], false⟩)) := by
  obtain ⟨hs, hu⟩ := hnum
  refine ⟨?_, ?_, ?_, ?_, by decide, by decide, by decide, by decide, by decide, by decide, ?_⟩
  · intro s hmem
    have := hs s hmem
    simp only [List.mem_cons, List.mem_singleton, List.not_mem_nil, or_false] at hmem
    rcases hmem with rfl | rfl | rfl | rfl | rfl | rfl <;> simp only [compareTypeOf, this, if_true]
  · intro u hmem
    have := Nat.not_lt.2 (hu u hmem)
    simp only [List.mem_cons, List.mem_singleton, List.not_mem_nil, or_false] at hmem
    rcases hmem with rfl | rfl | rfl | rfl <;> simp only [compareTypeOf, this, if_false]
  · intro s hmem
    simp only [List.mem_cons, List.mem_singleton, List.not_mem_nil, or_false] at hmem
    rcases hmem with rfl | rfl | rfl | rfl | rfl | rfl <;> rfl
  · intro s hmem
    simp only [List.mem_cons, List.mem_singleton, List.not_mem_nil, or_false] at hmem
    rcases hmem with rfl | rfl | rfl | rfl | rfl | rfl <;> rfl
  · intro abi stmt lhs rhs f res h
    unfold EmitComparison at h
    simp only [bind, Option.bind_eq_some, pure, Option.some.injEq] at h
    obtain ⟨ty, hty, l, hl, r, hr, op, hop, rfl⟩ := h
    refine ⟨ty, op, l, r, hty, hop, hl, hr, rfl, ?_⟩
    intro cur hc
    unfold FunctionCompiler.compare
    exact ⟨(emit_spec r.1 cur hc _ _).1, (emit_spec r.1 cur hc _ _).2.2.2.2.1⟩

theorem C18_comparison_variant_from_opcode_witness :
    ThresholdSplit I32.number ∧
    compareTypeOf I32.number .SGeI32 = some .Compare_Int32 ∧
    compareTypeOf I32.number .UGeI32 = some .Compare_UInt32 ∧
    compareOpOf .UGeI32 = some .JSOP_GE :=
  have w := C18_comparison_variant_from_opcode I32.number thresholdSplit_number
  ⟨thresholdSplit_number, w.1 .SGeI32 (by decide), w.2.1 .UGeI32 (by decide),
    w.2.2.2.2.2.2.2.2.2.1 .UGeI32 (by decide)⟩

theorem newIns_emit (f : FunctionCompiler) (cur : BlockId) (h : f.curBlock_ = some cur)
    (op : MOpcode) (operands : List (Option DefId)) :
    newIns f (f.emit op operands).1 = ⟨op, operands, false⟩ :=
  (emit_spec f cur h op operands).2.2.2.2.1

/-- C19. In live code: the instruction `atomicLoadHeap` builds is a heap load
that carries the before-load and the after-load barrier request, the one
`atomicStoreHeap` builds is a heap store that carries the before-store and the
after-store barrier request, and the ones `loadHeap` and `storeHeap` build
carry no barrier request. The instruction of each atomic operation (load,
store, compare-exchange, exchange, binop) differs from the instruction that
`loadHeap` or `storeHeap` builds, whatever the operands, view type and
bounds-check flag. -/
theorem C19_atomics_carry_barriers (f : FunctionCompiler) (cur : BlockId)
    (h : f.curBlock_ = some cur) :
    (∀ t ptr chk, newIns f (f.atomicLoadHeap t ptr chk).1 =
      ⟨.asmJSLoadHeap t chk 0 .MembarBeforeLoad .MembarAfterLoad, [ptr], false⟩) ∧
    (∀ t ptr v chk, newIns f (f.atomicStoreHeap t ptr v chk) =
      ⟨.asmJSStoreHeap t chk 0 .MembarBeforeStore .MembarAfterStore, [ptr, v], false⟩) ∧
    (∀ t ptr chk, newIns f (f.loadHeap t ptr chk).1 =
      ⟨.asmJSLoadHeap t chk 0 .MembarNobits .MembarNobits, [ptr], false⟩) ∧
    (∀ t ptr v chk, newIns f (f.storeHeap t ptr v chk) =
      ⟨.asmJSStoreHeap t chk 0 .MembarNobits .MembarNobits, [ptr, v], false⟩) ∧
    (∀ t ptr chk t' ptr' v' chk',
      newIns f (f.atomicLoadHeap t ptr chk).1 ≠ newIns f (f.loadHeap t' ptr' chk').1 ∧
      newIns f (f.atomicLoadHeap t ptr chk).1 ≠ newIns f (f.storeHeap t' ptr' v' chk')) ∧
    (∀ t ptr v chk t' ptr' v' chk',
      newIns f (f.atomicStoreHeap t ptr v chk) ≠ newIns f (f.loadHeap t' ptr' chk').1 ∧
      newIns f (f.atomicStoreHeap t ptr v chk) ≠ newIns f (f.storeHeap t' ptr' v' chk')) ∧
    (∀ t ptr oldv newv chk t' ptr' v' chk',
      newIns f (f.atomicCompareExchangeHeap t ptr oldv newv chk).1 ≠
        newIns f (f.loadHeap t' ptr' chk').1 ∧
      newIns f (f.atomicCompareExchangeHeap t ptr oldv newv chk).1 ≠
        newIns f (f.storeHeap t' ptr' v' chk')) ∧
    (∀ t ptr v chk t' ptr' v' chk',
      newIns f (f.atomicExchangeHeap t ptr v chk).1 ≠ newIns f (f.loadHeap t' ptr' chk').1 ∧
      newIns f (f.atomicExchangeHeap t ptr v chk).1 ≠ newIns f (f.storeHeap t' ptr' v' chk')) ∧
    (∀ op t ptr v chk t' ptr' v' chk',
      newIns f (f.atomicBinopHeap op t ptr v chk).1 ≠ newIns f (f.loadHeap t' ptr' chk').1 ∧
      newIns f (f.atomicBinopHeap op t ptr v chk).1 ≠ newIns f (f.storeHeap t' ptr' v' chk')) := by
  have e := newIns_emit f cur h
  refine ⟨fun _ _ _ => e _ _, fun _ _ _ _ => e _ _, fun _ _ _ => e _ _, fun _ _ _ _ => e _ _,
    ?_, ?_, ?_, ?_, ?_⟩ <;> intros <;> constructor <;> intro hh <;>
    simp only [atomicLoadHeap, atomicStoreHeap, loadHeap, storeHeap, atomicCompareExchangeHeap,
      atomicExchangeHeap, atomicBinopHeap, e] at hh <;> cases hh

theorem C19_atomics_carry_barriers_witness :
    oneIntArg.curBlock_ = some 0 ∧
    newIns oneIntArg (oneIntArg.atomicLoadHeap .Int32 (some 0) true).1 =
      ⟨.asmJSLoadHeap .Int32 true 0 .MembarBeforeLoad .MembarAfterLoad, [some 0], false⟩ ∧
    newIns oneIntArg (oneIntArg.atomicLoadHeap .Int32 (some 0) true).1 ≠
      newIns oneIntArg (oneIntArg.loadHeap .Int32 (some 0) true).1 :=
  have w := C19_atomics_carry_barriers oneIntArg 0 (by decide)
  ⟨by decide, w.1 .Int32 (some 0) true,
    (w.2.2.2.2.1 .Int32 (some 0) true .Int32 (some 0) none true).1⟩

/-! ## Resource exhaustion (C20) -/

/-- C20. A fallible step of `prepareEmitMIR` whose failure is not propagated:
for a function with five `int` arguments, when the allocation of the fifth
`localVarTypes_.append` fails, the append returns false, and `prepareEmitMIR`
still returns true, with the same builder state as without any failure and
with only four types in `localVarTypes_`. -/
theorem C20_append_failure_ignored :
    (appendLocalVarType (fifthAppendFails (.appendLocalVarType 4))
      [.Int32, .Int32, .Int32, .Int32] .Int32).1 = false ∧
    prepareEmitMIRFallible fifthAppendFails fiveIntArgs [] =
      some (prepareEmitMIR fiveIntArgs [], [.Int32, .Int32, .Int32, .Int32]) ∧
    prepareEmitMIRFallible (fun _ => false) fiveIntArgs [] =
      some (prepareEmitMIR fiveIntArgs [], fiveIntArgs) := by
  refine ⟨by decide, ?_, ?_⟩ <;> rfl

/-! ## Argument classification (C16) -/

theorem passArg_reg (abi : ABIArgGenerator) (f : FunctionCompiler) (argDef : Option DefId)
    (mirType : MIRType) (call : Call) (cur : BlockId) (reg : Nat)
    (hlive : f.curBlock_ = some cur) (hk : abi.next call.abi_ mirType = .reg reg) :
    (passArg abi f argDef mirType call).2.abi_ = call.abi_ ++ [mirType] ∧
    (passArg abi f argDef mirType call).2.regArgs_ = call.regArgs_ ++ [(reg, argDef)] ∧
    (passArg abi f argDef mirType call).2.stackArgs_ = call.stackArgs_ ∧
    (passArg abi f argDef mirType call).1.curBlock_ = some cur := by
  unfold passArg
  rw [hlive]
  dsimp only [resetAsmJSMaxStackArgBytes]
  rw [hk]
  exact ⟨rfl, rfl, rfl, hlive⟩

theorem passArg_stack (abi : ABIArgGenerator) (f : FunctionCompiler) (argDef : Option DefId)
    (mirType : MIRType) (call : Call) (cur : BlockId) (off : Nat)
    (hlive : f.curBlock_ = some cur) (hk : abi.next call.abi_ mirType = .stack off) :
    (passArg abi f argDef mirType call).2.abi_ = call.abi_ ++ [mirType] ∧
    (passArg abi f argDef mirType call).2.regArgs_ = call.regArgs_ ∧
    (passArg abi f argDef mirType call).2.stackArgs_ =
      call.stackArgs_ ++ [f.graph_.defs.length] ∧
    (passArg abi f argDef mirType call).1.graph_.getDef f.graph_.defs.length =
      ⟨.passStackArg off, [argDef], false⟩ ∧
    (passArg abi f argDef mirType call).1.curBlock_ = some cur := by
  unfold passArg
  rw [hlive]
  dsimp only [resetAsmJSMaxStackArgBytes]
  rw [hk]
  exact ⟨rfl, rfl, rfl, getDef_add_self _ _ _ _, hlive⟩

theorem passArg_curBlock (abi : ABIArgGenerator) (f : FunctionCompiler) (argDef : Option DefId)
    (mirType : MIRType) (call : Call) :
    (passArg abi f argDef mirType call).1.curBlock_ = f.curBlock_ := by
  unfold passArg
  cases hc : f.curBlock_ with
  | none => exact hc
  | some cur =>
    dsimp only [resetAsmJSMaxStackArgBytes]
    cases abi.next call.abi_ mirType <;> exact hc

theorem finishCallArgs_lists (abi : ABIArgGenerator) (f : FunctionCompiler) (call : Call) :
    (finishCallArgs abi f call).2.abi_ = call.abi_ ∧
    (finishCallArgs abi f call).2.regArgs_ = call.regArgs_ ∧
    (finishCallArgs abi f call).2.stackArgs_ = call.stackArgs_ := by
  unfold finishCallArgs
  cases f.curBlock_ with
  | none => exact ⟨rfl, rfl, rfl⟩
  | some cur =>
    dsimp only
    split <;> exact ⟨rfl, rfl, rfl⟩

theorem EmitCallArgsLoop_cons (abi : ABIArgGenerator) (type : AsmType) (e : Expr) (rest : Args)
    (call : Call) (f : FunctionCompiler) :
    EmitCallArgsLoop abi (.cons type e rest) call f =
      (EmitExpr abi e f).bind (fun r =>
        EmitCallArgsLoop abi rest (passArg abi r.1 r.2 (MIRTypeFromAsmType type) call).2
          (passArg abi r.1 r.2 (MIRTypeFromAsmType type) call).1) := rfl

theorem callArgs_marshalled (abi : ABIArgGenerator) :
    ∀ (args : Args) (call : Call) (f : FunctionCompiler) (a : FunctionCompiler × Call),
      EmitCallArgsLoop abi args call f = some a →
      (∀ x ∈ EmitCallArgsTrace abi args call f, x.2.2.1.curBlock_ ≠ none) →
      (EmitCallArgsTrace abi args call f).map (fun x => x.1) = args.types ∧
      a.2.abi_ = call.abi_ ++ args.types ∧
      a.2.regArgs_ = call.regArgs_ ++ registerArgs (classifyArgs abi call.abi_
        ((EmitCallArgsTrace abi args call f).map (fun x => (x.1, x.2.1)))) ∧
      ∃ ids, a.2.stackArgs_ = call.stackArgs_ ++ ids ∧
        List.Forall₂ (fun id x => x.2.2.graph_.getDef id = ⟨.passStackArg x.1, [x.2.1], false⟩)
          ids (stackArgsAt (classifyArgs abi call.abi_
            ((EmitCallArgsTrace abi args call f).map (fun x => (x.1, (x.2.1, x.2.2.1))))))
  | .nil, call, f, a, h, _ => by
    cases h
    exact ⟨rfl, (List.append_nil _).symm, (List.append_nil _).symm, [],
      (List.append_nil _).symm, List.Forall₂.nil⟩
  | .cons type e rest, call, f, a, h, hl => by
    rw [EmitCallArgsLoop_cons] at h
    simp only [Option.bind_eq_some] at h
    obtain ⟨r, hr, h⟩ := h
    have htr : EmitCallArgsTrace abi (.cons type e rest) call f =
        (MIRTypeFromAsmType type, r.2, passArg abi r.1 r.2 (MIRTypeFromAsmType type) call) ::
        EmitCallArgsTrace abi rest (passArg abi r.1 r.2 (MIRTypeFromAsmType type) call).2
          (passArg abi r.1 r.2 (MIRTypeFromAsmType type) call).1 := by
      rw [EmitCallArgsTrace, hr]
    rw [htr] at hl ⊢
    have hp := hl _ (List.mem_cons_self _ _)
    have hlive : r.1.curBlock_ ≠ none := by
      rw [← passArg_curBlock abi r.1 r.2 (MIRTypeFromAsmType type) call]
      exact hp
    obtain ⟨cur, hcur⟩ := Option.ne_none_iff_exists'.1 hlive
    obtain ⟨i1, i2, i3, ids, i4, i5⟩ := callArgs_marshalled abi rest _ _ a h
      (fun x hx => hl x (List.mem_cons_of_mem _ hx))
    simp only [List.map_cons, Args.types, classifyArgs]
    cases hk : abi.next call.abi_ (MIRTypeFromAsmType type) with
    | reg reg =>
      obtain ⟨p1, p2, p3, -⟩ := passArg_reg abi r.1 r.2 _ call cur reg hcur hk
      rw [p1] at i2 i3 i5
      rw [p2] at i3
      rw [p3] at i4
      refine ⟨by rw [i1], by rw [i2, List.append_assoc]; rfl, ?_, ids, i4, ?_⟩
      · rw [i3, List.append_assoc]
        simp [registerArgs]
      · simpa [stackArgsAt] using i5
    | stack off =>
      obtain ⟨p1, p2, p3, p4, -⟩ := passArg_stack abi r.1 r.2 _ call cur off hcur hk
      rw [p1] at i2 i3 i5
      rw [p2] at i3
      rw [p3] at i4
      refine ⟨by rw [i1], by rw [i2, List.append_assoc]; rfl, ?_, r.1.graph_.defs.length :: ids,
        by rw [i4, List.append_assoc]; rfl, ?_⟩
      · rw [i3]
        simp [registerArgs]
      · have : stackArgsAt ((ABIArg.stack off, (r.2,
            (passArg abi r.1 r.2 (MIRTypeFromAsmType type) call).1)) ::
            classifyArgs abi (call.abi_ ++ [MIRTypeFromAsmType type])
              ((EmitCallArgsTrace abi rest
                (passArg abi r.1 r.2 (MIRTypeFromAsmType type) call).2
                (passArg abi r.1 r.2 (MIRTypeFromAsmType type) call).1).map
                (fun x => (x.1, (x.2.1, x.2.2.1))))) =
            (off, (r.2, (passArg abi r.1 r.2 (MIRTypeFromAsmType type) call).1)) ::
            stackArgsAt (classifyArgs abi (call.abi_ ++ [MIRTypeFromAsmType type])
              ((EmitCallArgsTrace abi rest
                (passArg abi r.1 r.2 (MIRTypeFromAsmType type) call).2
                (passArg abi r.1 r.2 (MIRTypeFromAsmType type) call).1).map
                (fun x => (x.1, (x.2.1, x.2.2.1))))) := by
          simp [stackArgsAt]
        rw [this]
        exact List.Forall₂.cons p4 i5

theorem length_register_stack {α β γ : Type} (abi : ABIArgGenerator) (l : List (MIRType × γ))
    (fn : γ → α) (gn : γ → β) :
    ∀ seen, (registerArgs (classifyArgs abi seen (l.map (fun x => (x.1, fn x.2))))).length +
      (stackArgsAt (classifyArgs abi seen (l.map (fun x => (x.1, gn x.2))))).length = l.length := by
  induction l with
  | nil => intro seen; rfl
  | cons x rest ih =>
    intro seen
    have := ih (seen ++ [x.1])
    simp only [classifyArgs, List.map_cons, registerArgs, stackArgsAt, List.filterMap_cons,
      List.length_cons] at this ⊢
    cases abi.next seen x.1 <;> simp only [List.length_cons] <;> omega

theorem length_types : ∀ args : Args, args.types.length = args.length
  | .nil => rfl
  | .cons _ _ rest => by simp [Args.types, Args.length, length_types rest]

/-- C16. The loop of `EmitCallArgs` emits the first argument expression and
passes its value before it goes on with the remaining arguments in the state
and with the call descriptor that `passArg` left. When the builder is in live
code at every `passArg`, then after `finishCallArgs`: the ABI generator of the
call was given the argument types in signature order; the register-argument
list was extended by the arguments that `ABIArgGenerator::next` classified as
register arguments, in order, each with its register and its value; the
stack-argument list was extended by one instruction per argument classified
as a stack argument, in order, and that instruction was created by `passArg`
with the offset the generator returned and the value of the argument as its
operand; the two lists grew by the number of arguments together. -/
theorem C16_args_classified_in_order (abi : ABIArgGenerator) (args : Args) (call : Call)
    (f : FunctionCompiler) (a : FunctionCompiler × Call)
    (h : EmitCallArgsLoop abi args call f = some a)
    (hlive : ∀ x ∈ EmitCallArgsTrace abi args call f, x.2.2.1.curBlock_ ≠ none) :
    (∀ type e rest call f, EmitCallArgsLoop abi (.cons type e rest) call f =
      (EmitExpr abi e f).bind (fun r =>
        EmitCallArgsLoop abi rest (passArg abi r.1 r.2 (MIRTypeFromAsmType type) call).2
          (passArg abi r.1 r.2 (MIRTypeFromAsmType type) call).1)) ∧
    (EmitCallArgsTrace abi args call f).map (fun x => x.1) = args.types ∧
    (finishCallArgs abi a.1 a.2).2.abi_ = call.abi_ ++ args.types ∧
    (finishCallArgs abi a.1 a.2).2.regArgs_ =
      call.regArgs_ ++ registerArgs (classifyArgs abi call.abi_
        ((EmitCallArgsTrace abi args call f).map (fun x => (x.1, x.2.1)))) ∧
    (∃ ids, (finishCallArgs abi a.1 a.2).2.stackArgs_ = call.stackArgs_ ++ ids ∧
      List.Forall₂ (fun id x => x.2.2.graph_.getDef id = ⟨.passStackArg x.1, [x.2.1], false⟩)
        ids (stackArgsAt (classifyArgs abi call.abi_
          ((EmitCallArgsTrace abi args call f).map (fun x => (x.1, (x.2.1, x.2.2.1))))))) ∧
    (finishCallArgs abi a.1 a.2).2.regArgs_.length +
      (finishCallArgs abi a.1 a.2).2.stackArgs_.length =
      call.regArgs_.length + call.stackArgs_.length + args.length := by
  obtain ⟨m1, m2, m3, ids, m4, m5⟩ := callArgs_marshalled abi args call f a h hlive
  obtain ⟨f1, f2, f3⟩ := finishCallArgs_lists abi a.1 a.2
  refine ⟨fun _ _ _ _ _ => rfl, m1, f1.trans m2, f2.trans m3, ⟨ids, f3.trans m4, m5⟩, ?_⟩
  rw [f2, f3, m3, m4, List.length_append, List.length_append, m5.length_eq]
  have hl := length_register_stack abi (EmitCallArgsTrace abi args call f)
    (fun y => y.1) (fun y => (y.1, y.2.1)) call.abi_
  have ht : (EmitCallArgsTrace abi args call f).length = args.length := by
    rw [← length_types, ← m1, List.length_map]
  rw [ht] at hl
  omega

theorem C16_args_classified_in_order_witness :
    EmitCallArgsLoop x64ABI sevenInts (Call.new 0 0) oneIntArg = some sevenIntsMarshalled ∧
    sevenIntsMarshalled.2.regArgs_.length = 6 ∧ sevenIntsMarshalled.2.stackArgs_.length = 1 ∧
    (finishCallArgs x64ABI sevenIntsMarshalled.1 sevenIntsMarshalled.2).2.regArgs_.length +
      (finishCallArgs x64ABI sevenIntsMarshalled.1 sevenIntsMarshalled.2).2.stackArgs_.length =
      (Call.new 0 0).regArgs_.length + (Call.new 0 0).stackArgs_.length + sevenInts.length :=
  ⟨by decide, by decide, by decide,
    (C16_args_classified_in_order x64ABI sevenInts (Call.new 0 0) oneIntArg sevenIntsMarshalled
      (by decide) (by decide)).2.2.2.2.2⟩

/-! ## The value stack of the blocks (C15) -/

theorem stackDepth_modifyBlock (g : MIRGraph) (b c : BlockId) (fn : MBasicBlock → MBasicBlock) :
    (g.modifyBlock b fn).stackDepth c =
      if b = c ∧ c < g.blocks.length then (fn (g.block c)).slots.length else g.stackDepth c := by
  unfold MIRGraph.stackDepth
  rw [block_modifyBlock]
  split <;> rfl

theorem SameDepth.sd_refl (g : MIRGraph) : SameDepth g g := ⟨rfl, fun _ => rfl⟩

theorem SameDepth.sd_trans {g1 g2 g3 : MIRGraph} (h1 : SameDepth g1 g2) (h2 : SameDepth g2 g3) :
    SameDepth g1 g3 :=
  ⟨h2.1.trans h1.1, fun c => (h2.2 c).trans (h1.2 c)⟩

theorem sameDepth_modifyBlock (g : MIRGraph) (b : BlockId) (fn : MBasicBlock → MBasicBlock)
    (h : ∀ blk, (fn blk).slots.length = blk.slots.length) : SameDepth g (g.modifyBlock b fn) := by
  refine ⟨blocks_length_modifyBlock g b fn, fun c => ?_⟩
  rw [stackDepth_modifyBlock]
  split
  · exact h _
  · rfl

theorem sameDepth_modifyDef (g : MIRGraph) (d : DefId) (fn : MDefinition → MDefinition) :
    SameDepth g (g.modifyDef d fn) := ⟨rfl, fun _ => rfl⟩

theorem sameDepth_newDef (g : MIRGraph) (d : MDefinition) : SameDepth g (g.newDef d).1 :=
  ⟨rfl, fun _ => rfl⟩

theorem sameDepth_setSlot (g : MIRGraph) (b : BlockId) (i : Nat) (d : Option DefId) :
    SameDepth g (g.setSlot b i d) := by
  unfold MIRGraph.setSlot
  refine sameDepth_modifyBlock g b _ ?_
  intro blk
  exact List.length_set _ _ _

theorem sameDepth_moveBlockToEnd (g : MIRGraph) (b : BlockId) :
    SameDepth g (g.moveBlockToEnd b) := ⟨rfl, fun _ => rfl⟩

theorem sameDepth_endBlock (g : MIRGraph) (b : BlockId) (c : MControl) :
    SameDepth g (g.endBlock b c) := by
  unfold MIRGraph.endBlock
  exact sameDepth_modifyBlock g b _ (fun _ => rfl)

theorem sameDepth_add (g : MIRGraph) (b : BlockId) (op : MOpcode)
    (operands : List (Option DefId)) : SameDepth g (g.add b op operands).1 := by
  unfold MIRGraph.add
  exact (sameDepth_newDef g _).sd_trans (sameDepth_modifyBlock _ b _ (fun _ => rfl))

theorem sameDepth_foldl {α : Type} (step : MIRGraph → α → MIRGraph) (l : List α)
    (h : ∀ g a, SameDepth g (step g a)) (g : MIRGraph) : SameDepth g (l.foldl step g) := by
  induction l generalizing g with
  | nil => exact SameDepth.sd_refl g
  | cons a as ih => exact (h g a).sd_trans (ih _)

theorem sameDepth_addPhiForSlot (g : MIRGraph) (b : BlockId) (i : Nat)
    (mine other : Option DefId) : SameDepth g (addPhiForSlot g b i mine other) := by
  unfold addPhiForSlot
  dsimp only
  apply SameDepth.sd_trans _ (sameDepth_setSlot _ b i _)
  exact (sameDepth_newDef g _).sd_trans (sameDepth_modifyBlock _ b _ (fun _ => rfl))

theorem sameDepth_addPredecessorSlot (b pred : BlockId) (g : MIRGraph) (i : Nat) :
    SameDepth g (addPredecessorSlot b pred g i) := by
  unfold addPredecessorSlot
  dsimp only
  split
  · exact SameDepth.sd_refl g
  · split
    · split
      · exact sameDepth_modifyDef g _ _
      · exact sameDepth_addPhiForSlot _ _ _ _ _
    · exact sameDepth_addPhiForSlot _ _ _ _ _

theorem sameDepth_addPredecessor (g : MIRGraph) (b pred : BlockId) :
    SameDepth g (MBasicBlock.addPredecessor g b pred) := by
  unfold MBasicBlock.addPredecessor
  refine SameDepth.sd_trans ?_ (sameDepth_modifyBlock _ b _ (fun _ => rfl))
  exact sameDepth_foldl _ _ (fun g i => sameDepth_addPredecessorSlot b pred g i) g

theorem sameDepth_setBackedgeAsmJS (g : MIRGraph) (b pred : BlockId) :
    SameDepth g (MBasicBlock.setBackedgeAsmJS g b pred) := by
  unfold MBasicBlock.setBackedgeAsmJS
  refine SameDepth.sd_trans ?_ (sameDepth_modifyBlock _ b _ (fun _ => rfl))
  refine sameDepth_foldl _ _ (fun g x => ?_) g
  unfold setBackedgeSlot
  exact (sameDepth_modifyDef g _ _).sd_trans (sameDepth_setSlot _ _ _ _)

theorem sameDepth_fixup (g : MIRGraph) (b : BlockId) : SameDepth g (fixupRedundantPhis g b) := by
  unfold fixupRedundantPhis
  exact sameDepth_modifyBlock g b _ (fun _ => List.length_map _ _)

theorem sameDepth_fixupMap (g : MIRGraph) (le : BlockId) (m : BlockMap) :
    SameDepth g (fixupRedundantPhisMap g le m) := by
  unfold fixupRedundantPhisMap
  refine sameDepth_foldl _ m (fun g e => ?_) g
  refine sameDepth_foldl _ e.2 (fun g b => ?_) g
  dsimp only
  split
  · exact sameDepth_fixup g b
  · exact SameDepth.sd_refl g

theorem sameDepth_flag (g : MIRGraph) (le : BlockId) : SameDepth g (flagRedundantPhis g le) := by
  unfold flagRedundantPhis
  refine sameDepth_foldl _ _ (fun g p => ?_) g
  dsimp only
  split
  · exact sameDepth_modifyDef g _ _
  · exact SameDepth.sd_refl g

theorem sameDepth_justReplace (g : MIRGraph) (old : DefId) (new : Option DefId) :
    SameDepth g (justReplaceAllUsesWith g old new) := by
  refine ⟨by simp [justReplaceAllUsesWith], fun b => ?_⟩
  have hd : (default : MBasicBlock) =
      (fun x : MBasicBlock => { x with lastIns := x.lastIns.map (MControl.replaceUses old new) })
        default := rfl
  simp only [MIRGraph.stackDepth, justReplaceAllUsesWith, MIRGraph.block]
  conv_lhs => rw [hd, List.getD_map]

theorem sameDepth_discardRedundant (g : MIRGraph) (le : BlockId) :
    SameDepth g (discardRedundantPhis g le) := by
  unfold discardRedundantPhis
  refine sameDepth_foldl _ _ (fun g p => ?_) g
  dsimp only
  split
  · have h1 := sameDepth_justReplace g p ((g.getDef p).operands.getD 0 none)
    have h2 : SameDepth (justReplaceAllUsesWith g p ((g.getDef p).operands.getD 0 none))
        (discardPhi (justReplaceAllUsesWith g p ((g.getDef p).operands.getD 0 none)) le p) := by
      unfold discardPhi
      exact sameDepth_modifyBlock _ le _ (fun _ => rfl)
    exact (h1.sd_trans h2).sd_trans ⟨rfl, fun _ => rfl⟩
  · exact SameDepth.sd_refl g

theorem sameDepth_setLoopBackedge (f : FunctionCompiler) (le be : BlockId)
    (afterLoop : Option BlockId) : SameDepth f.graph_ (f.setLoopBackedge le be afterLoop).graph_ := by
  unfold setLoopBackedge
  dsimp only
  refine SameDepth.sd_trans ?_ (sameDepth_discardRedundant _ le)
  refine SameDepth.sd_trans (SameDepth.sd_trans (SameDepth.sd_trans (SameDepth.sd_trans ?_
    (sameDepth_fixupMap _ le f.labeledContinues_)) (sameDepth_fixupMap _ le f.labeledBreaks_))
    (sameDepth_fixupMap _ le f.unlabeledContinues_)) (sameDepth_fixupMap _ le f.unlabeledBreaks_)
  refine SameDepth.sd_trans ((sameDepth_setBackedgeAsmJS _ le be).sd_trans (sameDepth_flag _ le)) ?_
  cases afterLoop with
  | none => exact SameDepth.sd_refl _
  | some a => exact sameDepth_fixup _ a

theorem sameDepth_incrementOffsets (l : List DefId) (inc : Nat) (g : MIRGraph) :
    SameDepth g (l.foldl (fun g d => incrementOffset g d inc) g) :=
  sameDepth_foldl _ l (fun g d => sameDepth_modifyDef g d _) g

theorem parked_of_getMap {f f' : FunctionCompiler} (h : ∀ sel, f'.getMap sel = f.getMap sel)
    (b : BlockId) : f'.parked b ↔ f.parked b := by
  unfold FunctionCompiler.parked
  simp only [h]

theorem parked_of_bk {f f' : FunctionCompiler} (h : f'.bookkeeping = f.bookkeeping)
    (b : BlockId) : f'.parked b ↔ f.parked b :=
  parked_of_getMap (fun sel => getMap_of_bookkeeping h sel) b

theorem parked_sub {f f' : FunctionCompiler}
    (h : ∀ sel, ∀ e ∈ f'.getMap sel, e ∈ f.getMap sel) (b : BlockId) (hb : f'.parked b) :
    f.parked b := by
  obtain ⟨sel, e, he, hm⟩ := hb
  exact ⟨sel, e, h sel e he, hm⟩

/-- The depth facts of a step in which the graph keeps the depth of its old
blocks, the current block is given with its properties, and no block is newly
parked except the block that was current. -/
theorem dstep_mk (n : Nat) (f f' : FunctionCompiler) (hn : n ≤ f.graph_.blocks.length)
    (hd : DepthOk f) (hnum : f'.numLocals = f.numLocals)
    (hlen : f.graph_.blocks.length ≤ f'.graph_.blocks.length)
    (hg : ∀ b, b < f.graph_.blocks.length → f'.graph_.stackDepth b = f.graph_.stackDepth b)
    (hcur : ∀ c, f'.curBlock_ = some c →
      (f.curBlock_ = some c ∧ ¬ f'.parked c) ∨
      (f.graph_.blocks.length ≤ c ∧ c < f'.graph_.blocks.length ∧
        f'.graph_.stackDepth c = f.numLocals))
    (hpark : ∀ b, f'.parked b → f.parked b ∨ f.curBlock_ = some b) : DepthStep n f f' := by
  have hp : ∀ b, f'.parked b → b < f.graph_.blocks.length ∧ f.graph_.stackDepth b = f.numLocals := by
    intro b hb
    rcases hpark b hb with h | h
    · exact hd.2 b h
    · exact ⟨(hd.1 b h).1, (hd.1 b h).2.1⟩
  refine ⟨hn, hnum, hlen, fun b hb => hg b (Nat.lt_of_lt_of_le hb hn), ?_, ?_, ?_, ?_⟩
  · intro c hc
    rcases hcur c hc with h | h
    · exact Or.inl h.1
    · exact Or.inr (Nat.le_trans hn h.1)
  · intro b hb
    rcases hpark b hb with h | h
    · exact Or.inl h
    · exact Or.inr (Or.inl h)
  · intro c hc
    rcases hcur c hc with h | h
    · obtain ⟨h1, h2, -⟩ := hd.1 c h.1
      exact ⟨Nat.lt_of_lt_of_le h1 hlen, by rw [hg c h1, h2, hnum], h.2⟩
    · refine ⟨h.2.1, by rw [h.2.2, hnum], fun hpk => ?_⟩
      exact absurd (hp c hpk).1 (Nat.not_lt.2 h.1)
  · intro b hb
    obtain ⟨h1, h2⟩ := hp b hb
    exact ⟨Nat.lt_of_lt_of_le h1 hlen, by rw [hg b h1, h2, hnum]⟩

theorem dstep_refl (f : FunctionCompiler) (hd : DepthOk f) :
    DepthStep f.graph_.blocks.length f f :=
  ⟨Nat.le_refl _, rfl, Nat.le_refl _, fun _ _ => rfl, fun _ h => Or.inl h, fun _ h => Or.inl h, hd⟩

theorem dstep_trans {n m : Nat} {f f1 f2 : FunctionCompiler} (h1 : DepthStep n f f1)
    (h2 : DepthStep m f1 f2) (hnm : n ≤ m) : DepthStep n f f2 := by
  obtain ⟨a0, a1, a2, a3, a4, a5, a6⟩ := h1
  obtain ⟨b0, b1, b2, b3, b4, b5, b6⟩ := h2
  refine ⟨a0, b1.trans a1, Nat.le_trans a2 b2, ?_, ?_, ?_, b6⟩
  · intro b hb
    rw [b3 b (Nat.lt_of_lt_of_le hb hnm), a3 b hb]
  · intro c hc
    rcases b4 c hc with h | h
    · exact a4 c h
    · exact Or.inr (Nat.le_trans hnm h)
  · intro b hb
    rcases b5 b hb with h | h | h
    · exact a5 b h
    · rcases a4 b h with h' | h'
      · exact Or.inr (Or.inl h')
      · exact Or.inr (Or.inr h')
    · exact Or.inr (Or.inr (Nat.le_trans hnm h))

/-- Chaining a step with a step stated for all blocks of its own start. -/
theorem dstep_then {n : Nat} {f f1 f2 : FunctionCompiler} (h1 : DepthStep n f f1)
    (h2 : DepthStep f1.graph_.blocks.length f1 f2) : DepthStep n f f2 :=
  dstep_trans h1 h2 (Nat.le_trans h1.1 h1.2.2.1)

theorem dstep_ok {n : Nat} {f f' : FunctionCompiler} (h : DepthStep n f f') : DepthOk f' :=
  h.2.2.2.2.2.2

/-- A step that leaves the counts, the maps and the depth of every block as
they are, and the current block as it is or null. -/
theorem dstep_same (f f' : FunctionCompiler) (hd : DepthOk f)
    (hnum : f'.numLocals = f.numLocals) (hg : SameDepth f.graph_ f'.graph_)
    (hb : f'.bookkeeping = f.bookkeeping)
    (hc : f'.curBlock_ = f.curBlock_ ∨ f'.curBlock_ = none) :
    DepthStep f.graph_.blocks.length f f' := by
  refine dstep_mk _ f f' (Nat.le_refl _) hd hnum (Nat.le_of_eq hg.1.symm) (fun b _ => hg.2 b) ?_
    (fun b h => Or.inl ((parked_of_bk hb b).1 h))
  intro c hcc
  rcases hc with h | h
  · rw [h] at hcc
    exact Or.inl ⟨hcc, fun hp => (hd.1 c hcc).2.2 ((parked_of_bk hb c).1 hp)⟩
  · rw [h] at hcc
    cases hcc

theorem depth_advance (f : FunctionCompiler) (n : Nat) (hd : DepthOk f) :
    DepthStep f.graph_.blocks.length f (f.advance n) :=
  ⟨Nat.le_refl _, rfl, Nat.le_refl _, fun _ _ => rfl, fun _ h => Or.inl h, fun _ h => Or.inl h, hd⟩

theorem emit_shape (f : FunctionCompiler) (op : MOpcode) (ops : List (Option DefId)) :
    (f.emit op ops).1.numLocals = f.numLocals ∧ SameDepth f.graph_ (f.emit op ops).1.graph_ := by
  unfold emit
  split
  · exact ⟨rfl, SameDepth.sd_refl _⟩
  · exact ⟨rfl, sameDepth_add _ _ _ _⟩

theorem depth_emit (f : FunctionCompiler) (op : MOpcode) (ops : List (Option DefId))
    (hd : DepthOk f) : DepthStep f.graph_.blocks.length f (f.emit op ops).1 :=
  dstep_same f _ hd (emit_shape f op ops).1 (emit_shape f op ops).2 (emit_quiet f op ops).1
    (Or.inl (emit_quiet f op ops).2)

theorem depth_assign (f : FunctionCompiler) (slot : Nat) (d : Option DefId) (hd : DepthOk f) :
    DepthStep f.graph_.blocks.length f (f.assign slot d) := by
  refine dstep_same f _ hd ?_ ?_ (assign_quiet f slot d).1 (Or.inl (assign_quiet f slot d).2)
  · unfold assign
    split <;> rfl
  · unfold assign
    split
    · exact SameDepth.sd_refl _
    · exact sameDepth_setSlot _ _ _ _

theorem depth_startCallArgs (f : FunctionCompiler) (call : Call) (hd : DepthOk f) :
    DepthStep f.graph_.blocks.length f (f.startCallArgs call).1 := by
  refine dstep_same f _ hd ?_ ?_ (startCallArgs_quiet f call).1
    (Or.inl (startCallArgs_quiet f call).2)
  · unfold startCallArgs
    split <;> rfl
  · unfold startCallArgs
    split <;> exact SameDepth.sd_refl _

theorem depth_passArg (abi : ABIArgGenerator) (f : FunctionCompiler) (d : Option DefId)
    (t : MIRType) (call : Call) (hd : DepthOk f) :
    DepthStep f.graph_.blocks.length f (passArg abi f d t call).1 := by
  refine dstep_same f _ hd ?_ ?_ (passArg_quiet abi f d t call).1
    (Or.inl (passArg_quiet abi f d t call).2)
  · unfold passArg
    split
    · rfl
    · dsimp only
      split <;> rfl
  · unfold passArg
    split
    · exact SameDepth.sd_refl _
    · dsimp only
      split
      · exact sameDepth_add _ _ _ _
      · exact SameDepth.sd_refl _

theorem depth_finishCallArgs (abi : ABIArgGenerator) (f : FunctionCompiler) (call : Call)
    (hd : DepthOk f) : DepthStep f.graph_.blocks.length f (finishCallArgs abi f call).1 := by
  refine dstep_same f _ hd ?_ ?_ (finishCallArgs_quiet abi f call).1
    (Or.inl (finishCallArgs_quiet abi f call).2)
  · unfold finishCallArgs
    split
    · rfl
    · dsimp only
      split <;> rfl
  · unfold finishCallArgs
    split
    · exact SameDepth.sd_refl _
    · dsimp only
      split
      · exact sameDepth_incrementOffsets _ _ _
      · exact SameDepth.sd_refl _

theorem depth_callPrivate (f : FunctionCompiler) (callee : Callee) (call : Call) (hd : DepthOk f) :
    DepthStep f.graph_.blocks.length f (f.callPrivate callee call).1 :=
  depth_emit f _ _ hd

theorem depth_funcPtrCall (f : FunctionCompiler) (m g : Nat) (index : Option DefId) (call : Call)
    (hd : DepthOk f) : DepthStep f.graph_.blocks.length f (f.funcPtrCall m g index call).1 := by
  unfold funcPtrCall
  split
  · exact dstep_refl f hd
  · dsimp only
    have s1 := depth_emit f (.constant .Int32 m) [] hd
    have s2 := depth_emit _ (.op 0) [index, (f.emit (.constant .Int32 m) []).2] (dstep_ok s1)
    have s3 := depth_emit _ (.loadFuncPtr g)
      [((f.emit (.constant .Int32 m) []).1.emit (.op 0)
        [index, (f.emit (.constant .Int32 m) []).2]).2] (dstep_ok s2)
    exact dstep_then (dstep_then (dstep_then s1 s2) s3) (depth_callPrivate _ _ call (dstep_ok s3))

theorem depth_ffiCall (f : FunctionCompiler) (g : Nat) (call : Call) (hd : DepthOk f) :
    DepthStep f.graph_.blocks.length f (f.ffiCall g call).1 := by
  unfold ffiCall
  split
  · exact dstep_refl f hd
  · dsimp only
    have s1 := depth_emit f (.loadFFIFunc g) [] hd
    exact dstep_then s1 (depth_callPrivate _ _ call (dstep_ok s1))

theorem depth_emitDirectCall (kind : CallKind) (fin : FunctionCompiler × Call)
    (hd : DepthOk fin.1) :
    DepthStep fin.1.graph_.blocks.length fin.1 (emitDirectCall kind fin).1 := by
  cases kind with
  | Internal i => exact depth_callPrivate _ _ _ hd
  | FFI g => exact depth_ffiCall _ _ _ hd
  | MathBuiltin b => exact depth_callPrivate _ _ _ hd

theorem depth_returnVoid (f : FunctionCompiler) (hd : DepthOk f) :
    DepthStep f.graph_.blocks.length f f.returnVoid := by
  refine dstep_same f _ hd ?_ ?_ (returnVoid_quiet f).1 (Or.inr (returnVoid_quiet f).2)
  · unfold returnVoid
    split <;> rfl
  · unfold returnVoid
    split
    · exact SameDepth.sd_refl _
    · exact sameDepth_endBlock _ _ _

theorem depth_returnExpr (f : FunctionCompiler) (e : Option DefId) (hd : DepthOk f) :
    DepthStep f.graph_.blocks.length f (f.returnExpr e) := by
  refine dstep_same f _ hd ?_ ?_ (returnExpr_quiet f e).1 (Or.inr (returnExpr_quiet f e).2)
  · unfold returnExpr
    split <;> rfl
  · unfold returnExpr
    split
    · exact SameDepth.sd_refl _
    · exact sameDepth_endBlock _ _ _

theorem held_step {n : Nat} {f f' : FunctionCompiler} {b : BlockId} (hh : Held f b)
    (hs : DepthStep n f f') (hb : b < n) : Held f' b := by
  obtain ⟨h1, h2, h3, h4⟩ := hh
  obtain ⟨a0, a1, a2, a3, a4, a5, a6⟩ := hs
  refine ⟨Nat.lt_of_lt_of_le h1 a2, by rw [a3 b hb, h2, a1], fun hp => ?_, fun hc => ?_⟩
  · rcases a5 b hp with h | h | h
    · exact h3 h
    · exact h4 h
    · exact absurd hb (Nat.not_lt.2 h)
  · rcases a4 b hc with h | h
    · exact h4 h
    · exact absurd hb (Nat.not_lt.2 h)

/-- A step that leaves the depth of every block as it is, parks nothing, and
leaves the current block as it is or null. -/
theorem dstep_sub (f f' : FunctionCompiler) (hd : DepthOk f)
    (hnum : f'.numLocals = f.numLocals) (hg : SameDepth f.graph_ f'.graph_)
    (hsub : ∀ sel, ∀ e ∈ f'.getMap sel, e ∈ f.getMap sel)
    (hc : f'.curBlock_ = f.curBlock_ ∨ f'.curBlock_ = none) :
    DepthStep f.graph_.blocks.length f f' := by
  refine dstep_mk _ f f' (Nat.le_refl _) hd hnum (Nat.le_of_eq hg.1.symm) (fun b _ => hg.2 b) ?_
    (fun b h => Or.inl (parked_sub hsub b h))
  intro c hcc
  rcases hc with h | h
  · rw [h] at hcc
    exact Or.inl ⟨hcc, fun hp => (hd.1 c hcc).2.2 (parked_sub hsub c hp)⟩
  · rw [h] at hcc
    cases hcc

/-- A step that makes a held block the current block and leaves the depth of
every block and the maps as they are. -/
theorem dstep_switch (n : Nat) (f f' : FunctionCompiler) (E : BlockId)
    (hn : n ≤ f.graph_.blocks.length) (hd : DepthOk f) (hnum : f'.numLocals = f.numLocals)
    (hg : SameDepth f.graph_ f'.graph_)
    (hsub : ∀ sel, ∀ e ∈ f'.getMap sel, e ∈ f.getMap sel)
    (hE : Held f E) (hnE : n ≤ E) (hc : f'.curBlock_ = some E) : DepthStep n f f' := by
  obtain ⟨e1, e2, e3, e4⟩ := hE
  refine ⟨hn, hnum, Nat.le_of_eq hg.1.symm, fun b _ => hg.2 b, ?_, ?_, ?_, ?_⟩
  · intro c hcc
    rw [hc] at hcc
    cases hcc
    exact Or.inr hnE
  · intro b hb
    exact Or.inl (parked_sub hsub b hb)
  · intro c hcc
    rw [hc] at hcc
    cases hcc
    exact ⟨by rw [hg.1]; exact e1, by rw [hg.2, e2, hnum], fun hp => e3 (parked_sub hsub _ hp)⟩
  · intro b hb
    obtain ⟨h1, h2⟩ := hd.2 b (parked_sub hsub b hb)
    exact ⟨by rw [hg.1]; exact h1, by rw [hg.2, h2, hnum]⟩

theorem dstep_weaken {n m : Nat} {f f' : FunctionCompiler} (h : DepthStep n f f') (hm : m ≤ n) :
    DepthStep m f f' := by
  obtain ⟨a0, a1, a2, a3, a4, a5, a6⟩ := h
  refine ⟨Nat.le_trans hm a0, a1, a2, fun b hb => a3 b (Nat.lt_of_lt_of_le hb hm), ?_, ?_, a6⟩
  · intro c hc
    rcases a4 c hc with h | h
    · exact Or.inl h
    · exact Or.inr (Nat.le_trans hm h)
  · intro b hb
    rcases a5 b hb with h | h | h
    · exact Or.inl h
    · exact Or.inr (Or.inl h)
    · exact Or.inr (Or.inr (Nat.le_trans hm h))

theorem BlockMap.mem_remove (m : BlockMap) (k : Nat) (e : Nat × BlockVector)
    (h : e ∈ BlockMap.remove m k) : e ∈ m :=
  (List.mem_filter.1 h).1

theorem BlockMap.mem_append_blocks (m : BlockMap) (k : Nat) (cur : BlockId)
    (e : Nat × BlockVector) (b : BlockId) (he : e ∈ BlockMap.append m k cur) (hb : b ∈ e.2) :
    b = cur ∨ ∃ e' ∈ m, b ∈ e'.2 := by
  induction m with
  | nil =>
    simp only [BlockMap.append, List.mem_singleton] at he
    subst he
    simp only [List.mem_singleton] at hb
    exact Or.inl hb
  | cons x rest ih =>
    unfold BlockMap.append at he
    split at he
    · rcases List.mem_cons.1 he with h | h
      · subst h
        rcases List.mem_append.1 hb with h' | h'
        · exact Or.inr ⟨x, List.mem_cons_self _ _, h'⟩
        · simp only [List.mem_singleton] at h'
          exact Or.inl h'
      · exact Or.inr ⟨e, List.mem_cons_of_mem _ h, hb⟩
    · rcases List.mem_cons.1 he with h | h
      · subst h
        exact Or.inr ⟨e, List.mem_cons_self _ _, hb⟩
      · rcases ih h with h' | ⟨e', he', hb'⟩
        · exact Or.inl h'
        · exact Or.inr ⟨e', List.mem_cons_of_mem _ he', hb'⟩

theorem depth_addBreakOrContinue (f : FunctionCompiler) (key : Nat) (sel : MapSel)
    (hd : DepthOk f) : DepthStep f.graph_.blocks.length f (f.addBreakOrContinue key sel) := by
  cases hc : f.curBlock_ with
  | none =>
    rw [addBreakOrContinue_dead f hc]
    exact dstep_refl f hd
  | some cur =>
    obtain ⟨p1, p2, p3, p4, p5, p6, p7⟩ := addBreakOrContinue_parks f cur key sel hc
    have hm : (f.addBreakOrContinue key sel).getMap sel =
        BlockMap.append (f.getMap sel) key cur := by
      unfold addBreakOrContinue
      rw [hc]
      cases sel <;> rfl
    have hnum : (f.addBreakOrContinue key sel).numLocals = f.numLocals := by
      unfold addBreakOrContinue
      rw [hc]
      cases sel <;> rfl
    refine dstep_mk _ f _ (Nat.le_refl _) hd hnum (by rw [p4]) (fun b _ => by rw [p4]) ?_ ?_
    · intro c hcc
      rw [p5] at hcc
      cases hcc
    · intro b hb
      obtain ⟨s, e, he, hbe⟩ := hb
      by_cases hs : s = sel
      · subst hs
        rw [hm] at he
        rcases BlockMap.mem_append_blocks _ _ _ _ _ he hbe with h | ⟨e', he', hb'⟩
        · exact Or.inr (by rw [h]; exact hc)
        · exact Or.inl ⟨s, e', he', hb'⟩
      · rw [p3 s hs] at he
        exact Or.inl ⟨s, e, he, hbe⟩

theorem depth_addBreak (f f' : FunctionCompiler) (l : Option Nat) (hd : DepthOk f)
    (h : f.addBreak l = some f') : DepthStep f.graph_.blocks.length f f' := by
  unfold addBreak at h
  cases l with
  | some labelId =>
    simp only [Option.some.injEq] at h
    subst h
    exact depth_addBreakOrContinue f _ _ hd
  | none =>
    dsimp only at h
    split at h
    · cases h
    · simp only [Option.some.injEq] at h
      subst h
      exact depth_addBreakOrContinue f _ _ hd

theorem depth_addContinue (f f' : FunctionCompiler) (l : Option Nat) (hd : DepthOk f)
    (h : f.addContinue l = some f') : DepthStep f.graph_.blocks.length f f' := by
  unfold addContinue at h
  cases l with
  | some labelId =>
    simp only [Option.some.injEq] at h
    subst h
    exact depth_addBreakOrContinue f _ _ hd
  | none =>
    dsimp only at h
    split at h
    · cases h
    · simp only [Option.some.injEq] at h
      subst h
      exact depth_addBreakOrContinue f _ _ hd

/-- The block that `newBlockWithDepth` creates from a predecessor has the
stack depth of the predecessor; the older blocks are as before. -/
theorem newBlock_depth (f : FunctionCompiler) (p : BlockId) (d : Nat) :
    (f.newBlockWithDepth (some p) d).1.numLocals = f.numLocals ∧
    (f.newBlockWithDepth (some p) d).1.bookkeeping = f.bookkeeping ∧
    (f.newBlockWithDepth (some p) d).1.curBlock_ = f.curBlock_ ∧
    (f.newBlockWithDepth (some p) d).2 = f.graph_.blocks.length ∧
    (f.newBlockWithDepth (some p) d).1.graph_.blocks.length = f.graph_.blocks.length + 1 ∧
    (∀ b, b < f.graph_.blocks.length →
      (f.newBlockWithDepth (some p) d).1.graph_.stackDepth b = f.graph_.stackDepth b) ∧
    (f.newBlockWithDepth (some p) d).1.graph_.stackDepth f.graph_.blocks.length =
      f.graph_.stackDepth p := by
  obtain ⟨n1, n2, n3, n4⟩ := newBlockWithDepth_spec f (some p) d
  refine ⟨rfl, rfl, rfl, n1, n2, fun b hb => ?_, ?_⟩
  · unfold MIRGraph.stackDepth
    rw [n3 b hb]
  · simp [newBlockWithDepth, MBasicBlock.NewAsmJS, MIRGraph.addBlock, MIRGraph.stackDepth,
      MIRGraph.block, List.getD_eq_getElem?_getD]

theorem not_parked_new (f : FunctionCompiler) (hd : DepthOk f) (b : BlockId)
    (hb : f.graph_.blocks.length ≤ b) : ¬ f.parked b :=
  fun hp => absurd (hd.2 b hp).1 (Nat.not_lt.2 hb)

theorem branchAndStartThen_live (f : FunctionCompiler) (cond : Option DefId) (cur : BlockId)
    (hc : f.curBlock_ = some cur) :
    f.branchAndStartThen cond none none =
      ({ ((f.newBlock (some cur)).1.newBlock (some cur)).1 with
          graph_ := (((f.newBlock (some cur)).1.newBlock (some cur)).1.graph_.endBlock cur
            (.test cond (f.newBlock (some cur)).2
              ((f.newBlock (some cur)).1.newBlock (some cur)).2)).moveBlockToEnd
            (f.newBlock (some cur)).2,
          curBlock_ := some (f.newBlock (some cur)).2 },
        some (f.newBlock (some cur)).2, some ((f.newBlock (some cur)).1.newBlock (some cur)).2) := by
  unfold branchAndStartThen
  rw [hc]
  rfl

theorem depth_branchAndStartThen (f : FunctionCompiler) (cond : Option DefId) (hd : DepthOk f) :
    DepthStep f.graph_.blocks.length f (f.branchAndStartThen cond none none).1 ∧
    (∀ cur, f.curBlock_ = some cur →
      (f.branchAndStartThen cond none none).2.1 = some f.graph_.blocks.length ∧
      (f.branchAndStartThen cond none none).2.2 = some (f.graph_.blocks.length + 1) ∧
      (f.branchAndStartThen cond none none).1.curBlock_ = some f.graph_.blocks.length ∧
      (f.branchAndStartThen cond none none).1.graph_.blocks.length = f.graph_.blocks.length + 2 ∧
      Held (f.branchAndStartThen cond none none).1 (f.graph_.blocks.length + 1)) := by
  cases hc : f.curBlock_ with
  | none =>
    rw [(branchAndStartThen_quiet f cond none none).2 hc]
    exact ⟨dstep_refl f hd, fun cur h => by cases h⟩
  | some cur =>
    obtain ⟨c1, c2, c3⟩ := hd.1 cur hc
    obtain ⟨a1, a2, a3, a4, a5, a6, a7⟩ := newBlock_depth f cur f.loopStack_.length
    obtain ⟨b1, b2, b3, b4, b5, b6, b7⟩ := newBlock_depth
      (f.newBlockWithDepth (some cur) f.loopStack_.length).1 cur
      (f.newBlockWithDepth (some cur) f.loopStack_.length).1.loopStack_.length
    rw [branchAndStartThen_live f cond cur hc]
    unfold newBlock
    generalize f.newBlockWithDepth (some cur) f.loopStack_.length = t at *
    generalize t.1.newBlockWithDepth (some cur) t.1.loopStack_.length = e at *
    have hsd : SameDepth e.1.graph_
        ((e.1.graph_.endBlock cur (.test cond t.2 e.2)).moveBlockToEnd t.2) :=
      (sameDepth_endBlock _ _ _).sd_trans (sameDepth_moveBlockToEnd _ _)
    have hbk : ({ e.1 with
        graph_ := (e.1.graph_.endBlock cur (.test cond t.2 e.2)).moveBlockToEnd t.2,
        curBlock_ := some t.2 } : FunctionCompiler).bookkeeping = f.bookkeeping := b2.trans a2
    have hlen : ((e.1.graph_.endBlock cur (.test cond t.2 e.2)).moveBlockToEnd t.2).blocks.length =
        f.graph_.blocks.length + 2 := by
      rw [hsd.1, b5, a5]
    have hcurT : f.graph_.blocks.length < t.1.graph_.blocks.length := by rw [a5]; omega
    have hdT : ((e.1.graph_.endBlock cur (.test cond t.2 e.2)).moveBlockToEnd t.2).stackDepth
        f.graph_.blocks.length = f.numLocals := by
      rw [hsd.2, b6 _ hcurT, a7, c2]
    have hdE : ((e.1.graph_.endBlock cur (.test cond t.2 e.2)).moveBlockToEnd t.2).stackDepth
        (f.graph_.blocks.length + 1) = f.numLocals := by
      have : cur < t.1.graph_.blocks.length := by rw [a5]; exact Nat.lt_succ_of_lt c1
      rw [hsd.2, ← a5, b7, a6 cur c1, c2]
    have hpk : ∀ b, ({ e.1 with
        graph_ := (e.1.graph_.endBlock cur (.test cond t.2 e.2)).moveBlockToEnd t.2,
        curBlock_ := some t.2 } : FunctionCompiler).parked b → f.parked b :=
      fun b hb => (parked_of_bk hbk b).1 hb
    refine ⟨?_, ?_⟩
    · refine dstep_mk _ f _ (Nat.le_refl _) hd (b1.trans a1) (by rw [hlen]; omega) ?_ ?_
        (fun b hb => Or.inl (hpk b hb))
      · intro b hb
        rw [hsd.2, b6 b (by rw [a5]; exact Nat.lt_succ_of_lt hb), a6 b hb]
      · intro c hcc
        have : c = f.graph_.blocks.length := by
          have h2 : some t.2 = some c := hcc
          rw [a4] at h2
          exact (Option.some.inj h2).symm
        subst this
        exact Or.inr ⟨Nat.le_refl _, by rw [hlen]; exact Nat.lt_add_of_pos_right (by decide), hdT⟩
    · intro cur' _
      refine ⟨by rw [a4], by rw [b4, a5], by rw [a4], hlen, ?_⟩
      refine ⟨by rw [hlen]; exact Nat.lt_succ_self _, by rw [hdE]; exact (b1.trans a1).symm,
        ?_, ?_⟩
      · intro hp
        exact not_parked_new f hd _ (Nat.le_succ _) (hpk _ hp)
      · intro h2
        have h3 : some t.2 = some (f.graph_.blocks.length + 1) := h2
        rw [a4] at h3
        exact absurd (Option.some.inj h3) (Nat.ne_of_lt (Nat.lt_succ_self _))

theorem depth_switchToElse (n : Nat) (f : FunctionCompiler) (E : BlockId) (hd : DepthOk f)
    (hn : n ≤ f.graph_.blocks.length) (hE : Held f E) (hnE : n ≤ E) :
    DepthStep n f (f.switchToElse (some E)) :=
  dstep_switch n f _ E hn hd rfl (sameDepth_moveBlockToEnd _ _) (fun _ _ h => h) hE hnE rfl

theorem sameDepth_joinIf (thenBlocks : BlockVector) (j : BlockId) (g : MIRGraph) :
    SameDepth g (thenBlocks.foldl
      (fun g t => MBasicBlock.addPredecessor (g.endBlock t (.goto j)) j t) g) :=
  sameDepth_foldl _ _ (fun g t =>
    (sameDepth_endBlock g t _).sd_trans (sameDepth_addPredecessor _ _ _)) g

theorem depth_joinIf (n : Nat) (f : FunctionCompiler) (thenBlocks : BlockVector) (E : BlockId)
    (hd : DepthOk f) (hn : n ≤ f.graph_.blocks.length) (hE : Held f E) (hnE : n ≤ E) :
    DepthStep n f (f.joinIf thenBlocks (some E)) :=
  dstep_switch n f _ E hn hd rfl
    ((sameDepth_joinIf thenBlocks E f.graph_).sd_trans (sameDepth_moveBlockToEnd _ _))
    (fun _ _ h => h) hE hnE rfl

theorem sameDepth_joinIfElseStep (join : BlockId) (p : Bool) (g : MIRGraph) (x : Nat × BlockId) :
    SameDepth g (joinIfElseStep join p g x) := by
  unfold joinIfElseStep
  dsimp only
  split
  · exact (sameDepth_endBlock g _ _).sd_trans (sameDepth_addPredecessor _ _ _)
  · exact sameDepth_endBlock g _ _

/-- The stack depths after `joinIfElse` when a join block is created: it has
the depth of the block it is created from (the current block, or the first
then-block in dead code), and the older blocks keep theirs. -/
theorem joinIfElse_depths (f : FunctionCompiler) (blocks : BlockVector) (p : BlockId)
    (hp : f.curBlock_ = some p ∨ (f.curBlock_ = none ∧ blocks.head? = some p)) :
    (f.joinIfElse blocks).numLocals = f.numLocals ∧
    (f.joinIfElse blocks).graph_.blocks.length = f.graph_.blocks.length + 1 ∧
    (f.joinIfElse blocks).curBlock_ = some f.graph_.blocks.length ∧
    (∀ b, b < f.graph_.blocks.length →
      (f.joinIfElse blocks).graph_.stackDepth b = f.graph_.stackDepth b) ∧
    (f.joinIfElse blocks).graph_.stackDepth f.graph_.blocks.length = f.graph_.stackDepth p := by
  obtain ⟨a1, a2, a3, a4, a5, a6, a7⟩ := newBlock_depth f p f.loopStack_.length
  rcases hp with hc | ⟨hc, hh⟩
  · have hj : f.joinIfElse blocks =
        { (f.newBlockWithDepth (some p) f.loopStack_.length).1 with
          graph_ := (blocks.enum).foldl (joinIfElseStep f.graph_.blocks.length true)
            ((f.newBlockWithDepth (some p) f.loopStack_.length).1.graph_.endBlock p
              (.goto f.graph_.blocks.length)),
          curBlock_ := some f.graph_.blocks.length } := by
      simp only [joinIfElse, hc, newBlock, a4]
    have hsd := (sameDepth_endBlock (f.newBlockWithDepth (some p) f.loopStack_.length).1.graph_ p
      (.goto f.graph_.blocks.length)).sd_trans (sameDepth_foldl
        (joinIfElseStep f.graph_.blocks.length true) blocks.enum
        (fun g x => sameDepth_joinIfElseStep _ _ g x) _)
    rw [hj]
    exact ⟨rfl, hsd.1.trans a5, rfl, fun b hb => (hsd.2 b).trans (a6 b hb), (hsd.2 _).trans a7⟩
  · cases blocks with
    | nil => cases hh
    | cons t0 rest =>
      simp only [List.head?_cons, Option.some.injEq] at hh
      subst hh
      have hj : f.joinIfElse (t0 :: rest) =
          { (f.newBlockWithDepth (some t0) f.loopStack_.length).1 with
            graph_ := ((t0 :: rest).enum).foldl (joinIfElseStep f.graph_.blocks.length false)
              (f.newBlockWithDepth (some t0) f.loopStack_.length).1.graph_,
            curBlock_ := some f.graph_.blocks.length } := by
        simp only [joinIfElse, hc, newBlock, a4]
      have hsd := sameDepth_foldl (joinIfElseStep f.graph_.blocks.length false) (t0 :: rest).enum
        (fun g x => sameDepth_joinIfElseStep _ _ g x)
        (f.newBlockWithDepth (some t0) f.loopStack_.length).1.graph_
      rw [hj]
      exact ⟨rfl, hsd.1.trans a5, rfl, fun b hb => (hsd.2 b).trans (a6 b hb), (hsd.2 _).trans a7⟩

theorem depth_joinIfElse (f : FunctionCompiler) (blocks : BlockVector) (hd : DepthOk f)
    (hb : ∀ b ∈ blocks, f.graph_.stackDepth b = f.numLocals) :
    DepthStep f.graph_.blocks.length f (f.joinIfElse blocks) := by
  have hbk := joinIfElse_quiet f blocks
  have key : ∀ p, (f.curBlock_ = some p ∨ (f.curBlock_ = none ∧ blocks.head? = some p)) →
      f.graph_.stackDepth p = f.numLocals →
      DepthStep f.graph_.blocks.length f (f.joinIfElse blocks) := by
    intro p hp hdp
    obtain ⟨j1, j2, j3, j4, j5⟩ := joinIfElse_depths f blocks p hp
    refine dstep_mk _ f _ (Nat.le_refl _) hd j1 (by rw [j2]; omega) j4 ?_
      (fun b h => Or.inl ((parked_of_bk hbk b).1 h))
    intro c hcc
    rw [j3] at hcc
    cases hcc
    exact Or.inr ⟨Nat.le_refl _, by rw [j2]; exact Nat.lt_succ_self _, by rw [j5, hdp]⟩
  cases hc : f.curBlock_ with
  | some cur => exact key cur (Or.inl hc) (hd.1 cur hc).2.1
  | none =>
    cases blocks with
    | nil =>
      rw [joinIfElse_dead_empty f hc]
      exact dstep_refl f hd
    | cons t0 rest => exact key t0 (Or.inr ⟨hc, rfl⟩) (hb t0 (List.mem_cons_self _ _))

theorem BlockMap.mem_of_lookup (m : BlockMap) (k : Nat) (v : BlockVector)
    (h : BlockMap.lookup m k = some v) : ∃ e ∈ m, e.2 = v := by
  induction m with
  | nil => cases h
  | cons x rest ih =>
    unfold BlockMap.lookup at h
    split at h
    · exact ⟨x, List.mem_cons_self _ _, Option.some.inj h⟩
    · obtain ⟨e, he, hv⟩ := ih h
      exact ⟨e, List.mem_cons_of_mem _ he, hv⟩

theorem parked_of_lookup (f : FunctionCompiler) (sel : MapSel) (k : Nat) (v : BlockVector)
    (h : BlockMap.lookup (f.getMap sel) k = some v) : ∀ p ∈ v, f.parked p := by
  intro p hp
  obtain ⟨e, he, hv⟩ := BlockMap.mem_of_lookup _ _ _ h
  exact ⟨sel, e, he, by rw [hv]; exact hp⟩

theorem depth_startPendingLoop (f : FunctionCompiler) (pos : Nat) (hd : DepthOk f) :
    DepthStep f.graph_.blocks.length f (f.startPendingLoop pos).1 := by
  cases hc : f.curBlock_ with
  | none =>
    have e : (f.startPendingLoop pos).1 =
        { f with loopStack_ := f.loopStack_ ++ [pos],
                 breakableStack_ := f.breakableStack_ ++ [pos] } := by
      unfold startPendingLoop
      simp only [hc]
    rw [e]
    exact dstep_sub f _ hd rfl (SameDepth.sd_refl _) (fun sel e h => by cases sel <;> exact h)
      (Or.inl rfl)
  | some cur =>
    obtain ⟨c1, c2, c3⟩ := hd.1 cur hc
    have e : (f.startPendingLoop pos).1 =
        { f with
          loopStack_ := f.loopStack_ ++ [pos], breakableStack_ := f.breakableStack_ ++ [pos],
          graph_ := (((MBasicBlock.NewAsmJS f.graph_ f.numLocals (some cur)
              .PENDING_LOOP_HEADER).1.addBlock
            { (MBasicBlock.NewAsmJS f.graph_ f.numLocals (some cur) .PENDING_LOOP_HEADER).2 with
              loopDepth := (f.loopStack_ ++ [pos]).length }).1).endBlock cur
            (.goto f.graph_.blocks.length),
          curBlock_ := some f.graph_.blocks.length } := by
      unfold startPendingLoop
      simp only [hc]
      rfl
    rw [e]
    have hlen : ((((MBasicBlock.NewAsmJS f.graph_ f.numLocals (some cur)
              .PENDING_LOOP_HEADER).1.addBlock
            { (MBasicBlock.NewAsmJS f.graph_ f.numLocals (some cur) .PENDING_LOOP_HEADER).2 with
              loopDepth := (f.loopStack_ ++ [pos]).length }).1).endBlock cur
            (.goto f.graph_.blocks.length)).blocks.length = f.graph_.blocks.length + 1 := by
      rw [blocks_length_endBlock]
      simp [MBasicBlock.NewAsmJS, MIRGraph.addBlock]
    have hdep : ∀ b, ((((MBasicBlock.NewAsmJS f.graph_ f.numLocals (some cur)
              .PENDING_LOOP_HEADER).1.addBlock
            { (MBasicBlock.NewAsmJS f.graph_ f.numLocals (some cur) .PENDING_LOOP_HEADER).2 with
              loopDepth := (f.loopStack_ ++ [pos]).length }).1).endBlock cur
            (.goto f.graph_.blocks.length)).stackDepth b =
        if b < f.graph_.blocks.length then f.graph_.stackDepth b
        else if b = f.graph_.blocks.length then f.graph_.stackDepth cur else 0 := by
      intro b
      rw [(sameDepth_endBlock _ _ _).2]
      simp only [MBasicBlock.NewAsmJS, MIRGraph.addBlock, MIRGraph.stackDepth, MIRGraph.block,
        List.getD_eq_getElem?_getD]
      split
      · rename_i hb
        rw [List.getElem?_append_left hb]
      · rename_i hb
        split
        · rename_i hb2
          subst hb2
          simp
        · rename_i hb2
          rw [List.getElem?_eq_none (by
            simp only [List.length_append, List.length_singleton]
            have := Nat.lt_of_le_of_ne (Nat.le_of_not_lt hb) (Ne.symm hb2)
            exact this)]
          rfl
    refine dstep_mk _ f _ (Nat.le_refl _) hd rfl (by rw [hlen]; exact Nat.le_succ _) ?_ ?_ ?_
    · intro b hb
      show MIRGraph.stackDepth _ b = _
      rw [hdep, if_pos hb]
    · intro c hcc
      have h2 : some f.graph_.blocks.length = some c := hcc
      cases h2
      refine Or.inr ⟨Nat.le_refl _, ?_, ?_⟩
      · show f.graph_.blocks.length < List.length (MIRGraph.blocks _)
        rw [hlen]
        exact Nat.lt_succ_self _
      · show MIRGraph.stackDepth _ _ = _
        rw [hdep, if_neg (Nat.lt_irrefl _), if_pos rfl, c2]
    · intro b hb
      refine Or.inl ?_
      obtain ⟨sel, e, he, hbe⟩ := hb
      exact ⟨sel, e, by cases sel <;> exact he, hbe⟩

/-- A step that creates one block from a predecessor of depth `firstStackSlot`,
makes it the current block, and otherwise leaves depths and maps as they
are. -/
theorem dstep_new (f f' : FunctionCompiler) (hd : DepthOk f)
    (hnum : f'.numLocals = f.numLocals) (hbk : ∀ sel, f'.getMap sel = f.getMap sel)
    (hlen : f.graph_.blocks.length < f'.graph_.blocks.length)
    (hold : ∀ b, b < f.graph_.blocks.length → f'.graph_.stackDepth b = f.graph_.stackDepth b)
    (hnew : f'.graph_.stackDepth f.graph_.blocks.length = f.numLocals)
    (hc : f'.curBlock_ = some f.graph_.blocks.length) :
    DepthStep f.graph_.blocks.length f f' := by
  refine dstep_mk _ f f' (Nat.le_refl _) hd hnum (Nat.le_of_lt hlen) hold ?_
    (fun b h => Or.inl ((parked_of_getMap hbk b).1 h))
  intro c hcc
  rw [hc] at hcc
  cases hcc
  exact Or.inr ⟨Nat.le_refl _, hlen, hnew⟩

theorem depth_branchAndStartLoopBody (f : FunctionCompiler) (cond : Option DefId)
    (hd : DepthOk f) :
    DepthStep f.graph_.blocks.length f (f.branchAndStartLoopBody cond).1 ∧
    (∀ A, (f.branchAndStartLoopBody cond).2 = some A →
      Held (f.branchAndStartLoopBody cond).1 A ∧ f.graph_.blocks.length ≤ A) := by
  cases hc : f.curBlock_ with
  | none =>
    have e : f.branchAndStartLoopBody cond = (f, none) := by
      unfold branchAndStartLoopBody
      rw [hc]
    rw [e]
    exact ⟨dstep_refl f hd, fun A h => by cases h⟩
  | some cur =>
    obtain ⟨c1, c2, c3⟩ := hd.1 cur hc
    obtain ⟨a1, a2, a3, a4, a5, a6, a7⟩ := newBlock_depth f cur f.loopStack_.length
    unfold branchAndStartLoopBody
    rw [hc]
    dsimp only
    unfold newBlock
    split
    · refine ⟨?_, fun A h => by cases h⟩
      refine dstep_new f _ hd a1 (fun sel => getMap_of_bookkeeping a2 sel) ?_ ?_ ?_ ?_
      · show _ < (MIRGraph.endBlock _ _ _).blocks.length
        rw [blocks_length_endBlock, a5]
        exact Nat.lt_succ_self _
      · intro b hb
        show MIRGraph.stackDepth (MIRGraph.endBlock _ _ _) b = _
        rw [(sameDepth_endBlock _ _ _).2, a6 b hb]
      · show MIRGraph.stackDepth (MIRGraph.endBlock _ _ _) _ = _
        rw [(sameDepth_endBlock _ _ _).2, a7, c2]
      · show some _ = some _
        rw [a4]
    · obtain ⟨b1, b2, b3, b4, b5, b6, b7⟩ := newBlock_depth
        (f.newBlockWithDepth (some cur) f.loopStack_.length).1 cur
        (((f.newBlockWithDepth (some cur) f.loopStack_.length).1.graph_.block cur).loopDepth - 1)
      generalize f.newBlockWithDepth (some cur) f.loopStack_.length = t at *
      generalize t.1.newBlockWithDepth (some cur) ((t.1.graph_.block cur).loopDepth - 1) = a at *
      have hlen : (a.1.graph_.endBlock cur (.test cond t.2 a.2)).blocks.length =
          f.graph_.blocks.length + 2 := by
        rw [blocks_length_endBlock, b5, a5]
      have hbk : ∀ sel : MapSel, FunctionCompiler.getMap
          { a.1 with
            graph_ := a.1.graph_.endBlock cur (.test cond t.2 a.2),
            curBlock_ := some t.2 } sel = f.getMap sel :=
        fun sel => getMap_of_bookkeeping (b2.trans a2) sel
      have hdA : (a.1.graph_.endBlock cur (.test cond t.2 a.2)).stackDepth
          (f.graph_.blocks.length + 1) = f.numLocals := by
        rw [(sameDepth_endBlock _ _ _).2, ← a5, b7, a6 cur c1, c2]
      refine ⟨?_, ?_⟩
      · refine dstep_new f _ hd (b1.trans a1) hbk ?_ ?_ ?_ ?_
        · show _ < (MIRGraph.endBlock _ _ _).blocks.length
          rw [hlen]
          exact Nat.lt_add_of_pos_right (by decide)
        · intro b hb
          show MIRGraph.stackDepth (MIRGraph.endBlock _ _ _) b = _
          rw [(sameDepth_endBlock _ _ _).2, b6 b (by rw [a5]; exact Nat.lt_succ_of_lt hb), a6 b hb]
        · show MIRGraph.stackDepth (MIRGraph.endBlock _ _ _) _ = _
          rw [(sameDepth_endBlock _ _ _).2, b6 _ (by rw [a5]; exact Nat.lt_succ_self _), a7, c2]
        · show some _ = some _
          rw [a4]
      · intro A hA
        have hA2 : some a.2 = some A := hA
        rw [b4, a5] at hA2
        cases hA2
        refine ⟨⟨?_, ?_, ?_, ?_⟩, Nat.le_succ _⟩
        · show _ < (MIRGraph.endBlock _ _ _).blocks.length
          rw [hlen]
          exact Nat.lt_succ_self _
        · exact hdA.trans (b1.trans a1).symm
        · intro hp
          exact not_parked_new f hd _ (Nat.le_succ _) ((parked_of_getMap hbk _).1 hp)
        · intro h2
          have h3 : some t.2 = some (f.graph_.blocks.length + 1) := h2
          rw [a4] at h3
          exact absurd (Option.some.inj h3) (Nat.ne_of_lt (Nat.lt_succ_self _))

theorem depth_bindStep (st : FunctionCompiler × Bool) (pred : BlockId) (hd : DepthOk st.1)
    (hp : st.1.graph_.stackDepth pred = st.1.numLocals) :
    DepthStep st.1.graph_.blocks.length st.1 (bindBreaksOrContinuesStep st pred).1 := by
  obtain ⟨f, created⟩ := st
  have hbk := bindStep_bookkeeping (f, created) pred
  cases created with
  | true =>
    cases hc : f.curBlock_ with
    | none =>
      have e : (bindBreaksOrContinuesStep (f, true) pred).1 = f := by
        simp only [bindBreaksOrContinuesStep, hc, if_true]
      rw [e]
      exact dstep_refl f hd
    | some cur =>
      obtain ⟨-, s2, -, s4, s5⟩ := bindStep_created_spec f pred cur hc
      refine dstep_same f _ hd ?_ ?_ hbk (Or.inl (s4.trans hc.symm))
      · rw [s5]
      · simp only [bindBreaksOrContinuesStep, hc, if_true]
        exact (sameDepth_endBlock _ _ _).sd_trans (sameDepth_addPredecessor _ _ _)
  | false =>
    obtain ⟨-, s2, -, s4, s5⟩ := bindStep_first_spec f pred
    obtain ⟨a1, a2, a3, a4, a5, a6, a7⟩ := newBlock_depth f pred f.loopStack_.length
    have hg : ∀ b, (bindBreaksOrContinuesStep (f, false) pred).1.graph_.stackDepth b =
        (f.newBlockWithDepth (some pred) f.loopStack_.length).1.graph_.stackDepth b := by
      intro b
      simp only [bindBreaksOrContinuesStep, newBlock, Bool.false_eq_true, if_false]
      cases f.curBlock_ with
      | none => exact (sameDepth_endBlock _ _ _).2 b
      | some cur =>
        exact (((sameDepth_endBlock _ _ _).sd_trans (sameDepth_endBlock _ _ _)).sd_trans
          (sameDepth_addPredecessor _ _ _)).2 b
    refine dstep_new f _ hd (by rw [s5]) (fun sel => getMap_of_bookkeeping hbk sel)
      (by rw [s2]; exact Nat.lt_succ_self _) (fun b hb => (hg b).trans (a6 b hb))
      ((hg _).trans (a7.trans hp)) s4

theorem depth_bind (preds : BlockVector) :
    ∀ (f : FunctionCompiler) (created : Bool), DepthOk f →
      (∀ p ∈ preds, p < f.graph_.blocks.length ∧ f.graph_.stackDepth p = f.numLocals) →
      DepthStep f.graph_.blocks.length f (bindBreaksOrContinues f preds created).1 := by
  induction preds with
  | nil => intro f created hd _; exact dstep_refl f hd
  | cons p rest ih =>
    intro f created hd hp
    have s1 := depth_bindStep (f, created) p hd (hp p (List.mem_cons_self _ _)).2
    have e : bindBreaksOrContinues f (p :: rest) created =
        bindBreaksOrContinues (bindBreaksOrContinuesStep (f, created) p).1 rest
          (bindBreaksOrContinuesStep (f, created) p).2 := rfl
    rw [e]
    refine dstep_then s1 (ih _ _ (dstep_ok s1) ?_)
    intro q hq
    obtain ⟨q1, q2⟩ := hp q (List.mem_cons_of_mem _ hq)
    exact ⟨Nat.lt_of_lt_of_le q1 s1.2.2.1, by rw [s1.2.2.2.1 q q1, q2, s1.2.1]⟩

theorem depth_bind_parked (f : FunctionCompiler) (sel : MapSel) (k : Nat) (preds : BlockVector)
    (created : Bool) (hd : DepthOk f) (h : BlockMap.lookup (f.getMap sel) k = some preds) :
    DepthStep f.graph_.blocks.length f (bindBreaksOrContinues f preds created).1 :=
  depth_bind preds f created hd (fun p hp => hd.2 p (parked_of_lookup f sel k preds h p hp))

theorem depth_setMap_remove (f : FunctionCompiler) (sel : MapSel) (k : Nat) (hd : DepthOk f) :
    DepthStep f.graph_.blocks.length f (f.setMap sel (BlockMap.remove (f.getMap sel) k)) := by
  obtain ⟨g1, g2, g3, g4, g5⟩ := setMap_graph f sel (BlockMap.remove (f.getMap sel) k)
  refine dstep_sub f _ hd ?_ ?_ ?_ (Or.inl g2)
  · cases sel <;> rfl
  · rw [g1]
    exact SameDepth.sd_refl _
  · intro s e he
    by_cases hs : s = sel
    · subst hs
      rw [getMap_setMap] at he
      exact BlockMap.mem_remove _ _ _ he
    · rw [getMap_setMap_ne _ _ _ _ hs] at he
      exact he

theorem depth_bindUnlabeledBreaks (f : FunctionCompiler) (pos : Nat) (hd : DepthOk f) :
    DepthStep f.graph_.blocks.length f (f.bindUnlabeledBreaks pos) := by
  unfold bindUnlabeledBreaks
  cases hl : BlockMap.lookup f.unlabeledBreaks_ pos with
  | none => exact dstep_refl f hd
  | some preds =>
    dsimp only
    have s1 := depth_bind_parked f .unlabeledBreaks pos preds false hd hl
    have s2 := depth_setMap_remove (bindBreaksOrContinues f preds false).1 .unlabeledBreaks pos
      (dstep_ok s1)
    exact dstep_then s1 s2

theorem depth_bindLabeledStep (sel : MapSel) (st : FunctionCompiler × Bool) (label : Nat)
    (hd : DepthOk st.1) :
    DepthStep st.1.graph_.blocks.length st.1 (bindLabeledStep sel st label).1 := by
  unfold bindLabeledStep
  cases hl : BlockMap.lookup (st.1.getMap sel) label with
  | none => exact dstep_refl _ hd
  | some preds =>
    dsimp only
    have s1 := depth_bind_parked st.1 sel label preds st.2 hd hl
    have s2 := depth_setMap_remove (bindBreaksOrContinues st.1 preds st.2).1 sel label
      (dstep_ok s1)
    exact dstep_then s1 s2

theorem depth_bindLabeledFold (sel : MapSel) (labels : LabelVector) :
    ∀ st : FunctionCompiler × Bool, DepthOk st.1 →
      DepthStep st.1.graph_.blocks.length st.1 (labels.foldl (bindLabeledStep sel) st).1 := by
  induction labels with
  | nil => intro st hd; exact dstep_refl _ hd
  | cons l rest ih =>
    intro st hd
    have s1 := depth_bindLabeledStep sel st l hd
    exact dstep_then s1 (ih _ (dstep_ok s1))

theorem depth_bindLabeled (f : FunctionCompiler) (l : Option LabelVector) (sel : MapSel)
    (created : Bool) (hd : DepthOk f) :
    DepthStep f.graph_.blocks.length f (bindLabeledBreaksOrContinues f l sel created).1 := by
  unfold bindLabeledBreaksOrContinues
  cases l with
  | none => exact dstep_refl f hd
  | some labels => exact depth_bindLabeledFold sel labels (f, created) hd

theorem depth_bindLabeledBreaks (f : FunctionCompiler) (l : Option LabelVector) (hd : DepthOk f) :
    DepthStep f.graph_.blocks.length f (f.bindLabeledBreaks l) :=
  depth_bindLabeled f l .labeledBreaks false hd

theorem depth_bindContinues (f : FunctionCompiler) (pos : Nat) (l : Option LabelVector)
    (hd : DepthOk f) : DepthStep f.graph_.blocks.length f (f.bindContinues pos l) := by
  unfold bindContinues
  cases hl : BlockMap.lookup f.unlabeledContinues_ pos with
  | none => exact depth_bindLabeled f l .labeledContinues false hd
  | some preds =>
    dsimp only
    have s1 := depth_bind_parked f .unlabeledContinues pos preds false hd hl
    have s2 := depth_setMap_remove (bindBreaksOrContinues f preds false).1 .unlabeledContinues pos
      (dstep_ok s1)
    have s3 := dstep_then s1 s2
    exact dstep_then s3 (depth_bindLabeled _ l .labeledContinues _ (dstep_ok s3))

theorem depth_closeLoop (n : Nat) (f f' : FunctionCompiler) (le al : Option BlockId)
    (hd : DepthOk f) (hn : n ≤ f.graph_.blocks.length)
    (hal : ∀ A, al = some A → Held f A ∧ n ≤ A) (h : f.closeLoop le al = some f') :
    DepthStep n f f' := by
  unfold closeLoop at h
  cases hp : f.popLoop with
  | none => rw [hp] at h; cases h
  | some pf =>
    obtain ⟨pos, f1⟩ := pf
    rw [hp] at h
    have e1 : f1 = { f with loopStack_ := f.loopStack_.dropLast,
                            breakableStack_ := f.breakableStack_.dropLast } := by
      unfold popLoop at hp
      split at hp
      · cases hp
      · simp only [Option.some.injEq, Prod.mk.injEq] at hp
        exact hp.2.symm
    have s1 : DepthStep f.graph_.blocks.length f f1 := by
      rw [e1]
      exact dstep_sub f _ hd rfl (SameDepth.sd_refl _) (fun sel e h => by cases sel <;> exact h)
        (Or.inl rfl)
    have hc1 : f1.curBlock_ = f.curBlock_ := by rw [e1]
    have hg1 : f1.graph_ = f.graph_ := by rw [e1]
    cases le with
    | none =>
      simp only [Option.some.injEq] at h
      subst h
      exact dstep_weaken s1 hn
    | some le =>
      have key : ∀ (al : Option BlockId) (f2 : FunctionCompiler),
          (∀ A, al = some A → Held f A ∧ n ≤ A) → DepthStep f.graph_.blocks.length f f2 →
          DepthStep n f (FunctionCompiler.bindUnlabeledBreaks
            (match al with
              | some a => { f2 with curBlock_ := some a, graph_ := f2.graph_.moveBlockToEnd a }
              | none => { f2 with curBlock_ := none }) pos) := by
        intro al f2 hal s2
        cases al with
        | none =>
          have s3 : DepthStep f2.graph_.blocks.length f2 { f2 with curBlock_ := none } :=
            dstep_sub f2 _ (dstep_ok s2) rfl (SameDepth.sd_refl _)
              (fun sel e h => by cases sel <;> exact h) (Or.inr rfl)
          have s4 := dstep_then s2 s3
          have s5 := depth_bindUnlabeledBreaks { f2 with curBlock_ := none } pos (dstep_ok s4)
          exact dstep_weaken (dstep_then s4 s5) hn
        | some A =>
          obtain ⟨hA, hnA⟩ := hal A rfl
          have hA2 : Held f2 A := held_step hA s2 hA.1
          have s3 : DepthStep n f2
              { f2 with curBlock_ := some A, graph_ := f2.graph_.moveBlockToEnd A } :=
            dstep_switch n f2 _ A (Nat.le_trans hn s2.2.2.1) (dstep_ok s2) rfl
              (sameDepth_moveBlockToEnd _ _) (fun sel e h => by cases sel <;> exact h) hA2 hnA rfl
          have s4 := dstep_trans (dstep_weaken s2 hn) s3 (Nat.le_refl _)
          have s5 := depth_bindUnlabeledBreaks
            { f2 with curBlock_ := some A, graph_ := f2.graph_.moveBlockToEnd A } pos (dstep_ok s4)
          exact dstep_then s4 s5
      cases hc : f1.curBlock_ with
      | none =>
        simp only [hc, Option.some.injEq] at h
        subst h
        exact key al f1 hal s1
      | some cur =>
        simp only [hc, Option.some.injEq] at h
        subst h
        refine key al _ hal (dstep_then s1 (dstep_same f1 _ (dstep_ok s1) rfl ?_ rfl (Or.inl hc.symm)))
        exact (sameDepth_endBlock _ _ _).sd_trans
          (sameDepth_setLoopBackedge { f1 with graph_ := f1.graph_.endBlock cur (.goto le) }
            le cur al)

/-- Creating a block from the current block, ending the current block and
making the new block current. -/
theorem depth_newFromCur (f : FunctionCompiler) (cur : BlockId) (d : Nat) (ctl : MControl)
    (hd : DepthOk f) (hc : f.curBlock_ = some cur) :
    DepthStep f.graph_.blocks.length f
      { (f.newBlockWithDepth (some cur) d).1 with
        graph_ := (f.newBlockWithDepth (some cur) d).1.graph_.endBlock cur ctl,
        curBlock_ := some (f.newBlockWithDepth (some cur) d).2 } := by
  obtain ⟨c1, c2, c3⟩ := hd.1 cur hc
  obtain ⟨a1, a2, a3, a4, a5, a6, a7⟩ := newBlock_depth f cur d
  refine dstep_new f _ hd a1 (fun sel => getMap_of_bookkeeping a2 sel) ?_ ?_ ?_ ?_
  · show _ < (MIRGraph.endBlock _ _ _).blocks.length
    rw [blocks_length_endBlock, a5]
    exact Nat.lt_succ_self _
  · intro b hb
    show MIRGraph.stackDepth (MIRGraph.endBlock _ _ _) b = _
    rw [(sameDepth_endBlock _ _ _).2, a6 b hb]
  · show MIRGraph.stackDepth (MIRGraph.endBlock _ _ _) _ = _
    rw [(sameDepth_endBlock _ _ _).2, a7, c2]
  · show some _ = some _
    rw [a4]

theorem depth_backedge (f : FunctionCompiler) (le be : BlockId) (al c : Option BlockId)
    (hd : DepthOk f) (hc : c = f.curBlock_ ∨ c = none) :
    DepthStep f.graph_.blocks.length f { f.setLoopBackedge le be al with curBlock_ := c } :=
  dstep_same f _ hd rfl (sameDepth_setLoopBackedge f le be al) rfl hc

theorem depth_endCur (f : FunctionCompiler) (b : BlockId) (ctl : MControl) (hd : DepthOk f) :
    DepthStep f.graph_.blocks.length f { f with graph_ := f.graph_.endBlock b ctl } :=
  dstep_same f _ hd rfl (sameDepth_endBlock _ _ _) rfl (Or.inl rfl)

theorem depth_doWhileTail (f1 : FunctionCompiler) (cond : Option DefId) (le : BlockId)
    (hd1 : DepthOk f1) :
    DepthStep f1.graph_.blocks.length f1
      (match f1.curBlock_ with
        | none => f1
        | some cur =>
          if isConstant f1.graph_ cond then
            if isConstantTrue f1.graph_ cond then
              { setLoopBackedge { f1 with graph_ := f1.graph_.endBlock cur (.goto le) } le cur none
                with curBlock_ := none }
            else
              { (f1.newBlock (some cur)).1 with
                graph_ := (f1.newBlock (some cur)).1.graph_.endBlock cur
                  (.goto (f1.newBlock (some cur)).2),
                curBlock_ := some (f1.newBlock (some cur)).2 }
          else
            { setLoopBackedge
                { (f1.newBlock (some cur)).1 with
                  graph_ := (f1.newBlock (some cur)).1.graph_.endBlock cur
                    (.test cond le (f1.newBlock (some cur)).2) } le cur
                (some (f1.newBlock (some cur)).2)
              with curBlock_ := some (f1.newBlock (some cur)).2 }) := by
  cases hc : f1.curBlock_ with
  | none => exact dstep_refl f1 hd1
  | some cur =>
    dsimp only
    split
    · split
      · have s2 := depth_endCur f1 cur (.goto le) hd1
        exact dstep_then s2 (depth_backedge _ le cur none none (dstep_ok s2) (Or.inr rfl))
      · exact depth_newFromCur f1 cur _ _ hd1 hc
    · have s2 := depth_newFromCur f1 cur f1.loopStack_.length
        (.test cond le (f1.newBlockWithDepth (some cur) f1.loopStack_.length).2) hd1 hc
      exact dstep_then s2 (depth_backedge _ le cur
        (some (f1.newBlockWithDepth (some cur) f1.loopStack_.length).2)
        (some (f1.newBlockWithDepth (some cur) f1.loopStack_.length).2) (dstep_ok s2) (Or.inl rfl))

theorem depth_joinTail (f2 : FunctionCompiler) (hd : DepthOk f2) :
    DepthStep f2.graph_.blocks.length f2
      (match f2.curBlock_ with
        | some cur =>
          { (f2.newBlock (some cur)).1 with
            graph_ := (f2.newBlock (some cur)).1.graph_.endBlock cur
              (.goto (f2.newBlock (some cur)).2),
            curBlock_ := some (f2.newBlock (some cur)).2 }
        | none => f2) := by
  cases hc : f2.curBlock_ with
  | none => exact dstep_refl f2 hd
  | some cur => exact depth_newFromCur f2 cur _ _ hd hc

theorem depth_doWhileClose (f f' : FunctionCompiler) (cond : Option DefId)
    (le : Option BlockId) (hd : DepthOk f) (h : f.branchAndCloseDoWhileLoop cond le = some f') :
    DepthStep f.graph_.blocks.length f f' := by
  unfold branchAndCloseDoWhileLoop at h
  cases hp : f.popLoop with
  | none => rw [hp] at h; cases h
  | some pf =>
    obtain ⟨pos, f1⟩ := pf
    rw [hp] at h
    have e1 : f1 = { f with loopStack_ := f.loopStack_.dropLast,
                            breakableStack_ := f.breakableStack_.dropLast } := by
      unfold popLoop at hp
      split at hp
      · cases hp
      · simp only [Option.some.injEq, Prod.mk.injEq] at hp
        exact hp.2.symm
    have s1 : DepthStep f.graph_.blocks.length f f1 := by
      rw [e1]
      exact dstep_sub f _ hd rfl (SameDepth.sd_refl _) (fun sel e h => by cases sel <;> exact h)
        (Or.inl rfl)
    cases le with
    | none =>
      simp only [Option.some.injEq] at h
      subst h
      exact s1
    | some le =>
      simp only [Option.some.injEq] at h
      subst h
      have s2 := depth_doWhileTail f1 cond le (dstep_ok s1)
      exact dstep_then (dstep_then s1 s2) (depth_bindUnlabeledBreaks _ pos (dstep_ok s2))

theorem depth_startSwitch (f : FunctionCompiler) (pos : Nat) (e : Option DefId) (low high : Int)
    (hd : DepthOk f) :
    DepthStep f.graph_.blocks.length f (f.startSwitch pos e low high).1 ∧
    (∀ sb, (f.startSwitch pos e low high).2 = some sb →
      sb < (f.startSwitch pos e low high).1.graph_.blocks.length ∧
      (f.startSwitch pos e low high).1.graph_.stackDepth sb =
        (f.startSwitch pos e low high).1.numLocals) := by
  unfold startSwitch
  cases hc : f.curBlock_ with
  | none =>
    simp only [hc]
    exact ⟨dstep_sub f _ hd rfl (SameDepth.sd_refl _) (fun sel e h => by cases sel <;> exact h)
      (Or.inr rfl), fun sb h => by cases h⟩
  | some cur =>
    obtain ⟨c1, c2, c3⟩ := hd.1 cur hc
    simp only [hc]
    refine ⟨dstep_sub f _ hd rfl (sameDepth_endBlock _ _ _)
      (fun sel e h => by cases sel <;> exact h) (Or.inr rfl), ?_⟩
    intro sb hsb
    simp only [Option.some.injEq] at hsb
    subst hsb
    refine ⟨?_, ?_⟩
    · show cur < (MIRGraph.endBlock _ _ _).blocks.length
      rw [blocks_length_endBlock]
      exact c1
    · show MIRGraph.stackDepth (MIRGraph.endBlock _ _ _) _ = _
      rw [(sameDepth_endBlock _ _ _).2]
      exact c2

theorem depth_startSwitchCase (f : FunctionCompiler) (switchBlock : Option BlockId)
    (hd : DepthOk f)
    (hsb : ∀ sb, switchBlock = some sb →
      sb < f.graph_.blocks.length ∧ f.graph_.stackDepth sb = f.numLocals) :
    DepthStep f.graph_.blocks.length f (f.startSwitchCase switchBlock).1 := by
  cases switchBlock with
  | none => exact dstep_refl f hd
  | some sb =>
    obtain ⟨h1, h2⟩ := hsb sb rfl
    obtain ⟨a1, a2, a3, a4, a5, a6, a7⟩ := newBlock_depth f sb f.loopStack_.length
    have hg : SameDepth (f.newBlockWithDepth (some sb) f.loopStack_.length).1.graph_
        (f.startSwitchCase (some sb)).1.graph_ := by
      unfold startSwitchCase newBlock
      cases f.curBlock_ with
      | none => exact SameDepth.sd_refl _
      | some cur => exact (sameDepth_endBlock _ _ _).sd_trans (sameDepth_addPredecessor _ _ _)
    refine dstep_new f _ hd a1 (fun sel => getMap_of_bookkeeping
      ((startSwitchCase_quiet f (some sb)).1) sel) ?_ ?_ ?_ ?_
    · rw [hg.1, a5]
      exact Nat.lt_succ_self _
    · intro b hb
      rw [hg.2, a6 b hb]
    · rw [hg.2, a7, h2]
    · show some (f.newBlock (some sb)).2 = _
      unfold newBlock
      rw [a4]

theorem depth_startSwitchDefault (f : FunctionCompiler) (switchBlock : Option BlockId)
    (hd : DepthOk f)
    (hsb : ∀ sb, switchBlock = some sb →
      sb < f.graph_.blocks.length ∧ f.graph_.stackDepth sb = f.numLocals) :
    DepthStep f.graph_.blocks.length f (f.startSwitchDefault switchBlock).1 := by
  have s1 := depth_startSwitchCase f switchBlock hd hsb
  unfold startSwitchDefault
  dsimp only
  split
  · exact s1
  · rename_i d hdd
    refine dstep_then s1 (dstep_same _ _ (dstep_ok s1) rfl (sameDepth_moveBlockToEnd _ _) rfl
      (Or.inl rfl))

theorem depth_joinSwitch (f f' : FunctionCompiler) (switchBlock : Option BlockId)
    (cases : List (Option BlockId)) (defaultBlock : Option BlockId) (hd : DepthOk f)
    (h : f.joinSwitch switchBlock cases defaultBlock = some f') :
    DepthStep f.graph_.blocks.length f f' := by
  unfold joinSwitch at h
  cases hl : f.breakableStack_.getLast? with
  | none => rw [hl] at h; cases h
  | some pos =>
    rw [hl] at h
    have s1 : DepthStep f.graph_.blocks.length f
        { f with breakableStack_ := f.breakableStack_.dropLast } :=
      dstep_sub f _ hd rfl (SameDepth.sd_refl _) (fun sel e h => by cases sel <;> exact h)
        (Or.inl rfl)
    cases switchBlock with
    | none =>
      simp only [Option.some.injEq] at h
      subst h
      exact s1
    | some sb =>
      have s2 : DepthStep f.graph_.blocks.length f
          { f with
            breakableStack_ := f.breakableStack_.dropLast,
            graph_ := f.graph_.modifyBlock sb (fun blk =>
              { blk with lastIns := blk.lastIns.map (fillTableSwitch cases defaultBlock) }) } :=
        dstep_sub f _ hd rfl (sameDepth_modifyBlock _ _ _ (fun _ => rfl))
          (fun sel e h => by cases sel <;> exact h) (Or.inl rfl)
      simp only [Option.some.injEq] at h
      subst h
      have s3 := dstep_then s2 (depth_joinTail _ (dstep_ok s2))
      exact dstep_then s3 (depth_bindUnlabeledBreaks _ pos (dstep_ok s3))

theorem pushPhiInput_dead (f : FunctionCompiler) (d : Option DefId) (h : f.curBlock_ = none) :
    f.pushPhiInput d = f := by
  unfold pushPhiInput
  rw [h]

/-- The push of `pushPhiInput`: only the current block changes, and its stack
grows by the pushed value. -/
theorem pushPhiInput_depths (f : FunctionCompiler) (d : Option DefId) :
    (f.pushPhiInput d).numLocals = f.numLocals ∧
    (f.pushPhiInput d).graph_.blocks.length = f.graph_.blocks.length ∧
    (∀ b, f.curBlock_ ≠ some b →
      (f.pushPhiInput d).graph_.stackDepth b = f.graph_.stackDepth b) ∧
    (∀ cur, f.curBlock_ = some cur → cur < f.graph_.blocks.length →
      (f.pushPhiInput d).graph_.stackDepth cur = f.graph_.stackDepth cur + 1 ∧
      ((f.pushPhiInput d).graph_.block cur).slots = (f.graph_.block cur).slots ++ [d]) := by
  unfold pushPhiInput
  cases hc : f.curBlock_ with
  | none =>
    refine ⟨rfl, rfl, fun _ _ => rfl, fun cur h => ?_⟩
    cases h
  | some c =>
    refine ⟨rfl, blocks_length_modifyBlock _ _ _, fun b hb => ?_, fun cur h hlt => ?_⟩
    · show (f.graph_.modifyBlock c _).stackDepth b = _
      rw [stackDepth_modifyBlock, if_neg]
      intro h
      exact hb (by rw [h.1])
    · simp only [Option.some.injEq] at h
      subst h
      refine ⟨?_, ?_⟩
      · show (f.graph_.modifyBlock c _).stackDepth c = _
        rw [stackDepth_modifyBlock, if_pos ⟨rfl, hlt⟩]
        simp [MIRGraph.stackDepth]
      · show ((f.graph_.modifyBlock c _).block c).slots = _
        rw [block_modifyBlock, if_pos ⟨rfl, hlt⟩]

theorem parked_pushPhiInput (f : FunctionCompiler) (d : Option DefId) (b : BlockId) :
    (f.pushPhiInput d).parked b ↔ f.parked b :=
  parked_of_bk (pushPhiInput_quiet f d).1 b

/-- The pop of `popPhiOutput` in live code: the current block loses its top
value, which is the result. -/
theorem popPhiOutput_depths (f : FunctionCompiler) (cur : BlockId) (hc : f.curBlock_ = some cur)
    (hlt : cur < f.graph_.blocks.length) :
    f.popPhiOutput.1.numLocals = f.numLocals ∧
    f.popPhiOutput.1.graph_.blocks.length = f.graph_.blocks.length ∧
    f.popPhiOutput.1.curBlock_ = some cur ∧
    (∀ b, b ≠ cur → f.popPhiOutput.1.graph_.stackDepth b = f.graph_.stackDepth b) ∧
    f.popPhiOutput.1.graph_.stackDepth cur = f.graph_.stackDepth cur - 1 ∧
    f.popPhiOutput.2 = ((f.graph_.block cur).slots.getLast?).join := by
  unfold popPhiOutput
  rw [hc]
  refine ⟨rfl, blocks_length_modifyBlock _ _ _, rfl, fun b hb => ?_, ?_, rfl⟩
  · show (f.graph_.modifyBlock cur _).stackDepth b = _
    rw [stackDepth_modifyBlock, if_neg]
    intro h
    exact hb h.1.symm
  · show (f.graph_.modifyBlock cur _).stackDepth cur = _
    rw [stackDepth_modifyBlock, if_pos ⟨rfl, hlt⟩]
    simp [MIRGraph.stackDepth]

theorem popPhiOutput_dead (f : FunctionCompiler) (h : f.curBlock_ = none) :
    f.popPhiOutput = (f, none) := by
  unfold popPhiOutput
  rw [h]

theorem switchToElse_some (f : FunctionCompiler) (E : BlockId) :
    (f.switchToElse (some E)).numLocals = f.numLocals ∧
    (f.switchToElse (some E)).curBlock_ = some E ∧
    SameDepth f.graph_ (f.switchToElse (some E)).graph_ ∧
    ∀ b, (f.switchToElse (some E)).parked b ↔ f.parked b :=
  ⟨rfl, rfl, sameDepth_moveBlockToEnd _ _, fun b => parked_of_bk (switchToElse_quiet f (some E)).1 b⟩

/-- The end of the then-arm of a conditional: the arm's terminal block gets the
pushed value and is left behind, and the held else block becomes current. -/
theorem depth_pushSwitch (n : Nat) (t : FunctionCompiler) (v : Option DefId) (E : BlockId)
    (hd : DepthOk t) (hn : n ≤ t.graph_.blocks.length) (hE : Held t E) (hnE : n ≤ E)
    (hcur : ∀ tb, t.curBlock_ = some tb → n ≤ tb) :
    DepthStep n t ((t.pushPhiInput v).switchToElse (some E)) ∧
    ((t.pushPhiInput v).switchToElse (some E)).graph_.blocks.length = t.graph_.blocks.length ∧
    (∀ tb, t.curBlock_ = some tb →
      ((t.pushPhiInput v).switchToElse (some E)).graph_.stackDepth tb = t.numLocals + 1 ∧
      ¬ ((t.pushPhiInput v).switchToElse (some E)).parked tb ∧
      ((t.pushPhiInput v).switchToElse (some E)).curBlock_ ≠ some tb) := by
  obtain ⟨p1, p2, p3, p4⟩ := pushPhiInput_depths t v
  obtain ⟨s1, s2, s3, s4⟩ := switchToElse_some (t.pushPhiInput v) E
  obtain ⟨e1, e2, e3, e4⟩ := hE
  have hpk : ∀ b, ((t.pushPhiInput v).switchToElse (some E)).parked b ↔ t.parked b :=
    fun b => (s4 b).trans (parked_pushPhiInput t v b)
  have hlen : ((t.pushPhiInput v).switchToElse (some E)).graph_.blocks.length =
      t.graph_.blocks.length := s3.1.trans p2
  have hdep : ∀ b, t.curBlock_ ≠ some b →
      ((t.pushPhiInput v).switchToElse (some E)).graph_.stackDepth b = t.graph_.stackDepth b :=
    fun b hb => (s3.2 b).trans (p3 b hb)
  refine ⟨⟨hn, s1.trans p1, Nat.le_of_eq hlen.symm, ?_, ?_, ?_, ?_, ?_⟩, hlen, ?_⟩
  · intro b hb
    refine hdep b (fun hc => ?_)
    exact absurd hb (Nat.not_lt.2 (hcur b hc))
  · intro c hc
    rw [s2] at hc
    simp only [Option.some.injEq] at hc
    subst hc
    exact Or.inr hnE
  · intro b hb
    exact Or.inl ((hpk b).1 hb)
  · intro c hc
    rw [s2] at hc
    simp only [Option.some.injEq] at hc
    subst hc
    refine ⟨by rw [hlen]; exact e1, ?_, fun h => e3 ((hpk _).1 h)⟩
    rw [hdep _ e4, e2, s1, p1]
  · intro b hb
    have hb' := (hpk b).1 hb
    obtain ⟨h1, h2⟩ := hd.2 b hb'
    refine ⟨by rw [hlen]; exact h1, ?_⟩
    rw [hdep b (fun hc => (hd.1 b hc).2.2 hb'), h2, s1, p1]
  · intro tb htb
    obtain ⟨h1, h2, h3⟩ := hd.1 tb htb
    refine ⟨?_, fun h => h3 ((hpk _).1 h), ?_⟩
    · rw [s3.2 tb, (p4 tb htb h1).1, h2]
    · rw [s2]
      intro h
      simp only [Option.some.injEq] at h
      subst h
      exact e4 htb

theorem lastIns_popPhiOutput (f : FunctionCompiler) (b : BlockId) :
    (f.popPhiOutput.1.graph_.block b).lastIns = (f.graph_.block b).lastIns := by
  unfold popPhiOutput
  cases f.curBlock_ with
  | none => rfl
  | some cur =>
    show ((f.graph_.modifyBlock cur _).block b).lastIns = _
    rw [block_modifyBlock]
    split <;> rfl

/-- The join of a conditional whose arms both ended in dead code: nothing is
built and the result is the null placeholder. -/
theorem joinCond_dead (e : FunctionCompiler) (v : Option DefId) (h : e.curBlock_ = none) :
    ((e.pushPhiInput v).joinIfElse []).popPhiOutput = (e, none) := by
  rw [pushPhiInput_dead e v h, joinIfElse_dead_empty e h, popPhiOutput_dead e h]

/-- The join of a conditional with a live arm. The then-arm's terminal blocks
`tbs` hold their pushed value (depth `numLocals + 1`); the else-arm's terminal
block, if any, is current in `e`. The join block is the new block
`e.graph_.blocks.length`. -/
theorem depth_joinCond (n : Nat) (e : FunctionCompiler) (v : Option DefId) (tbs : BlockVector)
    (hd : DepthOk e) (hn : n ≤ e.graph_.blocks.length)
    (hcur : ∀ c, e.curBlock_ = some c → n ≤ c)
    (htb : ∀ b ∈ tbs, b < e.graph_.blocks.length ∧
      e.graph_.stackDepth b = e.numLocals + 1 ∧ e.curBlock_ ≠ some b)
    (hlive : ¬ (e.curBlock_ = none ∧ tbs = [])) :
    DepthStep n e ((e.pushPhiInput v).joinIfElse tbs).popPhiOutput.1 ∧
    ((e.pushPhiInput v).joinIfElse tbs).graph_.blocks.length = e.graph_.blocks.length + 1 ∧
    ((e.pushPhiInput v).joinIfElse tbs).curBlock_ = some e.graph_.blocks.length ∧
    ((e.pushPhiInput v).joinIfElse tbs).graph_.stackDepth e.graph_.blocks.length =
      e.numLocals + 1 ∧
    ((e.pushPhiInput v).joinIfElse tbs).popPhiOutput.1.curBlock_ = some e.graph_.blocks.length ∧
    ((e.pushPhiInput v).joinIfElse tbs).popPhiOutput.1.graph_.blocks.length =
      e.graph_.blocks.length + 1 ∧
    ((e.pushPhiInput v).joinIfElse tbs).popPhiOutput.1.graph_.stackDepth e.graph_.blocks.length =
      e.numLocals ∧
    ((e.pushPhiInput v).joinIfElse tbs).popPhiOutput.2 =
      ((((e.pushPhiInput v).joinIfElse tbs).graph_.block e.graph_.blocks.length).slots.getLast?).join ∧
    (∀ b, (b ∈ tbs ∨ e.curBlock_ = some b) →
      JumpsTo ((e.pushPhiInput v).joinIfElse tbs).popPhiOutput.1.graph_ b
        e.graph_.blocks.length) := by
  obtain ⟨p1, p2, p3, p4⟩ := pushPhiInput_depths e v
  have pc : (e.pushPhiInput v).curBlock_ = e.curBlock_ := (pushPhiInput_quiet e v).2
  -- the predecessor the join block is created from
  have hp : ∃ p, ((e.pushPhiInput v).curBlock_ = some p ∨
      ((e.pushPhiInput v).curBlock_ = none ∧ tbs.head? = some p)) ∧
      (e.pushPhiInput v).graph_.stackDepth p = e.numLocals + 1 := by
    cases hc : e.curBlock_ with
    | some c =>
      obtain ⟨h1, h2, -⟩ := hd.1 c hc
      exact ⟨c, Or.inl (pc.trans hc), by rw [(p4 c hc h1).1, h2]⟩
    | none =>
      cases tbs with
      | nil => exact absurd ⟨hc, rfl⟩ hlive
      | cons t0 rest =>
        refine ⟨t0, Or.inr ⟨pc.trans hc, rfl⟩, ?_⟩
        rw [p3 t0 (by rw [hc]; exact fun h => by cases h)]
        exact (htb t0 (List.mem_cons_self _ _)).2.1
  obtain ⟨p, hp1, hp2⟩ := hp
  obtain ⟨j1, j2, j3, j4, j5⟩ := joinIfElse_depths (e.pushPhiInput v) tbs p hp1
  rw [p2] at j2 j3 j4 j5
  have hjlt : e.graph_.blocks.length < ((e.pushPhiInput v).joinIfElse tbs).graph_.blocks.length := by
    rw [j2]; exact Nat.lt_succ_self _
  obtain ⟨o1, o2, o3, o4, o5, o6⟩ := popPhiOutput_depths _ _ j3 hjlt
  have hpk : ∀ b, ((e.pushPhiInput v).joinIfElse tbs).popPhiOutput.1.parked b ↔ e.parked b :=
    fun b => parked_of_bk ((popPhiOutput_quiet _).1.trans
      ((joinIfElse_quiet _ _).trans (pushPhiInput_quiet _ _).1)) b
  have hnum : ((e.pushPhiInput v).joinIfElse tbs).popPhiOutput.1.numLocals = e.numLocals :=
    o1.trans (j1.trans p1)
  have hold : ∀ b, b < e.graph_.blocks.length → e.curBlock_ ≠ some b →
      ((e.pushPhiInput v).joinIfElse tbs).popPhiOutput.1.graph_.stackDepth b =
        e.graph_.stackDepth b := by
    intro b hb hc
    rw [o4 b (Nat.ne_of_lt hb), j4 b hb, p3 b hc]
  have hnew : ((e.pushPhiInput v).joinIfElse tbs).popPhiOutput.1.graph_.stackDepth
      e.graph_.blocks.length = e.numLocals := by
    rw [o5, j5, hp2]
    rfl
  refine ⟨⟨hn, hnum, ?_, ?_, ?_, ?_, ?_, ?_⟩, j2, j3, by rw [j5, hp2], o3, o2.trans j2, hnew, o6,
    ?_⟩
  · rw [o2, j2]
    exact Nat.le_succ _
  · intro b hb
    refine hold b (Nat.lt_of_lt_of_le hb hn) (fun hc => ?_)
    exact absurd hb (Nat.not_lt.2 (hcur b hc))
  · intro c hc
    rw [o3] at hc
    simp only [Option.some.injEq] at hc
    subst hc
    exact Or.inr hn
  · intro b hb
    exact Or.inl ((hpk b).1 hb)
  · intro c hc
    rw [o3] at hc
    simp only [Option.some.injEq] at hc
    subst hc
    refine ⟨by rw [o2]; exact hjlt, by rw [hnew, hnum], fun h => ?_⟩
    exact not_parked_new e hd _ (Nat.le_refl _) ((hpk _).1 h)
  · intro b hb
    have hb' := (hpk b).1 hb
    obtain ⟨h1, h2⟩ := hd.2 b hb'
    refine ⟨?_, ?_⟩
    · rw [o2]
      exact Nat.lt_trans h1 hjlt
    · rw [hold b h1 (fun hc => (hd.1 b hc).2.2 hb'), h2, hnum]
  · intro b hb
    have hlt : b < (e.pushPhiInput v).graph_.blocks.length := by
      rw [p2]
      rcases hb with h | h
      · exact (htb b h).1
      · exact (hd.1 b h).1
    have hs := (joinIfElse_spec (e.pushPhiInput v) tbs
      (by rw [pc]; exact hlive)).2.2 b (by rw [pc]; exact hb) hlt
    rw [p2] at hs
    unfold JumpsTo
    rw [lastIns_popPhiOutput]
    exact hs

theorem branchAndStartThen_dead (f : FunctionCompiler) (cond : Option DefId)
    (h : f.curBlock_ = none) : f.branchAndStartThen cond none none = (f, none, none) := by
  unfold branchAndStartThen
  rw [h]

theorem switchToElse_none (f : FunctionCompiler) : f.switchToElse none = f := rfl

theorem appendThenBlock_live (f : FunctionCompiler) (tb : BlockId) (h : f.curBlock_ = some tb) :
    f.appendThenBlock [] = [tb] := by
  unfold appendThenBlock
  rw [h]
  rfl

/-- The first half of a conditional, up to the start of the else-arm: `cr` is
the builder after the condition and `t` the builder after the then-arm. -/
theorem depth_condHead (cr : FunctionCompiler) (cv tv : Option DefId) (t : FunctionCompiler)
    (hd : DepthOk cr)
    (ht : DepthStep (cr.branchAndStartThen cv none none).1.graph_.blocks.length
      (cr.branchAndStartThen cv none none).1 t)
    (htd : cr.curBlock_ = none → t.curBlock_ = none) :
    DepthStep cr.graph_.blocks.length cr
      ((t.pushPhiInput tv).switchToElse (cr.branchAndStartThen cv none none).2.2) ∧
    (∀ c, ((t.pushPhiInput tv).switchToElse
      (cr.branchAndStartThen cv none none).2.2).curBlock_ = some c → cr.graph_.blocks.length ≤ c) ∧
    (∀ tb, t.curBlock_ = some tb →
      tb < ((t.pushPhiInput tv).switchToElse
        (cr.branchAndStartThen cv none none).2.2).graph_.blocks.length ∧
      t.graph_.stackDepth tb = cr.numLocals ∧
      (t.pushPhiInput tv).graph_.stackDepth tb = cr.numLocals + 1 ∧
      ((t.pushPhiInput tv).switchToElse
        (cr.branchAndStartThen cv none none).2.2).graph_.stackDepth tb = cr.numLocals + 1 ∧
      ((t.pushPhiInput tv).switchToElse
        (cr.branchAndStartThen cv none none).2.2).curBlock_ ≠ some tb) := by
  obtain ⟨D2, hB⟩ := depth_branchAndStartThen cr cv hd
  have D3 : DepthStep cr.graph_.blocks.length cr t := dstep_then D2 ht
  cases hc : cr.curBlock_ with
  | none =>
    have hdead := htd hc
    rw [branchAndStartThen_dead cr cv hc, switchToElse_none, pushPhiInput_dead t tv hdead]
    refine ⟨D3, fun c h => ?_, fun tb h => ?_⟩
    · rw [hdead] at h
      cases h
    · rw [hdead] at h
      cases h
  | some cur =>
    obtain ⟨b1, b2, b3, b4, b5⟩ := hB cur hc
    rw [b2]
    have hE : Held t (cr.graph_.blocks.length + 1) :=
      held_step b5 ht (by rw [b4]; exact Nat.lt_succ_self _)
    have hcur : ∀ tb, t.curBlock_ = some tb → cr.graph_.blocks.length ≤ tb := by
      intro tb htb
      rcases ht.2.2.2.2.1 tb htb with h | h
      · rw [b3] at h
        simp only [Option.some.injEq] at h
        exact Nat.le_of_eq h
      · rw [b4] at h
        exact Nat.le_trans (Nat.le_add_right _ 2) h
    obtain ⟨s1, s2, s3⟩ := depth_pushSwitch cr.graph_.blocks.length t tv
      (cr.graph_.blocks.length + 1) (dstep_ok ht) D3.2.2.1 hE (Nat.le_succ _) hcur
    refine ⟨dstep_trans D3 s1 (Nat.le_refl _), fun c h => ?_, fun tb htb => ?_⟩
    · have h2 : ((t.pushPhiInput tv).switchToElse (some (cr.graph_.blocks.length + 1))).curBlock_ =
          some (cr.graph_.blocks.length + 1) := rfl
      rw [h2] at h
      simp only [Option.some.injEq] at h
      rw [← h]
      exact Nat.le_succ _
    · obtain ⟨h1, h2, h3⟩ := (dstep_ok ht).1 tb htb
      obtain ⟨q1, q2, q3⟩ := s3 tb htb
      refine ⟨by rw [s2]; exact h1, by rw [h2, D3.2.1], ?_, by rw [q1, D3.2.1], q3⟩
      rw [((pushPhiInput_depths t tv).2.2.2 tb htb h1).1, h2, D3.2.1]

/-- A block below the threshold of a step that had depth `numLocals` before
still has it after. -/
theorem keep_step {n : Nat} {f f' : FunctionCompiler} (hs : DepthStep n f f') (b : BlockId)
    (hb : b < n) (hdep : f.graph_.stackDepth b = f.numLocals) :
    b < f'.graph_.blocks.length ∧ f'.graph_.stackDepth b = f'.numLocals :=
  ⟨Nat.lt_of_lt_of_le hb (Nat.le_trans hs.1 hs.2.2.1), by rw [hs.2.2.2.1 b hb, hdep, hs.2.1]⟩

theorem keep_all {f f' : FunctionCompiler} (hs : DepthStep f.graph_.blocks.length f f')
    (tb : BlockVector)
    (h : ∀ b ∈ tb, b < f.graph_.blocks.length ∧ f.graph_.stackDepth b = f.numLocals) :
    ∀ b ∈ tb, b < f'.graph_.blocks.length ∧ f'.graph_.stackDepth b = f'.numLocals :=
  fun b hb => keep_step hs b (h b hb).1 (h b hb).2

theorem keep_opt {f f' : FunctionCompiler} (hs : DepthStep f.graph_.blocks.length f f')
    (o : Option BlockId)
    (h : ∀ sb, o = some sb → sb < f.graph_.blocks.length ∧ f.graph_.stackDepth sb = f.numLocals) :
    ∀ sb, o = some sb → sb < f'.graph_.blocks.length ∧ f'.graph_.stackDepth sb = f'.numLocals :=
  fun b hb => keep_step hs b (h b hb).1 (h b hb).2

theorem appendThenBlock_keep (t : FunctionCompiler) (tb : BlockVector) (hd : DepthOk t)
    (h : ∀ b ∈ tb, b < t.graph_.blocks.length ∧ t.graph_.stackDepth b = t.numLocals) :
    ∀ b ∈ t.appendThenBlock tb,
      b < t.graph_.blocks.length ∧ t.graph_.stackDepth b = t.numLocals := by
  unfold appendThenBlock
  cases hc : t.curBlock_ with
  | none => exact h
  | some cur =>
    intro b hb
    simp only [List.mem_append, List.mem_singleton] at hb
    rcases hb with hb | rfl
    · exact h b hb
    · exact ⟨(hd.1 b hc).1, (hd.1 b hc).2.1⟩

/-- The end of an `if` without `else`: the then-blocks are joined into the held
else block. -/
theorem depth_ifThenTail (cr : FunctionCompiler) (cv : Option DefId) (t : FunctionCompiler)
    (tbs : BlockVector) (hd : DepthOk cr)
    (ht : DepthStep (cr.branchAndStartThen cv none none).1.graph_.blocks.length
      (cr.branchAndStartThen cv none none).1 t) :
    DepthStep cr.graph_.blocks.length cr
      (t.joinIf tbs (cr.branchAndStartThen cv none none).2.2) := by
  obtain ⟨D2, hB⟩ := depth_branchAndStartThen cr cv hd
  have D3 : DepthStep cr.graph_.blocks.length cr t := dstep_then D2 ht
  cases hc : cr.curBlock_ with
  | none =>
    rw [branchAndStartThen_dead cr cv hc]
    exact D3
  | some cur =>
    obtain ⟨b1, b2, b3, b4, b5⟩ := hB cur hc
    rw [b2]
    have hE : Held t (cr.graph_.blocks.length + 1) :=
      held_step b5 ht (by rw [b4]; exact Nat.lt_succ_self _)
    exact dstep_trans D3 (depth_joinIf cr.graph_.blocks.length t tbs _ (dstep_ok ht) D3.2.2.1 hE
      (Nat.le_succ _)) (Nat.le_refl _)

/-- The start of the `else` part of an `if`: the held else block becomes
current. -/
theorem depth_elseStart (cr : FunctionCompiler) (cv : Option DefId) (t : FunctionCompiler)
    (hd : DepthOk cr)
    (ht : DepthStep (cr.branchAndStartThen cv none none).1.graph_.blocks.length
      (cr.branchAndStartThen cv none none).1 t) :
    DepthStep cr.graph_.blocks.length cr
      (t.switchToElse (cr.branchAndStartThen cv none none).2.2) ∧
    (t.switchToElse (cr.branchAndStartThen cv none none).2.2).graph_.blocks.length =
      t.graph_.blocks.length ∧
    (t.switchToElse (cr.branchAndStartThen cv none none).2.2).numLocals = t.numLocals ∧
    ∀ b, (t.switchToElse (cr.branchAndStartThen cv none none).2.2).graph_.stackDepth b =
      t.graph_.stackDepth b := by
  obtain ⟨D2, hB⟩ := depth_branchAndStartThen cr cv hd
  have D3 : DepthStep cr.graph_.blocks.length cr t := dstep_then D2 ht
  cases hc : cr.curBlock_ with
  | none =>
    rw [branchAndStartThen_dead cr cv hc]
    exact ⟨D3, rfl, rfl, fun _ => rfl⟩
  | some cur =>
    obtain ⟨b1, b2, b3, b4, b5⟩ := hB cur hc
    rw [b2]
    have hE : Held t (cr.graph_.blocks.length + 1) :=
      held_step b5 ht (by rw [b4]; exact Nat.lt_succ_self _)
    exact ⟨dstep_trans D3 (depth_switchToElse cr.graph_.blocks.length t _ (dstep_ok ht) D3.2.2.1 hE
      (Nat.le_succ _)) (Nat.le_refl _), rfl, rfl, fun _ => rfl⟩

theorem appendThenBlock_nil_mem (t : FunctionCompiler) (b : BlockId) :
    b ∈ t.appendThenBlock [] ↔ t.curBlock_ = some b := by
  unfold appendThenBlock
  cases t.curBlock_ with
  | none => simp
  | some cur =>
    simp only [List.nil_append, List.mem_singleton, Option.some.injEq]
    exact eq_comm

/-- The whole conditional after its condition: `cr` is the builder after the
condition, `t` after the then-arm, `e` after the else-arm. -/
theorem depth_condAll (cr : FunctionCompiler) (cv tv ev : Option DefId) (t e : FunctionCompiler)
    (hd : DepthOk cr)
    (ht : DepthStep (cr.branchAndStartThen cv none none).1.graph_.blocks.length
      (cr.branchAndStartThen cv none none).1 t)
    (htd : cr.curBlock_ = none → t.curBlock_ = none)
    (he : DepthStep ((t.pushPhiInput tv).switchToElse
        (cr.branchAndStartThen cv none none).2.2).graph_.blocks.length
      ((t.pushPhiInput tv).switchToElse (cr.branchAndStartThen cv none none).2.2) e) :
    DepthStep cr.graph_.blocks.length cr
      ((e.pushPhiInput ev).joinIfElse (t.appendThenBlock [])).popPhiOutput.1 ∧
    (t.curBlock_ = none → e.curBlock_ = none →
      ((e.pushPhiInput ev).joinIfElse (t.appendThenBlock [])).popPhiOutput = (e, none)) ∧
    (∀ eb, e.curBlock_ = some eb → eb < e.graph_.blocks.length ∧
      e.graph_.stackDepth eb = cr.numLocals ∧
      (e.pushPhiInput ev).graph_.stackDepth eb = cr.numLocals + 1) ∧
    (¬ (t.curBlock_ = none ∧ e.curBlock_ = none) →
      ((e.pushPhiInput ev).joinIfElse (t.appendThenBlock [])).curBlock_ =
        some e.graph_.blocks.length ∧
      ((e.pushPhiInput ev).joinIfElse (t.appendThenBlock [])).graph_.blocks.length =
        e.graph_.blocks.length + 1 ∧
      ((e.pushPhiInput ev).joinIfElse (t.appendThenBlock [])).graph_.stackDepth
        e.graph_.blocks.length = cr.numLocals + 1 ∧
      ((e.pushPhiInput ev).joinIfElse (t.appendThenBlock [])).popPhiOutput.1.curBlock_ =
        some e.graph_.blocks.length ∧
      ((e.pushPhiInput ev).joinIfElse (t.appendThenBlock [])).popPhiOutput.1.graph_.blocks.length =
        e.graph_.blocks.length + 1 ∧
      ((e.pushPhiInput ev).joinIfElse (t.appendThenBlock [])).popPhiOutput.1.graph_.stackDepth
        e.graph_.blocks.length = cr.numLocals ∧
      ((e.pushPhiInput ev).joinIfElse (t.appendThenBlock [])).popPhiOutput.2 =
        ((((e.pushPhiInput ev).joinIfElse (t.appendThenBlock [])).graph_.block
          e.graph_.blocks.length).slots.getLast?).join ∧
      (∀ b, (t.curBlock_ = some b ∨ e.curBlock_ = some b) →
        JumpsTo ((e.pushPhiInput ev).joinIfElse (t.appendThenBlock [])).popPhiOutput.1.graph_ b
          e.graph_.blocks.length)) := by
  obtain ⟨S, hcurP, hthen⟩ := depth_condHead cr cv tv t hd ht htd
  have hnum : e.numLocals = cr.numLocals := he.2.1.trans S.2.1
  have S2 : DepthStep cr.graph_.blocks.length cr e := dstep_trans S he S.2.2.1
  have hcur : ∀ c, e.curBlock_ = some c → cr.graph_.blocks.length ≤ c := by
    intro c hc
    rcases he.2.2.2.2.1 c hc with h | h
    · exact hcurP c h
    · exact Nat.le_trans S.2.2.1 h
  have htb : ∀ b ∈ t.appendThenBlock [], b < e.graph_.blocks.length ∧
      e.graph_.stackDepth b = e.numLocals + 1 ∧ e.curBlock_ ≠ some b := by
    intro b hb
    obtain ⟨h1, -, -, h3, h4⟩ := hthen b ((appendThenBlock_nil_mem t b).1 hb)
    refine ⟨Nat.lt_of_lt_of_le h1 he.2.2.1, by rw [he.2.2.2.1 b h1, h3, hnum], fun hc => ?_⟩
    rcases he.2.2.2.2.1 b hc with h | h
    · exact h4 h
    · exact absurd h1 (Nat.not_lt.2 h)
  have hdead : t.curBlock_ = none → e.curBlock_ = none →
      ((e.pushPhiInput ev).joinIfElse (t.appendThenBlock [])).popPhiOutput = (e, none) := by
    intro h1 h2
    rw [appendThenBlock_dead t [] h1]
    exact joinCond_dead e ev h2
  have hpush : ∀ eb, e.curBlock_ = some eb → eb < e.graph_.blocks.length ∧
      e.graph_.stackDepth eb = cr.numLocals ∧
      (e.pushPhiInput ev).graph_.stackDepth eb = cr.numLocals + 1 := by
    intro eb hc
    obtain ⟨h1, h2, -⟩ := (dstep_ok he).1 eb hc
    refine ⟨h1, by rw [h2, hnum], ?_⟩
    rw [((pushPhiInput_depths e ev).2.2.2 eb hc h1).1, h2, hnum]
  by_cases hboth : t.curBlock_ = none ∧ e.curBlock_ = none
  · refine ⟨?_, hdead, hpush, fun h => absurd hboth h⟩
    rw [hdead hboth.1 hboth.2]
    exact S2
  · have hlive : ¬ (e.curBlock_ = none ∧ t.appendThenBlock [] = []) := by
      intro h
      apply hboth
      refine ⟨?_, h.1⟩
      cases hc : t.curBlock_ with
      | none => rfl
      | some tb =>
        have := (appendThenBlock_nil_mem t tb).2 hc
        rw [h.2] at this
        cases this
    obtain ⟨J, j1, j2, j3, j4, j5, j6, j7, j8⟩ := depth_joinCond cr.graph_.blocks.length e ev
      (t.appendThenBlock []) (dstep_ok he) S2.2.2.1 hcur htb hlive
    refine ⟨dstep_trans S2 J (Nat.le_refl _), hdead, hpush, fun _ => ?_⟩
    refine ⟨j2, j1, by rw [j3, hnum], j4, j5, by rw [j6, hnum], j7, fun b hb => ?_⟩
    refine j8 b ?_
    rcases hb with h | h
    · exact Or.inl ((appendThenBlock_nil_mem t b).2 h)
    · exact Or.inr h

/-! ### The stack-depth invariant is kept by every emitter -/

set_option maxHeartbeats 4000000 in
mutual
theorem depth_EmitExpr (abi : ABIArgGenerator) :
    ∀ (e : Expr) (c : Ctx) (f : FunctionCompiler) (r : FunctionCompiler × Option DefId),
      Inv c f → wfExpr c e = true → DepthOk f → EmitExpr abi e f = some r →
      DepthStep f.graph_.blocks.length f r.1
  | .literal type v, c, f, r, _, _, hd, h => by
    have h2 : some ((f.advance (1 + literalWidth type)).constant v (MIRTypeFromAsmType type)) =
        some r := h
    simp only [Option.some.injEq] at h2
    subst h2
    have D0 := depth_advance f (1 + literalWidth type) hd
    exact dstep_then D0 (depth_emit _ _ _ (dstep_ok D0))
  | .getLocal slot, c, f, r, _, _, hd, h => by
    have h2 : some (f.advance 5, (f.advance 5).getLocalDef slot) = some r := h
    simp only [Option.some.injEq] at h2
    subst h2
    exact depth_advance f 5 hd
  | .setLocal slot e, c, f, r, hi, hw, hd, h => by
    have h2 : (EmitExpr abi e (f.advance 5)).bind (fun r => some (r.1.assign slot r.2, r.2)) =
        some r := h
    simp only [Option.bind_eq_some, Option.some.injEq] at h2
    obtain ⟨r1, h1, rfl⟩ := h2
    have hw1 : wfExpr c e = true := hw
    have s0 := step_advance c.noJump f 5
    have D0 := depth_advance f 5 hd
    have D1 := depth_EmitExpr abi e c (f.advance 5) r1 (inv_step hi (step_of_noJump s0)) hw1
      (dstep_ok D0) h1
    exact dstep_then D0 (dstep_then D1 (depth_assign _ _ _ (dstep_ok D1)))
  | .idExpr e, c, f, r, hi, hw, hd, h => by
    have h2 : EmitExpr abi e (f.advance 1) = some r := h
    have hw1 : wfExpr c e = true := hw
    have s0 := step_advance c.noJump f 1
    have D0 := depth_advance f 1 hd
    exact dstep_then D0 (depth_EmitExpr abi e c _ r (inv_step hi (step_of_noJump s0)) hw1
      (dstep_ok D0) h2)
  | .operator o args, c, f, r, hi, hw, hd, h => by
    have h2 : (EmitOperands abi args (f.advance (1 + o.immBefore))).bind (fun r =>
        some (((r.1.advance o.immAfter).emitOp o.code r.2).1,
          if o.yieldsLast then r.2.getLast?.join
          else ((r.1.advance o.immAfter).emitOp o.code r.2).2)) = some r := h
    simp only [Option.bind_eq_some, Option.some.injEq] at h2
    obtain ⟨r1, h1, rfl⟩ := h2
    have hw1 : wfArgs c args = true := hw
    have s0 := step_advance c.noJump f (1 + o.immBefore)
    have D0 := depth_advance f (1 + o.immBefore) hd
    have D1 := depth_EmitOperands abi args c _ r1 (inv_step hi (step_of_noJump s0)) hw1
      (dstep_ok D0) h1
    have D2 := depth_advance r1.1 o.immAfter (dstep_ok D1)
    have D3 : DepthStep (r1.1.advance o.immAfter).graph_.blocks.length (r1.1.advance o.immAfter)
        ((r1.1.advance o.immAfter).emitOp o.code r1.2).1 := depth_emit _ _ _ (dstep_ok D2)
    exact dstep_then D0 (dstep_then D1 (dstep_then D2 D3))
  | .minMax first rest, c, f, r, hi, hw, hd, h => by
    have h2 : (EmitExpr abi first (f.advance 2)).bind
        (fun r => EmitMinMaxRest abi rest r.2 r.1) = some r := h
    simp only [Option.bind_eq_some] at h2
    obtain ⟨r1, h1, h3⟩ := h2
    have hw1 : (wfExpr c first && wfArgs c rest) = true := hw
    simp only [Bool.and_eq_true] at hw1
    have s0 := step_advance c.noJump f 2
    have i0 := inv_step hi (step_of_noJump s0)
    have s1 := step_EmitExpr abi first c _ r1 i0 hw1.1 h1
    have D0 := depth_advance f 2 hd
    have D1 := depth_EmitExpr abi first c _ r1 i0 hw1.1 (dstep_ok D0) h1
    have D2 := depth_EmitMinMaxRest abi rest r1.2 c r1.1 r (inv_step i0 (step_of_noJump s1))
      hw1.2 (dstep_ok D1) h3
    exact dstep_then D0 (dstep_then D1 D2)
  | .storeWithCoercion ptr rhs, c, f, r, hi, hw, hd, h => by
    have h2 : (EmitExpr abi ptr (f.advance 2)).bind (fun p =>
        (EmitExpr abi rhs p.1).bind (fun r =>
          some (((r.1.emitOp Op.coerce [r.2]).1.emitOp Op.storeHeap
            [p.2, (r.1.emitOp Op.coerce [r.2]).2]).1, r.2))) = some r := h
    simp only [Option.bind_eq_some, Option.some.injEq] at h2
    obtain ⟨p, h1, r1, h3, rfl⟩ := h2
    have hw1 : (wfExpr c ptr && wfExpr c rhs) = true := hw
    simp only [Bool.and_eq_true] at hw1
    have s0 := step_advance c.noJump f 2
    have i0 := inv_step hi (step_of_noJump s0)
    have s1 := step_EmitExpr abi ptr c _ p i0 hw1.1 h1
    have D0 := depth_advance f 2 hd
    have D1 := depth_EmitExpr abi ptr c _ p i0 hw1.1 (dstep_ok D0) h1
    have D2 := depth_EmitExpr abi rhs c _ r1 (inv_step i0 (step_of_noJump s1)) hw1.2
      (dstep_ok D1) h3
    have D3 : DepthStep r1.1.graph_.blocks.length r1.1 (r1.1.emitOp Op.coerce [r1.2]).1 :=
      depth_emit _ _ _ (dstep_ok D2)
    have D4 : DepthStep (r1.1.emitOp Op.coerce [r1.2]).1.graph_.blocks.length
        (r1.1.emitOp Op.coerce [r1.2]).1
        ((r1.1.emitOp Op.coerce [r1.2]).1.emitOp Op.storeHeap
          [p.2, (r1.1.emitOp Op.coerce [r1.2]).2]).1 := depth_emit _ _ _ (dstep_ok D3)
    exact dstep_then D0 (dstep_then D1 (dstep_then D2 (dstep_then D3 D4)))
  | .call ce, c, f, r, hi, hw, hd, h => by
    have h2 : EmitCall abi ce (f.advance 1) = some r := h
    have hw1 : wfCall c ce = true := hw
    have s0 := step_advance c.noJump f 1
    have D0 := depth_advance f 1 hd
    exact dstep_then D0 (depth_EmitCall abi ce c _ r (inv_step hi (step_of_noJump s0)) hw1
      (dstep_ok D0) h2)
  | .conditional cond ifTrue ifFalse, c, f, r, hi, hw, hd, h => by
    have h2 : (EmitExpr abi cond (f.advance 1)).bind (fun cr =>
        (EmitExpr abi ifTrue (cr.1.branchAndStartThen cr.2 none none).1).bind (fun t =>
          (EmitExpr abi ifFalse ((t.1.pushPhiInput t.2).switchToElse
              (cr.1.branchAndStartThen cr.2 none none).2.2)).bind (fun e =>
            some (((e.1.pushPhiInput e.2).joinIfElse (t.1.appendThenBlock [])).popPhiOutput)))) =
        some r := h
    simp only [Option.bind_eq_some, Option.some.injEq] at h2
    obtain ⟨cr, h1, t, ht, e, he, rfl⟩ := h2
    have hw1 : (wfExpr c cond && wfExpr c ifTrue && wfExpr c ifFalse) = true := hw
    simp only [Bool.and_eq_true] at hw1
    obtain ⟨⟨w1, w2⟩, w3⟩ := hw1
    have s0 := step_advance c.noJump f 1
    have i0 := inv_step hi (step_of_noJump s0)
    have s1 := step_EmitExpr abi cond c _ cr i0 w1 h1
    have i1 := inv_step i0 (step_of_noJump s1)
    obtain ⟨q1, q2⟩ := branchAndStartThen_quiet cr.1 cr.2 none none
    have i2 : Inv c (cr.1.branchAndStartThen cr.2 none none).1 := inv_bk i1 q1
    have s3 := step_EmitExpr abi ifTrue c _ t i2 w2 ht
    have i3 := inv_step i2 (step_of_noJump s3)
    have q3 : ((t.1.pushPhiInput t.2).switchToElse
        (cr.1.branchAndStartThen cr.2 none none).2.2).bookkeeping = t.1.bookkeeping :=
      (switchToElse_quiet _ _).1.trans (pushPhiInput_quiet _ _).1
    have D0 := depth_advance f 1 hd
    have D1 := depth_EmitExpr abi cond c _ cr i0 w1 (dstep_ok D0) h1
    have DB := (depth_branchAndStartThen cr.1 cr.2 (dstep_ok D1)).1
    have D3 := depth_EmitExpr abi ifTrue c _ t i2 w2 (dstep_ok DB) ht
    have htd : cr.1.curBlock_ = none → t.1.curBlock_ = none := by
      intro d1
      have hb := q2 d1
      have d2 : (cr.1.branchAndStartThen cr.2 none none).1.curBlock_ = none := by
        rw [hb]; exact d1
      exact (s3.2 d2).1
    have DP := (depth_condHead cr.1 cr.2 t.2 t.1 (dstep_ok D1) D3 htd).1
    have D5 := depth_EmitExpr abi ifFalse c _ e (inv_bk i3 q3) w3 (dstep_ok DP) he
    have DA := (depth_condAll cr.1 cr.2 t.2 e.2 t.1 e.1 (dstep_ok D1) D3 htd D5).1
    exact dstep_then D0 (dstep_then D1 DA)
  | .comma stmts last, c, f, r, hi, hw, hd, h => by
    have h2 : (EmitStatements abi stmts (f.advance 5)).bind (fun f1 => EmitExpr abi last f1) =
        some r := h
    simp only [Option.bind_eq_some] at h2
    obtain ⟨f1, h1, h3⟩ := h2
    have hw1 : (wfStmts c.noJump stmts && wfExpr c last) = true := hw
    simp only [Bool.and_eq_true] at hw1
    have s0 := step_advance c.noJump f 5
    have i0 := inv_step hi (step_of_noJump s0)
    have s1 := step_EmitStatements abi stmts c.noJump (f.advance 5) f1 (inv_noJump i0) hw1.1 h1
    have D0 := depth_advance f 5 hd
    have D1 := depth_EmitStatements abi stmts c.noJump (f.advance 5) f1 (inv_noJump i0) hw1.1
      (dstep_ok D0) h1
    have D2 := depth_EmitExpr abi last c f1 r (inv_step i0 (step_of_noJump s1)) hw1.2
      (dstep_ok D1) h3
    exact dstep_then D0 (dstep_then D1 D2)
theorem depth_EmitOperands (abi : ABIArgGenerator) :
    ∀ (args : Args) (c : Ctx) (f : FunctionCompiler)
      (r : FunctionCompiler × List (Option DefId)),
      Inv c f → wfArgs c args = true → DepthOk f → EmitOperands abi args f = some r →
      DepthStep f.graph_.blocks.length f r.1
  | .nil, c, f, r, _, _, hd, h => by
    have h2 : some (f, ([] : List (Option DefId))) = some r := h
    simp only [Option.some.injEq] at h2
    subst h2
    exact dstep_refl f hd
  | .cons _ e rest, c, f, r, hi, hw, hd, h => by
    have h2 : (EmitExpr abi e f).bind (fun r =>
        (EmitOperands abi rest r.1).bind (fun rs => some (rs.1, r.2 :: rs.2))) = some r := h
    simp only [Option.bind_eq_some, Option.some.injEq] at h2
    obtain ⟨r1, h1, rs, h3, rfl⟩ := h2
    have hw1 : (wfExpr c e && wfArgs c rest) = true := hw
    simp only [Bool.and_eq_true] at hw1
    have s1 := step_EmitExpr abi e c f r1 hi hw1.1 h1
    have D1 := depth_EmitExpr abi e c f r1 hi hw1.1 hd h1
    have D2 := depth_EmitOperands abi rest c r1.1 rs (inv_step hi (step_of_noJump s1)) hw1.2
      (dstep_ok D1) h3
    exact dstep_then D1 D2
theorem depth_EmitMinMaxRest (abi : ABIArgGenerator) :
    ∀ (args : Args) (d : Option DefId) (c : Ctx) (f : FunctionCompiler)
      (r : FunctionCompiler × Option DefId),
      Inv c f → wfArgs c args = true → DepthOk f → EmitMinMaxRest abi args d f = some r →
      DepthStep f.graph_.blocks.length f r.1
  | .nil, d, c, f, r, _, _, hd, h => by
    have h2 : some (f, d) = some r := h
    simp only [Option.some.injEq] at h2
    subst h2
    exact dstep_refl f hd
  | .cons _ e rest, d, c, f, r, hi, hw, hd, h => by
    have h2 : (EmitExpr abi e f).bind (fun r =>
        EmitMinMaxRest abi rest (r.1.emitOp Op.minMax [d, r.2]).2
          (r.1.emitOp Op.minMax [d, r.2]).1) = some r := h
    simp only [Option.bind_eq_some] at h2
    obtain ⟨r1, h1, h3⟩ := h2
    have hw1 : (wfExpr c e && wfArgs c rest) = true := hw
    simp only [Bool.and_eq_true] at hw1
    have s1 := step_EmitExpr abi e c f r1 hi hw1.1 h1
    have i1 := inv_step hi (step_of_noJump s1)
    have s2 : Step c.noJump r1.1 (r1.1.emitOp Op.minMax [d, r1.2]).1 0 :=
      step_quiet2 _ (emit_quiet _ _ _)
    have D1 := depth_EmitExpr abi e c f r1 hi hw1.1 hd h1
    have D2 : DepthStep r1.1.graph_.blocks.length r1.1 (r1.1.emitOp Op.minMax [d, r1.2]).1 :=
      depth_emit _ _ _ (dstep_ok D1)
    have D3 := depth_EmitMinMaxRest abi rest _ c _ r (inv_step i1 (step_of_noJump s2)) hw1.2
      (dstep_ok D2) h3
    exact dstep_then D1 (dstep_then D2 D3)
theorem depth_EmitCallArgsLoop (abi : ABIArgGenerator) :
    ∀ (args : Args) (call : Call) (c : Ctx) (f : FunctionCompiler)
      (r : FunctionCompiler × Call),
      Inv c f → wfArgs c args = true → DepthOk f → EmitCallArgsLoop abi args call f = some r →
      DepthStep f.graph_.blocks.length f r.1
  | .nil, call, c, f, r, _, _, hd, h => by
    have h2 : some (f, call) = some r := h
    simp only [Option.some.injEq] at h2
    subst h2
    exact dstep_refl f hd
  | .cons type e rest, call, c, f, r, hi, hw, hd, h => by
    have h2 : (EmitExpr abi e f).bind (fun r =>
        EmitCallArgsLoop abi rest
          (FunctionCompiler.passArg abi r.1 r.2 (MIRTypeFromAsmType type) call).2
          (FunctionCompiler.passArg abi r.1 r.2 (MIRTypeFromAsmType type) call).1) = some r := h
    simp only [Option.bind_eq_some] at h2
    obtain ⟨r1, h1, h3⟩ := h2
    have hw1 : (wfExpr c e && wfArgs c rest) = true := hw
    simp only [Bool.and_eq_true] at hw1
    have s1 := step_EmitExpr abi e c f r1 hi hw1.1 h1
    have i1 := inv_step hi (step_of_noJump s1)
    have s2 : Step c.noJump r1.1
        (FunctionCompiler.passArg abi r1.1 r1.2 (MIRTypeFromAsmType type) call).1 0 :=
      step_quiet2 _ (passArg_quiet _ _ _ _ _)
    have D1 := depth_EmitExpr abi e c f r1 hi hw1.1 hd h1
    have D2 := depth_passArg abi r1.1 r1.2 (MIRTypeFromAsmType type) call (dstep_ok D1)
    have D3 := depth_EmitCallArgsLoop abi rest _ c _ r (inv_step i1 (step_of_noJump s2)) hw1.2
      (dstep_ok D2) h3
    exact dstep_then D1 (dstep_then D2 D3)
theorem depth_EmitCall (abi : ABIArgGenerator) :
    ∀ (ce : CallExpr) (c : Ctx) (f : FunctionCompiler) (r : FunctionCompiler × Option DefId),
      Inv c f → wfCall c ce = true → DepthOk f → EmitCall abi ce f = some r →
      DepthStep f.graph_.blocks.length f r.1
  | .direct kind lineno column args, c, f, r, hi, hw, hd, h => by
    have h2 : (EmitCallArgsLoop abi args
        ((f.advance kind.immBytes).startCallArgs (Call.new lineno column)).2
        ((f.advance kind.immBytes).startCallArgs (Call.new lineno column)).1).bind (fun a =>
          some (emitDirectCall kind (FunctionCompiler.finishCallArgs abi a.1 a.2))) = some r := h
    simp only [Option.bind_eq_some, Option.some.injEq] at h2
    obtain ⟨a, h1, rfl⟩ := h2
    have hw1 : wfArgs c args = true := hw
    have s0 := step_advance c.noJump f kind.immBytes
    have i0 := inv_step hi (step_of_noJump s0)
    have s1 : Step c.noJump (f.advance kind.immBytes)
        ((f.advance kind.immBytes).startCallArgs (Call.new lineno column)).1 0 :=
      step_quiet2 _ (startCallArgs_quiet _ _)
    have D0 := depth_advance f kind.immBytes hd
    have D1 := depth_startCallArgs (f.advance kind.immBytes) (Call.new lineno column) (dstep_ok D0)
    have D2 := depth_EmitCallArgsLoop abi args _ c _ a (inv_step i0 (step_of_noJump s1)) hw1
      (dstep_ok D1) h1
    have D3 := depth_finishCallArgs abi a.1 a.2 (dstep_ok D2)
    have D4 := depth_emitDirectCall kind (FunctionCompiler.finishCallArgs abi a.1 a.2)
      (dstep_ok D3)
    exact dstep_then D0 (dstep_then D1 (dstep_then D2 (dstep_then D3 D4)))
  | .indirect mask globalDataOffset lineno column index args, c, f, r, hi, hw, hd, h => by
    have h2 : (EmitExpr abi index (f.advance 24)).bind (fun ix =>
        (EmitCallArgsLoop abi args (ix.1.startCallArgs (Call.new lineno column)).2
          (ix.1.startCallArgs (Call.new lineno column)).1).bind (fun a =>
            some ((FunctionCompiler.finishCallArgs abi a.1 a.2).1.funcPtrCall mask globalDataOffset
              ix.2 (FunctionCompiler.finishCallArgs abi a.1 a.2).2))) = some r := h
    simp only [Option.bind_eq_some, Option.some.injEq] at h2
    obtain ⟨ix, h1, a, h3, rfl⟩ := h2
    have hw1 : (wfExpr c index && wfArgs c args) = true := hw
    simp only [Bool.and_eq_true] at hw1
    have s0 := step_advance c.noJump f 24
    have i0 := inv_step hi (step_of_noJump s0)
    have s1 := step_EmitExpr abi index c _ ix i0 hw1.1 h1
    have i1 := inv_step i0 (step_of_noJump s1)
    have s2 : Step c.noJump ix.1 (ix.1.startCallArgs (Call.new lineno column)).1 0 :=
      step_quiet2 _ (startCallArgs_quiet _ _)
    have D0 := depth_advance f 24 hd
    have D1 := depth_EmitExpr abi index c _ ix i0 hw1.1 (dstep_ok D0) h1
    have D2 := depth_startCallArgs ix.1 (Call.new lineno column) (dstep_ok D1)
    have D3 := depth_EmitCallArgsLoop abi args _ c _ a (inv_step i1 (step_of_noJump s2)) hw1.2
      (dstep_ok D2) h3
    have D4 := depth_finishCallArgs abi a.1 a.2 (dstep_ok D3)
    have D5 := depth_funcPtrCall (FunctionCompiler.finishCallArgs abi a.1 a.2).1 mask
      globalDataOffset ix.2 (FunctionCompiler.finishCallArgs abi a.1 a.2).2 (dstep_ok D4)
    exact dstep_then D0 (dstep_then D1 (dstep_then D2 (dstep_then D3 (dstep_then D4 D5))))
theorem depth_EmitStatements (abi : ABIArgGenerator) :
    ∀ (stmts : Stmts) (c : Ctx) (f f' : FunctionCompiler),
      Inv c f → wfStmts c stmts = true → DepthOk f → EmitStatements abi stmts f = some f' →
      DepthStep f.graph_.blocks.length f f'
  | .nil, c, f, f', _, _, hd, h => by
    have h2 : some f = some f' := h
    simp only [Option.some.injEq] at h2
    subst h2
    exact dstep_refl f hd
  | .cons s rest, c, f, f', hi, hw, hd, h => by
    have h2 : (EmitStatement abi s none f).bind (fun r => EmitStatements abi rest r.1) =
        some f' := h
    simp only [Option.bind_eq_some] at h2
    obtain ⟨r1, h1, h3⟩ := h2
    have hw1 : (wfStmt c.inner s && wfStmts c rest) = true := hw
    simp only [Bool.and_eq_true] at hw1
    have s1 := step_of_inner (step_EmitStatement abi s none c.inner f r1 (inv_inner hi) rfl hw1.1 h1).1
    have D1 := depth_EmitStatement abi s none c.inner f r1 (inv_inner hi) rfl hw1.1 hd h1
    have D2 := depth_EmitStatements abi rest c r1.1 f' (inv_step hi s1) hw1.2 (dstep_ok D1) h3
    exact dstep_then D1 D2
theorem depth_EmitIfElse (abi : ABIArgGenerator) :
    ∀ (chain : IfChain) (tb : BlockVector) (c : Ctx) (f f' : FunctionCompiler),
      Inv c f → wfIf c chain = true → DepthOk f →
      (∀ b ∈ tb, b < f.graph_.blocks.length ∧ f.graph_.stackDepth b = f.numLocals) →
      EmitIfElse abi chain tb f = some f' → DepthStep f.graph_.blocks.length f f'
  | .ifThen cond thenStmt, tb, c, f, f', hi, hw, hd, _, h => by
    have h2 : (EmitExpr abi cond f).bind (fun cr =>
        (EmitStatement abi thenStmt none (cr.1.branchAndStartThen cr.2 none none).1).bind (fun t =>
          some (t.1.joinIf (t.1.appendThenBlock tb)
            (cr.1.branchAndStartThen cr.2 none none).2.2))) = some f' := h
    simp only [Option.bind_eq_some, Option.some.injEq] at h2
    obtain ⟨cr, h1, t, ht, rfl⟩ := h2
    have hw1 : (wfExpr c cond && wfStmt c.inner thenStmt) = true := hw
    simp only [Bool.and_eq_true] at hw1
    have s1 := step_EmitExpr abi cond c f cr hi hw1.1 h1
    have i1 := inv_step hi (step_of_noJump s1)
    obtain ⟨q1, q2⟩ := branchAndStartThen_quiet cr.1 cr.2 none none
    have i2 : Inv c (cr.1.branchAndStartThen cr.2 none none).1 := inv_bk i1 q1
    have D1 := depth_EmitExpr abi cond c f cr hi hw1.1 hd h1
    have DB := (depth_branchAndStartThen cr.1 cr.2 (dstep_ok D1)).1
    have D3 := depth_EmitStatement abi thenStmt none c.inner _ t (inv_inner i2) rfl hw1.2
      (dstep_ok DB) ht
    exact dstep_then D1 (depth_ifThenTail cr.1 cr.2 t.1 _ (dstep_ok D1) D3)
  | .ifElse cond thenStmt elseStmt, tb, c, f, f', hi, hw, hd, htb, h => by
    by_cases hs : ∀ chain, elseStmt ≠ .ifStmt chain
    · rw [EmitIfElse_else _ _ _ _ _ _ hs] at h
      simp only [Option.bind_eq_some, Option.some.injEq] at h
      obtain ⟨cr, h1, t, ht, e, he, rfl⟩ := h
      have hw1 : (wfExpr c cond && wfStmt c.inner thenStmt && wfStmt c.inner elseStmt) = true := hw
      simp only [Bool.and_eq_true] at hw1
      obtain ⟨⟨w1, w2⟩, w3⟩ := hw1
      have s1 := step_EmitExpr abi cond c f cr hi w1 h1
      have i1 := inv_step hi (step_of_noJump s1)
      obtain ⟨q1, q2⟩ := branchAndStartThen_quiet cr.1 cr.2 none none
      have i2 : Inv c (cr.1.branchAndStartThen cr.2 none none).1 := inv_bk i1 q1
      have s3 := step_of_inner
        (step_EmitStatement abi thenStmt none c.inner _ t (inv_inner i2) rfl w2 ht).1
      have i3 := inv_step i2 s3
      obtain ⟨q4, q5⟩ := switchToElse_quiet t.1 (cr.1.branchAndStartThen cr.2 none none).2.2
      have i4 := inv_bk i3 q4
      have D1 := depth_EmitExpr abi cond c f cr hi w1 hd h1
      have DB := (depth_branchAndStartThen cr.1 cr.2 (dstep_ok D1)).1
      have D3 := depth_EmitStatement abi thenStmt none c.inner _ t (inv_inner i2) rfl w2
        (dstep_ok DB) ht
      obtain ⟨DE, el, en, ed⟩ := depth_elseStart cr.1 cr.2 t.1 (dstep_ok D1) D3
      have D5 := depth_EmitStatement abi elseStmt none c.inner _ e (inv_inner i4) rfl w3
        (dstep_ok DE) he
      have k1 := appendThenBlock_keep t.1 tb (dstep_ok D3)
        (keep_all D3 tb (keep_all DB tb (keep_all D1 tb htb)))
      have k2 : ∀ b ∈ t.1.appendThenBlock tb,
          b < (t.1.switchToElse (cr.1.branchAndStartThen cr.2 none none).2.2).graph_.blocks.length ∧
          (t.1.switchToElse (cr.1.branchAndStartThen cr.2 none none).2.2).graph_.stackDepth b =
            (t.1.switchToElse (cr.1.branchAndStartThen cr.2 none none).2.2).numLocals := by
        intro b hb
        rw [el, en, ed]
        exact k1 b hb
      have k3 := keep_all D5 _ k2
      have D6 := depth_joinIfElse e.1 (t.1.appendThenBlock tb) (dstep_ok D5)
        (fun b hb => (k3 b hb).2)
      exact dstep_then D1 (dstep_then (dstep_then DE D5) D6)
    · push_neg at hs
      obtain ⟨chain, rfl⟩ := hs
      have h2 : (EmitExpr abi cond f).bind (fun cr =>
          (EmitStatement abi thenStmt none (cr.1.branchAndStartThen cr.2 none none).1).bind (fun t =>
            EmitIfElse abi chain (t.1.appendThenBlock tb)
              ((t.1.switchToElse (cr.1.branchAndStartThen cr.2 none none).2.2).advance 1))) =
          some f' := h
      simp only [Option.bind_eq_some] at h2
      obtain ⟨cr, h1, t, ht, h3⟩ := h2
      have hw1 : (wfExpr c cond && wfStmt c.inner thenStmt && wfIf c.inner chain) = true := hw
      simp only [Bool.and_eq_true] at hw1
      obtain ⟨⟨w1, w2⟩, w3⟩ := hw1
      have s1 := step_EmitExpr abi cond c f cr hi w1 h1
      have i1 := inv_step hi (step_of_noJump s1)
      obtain ⟨q1, q2⟩ := branchAndStartThen_quiet cr.1 cr.2 none none
      have i2 : Inv c (cr.1.branchAndStartThen cr.2 none none).1 := inv_bk i1 q1
      have s3 := step_of_inner
        (step_EmitStatement abi thenStmt none c.inner _ t (inv_inner i2) rfl w2 ht).1
      have i3 := inv_step i2 s3
      obtain ⟨q4, q5⟩ := switchToElse_quiet t.1 (cr.1.branchAndStartThen cr.2 none none).2.2
      have i4 := inv_bk i3 q4
      have s5 := step_advance c (t.1.switchToElse (cr.1.branchAndStartThen cr.2 none none).2.2) 1
      have D1 := depth_EmitExpr abi cond c f cr hi w1 hd h1
      have DB := (depth_branchAndStartThen cr.1 cr.2 (dstep_ok D1)).1
      have D3 := depth_EmitStatement abi thenStmt none c.inner _ t (inv_inner i2) rfl w2
        (dstep_ok DB) ht
      obtain ⟨DE, el, en, ed⟩ := depth_elseStart cr.1 cr.2 t.1 (dstep_ok D1) D3
      have k1 := appendThenBlock_keep t.1 tb (dstep_ok D3)
        (keep_all D3 tb (keep_all DB tb (keep_all D1 tb htb)))
      have k2 : ∀ b ∈ t.1.appendThenBlock tb,
          b < (t.1.switchToElse (cr.1.branchAndStartThen cr.2 none none).2.2).graph_.blocks.length ∧
          (t.1.switchToElse (cr.1.branchAndStartThen cr.2 none none).2.2).graph_.stackDepth b =
            (t.1.switchToElse (cr.1.branchAndStartThen cr.2 none none).2.2).numLocals := by
        intro b hb
        rw [el, en, ed]
        exact k1 b hb
      have D5 := depth_advance (t.1.switchToElse (cr.1.branchAndStartThen cr.2 none none).2.2) 1
        (dstep_ok DE)
      have D6 := depth_EmitIfElse abi chain (t.1.appendThenBlock tb) c.inner _ f'
        (inv_inner (inv_step i4 s5)) w3 (dstep_ok D5) (keep_all D5 _ k2) h3
      exact dstep_then D1 (dstep_then (dstep_then DE D5) D6)
theorem depth_EmitOptStmt (abi : ABIArgGenerator) :
    ∀ (o : OptStmt) (c : Ctx) (f f' : FunctionCompiler),
      Inv c f → wfOpt c o = true → DepthOk f → EmitOptStmt abi o f = some f' →
      DepthStep f.graph_.blocks.length f f'
  | .absent, c, f, f', _, _, hd, h => by
    have h2 : some f = some f' := h
    simp only [Option.some.injEq] at h2
    subst h2
    exact dstep_refl f hd
  | .present s, c, f, f', hi, hw, hd, h => by
    have h2 : (EmitStatement abi s none f).bind (fun r => some r.1) = some f' := h
    simp only [Option.bind_eq_some, Option.some.injEq] at h2
    obtain ⟨r1, h1, rfl⟩ := h2
    have hw1 : wfStmt c.inner s = true := hw
    exact depth_EmitStatement abi s none c.inner f r1 (inv_inner hi) rfl hw1 hd h1
theorem depth_EmitSwitchCases (abi : ABIArgGenerator) :
    ∀ (cases : Cases) (low : Int) (sb : Option BlockId) (table : List (Option BlockId))
      (c : Ctx) (f : FunctionCompiler) (r : FunctionCompiler × List (Option BlockId)),
      Inv c f → wfCases c cases = true → DepthOk f →
      (∀ b, sb = some b → b < f.graph_.blocks.length ∧ f.graph_.stackDepth b = f.numLocals) →
      EmitSwitchCases abi cases low sb table f = some r → DepthStep f.graph_.blocks.length f r.1
  | .nil, low, sb, table, c, f, r, _, _, hd, _, h => by
    have h2 : some (f, table) = some r := h
    simp only [Option.some.injEq] at h2
    subst h2
    exact dstep_refl f hd
  | .cons caseValue body rest, low, sb, table, c, f, r, hi, hw, hd, hsb, h => by
    have h2 : (caseIndex low caseValue table.length).bind (fun idx =>
        (EmitStatement abi body none ((f.advance 4).startSwitchCase sb).1).bind (fun r =>
          EmitSwitchCases abi rest low sb
            (table.set idx ((f.advance 4).startSwitchCase sb).2) r.1)) = some r := h
    simp only [Option.bind_eq_some] at h2
    obtain ⟨idx, -, r1, h1, h3⟩ := h2
    have hw1 : (wfStmt c.inner body && wfCases c rest) = true := hw
    simp only [Bool.and_eq_true] at hw1
    have s0 := step_advance c f 4
    have i0 := inv_step hi s0
    obtain ⟨q1, q2⟩ := startSwitchCase_quiet (f.advance 4) sb
    have i1 := inv_bk i0 q1
    have s2 := step_of_inner
      (step_EmitStatement abi body none c.inner _ r1 (inv_inner i1) rfl hw1.1 h1).1
    have D0 := depth_advance f 4 hd
    have k0 := keep_opt D0 sb hsb
    have D1 := depth_startSwitchCase (f.advance 4) sb (dstep_ok D0) k0
    have D2 := depth_EmitStatement abi body none c.inner _ r1 (inv_inner i1) rfl hw1.1
      (dstep_ok D1) h1
    have D3 := depth_EmitSwitchCases abi rest low sb _ c r1.1 r (inv_step i1 s2) hw1.2
      (dstep_ok D2) (keep_opt D2 sb (keep_opt D1 sb k0)) h3
    exact dstep_then D0 (dstep_then D1 (dstep_then D2 D3))
theorem depth_EmitStatement (abi : ABIArgGenerator) :
    ∀ (s : Stmt) (l : Option LabelVector) (c : Ctx) (f : FunctionCompiler)
      (r : FunctionCompiler × Option LabelVector),
      Inv c f → LabelsOk l c s → wfStmt c s = true → DepthOk f →
      EmitStatement abi s l f = some r → DepthStep f.graph_.blocks.length f r.1
  | .block stmts, l, c, f, r, hi, _, hw, hd, h => by
    have h2 : (EmitStatements abi stmts (f.advance 5)).bind (fun f1 => some (f1, l)) = some r := h
    simp only [Option.bind_eq_some, Option.some.injEq] at h2
    obtain ⟨f1, h1, rfl⟩ := h2
    have hw1 : wfStmts c.inner stmts = true := hw
    have s0 := step_advance c f 5
    have D0 := depth_advance f 5 hd
    exact dstep_then D0 (depth_EmitStatements abi stmts c.inner _ f1 (inv_inner (inv_step hi s0))
      hw1 (dstep_ok D0) h1)
  | .ifStmt chain, l, c, f, r, hi, _, hw, hd, h => by
    have h2 : (EmitIfElse abi chain [] (f.advance 1)).bind (fun f1 => some (f1, l)) = some r := h
    simp only [Option.bind_eq_some, Option.some.injEq] at h2
    obtain ⟨f1, h1, rfl⟩ := h2
    have hw1 : wfIf c chain = true := hw
    have s0 := step_advance c f 1
    have D0 := depth_advance f 1 hd
    exact dstep_then D0 (depth_EmitIfElse abi chain [] c _ f1 (inv_step hi s0) hw1 (dstep_ok D0)
      (fun _ hb => absurd hb (List.not_mem_nil _)) h1)
  | .switchStmt low high expr cases dflt, l, c, f, r, hi, _, hw, hd, h => by
    have h2 : (EmitExpr abi expr (f.advance 14)).bind (fun e =>
        if switchIsEmpty cases dflt then some (e.1, l)
        else (tableLength low high).bind (fun len =>
          (EmitSwitchCases abi cases low (e.1.startSwitch e.1.pc_ e.2 low high).2
            (List.replicate len none) (e.1.startSwitch e.1.pc_ e.2 low high).1).bind (fun cs =>
            (EmitOptStmt abi dflt
              (cs.1.startSwitchDefault (e.1.startSwitch e.1.pc_ e.2 low high).2).1).bind (fun f1 =>
              (f1.joinSwitch (e.1.startSwitch e.1.pc_ e.2 low high).2 cs.2
                (cs.1.startSwitchDefault (e.1.startSwitch e.1.pc_ e.2 low high).2).2).bind
                  (fun f2 => some (f2, l)))))) = some r := h
    simp only [Option.bind_eq_some] at h2
    obtain ⟨e, h1, h3⟩ := h2
    have hw1 : (wfExpr c expr && wfCases c.switchBody cases && wfOpt c.switchBody dflt) = true :=
      hw
    simp only [Bool.and_eq_true] at hw1
    obtain ⟨⟨w1, w2⟩, w3⟩ := hw1
    have s0 := step_advance c f 14
    have i0 := inv_step hi s0
    have s1 := step_of_noJump (step_EmitExpr abi expr c _ e i0 w1 h1)
    have i1 := inv_step i0 s1
    have D0 := depth_advance f 14 hd
    have D1 := depth_EmitExpr abi expr c _ e i0 w1 (dstep_ok D0) h1
    by_cases hempty : switchIsEmpty cases dflt = true
    · rw [if_pos hempty] at h3
      simp only [Option.some.injEq] at h3
      subst h3
      exact dstep_then D0 D1
    · rw [if_neg hempty] at h3
      simp only [Option.bind_eq_some, Option.some.injEq] at h3
      obtain ⟨len, -, cs, hcs, f1, hf1, f2, hj, rfl⟩ := h3
      have isw := inv_switchBody (inv_startSwitch i1 e.1.pc_ e.2 low high (Nat.le_refl _))
      obtain ⟨m2, d2⟩ := step_EmitSwitchCases abi cases low _ _ c.switchBody _ cs isw w2 hcs
      obtain ⟨q3, q4⟩ := startSwitchDefault_quiet cs.1 (e.1.startSwitch e.1.pc_ e.2 low high).2
      have i3 := inv_bk (inv_moves isw m2) q3
      obtain ⟨DS, hsb⟩ := depth_startSwitch e.1 e.1.pc_ e.2 low high (dstep_ok D1)
      have D2 := depth_EmitSwitchCases abi cases low _ _ c.switchBody _ cs isw w2 (dstep_ok DS)
        hsb hcs
      have D3 := depth_startSwitchDefault cs.1 _ (dstep_ok D2) (keep_opt D2 _ hsb)
      have D4 := depth_EmitOptStmt abi dflt c.switchBody _ f1 i3 w3 (dstep_ok D3) hf1
      have D5 := depth_joinSwitch f1 f2 _ _ _ (dstep_ok D4) hj
      exact dstep_then D0 (dstep_then D1 (dstep_then DS (dstep_then D2 (dstep_then D3
        (dstep_then D4 D5)))))
  | .whileStmt cond body, l, c, f, r, hi, hl, hw, hd, h => by
    have h2 : (EmitExpr abi cond ((f.advance 1).startPendingLoop (f.advance 1).pc_).1).bind
        (fun cr =>
          (EmitStatement abi body none (cr.1.branchAndStartLoopBody cr.2).1).bind (fun s =>
            ((s.1.bindContinues (f.advance 1).pc_ l).closeLoop
              ((f.advance 1).startPendingLoop (f.advance 1).pc_).2
              (cr.1.branchAndStartLoopBody cr.2).2).bind (fun f1 => some (f1, l)))) = some r := h
    simp only [Option.bind_eq_some, Option.some.injEq] at h2
    obtain ⟨cr, h1, s, hs, f1, hc, rfl⟩ := h2
    have hw1 : (wfExpr c cond && wfStmt c.loopBody body) = true := hw
    simp only [Bool.and_eq_true] at hw1
    have s0 := step_advance c f 1
    have i0 := inv_step hi s0
    have iL := inv_startPendingLoop i0 (f.advance 1).pc_ (Nat.le_refl _)
    have s1 := step_EmitExpr abi cond c _ cr iL hw1.1 h1
    have i1 := inv_step iL (step_of_noJump s1)
    obtain ⟨q2, q3⟩ := branchAndStartLoopBody_quiet cr.1 cr.2
    have i2 := inv_loopBody (inv_bk i1 q2)
    have D0 := depth_advance f 1 hd
    have DL := depth_startPendingLoop (f.advance 1) (f.advance 1).pc_ (dstep_ok D0)
    have D1 := depth_EmitExpr abi cond c _ cr iL hw1.1 (dstep_ok DL) h1
    obtain ⟨DB, hA⟩ := depth_branchAndStartLoopBody cr.1 cr.2 (dstep_ok D1)
    have D3 := depth_EmitStatement abi body none c.loopBody _ s i2 rfl hw1.2 (dstep_ok DB) hs
    have D4 := depth_bindContinues s.1 (f.advance 1).pc_ l (dstep_ok D3)
    have hal : ∀ A, (cr.1.branchAndStartLoopBody cr.2).2 = some A →
        Held (s.1.bindContinues (f.advance 1).pc_ l) A ∧ cr.1.graph_.blocks.length ≤ A := by
      intro A hA1
      obtain ⟨a1, a2⟩ := hA A hA1
      have a3 := held_step a1 D3 a1.1
      exact ⟨held_step a3 D4 a3.1, a2⟩
    have D34 : DepthStep cr.1.graph_.blocks.length cr.1 (s.1.bindContinues (f.advance 1).pc_ l) :=
      dstep_then (dstep_then DB D3) D4
    have D5 := depth_closeLoop cr.1.graph_.blocks.length _ f1 _ _ (dstep_ok D4) D34.2.2.1 hal hc
    exact dstep_then D0 (dstep_then DL (dstep_then D1 (dstep_trans D34 D5 (Nat.le_refl _))))
  | .doWhile body cond, l, c, f, r, hi, hl, hw, hd, h => by
    have h2 : (EmitStatement abi body none
        ((f.advance 1).startPendingLoop (f.advance 1).pc_).1).bind (fun s =>
          (EmitExpr abi cond (s.1.bindContinues (f.advance 1).pc_ l)).bind (fun cr =>
            (cr.1.branchAndCloseDoWhileLoop cr.2
              ((f.advance 1).startPendingLoop (f.advance 1).pc_).2).bind
                (fun f1 => some (f1, l)))) = some r := h
    simp only [Option.bind_eq_some, Option.some.injEq] at h2
    obtain ⟨s, hs, cr, h1, f1, hc, rfl⟩ := h2
    have hw1 : (wfStmt c.loopBody body && wfExpr c cond) = true := hw
    simp only [Bool.and_eq_true] at hw1
    have hlab : l.getD [] = c.pending := labelsOk_getD hl rfl
    have s0 := step_advance c f 1
    have i0 := inv_step hi s0
    have hfresh := (fresh_pos hi (f.advance 1).pc_ (Nat.lt_succ_self _)).1
    have iL := inv_startPendingLoop i0 (f.advance 1).pc_ (Nat.le_refl _)
    have hmid := (step_EmitStatement abi body none c.loopBody _ s (inv_loopBody iL) rfl
      hw1.1 hs).1
    obtain ⟨iB, -, -⟩ := loop_mid c (f.advance 1) s.1 (f.advance 1).pc_ _ l i0 (Nat.le_refl _)
      hfresh hlab hmid
    have D0 := depth_advance f 1 hd
    have DL := depth_startPendingLoop (f.advance 1) (f.advance 1).pc_ (dstep_ok D0)
    have D2 := depth_EmitStatement abi body none c.loopBody _ s (inv_loopBody iL) rfl hw1.1
      (dstep_ok DL) hs
    have D3 := depth_bindContinues s.1 (f.advance 1).pc_ l (dstep_ok D2)
    have D4 := depth_EmitExpr abi cond c _ cr iB hw1.2 (dstep_ok D3) h1
    have D5 := depth_doWhileClose cr.1 f1 cr.2 _ (dstep_ok D4) hc
    exact dstep_then D0 (dstep_then DL (dstep_then D2 (dstep_then D3 (dstep_then D4 D5))))
  | .forStmt init cond body inc, l, c, f, r, hi, hl, hw, hd, h => by
    have h2 : (EmitOptStmt abi init (f.advance 1)).bind (fun f0 =>
        (EmitExpr abi cond (f0.startPendingLoop (f.advance 1).pc_).1).bind (fun cr =>
          (EmitStatement abi body none (cr.1.branchAndStartLoopBody cr.2).1).bind (fun s =>
            (EmitOptStmt abi inc (s.1.bindContinues (f.advance 1).pc_ l)).bind (fun f1 =>
              (f1.closeLoop (f0.startPendingLoop (f.advance 1).pc_).2
                (cr.1.branchAndStartLoopBody cr.2).2).bind (fun f2 => some (f2, l)))))) =
        some r := h
    simp only [Option.bind_eq_some, Option.some.injEq] at h2
    obtain ⟨f0, hf0, cr, h1, s, hs, f1, hf1, f2, hc, rfl⟩ := h2
    have hw1 : (wfOpt c.inner init && wfExpr c cond && wfStmt c.loopBody body &&
        wfOpt c.noJump inc) = true := hw
    simp only [Bool.and_eq_true] at hw1
    obtain ⟨⟨⟨w1, w2⟩, w3⟩, w4⟩ := hw1
    have hlab : l.getD [] = c.pending := labelsOk_getD hl rfl
    have s0 := step_advance c f 1
    have i0 := inv_step hi s0
    have sI := step_of_inner (step_EmitOptStmt abi init c.inner _ f0 (inv_inner i0) w1 hf0)
    have iI := inv_step i0 sI
    have hpos : (f.advance 1).pc_ ≤ f0.pc_ := by
      rw [sI.1.1]
      exact Nat.le_add_right _ _
    have hfresh : (f.advance 1).pc_ ∉ f0.loopStack_ := by
      rw [sI.1.2.1]
      exact (fresh_pos hi (f.advance 1).pc_ (Nat.lt_succ_self _)).1
    have iL := inv_startPendingLoop iI (f.advance 1).pc_ hpos
    have s1 := step_EmitExpr abi cond c _ cr iL w2 h1
    have i1 := inv_step iL (step_of_noJump s1)
    obtain ⟨q2, q3⟩ := branchAndStartLoopBody_quiet cr.1 cr.2
    have i2 := inv_loopBody (inv_bk i1 q2)
    have s3 := (step_EmitStatement abi body none c.loopBody _ s i2 rfl w3 hs).1
    have hmid : Step c.loopBody (f0.startPendingLoop (f.advance 1).pc_).1 s.1
        (cond.bytes + (0 + body.bytes)) :=
      step_trans (step_weaken s1 (fun h => by cases h) (fun h => by cases h)
        (fun _ h => absurd h (List.not_mem_nil _)) (fun _ h => absurd h (List.not_mem_nil _)))
        (step_trans (step_quiet _ _ _ q2 q3) s3)
    obtain ⟨iB, -, -⟩ := loop_mid c f0 s.1 (f.advance 1).pc_ _ l iI hpos hfresh hlab hmid
    have D0 := depth_advance f 1 hd
    have DI := depth_EmitOptStmt abi init c.inner _ f0 (inv_inner i0) w1 (dstep_ok D0) hf0
    have DL := depth_startPendingLoop f0 (f.advance 1).pc_ (dstep_ok DI)
    have D1 := depth_EmitExpr abi cond c _ cr iL w2 (dstep_ok DL) h1
    obtain ⟨DB, hA⟩ := depth_branchAndStartLoopBody cr.1 cr.2 (dstep_ok D1)
    have D3 := depth_EmitStatement abi body none c.loopBody _ s i2 rfl w3 (dstep_ok DB) hs
    have D4 := depth_bindContinues s.1 (f.advance 1).pc_ l (dstep_ok D3)
    have D5 := depth_EmitOptStmt abi inc c.noJump _ f1 (inv_noJump iB) w4 (dstep_ok D4) hf1
    have hal : ∀ A, (cr.1.branchAndStartLoopBody cr.2).2 = some A →
        Held f1 A ∧ cr.1.graph_.blocks.length ≤ A := by
      intro A hA1
      obtain ⟨a1, a2⟩ := hA A hA1
      have a3 := held_step a1 D3 a1.1
      have a4 := held_step a3 D4 a3.1
      exact ⟨held_step a4 D5 a4.1, a2⟩
    have D35 : DepthStep cr.1.graph_.blocks.length cr.1 f1 :=
      dstep_then (dstep_then (dstep_then DB D3) D4) D5
    have D6 := depth_closeLoop cr.1.graph_.blocks.length _ f2 _ _ (dstep_ok D5) D35.2.2.1 hal hc
    exact dstep_then D0 (dstep_then DI (dstep_then DL (dstep_then D1
      (dstep_trans D35 D6 (Nat.le_refl _)))))
  | .label labelId s, some labels, c, f, r, hi, hl, hw, hd, h => by
    have h2 : EmitStatement abi s (some (labels ++ [labelId])) (f.advance 5) = some r := h
    have hw0 : (if c.pending = [] then
        ((labelId :: s.chainLabels).Nodup && (labelId :: s.chainLabels).all (fun x => x ∉ c.scope) &&
          wfStmt (c.chain (labelId :: s.chainLabels)) s)
        else wfStmt c s) = true := hw
    rw [if_neg hl.2] at hw0
    have hl1 : labels ++ (labelId :: s.chainLabels) = c.pending := hl.1
    have hl' : LabelsOk (some (labels ++ [labelId])) c s :=
      ⟨by rw [List.append_assoc]; exact hl1, hl.2⟩
    have s0 := step_advance c f 5
    have D0 := depth_advance f 5 hd
    exact dstep_then D0 (depth_EmitStatement abi s _ c _ r (inv_step hi s0) hl' hw0
      (dstep_ok D0) h2)
  | .label labelId s, none, c, f, r, hi, hl, hw, hd, h => by
    have h2 : (EmitStatement abi s (some [labelId]) (f.advance 5)).bind (fun r =>
        some (r.1.bindLabeledBreaks r.2, none)) = some r := h
    simp only [Option.bind_eq_some, Option.some.injEq] at h2
    obtain ⟨r1, h1, rfl⟩ := h2
    have hw0 : (if c.pending = [] then
        ((labelId :: s.chainLabels).Nodup && (labelId :: s.chainLabels).all (fun x => x ∉ c.scope) &&
          wfStmt (c.chain (labelId :: s.chainLabels)) s)
        else wfStmt c s) = true := hw
    have hp : c.pending = [] := hl
    rw [if_pos hp] at hw0
    simp only [Bool.and_eq_true, List.all_eq_true, decide_eq_true_eq] at hw0
    obtain ⟨⟨-, wfresh⟩, w3⟩ := hw0
    have s0 := step_advance c f 5
    have i0 := inv_step hi s0
    have hl' : LabelsOk (some [labelId]) (c.chain (labelId :: s.chainLabels)) s :=
      ⟨rfl, List.cons_ne_nil _ _⟩
    have D0 := depth_advance f 5 hd
    have D1 := depth_EmitStatement abi s _ (c.chain (labelId :: s.chainLabels)) _ r1
      (inv_chain i0 _ wfresh) hl' w3 (dstep_ok D0) h1
    exact dstep_then D0 (dstep_then D1 (depth_bindLabeledBreaks r1.1 r1.2 (dstep_ok D1)))
  | .continueStmt, l, c, f, r, _, _, _, hd, h => by
    have h2 : ((f.advance 1).addContinue none).bind (fun f1 => some (f1, l)) = some r := h
    simp only [Option.bind_eq_some, Option.some.injEq] at h2
    obtain ⟨f1, h1, rfl⟩ := h2
    have D0 := depth_advance f 1 hd
    exact dstep_then D0 (depth_addContinue _ f1 none (dstep_ok D0) h1)
  | .continueLabel labelId, l, c, f, r, _, _, _, hd, h => by
    have h2 : some ((f.advance 5).addBreakOrContinue labelId .labeledContinues, l) = some r := h
    simp only [Option.some.injEq] at h2
    subst h2
    have D0 := depth_advance f 5 hd
    exact dstep_then D0 (depth_addBreakOrContinue _ labelId .labeledContinues (dstep_ok D0))
  | .breakStmt, l, c, f, r, _, _, _, hd, h => by
    have h2 : ((f.advance 1).addBreak none).bind (fun f1 => some (f1, l)) = some r := h
    simp only [Option.bind_eq_some, Option.some.injEq] at h2
    obtain ⟨f1, h1, rfl⟩ := h2
    have D0 := depth_advance f 1 hd
    exact dstep_then D0 (depth_addBreak _ f1 none (dstep_ok D0) h1)
  | .breakLabel labelId, l, c, f, r, _, _, _, hd, h => by
    have h2 : some ((f.advance 5).addBreakOrContinue labelId .labeledBreaks, l) = some r := h
    simp only [Option.some.injEq] at h2
    subst h2
    have D0 := depth_advance f 5 hd
    exact dstep_then D0 (depth_addBreakOrContinue _ labelId .labeledBreaks (dstep_ok D0))
  | .retVoid, l, c, f, r, _, _, _, hd, h => by
    have h2 : some ((f.advance 1).returnVoid, l) = some r := h
    simp only [Option.some.injEq] at h2
    subst h2
    have D0 := depth_advance f 1 hd
    exact dstep_then D0 (depth_returnVoid _ (dstep_ok D0))
  | .ret e, l, c, f, r, hi, _, hw, hd, h => by
    have h2 : (EmitExpr abi e (f.advance 1)).bind (fun r => some (r.1.returnExpr r.2, l)) =
        some r := h
    simp only [Option.bind_eq_some, Option.some.injEq] at h2
    obtain ⟨r1, h1, rfl⟩ := h2
    have hw1 : wfExpr c e = true := hw
    have s0 := step_advance c f 1
    have D0 := depth_advance f 1 hd
    have D1 := depth_EmitExpr abi e c (f.advance 1) r1 (inv_step hi s0) hw1 (dstep_ok D0) h1
    exact dstep_then D0 (dstep_then D1 (depth_returnExpr _ _ (dstep_ok D1)))
  | .exprStmt e, l, c, f, r, hi, _, hw, hd, h => by
    have h2 : (EmitExpr abi e (f.advance 1)).bind (fun r => some (r.1, l)) = some r := h
    simp only [Option.bind_eq_some, Option.some.injEq] at h2
    obtain ⟨r1, h1, rfl⟩ := h2
    have hw1 : wfExpr c e = true := hw
    have s0 := step_advance c f 1
    have D0 := depth_advance f 1 hd
    exact dstep_then D0 (depth_EmitExpr abi e c (f.advance 1) r1 (inv_step hi s0) hw1
      (dstep_ok D0) h1)
  | .callStmt ce, l, c, f, r, hi, _, hw, hd, h => by
    have h2 : (EmitCall abi ce (f.advance 1)).bind (fun r => some (r.1, l)) = some r := h
    simp only [Option.bind_eq_some, Option.some.injEq] at h2
    obtain ⟨r1, h1, rfl⟩ := h2
    have hw1 : wfCall c ce = true := hw
    have s0 := step_advance c f 1
    have D0 := depth_advance f 1 hd
    exact dstep_then D0 (depth_EmitCall abi ce c (f.advance 1) r1 (inv_step hi s0) hw1
      (dstep_ok D0) h1)
  | .atomicsFence, l, c, f, r, _, _, _, hd, h => by
    have h2 : some ((f.advance 1).memoryBarrier, l) = some r := h
    simp only [Option.some.injEq] at h2
    subst h2
    have D0 := depth_advance f 1 hd
    have D1 : DepthStep (f.advance 1).graph_.blocks.length (f.advance 1)
        (f.advance 1).memoryBarrier := depth_emit _ _ _ (dstep_ok D0)
    exact dstep_then D0 D1
  | .noop, l, c, f, r, _, _, _, hd, h => by
    have h2 : some (f.advance 1, l) = some r := h
    simp only [Option.some.injEq] at h2
    subst h2
    exact depth_advance f 1 hd
  | .idStmt s, l, c, f, r, hi, _, hw, hd, h => by
    have h2 : (EmitStatement abi s none (f.advance 1)).bind (fun r => some (r.1, l)) = some r := h
    simp only [Option.bind_eq_some, Option.some.injEq] at h2
    obtain ⟨r1, h1, rfl⟩ := h2
    have hw1 : wfStmt c.inner s = true := hw
    have s0 := step_advance c f 1
    have D0 := depth_advance f 1 hd
    exact dstep_then D0 (depth_EmitStatement abi s none c.inner _ r1
      (inv_inner (inv_step hi s0)) rfl hw1 (dstep_ok D0) h1)
  | .interruptCheckHead, l, c, f, r, _, _, _, hd, h => by
    have h2 : some ((f.advance 9).addInterruptCheck, l) = some r := h
    simp only [Option.some.injEq] at h2
    subst h2
    have D0 := depth_advance f 9 hd
    have D1 : DepthStep (f.advance 9).graph_.blocks.length (f.advance 9)
        (f.advance 9).addInterruptCheck := depth_emit _ _ _ (dstep_ok D0)
    exact dstep_then D0 D1
  | .interruptCheckLoop s, l, c, f, r, hi, _, hw, hd, h => by
    have h2 : (EmitStatement abi s none (f.advance 9).addInterruptCheck).bind
        (fun r => some (r.1, l)) = some r := h
    simp only [Option.bind_eq_some, Option.some.injEq] at h2
    obtain ⟨r1, h1, rfl⟩ := h2
    have hw1 : wfStmt c.inner s = true := hw
    have s0 := step_advance c f 9
    have s1 : Step c (f.advance 9) (f.advance 9).addInterruptCheck 0 :=
      step_quiet2 c (emit_quiet _ _ _)
    have i1 := inv_step (inv_step hi s0) s1
    have D0 := depth_advance f 9 hd
    have D1 : DepthStep (f.advance 9).graph_.blocks.length (f.advance 9)
        (f.advance 9).addInterruptCheck := depth_emit _ _ _ (dstep_ok D0)
    have D2 := depth_EmitStatement abi s none c.inner _ r1 (inv_inner i1) rfl hw1 (dstep_ok D1) h1
    exact dstep_then D0 (dstep_then D1 D2)
end

theorem intArgIndex_lt (win64 : Bool) (i f : Nat) (hi : i < 2 ^ 32) :
    intArgIndex win64 i f < 2 ^ 32 := by
  unfold intArgIndex u32
  cases win64
  · exact hi
  · exact Nat.mod_lt _ (by decide)

/-- The registers that `GetTempRegForIntArg` hands out, by argument index: the
argument registers followed by the non-argument call temporaries. -/
theorem GetTempRegForIntArg_eq (win64 : Bool) (i f : Nat) (hi : i < 2 ^ 32) :
    GetTempRegForIntArg win64 i f =
      .ok ((IntArgRegs win64 ++ CallTempNonArgRegs win64)[intArgIndex win64 i f]?) := by
  have ha := intArgIndex_lt win64 i f hi
  have hdef : GetTempRegForIntArg win64 i f =
      (match (if intArgIndex win64 i f ≥ NumIntArgRegs win64 then Except.ok none
          else (readArray (IntArgRegs win64) (intArgIndex win64 i f)).map some :
            Except Nat (Option Register)) with
        | .error k => .error k
        | .ok (some r) => .ok (some r)
        | .ok none =>
          if u32 (intArgIndex win64 i f + (2 ^ 32 - NumIntArgRegs win64)) ≥
              NumCallTempNonArgRegs win64 then .ok none
          else (readArray (CallTempNonArgRegs win64)
            (u32 (intArgIndex win64 i f + (2 ^ 32 - NumIntArgRegs win64)))).map some) := rfl
  rw [hdef]
  generalize intArgIndex win64 i f = a at ha
  cases win64
  · rcases Nat.lt_or_ge a 8 with h | h
    · interval_cases a <;> rfl
    · have h1 : a ≥ NumIntArgRegs false := by
        show 6 ≤ a
        omega
      have h2 : u32 (a + (2 ^ 32 - NumIntArgRegs false)) ≥ NumCallTempNonArgRegs false := by
        show 2 ≤ (a + (2 ^ 32 - 6)) % 2 ^ 32
        omega
      rw [if_pos h1]
      show (if u32 (a + (2 ^ 32 - NumIntArgRegs false)) ≥ NumCallTempNonArgRegs false then _
        else _) = _
      rw [if_pos h2, List.getElem?_eq_none]
      show 8 ≤ a
      exact h
  · rcases Nat.lt_or_ge a 8 with h | h
    · interval_cases a <;> rfl
    · have h1 : a ≥ NumIntArgRegs true := by
        show 4 ≤ a
        omega
      have h2 : u32 (a + (2 ^ 32 - NumIntArgRegs true)) ≥ NumCallTempNonArgRegs true := by
        show 4 ≤ (a + (2 ^ 32 - 4)) % 2 ^ 32
        omega
      rw [if_pos h1]
      show (if u32 (a + (2 ^ 32 - NumIntArgRegs true)) ≥ NumCallTempNonArgRegs true then _
        else _) = _
      rw [if_pos h2, List.getElem?_eq_none]
      show 8 ≤ a
      exact h

theorem GetIntArgReg_eq (win64 : Bool) (i f : Nat) :
    GetIntArgReg win64 i f = .ok ((IntArgRegs win64)[intArgIndex win64 i f]?) := by
  have hdef : GetIntArgReg win64 i f =
      (if intArgIndex win64 i f ≥ NumIntArgRegs win64 then Except.ok none
        else (readArray (IntArgRegs win64) (intArgIndex win64 i f)).map some) := rfl
  rw [hdef]
  generalize intArgIndex win64 i f = a
  cases win64
  · rcases Nat.lt_or_ge a 6 with h | h
    · interval_cases a <;> rfl
    · have h1 : a ≥ NumIntArgRegs false := h
      rw [if_pos h1, List.getElem?_eq_none]
      exact h
  · rcases Nat.lt_or_ge a 4 with h | h
    · interval_cases a <;> rfl
    · have h1 : a ≥ NumIntArgRegs true := h
      rw [if_pos h1, List.getElem?_eq_none]
      exact h

theorem argRegs_nodup (win64 : Bool) : (IntArgRegs win64 ++ CallTempNonArgRegs win64).Nodup := by
  cases win64 <;> decide

theorem argRegs_length (win64 : Bool) :
    (IntArgRegs win64 ++ CallTempNonArgRegs win64).length =
      NumIntArgRegs win64 + NumCallTempNonArgRegs win64 ∧
    (IntArgRegs win64).length = NumIntArgRegs win64 := by
  cases win64 <;> exact ⟨rfl, rfl⟩

theorem getElem?_inj_of_nodup {α : Type} (l : List α) (hn : l.Nodup) (a b : Nat) (x : α)
    (ha : l[a]? = some x) (hb : l[b]? = some x) : a = b := by
  obtain ⟨ha1, ha2⟩ := List.getElem?_eq_some_iff.1 ha
  obtain ⟨hb1, hb2⟩ := List.getElem?_eq_some_iff.1 hb
  exact (List.Nodup.getElem_inj_iff hn).1 (ha2.trans hb2.symm)

/-- C30. `GetTempRegForIntArg` on `uint32_t` arguments, in both configurations,
with `a` the argument index (`usedIntArgs`, or `usedIntArgs + usedFloatArgs` on
Win64): it never reads an array out of bounds; it succeeds iff
`a < NumIntArgRegs + NumCallTempNonArgRegs`; `GetIntArgReg` succeeds iff
`a < NumIntArgRegs`, and then `GetTempRegForIntArg` returns the same register;
for `NumIntArgRegs ≤ a` within the bound it returns
`CallTempNonArgRegs[a - NumIntArgRegs]`, the index being within the array; and
two calls that succeed for distinct argument indices return distinct
registers. -/
theorem C30_temp_reg_extends_int_arg_reg (win64 : Bool) (usedIntArgs usedFloatArgs : Nat)
    (hi : usedIntArgs < 2 ^ 32) :
    (∀ k, GetTempRegForIntArg win64 usedIntArgs usedFloatArgs ≠ .error k) ∧
    ((∃ r, GetTempRegForIntArg win64 usedIntArgs usedFloatArgs = .ok (some r)) ↔
      intArgIndex win64 usedIntArgs usedFloatArgs <
        NumIntArgRegs win64 + NumCallTempNonArgRegs win64) ∧
    ((∃ r, GetIntArgReg win64 usedIntArgs usedFloatArgs = .ok (some r)) ↔
      intArgIndex win64 usedIntArgs usedFloatArgs < NumIntArgRegs win64) ∧
    (∀ r, GetIntArgReg win64 usedIntArgs usedFloatArgs = .ok (some r) →
      GetTempRegForIntArg win64 usedIntArgs usedFloatArgs = .ok (some r)) ∧
    (NumIntArgRegs win64 ≤ intArgIndex win64 usedIntArgs usedFloatArgs →
      intArgIndex win64 usedIntArgs usedFloatArgs <
        NumIntArgRegs win64 + NumCallTempNonArgRegs win64 →
      intArgIndex win64 usedIntArgs usedFloatArgs - NumIntArgRegs win64 <
        (CallTempNonArgRegs win64).length ∧
      GetTempRegForIntArg win64 usedIntArgs usedFloatArgs =
        .ok ((CallTempNonArgRegs win64)[intArgIndex win64 usedIntArgs usedFloatArgs -
          NumIntArgRegs win64]?)) ∧
    (∀ usedIntArgs' usedFloatArgs' r r', usedIntArgs' < 2 ^ 32 →
      GetTempRegForIntArg win64 usedIntArgs usedFloatArgs = .ok (some r) →
      GetTempRegForIntArg win64 usedIntArgs' usedFloatArgs' = .ok (some r') →
      intArgIndex win64 usedIntArgs usedFloatArgs ≠
        intArgIndex win64 usedIntArgs' usedFloatArgs' → r ≠ r') := by
  have ht := GetTempRegForIntArg_eq win64 usedIntArgs usedFloatArgs hi
  have hg := GetIntArgReg_eq win64 usedIntArgs usedFloatArgs
  obtain ⟨hlen, hlenI⟩ := argRegs_length win64
  refine ⟨?_, ?_, ?_, ?_, ?_, ?_⟩
  · intro k h
    rw [ht] at h
    cases h
  · rw [ht, ← hlen]
    constructor
    · rintro ⟨r, hr⟩
      have hr2 := Except.ok.inj hr
      exact (List.getElem?_eq_some_iff.1 hr2).1
    · intro h
      exact ⟨_, congrArg Except.ok (List.getElem?_eq_getElem h)⟩
  · rw [hg, ← hlenI]
    constructor
    · rintro ⟨r, hr⟩
      have hr2 := Except.ok.inj hr
      exact (List.getElem?_eq_some_iff.1 hr2).1
    · intro h
      exact ⟨_, congrArg Except.ok (List.getElem?_eq_getElem h)⟩
  · intro r hr
    rw [hg] at hr
    have hr2 := Except.ok.inj hr
    rw [ht, List.getElem?_append_left (List.getElem?_eq_some_iff.1 hr2).1, hr2]
  · intro h1 h2
    refine ⟨?_, ?_⟩
    · unfold NumCallTempNonArgRegs at h2
      omega
    · rw [ht, List.getElem?_append_right (by rw [hlenI]; exact h1), hlenI]
  · intro i' f' r r' hi' h1 h2 hne heq
    subst heq
    rw [ht] at h1
    rw [GetTempRegForIntArg_eq win64 i' f' hi'] at h2
    exact hne (getElem?_inj_of_nodup _ (argRegs_nodup win64) _ _ r (Except.ok.inj h1)
      (Except.ok.inj h2))

/-- Witness for C30: the seventh integer argument of a non-Windows call gets the
first non-argument temporary, `rax`; the ninth gets no register. -/
theorem C30_temp_reg_extends_int_arg_reg_witness :
    (6 : Nat) < 2 ^ 32 ∧
    GetTempRegForIntArg false 6 0 = .ok ((CallTempNonArgRegs false)[0]?) ∧
    (CallTempNonArgRegs false)[0]? = some Register.rax ∧
    GetTempRegForIntArg false 8 0 = .ok none :=
  ⟨by decide,
    ((C30_temp_reg_extends_int_arg_reg false 6 0 (by decide)).2.2.2.2.1 (by decide)
      (by decide)).2,
    rfl, rfl⟩

/-- C29. On Win64 `GetFloatArgReg` compares `floatArg`, not the index
`intArg + floatArg` it reads at, with `NumFloatArgRegs`: for the first float
argument after four integer arguments it reads `FloatArgRegs[4]`, one beyond
the array of four registers, where `GetIntArgReg` on the same arguments returns
false. In the non-Win64 configuration the index is `floatArg` and no read is
out of bounds. -/
theorem C29_float_arg_reg_out_of_bounds :
    GetFloatArgReg true 4 0 = .error 4 ∧ (FloatArgRegs true).length = 4 ∧
    NumFloatArgRegs true = 4 ∧ GetIntArgReg true 4 0 = .ok none ∧
    (∀ intArg floatArg k, GetFloatArgReg false intArg floatArg ≠ .error k) := by
  refine ⟨rfl, rfl, rfl, rfl, ?_⟩
  intro intArg floatArg k
  have hdef : GetFloatArgReg false intArg floatArg =
      (if floatArg ≥ NumFloatArgRegs false then Except.ok none
        else (readArray (FloatArgRegs false) floatArg).map some) := rfl
  rw [hdef]
  rcases Nat.lt_or_ge floatArg 8 with h | h
  · interval_cases floatArg <;> exact fun h => by cases h
  · have h1 : floatArg ≥ NumFloatArgRegs false := h
    rw [if_pos h1]
    exact fun h => by cases h

/-! ## The shift of the stack arguments over all arguments (C27) -/

theorem foldl_max_ge (l : List Nat) : ∀ m : Nat, m ≤ l.foldl max m ∧ ∀ k ∈ l, k ≤ l.foldl max m := by
  induction l with
  | nil => exact fun m => ⟨Nat.le_refl _, fun _ h => absurd h (List.not_mem_nil _)⟩
  | cons x xs ih =>
    intro m
    obtain ⟨h1, h2⟩ := ih (max m x)
    refine ⟨Nat.le_trans (Nat.le_max_left _ _) h1, fun k hk => ?_⟩
    rcases List.mem_cons.1 hk with rfl | hk
    · exact Nat.le_trans (Nat.le_max_right _ _) h1
    · exact h2 k hk

theorem callArgs_maxChild (abi : ABIArgGenerator) :
    ∀ (args : Args) (call : Call) (f : FunctionCompiler) (a : FunctionCompiler × Call),
      EmitCallArgsLoop abi args call f = some a →
      (∀ x ∈ EmitCallArgsTrace abi args call f, x.2.2.1.curBlock_ ≠ none) →
      a.2.maxChildStackBytes_ =
        (EmitCallArgsChildBytes abi args call f).foldl max call.maxChildStackBytes_ ∧
      a.2.prevMaxStackBytes_ = call.prevMaxStackBytes_
  | .nil, call, f, a, h, _ => by
    cases h
    exact ⟨rfl, rfl⟩
  | .cons type e rest, call, f, a, h, hl => by
    rw [EmitCallArgsLoop_cons] at h
    simp only [Option.bind_eq_some] at h
    obtain ⟨r, hr, h⟩ := h
    have htr : EmitCallArgsTrace abi (.cons type e rest) call f =
        (MIRTypeFromAsmType type, r.2, passArg abi r.1 r.2 (MIRTypeFromAsmType type) call) ::
        EmitCallArgsTrace abi rest (passArg abi r.1 r.2 (MIRTypeFromAsmType type) call).2
          (passArg abi r.1 r.2 (MIRTypeFromAsmType type) call).1 := by
      rw [EmitCallArgsTrace, hr]
    have hcb : EmitCallArgsChildBytes abi (.cons type e rest) call f =
        r.1.maxAsmJSStackArgBytes_ ::
        EmitCallArgsChildBytes abi rest (passArg abi r.1 r.2 (MIRTypeFromAsmType type) call).2
          (passArg abi r.1 r.2 (MIRTypeFromAsmType type) call).1 := by
      rw [EmitCallArgsChildBytes, hr]
    rw [htr] at hl
    have hp := hl _ (List.mem_cons_self _ _)
    have hlive : r.1.curBlock_ ≠ none := by
      rw [← passArg_curBlock abi r.1 r.2 (MIRTypeFromAsmType type) call]
      exact hp
    obtain ⟨cur, hcur⟩ := Option.ne_none_iff_exists'.1 hlive
    obtain ⟨i1, i2⟩ := callArgs_maxChild abi rest _ _ a h
      (fun x hx => hl x (List.mem_cons_of_mem _ hx))
    have hm := (passArg_live abi r.1 r.2 (MIRTypeFromAsmType type) call cur hcur).1
    have hprev : (passArg abi r.1 r.2 (MIRTypeFromAsmType type) call).2.prevMaxStackBytes_ =
        call.prevMaxStackBytes_ := by
      unfold passArg
      rw [hcur]
      dsimp only [resetAsmJSMaxStackArgBytes]
      cases abi.next call.abi_ (MIRTypeFromAsmType type) <;> rfl
    rw [hcb, List.foldl_cons, ← hm]
    exact ⟨i1, i2.trans hprev⟩

/-- C27. The arguments of a call are marshalled by the loop of `EmitCallArgs`
from the call descriptor `call`, with the builder in live code at every
`passArg` and at `finishCallArgs`. Then `maxChildStackBytes_` is the maximum,
over all arguments, of the stack-argument bytes of the argument's
sub-evaluation (and of the value the descriptor started with, zero after the
constructor). If a clobber was recorded, `finishCallArgs` sets the shift
`spIncrement_` to `AlignBytes` of that maximum and raises the offset of every
stack argument by it (`uint32_t` arithmetic); without overflow the shift is a
multiple of 16, at least the bytes of every argument's sub-evaluation, less
than the maximum plus 16, and every shifted offset is at least the maximum.
If no clobber was recorded, the shift is 0, the graph (so every offset) is
unchanged, and the function's counter becomes the maximum of the value saved
by `startCallArgs`, the maximum over the arguments and the call's own stack
bytes. -/
theorem C27_shift_covers_all_arguments (abi : ABIArgGenerator) (args : Args) (call : Call)
    (f : FunctionCompiler) (a : FunctionCompiler × Call) (cur : BlockId)
    (h : EmitCallArgsLoop abi args call f = some a)
    (hlive : ∀ x ∈ EmitCallArgsTrace abi args call f, x.2.2.1.curBlock_ ≠ none)
    (hcur : a.1.curBlock_ = some cur) :
    a.2.maxChildStackBytes_ =
      (EmitCallArgsChildBytes abi args call f).foldl max call.maxChildStackBytes_ ∧
    (a.2.childClobbers_ = true →
      (finishCallArgs abi a.1 a.2).2.spIncrement_ =
        AlignBytes ((EmitCallArgsChildBytes abi args call f).foldl max call.maxChildStackBytes_)
          AsmJSStackAlignment ∧
      (a.2.stackArgs_.Nodup → ∀ d ∈ a.2.stackArgs_, ∀ o,
        (a.1.graph_.getDef d).op = .passStackArg o →
        ((finishCallArgs abi a.1 a.2).1.graph_.getDef d).op =
          .passStackArg (u32 (o + (finishCallArgs abi a.1 a.2).2.spIncrement_))) ∧
      ((EmitCallArgsChildBytes abi args call f).foldl max call.maxChildStackBytes_ + 16 ≤ 2 ^ 32 →
        (finishCallArgs abi a.1 a.2).2.spIncrement_ % 16 = 0 ∧
        (∀ k ∈ EmitCallArgsChildBytes abi args call f,
          k ≤ (finishCallArgs abi a.1 a.2).2.spIncrement_) ∧
        (finishCallArgs abi a.1 a.2).2.spIncrement_ <
          (EmitCallArgsChildBytes abi args call f).foldl max call.maxChildStackBytes_ + 16 ∧
        (∀ o, o + (finishCallArgs abi a.1 a.2).2.spIncrement_ < 2 ^ 32 →
          (EmitCallArgsChildBytes abi args call f).foldl max call.maxChildStackBytes_ ≤
            u32 (o + (finishCallArgs abi a.1 a.2).2.spIncrement_)))) ∧
    (a.2.childClobbers_ = false →
      (finishCallArgs abi a.1 a.2).2.spIncrement_ = 0 ∧
      (finishCallArgs abi a.1 a.2).1.graph_ = a.1.graph_ ∧
      (finishCallArgs abi a.1 a.2).1.maxAsmJSStackArgBytes_ =
        max call.prevMaxStackBytes_
          (max ((EmitCallArgsChildBytes abi args call f).foldl max call.maxChildStackBytes_)
            (abi.stackBytesConsumedSoFar a.2.abi_))) := by
  obtain ⟨hm, hprev⟩ := callArgs_maxChild abi args call f a h hlive
  refine ⟨hm, fun hc => ?_, fun hc => ?_⟩
  · have hfin : finishCallArgs abi a.1 a.2 =
        ({ a.1 with
            graph_ := a.2.stackArgs_.foldl (fun g d => incrementOffset g d
              (AlignBytes a.2.maxChildStackBytes_ AsmJSStackAlignment)) a.1.graph_,
            maxAsmJSStackArgBytes_ := max a.2.prevMaxStackBytes_
              (u32 (AlignBytes a.2.maxChildStackBytes_ AsmJSStackAlignment +
                abi.stackBytesConsumedSoFar a.2.abi_)) },
          { a.2 with spIncrement_ := AlignBytes a.2.maxChildStackBytes_ AsmJSStackAlignment }) := by
      simp [finishCallArgs, hcur, hc]
    have hsp : (finishCallArgs abi a.1 a.2).2.spIncrement_ =
        AlignBytes ((EmitCallArgsChildBytes abi args call f).foldl max call.maxChildStackBytes_)
          AsmJSStackAlignment := by
      rw [hfin, ← hm]
    refine ⟨hsp, ?_, ?_⟩
    · intro hn d hd o ho
      rw [hsp, ← hm, hfin]
      exact incrementOffset_foldl_mem _ _ _ _ _ hn hd ho
    · intro hno
      rw [hsp]
      obtain ⟨h1, h2, h3⟩ := AlignBytes_16_spec _ hno
      refine ⟨h2, fun k hk => ?_, h3, fun o ho => ?_⟩
      · exact Nat.le_trans ((foldl_max_ge _ _).2 k hk) h1
      · unfold u32
        rw [Nat.mod_eq_of_lt ho]
        exact Nat.le_trans h1 (Nat.le_add_left _ _)
  · have hfin : finishCallArgs abi a.1 a.2 =
        ({ a.1 with
            maxAsmJSStackArgBytes_ := max a.2.prevMaxStackBytes_
              (max a.2.maxChildStackBytes_ (abi.stackBytesConsumedSoFar a.2.abi_)) },
          { a.2 with spIncrement_ := 0 }) := by
      simp [finishCallArgs, hcur, hc]
    rw [hfin, ← hm, ← hprev]
    exact ⟨rfl, rfl, rfl⟩

/-- Witness for C27: the call `g(1, ..., 7, h(1, ..., 7), 9)`. The seventh
argument has a stack slot when the eighth is evaluated, and the evaluation of
the eighth, a call with a stack argument, needs 8 bytes: the clobber is
recorded and the maximum over the nine arguments is 8. -/
theorem C27_shift_covers_all_arguments_witness :
    (EmitCallArgsLoop x64ABI clobberArgs
        ((prepareEmitMIR [] []).startCallArgs (Call.new 0 0)).2
        ((prepareEmitMIR [] []).startCallArgs (Call.new 0 0)).1 = some clobberMarshalled ∧
      clobberMarshalled.1.curBlock_ = some 0 ∧ clobberMarshalled.2.childClobbers_ = true ∧
      EmitCallArgsChildBytes x64ABI clobberArgs
        ((prepareEmitMIR [] []).startCallArgs (Call.new 0 0)).2
        ((prepareEmitMIR [] []).startCallArgs (Call.new 0 0)).1 = [0, 0, 0, 0, 0, 0, 0, 8, 0]) ∧
    clobberMarshalled.2.maxChildStackBytes_ =
      (EmitCallArgsChildBytes x64ABI clobberArgs
        ((prepareEmitMIR [] []).startCallArgs (Call.new 0 0)).2
        ((prepareEmitMIR [] []).startCallArgs (Call.new 0 0)).1).foldl max
        ((prepareEmitMIR [] []).startCallArgs (Call.new 0 0)).2.maxChildStackBytes_ ∧
    (finishCallArgs x64ABI clobberMarshalled.1 clobberMarshalled.2).2.spIncrement_ =
      AlignBytes ((EmitCallArgsChildBytes x64ABI clobberArgs
        ((prepareEmitMIR [] []).startCallArgs (Call.new 0 0)).2
        ((prepareEmitMIR [] []).startCallArgs (Call.new 0 0)).1).foldl max
        ((prepareEmitMIR [] []).startCallArgs (Call.new 0 0)).2.maxChildStackBytes_)
        AsmJSStackAlignment :=
  ⟨⟨by decide, by decide, by decide, by decide⟩,
    (C27_shift_covers_all_arguments x64ABI clobberArgs _ _ clobberMarshalled 0 (by decide)
      (by decide) (by decide)).1,
    ((C27_shift_covers_all_arguments x64ABI clobberArgs _ _ clobberMarshalled 0 (by decide)
      (by decide) (by decide)).2.1 (by decide)).1⟩

/-! ## Predecessors, phis and loop depth of the blocks (C21, C24, C25) -/

theorem Keeps.k_refl (P : BlockId → Prop) (g : MIRGraph) : Keeps P g g :=
  ⟨Nat.le_refl _, Nat.le_refl _, fun _ _ => rfl, fun _ _ _ => ⟨rfl, rfl, fun _ _ => rfl⟩⟩

theorem Keeps.k_trans {P : BlockId → Prop} {g g1 g2 : MIRGraph} (h1 : Keeps P g g1)
    (h2 : Keeps P g1 g2) : Keeps P g g2 := by
  obtain ⟨a1, a2, a3, a4⟩ := h1
  obtain ⟨b1, b2, b3, b4⟩ := h2
  refine ⟨Nat.le_trans a1 b1, Nat.le_trans a2 b2, fun b hb => ?_, fun b hb hp => ?_⟩
  · rw [b3 b (Nat.lt_of_lt_of_le hb a1), a3 b hb]
  · obtain ⟨x1, x2, x3⟩ := a4 b hb hp
    obtain ⟨y1, y2, y3⟩ := b4 b (Nat.lt_of_lt_of_le hb a1) hp
    refine ⟨y1.trans x1, y2.trans x2, fun p hpm => ?_⟩
    rw [y3 p (by rw [x2]; exact hpm), x3 p hpm]

theorem Keeps.k_mono {P Q : BlockId → Prop} {g g' : MIRGraph} (h : Keeps P g g')
    (hq : ∀ b, Q b → P b) : Keeps Q g g' :=
  ⟨h.1, h.2.1, h.2.2.1, fun b hb hqb => h.2.2.2 b hb (hq b hqb)⟩

theorem GStep.g_refl (P : BlockId → Prop) {g : MIRGraph} (hg : GOk g) : GStep P g g :=
  ⟨hg, Keeps.k_refl P g⟩

theorem GStep.g_trans {P : BlockId → Prop} {g g1 g2 : MIRGraph} (h1 : GStep P g g1)
    (h2 : GStep P g1 g2) : GStep P g g2 :=
  ⟨h2.1, h1.2.k_trans h2.2⟩

theorem GStep.g_mono {P Q : BlockId → Prop} {g g' : MIRGraph} (h : GStep P g g')
    (hq : ∀ b, Q b → P b) : GStep Q g g' :=
  ⟨h.1, h.2.k_mono hq⟩

theorem gstep_foldl {α : Type} (P : BlockId → Prop) (step : MIRGraph → α → MIRGraph)
    (l : List α) (h : ∀ g a, a ∈ l → GOk g → GStep P g (step g a)) (g : MIRGraph) (hg : GOk g) :
    GStep P g (l.foldl step g) := by
  induction l generalizing g with
  | nil => exact GStep.g_refl P hg
  | cons a as ih =>
    have h1 := h g a (List.mem_cons_self _ _) hg
    exact h1.g_trans (ih (fun g x hx => h g x (List.mem_cons_of_mem _ hx)) _ h1.1)

/-- A change of the graph that adds no block and leaves the predecessors, phis
and loop depth of every block and the operand count of every definition. -/
theorem gstep_same (g g' : MIRGraph) (hlen : g'.blocks.length = g.blocks.length)
    (hdefs : g.defs.length ≤ g'.defs.length)
    (hblk : ∀ c, (g'.block c).predecessors = (g.block c).predecessors ∧
      (g'.block c).phis = (g.block c).phis ∧ (g'.block c).loopDepth = (g.block c).loopDepth)
    (hop : ∀ d, d < g.defs.length → (g'.getDef d).operands.length = (g.getDef d).operands.length)
    (hg : GOk g) : GStep (fun _ => True) g g' := by
  obtain ⟨⟨v, dj⟩, pr⟩ := hg
  refine ⟨⟨⟨fun b p hp => ?_, fun b b' hne p hp => ?_⟩, fun b h0 hb => ?_⟩,
    Nat.le_of_eq hlen.symm, hdefs, fun b _ => (hblk b).2.2, fun b _ _ =>
      ⟨(hblk b).1, (hblk b).2.1, fun p hp => hop p (v b p hp)⟩⟩
  · rw [(hblk b).2.1] at hp
    exact Nat.lt_of_lt_of_le (v b p hp) hdefs
  · rw [(hblk b).2.1] at hp
    rw [(hblk b').2.1]
    exact dj b b' hne p hp
  · rw [(hblk b).1]
    exact pr b h0 (hlen ▸ hb)

/-- A change of the graph that adds no block and touches the predecessors and
phis of block `j` only: predecessors are only added, and a new phi of `j` is a
new definition. -/
theorem gstep_touch (j : BlockId) (g g' : MIRGraph) (hlen : g'.blocks.length = g.blocks.length)
    (hdefs : g.defs.length ≤ g'.defs.length)
    (hld : ∀ c, (g'.block c).loopDepth = (g.block c).loopDepth)
    (hblk : ∀ c, c ≠ j → (g'.block c).predecessors = (g.block c).predecessors ∧
      (g'.block c).phis = (g.block c).phis)
    (hpj : (g.block j).predecessors ≠ [] → (g'.block j).predecessors ≠ [])
    (hphj : ∀ p ∈ (g'.block j).phis, p ∈ (g.block j).phis ∨
      (g.defs.length ≤ p ∧ p < g'.defs.length))
    (hop : ∀ d, d < g.defs.length → d ∉ (g.block j).phis →
      (g'.getDef d).operands.length = (g.getDef d).operands.length)
    (hg : GOk g) : GStep (fun b => b ≠ j) g g' := by
  obtain ⟨⟨v, dj⟩, pr⟩ := hg
  have hv : ∀ b, ∀ p ∈ (g'.block b).phis, p < g'.defs.length := by
    intro b p hp
    by_cases hb : b = j
    · subst hb
      rcases hphj p hp with h | h
      · exact Nat.lt_of_lt_of_le (v b p h) hdefs
      · exact h.2
    · rw [(hblk b hb).2] at hp
      exact Nat.lt_of_lt_of_le (v b p hp) hdefs
  have hdj : ∀ b b', b ≠ b' → ∀ p ∈ (g'.block b).phis, p ∉ (g'.block b').phis := by
    intro b b' hne p hp hp'
    by_cases hb : b = j
    · subst hb
      rw [(hblk b' (Ne.symm hne)).2] at hp'
      rcases hphj p hp with h | h
      · exact dj b b' hne p h hp'
      · exact absurd (v b' p hp') (Nat.not_lt.2 h.1)
    · rw [(hblk b hb).2] at hp
      by_cases hb' : b' = j
      · subst hb'
        rcases hphj p hp' with h | h
        · exact dj b b' hne p hp h
        · exact absurd (v b p hp) (Nat.not_lt.2 h.1)
      · rw [(hblk b' hb').2] at hp'
        exact dj b b' hne p hp hp'
  refine ⟨⟨⟨hv, hdj⟩, fun b h0 hb => ?_⟩, Nat.le_of_eq hlen.symm, hdefs, fun b _ => hld b,
    fun b _ hbj => ⟨(hblk b hbj).1, (hblk b hbj).2, fun p hp => ?_⟩⟩
  · by_cases hbj : b = j
    · subst hbj
      exact hpj (pr b h0 (hlen ▸ hb))
    · rw [(hblk b hbj).1]
      exact pr b h0 (hlen ▸ hb)
  · exact hop p (v b p hp) (dj b j hbj p hp)

theorem gstep_modifyBlock (P : BlockId → Prop) (g : MIRGraph) (b : BlockId)
    (fn : MBasicBlock → MBasicBlock)
    (h : ∀ blk, (fn blk).predecessors = blk.predecessors ∧ (fn blk).phis = blk.phis ∧
      (fn blk).loopDepth = blk.loopDepth) (hg : GOk g) : GStep P g (g.modifyBlock b fn) := by
  refine (gstep_same g _ (blocks_length_modifyBlock g b fn) (Nat.le_refl _) (fun c => ?_)
    (fun _ _ => rfl) hg).g_mono (fun _ _ => trivial)
  rw [block_modifyBlock]
  split
  · exact h _
  · exact ⟨rfl, rfl, rfl⟩

theorem gstep_endBlock (P : BlockId → Prop) (g : MIRGraph) (b : BlockId) (c : MControl)
    (hg : GOk g) : GStep P g (g.endBlock b c) :=
  gstep_modifyBlock P g b _ (fun _ => ⟨rfl, rfl, rfl⟩) hg

theorem gstep_setSlot (P : BlockId → Prop) (g : MIRGraph) (b : BlockId) (i : Nat)
    (d : Option DefId) (hg : GOk g) : GStep P g (g.setSlot b i d) :=
  gstep_modifyBlock P g b _ (fun _ => ⟨rfl, rfl, rfl⟩) hg

theorem gstep_modifyDef (P : BlockId → Prop) (g : MIRGraph) (d : DefId)
    (fn : MDefinition → MDefinition) (h : ∀ x, (fn x).operands.length = x.operands.length)
    (hg : GOk g) : GStep P g (g.modifyDef d fn) := by
  refine (gstep_same g (g.modifyDef d fn) rfl (Nat.le_of_eq ?_) (fun c => ⟨rfl, rfl, rfl⟩)
    (fun e _ => ?_) hg).g_mono (fun _ _ => trivial)
  · simp only [MIRGraph.modifyDef, updateAt_length]
  · rw [getDef_modifyDef]
    split
    · exact h _
    · rfl

theorem getDef_newDef_lt (g : MIRGraph) (d : MDefinition) (e : DefId) (he : e < g.defs.length) :
    (g.newDef d).1.getDef e = g.getDef e :=
  getDef_append_lt g _ d e rfl he

theorem gstep_newDef (P : BlockId → Prop) (g : MIRGraph) (d : MDefinition) (hg : GOk g) :
    GStep P g (g.newDef d).1 := by
  refine (gstep_same g (g.newDef d).1 rfl ?_ (fun c => ⟨rfl, rfl, rfl⟩) (fun e he => ?_)
    hg).g_mono (fun _ _ => trivial)
  · show g.defs.length ≤ (g.defs ++ [d]).length
    rw [List.length_append]
    exact Nat.le_add_right _ _
  · rw [getDef_newDef_lt g d e he]

theorem gstep_add (P : BlockId → Prop) (g : MIRGraph) (b : BlockId) (op : MOpcode)
    (operands : List (Option DefId)) (hg : GOk g) : GStep P g (g.add b op operands).1 := by
  unfold MIRGraph.add
  have h1 := gstep_newDef P g ⟨op, operands, false⟩ hg
  exact h1.g_trans (gstep_modifyBlock P _ b _ (fun _ => ⟨rfl, rfl, rfl⟩) h1.1)

theorem gstep_moveBlockToEnd (P : BlockId → Prop) (g : MIRGraph) (b : BlockId) (hg : GOk g) :
    GStep P g (g.moveBlockToEnd b) :=
  (gstep_same g (g.moveBlockToEnd b) rfl (Nat.le_refl _) (fun _ => ⟨rfl, rfl, rfl⟩)
    (fun _ _ => rfl) hg).g_mono (fun _ _ => trivial)

theorem gstep_addPhiToFreeList (P : BlockId → Prop) (g : MIRGraph) (p : DefId) (hg : GOk g) :
    GStep P g (addPhiToFreeList g p) :=
  (gstep_same g (addPhiToFreeList g p) rfl (Nat.le_refl _) (fun _ => ⟨rfl, rfl, rfl⟩)
    (fun _ _ => rfl) hg).g_mono (fun _ _ => trivial)

theorem block_justReplace_attrs (g : MIRGraph) (old : DefId) (new : Option DefId) (c : BlockId) :
    ((justReplaceAllUsesWith g old new).block c).predecessors = (g.block c).predecessors ∧
    ((justReplaceAllUsesWith g old new).block c).phis = (g.block c).phis ∧
    ((justReplaceAllUsesWith g old new).block c).loopDepth = (g.block c).loopDepth ∧
    ((justReplaceAllUsesWith g old new).block c).slots = (g.block c).slots := by
  simp only [justReplaceAllUsesWith, MIRGraph.block]
  rw [List.getD_eq_getElem?_getD, List.getD_eq_getElem?_getD, List.getElem?_map]
  cases g.blocks[c]? <;> exact ⟨rfl, rfl, rfl, rfl⟩

theorem gstep_justReplace (P : BlockId → Prop) (g : MIRGraph) (old : DefId) (new : Option DefId)
    (hg : GOk g) : GStep P g (justReplaceAllUsesWith g old new) := by
  refine (gstep_same g _ ?_ (Nat.le_of_eq ?_) (fun c => ?_) (fun d _ => ?_)
    hg).g_mono (fun _ _ => trivial)
  · simp only [justReplaceAllUsesWith, List.length_map]
  · simp only [justReplaceAllUsesWith, List.length_map]
  · obtain ⟨h1, h2, h3, -⟩ := block_justReplace_attrs g old new c
    exact ⟨h1, h2, h3⟩
  · rw [(getDef_justReplace g old new d).1, List.length_map]

theorem block_addBlock (g : MIRGraph) (blk : MBasicBlock) (c : BlockId) :
    (g.addBlock blk).1.block c =
      if c < g.blocks.length then g.block c else if c = g.blocks.length then blk else default := by
  simp only [MIRGraph.addBlock, MIRGraph.block, List.getD_eq_getElem?_getD]
  by_cases h : c < g.blocks.length
  · rw [if_pos h, List.getElem?_append_left h]
  · rw [if_neg h, List.getElem?_append_right (Nat.le_of_not_lt h)]
    by_cases h2 : c = g.blocks.length
    · rw [if_pos h2, h2, Nat.sub_self]
      rfl
    · rw [if_neg h2]
      have : c - g.blocks.length ≠ 0 :=
        Nat.sub_ne_zero_of_lt (Nat.lt_of_le_of_ne (Nat.le_of_not_lt h) (Ne.symm h2))
      obtain ⟨k, hk⟩ := Nat.exists_eq_succ_of_ne_zero this
      rw [hk]
      rfl

theorem block_default_of_ge (g : MIRGraph) (c : BlockId) (h : g.blocks.length ≤ c) :
    g.block c = default := by
  simp only [MIRGraph.block, List.getD_eq_getElem?_getD, List.getElem?_eq_none h]
  rfl

theorem gstep_addBlock (P : BlockId → Prop) (g : MIRGraph) (blk : MBasicBlock)
    (hp : blk.predecessors ≠ [] ∨ g.blocks = [])
    (hphis : ∀ p ∈ blk.phis, p < g.defs.length ∧ ∀ b, p ∉ (g.block b).phis)
    (hg : GOk g) : GStep P g (g.addBlock blk).1 := by
  obtain ⟨⟨v, dj⟩, pr⟩ := hg
  have hlen : (g.addBlock blk).1.blocks.length = g.blocks.length + 1 := by
    simp [MIRGraph.addBlock]
  have hold : ∀ c, c < g.blocks.length → (g.addBlock blk).1.block c = g.block c := by
    intro c hc
    rw [block_addBlock, if_pos hc]
  have hnew : (g.addBlock blk).1.block g.blocks.length = blk := by
    rw [block_addBlock, if_neg (Nat.lt_irrefl _), if_pos rfl]
  have hphi : ∀ c, ∀ p ∈ ((g.addBlock blk).1.block c).phis,
      (c < g.blocks.length ∧ p ∈ (g.block c).phis) ∨ (c = g.blocks.length ∧ p ∈ blk.phis) := by
    intro c p hp
    rw [block_addBlock] at hp
    by_cases h : c < g.blocks.length
    · rw [if_pos h] at hp
      exact Or.inl ⟨h, hp⟩
    · rw [if_neg h] at hp
      by_cases h2 : c = g.blocks.length
      · rw [if_pos h2] at hp
        exact Or.inr ⟨h2, hp⟩
      · rw [if_neg h2] at hp
        cases hp
  refine ⟨⟨⟨fun b p hp => ?_, fun b b' hne p hp hp' => ?_⟩, fun b h0 hb => ?_⟩,
    by rw [hlen]; exact Nat.le_succ _, Nat.le_refl _, fun b hb => by rw [hold b hb],
    fun b hb _ => by rw [hold b hb]; exact ⟨rfl, rfl, fun _ _ => rfl⟩⟩
  · rcases hphi b p hp with h | h
    · exact v b p h.2
    · exact (hphis p h.2).1
  · rcases hphi b p hp with h | h
    · rcases hphi b' p hp' with h' | h'
      · exact dj b b' hne p h.2 h'.2
      · exact (hphis p h'.2).2 b h.2
    · rcases hphi b' p hp' with h' | h'
      · exact (hphis p h.2).2 b' h'.2
      · exact hne (h.1.trans h'.1.symm)
  · rw [hlen] at hb
    by_cases h : b < g.blocks.length
    · rw [hold b h]
      exact pr b h0 h
    · have hb2 : b = g.blocks.length := by omega
      rw [hb2, hnew]
      rcases hp with hp | hp
      · exact hp
      · rw [hb2, hp] at h0
        exact absurd h0 (Nat.lt_irrefl _)

/-- The block that `MBasicBlock::NewAsmJS` builds from a predecessor: its
predecessor list is that block; a pending loop header has one new phi per slot
of the predecessor, each with one operand, and any other block has no phi. -/
theorem NewAsmJS_attrs (g : MIRGraph) (n : Nat) (p : BlockId) (kind : Kind) :
    (MBasicBlock.NewAsmJS g n (some p) kind).2.predecessors = [p] ∧
    (MBasicBlock.NewAsmJS g n (some p) kind).1.blocks = g.blocks ∧
    g.defs.length ≤ (MBasicBlock.NewAsmJS g n (some p) kind).1.defs.length ∧
    (∀ d, d < g.defs.length → (MBasicBlock.NewAsmJS g n (some p) kind).1.getDef d = g.getDef d) ∧
    (MBasicBlock.NewAsmJS g n (some p) kind).2.phis.Nodup ∧
    (∀ q ∈ (MBasicBlock.NewAsmJS g n (some p) kind).2.phis,
      g.defs.length ≤ q ∧ q < (MBasicBlock.NewAsmJS g n (some p) kind).1.defs.length ∧
      ((MBasicBlock.NewAsmJS g n (some p) kind).1.getDef q).operands.length = 1) ∧
    (kind ≠ .PENDING_LOOP_HEADER → (MBasicBlock.NewAsmJS g n (some p) kind).2.phis = []) := by
  cases kind with
  | PENDING_LOOP_HEADER =>
    have hdefs : (MBasicBlock.NewAsmJS g n (some p) .PENDING_LOOP_HEADER).1.defs =
        g.defs ++ (g.block p).slots.map (fun s => (⟨.phi, [s], false⟩ : MDefinition)) := rfl
    have hphis : (MBasicBlock.NewAsmJS g n (some p) .PENDING_LOOP_HEADER).2.phis =
        (List.range (g.block p).slots.length).map (fun i => g.defs.length + i) := rfl
    refine ⟨rfl, rfl, ?_, fun d hd => ?_, ?_, fun q hq => ?_, fun h => absurd rfl h⟩
    · rw [hdefs, List.length_append]
      exact Nat.le_add_right _ _
    · simp only [MIRGraph.getDef, hdefs, List.getD_eq_getElem?_getD,
        List.getElem?_append_left hd]
    · rw [hphis]
      exact (List.nodup_range _).map (fun a b h => Nat.add_left_cancel h)
    · rw [hphis] at hq
      obtain ⟨i, hi, rfl⟩ := List.mem_map.1 hq
      have hi2 := List.mem_range.1 hi
      refine ⟨Nat.le_add_right _ _, ?_, ?_⟩
      · rw [hdefs, List.length_append, List.length_map]
        exact Nat.add_lt_add_left hi2 _
      · simp only [MIRGraph.getDef, hdefs, List.getD_eq_getElem?_getD]
        rw [List.getElem?_append_right (Nat.le_add_right _ _), Nat.add_sub_cancel_left,
          List.getElem?_map, List.getElem?_eq_getElem hi2]
        rfl
  | NORMAL =>
    exact ⟨rfl, rfl, Nat.le_refl _, fun _ _ => rfl, List.nodup_nil,
      fun q hq => absurd hq (List.not_mem_nil _), fun _ => rfl⟩
  | LOOP_HEADER =>
    exact ⟨rfl, rfl, Nat.le_refl _, fun _ _ => rfl, List.nodup_nil,
      fun q hq => absurd hq (List.not_mem_nil _), fun _ => rfl⟩

/-- The creation of a block from a predecessor: `MBasicBlock::NewAsmJS`, then
`setLoopDepth`, then `MIRGraph::addBlock`. -/
theorem gstep_newBlock (P : BlockId → Prop) (g : MIRGraph) (n : Nat) (p : BlockId) (kind : Kind)
    (d : Nat) (hg : GOk g) :
    GStep P g ((MBasicBlock.NewAsmJS g n (some p) kind).1.addBlock
      { (MBasicBlock.NewAsmJS g n (some p) kind).2 with loopDepth := d }).1 := by
  obtain ⟨a1, a2, a3, a4, a5, a6, a7⟩ := NewAsmJS_attrs g n p kind
  have hblk : ∀ c, (MBasicBlock.NewAsmJS g n (some p) kind).1.block c = g.block c := by
    intro c
    simp only [MIRGraph.block, a2]
  have h1 : GStep P g (MBasicBlock.NewAsmJS g n (some p) kind).1 :=
    (gstep_same g _ (by rw [a2]) a3 (fun c => by rw [hblk c]; exact ⟨rfl, rfl, rfl⟩)
      (fun e he => by rw [a4 e he]) hg).g_mono (fun _ _ => trivial)
  refine h1.g_trans (gstep_addBlock P _ _ (Or.inl ?_) (fun q hq => ?_) h1.1)
  · show (MBasicBlock.NewAsmJS g n (some p) kind).2.predecessors ≠ []
    rw [a1]
    exact List.cons_ne_nil _ _
  · obtain ⟨b1, b2, -⟩ := a6 q hq
    refine ⟨b2, fun b hb => ?_⟩
    rw [hblk b] at hb
    exact absurd (hg.1.1 b q hb) (Nat.not_lt.2 b1)

theorem block_addPhiForSlot (g : MIRGraph) (b c : BlockId) (i : Nat) (mine other : Option DefId) :
    (addPhiForSlot g b i mine other).block c =
      if b = c ∧ c < g.blocks.length then
        { g.block c with
          phis := (g.block c).phis ++ [g.defs.length]
          slots := (g.block c).slots.set i (some g.defs.length) }
      else g.block c := by
  unfold addPhiForSlot
  dsimp only
  rw [block_setSlot, blocks_length_modifyBlock, block_modifyBlock]
  by_cases h : b = c ∧ c < g.blocks.length
  · have h' : b = c ∧ c < (g.newDef ⟨.phi,
        List.replicate (g.block b).predecessors.length mine ++ [other], false⟩).1.blocks.length := h
    rw [if_pos h', if_pos h', if_pos h]
    rfl
  · have h' : ¬ (b = c ∧ c < (g.newDef ⟨.phi,
        List.replicate (g.block b).predecessors.length mine ++ [other], false⟩).1.blocks.length) := h
    rw [if_neg h', if_neg h', if_neg h]
    rfl

theorem defs_addPhiForSlot (g : MIRGraph) (b : BlockId) (i : Nat) (mine other : Option DefId) :
    (addPhiForSlot g b i mine other).defs =
      g.defs ++ [⟨.phi, List.replicate (g.block b).predecessors.length mine ++ [other], false⟩] ∧
    (addPhiForSlot g b i mine other).blocks.length = g.blocks.length := by
  unfold addPhiForSlot
  dsimp only
  refine ⟨rfl, ?_⟩
  unfold MIRGraph.setSlot
  rw [blocks_length_modifyBlock, blocks_length_modifyBlock]
  rfl

theorem gstep_addPhiForSlot (g : MIRGraph) (b : BlockId) (i : Nat) (mine other : Option DefId)
    (hg : GOk g) : GStep (fun c => c ≠ b) g (addPhiForSlot g b i mine other) := by
  obtain ⟨hd, hl⟩ := defs_addPhiForSlot g b i mine other
  have hdl : (addPhiForSlot g b i mine other).defs.length = g.defs.length + 1 := by
    rw [hd, List.length_append]
    rfl
  refine gstep_touch b g _ hl (by rw [hdl]; exact Nat.le_succ _) (fun c => ?_) (fun c hc => ?_)
    (fun h => ?_) (fun p hp => ?_) (fun d hdlt _ => ?_) hg
  · rw [block_addPhiForSlot]
    split <;> rfl
  · rw [block_addPhiForSlot, if_neg (fun h => hc h.1.symm)]
    exact ⟨rfl, rfl⟩
  · rw [block_addPhiForSlot]
    split
    · exact h
    · exact h
  · rw [block_addPhiForSlot] at hp
    split at hp
    · rcases List.mem_append.1 hp with h | h
      · exact Or.inl h
      · rw [List.mem_singleton.1 h, hdl]
        exact Or.inr ⟨Nat.le_refl _, Nat.lt_succ_self _⟩
    · exact Or.inl hp
  · simp only [MIRGraph.getDef, hd, List.getD_eq_getElem?_getD, List.getElem?_append_left hdlt]

theorem gstep_addPredecessorSlot (b pred : BlockId) (g : MIRGraph) (i : Nat) (hg : GOk g) :
    GStep (fun c => c ≠ b) g (addPredecessorSlot b pred g i) := by
  unfold addPredecessorSlot
  dsimp only
  split
  · exact GStep.g_refl _ hg
  · split
    · split
      · rename_i m hm
        refine gstep_touch b g _ rfl (Nat.le_of_eq ?_) (fun _ => rfl) (fun _ _ => ⟨rfl, rfl⟩)
          (fun h => h) (fun p hp => Or.inl hp) (fun d _ hd => ?_) hg
        · simp only [MIRGraph.modifyDef, updateAt_length]
        · rw [getDef_modifyDef, if_neg]
          intro h
          exact hd (h.1 ▸ hm.2)
      · exact gstep_addPhiForSlot g b i _ _ hg
    · exact gstep_addPhiForSlot g b i _ _ hg

theorem preds_addPredecessorSlot (b pred : BlockId) (g : MIRGraph) (i : Nat) (c : BlockId) :
    ((addPredecessorSlot b pred g i).block c).predecessors = (g.block c).predecessors ∧
    (addPredecessorSlot b pred g i).blocks.length = g.blocks.length := by
  unfold addPredecessorSlot
  dsimp only
  have hp : ∀ mine other, ((addPhiForSlot g b i mine other).block c).predecessors =
      (g.block c).predecessors ∧ (addPhiForSlot g b i mine other).blocks.length =
        g.blocks.length := by
    intro mine other
    refine ⟨?_, (defs_addPhiForSlot g b i mine other).2⟩
    rw [block_addPhiForSlot]
    split <;> rfl
  split
  · exact ⟨rfl, rfl⟩
  · split
    · split
      · exact ⟨rfl, rfl⟩
      · exact hp _ _
    · exact hp _ _

theorem preds_slotFold (b pred : BlockId) (l : List Nat) (c : BlockId) :
    ∀ g : MIRGraph, ((l.foldl (addPredecessorSlot b pred) g).block c).predecessors =
      (g.block c).predecessors ∧
      (l.foldl (addPredecessorSlot b pred) g).blocks.length = g.blocks.length := by
  induction l with
  | nil => exact fun g => ⟨rfl, rfl⟩
  | cons x xs ih =>
    intro g
    obtain ⟨h1, h2⟩ := ih (addPredecessorSlot b pred g x)
    obtain ⟨h3, h4⟩ := preds_addPredecessorSlot b pred g x c
    exact ⟨h1.trans h3, h2.trans h4⟩

/-- The predecessor lists after `MBasicBlock::addPredecessor`: `pred` is
appended to the list of block `b`, the other lists are unchanged. -/
theorem preds_addPredecessor (g : MIRGraph) (b pred c : BlockId) :
    ((MBasicBlock.addPredecessor g b pred).block c).predecessors =
      (if b = c ∧ c < g.blocks.length then (g.block c).predecessors ++ [pred]
        else (g.block c).predecessors) ∧
    (MBasicBlock.addPredecessor g b pred).blocks.length = g.blocks.length := by
  unfold MBasicBlock.addPredecessor
  dsimp only
  obtain ⟨h1, h2⟩ := preds_slotFold b pred (List.range (g.block b).slots.length) c g
  rw [block_modifyBlock, blocks_length_modifyBlock, h2]
  refine ⟨?_, rfl⟩
  split
  · rw [← h1]
  · exact h1

theorem gstep_addPredecessor (g : MIRGraph) (b pred : BlockId) (hg : GOk g) :
    GStep (fun c => c ≠ b) g (MBasicBlock.addPredecessor g b pred) := by
  unfold MBasicBlock.addPredecessor
  dsimp only
  have h1 := gstep_foldl (fun c => c ≠ b) (addPredecessorSlot b pred)
    (List.range (g.block b).slots.length) (fun g i _ hg => gstep_addPredecessorSlot b pred g i hg)
    g hg
  refine h1.g_trans (gstep_touch b _ _ (blocks_length_modifyBlock _ _ _) (Nat.le_refl _)
    (fun c => ?_) (fun c hc => ?_) (fun h => ?_) (fun p hp => ?_) (fun _ _ _ => rfl) h1.1)
  · rw [block_modifyBlock]
    split <;> rfl
  · rw [block_modifyBlock, if_neg (fun h => hc h.1.symm)]
    exact ⟨rfl, rfl⟩
  · rw [block_modifyBlock]
    split
    · exact List.append_ne_nil_of_right_ne_nil _ (List.cons_ne_nil _ _)
    · exact h
  · rw [block_modifyBlock] at hp
    split at hp
    · exact Or.inl hp
    · exact Or.inl hp

/-! ## The predecessors of the join block (C28) -/

theorem preds_endBlock (g : MIRGraph) (b c : BlockId) (ctl : MControl) :
    ((g.endBlock b ctl).block c).predecessors = (g.block c).predecessors := by
  rw [MIRGraph.endBlock, block_modifyBlock]
  split <;> rfl

theorem preds_joinIfElseStep (join : BlockId) (p : Bool) (g : MIRGraph) (x : Nat × BlockId)
    (c : BlockId) :
    ((joinIfElseStep join p g x).block c).predecessors =
      (if (p ∨ 0 < x.1) ∧ join = c ∧ c < g.blocks.length then
        (g.block c).predecessors ++ [x.2] else (g.block c).predecessors) ∧
    (joinIfElseStep join p g x).blocks.length = g.blocks.length := by
  unfold joinIfElseStep
  dsimp only
  by_cases h : (p = true) ∨ 0 < x.1
  · rw [if_pos h]
    obtain ⟨h1, h2⟩ := preds_addPredecessor (g.endBlock x.2 (.goto join)) join x.2 c
    rw [h1, h2, blocks_length_endBlock, preds_endBlock]
    refine ⟨?_, rfl⟩
    by_cases h3 : join = c ∧ c < g.blocks.length
    · rw [if_pos h3, if_pos ⟨h, h3⟩]
    · rw [if_neg h3, if_neg (fun hh => h3 hh.2)]
  · rw [if_neg h, if_neg (fun hh => h hh.1), preds_endBlock, blocks_length_endBlock]
    exact ⟨rfl, rfl⟩

theorem preds_joinFold (join : BlockId) (p : Bool) (l : List (Nat × BlockId)) :
    ∀ g : MIRGraph, join < g.blocks.length →
      ((l.foldl (joinIfElseStep join p) g).block join).predecessors =
        (g.block join).predecessors ++
          (l.filter (fun x => decide (p = true ∨ 0 < x.1))).map (fun x => x.2) := by
  induction l with
  | nil => intro g _; simp
  | cons x xs ih =>
    intro g hj
    obtain ⟨h1, h2⟩ := preds_joinIfElseStep join p g x join
    rw [List.foldl_cons, ih _ (by rw [h2]; exact hj), h1]
    by_cases h : (p = true) ∨ 0 < x.1
    · rw [if_pos ⟨h, rfl, hj⟩, List.filter_cons_of_pos (by simpa using h), List.map_cons,
        List.append_assoc]
      rfl
    · rw [if_neg (fun hh => h hh.1), List.filter_cons_of_neg (by simpa using h)]

theorem enumFrom_filter_pos {α : Type} (l : List α) (k : Nat) :
    ((l.enumFrom (k + 1)).filter (fun x => decide (false = true ∨ 0 < x.1))).map (fun x => x.2) =
      l := by
  induction l generalizing k with
  | nil => rfl
  | cons a as ih =>
    rw [List.enumFrom_cons, List.filter_cons_of_pos (by simp), List.map_cons, ih]

theorem enum_filter_true {α : Type} (l : List (Nat × α)) :
    l.filter (fun x => decide (true = true ∨ 0 < x.1)) = l := by
  apply List.filter_eq_self.2
  intro x _
  simp

theorem preds_newBlock (f : FunctionCompiler) (p : BlockId) (d : Nat) :
    ((f.newBlockWithDepth (some p) d).1.graph_.block f.graph_.blocks.length).predecessors = [p] ∧
    ((f.newBlockWithDepth (some p) d).1.graph_.block f.graph_.blocks.length).loopDepth = d := by
  unfold newBlockWithDepth
  dsimp only
  rw [block_addBlock]
  have hb : (MBasicBlock.NewAsmJS f.graph_ f.numLocals (some p) .NORMAL).1.blocks = f.graph_.blocks :=
    rfl
  rw [hb, if_neg (Nat.lt_irrefl _), if_pos rfl]
  exact ⟨rfl, rfl⟩

/-- C28. `joinIfElse` on the list `thenBlocks` of then-arm blocks, with a live
else arm (the current block) or a non-empty list: exactly one block is
created, the join block; it becomes current; its predecessor list is the else
arm's block, if the else arm is live, followed by the then-arm blocks in
order, so it has no duplicate when the then-arm blocks are distinct and differ
from the else arm's block; and each of these blocks that is a block of the
graph ends in a jump to the join block. With a dead else arm and an empty
list, `joinIfElse` changes nothing: no block is created and the builder stays
in dead code. -/
theorem C28_join_predecessors_once (f : FunctionCompiler) (thenBlocks : BlockVector)
    (hlive : ¬ (f.curBlock_ = none ∧ thenBlocks = [])) :
    (f.joinIfElse thenBlocks).graph_.blocks.length = f.graph_.blocks.length + 1 ∧
    (f.joinIfElse thenBlocks).curBlock_ = some f.graph_.blocks.length ∧
    ((f.joinIfElse thenBlocks).graph_.block f.graph_.blocks.length).predecessors =
      f.curBlock_.toList ++ thenBlocks ∧
    (thenBlocks.Nodup → (∀ c, f.curBlock_ = some c → c ∉ thenBlocks) →
      ((f.joinIfElse thenBlocks).graph_.block f.graph_.blocks.length).predecessors.Nodup) ∧
    (∀ b, b ∈ f.curBlock_.toList ++ thenBlocks → b < f.graph_.blocks.length →
      JumpsTo (f.joinIfElse thenBlocks).graph_ b f.graph_.blocks.length) ∧
    (∀ g : FunctionCompiler, g.curBlock_ = none →
      g.joinIfElse [] = g ∧ (g.joinIfElse []).curBlock_ = none) := by
  obtain ⟨s1, s2, s3⟩ := joinIfElse_spec f thenBlocks hlive
  have hpreds : ((f.joinIfElse thenBlocks).graph_.block f.graph_.blocks.length).predecessors =
      f.curBlock_.toList ++ thenBlocks := by
    cases hc : f.curBlock_ with
    | none =>
      cases thenBlocks with
      | nil => exact absurd ⟨hc, rfl⟩ hlive
      | cons t0 rest =>
        obtain ⟨n1, n2, n3, n4⟩ := newBlockWithDepth_spec f (some t0) f.loopStack_.length
        have hj : f.joinIfElse (t0 :: rest) =
            { (f.newBlockWithDepth (some t0) f.loopStack_.length).1 with
              graph_ := ((t0 :: rest).enum).foldl (joinIfElseStep f.graph_.blocks.length false)
                (f.newBlockWithDepth (some t0) f.loopStack_.length).1.graph_,
              curBlock_ := some f.graph_.blocks.length } := by
          simp only [joinIfElse, hc, newBlock, n1]
        rw [hj]
        show ((((t0 :: rest).enum).foldl (joinIfElseStep f.graph_.blocks.length false)
          (f.newBlockWithDepth (some t0) f.loopStack_.length).1.graph_).block
            f.graph_.blocks.length).predecessors = _
        rw [preds_joinFold _ _ _ _ (by rw [n2]; exact Nat.lt_succ_self _),
          (preds_newBlock f t0 _).1]
        have he : (t0 :: rest).enum = (0, t0) :: rest.enumFrom 1 := rfl
        rw [he, List.filter_cons_of_neg (by simp), enumFrom_filter_pos]
        rfl
    | some cur =>
      obtain ⟨n1, n2, n3, n4⟩ := newBlockWithDepth_spec f (some cur) f.loopStack_.length
      have hj : f.joinIfElse thenBlocks =
          { (f.newBlockWithDepth (some cur) f.loopStack_.length).1 with
            graph_ := (thenBlocks.enum).foldl (joinIfElseStep f.graph_.blocks.length true)
              ((f.newBlockWithDepth (some cur) f.loopStack_.length).1.graph_.endBlock cur
                (.goto f.graph_.blocks.length)),
            curBlock_ := some f.graph_.blocks.length } := by
        simp only [joinIfElse, hc, newBlock, n1]
      rw [hj]
      show (((thenBlocks.enum).foldl (joinIfElseStep f.graph_.blocks.length true)
        ((f.newBlockWithDepth (some cur) f.loopStack_.length).1.graph_.endBlock cur
          (.goto f.graph_.blocks.length))).block f.graph_.blocks.length).predecessors = _
      rw [preds_joinFold _ _ _ _ (by rw [blocks_length_endBlock, n2]; exact Nat.lt_succ_self _),
        preds_endBlock, (preds_newBlock f cur _).1, enum_filter_true, enum_map_snd]
      rfl
  refine ⟨s1, s2, hpreds, fun hn hc => ?_, fun b hb hlt => s3 b ?_ hlt,
    fun g hg => ⟨joinIfElse_dead_empty g hg, by rw [joinIfElse_dead_empty g hg]; exact hg⟩⟩
  · rw [hpreds]
    cases hcur : f.curBlock_ with
    | none => exact hn
    | some c =>
      show (c :: thenBlocks).Nodup
      exact List.nodup_cons.2 ⟨hc c hcur, hn⟩
  · rcases List.mem_append.1 hb with h | h
    · exact Or.inr (by
        cases hcur : f.curBlock_ with
        | none => rw [hcur] at h; cases h
        | some c =>
          rw [hcur] at h
          have hbc : b = c := by simpa using h
          rw [hbc])
    · exact Or.inl h

/-- Witness for C28: the join of `if (x) ... else ...` whose then arm ended in
block 1 and whose else arm is live in block 2: the join block is block 3 and
its predecessors are block 2, then block 1. -/
theorem C28_join_predecessors_once_witness :
    ¬ (afterBranch.curBlock_ = none ∧ [1] = ([] : BlockVector)) ∧
    afterBranch.curBlock_ = some 2 ∧ afterBranch.graph_.blocks.length = 3 ∧
    ((afterBranch.joinIfElse [1]).graph_.block afterBranch.graph_.blocks.length).predecessors =
      afterBranch.curBlock_.toList ++ [1] :=
  ⟨by decide, by decide, by decide,
    (C28_join_predecessors_once afterBranch [1] (by decide)).2.2.1⟩

/-! ## The builder's invariants on blocks (C21, C24, C25) -/

theorem loopStack_of_bk {f g : FunctionCompiler} (h : g.bookkeeping = f.bookkeeping) :
    g.loopStack_ = f.loopStack_ :=
  congrArg Bookkeeping.loopStack h

theorem fstep_ok {n : Nat} {f f' : FunctionCompiler} (h : FrameStep n f f') : FrameOk f' :=
  h.2.2

theorem fstep_refl (f : FunctionCompiler) (hok : FrameOk f) :
    FrameStep f.graph_.blocks.length f f :=
  ⟨Nat.le_refl _, Keeps.k_refl _ _, hok⟩

theorem fstep_trans {n m : Nat} {f f1 f2 : FunctionCompiler} (h1 : FrameStep n f f1)
    (h2 : FrameStep m f1 f2) (hnm : n ≤ m) : FrameStep n f f2 :=
  ⟨h1.1, h1.2.1.k_trans (h2.2.1.k_mono (fun _ hb => Nat.lt_of_lt_of_le hb hnm)), h2.2.2⟩

/-- Chaining a step with a step stated for all blocks of its own start. -/
theorem fstep_then {n : Nat} {f f1 f2 : FunctionCompiler} (h1 : FrameStep n f f1)
    (h2 : FrameStep f1.graph_.blocks.length f1 f2) : FrameStep n f f2 :=
  fstep_trans h1 h2 (Nat.le_trans h1.1 h1.2.1.1)

theorem fstep_weaken {n m : Nat} {f f' : FunctionCompiler} (h : FrameStep n f f') (hm : m ≤ n) :
    FrameStep m f f' :=
  ⟨Nat.le_trans hm h.1, h.2.1.k_mono (fun _ hb => Nat.lt_of_lt_of_le hb hm), h.2.2⟩

theorem heldAt_keeps {P : BlockId → Prop} {f f' : FunctionCompiler} {b : BlockId} {d : Nat}
    (hh : HeldAt f b d) (hk : Keeps P f.graph_ f'.graph_) : HeldAt f' b d :=
  ⟨Nat.lt_of_lt_of_le hh.1 hk.1, by rw [hk.2.2.1 b hh.1]; exact hh.2⟩

theorem heldAt_step {n : Nat} {f f' : FunctionCompiler} {b : BlockId} {d : Nat}
    (hh : HeldAt f b d) (hs : FrameStep n f f') : HeldAt f' b d :=
  heldAt_keeps hh hs.2.1

/-- The loop-depth invariant after a step that keeps the loop depths and the
loop stack and leaves the current block as it is or null. -/
theorem loopOk_same {P : BlockId → Prop} {f f' : FunctionCompiler} (hl : LoopOk f)
    (hk : Keeps P f.graph_ f'.graph_) (hs : f'.loopStack_ = f.loopStack_)
    (hc : f'.curBlock_ = f.curBlock_ ∨ f'.curBlock_ = none) : LoopOk f' := by
  intro cur hcur
  rcases hc with h | h
  · rw [h] at hcur
    obtain ⟨h1, h2⟩ := hl cur hcur
    exact ⟨Nat.lt_of_lt_of_le h1 hk.1, by rw [hk.2.2.1 cur h1, h2, hs]⟩
  · rw [h] at hcur
    cases hcur

/-- A step from a graph step that keeps the blocks below `n`. -/
theorem fstep_mk (n : Nat) (f f' : FunctionCompiler) (P : BlockId → Prop)
    (hn : n ≤ f.graph_.blocks.length) (hg : GStep P f.graph_ f'.graph_)
    (hP : ∀ b, b < n → P b) (hl : LoopOk f') : FrameStep n f f' :=
  ⟨hn, hg.2.k_mono hP, hg.1, hl⟩

/-- A step that keeps every block, the loop stack, and the current block or
makes it null. -/
theorem fstep_same (f f' : FunctionCompiler) (hok : FrameOk f)
    (hg : GStep (fun _ => True) f.graph_ f'.graph_) (hs : f'.loopStack_ = f.loopStack_)
    (hc : f'.curBlock_ = f.curBlock_ ∨ f'.curBlock_ = none) :
    FrameStep f.graph_.blocks.length f f' :=
  fstep_mk _ f f' _ (Nat.le_refl _) hg (fun _ _ => trivial) (loopOk_same hok.2 hg.2 hs hc)

/-- A step that keeps every block and the loop stack and makes a held block of
the right loop depth current. -/
theorem fstep_switch (n : Nat) (f f' : FunctionCompiler) (E : BlockId)
    (hn : n ≤ f.graph_.blocks.length) (hg : GStep (fun _ => True) f.graph_ f'.graph_)
    (hs : f'.loopStack_ = f.loopStack_) (hE : HeldAt f E f.loopStack_.length)
    (hc : f'.curBlock_ = some E) : FrameStep n f f' := by
  refine fstep_mk n f f' _ hn hg (fun _ _ => trivial) ?_
  intro cur hcur
  rw [hc] at hcur
  simp only [Option.some.injEq] at hcur
  subst hcur
  have h := heldAt_keeps hE hg.2
  exact ⟨h.1, by rw [h.2, hs]⟩

theorem frame_advance (f : FunctionCompiler) (n : Nat) (hok : FrameOk f) :
    FrameStep f.graph_.blocks.length f (f.advance n) :=
  ⟨Nat.le_refl _, Keeps.k_refl _ _, hok⟩

theorem gstep_emit (f : FunctionCompiler) (op : MOpcode) (ops : List (Option DefId))
    (hg : GOk f.graph_) : GStep (fun _ => True) f.graph_ (f.emit op ops).1.graph_ := by
  unfold emit
  split
  · exact GStep.g_refl _ hg
  · exact gstep_add _ _ _ _ _ hg

theorem frame_emit (f : FunctionCompiler) (op : MOpcode) (ops : List (Option DefId))
    (hok : FrameOk f) : FrameStep f.graph_.blocks.length f (f.emit op ops).1 :=
  fstep_same f _ hok (gstep_emit f op ops hok.1) (loopStack_of_bk (emit_quiet f op ops).1)
    (Or.inl (emit_quiet f op ops).2)

theorem frame_assign (f : FunctionCompiler) (slot : Nat) (d : Option DefId) (hok : FrameOk f) :
    FrameStep f.graph_.blocks.length f (f.assign slot d) := by
  refine fstep_same f _ hok ?_ (loopStack_of_bk (assign_quiet f slot d).1)
    (Or.inl (assign_quiet f slot d).2)
  unfold assign
  split
  · exact GStep.g_refl _ hok.1
  · exact gstep_setSlot _ _ _ _ _ hok.1

theorem frame_startCallArgs (f : FunctionCompiler) (call : Call) (hok : FrameOk f) :
    FrameStep f.graph_.blocks.length f (f.startCallArgs call).1 := by
  refine fstep_same f _ hok ?_ (loopStack_of_bk (startCallArgs_quiet f call).1)
    (Or.inl (startCallArgs_quiet f call).2)
  unfold startCallArgs
  split <;> exact GStep.g_refl _ hok.1

theorem frame_passArg (abi : ABIArgGenerator) (f : FunctionCompiler) (d : Option DefId)
    (t : MIRType) (call : Call) (hok : FrameOk f) :
    FrameStep f.graph_.blocks.length f (passArg abi f d t call).1 := by
  refine fstep_same f _ hok ?_ (loopStack_of_bk (passArg_quiet abi f d t call).1)
    (Or.inl (passArg_quiet abi f d t call).2)
  unfold passArg
  split
  · exact GStep.g_refl _ hok.1
  · dsimp only
    split
    · exact gstep_add _ _ _ _ _ hok.1
    · exact GStep.g_refl _ hok.1

theorem gstep_incrementOffsets (l : List DefId) (inc : Nat) (g : MIRGraph) (hg : GOk g) :
    GStep (fun _ => True) g (l.foldl (fun g d => incrementOffset g d inc) g) := by
  refine gstep_foldl _ _ l (fun g a _ hg => ?_) g hg
  unfold incrementOffset
  refine gstep_modifyDef _ _ _ _ (fun x => ?_) hg
  split <;> rfl

theorem frame_finishCallArgs (abi : ABIArgGenerator) (f : FunctionCompiler) (call : Call)
    (hok : FrameOk f) : FrameStep f.graph_.blocks.length f (finishCallArgs abi f call).1 := by
  refine fstep_same f _ hok ?_ (loopStack_of_bk (finishCallArgs_quiet abi f call).1)
    (Or.inl (finishCallArgs_quiet abi f call).2)
  unfold finishCallArgs
  split
  · exact GStep.g_refl _ hok.1
  · dsimp only
    split
    · exact gstep_incrementOffsets _ _ _ hok.1
    · exact GStep.g_refl _ hok.1

theorem frame_callPrivate (f : FunctionCompiler) (callee : Callee) (call : Call)
    (hok : FrameOk f) : FrameStep f.graph_.blocks.length f (f.callPrivate callee call).1 :=
  frame_emit f _ _ hok

theorem frame_funcPtrCall (f : FunctionCompiler) (m g : Nat) (index : Option DefId) (call : Call)
    (hok : FrameOk f) : FrameStep f.graph_.blocks.length f (f.funcPtrCall m g index call).1 := by
  unfold funcPtrCall
  split
  · exact fstep_refl f hok
  · have D1 := frame_emit f (.constant .Int32 m) [] hok
    have D2 := frame_emit _ (.op 0) [index, (f.emit (.constant .Int32 m) []).2] (fstep_ok D1)
    have D3 := frame_emit _ (.loadFuncPtr g)
      [((f.emit (.constant .Int32 m) []).1.emit (.op 0)
        [index, (f.emit (.constant .Int32 m) []).2]).2] (fstep_ok D2)
    exact fstep_then D1 (fstep_then D2 (fstep_then D3 (frame_callPrivate _ _ _ (fstep_ok D3))))

theorem frame_ffiCall (f : FunctionCompiler) (g : Nat) (call : Call) (hok : FrameOk f) :
    FrameStep f.graph_.blocks.length f (f.ffiCall g call).1 := by
  unfold ffiCall
  split
  · exact fstep_refl f hok
  · have D1 := frame_emit f (.loadFFIFunc g) [] hok
    exact fstep_then D1 (frame_callPrivate _ _ _ (fstep_ok D1))

theorem frame_emitDirectCall (kind : CallKind) (fin : FunctionCompiler × Call)
    (hok : FrameOk fin.1) :
    FrameStep fin.1.graph_.blocks.length fin.1 (emitDirectCall kind fin).1 := by
  cases kind with
  | Internal i => exact frame_callPrivate _ _ _ hok
  | FFI g => exact frame_ffiCall _ _ _ hok
  | MathBuiltin b => exact frame_callPrivate _ _ _ hok

theorem frame_returnVoid (f : FunctionCompiler) (hok : FrameOk f) :
    FrameStep f.graph_.blocks.length f f.returnVoid := by
  unfold returnVoid
  split
  · exact fstep_refl f hok
  · exact fstep_same f _ hok (gstep_endBlock _ _ _ _ hok.1) rfl (Or.inr rfl)

theorem frame_returnExpr (f : FunctionCompiler) (e : Option DefId) (hok : FrameOk f) :
    FrameStep f.graph_.blocks.length f (f.returnExpr e) := by
  unfold returnExpr
  split
  · exact fstep_refl f hok
  · exact fstep_same f _ hok (gstep_endBlock _ _ _ _ hok.1) rfl (Or.inr rfl)

theorem frame_addBreakOrContinue (f : FunctionCompiler) (key : Nat) (sel : MapSel)
    (hok : FrameOk f) : FrameStep f.graph_.blocks.length f (f.addBreakOrContinue key sel) := by
  cases hc : f.curBlock_ with
  | none =>
    rw [addBreakOrContinue_dead f hc]
    exact fstep_refl f hok
  | some cur =>
    have hg : (f.addBreakOrContinue key sel).graph_ = f.graph_ := by
      unfold addBreakOrContinue
      rw [hc]
      cases sel <;> rfl
    have hs : (f.addBreakOrContinue key sel).loopStack_ = f.loopStack_ := by
      unfold addBreakOrContinue
      rw [hc]
      cases sel <;> rfl
    have hn : (f.addBreakOrContinue key sel).curBlock_ = none := by
      unfold addBreakOrContinue
      rw [hc]
    exact fstep_same f _ hok (by rw [hg]; exact GStep.g_refl _ hok.1) hs (Or.inr hn)

theorem frame_addBreak (f f' : FunctionCompiler) (l : Option Nat) (hok : FrameOk f)
    (h : f.addBreak l = some f') : FrameStep f.graph_.blocks.length f f' := by
  unfold addBreak at h
  cases l with
  | some labelId =>
    simp only [Option.some.injEq] at h
    subst h
    exact frame_addBreakOrContinue f _ _ hok
  | none =>
    dsimp only at h
    split at h
    · cases h
    · simp only [Option.some.injEq] at h
      subst h
      exact frame_addBreakOrContinue f _ _ hok

theorem frame_addContinue (f f' : FunctionCompiler) (l : Option Nat) (hok : FrameOk f)
    (h : f.addContinue l = some f') : FrameStep f.graph_.blocks.length f f' := by
  unfold addContinue at h
  cases l with
  | some labelId =>
    simp only [Option.some.injEq] at h
    subst h
    exact frame_addBreakOrContinue f _ _ hok
  | none =>
    dsimp only at h
    split at h
    · cases h
    · simp only [Option.some.injEq] at h
      subst h
      exact frame_addBreakOrContinue f _ _ hok

theorem frame_pushPhiInput (f : FunctionCompiler) (d : Option DefId) (hok : FrameOk f) :
    FrameStep f.graph_.blocks.length f (f.pushPhiInput d) := by
  unfold pushPhiInput
  split
  · exact fstep_refl f hok
  · exact fstep_same f _ hok (gstep_modifyBlock _ _ _ _ (fun _ => ⟨rfl, rfl, rfl⟩) hok.1) rfl
      (Or.inl rfl)

theorem frame_popPhiOutput (f : FunctionCompiler) (hok : FrameOk f) :
    FrameStep f.graph_.blocks.length f f.popPhiOutput.1 := by
  unfold popPhiOutput
  split
  · exact fstep_refl f hok
  · exact fstep_same f _ hok (gstep_modifyBlock _ _ _ _ (fun _ => ⟨rfl, rfl, rfl⟩) hok.1) rfl
      (Or.inl rfl)

theorem keeps_depth {P : BlockId → Prop} {g g' : MIRGraph} (hk : Keeps P g g') {N : BlockId}
    {d : Nat} (h : N < g.blocks.length ∧ (g.block N).loopDepth = d) :
    N < g'.blocks.length ∧ (g'.block N).loopDepth = d :=
  ⟨Nat.lt_of_lt_of_le h.1 hk.1, by rw [hk.2.2.1 N h.1]; exact h.2⟩

/-- A step whose current block is null or a block of the right loop depth. -/
theorem fstep_cur (n : Nat) (f f' : FunctionCompiler) (P : BlockId → Prop) (N : BlockId)
    (hn : n ≤ f.graph_.blocks.length) (hg : GStep P f.graph_ f'.graph_)
    (hP : ∀ b, b < n → P b)
    (hN : N < f'.graph_.blocks.length ∧ (f'.graph_.block N).loopDepth = f'.loopStack_.length)
    (hc : f'.curBlock_ = some N) : FrameStep n f f' := by
  refine fstep_mk n f f' P hn hg hP ?_
  intro cur hcur
  rw [hc] at hcur
  simp only [Option.some.injEq] at hcur
  subst hcur
  exact hN

theorem newBlock_frame (f : FunctionCompiler) (p : BlockId) (d : Nat) (hg : GOk f.graph_) :
    GStep (fun _ => True) f.graph_ (f.newBlockWithDepth (some p) d).1.graph_ ∧
    (f.newBlockWithDepth (some p) d).2 = f.graph_.blocks.length ∧
    (f.newBlockWithDepth (some p) d).1.graph_.blocks.length = f.graph_.blocks.length + 1 ∧
    (f.graph_.blocks.length < (f.newBlockWithDepth (some p) d).1.graph_.blocks.length ∧
      ((f.newBlockWithDepth (some p) d).1.graph_.block f.graph_.blocks.length).loopDepth = d) := by
  obtain ⟨n1, n2, n3, n4⟩ := newBlockWithDepth_spec f (some p) d
  refine ⟨gstep_newBlock _ _ _ _ _ _ hg, n1, n2, ?_, (preds_newBlock f p d).2⟩
  rw [n2]
  exact Nat.lt_succ_self _

theorem frame_branchAndStartThen (f : FunctionCompiler) (cond : Option DefId) (hok : FrameOk f) :
    FrameStep f.graph_.blocks.length f (f.branchAndStartThen cond none none).1 ∧
    (∀ E, (f.branchAndStartThen cond none none).2.2 = some E →
      f.graph_.blocks.length ≤ E ∧
      HeldAt (f.branchAndStartThen cond none none).1 E f.loopStack_.length) := by
  cases hc : f.curBlock_ with
  | none =>
    rw [branchAndStartThen_dead f cond hc]
    exact ⟨fstep_refl f hok, fun E h => by cases h⟩
  | some cur =>
    rw [branchAndStartThen_live f cond cur hc]
    obtain ⟨a1, a2, a3, a4⟩ := newBlock_frame f cur f.loopStack_.length hok.1
    obtain ⟨b1, b2, b3, b4⟩ := newBlock_frame (f.newBlock (some cur)).1 cur f.loopStack_.length
      a1.1
    have hT : (f.newBlock (some cur)).2 = f.graph_.blocks.length := a2
    have hE : ((f.newBlock (some cur)).1.newBlock (some cur)).2 = f.graph_.blocks.length + 1 :=
      b2.trans a3
    have g3 := gstep_endBlock (fun _ => True) _ cur
      (.test cond (f.newBlock (some cur)).2 ((f.newBlock (some cur)).1.newBlock (some cur)).2)
      b1.1
    have g4 := gstep_moveBlockToEnd (fun _ => True) _ (f.newBlock (some cur)).2 g3.1
    have k34 := g3.g_trans g4
    have kT := keeps_depth (b1.g_trans k34).2 a4
    have kE := keeps_depth k34.2 b4
    refine ⟨fstep_cur _ f _ _ f.graph_.blocks.length (Nat.le_refl _)
      (a1.g_trans (b1.g_trans k34)) (fun _ _ => trivial) kT (by rw [← hT]), ?_⟩
    intro E hEe
    simp only [Option.some.injEq] at hEe
    rw [hE] at hEe
    subst hEe
    refine ⟨Nat.le_succ _, ?_⟩
    have a3' : (f.newBlock (some cur)).1.graph_.blocks.length = f.graph_.blocks.length + 1 := a3
    rw [a3'] at kE
    exact kE

theorem frame_switchToElse (n : Nat) (f : FunctionCompiler) (o : Option BlockId)
    (hok : FrameOk f) (hn : n ≤ f.graph_.blocks.length)
    (hE : ∀ E, o = some E → HeldAt f E f.loopStack_.length) :
    FrameStep n f (f.switchToElse o) := by
  cases o with
  | none => exact fstep_weaken (fstep_refl f hok) hn
  | some E =>
    exact fstep_switch n f _ E hn (gstep_moveBlockToEnd _ _ _ hok.1) rfl (hE E rfl) rfl

theorem gstep_joinIf (thenBlocks : BlockVector) (j : BlockId) (g : MIRGraph) (hg : GOk g) :
    GStep (fun c => c ≠ j) g (thenBlocks.foldl
      (fun g t => MBasicBlock.addPredecessor (g.endBlock t (.goto j)) j t) g) :=
  gstep_foldl _ _ thenBlocks (fun g t _ hg =>
    (gstep_endBlock _ g t (.goto j) hg).g_trans
      (gstep_addPredecessor _ j t (gstep_endBlock (fun c => c ≠ j) g t (.goto j) hg).1)) g hg

theorem frame_joinIf (n : Nat) (f : FunctionCompiler) (thenBlocks : BlockVector)
    (o : Option BlockId) (hok : FrameOk f) (hn : n ≤ f.graph_.blocks.length)
    (hE : ∀ E, o = some E → n ≤ E ∧ HeldAt f E f.loopStack_.length) :
    FrameStep n f (f.joinIf thenBlocks o) := by
  cases o with
  | none => exact fstep_weaken (fstep_refl f hok) hn
  | some E =>
    obtain ⟨h1, h2⟩ := hE E rfl
    have g1 := gstep_joinIf thenBlocks E f.graph_ hok.1
    have g2 := g1.g_trans (gstep_moveBlockToEnd _ _ E g1.1)
    exact fstep_cur n f (f.joinIf thenBlocks (some E)) _ E hn g2
      (fun b hb => Nat.ne_of_lt (Nat.lt_of_lt_of_le hb h1)) (keeps_depth g2.2 h2) rfl

theorem gstep_joinIfElseStep (join : BlockId) (p : Bool) (g : MIRGraph) (x : Nat × BlockId)
    (hg : GOk g) : GStep (fun c => c ≠ join) g (joinIfElseStep join p g x) := by
  unfold joinIfElseStep
  dsimp only
  have g1 := gstep_endBlock (fun c => c ≠ join) g x.2 (.goto join) hg
  split
  · exact g1.g_trans (gstep_addPredecessor _ join x.2 g1.1)
  · exact g1

theorem frame_joinIfElse (f : FunctionCompiler) (blocks : BlockVector) (hok : FrameOk f) :
    FrameStep f.graph_.blocks.length f (f.joinIfElse blocks) := by
  cases hc : f.curBlock_ with
  | none =>
    cases blocks with
    | nil =>
      rw [joinIfElse_dead_empty f hc]
      exact fstep_refl f hok
    | cons t0 rest =>
      obtain ⟨n1, n2, n3, n4⟩ := newBlockWithDepth_spec f (some t0) f.loopStack_.length
      have hj : f.joinIfElse (t0 :: rest) =
          { (f.newBlockWithDepth (some t0) f.loopStack_.length).1 with
            graph_ := ((t0 :: rest).enum).foldl (joinIfElseStep f.graph_.blocks.length false)
              (f.newBlockWithDepth (some t0) f.loopStack_.length).1.graph_,
            curBlock_ := some f.graph_.blocks.length } := by
        simp only [joinIfElse, hc, newBlock, n1]
      rw [hj]
      obtain ⟨a1, a2, a3, a4⟩ := newBlock_frame f t0 f.loopStack_.length hok.1
      have g2 := gstep_foldl (fun c => c ≠ f.graph_.blocks.length)
        (joinIfElseStep f.graph_.blocks.length false) ((t0 :: rest).enum)
        (fun g x _ hg => gstep_joinIfElseStep _ _ g x hg) _ a1.1
      exact fstep_cur _ f _ (fun c => c ≠ f.graph_.blocks.length) f.graph_.blocks.length
        (Nat.le_refl _) ((a1.g_mono (fun _ _ => trivial)).g_trans g2)
        (fun b hb => Nat.ne_of_lt hb) (keeps_depth g2.2 a4) rfl
  | some cur =>
    obtain ⟨n1, n2, n3, n4⟩ := newBlockWithDepth_spec f (some cur) f.loopStack_.length
    have hj : f.joinIfElse blocks =
        { (f.newBlockWithDepth (some cur) f.loopStack_.length).1 with
          graph_ := (blocks.enum).foldl (joinIfElseStep f.graph_.blocks.length true)
            ((f.newBlockWithDepth (some cur) f.loopStack_.length).1.graph_.endBlock cur
              (.goto f.graph_.blocks.length)),
          curBlock_ := some f.graph_.blocks.length } := by
      simp only [joinIfElse, hc, newBlock, n1]
    rw [hj]
    obtain ⟨a1, a2, a3, a4⟩ := newBlock_frame f cur f.loopStack_.length hok.1
    have g1 := gstep_endBlock (fun c => c ≠ f.graph_.blocks.length) _ cur
      (.goto f.graph_.blocks.length) a1.1
    have g2 := gstep_foldl (fun c => c ≠ f.graph_.blocks.length)
      (joinIfElseStep f.graph_.blocks.length true) (blocks.enum)
      (fun g x _ hg => gstep_joinIfElseStep _ _ g x hg) _ g1.1
    exact fstep_cur _ f _ (fun c => c ≠ f.graph_.blocks.length) f.graph_.blocks.length
      (Nat.le_refl _) ((a1.g_mono (fun _ _ => trivial)).g_trans (g1.g_trans g2))
      (fun b hb => Nat.ne_of_lt hb) (keeps_depth (g1.g_trans g2).2 a4) rfl

/-! ### Closing a loop: the graph -/

theorem attrs_modifyBlock (g : MIRGraph) (b c : BlockId) (fn : MBasicBlock → MBasicBlock)
    (h : ∀ blk, (fn blk).predecessors = blk.predecessors ∧ (fn blk).phis = blk.phis ∧
      (fn blk).loopDepth = blk.loopDepth) :
    ((g.modifyBlock b fn).block c).predecessors = (g.block c).predecessors ∧
    ((g.modifyBlock b fn).block c).phis = (g.block c).phis ∧
    ((g.modifyBlock b fn).block c).loopDepth = (g.block c).loopDepth := by
  rw [block_modifyBlock]
  split
  · exact h _
  · exact ⟨rfl, rfl, rfl⟩

theorem setBackedgeSlot_spec (b pred : BlockId) (g : MIRGraph) (x : Nat × DefId) :
    (setBackedgeSlot b pred g x).blocks.length = g.blocks.length ∧
    (setBackedgeSlot b pred g x).defs.length = g.defs.length ∧
    (∀ c, ((setBackedgeSlot b pred g x).block c).predecessors = (g.block c).predecessors ∧
      ((setBackedgeSlot b pred g x).block c).phis = (g.block c).phis ∧
      ((setBackedgeSlot b pred g x).block c).loopDepth = (g.block c).loopDepth) ∧
    (∀ d, d < g.defs.length → ((setBackedgeSlot b pred g x).getDef d).operands.length =
      (g.getDef d).operands.length + if x.2 = d then 1 else 0) := by
  unfold setBackedgeSlot
  dsimp only
  refine ⟨?_, ?_, fun c => ?_, fun d hd => ?_⟩
  · simp [MIRGraph.setSlot, MIRGraph.modifyBlock, MIRGraph.modifyDef, updateAt_length]
  · simp [MIRGraph.setSlot, MIRGraph.modifyBlock, MIRGraph.modifyDef, updateAt_length]
  · exact attrs_modifyBlock _ b c _ (fun _ => ⟨rfl, rfl, rfl⟩)
  · show ((g.modifyDef x.2 _).getDef d).operands.length = _
    rw [getDef_modifyDef]
    by_cases h : x.2 = d
    · rw [if_pos ⟨h, hd⟩, if_pos h]
      simp
    · rw [if_neg (fun hh => h hh.1), if_neg h]
      rfl

theorem setBackedgeFold_spec (b pred : BlockId) (L : List (Nat × DefId)) :
    ∀ g : MIRGraph,
      (L.foldl (setBackedgeSlot b pred) g).blocks.length = g.blocks.length ∧
      (L.foldl (setBackedgeSlot b pred) g).defs.length = g.defs.length ∧
      (∀ c, ((L.foldl (setBackedgeSlot b pred) g).block c).predecessors =
          (g.block c).predecessors ∧
        ((L.foldl (setBackedgeSlot b pred) g).block c).phis = (g.block c).phis ∧
        ((L.foldl (setBackedgeSlot b pred) g).block c).loopDepth = (g.block c).loopDepth) ∧
      (∀ d, d < g.defs.length →
        ((L.foldl (setBackedgeSlot b pred) g).getDef d).operands.length =
          (g.getDef d).operands.length + (L.map (fun x => x.2)).count d) := by
  induction L with
  | nil => intro g; exact ⟨rfl, rfl, fun _ => ⟨rfl, rfl, rfl⟩, fun _ _ => rfl⟩
  | cons x xs ih =>
    intro g
    obtain ⟨s1, s2, s3, s4⟩ := setBackedgeSlot_spec b pred g x
    obtain ⟨i1, i2, i3, i4⟩ := ih (setBackedgeSlot b pred g x)
    rw [List.foldl_cons]
    refine ⟨i1.trans s1, i2.trans s2, fun c => ?_, fun d hd => ?_⟩
    · obtain ⟨a1, a2, a3⟩ := i3 c
      obtain ⟨b1, b2, b3⟩ := s3 c
      exact ⟨a1.trans b1, a2.trans b2, a3.trans b3⟩
    · rw [i4 d (by rw [s2]; exact hd), s4 d hd, List.map_cons, List.count_cons]
      by_cases h : x.2 = d
      · simp [h]
        omega
      · have h2 : (x.2 == d) = false := by simpa using h
        simp [h, h2]

/-- The graph after `setBackedgeAsmJS`: no block was added, the header got
the backedge block as its last predecessor, no phi list changed, and each
definition got one operand for each time it is in the phi list of the
header. -/
theorem setBackedgeAsmJS_spec (g : MIRGraph) (b pred : BlockId) :
    (MBasicBlock.setBackedgeAsmJS g b pred).blocks.length = g.blocks.length ∧
    (MBasicBlock.setBackedgeAsmJS g b pred).defs.length = g.defs.length ∧
    (∀ c, ((MBasicBlock.setBackedgeAsmJS g b pred).block c).predecessors =
        (if b = c ∧ c < g.blocks.length then (g.block c).predecessors ++ [pred]
          else (g.block c).predecessors) ∧
      ((MBasicBlock.setBackedgeAsmJS g b pred).block c).phis = (g.block c).phis ∧
      ((MBasicBlock.setBackedgeAsmJS g b pred).block c).loopDepth = (g.block c).loopDepth) ∧
    (∀ d, d < g.defs.length →
      ((MBasicBlock.setBackedgeAsmJS g b pred).getDef d).operands.length =
        (g.getDef d).operands.length + (g.block b).phis.count d) := by
  obtain ⟨i1, i2, i3, i4⟩ := setBackedgeFold_spec b pred ((g.block b).phis.enum) g
  unfold MBasicBlock.setBackedgeAsmJS
  dsimp only
  refine ⟨?_, i2, fun c => ?_, fun d hd => ?_⟩
  · rw [blocks_length_modifyBlock, i1]
  · rw [block_modifyBlock, i1]
    obtain ⟨a1, a2, a3⟩ := i3 c
    by_cases h : b = c ∧ c < g.blocks.length
    · rw [if_pos h, if_pos h]
      exact ⟨by rw [← a1], a2, a3⟩
    · rw [if_neg h, if_neg h]
      exact ⟨a1, a2, a3⟩
  · have h := i4 d hd
    rw [enum_map_snd] at h
    exact h

theorem gstep_setBackedgeAsmJS (g : MIRGraph) (b pred : BlockId) (hg : GOk g) :
    GStep (fun c => c ≠ b) g (MBasicBlock.setBackedgeAsmJS g b pred) := by
  obtain ⟨s1, s2, s3, s4⟩ := setBackedgeAsmJS_spec g b pred
  refine gstep_touch b g _ s1 (Nat.le_of_eq s2.symm) (fun c => (s3 c).2.2)
    (fun c hc => ⟨?_, (s3 c).2.1⟩) (fun _ => ?_) (fun p hp => Or.inl ?_) (fun d hd hn => ?_) hg
  · rw [(s3 c).1, if_neg (fun h => hc h.1.symm)]
  · rw [(s3 b).1]
    split
    · simp
    · assumption
  · rw [(s3 b).2.1] at hp
    exact hp
  · rw [s4 d hd, List.count_eq_zero_of_not_mem hn]
    rfl

theorem gstep_flag (P : BlockId → Prop) (g : MIRGraph) (le : BlockId) (hg : GOk g) :
    GStep P g (flagRedundantPhis g le) := by
  unfold flagRedundantPhis
  refine gstep_foldl P _ _ (fun g p _ hg => ?_) g hg
  dsimp only
  split
  · exact gstep_modifyDef P g p _ (fun _ => rfl) hg
  · exact GStep.g_refl P hg

theorem gstep_fixup (P : BlockId → Prop) (g : MIRGraph) (b : BlockId) (hg : GOk g) :
    GStep P g (fixupRedundantPhis g b) := by
  unfold fixupRedundantPhis
  exact gstep_modifyBlock P g b _ (fun _ => ⟨rfl, rfl, rfl⟩) hg

theorem gstep_fixupMap (P : BlockId → Prop) (g : MIRGraph) (le : BlockId) (m : BlockMap)
    (hg : GOk g) : GStep P g (fixupRedundantPhisMap g le m) := by
  unfold fixupRedundantPhisMap
  refine gstep_foldl P _ m (fun g e _ hg => ?_) g hg
  refine gstep_foldl P _ e.2 (fun g b _ hg => ?_) g hg
  dsimp only
  split
  · exact gstep_fixup P g b hg
  · exact GStep.g_refl P hg

theorem gstep_discardPhi (g : MIRGraph) (le : BlockId) (p : DefId) (hg : GOk g) :
    GStep (fun c => c ≠ le) g (discardPhi g le p) := by
  unfold discardPhi
  refine gstep_touch le g _ (blocks_length_modifyBlock _ _ _) (Nat.le_refl _) (fun c => ?_)
    (fun c hc => ?_) (fun h => ?_) (fun q hq => Or.inl ?_) (fun _ _ _ => rfl) hg
  · rw [block_modifyBlock]
    split <;> rfl
  · rw [block_modifyBlock, if_neg (fun h => hc h.1.symm)]
    exact ⟨rfl, rfl⟩
  · rw [block_modifyBlock]
    split
    · exact h
    · exact h
  · rw [block_modifyBlock] at hq
    split at hq
    · exact (List.mem_filter.1 hq).1
    · exact hq

theorem gstep_discardRedundant (g : MIRGraph) (le : BlockId) (hg : GOk g) :
    GStep (fun c => c ≠ le) g (discardRedundantPhis g le) := by
  unfold discardRedundantPhis
  refine gstep_foldl _ _ _ (fun g p _ hg => ?_) g hg
  dsimp only
  split
  · have h1 := gstep_justReplace (fun c => c ≠ le) g p ((g.getDef p).operands.getD 0 none) hg
    have h2 := gstep_discardPhi _ le p h1.1
    exact (h1.g_trans h2).g_trans (gstep_addPhiToFreeList _ _ p h2.1)
  · exact GStep.g_refl _ hg

theorem gstep_setLoopBackedge (f : FunctionCompiler) (le be : BlockId)
    (afterLoop : Option BlockId) (hg : GOk f.graph_) :
    GStep (fun c => c ≠ le) f.graph_ (f.setLoopBackedge le be afterLoop).graph_ := by
  unfold setLoopBackedge
  dsimp only
  have s0 := gstep_setBackedgeAsmJS f.graph_ le be hg
  have s1 := s0.g_trans (gstep_flag _ _ le s0.1)
  have s2 : GStep (fun c => c ≠ le) f.graph_
      (match afterLoop with
        | some a => fixupRedundantPhis
            (flagRedundantPhis (MBasicBlock.setBackedgeAsmJS f.graph_ le be) le) a
        | none => flagRedundantPhis (MBasicBlock.setBackedgeAsmJS f.graph_ le be) le) := by
    cases afterLoop with
    | none => exact s1
    | some a => exact s1.g_trans (gstep_fixup _ _ a s1.1)
  have s3 := s2.g_trans (gstep_fixupMap _ _ le f.labeledContinues_ s2.1)
  have s4 := s3.g_trans (gstep_fixupMap _ _ le f.labeledBreaks_ s3.1)
  have s5 := s4.g_trans (gstep_fixupMap _ _ le f.unlabeledContinues_ s4.1)
  have s6 := s5.g_trans (gstep_fixupMap _ _ le f.unlabeledBreaks_ s5.1)
  exact s6.g_trans (gstep_discardRedundant _ le s6.1)

/-! ### Loops, pending branches and switches -/

theorem startPendingLoop_dead (f : FunctionCompiler) (pos : Nat) (hc : f.curBlock_ = none) :
    f.startPendingLoop pos =
      ({ f with loopStack_ := f.loopStack_ ++ [pos],
                breakableStack_ := f.breakableStack_ ++ [pos] }, none) := by
  unfold startPendingLoop
  simp only [hc]

theorem startPendingLoop_live (f : FunctionCompiler) (pos : Nat) (cur : BlockId)
    (hc : f.curBlock_ = some cur) :
    f.startPendingLoop pos =
      ({ f with
          loopStack_ := f.loopStack_ ++ [pos], breakableStack_ := f.breakableStack_ ++ [pos],
          graph_ := (((MBasicBlock.NewAsmJS f.graph_ f.numLocals (some cur)
              .PENDING_LOOP_HEADER).1.addBlock
            { (MBasicBlock.NewAsmJS f.graph_ f.numLocals (some cur) .PENDING_LOOP_HEADER).2 with
              loopDepth := (f.loopStack_ ++ [pos]).length }).1).endBlock cur
            (.goto f.graph_.blocks.length),
          curBlock_ := some f.graph_.blocks.length }, some f.graph_.blocks.length) := by
  unfold startPendingLoop
  simp only [hc]
  rfl

/-- The header that `startPendingLoop` creates in live code: it is the new
block, its only predecessor is the block that was current, its phis are
distinct new definitions with one operand each, and its loop depth is the
number of open loops, the new one included. -/
theorem startPendingLoop_header (f : FunctionCompiler) (pos : Nat) (cur : BlockId)
    (hc : f.curBlock_ = some cur) :
    (f.startPendingLoop pos).2 = some f.graph_.blocks.length ∧
    (f.startPendingLoop pos).1.curBlock_ = some f.graph_.blocks.length ∧
    (f.startPendingLoop pos).1.graph_.blocks.length = f.graph_.blocks.length + 1 ∧
    ((f.startPendingLoop pos).1.graph_.block f.graph_.blocks.length).predecessors = [cur] ∧
    ((f.startPendingLoop pos).1.graph_.block f.graph_.blocks.length).phis.Nodup ∧
    (∀ p ∈ ((f.startPendingLoop pos).1.graph_.block f.graph_.blocks.length).phis,
      ((f.startPendingLoop pos).1.graph_.getDef p).operands.length = 1) ∧
    ((f.startPendingLoop pos).1.graph_.block f.graph_.blocks.length).loopDepth =
      f.loopStack_.length + 1 := by
  rw [startPendingLoop_live f pos cur hc]
  obtain ⟨a1, a2, a3, a4, a5, a6, a7⟩ :=
    NewAsmJS_attrs f.graph_ f.numLocals cur .PENDING_LOOP_HEADER
  have hb : ∀ (ctl : MControl),
      ((((MBasicBlock.NewAsmJS f.graph_ f.numLocals (some cur)
          .PENDING_LOOP_HEADER).1.addBlock
        { (MBasicBlock.NewAsmJS f.graph_ f.numLocals (some cur) .PENDING_LOOP_HEADER).2 with
          loopDepth := (f.loopStack_ ++ [pos]).length }).1).endBlock cur ctl).block
            f.graph_.blocks.length =
        { { (MBasicBlock.NewAsmJS f.graph_ f.numLocals (some cur) .PENDING_LOOP_HEADER).2 with
            loopDepth := (f.loopStack_ ++ [pos]).length } with
          lastIns := if cur = f.graph_.blocks.length then some ctl
            else (MBasicBlock.NewAsmJS f.graph_ f.numLocals (some cur)
              .PENDING_LOOP_HEADER).2.lastIns } := by
    intro ctl
    rw [MIRGraph.endBlock, block_modifyBlock, block_addBlock, a2, if_neg (Nat.lt_irrefl _),
      if_pos rfl]
    split <;> rename_i h
    · rw [if_pos h.1]
    · by_cases h2 : cur = f.graph_.blocks.length
      · exfalso
        apply h
        refine ⟨h2, ?_⟩
        show _ < (MIRGraph.addBlock _ _).1.blocks.length
        simp [MIRGraph.addBlock, a2]
      · rw [if_neg h2]
  refine ⟨rfl, rfl, ?_, ?_, ?_, ?_, ?_⟩
  · show (MIRGraph.endBlock _ _ _).blocks.length = _
    rw [blocks_length_endBlock]
    simp [MIRGraph.addBlock, a2]
  · show (MIRGraph.block (MIRGraph.endBlock _ _ _) _).predecessors = _
    rw [hb]
    exact a1
  · show (MIRGraph.block (MIRGraph.endBlock _ _ _) _).phis.Nodup
    rw [hb]
    exact a5
  · intro p hp
    have hp2 : p ∈ (MIRGraph.block (MIRGraph.endBlock _ _ _) _).phis := hp
    rw [hb] at hp2
    exact (a6 p hp2).2.2
  · show (MIRGraph.block (MIRGraph.endBlock _ _ _) _).loopDepth = _
    rw [hb]
    simp

theorem frame_startPendingLoop (f : FunctionCompiler) (pos : Nat) (hok : FrameOk f) :
    FrameStep f.graph_.blocks.length f (f.startPendingLoop pos).1 ∧
    (∀ H, (f.startPendingLoop pos).2 = some H → f.graph_.blocks.length ≤ H) := by
  cases hc : f.curBlock_ with
  | none =>
    rw [startPendingLoop_dead f pos hc]
    refine ⟨fstep_mk _ f _ (fun _ => True) (Nat.le_refl _) (GStep.g_refl _ hok.1)
      (fun _ _ => trivial) ?_, fun H h => by cases h⟩
    intro c hcc
    have h2 : f.curBlock_ = some c := hcc
    rw [hc] at h2
    cases h2
  | some cur =>
    obtain ⟨h1, h2, h3, h4, h5, h6, h7⟩ := startPendingLoop_header f pos cur hc
    refine ⟨?_, fun H h => ?_⟩
    · have hg : GStep (fun _ => True) f.graph_ (f.startPendingLoop pos).1.graph_ := by
        rw [startPendingLoop_live f pos cur hc]
        have g1 := gstep_newBlock (fun _ => True) f.graph_ f.numLocals cur .PENDING_LOOP_HEADER
          (f.loopStack_ ++ [pos]).length hok.1
        exact g1.g_trans (gstep_endBlock _ _ cur (.goto f.graph_.blocks.length) g1.1)
      refine fstep_cur _ f _ _ f.graph_.blocks.length (Nat.le_refl _) hg (fun _ _ => trivial)
        ⟨by rw [h3]; exact Nat.lt_succ_self _, ?_⟩ h2
      rw [h7, (startPendingLoop_fields f pos).2.2.1]
      simp
    · rw [h1] at h
      simp only [Option.some.injEq] at h
      exact Nat.le_of_eq h

theorem branchAndStartLoopBody_dead (f : FunctionCompiler) (cond : Option DefId)
    (hc : f.curBlock_ = none) : f.branchAndStartLoopBody cond = (f, none) := by
  unfold branchAndStartLoopBody
  rw [hc]

/-- Creating a block from a block, ending a block and making the new block
current. -/
theorem frame_newFrom (f : FunctionCompiler) (p b : BlockId) (ctl : MControl)
    (hok : FrameOk f) :
    FrameStep f.graph_.blocks.length f
      { (f.newBlockWithDepth (some p) f.loopStack_.length).1 with
        graph_ := (f.newBlockWithDepth (some p) f.loopStack_.length).1.graph_.endBlock b ctl,
        curBlock_ := some (f.newBlockWithDepth (some p) f.loopStack_.length).2 } := by
  obtain ⟨a1, a2, a3, a4⟩ := newBlock_frame f p f.loopStack_.length hok.1
  have g1 := gstep_endBlock (fun _ => True) _ b ctl a1.1
  exact fstep_cur _ f _ _ f.graph_.blocks.length (Nat.le_refl _) (a1.g_trans g1)
    (fun _ _ => trivial) (keeps_depth g1.2 a4) (by rw [← a2])

theorem frame_branchAndStartLoopBody (f : FunctionCompiler) (cond : Option DefId)
    (hok : FrameOk f) :
    FrameStep f.graph_.blocks.length f (f.branchAndStartLoopBody cond).1 ∧
    (∀ A, (f.branchAndStartLoopBody cond).2 = some A →
      HeldAt (f.branchAndStartLoopBody cond).1 A (f.loopStack_.length - 1) ∧
      f.graph_.blocks.length ≤ A) := by
  cases hc : f.curBlock_ with
  | none =>
    rw [branchAndStartLoopBody_dead f cond hc]
    exact ⟨fstep_refl f hok, fun A h => by cases h⟩
  | some cur =>
    obtain ⟨c1, c2⟩ := hok.2 cur hc
    obtain ⟨a1, a2, a3, a4⟩ := newBlock_frame f cur f.loopStack_.length hok.1
    unfold branchAndStartLoopBody
    rw [hc]
    dsimp only
    unfold newBlock
    split
    · exact ⟨frame_newFrom f cur cur _ hok, fun A h => by cases h⟩
    · obtain ⟨b1, b2, b3, b4⟩ := newBlock_frame
        (f.newBlockWithDepth (some cur) f.loopStack_.length).1 cur
        (((f.newBlockWithDepth (some cur) f.loopStack_.length).1.graph_.block cur).loopDepth - 1)
        a1.1
      have hcd : ((f.newBlockWithDepth (some cur) f.loopStack_.length).1.graph_.block
          cur).loopDepth = f.loopStack_.length := by
        rw [a1.2.2.2.1 cur c1, c2]
      rw [hcd] at b1 b2 b3 b4 ⊢
      have hs1 : (f.newBlockWithDepth (some cur) f.loopStack_.length).1.loopStack_ =
          f.loopStack_ := rfl
      have hs2 : ((f.newBlockWithDepth (some cur) f.loopStack_.length).1.newBlockWithDepth
          (some cur) (f.loopStack_.length - 1)).1.loopStack_ =
          (f.newBlockWithDepth (some cur) f.loopStack_.length).1.loopStack_ := rfl
      generalize f.newBlockWithDepth (some cur) f.loopStack_.length = t at *
      generalize t.1.newBlockWithDepth (some cur) (f.loopStack_.length - 1) = a at *
      have g3 := gstep_endBlock (fun _ => True) a.1.graph_ cur (.test cond t.2 a.2) b1.1
      have kT := keeps_depth (b1.g_trans g3).2 a4
      rw [← hs1, ← hs2] at kT
      refine ⟨fstep_cur _ f _ _ f.graph_.blocks.length (Nat.le_refl _)
        (a1.g_trans (b1.g_trans g3)) (fun _ _ => trivial) kT (by rw [← a2]), ?_⟩
      intro A hA
      have hA2 : some a.2 = some A := hA
      rw [b2, a3] at hA2
      cases hA2
      have k := keeps_depth g3.2 b4
      rw [a3] at k
      exact ⟨k, Nat.le_succ _⟩

theorem frame_bindStep (n : Nat) (st : FunctionCompiler × Bool) (pred : BlockId)
    (hok : FrameOk st.1) (hn : n ≤ st.1.graph_.blocks.length)
    (hflag : st.2 = true → ∀ j, st.1.curBlock_ = some j → n ≤ j) :
    FrameStep n st.1 (bindBreaksOrContinuesStep st pred).1 ∧
    (∀ j, (bindBreaksOrContinuesStep st pred).1.curBlock_ = some j → n ≤ j) ∧
    (bindBreaksOrContinuesStep st pred).2 = true := by
  obtain ⟨f, created⟩ := st
  have hbk := loopStack_of_bk (bindStep_bookkeeping (f, created) pred)
  cases created with
  | true =>
    cases hc : f.curBlock_ with
    | none =>
      have e : bindBreaksOrContinuesStep (f, true) pred = (f, true) := by
        simp only [bindBreaksOrContinuesStep, hc, if_true]
      rw [e]
      refine ⟨fstep_weaken (fstep_refl f hok) hn, fun j hj => ?_, rfl⟩
      have hj2 : f.curBlock_ = some j := hj
      rw [hc] at hj2
      cases hj2
    | some cur =>
      have hnc := hflag rfl cur hc
      rw [bindStep_created f pred cur hc]
      have g1 := gstep_endBlock (fun c => c ≠ cur) f.graph_ pred (.goto cur) hok.1
      have g2 := g1.g_trans (gstep_addPredecessor _ cur pred g1.1)
      refine ⟨fstep_cur n f _ _ cur hn g2
        (fun b hb => Nat.ne_of_lt (Nat.lt_of_lt_of_le hb hnc)) (keeps_depth g2.2 (hok.2 cur hc))
        hc, fun j hj => ?_, rfl⟩
      have hj2 : f.curBlock_ = some j := hj
      rw [hc] at hj2
      simp only [Option.some.injEq] at hj2
      rw [← hj2]
      exact hnc
  | false =>
    obtain ⟨-, s2, s3, s4, -⟩ := bindStep_first_spec f pred
    obtain ⟨a1, a2, a3, a4⟩ := newBlock_frame f pred f.loopStack_.length hok.1
    have hg : GStep (fun c => c ≠ f.graph_.blocks.length)
        (f.newBlockWithDepth (some pred) f.loopStack_.length).1.graph_
        (bindBreaksOrContinuesStep (f, false) pred).1.graph_ := by
      simp only [bindBreaksOrContinuesStep, newBlock, Bool.false_eq_true, if_false]
      have g1 := gstep_endBlock (fun c => c ≠ f.graph_.blocks.length)
        (f.newBlockWithDepth (some pred) f.loopStack_.length).1.graph_ pred
        (.goto (f.newBlockWithDepth (some pred) f.loopStack_.length).2) a1.1
      cases f.curBlock_ with
      | none => exact g1
      | some cur =>
        have g2 := gstep_endBlock (fun c => c ≠ f.graph_.blocks.length) _ cur
          (.goto (f.newBlockWithDepth (some pred) f.loopStack_.length).2) g1.1
        have g3 := gstep_addPredecessor _ (f.newBlockWithDepth (some pred) f.loopStack_.length).2
          cur g2.1
        rw [a2] at g3
        exact g1.g_trans (g2.g_trans (by rw [a2]; exact g3))
    have hk := keeps_depth hg.2 a4
    rw [← hbk] at hk
    refine ⟨fstep_cur n f _ _ f.graph_.blocks.length hn
      ((a1.g_mono (fun _ _ => trivial)).g_trans hg)
      (fun b hb => Nat.ne_of_lt (Nat.lt_of_lt_of_le hb hn)) hk s4, fun j hj => ?_, s3⟩
    rw [s4] at hj
    simp only [Option.some.injEq] at hj
    rw [← hj]
    exact hn

theorem frame_bind (n : Nat) (preds : BlockVector) :
    ∀ (f : FunctionCompiler) (created : Bool), FrameOk f → n ≤ f.graph_.blocks.length →
      (created = true → ∀ j, f.curBlock_ = some j → n ≤ j) →
      FrameStep n f (bindBreaksOrContinues f preds created).1 ∧
      ((bindBreaksOrContinues f preds created).2 = true →
        ∀ j, (bindBreaksOrContinues f preds created).1.curBlock_ = some j → n ≤ j) := by
  induction preds with
  | nil =>
    intro f created hok hn hflag
    exact ⟨fstep_weaken (fstep_refl f hok) hn, hflag⟩
  | cons p rest ih =>
    intro f created hok hn hflag
    obtain ⟨s1, s2, s3⟩ := frame_bindStep n (f, created) p hok hn hflag
    have e : bindBreaksOrContinues f (p :: rest) created =
        bindBreaksOrContinues (bindBreaksOrContinuesStep (f, created) p).1 rest
          (bindBreaksOrContinuesStep (f, created) p).2 := rfl
    rw [e]
    obtain ⟨t1, t2⟩ := ih _ _ (fstep_ok s1) (Nat.le_trans hn s1.2.1.1) (fun _ => s2)
    exact ⟨fstep_trans s1 t1 (Nat.le_refl _), t2⟩

theorem frame_setMap (n : Nat) (f : FunctionCompiler) (sel : MapSel) (m : BlockMap)
    (hok : FrameOk f) (hn : n ≤ f.graph_.blocks.length) : FrameStep n f (f.setMap sel m) := by
  obtain ⟨g1, g2, g3, g4, g5⟩ := setMap_graph f sel m
  refine fstep_weaken (fstep_same f _ hok ?_ g4 (Or.inl g2)) hn
  rw [g1]
  exact GStep.g_refl _ hok.1

theorem frame_bindUnlabeledBreaks (f : FunctionCompiler) (pos : Nat) (hok : FrameOk f) :
    FrameStep f.graph_.blocks.length f (f.bindUnlabeledBreaks pos) := by
  unfold bindUnlabeledBreaks
  cases hl : BlockMap.lookup f.unlabeledBreaks_ pos with
  | none => exact fstep_refl f hok
  | some preds =>
    dsimp only
    obtain ⟨s1, -⟩ := frame_bind f.graph_.blocks.length preds f false hok (Nat.le_refl _)
      (fun h => by cases h)
    have s2 := frame_setMap f.graph_.blocks.length (bindBreaksOrContinues f preds false).1
      .unlabeledBreaks (BlockMap.remove (bindBreaksOrContinues f preds false).1.unlabeledBreaks_ pos)
      (fstep_ok s1) s1.2.1.1
    exact fstep_trans s1 s2 (Nat.le_refl _)

theorem frame_bindLabeledStep (n : Nat) (sel : MapSel) (st : FunctionCompiler × Bool)
    (label : Nat) (hok : FrameOk st.1) (hn : n ≤ st.1.graph_.blocks.length)
    (hflag : st.2 = true → ∀ j, st.1.curBlock_ = some j → n ≤ j) :
    FrameStep n st.1 (bindLabeledStep sel st label).1 ∧
    ((bindLabeledStep sel st label).2 = true →
      ∀ j, (bindLabeledStep sel st label).1.curBlock_ = some j → n ≤ j) := by
  unfold bindLabeledStep
  cases hl : BlockMap.lookup (st.1.getMap sel) label with
  | none => exact ⟨fstep_weaken (fstep_refl _ hok) hn, hflag⟩
  | some preds =>
    dsimp only
    obtain ⟨s1, s2⟩ := frame_bind n preds st.1 st.2 hok hn hflag
    have s3 := frame_setMap n (bindBreaksOrContinues st.1 preds st.2).1 sel
      (BlockMap.remove ((bindBreaksOrContinues st.1 preds st.2).1.getMap sel) label)
      (fstep_ok s1) (Nat.le_trans hn s1.2.1.1)
    refine ⟨fstep_trans s1 s3 (Nat.le_refl _), fun h j hj => s2 h j ?_⟩
    rw [(setMap_graph _ _ _).2.1] at hj
    exact hj

theorem frame_bindLabeledFold (n : Nat) (sel : MapSel) (labels : LabelVector) :
    ∀ st : FunctionCompiler × Bool, FrameOk st.1 → n ≤ st.1.graph_.blocks.length →
      (st.2 = true → ∀ j, st.1.curBlock_ = some j → n ≤ j) →
      FrameStep n st.1 (labels.foldl (bindLabeledStep sel) st).1 := by
  induction labels with
  | nil => intro st hok hn _; exact fstep_weaken (fstep_refl _ hok) hn
  | cons l rest ih =>
    intro st hok hn hflag
    obtain ⟨s1, s2⟩ := frame_bindLabeledStep n sel st l hok hn hflag
    exact fstep_trans s1 (ih _ (fstep_ok s1) (Nat.le_trans hn s1.2.1.1) s2) (Nat.le_refl _)

theorem frame_bindLabeled (n : Nat) (f : FunctionCompiler) (l : Option LabelVector)
    (sel : MapSel) (created : Bool) (hok : FrameOk f) (hn : n ≤ f.graph_.blocks.length)
    (hflag : created = true → ∀ j, f.curBlock_ = some j → n ≤ j) :
    FrameStep n f (bindLabeledBreaksOrContinues f l sel created).1 := by
  unfold bindLabeledBreaksOrContinues
  cases l with
  | none => exact fstep_weaken (fstep_refl f hok) hn
  | some labels => exact frame_bindLabeledFold n sel labels (f, created) hok hn hflag

theorem frame_bindLabeledBreaks (f : FunctionCompiler) (l : Option LabelVector)
    (hok : FrameOk f) : FrameStep f.graph_.blocks.length f (f.bindLabeledBreaks l) :=
  frame_bindLabeled _ f l .labeledBreaks false hok (Nat.le_refl _) (fun h => by cases h)

theorem frame_bindContinues (f : FunctionCompiler) (pos : Nat) (l : Option LabelVector)
    (hok : FrameOk f) : FrameStep f.graph_.blocks.length f (f.bindContinues pos l) := by
  unfold bindContinues
  cases hl : BlockMap.lookup f.unlabeledContinues_ pos with
  | none =>
    exact frame_bindLabeled _ f l .labeledContinues false hok (Nat.le_refl _)
      (fun h => by cases h)
  | some preds =>
    dsimp only
    obtain ⟨s1, s2⟩ := frame_bind f.graph_.blocks.length preds f false hok (Nat.le_refl _)
      (fun h => by cases h)
    have s3 := frame_setMap f.graph_.blocks.length (bindBreaksOrContinues f preds false).1
      .unlabeledContinues
      (BlockMap.remove (bindBreaksOrContinues f preds false).1.unlabeledContinues_ pos)
      (fstep_ok s1) s1.2.1.1
    have s4 := fstep_trans s1 s3 (Nat.le_refl _)
    exact fstep_trans s4 (frame_bindLabeled f.graph_.blocks.length _ l .labeledContinues _
      (fstep_ok s4) s4.2.1.1 s2) (Nat.le_refl _)

theorem popLoop_eq (f f1 : FunctionCompiler) (pos : Nat) (hp : f.popLoop = some (pos, f1)) :
    f1 = { f with loopStack_ := f.loopStack_.dropLast,
                  breakableStack_ := f.breakableStack_.dropLast } ∧
    f.loopStack_.getLast? = some pos ∧ f1.loopStack_.length = f.loopStack_.length - 1 := by
  unfold popLoop at hp
  split at hp
  · cases hp
  · rename_i p hl
    simp only [Option.some.injEq, Prod.mk.injEq] at hp
    obtain ⟨h1, h2⟩ := hp
    subst h1
    refine ⟨h2.symm, hl, ?_⟩
    rw [← h2]
    simp

/-- A step whose current block is null. -/
theorem fstep_null (n : Nat) (f f' : FunctionCompiler) (P : BlockId → Prop)
    (hn : n ≤ f.graph_.blocks.length) (hg : GStep P f.graph_ f'.graph_)
    (hP : ∀ b, b < n → P b) (hc : f'.curBlock_ = none) : FrameStep n f f' := by
  refine fstep_mk n f f' P hn hg hP ?_
  intro cur hcur
  rw [hc] at hcur
  cases hcur

theorem frame_closeLoop (n : Nat) (f f' : FunctionCompiler) (le al : Option BlockId)
    (hok : FrameOk f) (hn : n ≤ f.graph_.blocks.length)
    (hle : ∀ H, le = some H → n ≤ H) (hdead : le = none → f.curBlock_ = none)
    (hal : ∀ A, al = some A → HeldAt f A (f.loopStack_.length - 1))
    (h : f.closeLoop le al = some f') : FrameStep n f f' := by
  unfold closeLoop at h
  cases hp : f.popLoop with
  | none => rw [hp] at h; cases h
  | some pf =>
    obtain ⟨pos, f1⟩ := pf
    rw [hp] at h
    obtain ⟨e1, -, hlen⟩ := popLoop_eq f f1 pos hp
    have hc1 : f1.curBlock_ = f.curBlock_ := by rw [e1]
    have hg1 : f1.graph_ = f.graph_ := by rw [e1]
    cases le with
    | none =>
      simp only [Option.some.injEq] at h
      subst h
      exact fstep_null n f f1 (fun _ => True) hn (by rw [hg1]; exact GStep.g_refl _ hok.1)
        (fun _ _ => trivial) (hc1.trans (hdead rfl))
    | some H =>
      have hnH := hle H rfl
      have key : ∀ (al : Option BlockId) (f2 : FunctionCompiler),
          (∀ A, al = some A → HeldAt f A (f.loopStack_.length - 1)) →
          GStep (fun c => c ≠ H) f.graph_ f2.graph_ →
          f2.loopStack_ = f1.loopStack_ →
          FrameStep n f (FunctionCompiler.bindUnlabeledBreaks
            (match al with
              | some a => { f2 with curBlock_ := some a, graph_ := f2.graph_.moveBlockToEnd a }
              | none => { f2 with curBlock_ := none }) pos) := by
        intro al f2 hal g2 hs2
        have hP : ∀ b, b < n → b ≠ H := fun b hb => Nat.ne_of_lt (Nat.lt_of_lt_of_le hb hnH)
        cases al with
        | none =>
          have s3 : FrameStep n f { f2 with curBlock_ := none } :=
            fstep_null n f _ _ hn g2 hP rfl
          exact fstep_then s3 (frame_bindUnlabeledBreaks _ pos (fstep_ok s3))
        | some A =>
          have hA := hal A rfl
          have g3 := g2.g_trans (gstep_moveBlockToEnd (fun c => c ≠ H) f2.graph_ A g2.1)
          have k := keeps_depth g3.2 hA
          have s3 : FrameStep n f
              { f2 with curBlock_ := some A, graph_ := f2.graph_.moveBlockToEnd A } :=
            fstep_cur n f _ _ A hn g3 hP
              ⟨k.1, by rw [k.2]; show _ = f2.loopStack_.length; rw [hs2, hlen]⟩ rfl
          exact fstep_then s3 (frame_bindUnlabeledBreaks _ pos (fstep_ok s3))
      cases hc : f1.curBlock_ with
      | none =>
        simp only [hc, Option.some.injEq] at h
        subst h
        exact key al f1 hal (by rw [hg1]; exact GStep.g_refl _ hok.1) rfl
      | some cur =>
        simp only [hc, Option.some.injEq] at h
        subst h
        refine key al _ hal ?_ rfl
        rw [← hg1]
        have hG1 : GOk f1.graph_ := by rw [hg1]; exact hok.1
        have g1 := gstep_endBlock (fun c => c ≠ H) f1.graph_ cur (.goto H) hG1
        exact g1.g_trans (gstep_setLoopBackedge _ H cur al g1.1)

theorem frame_doWhileClose (n : Nat) (f f' : FunctionCompiler) (cond : Option DefId)
    (le : Option BlockId) (hok : FrameOk f) (hn : n ≤ f.graph_.blocks.length)
    (hle : ∀ H, le = some H → n ≤ H) (hdead : le = none → f.curBlock_ = none)
    (h : f.branchAndCloseDoWhileLoop cond le = some f') : FrameStep n f f' := by
  unfold branchAndCloseDoWhileLoop at h
  cases hp : f.popLoop with
  | none => rw [hp] at h; cases h
  | some pf =>
    obtain ⟨pos, f1⟩ := pf
    rw [hp] at h
    obtain ⟨e1, -, hlen⟩ := popLoop_eq f f1 pos hp
    have hc1 : f1.curBlock_ = f.curBlock_ := by rw [e1]
    have hg1 : f1.graph_ = f.graph_ := by rw [e1]
    cases le with
    | none =>
      simp only [Option.some.injEq] at h
      subst h
      exact fstep_null n f f1 (fun _ => True) hn (by rw [hg1]; exact GStep.g_refl _ hok.1)
        (fun _ _ => trivial) (hc1.trans (hdead rfl))
    | some H =>
      have hnH := hle H rfl
      have hP : ∀ b, b < n → b ≠ H := fun b hb => Nat.ne_of_lt (Nat.lt_of_lt_of_le hb hnH)
      simp only [Option.some.injEq] at h
      subst h
      have hG1 : GOk f1.graph_ := by rw [hg1]; exact hok.1
      have hn1 : n ≤ f1.graph_.blocks.length := by rw [hg1]; exact hn
      have s2 : FrameStep n f
          (match f1.curBlock_ with
            | none => f1
            | some cur =>
              if isConstant f1.graph_ cond then
                if isConstantTrue f1.graph_ cond then
                  { setLoopBackedge { f1 with graph_ := f1.graph_.endBlock cur (.goto H) } H cur
                      none with curBlock_ := none }
                else
                  { (f1.newBlock (some cur)).1 with
                    graph_ := (f1.newBlock (some cur)).1.graph_.endBlock cur
                      (.goto (f1.newBlock (some cur)).2),
                    curBlock_ := some (f1.newBlock (some cur)).2 }
              else
                { setLoopBackedge
                    { (f1.newBlock (some cur)).1 with
                      graph_ := (f1.newBlock (some cur)).1.graph_.endBlock cur
                        (.test cond H (f1.newBlock (some cur)).2) } H cur
                    (some (f1.newBlock (some cur)).2)
                  with curBlock_ := some (f1.newBlock (some cur)).2 }) := by
        cases hc : f1.curBlock_ with
        | none =>
          exact fstep_null n f f1 (fun _ => True) hn (by rw [hg1]; exact GStep.g_refl _ hok.1)
            (fun _ _ => trivial) hc
        | some cur =>
          dsimp only
          obtain ⟨a1, a2, a3, a4⟩ := newBlock_frame f1 cur f1.loopStack_.length hG1
          split
          · split
            · have g1 := gstep_endBlock (fun c => c ≠ H) f1.graph_ cur (.goto H) hG1
              refine fstep_null n f _ (fun c => c ≠ H) hn ?_ hP rfl
              rw [← hg1]
              exact g1.g_trans (gstep_setLoopBackedge _ H cur none g1.1)
            · have g1 := gstep_endBlock (fun _ => True)
                (f1.newBlockWithDepth (some cur) f1.loopStack_.length).1.graph_ cur
                (.goto (f1.newBlock (some cur)).2) a1.1
              have k := keeps_depth g1.2 a4
              refine fstep_cur n f _ (fun _ => True) f1.graph_.blocks.length hn ?_
                (fun _ _ => trivial) k ?_
              · rw [← hg1]
                exact a1.g_trans g1
              · show some (f1.newBlock (some cur)).2 = _
                unfold newBlock
                rw [a2]
          · have g1 := gstep_endBlock (fun c => c ≠ H)
              (f1.newBlockWithDepth (some cur) f1.loopStack_.length).1.graph_ cur
              (.test cond H (f1.newBlock (some cur)).2) a1.1
            have g12 : GStep (fun c => c ≠ H)
                (f1.newBlockWithDepth (some cur) f1.loopStack_.length).1.graph_
                (FunctionCompiler.graph_ (setLoopBackedge
                  { (f1.newBlock (some cur)).1 with
                    graph_ := (f1.newBlock (some cur)).1.graph_.endBlock cur
                      (.test cond H (f1.newBlock (some cur)).2) } H cur
                  (some (f1.newBlock (some cur)).2))) :=
              g1.g_trans (gstep_setLoopBackedge _ H cur _ g1.1)
            have k := keeps_depth g12.2 a4
            refine fstep_cur n f _ (fun c => c ≠ H) f1.graph_.blocks.length hn ?_ hP k ?_
            · rw [← hg1]
              exact (a1.g_mono (fun _ _ => trivial)).g_trans g12
            · show some (f1.newBlock (some cur)).2 = _
              unfold newBlock
              rw [a2]
      exact fstep_then s2 (frame_bindUnlabeledBreaks _ pos (fstep_ok s2))

theorem frame_startSwitch (f : FunctionCompiler) (pos : Nat) (e : Option DefId) (low high : Int)
    (hok : FrameOk f) :
    FrameStep f.graph_.blocks.length f (f.startSwitch pos e low high).1 := by
  unfold startSwitch
  cases hc : f.curBlock_ with
  | none =>
    simp only [hc]
    exact fstep_null _ f _ (fun _ => True) (Nat.le_refl _) (GStep.g_refl _ hok.1)
      (fun _ _ => trivial) rfl
  | some cur =>
    simp only [hc]
    exact fstep_null _ f _ (fun _ => True) (Nat.le_refl _) (gstep_endBlock _ _ _ _ hok.1)
      (fun _ _ => trivial) rfl

theorem frame_startSwitchCase (f : FunctionCompiler) (switchBlock : Option BlockId)
    (hok : FrameOk f) :
    FrameStep f.graph_.blocks.length f (f.startSwitchCase switchBlock).1 := by
  cases switchBlock with
  | none => exact fstep_refl f hok
  | some sb =>
    obtain ⟨a1, a2, a3, a4⟩ := newBlock_frame f sb f.loopStack_.length hok.1
    have hg : GStep (fun c => c ≠ f.graph_.blocks.length)
        (f.newBlockWithDepth (some sb) f.loopStack_.length).1.graph_
        (f.startSwitchCase (some sb)).1.graph_ := by
      unfold startSwitchCase newBlock
      cases f.curBlock_ with
      | none => exact GStep.g_refl _ a1.1
      | some cur =>
        have g1 := gstep_endBlock (fun c => c ≠ f.graph_.blocks.length)
          (f.newBlockWithDepth (some sb) f.loopStack_.length).1.graph_ cur
          (.goto (f.newBlockWithDepth (some sb) f.loopStack_.length).2) a1.1
        have g2 := gstep_addPredecessor _ (f.newBlockWithDepth (some sb) f.loopStack_.length).2
          cur g1.1
        rw [a2] at g2
        exact g1.g_trans (by rw [a2]; exact g2)
    refine fstep_cur _ f _ _ f.graph_.blocks.length (Nat.le_refl _)
      ((a1.g_mono (fun _ _ => trivial)).g_trans hg) (fun b hb => Nat.ne_of_lt hb)
      (keeps_depth hg.2 a4) ?_
    show some (f.newBlock (some sb)).2 = _
    unfold newBlock
    rw [a2]

theorem frame_startSwitchDefault (f : FunctionCompiler) (switchBlock : Option BlockId)
    (hok : FrameOk f) :
    FrameStep f.graph_.blocks.length f (f.startSwitchDefault switchBlock).1 := by
  have s1 := frame_startSwitchCase f switchBlock hok
  unfold startSwitchDefault
  dsimp only
  split
  · exact s1
  · exact fstep_then s1 (fstep_same _ _ (fstep_ok s1)
      (gstep_moveBlockToEnd _ _ _ (fstep_ok s1).1) rfl (Or.inl rfl))

theorem frame_joinTail (f2 : FunctionCompiler) (hok : FrameOk f2) :
    FrameStep f2.graph_.blocks.length f2
      (match f2.curBlock_ with
        | some cur =>
          { (f2.newBlock (some cur)).1 with
            graph_ := (f2.newBlock (some cur)).1.graph_.endBlock cur
              (.goto (f2.newBlock (some cur)).2),
            curBlock_ := some (f2.newBlock (some cur)).2 }
        | none => f2) := by
  cases hc : f2.curBlock_ with
  | none => exact fstep_refl f2 hok
  | some cur => exact frame_newFrom f2 cur cur _ hok

theorem frame_joinSwitch (f f' : FunctionCompiler) (switchBlock : Option BlockId)
    (cases : List (Option BlockId)) (defaultBlock : Option BlockId) (hok : FrameOk f)
    (h : f.joinSwitch switchBlock cases defaultBlock = some f') :
    FrameStep f.graph_.blocks.length f f' := by
  unfold joinSwitch at h
  cases hl : f.breakableStack_.getLast? with
  | none => rw [hl] at h; cases h
  | some pos =>
    rw [hl] at h
    cases switchBlock with
    | none =>
      simp only [Option.some.injEq] at h
      subst h
      exact fstep_same f _ hok (GStep.g_refl _ hok.1) rfl (Or.inl rfl)
    | some sb =>
      have s2 : FrameStep f.graph_.blocks.length f
          { f with
            breakableStack_ := f.breakableStack_.dropLast,
            graph_ := f.graph_.modifyBlock sb (fun blk =>
              { blk with lastIns := blk.lastIns.map (fillTableSwitch cases defaultBlock) }) } :=
        fstep_same f _ hok (gstep_modifyBlock _ _ _ _ (fun _ => ⟨rfl, rfl, rfl⟩) hok.1) rfl
          (Or.inl rfl)
      simp only [Option.some.injEq] at h
      subst h
      have s3 := fstep_then s2 (frame_joinTail _ (fstep_ok s2))
      exact fstep_then s3 (frame_bindUnlabeledBreaks _ pos (fstep_ok s3))

/-! ### The induction over the decoder functions -/

set_option maxHeartbeats 4000000 in
mutual
theorem frame_EmitExpr (abi : ABIArgGenerator) :
    ∀ (e : Expr) (c : Ctx) (f : FunctionCompiler) (r : FunctionCompiler × Option DefId),
      Inv c f → wfExpr c e = true → FrameOk f → EmitExpr abi e f = some r →
      FrameStep f.graph_.blocks.length f r.1
  | .literal type v, c, f, r, _, _, hd, h => by
    have h2 : some ((f.advance (1 + literalWidth type)).constant v (MIRTypeFromAsmType type)) =
        some r := h
    simp only [Option.some.injEq] at h2
    subst h2
    have D0 := frame_advance f (1 + literalWidth type) hd
    exact fstep_then D0 (frame_emit _ _ _ (fstep_ok D0))
  | .getLocal slot, c, f, r, _, _, hd, h => by
    have h2 : some (f.advance 5, (f.advance 5).getLocalDef slot) = some r := h
    simp only [Option.some.injEq] at h2
    subst h2
    exact frame_advance f 5 hd
  | .setLocal slot e, c, f, r, hi, hw, hd, h => by
    have h2 : (EmitExpr abi e (f.advance 5)).bind (fun r => some (r.1.assign slot r.2, r.2)) =
        some r := h
    simp only [Option.bind_eq_some, Option.some.injEq] at h2
    obtain ⟨r1, h1, rfl⟩ := h2
    have hw1 : wfExpr c e = true := hw
    have s0 := step_advance c.noJump f 5
    have D0 := frame_advance f 5 hd
    have D1 := frame_EmitExpr abi e c (f.advance 5) r1 (inv_step hi (step_of_noJump s0)) hw1
      (fstep_ok D0) h1
    exact fstep_then D0 (fstep_then D1 (frame_assign _ _ _ (fstep_ok D1)))
  | .idExpr e, c, f, r, hi, hw, hd, h => by
    have h2 : EmitExpr abi e (f.advance 1) = some r := h
    have hw1 : wfExpr c e = true := hw
    have s0 := step_advance c.noJump f 1
    have D0 := frame_advance f 1 hd
    exact fstep_then D0 (frame_EmitExpr abi e c _ r (inv_step hi (step_of_noJump s0)) hw1
      (fstep_ok D0) h2)
  | .operator o args, c, f, r, hi, hw, hd, h => by
    have h2 : (EmitOperands abi args (f.advance (1 + o.immBefore))).bind (fun r =>
        some (((r.1.advance o.immAfter).emitOp o.code r.2).1,
          if o.yieldsLast then r.2.getLast?.join
          else ((r.1.advance o.immAfter).emitOp o.code r.2).2)) = some r := h
    simp only [Option.bind_eq_some, Option.some.injEq] at h2
    obtain ⟨r1, h1, rfl⟩ := h2
    have hw1 : wfArgs c args = true := hw
    have s0 := step_advance c.noJump f (1 + o.immBefore)
    have D0 := frame_advance f (1 + o.immBefore) hd
    have D1 := frame_EmitOperands abi args c _ r1 (inv_step hi (step_of_noJump s0)) hw1
      (fstep_ok D0) h1
    have D2 := frame_advance r1.1 o.immAfter (fstep_ok D1)
    have D3 : FrameStep (r1.1.advance o.immAfter).graph_.blocks.length (r1.1.advance o.immAfter)
        ((r1.1.advance o.immAfter).emitOp o.code r1.2).1 := frame_emit _ _ _ (fstep_ok D2)
    exact fstep_then D0 (fstep_then D1 (fstep_then D2 D3))
  | .minMax first rest, c, f, r, hi, hw, hd, h => by
    have h2 : (EmitExpr abi first (f.advance 2)).bind
        (fun r => EmitMinMaxRest abi rest r.2 r.1) = some r := h
    simp only [Option.bind_eq_some] at h2
    obtain ⟨r1, h1, h3⟩ := h2
    have hw1 : (wfExpr c first && wfArgs c rest) = true := hw
    simp only [Bool.and_eq_true] at hw1
    have s0 := step_advance c.noJump f 2
    have i0 := inv_step hi (step_of_noJump s0)
    have s1 := step_EmitExpr abi first c _ r1 i0 hw1.1 h1
    have D0 := frame_advance f 2 hd
    have D1 := frame_EmitExpr abi first c _ r1 i0 hw1.1 (fstep_ok D0) h1
    have D2 := frame_EmitMinMaxRest abi rest r1.2 c r1.1 r (inv_step i0 (step_of_noJump s1))
      hw1.2 (fstep_ok D1) h3
    exact fstep_then D0 (fstep_then D1 D2)
  | .storeWithCoercion ptr rhs, c, f, r, hi, hw, hd, h => by
    have h2 : (EmitExpr abi ptr (f.advance 2)).bind (fun p =>
        (EmitExpr abi rhs p.1).bind (fun r =>
          some (((r.1.emitOp Op.coerce [r.2]).1.emitOp Op.storeHeap
            [p.2, (r.1.emitOp Op.coerce [r.2]).2]).1, r.2))) = some r := h
    simp only [Option.bind_eq_some, Option.some.injEq] at h2
    obtain ⟨p, h1, r1, h3, rfl⟩ := h2
    have hw1 : (wfExpr c ptr && wfExpr c rhs) = true := hw
    simp only [Bool.and_eq_true] at hw1
    have s0 := step_advance c.noJump f 2
    have i0 := inv_step hi (step_of_noJump s0)
    have s1 := step_EmitExpr abi ptr c _ p i0 hw1.1 h1
    have D0 := frame_advance f 2 hd
    have D1 := frame_EmitExpr abi ptr c _ p i0 hw1.1 (fstep_ok D0) h1
    have D2 := frame_EmitExpr abi rhs c _ r1 (inv_step i0 (step_of_noJump s1)) hw1.2
      (fstep_ok D1) h3
    have D3 : FrameStep r1.1.graph_.blocks.length r1.1 (r1.1.emitOp Op.coerce [r1.2]).1 :=
      frame_emit _ _ _ (fstep_ok D2)
    have D4 : FrameStep (r1.1.emitOp Op.coerce [r1.2]).1.graph_.blocks.length
        (r1.1.emitOp Op.coerce [r1.2]).1
        ((r1.1.emitOp Op.coerce [r1.2]).1.emitOp Op.storeHeap
          [p.2, (r1.1.emitOp Op.coerce [r1.2]).2]).1 := frame_emit _ _ _ (fstep_ok D3)
    exact fstep_then D0 (fstep_then D1 (fstep_then D2 (fstep_then D3 D4)))
  | .call ce, c, f, r, hi, hw, hd, h => by
    have h2 : EmitCall abi ce (f.advance 1) = some r := h
    have hw1 : wfCall c ce = true := hw
    have s0 := step_advance c.noJump f 1
    have D0 := frame_advance f 1 hd
    exact fstep_then D0 (frame_EmitCall abi ce c _ r (inv_step hi (step_of_noJump s0)) hw1
      (fstep_ok D0) h2)
  | .conditional cond ifTrue ifFalse, c, f, r, hi, hw, hd, h => by
    have h2 : (EmitExpr abi cond (f.advance 1)).bind (fun cr =>
        (EmitExpr abi ifTrue (cr.1.branchAndStartThen cr.2 none none).1).bind (fun t =>
          (EmitExpr abi ifFalse ((t.1.pushPhiInput t.2).switchToElse
              (cr.1.branchAndStartThen cr.2 none none).2.2)).bind (fun e =>
            some (((e.1.pushPhiInput e.2).joinIfElse (t.1.appendThenBlock [])).popPhiOutput)))) =
        some r := h
    simp only [Option.bind_eq_some, Option.some.injEq] at h2
    obtain ⟨cr, h1, t, ht, e, he, rfl⟩ := h2
    have hw1 : (wfExpr c cond && wfExpr c ifTrue && wfExpr c ifFalse) = true := hw
    simp only [Bool.and_eq_true] at hw1
    obtain ⟨⟨w1, w2⟩, w3⟩ := hw1
    have s0 := step_advance c.noJump f 1
    have i0 := inv_step hi (step_of_noJump s0)
    have s1 := step_EmitExpr abi cond c _ cr i0 w1 h1
    have i1 := inv_step i0 (step_of_noJump s1)
    obtain ⟨q1, q2⟩ := branchAndStartThen_quiet cr.1 cr.2 none none
    have i2 : Inv c (cr.1.branchAndStartThen cr.2 none none).1 := inv_bk i1 q1
    have s3 := step_EmitExpr abi ifTrue c _ t i2 w2 ht
    have i3 := inv_step i2 (step_of_noJump s3)
    have q3 : ((t.1.pushPhiInput t.2).switchToElse
        (cr.1.branchAndStartThen cr.2 none none).2.2).bookkeeping = t.1.bookkeeping :=
      (switchToElse_quiet _ _).1.trans (pushPhiInput_quiet _ _).1
    have D0 := frame_advance f 1 hd
    have D1 := frame_EmitExpr abi cond c _ cr i0 w1 (fstep_ok D0) h1
    obtain ⟨DB, hE⟩ := frame_branchAndStartThen cr.1 cr.2 (fstep_ok D1)
    have D3 := frame_EmitExpr abi ifTrue c _ t i2 w2 (fstep_ok DB) ht
    have DP := frame_pushPhiInput t.1 t.2 (fstep_ok D3)
    have X := fstep_then (fstep_then DB D3) DP
    have hst : (t.1.pushPhiInput t.2).loopStack_ = cr.1.loopStack_ :=
      (loopStack_of_bk (pushPhiInput_quiet _ _).1).trans (s3.1.2.1.trans (loopStack_of_bk q1))
    have DS := frame_switchToElse cr.1.graph_.blocks.length (t.1.pushPhiInput t.2)
      (cr.1.branchAndStartThen cr.2 none none).2.2 (fstep_ok X) X.2.1.1
      (fun E hEe => by rw [hst]; exact heldAt_step (heldAt_step (hE E hEe).2 D3) DP)
    have Y := fstep_trans X DS (Nat.le_refl _)
    have D5 := frame_EmitExpr abi ifFalse c _ e (inv_bk i3 q3) w3 (fstep_ok Y) he
    have D6 := frame_pushPhiInput e.1 e.2 (fstep_ok D5)
    have D7 := frame_joinIfElse (e.1.pushPhiInput e.2) (t.1.appendThenBlock []) (fstep_ok D6)
    have D8 := frame_popPhiOutput _ (fstep_ok D7)
    exact fstep_then D0 (fstep_then D1 (fstep_then Y (fstep_then D5 (fstep_then D6
      (fstep_then D7 D8)))))
  | .comma stmts last, c, f, r, hi, hw, hd, h => by
    have h2 : (EmitStatements abi stmts (f.advance 5)).bind (fun f1 => EmitExpr abi last f1) =
        some r := h
    simp only [Option.bind_eq_some] at h2
    obtain ⟨f1, h1, h3⟩ := h2
    have hw1 : (wfStmts c.noJump stmts && wfExpr c last) = true := hw
    simp only [Bool.and_eq_true] at hw1
    have s0 := step_advance c.noJump f 5
    have i0 := inv_step hi (step_of_noJump s0)
    have s1 := step_EmitStatements abi stmts c.noJump (f.advance 5) f1 (inv_noJump i0) hw1.1 h1
    have D0 := frame_advance f 5 hd
    have D1 := frame_EmitStatements abi stmts c.noJump (f.advance 5) f1 (inv_noJump i0) hw1.1
      (fstep_ok D0) h1
    have D2 := frame_EmitExpr abi last c f1 r (inv_step i0 (step_of_noJump s1)) hw1.2
      (fstep_ok D1) h3
    exact fstep_then D0 (fstep_then D1 D2)
theorem frame_EmitOperands (abi : ABIArgGenerator) :
    ∀ (args : Args) (c : Ctx) (f : FunctionCompiler)
      (r : FunctionCompiler × List (Option DefId)),
      Inv c f → wfArgs c args = true → FrameOk f → EmitOperands abi args f = some r →
      FrameStep f.graph_.blocks.length f r.1
  | .nil, c, f, r, _, _, hd, h => by
    have h2 : some (f, ([] : List (Option DefId))) = some r := h
    simp only [Option.some.injEq] at h2
    subst h2
    exact fstep_refl f hd
  | .cons _ e rest, c, f, r, hi, hw, hd, h => by
    have h2 : (EmitExpr abi e f).bind (fun r =>
        (EmitOperands abi rest r.1).bind (fun rs => some (rs.1, r.2 :: rs.2))) = some r := h
    simp only [Option.bind_eq_some, Option.some.injEq] at h2
    obtain ⟨r1, h1, rs, h3, rfl⟩ := h2
    have hw1 : (wfExpr c e && wfArgs c rest) = true := hw
    simp only [Bool.and_eq_true] at hw1
    have s1 := step_EmitExpr abi e c f r1 hi hw1.1 h1
    have D1 := frame_EmitExpr abi e c f r1 hi hw1.1 hd h1
    have D2 := frame_EmitOperands abi rest c r1.1 rs (inv_step hi (step_of_noJump s1)) hw1.2
      (fstep_ok D1) h3
    exact fstep_then D1 D2
theorem frame_EmitMinMaxRest (abi : ABIArgGenerator) :
    ∀ (args : Args) (d : Option DefId) (c : Ctx) (f : FunctionCompiler)
      (r : FunctionCompiler × Option DefId),
      Inv c f → wfArgs c args = true → FrameOk f → EmitMinMaxRest abi args d f = some r →
      FrameStep f.graph_.blocks.length f r.1
  | .nil, d, c, f, r, _, _, hd, h => by
    have h2 : some (f, d) = some r := h
    simp only [Option.some.injEq] at h2
    subst h2
    exact fstep_refl f hd
  | .cons _ e rest, d, c, f, r, hi, hw, hd, h => by
    have h2 : (EmitExpr abi e f).bind (fun r =>
        EmitMinMaxRest abi rest (r.1.emitOp Op.minMax [d, r.2]).2
          (r.1.emitOp Op.minMax [d, r.2]).1) = some r := h
    simp only [Option.bind_eq_some] at h2
    obtain ⟨r1, h1, h3⟩ := h2
    have hw1 : (wfExpr c e && wfArgs c rest) = true := hw
    simp only [Bool.and_eq_true] at hw1
    have s1 := step_EmitExpr abi e c f r1 hi hw1.1 h1
    have i1 := inv_step hi (step_of_noJump s1)
    have s2 : Step c.noJump r1.1 (r1.1.emitOp Op.minMax [d, r1.2]).1 0 :=
      step_quiet2 _ (emit_quiet _ _ _)
    have D1 := frame_EmitExpr abi e c f r1 hi hw1.1 hd h1
    have D2 : FrameStep r1.1.graph_.blocks.length r1.1 (r1.1.emitOp Op.minMax [d, r1.2]).1 :=
      frame_emit _ _ _ (fstep_ok D1)
    have D3 := frame_EmitMinMaxRest abi rest _ c _ r (inv_step i1 (step_of_noJump s2)) hw1.2
      (fstep_ok D2) h3
    exact fstep_then D1 (fstep_then D2 D3)
theorem frame_EmitCallArgsLoop (abi : ABIArgGenerator) :
    ∀ (args : Args) (call : Call) (c : Ctx) (f : FunctionCompiler)
      (r : FunctionCompiler × Call),
      Inv c f → wfArgs c args = true → FrameOk f → EmitCallArgsLoop abi args call f = some r →
      FrameStep f.graph_.blocks.length f r.1
  | .nil, call, c, f, r, _, _, hd, h => by
    have h2 : some (f, call) = some r := h
    simp only [Option.some.injEq] at h2
    subst h2
    exact fstep_refl f hd
  | .cons type e rest, call, c, f, r, hi, hw, hd, h => by
    have h2 : (EmitExpr abi e f).bind (fun r =>
        EmitCallArgsLoop abi rest
          (FunctionCompiler.passArg abi r.1 r.2 (MIRTypeFromAsmType type) call).2
          (FunctionCompiler.passArg abi r.1 r.2 (MIRTypeFromAsmType type) call).1) = some r := h
    simp only [Option.bind_eq_some] at h2
    obtain ⟨r1, h1, h3⟩ := h2
    have hw1 : (wfExpr c e && wfArgs c rest) = true := hw
    simp only [Bool.and_eq_true] at hw1
    have s1 := step_EmitExpr abi e c f r1 hi hw1.1 h1
    have i1 := inv_step hi (step_of_noJump s1)
    have s2 : Step c.noJump r1.1
        (FunctionCompiler.passArg abi r1.1 r1.2 (MIRTypeFromAsmType type) call).1 0 :=
      step_quiet2 _ (passArg_quiet _ _ _ _ _)
    have D1 := frame_EmitExpr abi e c f r1 hi hw1.1 hd h1
    have D2 := frame_passArg abi r1.1 r1.2 (MIRTypeFromAsmType type) call (fstep_ok D1)
    have D3 := frame_EmitCallArgsLoop abi rest _ c _ r (inv_step i1 (step_of_noJump s2)) hw1.2
      (fstep_ok D2) h3
    exact fstep_then D1 (fstep_then D2 D3)
theorem frame_EmitCall (abi : ABIArgGenerator) :
    ∀ (ce : CallExpr) (c : Ctx) (f : FunctionCompiler) (r : FunctionCompiler × Option DefId),
      Inv c f → wfCall c ce = true → FrameOk f → EmitCall abi ce f = some r →
      FrameStep f.graph_.blocks.length f r.1
  | .direct kind lineno column args, c, f, r, hi, hw, hd, h => by
    have h2 : (EmitCallArgsLoop abi args
        ((f.advance kind.immBytes).startCallArgs (Call.new lineno column)).2
        ((f.advance kind.immBytes).startCallArgs (Call.new lineno column)).1).bind (fun a =>
          some (emitDirectCall kind (FunctionCompiler.finishCallArgs abi a.1 a.2))) = some r := h
    simp only [Option.bind_eq_some, Option.some.injEq] at h2
    obtain ⟨a, h1, rfl⟩ := h2
    have hw1 : wfArgs c args = true := hw
    have s0 := step_advance c.noJump f kind.immBytes
    have i0 := inv_step hi (step_of_noJump s0)
    have s1 : Step c.noJump (f.advance kind.immBytes)
        ((f.advance kind.immBytes).startCallArgs (Call.new lineno column)).1 0 :=
      step_quiet2 _ (startCallArgs_quiet _ _)
    have D0 := frame_advance f kind.immBytes hd
    have D1 := frame_startCallArgs (f.advance kind.immBytes) (Call.new lineno column) (fstep_ok D0)
    have D2 := frame_EmitCallArgsLoop abi args _ c _ a (inv_step i0 (step_of_noJump s1)) hw1
      (fstep_ok D1) h1
    have D3 := frame_finishCallArgs abi a.1 a.2 (fstep_ok D2)
    have D4 := frame_emitDirectCall kind (FunctionCompiler.finishCallArgs abi a.1 a.2)
      (fstep_ok D3)
    exact fstep_then D0 (fstep_then D1 (fstep_then D2 (fstep_then D3 D4)))
  | .indirect mask globalDataOffset lineno column index args, c, f, r, hi, hw, hd, h => by
    have h2 : (EmitExpr abi index (f.advance 24)).bind (fun ix =>
        (EmitCallArgsLoop abi args (ix.1.startCallArgs (Call.new lineno column)).2
          (ix.1.startCallArgs (Call.new lineno column)).1).bind (fun a =>
            some ((FunctionCompiler.finishCallArgs abi a.1 a.2).1.funcPtrCall mask globalDataOffset
              ix.2 (FunctionCompiler.finishCallArgs abi a.1 a.2).2))) = some r := h
    simp only [Option.bind_eq_some, Option.some.injEq] at h2
    obtain ⟨ix, h1, a, h3, rfl⟩ := h2
    have hw1 : (wfExpr c index && wfArgs c args) = true := hw
    simp only [Bool.and_eq_true] at hw1
    have s0 := step_advance c.noJump f 24
    have i0 := inv_step hi (step_of_noJump s0)
    have s1 := step_EmitExpr abi index c _ ix i0 hw1.1 h1
    have i1 := inv_step i0 (step_of_noJump s1)
    have s2 : Step c.noJump ix.1 (ix.1.startCallArgs (Call.new lineno column)).1 0 :=
      step_quiet2 _ (startCallArgs_quiet _ _)
    have D0 := frame_advance f 24 hd
    have D1 := frame_EmitExpr abi index c _ ix i0 hw1.1 (fstep_ok D0) h1
    have D2 := frame_startCallArgs ix.1 (Call.new lineno column) (fstep_ok D1)
    have D3 := frame_EmitCallArgsLoop abi args _ c _ a (inv_step i1 (step_of_noJump s2)) hw1.2
      (fstep_ok D2) h3
    have D4 := frame_finishCallArgs abi a.1 a.2 (fstep_ok D3)
    have D5 := frame_funcPtrCall (FunctionCompiler.finishCallArgs abi a.1 a.2).1 mask
      globalDataOffset ix.2 (FunctionCompiler.finishCallArgs abi a.1 a.2).2 (fstep_ok D4)
    exact fstep_then D0 (fstep_then D1 (fstep_then D2 (fstep_then D3 (fstep_then D4 D5))))
theorem frame_EmitStatements (abi : ABIArgGenerator) :
    ∀ (stmts : Stmts) (c : Ctx) (f f' : FunctionCompiler),
      Inv c f → wfStmts c stmts = true → FrameOk f → EmitStatements abi stmts f = some f' →
      FrameStep f.graph_.blocks.length f f'
  | .nil, c, f, f', _, _, hd, h => by
    have h2 : some f = some f' := h
    simp only [Option.some.injEq] at h2
    subst h2
    exact fstep_refl f hd
  | .cons s rest, c, f, f', hi, hw, hd, h => by
    have h2 : (EmitStatement abi s none f).bind (fun r => EmitStatements abi rest r.1) =
        some f' := h
    simp only [Option.bind_eq_some] at h2
    obtain ⟨r1, h1, h3⟩ := h2
    have hw1 : (wfStmt c.inner s && wfStmts c rest) = true := hw
    simp only [Bool.and_eq_true] at hw1
    have s1 := step_of_inner (step_EmitStatement abi s none c.inner f r1 (inv_inner hi) rfl hw1.1 h1).1
    have D1 := frame_EmitStatement abi s none c.inner f r1 (inv_inner hi) rfl hw1.1 hd h1
    have D2 := frame_EmitStatements abi rest c r1.1 f' (inv_step hi s1) hw1.2 (fstep_ok D1) h3
    exact fstep_then D1 D2
theorem frame_EmitIfElse (abi : ABIArgGenerator) :
    ∀ (chain : IfChain) (tb : BlockVector) (c : Ctx) (f f' : FunctionCompiler),
      Inv c f → wfIf c chain = true → FrameOk f →
      EmitIfElse abi chain tb f = some f' → FrameStep f.graph_.blocks.length f f'
  | .ifThen cond thenStmt, tb, c, f, f', hi, hw, hd, h => by
    have h2 : (EmitExpr abi cond f).bind (fun cr =>
        (EmitStatement abi thenStmt none (cr.1.branchAndStartThen cr.2 none none).1).bind (fun t =>
          some (t.1.joinIf (t.1.appendThenBlock tb)
            (cr.1.branchAndStartThen cr.2 none none).2.2))) = some f' := h
    simp only [Option.bind_eq_some, Option.some.injEq] at h2
    obtain ⟨cr, h1, t, ht, rfl⟩ := h2
    have hw1 : (wfExpr c cond && wfStmt c.inner thenStmt) = true := hw
    simp only [Bool.and_eq_true] at hw1
    have s1 := step_EmitExpr abi cond c f cr hi hw1.1 h1
    have i1 := inv_step hi (step_of_noJump s1)
    obtain ⟨q1, q2⟩ := branchAndStartThen_quiet cr.1 cr.2 none none
    have i2 : Inv c (cr.1.branchAndStartThen cr.2 none none).1 := inv_bk i1 q1
    have s3 := (step_EmitStatement abi thenStmt none c.inner _ t (inv_inner i2) rfl hw1.2 ht).1
    have D1 := frame_EmitExpr abi cond c f cr hi hw1.1 hd h1
    obtain ⟨DB, hE⟩ := frame_branchAndStartThen cr.1 cr.2 (fstep_ok D1)
    have D3 := frame_EmitStatement abi thenStmt none c.inner _ t (inv_inner i2) rfl hw1.2
      (fstep_ok DB) ht
    have X := fstep_then DB D3
    have hst : t.1.loopStack_ = cr.1.loopStack_ := s3.1.2.1.trans (loopStack_of_bk q1)
    have DJ := frame_joinIf cr.1.graph_.blocks.length t.1 (t.1.appendThenBlock tb)
      (cr.1.branchAndStartThen cr.2 none none).2.2 (fstep_ok X) X.2.1.1
      (fun E hEe => ⟨(hE E hEe).1, by rw [hst]; exact heldAt_step (hE E hEe).2 D3⟩)
    exact fstep_then D1 (fstep_trans X DJ (Nat.le_refl _))
  | .ifElse cond thenStmt elseStmt, tb, c, f, f', hi, hw, hd, h => by
    by_cases hs : ∀ chain, elseStmt ≠ .ifStmt chain
    · rw [EmitIfElse_else _ _ _ _ _ _ hs] at h
      simp only [Option.bind_eq_some, Option.some.injEq] at h
      obtain ⟨cr, h1, t, ht, e, he, rfl⟩ := h
      have hw1 : (wfExpr c cond && wfStmt c.inner thenStmt && wfStmt c.inner elseStmt) = true := hw
      simp only [Bool.and_eq_true] at hw1
      obtain ⟨⟨w1, w2⟩, w3⟩ := hw1
      have s1 := step_EmitExpr abi cond c f cr hi w1 h1
      have i1 := inv_step hi (step_of_noJump s1)
      obtain ⟨q1, q2⟩ := branchAndStartThen_quiet cr.1 cr.2 none none
      have i2 : Inv c (cr.1.branchAndStartThen cr.2 none none).1 := inv_bk i1 q1
      have s3 := step_of_inner
        (step_EmitStatement abi thenStmt none c.inner _ t (inv_inner i2) rfl w2 ht).1
      have i3 := inv_step i2 s3
      obtain ⟨q4, q5⟩ := switchToElse_quiet t.1 (cr.1.branchAndStartThen cr.2 none none).2.2
      have i4 := inv_bk i3 q4
      have D1 := frame_EmitExpr abi cond c f cr hi w1 hd h1
      obtain ⟨DB, hE⟩ := frame_branchAndStartThen cr.1 cr.2 (fstep_ok D1)
      have D3 := frame_EmitStatement abi thenStmt none c.inner _ t (inv_inner i2) rfl w2
        (fstep_ok DB) ht
      have X := fstep_then DB D3
      have hst : t.1.loopStack_ = cr.1.loopStack_ := s3.1.2.1.trans (loopStack_of_bk q1)
      have DE := frame_switchToElse cr.1.graph_.blocks.length t.1
        (cr.1.branchAndStartThen cr.2 none none).2.2 (fstep_ok X) X.2.1.1
        (fun E hEe => by rw [hst]; exact heldAt_step (hE E hEe).2 D3)
      have Y := fstep_trans X DE (Nat.le_refl _)
      have D5 := frame_EmitStatement abi elseStmt none c.inner _ e (inv_inner i4) rfl w3
        (fstep_ok Y) he
      have D6 := frame_joinIfElse e.1 (t.1.appendThenBlock tb) (fstep_ok D5)
      exact fstep_then D1 (fstep_then Y (fstep_then D5 D6))
    · push_neg at hs
      obtain ⟨chain, rfl⟩ := hs
      have h2 : (EmitExpr abi cond f).bind (fun cr =>
          (EmitStatement abi thenStmt none (cr.1.branchAndStartThen cr.2 none none).1).bind (fun t =>
            EmitIfElse abi chain (t.1.appendThenBlock tb)
              ((t.1.switchToElse (cr.1.branchAndStartThen cr.2 none none).2.2).advance 1))) =
          some f' := h
      simp only [Option.bind_eq_some] at h2
      obtain ⟨cr, h1, t, ht, h3⟩ := h2
      have hw1 : (wfExpr c cond && wfStmt c.inner thenStmt && wfIf c.inner chain) = true := hw
      simp only [Bool.and_eq_true] at hw1
      obtain ⟨⟨w1, w2⟩, w3⟩ := hw1
      have s1 := step_EmitExpr abi cond c f cr hi w1 h1
      have i1 := inv_step hi (step_of_noJump s1)
      obtain ⟨q1, q2⟩ := branchAndStartThen_quiet cr.1 cr.2 none none
      have i2 : Inv c (cr.1.branchAndStartThen cr.2 none none).1 := inv_bk i1 q1
      have s3 := step_of_inner
        (step_EmitStatement abi thenStmt none c.inner _ t (inv_inner i2) rfl w2 ht).1
      have i3 := inv_step i2 s3
      obtain ⟨q4, q5⟩ := switchToElse_quiet t.1 (cr.1.branchAndStartThen cr.2 none none).2.2
      have i4 := inv_bk i3 q4
      have s5 := step_advance c (t.1.switchToElse (cr.1.branchAndStartThen cr.2 none none).2.2) 1
      have D1 := frame_EmitExpr abi cond c f cr hi w1 hd h1
      obtain ⟨DB, hE⟩ := frame_branchAndStartThen cr.1 cr.2 (fstep_ok D1)
      have D3 := frame_EmitStatement abi thenStmt none c.inner _ t (inv_inner i2) rfl w2
        (fstep_ok DB) ht
      have X := fstep_then DB D3
      have hst : t.1.loopStack_ = cr.1.loopStack_ := s3.1.2.1.trans (loopStack_of_bk q1)
      have DE := frame_switchToElse cr.1.graph_.blocks.length t.1
        (cr.1.branchAndStartThen cr.2 none none).2.2 (fstep_ok X) X.2.1.1
        (fun E hEe => by rw [hst]; exact heldAt_step (hE E hEe).2 D3)
      have Y := fstep_trans X DE (Nat.le_refl _)
      have D5 := frame_advance (t.1.switchToElse (cr.1.branchAndStartThen cr.2 none none).2.2) 1
        (fstep_ok Y)
      have D6 := frame_EmitIfElse abi chain (t.1.appendThenBlock tb) c.inner _ f'
        (inv_inner (inv_step i4 s5)) w3 (fstep_ok D5) h3
      exact fstep_then D1 (fstep_then Y (fstep_then D5 D6))
theorem frame_EmitOptStmt (abi : ABIArgGenerator) :
    ∀ (o : OptStmt) (c : Ctx) (f f' : FunctionCompiler),
      Inv c f → wfOpt c o = true → FrameOk f → EmitOptStmt abi o f = some f' →
      FrameStep f.graph_.blocks.length f f'
  | .absent, c, f, f', _, _, hd, h => by
    have h2 : some f = some f' := h
    simp only [Option.some.injEq] at h2
    subst h2
    exact fstep_refl f hd
  | .present s, c, f, f', hi, hw, hd, h => by
    have h2 : (EmitStatement abi s none f).bind (fun r => some r.1) = some f' := h
    simp only [Option.bind_eq_some, Option.some.injEq] at h2
    obtain ⟨r1, h1, rfl⟩ := h2
    have hw1 : wfStmt c.inner s = true := hw
    exact frame_EmitStatement abi s none c.inner f r1 (inv_inner hi) rfl hw1 hd h1
theorem frame_EmitSwitchCases (abi : ABIArgGenerator) :
    ∀ (cases : Cases) (low : Int) (sb : Option BlockId) (table : List (Option BlockId))
      (c : Ctx) (f : FunctionCompiler) (r : FunctionCompiler × List (Option BlockId)),
      Inv c f → wfCases c cases = true → FrameOk f →
      EmitSwitchCases abi cases low sb table f = some r → FrameStep f.graph_.blocks.length f r.1
  | .nil, low, sb, table, c, f, r, _, _, hd, h => by
    have h2 : some (f, table) = some r := h
    simp only [Option.some.injEq] at h2
    subst h2
    exact fstep_refl f hd
  | .cons caseValue body rest, low, sb, table, c, f, r, hi, hw, hd, h => by
    have h2 : (caseIndex low caseValue table.length).bind (fun idx =>
        (EmitStatement abi body none ((f.advance 4).startSwitchCase sb).1).bind (fun r =>
          EmitSwitchCases abi rest low sb
            (table.set idx ((f.advance 4).startSwitchCase sb).2) r.1)) = some r := h
    simp only [Option.bind_eq_some] at h2
    obtain ⟨idx, -, r1, h1, h3⟩ := h2
    have hw1 : (wfStmt c.inner body && wfCases c rest) = true := hw
    simp only [Bool.and_eq_true] at hw1
    have s0 := step_advance c f 4
    have i0 := inv_step hi s0
    obtain ⟨q1, q2⟩ := startSwitchCase_quiet (f.advance 4) sb
    have i1 := inv_bk i0 q1
    have s2 := step_of_inner
      (step_EmitStatement abi body none c.inner _ r1 (inv_inner i1) rfl hw1.1 h1).1
    have D0 := frame_advance f 4 hd
    have D1 := frame_startSwitchCase (f.advance 4) sb (fstep_ok D0)
    have D2 := frame_EmitStatement abi body none c.inner _ r1 (inv_inner i1) rfl hw1.1
      (fstep_ok D1) h1
    have D3 := frame_EmitSwitchCases abi rest low sb _ c r1.1 r (inv_step i1 s2) hw1.2
      (fstep_ok D2) h3
    exact fstep_then D0 (fstep_then D1 (fstep_then D2 D3))
theorem frame_EmitStatement (abi : ABIArgGenerator) :
    ∀ (s : Stmt) (l : Option LabelVector) (c : Ctx) (f : FunctionCompiler)
      (r : FunctionCompiler × Option LabelVector),
      Inv c f → LabelsOk l c s → wfStmt c s = true → FrameOk f →
      EmitStatement abi s l f = some r → FrameStep f.graph_.blocks.length f r.1
  | .block stmts, l, c, f, r, hi, _, hw, hd, h => by
    have h2 : (EmitStatements abi stmts (f.advance 5)).bind (fun f1 => some (f1, l)) = some r := h
    simp only [Option.bind_eq_some, Option.some.injEq] at h2
    obtain ⟨f1, h1, rfl⟩ := h2
    have hw1 : wfStmts c.inner stmts = true := hw
    have s0 := step_advance c f 5
    have D0 := frame_advance f 5 hd
    exact fstep_then D0 (frame_EmitStatements abi stmts c.inner _ f1 (inv_inner (inv_step hi s0))
      hw1 (fstep_ok D0) h1)
  | .ifStmt chain, l, c, f, r, hi, _, hw, hd, h => by
    have h2 : (EmitIfElse abi chain [] (f.advance 1)).bind (fun f1 => some (f1, l)) = some r := h
    simp only [Option.bind_eq_some, Option.some.injEq] at h2
    obtain ⟨f1, h1, rfl⟩ := h2
    have hw1 : wfIf c chain = true := hw
    have s0 := step_advance c f 1
    have D0 := frame_advance f 1 hd
    exact fstep_then D0 (frame_EmitIfElse abi chain [] c _ f1 (inv_step hi s0) hw1 (fstep_ok D0)
      h1)
  | .switchStmt low high expr cases dflt, l, c, f, r, hi, _, hw, hd, h => by
    have h2 : (EmitExpr abi expr (f.advance 14)).bind (fun e =>
        if switchIsEmpty cases dflt then some (e.1, l)
        else (tableLength low high).bind (fun len =>
          (EmitSwitchCases abi cases low (e.1.startSwitch e.1.pc_ e.2 low high).2
            (List.replicate len none) (e.1.startSwitch e.1.pc_ e.2 low high).1).bind (fun cs =>
            (EmitOptStmt abi dflt
              (cs.1.startSwitchDefault (e.1.startSwitch e.1.pc_ e.2 low high).2).1).bind (fun f1 =>
              (f1.joinSwitch (e.1.startSwitch e.1.pc_ e.2 low high).2 cs.2
                (cs.1.startSwitchDefault (e.1.startSwitch e.1.pc_ e.2 low high).2).2).bind
                  (fun f2 => some (f2, l)))))) = some r := h
    simp only [Option.bind_eq_some] at h2
    obtain ⟨e, h1, h3⟩ := h2
    have hw1 : (wfExpr c expr && wfCases c.switchBody cases && wfOpt c.switchBody dflt) = true :=
      hw
    simp only [Bool.and_eq_true] at hw1
    obtain ⟨⟨w1, w2⟩, w3⟩ := hw1
    have s0 := step_advance c f 14
    have i0 := inv_step hi s0
    have s1 := step_of_noJump (step_EmitExpr abi expr c _ e i0 w1 h1)
    have i1 := inv_step i0 s1
    have D0 := frame_advance f 14 hd
    have D1 := frame_EmitExpr abi expr c _ e i0 w1 (fstep_ok D0) h1
    by_cases hempty : switchIsEmpty cases dflt = true
    · rw [if_pos hempty] at h3
      simp only [Option.some.injEq] at h3
      subst h3
      exact fstep_then D0 D1
    · rw [if_neg hempty] at h3
      simp only [Option.bind_eq_some, Option.some.injEq] at h3
      obtain ⟨len, -, cs, hcs, f1, hf1, f2, hj, rfl⟩ := h3
      have isw := inv_switchBody (inv_startSwitch i1 e.1.pc_ e.2 low high (Nat.le_refl _))
      obtain ⟨m2, d2⟩ := step_EmitSwitchCases abi cases low _ _ c.switchBody _ cs isw w2 hcs
      obtain ⟨q3, q4⟩ := startSwitchDefault_quiet cs.1 (e.1.startSwitch e.1.pc_ e.2 low high).2
      have i3 := inv_bk (inv_moves isw m2) q3
      have DS := frame_startSwitch e.1 e.1.pc_ e.2 low high (fstep_ok D1)
      have D2 := frame_EmitSwitchCases abi cases low _ _ c.switchBody _ cs isw w2 (fstep_ok DS)
        hcs
      have D3 := frame_startSwitchDefault cs.1 (e.1.startSwitch e.1.pc_ e.2 low high).2
        (fstep_ok D2)
      have D4 := frame_EmitOptStmt abi dflt c.switchBody _ f1 i3 w3 (fstep_ok D3) hf1
      have D5 := frame_joinSwitch f1 f2 _ _ _ (fstep_ok D4) hj
      exact fstep_then D0 (fstep_then D1 (fstep_then DS (fstep_then D2 (fstep_then D3
        (fstep_then D4 D5)))))
  | .whileStmt cond body, l, c, f, r, hi, hl, hw, hd, h => by
    have h2 : (EmitExpr abi cond ((f.advance 1).startPendingLoop (f.advance 1).pc_).1).bind
        (fun cr =>
          (EmitStatement abi body none (cr.1.branchAndStartLoopBody cr.2).1).bind (fun s =>
            ((s.1.bindContinues (f.advance 1).pc_ l).closeLoop
              ((f.advance 1).startPendingLoop (f.advance 1).pc_).2
              (cr.1.branchAndStartLoopBody cr.2).2).bind (fun f1 => some (f1, l)))) = some r := h
    simp only [Option.bind_eq_some, Option.some.injEq] at h2
    obtain ⟨cr, h1, s, hs, f1, hc, rfl⟩ := h2
    have hw1 : (wfExpr c cond && wfStmt c.loopBody body) = true := hw
    simp only [Bool.and_eq_true] at hw1
    have hlab : l.getD [] = c.pending := labelsOk_getD hl rfl
    have s0 := step_advance c f 1
    have i0 := inv_step hi s0
    have hfresh := (fresh_pos hi (f.advance 1).pc_ (Nat.lt_succ_self _)).1
    have iL := inv_startPendingLoop i0 (f.advance 1).pc_ (Nat.le_refl _)
    have s1 := step_EmitExpr abi cond c _ cr iL hw1.1 h1
    have i1 := inv_step iL (step_of_noJump s1)
    obtain ⟨q2, q3⟩ := branchAndStartLoopBody_quiet cr.1 cr.2
    have i2 := inv_loopBody (inv_bk i1 q2)
    have s3 := (step_EmitStatement abi body none c.loopBody _ s i2 rfl hw1.2 hs).1
    have hmid : Step c.loopBody ((f.advance 1).startPendingLoop (f.advance 1).pc_).1 s.1
        (cond.bytes + (0 + body.bytes)) :=
      step_trans (step_weaken s1 (fun h => by cases h) (fun h => by cases h)
        (fun _ h => absurd h (List.not_mem_nil _)) (fun _ h => absurd h (List.not_mem_nil _)))
        (step_trans (step_quiet _ _ _ q2 q3) s3)
    obtain ⟨iB, mB, sdB⟩ := loop_mid c (f.advance 1) s.1 (f.advance 1).pc_ _ l i0 (Nat.le_refl _)
      hfresh hlab hmid
    have D0 := frame_advance f 1 hd
    obtain ⟨DL, hH⟩ := frame_startPendingLoop (f.advance 1) (f.advance 1).pc_ (fstep_ok D0)
    have D1 := frame_EmitExpr abi cond c _ cr iL hw1.1 (fstep_ok DL) h1
    obtain ⟨DB, hA⟩ := frame_branchAndStartLoopBody cr.1 cr.2 (fstep_ok D1)
    have D3 := frame_EmitStatement abi body none c.loopBody _ s i2 rfl hw1.2 (fstep_ok DB) hs
    have D4 := frame_bindContinues s.1 (f.advance 1).pc_ l (fstep_ok D3)
    have Z := fstep_then (fstep_then (fstep_then (fstep_then DL D1) DB) D3) D4
    have hstk : (s.1.bindContinues (f.advance 1).pc_ l).loopStack_ = cr.1.loopStack_ :=
      mB.2.1.trans s1.1.2.1.symm
    have D5 := frame_closeLoop (f.advance 1).graph_.blocks.length _ f1 _ _ (fstep_ok Z) Z.2.1.1
      hH (fun hn => (sdB ((startPendingLoop_spec _ _).2.1
        ((startPendingLoop_spec _ _).2.2 hn)).1).1)
      (fun A hA1 => by rw [hstk]; exact heldAt_step (heldAt_step (hA A hA1).1 D3) D4) hc
    exact fstep_then D0 (fstep_trans Z D5 (Nat.le_refl _))
  | .doWhile body cond, l, c, f, r, hi, hl, hw, hd, h => by
    have h2 : (EmitStatement abi body none
        ((f.advance 1).startPendingLoop (f.advance 1).pc_).1).bind (fun s =>
          (EmitExpr abi cond (s.1.bindContinues (f.advance 1).pc_ l)).bind (fun cr =>
            (cr.1.branchAndCloseDoWhileLoop cr.2
              ((f.advance 1).startPendingLoop (f.advance 1).pc_).2).bind
                (fun f1 => some (f1, l)))) = some r := h
    simp only [Option.bind_eq_some, Option.some.injEq] at h2
    obtain ⟨s, hs, cr, h1, f1, hc, rfl⟩ := h2
    have hw1 : (wfStmt c.loopBody body && wfExpr c cond) = true := hw
    simp only [Bool.and_eq_true] at hw1
    have hlab : l.getD [] = c.pending := labelsOk_getD hl rfl
    have s0 := step_advance c f 1
    have i0 := inv_step hi s0
    have hfresh := (fresh_pos hi (f.advance 1).pc_ (Nat.lt_succ_self _)).1
    have iL := inv_startPendingLoop i0 (f.advance 1).pc_ (Nat.le_refl _)
    have hmid := (step_EmitStatement abi body none c.loopBody _ s (inv_loopBody iL) rfl
      hw1.1 hs).1
    obtain ⟨iB, -, sdB⟩ := loop_mid c (f.advance 1) s.1 (f.advance 1).pc_ _ l i0 (Nat.le_refl _)
      hfresh hlab hmid
    have s4 := step_EmitExpr abi cond c _ cr iB hw1.2 h1
    have D0 := frame_advance f 1 hd
    obtain ⟨DL, hH⟩ := frame_startPendingLoop (f.advance 1) (f.advance 1).pc_ (fstep_ok D0)
    have D2 := frame_EmitStatement abi body none c.loopBody _ s (inv_loopBody iL) rfl hw1.1
      (fstep_ok DL) hs
    have D3 := frame_bindContinues s.1 (f.advance 1).pc_ l (fstep_ok D2)
    have D4 := frame_EmitExpr abi cond c _ cr iB hw1.2 (fstep_ok D3) h1
    have Z := fstep_then (fstep_then (fstep_then DL D2) D3) D4
    have D5 := frame_doWhileClose (f.advance 1).graph_.blocks.length cr.1 f1 cr.2 _ (fstep_ok Z)
      Z.2.1.1 hH (fun hn => (s4.2 (sdB ((startPendingLoop_spec _ _).2.1
        ((startPendingLoop_spec _ _).2.2 hn)).1).1).1) hc
    exact fstep_then D0 (fstep_trans Z D5 (Nat.le_refl _))
  | .forStmt init cond body inc, l, c, f, r, hi, hl, hw, hd, h => by
    have h2 : (EmitOptStmt abi init (f.advance 1)).bind (fun f0 =>
        (EmitExpr abi cond (f0.startPendingLoop (f.advance 1).pc_).1).bind (fun cr =>
          (EmitStatement abi body none (cr.1.branchAndStartLoopBody cr.2).1).bind (fun s =>
            (EmitOptStmt abi inc (s.1.bindContinues (f.advance 1).pc_ l)).bind (fun f1 =>
              (f1.closeLoop (f0.startPendingLoop (f.advance 1).pc_).2
                (cr.1.branchAndStartLoopBody cr.2).2).bind (fun f2 => some (f2, l)))))) =
        some r := h
    simp only [Option.bind_eq_some, Option.some.injEq] at h2
    obtain ⟨f0, hf0, cr, h1, s, hs, f1, hf1, f2, hc, rfl⟩ := h2
    have hw1 : (wfOpt c.inner init && wfExpr c cond && wfStmt c.loopBody body &&
        wfOpt c.noJump inc) = true := hw
    simp only [Bool.and_eq_true] at hw1
    obtain ⟨⟨⟨w1, w2⟩, w3⟩, w4⟩ := hw1
    have hlab : l.getD [] = c.pending := labelsOk_getD hl rfl
    have s0 := step_advance c f 1
    have i0 := inv_step hi s0
    have sI := step_of_inner (step_EmitOptStmt abi init c.inner _ f0 (inv_inner i0) w1 hf0)
    have iI := inv_step i0 sI
    have hpos : (f.advance 1).pc_ ≤ f0.pc_ := by
      rw [sI.1.1]
      exact Nat.le_add_right _ _
    have hfresh : (f.advance 1).pc_ ∉ f0.loopStack_ := by
      rw [sI.1.2.1]
      exact (fresh_pos hi (f.advance 1).pc_ (Nat.lt_succ_self _)).1
    have iL := inv_startPendingLoop iI (f.advance 1).pc_ hpos
    have s1 := step_EmitExpr abi cond c _ cr iL w2 h1
    have i1 := inv_step iL (step_of_noJump s1)
    obtain ⟨q2, q3⟩ := branchAndStartLoopBody_quiet cr.1 cr.2
    have i2 := inv_loopBody (inv_bk i1 q2)
    have s3 := (step_EmitStatement abi body none c.loopBody _ s i2 rfl w3 hs).1
    have hmid : Step c.loopBody (f0.startPendingLoop (f.advance 1).pc_).1 s.1
        (cond.bytes + (0 + body.bytes)) :=
      step_trans (step_weaken s1 (fun h => by cases h) (fun h => by cases h)
        (fun _ h => absurd h (List.not_mem_nil _)) (fun _ h => absurd h (List.not_mem_nil _)))
        (step_trans (step_quiet _ _ _ q2 q3) s3)
    obtain ⟨iB, mB, sdB⟩ := loop_mid c f0 s.1 (f.advance 1).pc_ _ l iI hpos hfresh hlab hmid
    have s5 := step_EmitOptStmt abi inc c.noJump _ f1 (inv_noJump iB) w4 hf1
    have D0 := frame_advance f 1 hd
    have DI := frame_EmitOptStmt abi init c.inner _ f0 (inv_inner i0) w1 (fstep_ok D0) hf0
    obtain ⟨DL, hH⟩ := frame_startPendingLoop f0 (f.advance 1).pc_ (fstep_ok DI)
    have D1 := frame_EmitExpr abi cond c _ cr iL w2 (fstep_ok DL) h1
    obtain ⟨DB, hA⟩ := frame_branchAndStartLoopBody cr.1 cr.2 (fstep_ok D1)
    have D3 := frame_EmitStatement abi body none c.loopBody _ s i2 rfl w3 (fstep_ok DB) hs
    have D4 := frame_bindContinues s.1 (f.advance 1).pc_ l (fstep_ok D3)
    have D5 := frame_EmitOptStmt abi inc c.noJump _ f1 (inv_noJump iB) w4 (fstep_ok D4) hf1
    have Z := fstep_then (fstep_then (fstep_then (fstep_then (fstep_then DL D1) DB) D3) D4) D5
    have hstk : f1.loopStack_ = cr.1.loopStack_ :=
      s5.1.2.1.trans (mB.2.1.trans s1.1.2.1.symm)
    have D6 := frame_closeLoop f0.graph_.blocks.length f1 f2 _ _ (fstep_ok Z) Z.2.1.1
      hH (fun hn => (s5.2 (sdB ((startPendingLoop_spec _ _).2.1
        ((startPendingLoop_spec _ _).2.2 hn)).1).1).1)
      (fun A hA1 => by
        rw [hstk]
        exact heldAt_step (heldAt_step (heldAt_step (hA A hA1).1 D3) D4) D5) hc
    exact fstep_then D0 (fstep_then DI (fstep_trans Z D6 (Nat.le_refl _)))
  | .label labelId s, some labels, c, f, r, hi, hl, hw, hd, h => by
    have h2 : EmitStatement abi s (some (labels ++ [labelId])) (f.advance 5) = some r := h
    have hw0 : (if c.pending = [] then
        ((labelId :: s.chainLabels).Nodup && (labelId :: s.chainLabels).all (fun x => x ∉ c.scope) &&
          wfStmt (c.chain (labelId :: s.chainLabels)) s)
        else wfStmt c s) = true := hw
    rw [if_neg hl.2] at hw0
    have hl1 : labels ++ (labelId :: s.chainLabels) = c.pending := hl.1
    have hl' : LabelsOk (some (labels ++ [labelId])) c s :=
      ⟨by rw [List.append_assoc]; exact hl1, hl.2⟩
    have s0 := step_advance c f 5
    have D0 := frame_advance f 5 hd
    exact fstep_then D0 (frame_EmitStatement abi s _ c _ r (inv_step hi s0) hl' hw0
      (fstep_ok D0) h2)
  | .label labelId s, none, c, f, r, hi, hl, hw, hd, h => by
    have h2 : (EmitStatement abi s (some [labelId]) (f.advance 5)).bind (fun r =>
        some (r.1.bindLabeledBreaks r.2, none)) = some r := h
    simp only [Option.bind_eq_some, Option.some.injEq] at h2
    obtain ⟨r1, h1, rfl⟩ := h2
    have hw0 : (if c.pending = [] then
        ((labelId :: s.chainLabels).Nodup && (labelId :: s.chainLabels).all (fun x => x ∉ c.scope) &&
          wfStmt (c.chain (labelId :: s.chainLabels)) s)
        else wfStmt c s) = true := hw
    have hp : c.pending = [] := hl
    rw [if_pos hp] at hw0
    simp only [Bool.and_eq_true, List.all_eq_true, decide_eq_true_eq] at hw0
    obtain ⟨⟨-, wfresh⟩, w3⟩ := hw0
    have s0 := step_advance c f 5
    have i0 := inv_step hi s0
    have hl' : LabelsOk (some [labelId]) (c.chain (labelId :: s.chainLabels)) s :=
      ⟨rfl, List.cons_ne_nil _ _⟩
    have D0 := frame_advance f 5 hd
    have D1 := frame_EmitStatement abi s _ (c.chain (labelId :: s.chainLabels)) _ r1
      (inv_chain i0 _ wfresh) hl' w3 (fstep_ok D0) h1
    exact fstep_then D0 (fstep_then D1 (frame_bindLabeledBreaks r1.1 r1.2 (fstep_ok D1)))
  | .continueStmt, l, c, f, r, _, _, _, hd, h => by
    have h2 : ((f.advance 1).addContinue none).bind (fun f1 => some (f1, l)) = some r := h
    simp only [Option.bind_eq_some, Option.some.injEq] at h2
    obtain ⟨f1, h1, rfl⟩ := h2
    have D0 := frame_advance f 1 hd
    exact fstep_then D0 (frame_addContinue _ f1 none (fstep_ok D0) h1)
  | .continueLabel labelId, l, c, f, r, _, _, _, hd, h => by
    have h2 : some ((f.advance 5).addBreakOrContinue labelId .labeledContinues, l) = some r := h
    simp only [Option.some.injEq] at h2
    subst h2
    have D0 := frame_advance f 5 hd
    exact fstep_then D0 (frame_addBreakOrContinue _ labelId .labeledContinues (fstep_ok D0))
  | .breakStmt, l, c, f, r, _, _, _, hd, h => by
    have h2 : ((f.advance 1).addBreak none).bind (fun f1 => some (f1, l)) = some r := h
    simp only [Option.bind_eq_some, Option.some.injEq] at h2
    obtain ⟨f1, h1, rfl⟩ := h2
    have D0 := frame_advance f 1 hd
    exact fstep_then D0 (frame_addBreak _ f1 none (fstep_ok D0) h1)
  | .breakLabel labelId, l, c, f, r, _, _, _, hd, h => by
    have h2 : some ((f.advance 5).addBreakOrContinue labelId .labeledBreaks, l) = some r := h
    simp only [Option.some.injEq] at h2
    subst h2
    have D0 := frame_advance f 5 hd
    exact fstep_then D0 (frame_addBreakOrContinue _ labelId .labeledBreaks (fstep_ok D0))
  | .retVoid, l, c, f, r, _, _, _, hd, h => by
    have h2 : some ((f.advance 1).returnVoid, l) = some r := h
    simp only [Option.some.injEq] at h2
    subst h2
    have D0 := frame_advance f 1 hd
    exact fstep_then D0 (frame_returnVoid _ (fstep_ok D0))
  | .ret e, l, c, f, r, hi, _, hw, hd, h => by
    have h2 : (EmitExpr abi e (f.advance 1)).bind (fun r => some (r.1.returnExpr r.2, l)) =
        some r := h
    simp only [Option.bind_eq_some, Option.some.injEq] at h2
    obtain ⟨r1, h1, rfl⟩ := h2
    have hw1 : wfExpr c e = true := hw
    have s0 := step_advance c f 1
    have D0 := frame_advance f 1 hd
    have D1 := frame_EmitExpr abi e c (f.advance 1) r1 (inv_step hi s0) hw1 (fstep_ok D0) h1
    exact fstep_then D0 (fstep_then D1 (frame_returnExpr _ _ (fstep_ok D1)))
  | .exprStmt e, l, c, f, r, hi, _, hw, hd, h => by
    have h2 : (EmitExpr abi e (f.advance 1)).bind (fun r => some (r.1, l)) = some r := h
    simp only [Option.bind_eq_some, Option.some.injEq] at h2
    obtain ⟨r1, h1, rfl⟩ := h2
    have hw1 : wfExpr c e = true := hw
    have s0 := step_advance c f 1
    have D0 := frame_advance f 1 hd
    exact fstep_then D0 (frame_EmitExpr abi e c (f.advance 1) r1 (inv_step hi s0) hw1
      (fstep_ok D0) h1)
  | .callStmt ce, l, c, f, r, hi, _, hw, hd, h => by
    have h2 : (EmitCall abi ce (f.advance 1)).bind (fun r => some (r.1, l)) = some r := h
    simp only [Option.bind_eq_some, Option.some.injEq] at h2
    obtain ⟨r1, h1, rfl⟩ := h2
    have hw1 : wfCall c ce = true := hw
    have s0 := step_advance c f 1
    have D0 := frame_advance f 1 hd
    exact fstep_then D0 (frame_EmitCall abi ce c (f.advance 1) r1 (inv_step hi s0) hw1
      (fstep_ok D0) h1)
  | .atomicsFence, l, c, f, r, _, _, _, hd, h => by
    have h2 : some ((f.advance 1).memoryBarrier, l) = some r := h
    simp only [Option.some.injEq] at h2
    subst h2
    have D0 := frame_advance f 1 hd
    have D1 : FrameStep (f.advance 1).graph_.blocks.length (f.advance 1)
        (f.advance 1).memoryBarrier := frame_emit _ _ _ (fstep_ok D0)
    exact fstep_then D0 D1
  | .noop, l, c, f, r, _, _, _, hd, h => by
    have h2 : some (f.advance 1, l) = some r := h
    simp only [Option.some.injEq] at h2
    subst h2
    exact frame_advance f 1 hd
  | .idStmt s, l, c, f, r, hi, _, hw, hd, h => by
    have h2 : (EmitStatement abi s none (f.advance 1)).bind (fun r => some (r.1, l)) = some r := h
    simp only [Option.bind_eq_some, Option.some.injEq] at h2
    obtain ⟨r1, h1, rfl⟩ := h2
    have hw1 : wfStmt c.inner s = true := hw
    have s0 := step_advance c f 1
    have D0 := frame_advance f 1 hd
    exact fstep_then D0 (frame_EmitStatement abi s none c.inner _ r1
      (inv_inner (inv_step hi s0)) rfl hw1 (fstep_ok D0) h1)
  | .interruptCheckHead, l, c, f, r, _, _, _, hd, h => by
    have h2 : some ((f.advance 9).addInterruptCheck, l) = some r := h
    simp only [Option.some.injEq] at h2
    subst h2
    have D0 := frame_advance f 9 hd
    have D1 : FrameStep (f.advance 9).graph_.blocks.length (f.advance 9)
        (f.advance 9).addInterruptCheck := frame_emit _ _ _ (fstep_ok D0)
    exact fstep_then D0 D1
  | .interruptCheckLoop s, l, c, f, r, hi, _, hw, hd, h => by
    have h2 : (EmitStatement abi s none (f.advance 9).addInterruptCheck).bind
        (fun r => some (r.1, l)) = some r := h
    simp only [Option.bind_eq_some, Option.some.injEq] at h2
    obtain ⟨r1, h1, rfl⟩ := h2
    have hw1 : wfStmt c.inner s = true := hw
    have s0 := step_advance c f 9
    have s1 : Step c (f.advance 9) (f.advance 9).addInterruptCheck 0 :=
      step_quiet2 c (emit_quiet _ _ _)
    have i1 := inv_step (inv_step hi s0) s1
    have D0 := frame_advance f 9 hd
    have D1 : FrameStep (f.advance 9).graph_.blocks.length (f.advance 9)
        (f.advance 9).addInterruptCheck := frame_emit _ _ _ (fstep_ok D0)
    have D2 := frame_EmitStatement abi s none c.inner _ r1 (inv_inner i1) rfl hw1 (fstep_ok D1) h1
    exact fstep_then D0 (fstep_then D1 D2)
end

/-! ## Statements entered in dead code (C26) -/

theorem idle_refl (f : FunctionCompiler) (hd : f.curBlock_ = none) : Idle f f := ⟨hd, rfl⟩

theorem idle_of_eq {f f' : FunctionCompiler} (hd : f.curBlock_ = none) (h : f' = f) :
    Idle f f' := by
  subst h
  exact idle_refl _ hd

theorem idle_dead {f f' : FunctionCompiler} (h : Idle f f') : f'.curBlock_ = none := by
  rw [h.2]
  exact h.1

theorem idle_then {f f1 f2 : FunctionCompiler} (h1 : Idle f f1) (h2 : Idle f1 f2) :
    Idle f f2 := by
  obtain ⟨d1, e1⟩ := h1
  obtain ⟨-, e2⟩ := h2
  refine ⟨d1, ?_⟩
  rw [e1] at e2
  exact e2

theorem idle_advance (f : FunctionCompiler) (n : Nat) (hd : f.curBlock_ = none) :
    Idle f (f.advance n) := ⟨hd, rfl⟩

theorem idle_fields {f f' : FunctionCompiler} (h : Idle f f') :
    f'.graph_ = f.graph_ ∧ f'.maps = f.maps ∧ f'.loopStack_ = f.loopStack_ ∧
    f'.breakableStack_ = f.breakableStack_ ∧ f'.curBlock_ = none ∧
    f'.maxAsmJSStackArgBytes_ = f.maxAsmJSStackArgBytes_ ∧ f'.numLocals = f.numLocals := by
  obtain ⟨d, e⟩ := h
  rw [e]
  exact ⟨rfl, rfl, rfl, rfl, d, rfl, rfl⟩

theorem idle_emit (f : FunctionCompiler) (op : MOpcode) (ops : List (Option DefId))
    (hd : f.curBlock_ = none) : Idle f (f.emit op ops).1 :=
  idle_of_eq hd (by rw [emit_dead f hd])

theorem idle_assign (f : FunctionCompiler) (slot : Nat) (d : Option DefId)
    (hd : f.curBlock_ = none) : Idle f (f.assign slot d) :=
  idle_of_eq hd (by unfold assign; rw [hd])

theorem idle_startCallArgs (f : FunctionCompiler) (call : Call) (hd : f.curBlock_ = none) :
    Idle f (f.startCallArgs call).1 :=
  idle_of_eq hd (by unfold startCallArgs; rw [hd])

theorem idle_passArg (abi : ABIArgGenerator) (f : FunctionCompiler) (d : Option DefId)
    (t : MIRType) (call : Call) (hd : f.curBlock_ = none) : Idle f (passArg abi f d t call).1 :=
  idle_of_eq hd (by unfold passArg; rw [hd])

theorem idle_finishCallArgs (abi : ABIArgGenerator) (f : FunctionCompiler) (call : Call)
    (hd : f.curBlock_ = none) : Idle f (finishCallArgs abi f call).1 :=
  idle_of_eq hd (by unfold finishCallArgs; rw [hd])

theorem idle_callPrivate (f : FunctionCompiler) (callee : Callee) (call : Call)
    (hd : f.curBlock_ = none) : Idle f (f.callPrivate callee call).1 :=
  idle_emit f _ _ hd

theorem idle_funcPtrCall (f : FunctionCompiler) (m g : Nat) (index : Option DefId) (call : Call)
    (hd : f.curBlock_ = none) : Idle f (f.funcPtrCall m g index call).1 :=
  idle_of_eq hd (by unfold funcPtrCall; rw [hd])

theorem idle_ffiCall (f : FunctionCompiler) (g : Nat) (call : Call) (hd : f.curBlock_ = none) :
    Idle f (f.ffiCall g call).1 :=
  idle_of_eq hd (by unfold ffiCall; rw [hd])

theorem idle_emitDirectCall (kind : CallKind) (fin : FunctionCompiler × Call)
    (hd : fin.1.curBlock_ = none) : Idle fin.1 (emitDirectCall kind fin).1 := by
  cases kind with
  | Internal i => exact idle_callPrivate _ _ _ hd
  | FFI g => exact idle_ffiCall _ _ _ hd
  | MathBuiltin b => exact idle_callPrivate _ _ _ hd

theorem idle_returnVoid (f : FunctionCompiler) (hd : f.curBlock_ = none) : Idle f f.returnVoid :=
  idle_of_eq hd (by unfold returnVoid; rw [hd])

theorem idle_returnExpr (f : FunctionCompiler) (e : Option DefId) (hd : f.curBlock_ = none) :
    Idle f (f.returnExpr e) :=
  idle_of_eq hd (by unfold returnExpr; rw [hd])

theorem idle_addBreakOrContinue (f : FunctionCompiler) (key : Nat) (sel : MapSel)
    (hd : f.curBlock_ = none) : Idle f (f.addBreakOrContinue key sel) :=
  idle_of_eq hd (addBreakOrContinue_dead f hd key sel)

theorem idle_addBreak (f f' : FunctionCompiler) (l : Option Nat) (hd : f.curBlock_ = none)
    (h : f.addBreak l = some f') : Idle f f' := by
  unfold addBreak at h
  cases l with
  | some labelId =>
    simp only [Option.some.injEq] at h
    subst h
    exact idle_addBreakOrContinue f _ _ hd
  | none =>
    dsimp only at h
    split at h
    · cases h
    · simp only [Option.some.injEq] at h
      subst h
      exact idle_addBreakOrContinue f _ _ hd

theorem idle_addContinue (f f' : FunctionCompiler) (l : Option Nat) (hd : f.curBlock_ = none)
    (h : f.addContinue l = some f') : Idle f f' := by
  unfold addContinue at h
  cases l with
  | some labelId =>
    simp only [Option.some.injEq] at h
    subst h
    exact idle_addBreakOrContinue f _ _ hd
  | none =>
    dsimp only at h
    split at h
    · cases h
    · simp only [Option.some.injEq] at h
      subst h
      exact idle_addBreakOrContinue f _ _ hd

theorem idle_pushPhiInput (f : FunctionCompiler) (d : Option DefId) (hd : f.curBlock_ = none) :
    Idle f (f.pushPhiInput d) :=
  idle_of_eq hd (pushPhiInput_dead f d hd)

theorem idle_popPhiOutput (f : FunctionCompiler) (hd : f.curBlock_ = none) :
    Idle f f.popPhiOutput.1 :=
  idle_of_eq hd (by rw [popPhiOutput_dead f hd])

theorem idle_branchAndStartThen (f : FunctionCompiler) (cond : Option DefId)
    (hd : f.curBlock_ = none) :
    Idle f (f.branchAndStartThen cond none none).1 ∧
    (f.branchAndStartThen cond none none).2.2 = none := by
  rw [branchAndStartThen_dead f cond hd]
  exact ⟨idle_refl f hd, rfl⟩

theorem idle_joinIfElse (f : FunctionCompiler) (hd : f.curBlock_ = none) :
    Idle f (f.joinIfElse []) :=
  idle_of_eq hd (joinIfElse_dead_empty f hd)

theorem idle_branchAndStartLoopBody (f : FunctionCompiler) (cond : Option DefId)
    (hd : f.curBlock_ = none) :
    Idle f (f.branchAndStartLoopBody cond).1 ∧ (f.branchAndStartLoopBody cond).2 = none := by
  rw [branchAndStartLoopBody_dead f cond hd]
  exact ⟨idle_refl f hd, rfl⟩

/-- A loop started in dead code: `popLoop` undoes the pushes of
`startPendingLoop` and `closeLoop` returns. -/
theorem idle_closeLoop (f g f' : FunctionCompiler) (pos : Nat) (al : Option BlockId)
    (hd : f.curBlock_ = none) (hg : Idle (f.startPendingLoop pos).1 g)
    (h : g.closeLoop none al = some f') : Idle f f' := by
  obtain ⟨-, e⟩ := hg
  rw [startPendingLoop_dead f pos hd] at e
  generalize g.pc_ = p at e
  subst e
  refine ⟨hd, ?_⟩
  simp [closeLoop, popLoop] at h
  subst h
  rfl

theorem idle_doWhileClose (f g f' : FunctionCompiler) (pos : Nat) (cond : Option DefId)
    (hd : f.curBlock_ = none) (hg : Idle (f.startPendingLoop pos).1 g)
    (h : g.branchAndCloseDoWhileLoop cond none = some f') : Idle f f' := by
  obtain ⟨-, e⟩ := hg
  rw [startPendingLoop_dead f pos hd] at e
  generalize g.pc_ = p at e
  subst e
  refine ⟨hd, ?_⟩
  simp [branchAndCloseDoWhileLoop, popLoop] at h
  subst h
  rfl

theorem startSwitch_dead (f : FunctionCompiler) (pos : Nat) (e : Option DefId) (low high : Int)
    (hd : f.curBlock_ = none) :
    f.startSwitch pos e low high =
      ({ f with breakableStack_ := f.breakableStack_ ++ [pos] }, none) := by
  unfold startSwitch
  simp only [hd]

theorem idle_joinSwitch (f g f' : FunctionCompiler) (pos : Nat) (e : Option DefId)
    (low high : Int) (cases : List (Option BlockId)) (d : Option BlockId)
    (hd : f.curBlock_ = none) (hg : Idle (f.startSwitch pos e low high).1 g)
    (h : g.joinSwitch none cases d = some f') : Idle f f' := by
  obtain ⟨-, e⟩ := hg
  rw [startSwitch_dead f pos _ low high hd] at e
  generalize g.pc_ = p at e
  subst e
  refine ⟨hd, ?_⟩
  simp [joinSwitch] at h
  subst h
  rfl

/-- In a loop entered in dead code `bindContinues` finds no entry. -/
theorem idle_bindContinues (c : Ctx) (f0 g : FunctionCompiler) (pos : Nat)
    (l : Option LabelVector) (hi : Inv c f0) (hfresh : pos ∉ f0.loopStack_)
    (hlab : l.getD [] = c.pending) (hg : Idle (f0.startPendingLoop pos).1 g) : Idle g (g.bindContinues pos l) := by
  obtain ⟨g1, g2, g3, g4, g5, -, -⟩ := idle_fields hg
  have hm : g.maps = f0.maps := g2.trans (startPendingLoop_fields f0 pos).2.1
  have h1 : g.unlabeledContinues_ = f0.unlabeledContinues_ :=
    congrArg (fun m => m.2.1) hm
  have h2 : g.labeledContinues_ = f0.labeledContinues_ :=
    congrArg (fun m => m.2.2.2) hm
  refine idle_of_eq g5 ((bindContinues_spec g pos l).2.2.2.2.2.2.2 ?_ ?_)
  · rw [h1]
    exact fun hk => hfresh (hi.2.2.1 pos hk)
  · intro x hx
    rw [h2]
    rw [hlab] at hx
    exact fun hk => (hi.2.2.2.2.2.2 x hk).2 hx

/-- In a label statement entered in dead code `bindLabeledBreaks` finds no
entry. -/
theorem idle_bindLabeledBreaks (c : Ctx) (f g : FunctionCompiler) (labels : List Nat)
    (hi : Inv c f) (hfresh : ∀ x ∈ labels, x ∉ c.scope) (hg : Idle f g) :
    Idle g (g.bindLabeledBreaks (some labels)) := by
  obtain ⟨g1, g2, g3, g4, g5, -, -⟩ := idle_fields hg
  have h1 : g.labeledBreaks_ = f.labeledBreaks_ := congrArg (fun m => m.2.2.1) g2
  refine idle_of_eq g5 ((bindLabeledBreaks_spec g (some labels)).2.2.2.2.2.2.2 ?_)
  intro x hx
  rw [h1]
  exact fun hk => hfresh x hx (hi.2.2.2.2.2.1 x hk)

/-! ### The decoder functions in dead code -/

set_option maxHeartbeats 4000000 in
mutual
theorem dead_EmitExpr (abi : ABIArgGenerator) :
    ∀ (e : Expr) (c : Ctx) (f : FunctionCompiler) (r : FunctionCompiler × Option DefId),
      Inv c f → wfExpr c e = true → f.curBlock_ = none → EmitExpr abi e f = some r →
      Idle f r.1
  | .literal type v, c, f, r, _, _, hd, h => by
    have h2 : some ((f.advance (1 + literalWidth type)).constant v (MIRTypeFromAsmType type)) =
        some r := h
    simp only [Option.some.injEq] at h2
    subst h2
    have D0 := idle_advance f (1 + literalWidth type) hd
    exact idle_then D0 (idle_emit _ _ _ (idle_dead D0))
  | .getLocal slot, c, f, r, _, _, hd, h => by
    have h2 : some (f.advance 5, (f.advance 5).getLocalDef slot) = some r := h
    simp only [Option.some.injEq] at h2
    subst h2
    exact idle_advance f 5 hd
  | .setLocal slot e, c, f, r, hi, hw, hd, h => by
    have h2 : (EmitExpr abi e (f.advance 5)).bind (fun r => some (r.1.assign slot r.2, r.2)) =
        some r := h
    simp only [Option.bind_eq_some, Option.some.injEq] at h2
    obtain ⟨r1, h1, rfl⟩ := h2
    have hw1 : wfExpr c e = true := hw
    have s0 := step_advance c.noJump f 5
    have D0 := idle_advance f 5 hd
    have D1 := dead_EmitExpr abi e c (f.advance 5) r1 (inv_step hi (step_of_noJump s0)) hw1
      (idle_dead D0) h1
    exact idle_then D0 (idle_then D1 (idle_assign _ _ _ (idle_dead D1)))
  | .idExpr e, c, f, r, hi, hw, hd, h => by
    have h2 : EmitExpr abi e (f.advance 1) = some r := h
    have hw1 : wfExpr c e = true := hw
    have s0 := step_advance c.noJump f 1
    have D0 := idle_advance f 1 hd
    exact idle_then D0 (dead_EmitExpr abi e c _ r (inv_step hi (step_of_noJump s0)) hw1
      (idle_dead D0) h2)
  | .operator o args, c, f, r, hi, hw, hd, h => by
    have h2 : (EmitOperands abi args (f.advance (1 + o.immBefore))).bind (fun r =>
        some (((r.1.advance o.immAfter).emitOp o.code r.2).1,
          if o.yieldsLast then r.2.getLast?.join
          else ((r.1.advance o.immAfter).emitOp o.code r.2).2)) = some r := h
    simp only [Option.bind_eq_some, Option.some.injEq] at h2
    obtain ⟨r1, h1, rfl⟩ := h2
    have hw1 : wfArgs c args = true := hw
    have s0 := step_advance c.noJump f (1 + o.immBefore)
    have D0 := idle_advance f (1 + o.immBefore) hd
    have D1 := dead_EmitOperands abi args c _ r1 (inv_step hi (step_of_noJump s0)) hw1
      (idle_dead D0) h1
    have D2 := idle_advance r1.1 o.immAfter (idle_dead D1)
    have D3 : Idle (r1.1.advance o.immAfter)
        ((r1.1.advance o.immAfter).emitOp o.code r1.2).1 := idle_emit _ _ _ (idle_dead D2)
    exact idle_then D0 (idle_then D1 (idle_then D2 D3))
  | .minMax first rest, c, f, r, hi, hw, hd, h => by
    have h2 : (EmitExpr abi first (f.advance 2)).bind
        (fun r => EmitMinMaxRest abi rest r.2 r.1) = some r := h
    simp only [Option.bind_eq_some] at h2
    obtain ⟨r1, h1, h3⟩ := h2
    have hw1 : (wfExpr c first && wfArgs c rest) = true := hw
    simp only [Bool.and_eq_true] at hw1
    have s0 := step_advance c.noJump f 2
    have i0 := inv_step hi (step_of_noJump s0)
    have s1 := step_EmitExpr abi first c _ r1 i0 hw1.1 h1
    have D0 := idle_advance f 2 hd
    have D1 := dead_EmitExpr abi first c _ r1 i0 hw1.1 (idle_dead D0) h1
    have D2 := dead_EmitMinMaxRest abi rest r1.2 c r1.1 r (inv_step i0 (step_of_noJump s1))
      hw1.2 (idle_dead D1) h3
    exact idle_then D0 (idle_then D1 D2)
  | .storeWithCoercion ptr rhs, c, f, r, hi, hw, hd, h => by
    have h2 : (EmitExpr abi ptr (f.advance 2)).bind (fun p =>
        (EmitExpr abi rhs p.1).bind (fun r =>
          some (((r.1.emitOp Op.coerce [r.2]).1.emitOp Op.storeHeap
            [p.2, (r.1.emitOp Op.coerce [r.2]).2]).1, r.2))) = some r := h
    simp only [Option.bind_eq_some, Option.some.injEq] at h2
    obtain ⟨p, h1, r1, h3, rfl⟩ := h2
    have hw1 : (wfExpr c ptr && wfExpr c rhs) = true := hw
    simp only [Bool.and_eq_true] at hw1
    have s0 := step_advance c.noJump f 2
    have i0 := inv_step hi (step_of_noJump s0)
    have s1 := step_EmitExpr abi ptr c _ p i0 hw1.1 h1
    have D0 := idle_advance f 2 hd
    have D1 := dead_EmitExpr abi ptr c _ p i0 hw1.1 (idle_dead D0) h1
    have D2 := dead_EmitExpr abi rhs c _ r1 (inv_step i0 (step_of_noJump s1)) hw1.2
      (idle_dead D1) h3
    have D3 : Idle r1.1 (r1.1.emitOp Op.coerce [r1.2]).1 :=
      idle_emit _ _ _ (idle_dead D2)
    have D4 : Idle (r1.1.emitOp Op.coerce [r1.2]).1
        ((r1.1.emitOp Op.coerce [r1.2]).1.emitOp Op.storeHeap
          [p.2, (r1.1.emitOp Op.coerce [r1.2]).2]).1 := idle_emit _ _ _ (idle_dead D3)
    exact idle_then D0 (idle_then D1 (idle_then D2 (idle_then D3 D4)))
  | .call ce, c, f, r, hi, hw, hd, h => by
    have h2 : EmitCall abi ce (f.advance 1) = some r := h
    have hw1 : wfCall c ce = true := hw
    have s0 := step_advance c.noJump f 1
    have D0 := idle_advance f 1 hd
    exact idle_then D0 (dead_EmitCall abi ce c _ r (inv_step hi (step_of_noJump s0)) hw1
      (idle_dead D0) h2)
  | .conditional cond ifTrue ifFalse, c, f, r, hi, hw, hd, h => by
    have h2 : (EmitExpr abi cond (f.advance 1)).bind (fun cr =>
        (EmitExpr abi ifTrue (cr.1.branchAndStartThen cr.2 none none).1).bind (fun t =>
          (EmitExpr abi ifFalse ((t.1.pushPhiInput t.2).switchToElse
              (cr.1.branchAndStartThen cr.2 none none).2.2)).bind (fun e =>
            some (((e.1.pushPhiInput e.2).joinIfElse (t.1.appendThenBlock [])).popPhiOutput)))) =
        some r := h
    simp only [Option.bind_eq_some, Option.some.injEq] at h2
    obtain ⟨cr, h1, t, ht, e, he, rfl⟩ := h2
    have hw1 : (wfExpr c cond && wfExpr c ifTrue && wfExpr c ifFalse) = true := hw
    simp only [Bool.and_eq_true] at hw1
    obtain ⟨⟨w1, w2⟩, w3⟩ := hw1
    have s0 := step_advance c.noJump f 1
    have i0 := inv_step hi (step_of_noJump s0)
    have s1 := step_EmitExpr abi cond c _ cr i0 w1 h1
    have i1 := inv_step i0 (step_of_noJump s1)
    obtain ⟨q1, q2⟩ := branchAndStartThen_quiet cr.1 cr.2 none none
    have i2 : Inv c (cr.1.branchAndStartThen cr.2 none none).1 := inv_bk i1 q1
    have s3 := step_EmitExpr abi ifTrue c _ t i2 w2 ht
    have i3 := inv_step i2 (step_of_noJump s3)
    have i4 : Inv c (t.1.pushPhiInput t.2) := inv_bk i3 (pushPhiInput_quiet _ _).1
    have D0 := idle_advance f 1 hd
    have D1 := dead_EmitExpr abi cond c _ cr i0 w1 (idle_dead D0) h1
    obtain ⟨DB, hE⟩ := idle_branchAndStartThen cr.1 cr.2 (idle_dead D1)
    have D3 := dead_EmitExpr abi ifTrue c _ t i2 w2 (idle_dead DB) ht
    have DP := idle_pushPhiInput t.1 t.2 (idle_dead D3)
    have he2 : EmitExpr abi ifFalse (t.1.pushPhiInput t.2) = some e := by
      rw [hE] at he
      exact he
    have D5 := dead_EmitExpr abi ifFalse c _ e i4 w3 (idle_dead DP) he2
    have D6 := idle_pushPhiInput e.1 e.2 (idle_dead D5)
    rw [appendThenBlock_dead t.1 [] (idle_dead D3)]
    have D7 := idle_joinIfElse (e.1.pushPhiInput e.2) (idle_dead D6)
    have D8 := idle_popPhiOutput _ (idle_dead D7)
    exact idle_then D0 (idle_then D1 (idle_then DB (idle_then D3 (idle_then DP (idle_then D5
      (idle_then D6 (idle_then D7 D8)))))))
  | .comma stmts last, c, f, r, hi, hw, hd, h => by
    have h2 : (EmitStatements abi stmts (f.advance 5)).bind (fun f1 => EmitExpr abi last f1) =
        some r := h
    simp only [Option.bind_eq_some] at h2
    obtain ⟨f1, h1, h3⟩ := h2
    have hw1 : (wfStmts c.noJump stmts && wfExpr c last) = true := hw
    simp only [Bool.and_eq_true] at hw1
    have s0 := step_advance c.noJump f 5
    have i0 := inv_step hi (step_of_noJump s0)
    have s1 := step_EmitStatements abi stmts c.noJump (f.advance 5) f1 (inv_noJump i0) hw1.1 h1
    have D0 := idle_advance f 5 hd
    have D1 := dead_EmitStatements abi stmts c.noJump (f.advance 5) f1 (inv_noJump i0) hw1.1
      (idle_dead D0) h1
    have D2 := dead_EmitExpr abi last c f1 r (inv_step i0 (step_of_noJump s1)) hw1.2
      (idle_dead D1) h3
    exact idle_then D0 (idle_then D1 D2)
theorem dead_EmitOperands (abi : ABIArgGenerator) :
    ∀ (args : Args) (c : Ctx) (f : FunctionCompiler)
      (r : FunctionCompiler × List (Option DefId)),
      Inv c f → wfArgs c args = true → f.curBlock_ = none → EmitOperands abi args f = some r →
      Idle f r.1
  | .nil, c, f, r, _, _, hd, h => by
    have h2 : some (f, ([] : List (Option DefId))) = some r := h
    simp only [Option.some.injEq] at h2
    subst h2
    exact idle_refl f hd
  | .cons _ e rest, c, f, r, hi, hw, hd, h => by
    have h2 : (EmitExpr abi e f).bind (fun r =>
        (EmitOperands abi rest r.1).bind (fun rs => some (rs.1, r.2 :: rs.2))) = some r := h
    simp only [Option.bind_eq_some, Option.some.injEq] at h2
    obtain ⟨r1, h1, rs, h3, rfl⟩ := h2
    have hw1 : (wfExpr c e && wfArgs c rest) = true := hw
    simp only [Bool.and_eq_true] at hw1
    have s1 := step_EmitExpr abi e c f r1 hi hw1.1 h1
    have D1 := dead_EmitExpr abi e c f r1 hi hw1.1 hd h1
    have D2 := dead_EmitOperands abi rest c r1.1 rs (inv_step hi (step_of_noJump s1)) hw1.2
      (idle_dead D1) h3
    exact idle_then D1 D2
theorem dead_EmitMinMaxRest (abi : ABIArgGenerator) :
    ∀ (args : Args) (d : Option DefId) (c : Ctx) (f : FunctionCompiler)
      (r : FunctionCompiler × Option DefId),
      Inv c f → wfArgs c args = true → f.curBlock_ = none → EmitMinMaxRest abi args d f = some r →
      Idle f r.1
  | .nil, d, c, f, r, _, _, hd, h => by
    have h2 : some (f, d) = some r := h
    simp only [Option.some.injEq] at h2
    subst h2
    exact idle_refl f hd
  | .cons _ e rest, d, c, f, r, hi, hw, hd, h => by
    have h2 : (EmitExpr abi e f).bind (fun r =>
        EmitMinMaxRest abi rest (r.1.emitOp Op.minMax [d, r.2]).2
          (r.1.emitOp Op.minMax [d, r.2]).1) = some r := h
    simp only [Option.bind_eq_some] at h2
    obtain ⟨r1, h1, h3⟩ := h2
    have hw1 : (wfExpr c e && wfArgs c rest) = true := hw
    simp only [Bool.and_eq_true] at hw1
    have s1 := step_EmitExpr abi e c f r1 hi hw1.1 h1
    have i1 := inv_step hi (step_of_noJump s1)
    have s2 : Step c.noJump r1.1 (r1.1.emitOp Op.minMax [d, r1.2]).1 0 :=
      step_quiet2 _ (emit_quiet _ _ _)
    have D1 := dead_EmitExpr abi e c f r1 hi hw1.1 hd h1
    have D2 : Idle r1.1 (r1.1.emitOp Op.minMax [d, r1.2]).1 :=
      idle_emit _ _ _ (idle_dead D1)
    have D3 := dead_EmitMinMaxRest abi rest _ c _ r (inv_step i1 (step_of_noJump s2)) hw1.2
      (idle_dead D2) h3
    exact idle_then D1 (idle_then D2 D3)
theorem dead_EmitCallArgsLoop (abi : ABIArgGenerator) :
    ∀ (args : Args) (call : Call) (c : Ctx) (f : FunctionCompiler)
      (r : FunctionCompiler × Call),
      Inv c f → wfArgs c args = true → f.curBlock_ = none → EmitCallArgsLoop abi args call f = some r →
      Idle f r.1
  | .nil, call, c, f, r, _, _, hd, h => by
    have h2 : some (f, call) = some r := h
    simp only [Option.some.injEq] at h2
    subst h2
    exact idle_refl f hd
  | .cons type e rest, call, c, f, r, hi, hw, hd, h => by
    have h2 : (EmitExpr abi e f).bind (fun r =>
        EmitCallArgsLoop abi rest
          (FunctionCompiler.passArg abi r.1 r.2 (MIRTypeFromAsmType type) call).2
          (FunctionCompiler.passArg abi r.1 r.2 (MIRTypeFromAsmType type) call).1) = some r := h
    simp only [Option.bind_eq_some] at h2
    obtain ⟨r1, h1, h3⟩ := h2
    have hw1 : (wfExpr c e && wfArgs c rest) = true := hw
    simp only [Bool.and_eq_true] at hw1
    have s1 := step_EmitExpr abi e c f r1 hi hw1.1 h1
    have i1 := inv_step hi (step_of_noJump s1)
    have s2 : Step c.noJump r1.1
        (FunctionCompiler.passArg abi r1.1 r1.2 (MIRTypeFromAsmType type) call).1 0 :=
      step_quiet2 _ (passArg_quiet _ _ _ _ _)
    have D1 := dead_EmitExpr abi e c f r1 hi hw1.1 hd h1
    have D2 := idle_passArg abi r1.1 r1.2 (MIRTypeFromAsmType type) call (idle_dead D1)
    have D3 := dead_EmitCallArgsLoop abi rest _ c _ r (inv_step i1 (step_of_noJump s2)) hw1.2
      (idle_dead D2) h3
    exact idle_then D1 (idle_then D2 D3)
theorem dead_EmitCall (abi : ABIArgGenerator) :
    ∀ (ce : CallExpr) (c : Ctx) (f : FunctionCompiler) (r : FunctionCompiler × Option DefId),
      Inv c f → wfCall c ce = true → f.curBlock_ = none → EmitCall abi ce f = some r →
      Idle f r.1
  | .direct kind lineno column args, c, f, r, hi, hw, hd, h => by
    have h2 : (EmitCallArgsLoop abi args
        ((f.advance kind.immBytes).startCallArgs (Call.new lineno column)).2
        ((f.advance kind.immBytes).startCallArgs (Call.new lineno column)).1).bind (fun a =>
          some (emitDirectCall kind (FunctionCompiler.finishCallArgs abi a.1 a.2))) = some r := h
    simp only [Option.bind_eq_some, Option.some.injEq] at h2
    obtain ⟨a, h1, rfl⟩ := h2
    have hw1 : wfArgs c args = true := hw
    have s0 := step_advance c.noJump f kind.immBytes
    have i0 := inv_step hi (step_of_noJump s0)
    have s1 : Step c.noJump (f.advance kind.immBytes)
        ((f.advance kind.immBytes).startCallArgs (Call.new lineno column)).1 0 :=
      step_quiet2 _ (startCallArgs_quiet _ _)
    have D0 := idle_advance f kind.immBytes hd
    have D1 := idle_startCallArgs (f.advance kind.immBytes) (Call.new lineno column) (idle_dead D0)
    have D2 := dead_EmitCallArgsLoop abi args _ c _ a (inv_step i0 (step_of_noJump s1)) hw1
      (idle_dead D1) h1
    have D3 := idle_finishCallArgs abi a.1 a.2 (idle_dead D2)
    have D4 := idle_emitDirectCall kind (FunctionCompiler.finishCallArgs abi a.1 a.2)
      (idle_dead D3)
    exact idle_then D0 (idle_then D1 (idle_then D2 (idle_then D3 D4)))
  | .indirect mask globalDataOffset lineno column index args, c, f, r, hi, hw, hd, h => by
    have h2 : (EmitExpr abi index (f.advance 24)).bind (fun ix =>
        (EmitCallArgsLoop abi args (ix.1.startCallArgs (Call.new lineno column)).2
          (ix.1.startCallArgs (Call.new lineno column)).1).bind (fun a =>
            some ((FunctionCompiler.finishCallArgs abi a.1 a.2).1.funcPtrCall mask globalDataOffset
              ix.2 (FunctionCompiler.finishCallArgs abi a.1 a.2).2))) = some r := h
    simp only [Option.bind_eq_some, Option.some.injEq] at h2
    obtain ⟨ix, h1, a, h3, rfl⟩ := h2
    have hw1 : (wfExpr c index && wfArgs c args) = true := hw
    simp only [Bool.and_eq_true] at hw1
    have s0 := step_advance c.noJump f 24
    have i0 := inv_step hi (step_of_noJump s0)
    have s1 := step_EmitExpr abi index c _ ix i0 hw1.1 h1
    have i1 := inv_step i0 (step_of_noJump s1)
    have s2 : Step c.noJump ix.1 (ix.1.startCallArgs (Call.new lineno column)).1 0 :=
      step_quiet2 _ (startCallArgs_quiet _ _)
    have D0 := idle_advance f 24 hd
    have D1 := dead_EmitExpr abi index c _ ix i0 hw1.1 (idle_dead D0) h1
    have D2 := idle_startCallArgs ix.1 (Call.new lineno column) (idle_dead D1)
    have D3 := dead_EmitCallArgsLoop abi args _ c _ a (inv_step i1 (step_of_noJump s2)) hw1.2
      (idle_dead D2) h3
    have D4 := idle_finishCallArgs abi a.1 a.2 (idle_dead D3)
    have D5 := idle_funcPtrCall (FunctionCompiler.finishCallArgs abi a.1 a.2).1 mask
      globalDataOffset ix.2 (FunctionCompiler.finishCallArgs abi a.1 a.2).2 (idle_dead D4)
    exact idle_then D0 (idle_then D1 (idle_then D2 (idle_then D3 (idle_then D4 D5))))
theorem dead_EmitStatements (abi : ABIArgGenerator) :
    ∀ (stmts : Stmts) (c : Ctx) (f f' : FunctionCompiler),
      Inv c f → wfStmts c stmts = true → f.curBlock_ = none → EmitStatements abi stmts f = some f' →
      Idle f f'
  | .nil, c, f, f', _, _, hd, h => by
    have h2 : some f = some f' := h
    simp only [Option.some.injEq] at h2
    subst h2
    exact idle_refl f hd
  | .cons s rest, c, f, f', hi, hw, hd, h => by
    have h2 : (EmitStatement abi s none f).bind (fun r => EmitStatements abi rest r.1) =
        some f' := h
    simp only [Option.bind_eq_some] at h2
    obtain ⟨r1, h1, h3⟩ := h2
    have hw1 : (wfStmt c.inner s && wfStmts c rest) = true := hw
    simp only [Bool.and_eq_true] at hw1
    have s1 := step_of_inner (step_EmitStatement abi s none c.inner f r1 (inv_inner hi) rfl hw1.1 h1).1
    have D1 := dead_EmitStatement abi s none c.inner f r1 (inv_inner hi) rfl hw1.1 hd h1
    have D2 := dead_EmitStatements abi rest c r1.1 f' (inv_step hi s1) hw1.2 (idle_dead D1) h3
    exact idle_then D1 D2
theorem dead_EmitIfElse (abi : ABIArgGenerator) :
    ∀ (chain : IfChain) (tb : BlockVector) (c : Ctx) (f f' : FunctionCompiler),
      Inv c f → wfIf c chain = true → f.curBlock_ = none → tb = [] →
      EmitIfElse abi chain tb f = some f' → Idle f f'
  | .ifThen cond thenStmt, tb, c, f, f', hi, hw, hd, _, h => by
    have h2 : (EmitExpr abi cond f).bind (fun cr =>
        (EmitStatement abi thenStmt none (cr.1.branchAndStartThen cr.2 none none).1).bind (fun t =>
          some (t.1.joinIf (t.1.appendThenBlock tb)
            (cr.1.branchAndStartThen cr.2 none none).2.2))) = some f' := h
    simp only [Option.bind_eq_some, Option.some.injEq] at h2
    obtain ⟨cr, h1, t, ht, rfl⟩ := h2
    have hw1 : (wfExpr c cond && wfStmt c.inner thenStmt) = true := hw
    simp only [Bool.and_eq_true] at hw1
    have s1 := step_EmitExpr abi cond c f cr hi hw1.1 h1
    have i1 := inv_step hi (step_of_noJump s1)
    obtain ⟨q1, q2⟩ := branchAndStartThen_quiet cr.1 cr.2 none none
    have i2 : Inv c (cr.1.branchAndStartThen cr.2 none none).1 := inv_bk i1 q1
    have D1 := dead_EmitExpr abi cond c f cr hi hw1.1 hd h1
    obtain ⟨DB, hE⟩ := idle_branchAndStartThen cr.1 cr.2 (idle_dead D1)
    have D3 := dead_EmitStatement abi thenStmt none c.inner _ t (inv_inner i2) rfl hw1.2
      (idle_dead DB) ht
    rw [hE]
    exact idle_then D1 (idle_then DB D3)
  | .ifElse cond thenStmt elseStmt, tb, c, f, f', hi, hw, hd, htb, h => by
    subst htb
    by_cases hs : ∀ chain, elseStmt ≠ .ifStmt chain
    · rw [EmitIfElse_else _ _ _ _ _ _ hs] at h
      simp only [Option.bind_eq_some, Option.some.injEq] at h
      obtain ⟨cr, h1, t, ht, e, he, rfl⟩ := h
      have hw1 : (wfExpr c cond && wfStmt c.inner thenStmt && wfStmt c.inner elseStmt) = true := hw
      simp only [Bool.and_eq_true] at hw1
      obtain ⟨⟨w1, w2⟩, w3⟩ := hw1
      have s1 := step_EmitExpr abi cond c f cr hi w1 h1
      have i1 := inv_step hi (step_of_noJump s1)
      obtain ⟨q1, q2⟩ := branchAndStartThen_quiet cr.1 cr.2 none none
      have i2 : Inv c (cr.1.branchAndStartThen cr.2 none none).1 := inv_bk i1 q1
      have s3 := step_of_inner
        (step_EmitStatement abi thenStmt none c.inner _ t (inv_inner i2) rfl w2 ht).1
      have i3 := inv_step i2 s3
      have D1 := dead_EmitExpr abi cond c f cr hi w1 hd h1
      obtain ⟨DB, hE⟩ := idle_branchAndStartThen cr.1 cr.2 (idle_dead D1)
      have D3 := dead_EmitStatement abi thenStmt none c.inner _ t (inv_inner i2) rfl w2
        (idle_dead DB) ht
      have he2 : EmitStatement abi elseStmt none t.1 = some e := by
        rw [hE] at he
        exact he
      have D5 := dead_EmitStatement abi elseStmt none c.inner _ e (inv_inner i3) rfl w3
        (idle_dead D3) he2
      rw [appendThenBlock_dead t.1 [] (idle_dead D3)]
      have D6 := idle_joinIfElse e.1 (idle_dead D5)
      exact idle_then D1 (idle_then DB (idle_then D3 (idle_then D5 D6)))
    · push_neg at hs
      obtain ⟨chain, rfl⟩ := hs
      have h2 : (EmitExpr abi cond f).bind (fun cr =>
          (EmitStatement abi thenStmt none (cr.1.branchAndStartThen cr.2 none none).1).bind (fun t =>
            EmitIfElse abi chain (t.1.appendThenBlock [])
              ((t.1.switchToElse (cr.1.branchAndStartThen cr.2 none none).2.2).advance 1))) =
          some f' := h
      simp only [Option.bind_eq_some] at h2
      obtain ⟨cr, h1, t, ht, h3⟩ := h2
      have hw1 : (wfExpr c cond && wfStmt c.inner thenStmt && wfIf c.inner chain) = true := hw
      simp only [Bool.and_eq_true] at hw1
      obtain ⟨⟨w1, w2⟩, w3⟩ := hw1
      have s1 := step_EmitExpr abi cond c f cr hi w1 h1
      have i1 := inv_step hi (step_of_noJump s1)
      obtain ⟨q1, q2⟩ := branchAndStartThen_quiet cr.1 cr.2 none none
      have i2 : Inv c (cr.1.branchAndStartThen cr.2 none none).1 := inv_bk i1 q1
      have s3 := step_of_inner
        (step_EmitStatement abi thenStmt none c.inner _ t (inv_inner i2) rfl w2 ht).1
      have i3 := inv_step i2 s3
      have s5 := step_advance c t.1 1
      have D1 := dead_EmitExpr abi cond c f cr hi w1 hd h1
      obtain ⟨DB, hE⟩ := idle_branchAndStartThen cr.1 cr.2 (idle_dead D1)
      have D3 := dead_EmitStatement abi thenStmt none c.inner _ t (inv_inner i2) rfl w2
        (idle_dead DB) ht
      have h4 : EmitIfElse abi chain [] (t.1.advance 1) = some f' := by
        rw [hE, appendThenBlock_dead t.1 [] (idle_dead D3)] at h3
        exact h3
      have D5 := idle_advance t.1 1 (idle_dead D3)
      have D6 := dead_EmitIfElse abi chain [] c.inner _ f'
        (inv_inner (inv_step i3 s5)) w3 (idle_dead D5) rfl h4
      exact idle_then D1 (idle_then DB (idle_then D3 (idle_then D5 D6)))
theorem dead_EmitOptStmt (abi : ABIArgGenerator) :
    ∀ (o : OptStmt) (c : Ctx) (f f' : FunctionCompiler),
      Inv c f → wfOpt c o = true → f.curBlock_ = none → EmitOptStmt abi o f = some f' →
      Idle f f'
  | .absent, c, f, f', _, _, hd, h => by
    have h2 : some f = some f' := h
    simp only [Option.some.injEq] at h2
    subst h2
    exact idle_refl f hd
  | .present s, c, f, f', hi, hw, hd, h => by
    have h2 : (EmitStatement abi s none f).bind (fun r => some r.1) = some f' := h
    simp only [Option.bind_eq_some, Option.some.injEq] at h2
    obtain ⟨r1, h1, rfl⟩ := h2
    have hw1 : wfStmt c.inner s = true := hw
    exact dead_EmitStatement abi s none c.inner f r1 (inv_inner hi) rfl hw1 hd h1
theorem dead_EmitSwitchCases (abi : ABIArgGenerator) :
    ∀ (cases : Cases) (low : Int) (sb : Option BlockId) (table : List (Option BlockId))
      (c : Ctx) (f : FunctionCompiler) (r : FunctionCompiler × List (Option BlockId)),
      Inv c f → wfCases c cases = true → f.curBlock_ = none → sb = none →
      EmitSwitchCases abi cases low sb table f = some r → Idle f r.1
  | .nil, low, sb, table, c, f, r, _, _, hd, _, h => by
    have h2 : some (f, table) = some r := h
    simp only [Option.some.injEq] at h2
    subst h2
    exact idle_refl f hd
  | .cons caseValue body rest, low, sb, table, c, f, r, hi, hw, hd, hsb, h => by
    subst hsb
    have h2 : (caseIndex low caseValue table.length).bind (fun idx =>
        (EmitStatement abi body none (f.advance 4)).bind (fun r =>
          EmitSwitchCases abi rest low none
            (table.set idx none) r.1)) = some r := h
    simp only [Option.bind_eq_some] at h2
    obtain ⟨idx, -, r1, h1, h3⟩ := h2
    have hw1 : (wfStmt c.inner body && wfCases c rest) = true := hw
    simp only [Bool.and_eq_true] at hw1
    have s0 := step_advance c f 4
    have i0 := inv_step hi s0
    have s2 := step_of_inner
      (step_EmitStatement abi body none c.inner _ r1 (inv_inner i0) rfl hw1.1 h1).1
    have D0 := idle_advance f 4 hd
    have D2 := dead_EmitStatement abi body none c.inner _ r1 (inv_inner i0) rfl hw1.1
      (idle_dead D0) h1
    have D3 := dead_EmitSwitchCases abi rest low none _ c r1.1 r (inv_step i0 s2) hw1.2
      (idle_dead D2) rfl h3
    exact idle_then D0 (idle_then D2 D3)
theorem dead_EmitStatement (abi : ABIArgGenerator) :
    ∀ (s : Stmt) (l : Option LabelVector) (c : Ctx) (f : FunctionCompiler)
      (r : FunctionCompiler × Option LabelVector),
      Inv c f → LabelsOk l c s → wfStmt c s = true → f.curBlock_ = none →
      EmitStatement abi s l f = some r → Idle f r.1
  | .block stmts, l, c, f, r, hi, _, hw, hd, h => by
    have h2 : (EmitStatements abi stmts (f.advance 5)).bind (fun f1 => some (f1, l)) = some r := h
    simp only [Option.bind_eq_some, Option.some.injEq] at h2
    obtain ⟨f1, h1, rfl⟩ := h2
    have hw1 : wfStmts c.inner stmts = true := hw
    have s0 := step_advance c f 5
    have D0 := idle_advance f 5 hd
    exact idle_then D0 (dead_EmitStatements abi stmts c.inner _ f1 (inv_inner (inv_step hi s0))
      hw1 (idle_dead D0) h1)
  | .ifStmt chain, l, c, f, r, hi, _, hw, hd, h => by
    have h2 : (EmitIfElse abi chain [] (f.advance 1)).bind (fun f1 => some (f1, l)) = some r := h
    simp only [Option.bind_eq_some, Option.some.injEq] at h2
    obtain ⟨f1, h1, rfl⟩ := h2
    have hw1 : wfIf c chain = true := hw
    have s0 := step_advance c f 1
    have D0 := idle_advance f 1 hd
    exact idle_then D0 (dead_EmitIfElse abi chain [] c _ f1 (inv_step hi s0) hw1 (idle_dead D0)
      rfl h1)
  | .switchStmt low high expr cases dflt, l, c, f, r, hi, _, hw, hd, h => by
    have h2 : (EmitExpr abi expr (f.advance 14)).bind (fun e =>
        if switchIsEmpty cases dflt then some (e.1, l)
        else (tableLength low high).bind (fun len =>
          (EmitSwitchCases abi cases low (e.1.startSwitch e.1.pc_ e.2 low high).2
            (List.replicate len none) (e.1.startSwitch e.1.pc_ e.2 low high).1).bind (fun cs =>
            (EmitOptStmt abi dflt
              (cs.1.startSwitchDefault (e.1.startSwitch e.1.pc_ e.2 low high).2).1).bind (fun f1 =>
              (f1.joinSwitch (e.1.startSwitch e.1.pc_ e.2 low high).2 cs.2
                (cs.1.startSwitchDefault (e.1.startSwitch e.1.pc_ e.2 low high).2).2).bind
                  (fun f2 => some (f2, l)))))) = some r := h
    simp only [Option.bind_eq_some] at h2
    obtain ⟨e, h1, h3⟩ := h2
    have hw1 : (wfExpr c expr && wfCases c.switchBody cases && wfOpt c.switchBody dflt) = true :=
      hw
    simp only [Bool.and_eq_true] at hw1
    obtain ⟨⟨w1, w2⟩, w3⟩ := hw1
    have s0 := step_advance c f 14
    have i0 := inv_step hi s0
    have s1 := step_of_noJump (step_EmitExpr abi expr c _ e i0 w1 h1)
    have i1 := inv_step i0 s1
    have D0 := idle_advance f 14 hd
    have D1 := dead_EmitExpr abi expr c _ e i0 w1 (idle_dead D0) h1
    by_cases hempty : switchIsEmpty cases dflt = true
    · rw [if_pos hempty] at h3
      simp only [Option.some.injEq] at h3
      subst h3
      exact idle_then D0 D1
    · rw [if_neg hempty] at h3
      simp only [Option.bind_eq_some, Option.some.injEq] at h3
      obtain ⟨len, -, cs, hcs, f1, hf1, f2, hj, rfl⟩ := h3
      have isw := inv_switchBody (inv_startSwitch i1 e.1.pc_ e.2 low high (Nat.le_refl _))
      obtain ⟨m2, d2⟩ := step_EmitSwitchCases abi cases low _ _ c.switchBody _ cs isw w2 hcs
      have hd1 := idle_dead D1
      have hsb : (e.1.startSwitch e.1.pc_ e.2 low high).2 = none := by
        rw [startSwitch_dead _ _ _ _ _ hd1]
      have hsd : (e.1.startSwitch e.1.pc_ e.2 low high).1.curBlock_ = none :=
        (startSwitch_spec _ _ _ _ _).2.1
      have D2 := dead_EmitSwitchCases abi cases low _ _ c.switchBody _ cs isw w2 hsd hsb hcs
      rw [hsb] at hf1 hj
      have hf2 : EmitOptStmt abi dflt cs.1 = some f1 := hf1
      have D4 := dead_EmitOptStmt abi dflt c.switchBody cs.1 f1 (inv_moves isw m2) w3
        (idle_dead D2) hf2
      have D5 := idle_joinSwitch e.1 f1 f2 e.1.pc_ e.2 low high _ _ hd1 (idle_then D2 D4) hj
      exact idle_then D0 (idle_then D1 D5)
  | .whileStmt cond body, l, c, f, r, hi, hl, hw, hd, h => by
    have h2 : (EmitExpr abi cond ((f.advance 1).startPendingLoop (f.advance 1).pc_).1).bind
        (fun cr =>
          (EmitStatement abi body none (cr.1.branchAndStartLoopBody cr.2).1).bind (fun s =>
            ((s.1.bindContinues (f.advance 1).pc_ l).closeLoop
              ((f.advance 1).startPendingLoop (f.advance 1).pc_).2
              (cr.1.branchAndStartLoopBody cr.2).2).bind (fun f1 => some (f1, l)))) = some r := h
    simp only [Option.bind_eq_some, Option.some.injEq] at h2
    obtain ⟨cr, h1, s, hs, f1, hc, rfl⟩ := h2
    have hw1 : (wfExpr c cond && wfStmt c.loopBody body) = true := hw
    simp only [Bool.and_eq_true] at hw1
    have hlab : l.getD [] = c.pending := labelsOk_getD hl rfl
    have s0 := step_advance c f 1
    have i0 := inv_step hi s0
    have hfresh := (fresh_pos hi (f.advance 1).pc_ (Nat.lt_succ_self _)).1
    have iL := inv_startPendingLoop i0 (f.advance 1).pc_ (Nat.le_refl _)
    have s1 := step_EmitExpr abi cond c _ cr iL hw1.1 h1
    have i1 := inv_step iL (step_of_noJump s1)
    obtain ⟨q2, q3⟩ := branchAndStartLoopBody_quiet cr.1 cr.2
    have i2 := inv_loopBody (inv_bk i1 q2)
    have D0 := idle_advance f 1 hd
    have hd0 := idle_dead D0
    obtain ⟨hL, hle⟩ := (startPendingLoop_spec (f.advance 1) (f.advance 1).pc_).2.1 hd0
    have D1 := dead_EmitExpr abi cond c _ cr iL hw1.1 hL h1
    obtain ⟨DB, hA⟩ := idle_branchAndStartLoopBody cr.1 cr.2 (idle_dead D1)
    have D3 := dead_EmitStatement abi body none c.loopBody _ s i2 rfl hw1.2 (idle_dead DB) hs
    have W := idle_then D1 (idle_then DB D3)
    have D4 := idle_bindContinues c (f.advance 1) s.1 (f.advance 1).pc_ l i0 hfresh hlab W
    rw [hle] at hc
    have D5 := idle_closeLoop (f.advance 1) _ f1 (f.advance 1).pc_ _ hd0 (idle_then W D4) hc
    exact idle_then D0 D5
  | .doWhile body cond, l, c, f, r, hi, hl, hw, hd, h => by
    have h2 : (EmitStatement abi body none
        ((f.advance 1).startPendingLoop (f.advance 1).pc_).1).bind (fun s =>
          (EmitExpr abi cond (s.1.bindContinues (f.advance 1).pc_ l)).bind (fun cr =>
            (cr.1.branchAndCloseDoWhileLoop cr.2
              ((f.advance 1).startPendingLoop (f.advance 1).pc_).2).bind
                (fun f1 => some (f1, l)))) = some r := h
    simp only [Option.bind_eq_some, Option.some.injEq] at h2
    obtain ⟨s, hs, cr, h1, f1, hc, rfl⟩ := h2
    have hw1 : (wfStmt c.loopBody body && wfExpr c cond) = true := hw
    simp only [Bool.and_eq_true] at hw1
    have hlab : l.getD [] = c.pending := labelsOk_getD hl rfl
    have s0 := step_advance c f 1
    have i0 := inv_step hi s0
    have hfresh := (fresh_pos hi (f.advance 1).pc_ (Nat.lt_succ_self _)).1
    have iL := inv_startPendingLoop i0 (f.advance 1).pc_ (Nat.le_refl _)
    have hmid := (step_EmitStatement abi body none c.loopBody _ s (inv_loopBody iL) rfl
      hw1.1 hs).1
    obtain ⟨iB, -, -⟩ := loop_mid c (f.advance 1) s.1 (f.advance 1).pc_ _ l i0 (Nat.le_refl _)
      hfresh hlab hmid
    have D0 := idle_advance f 1 hd
    have hd0 := idle_dead D0
    obtain ⟨hL, hle⟩ := (startPendingLoop_spec (f.advance 1) (f.advance 1).pc_).2.1 hd0
    have D2 := dead_EmitStatement abi body none c.loopBody _ s (inv_loopBody iL) rfl hw1.1
      hL hs
    have D3 := idle_bindContinues c (f.advance 1) s.1 (f.advance 1).pc_ l i0 hfresh hlab D2
    have D4 := dead_EmitExpr abi cond c _ cr iB hw1.2 (idle_dead D3) h1
    rw [hle] at hc
    have D5 := idle_doWhileClose (f.advance 1) cr.1 f1 (f.advance 1).pc_ cr.2 hd0
      (idle_then D2 (idle_then D3 D4)) hc
    exact idle_then D0 D5
  | .forStmt init cond body inc, l, c, f, r, hi, hl, hw, hd, h => by
    have h2 : (EmitOptStmt abi init (f.advance 1)).bind (fun f0 =>
        (EmitExpr abi cond (f0.startPendingLoop (f.advance 1).pc_).1).bind (fun cr =>
          (EmitStatement abi body none (cr.1.branchAndStartLoopBody cr.2).1).bind (fun s =>
            (EmitOptStmt abi inc (s.1.bindContinues (f.advance 1).pc_ l)).bind (fun f1 =>
              (f1.closeLoop (f0.startPendingLoop (f.advance 1).pc_).2
                (cr.1.branchAndStartLoopBody cr.2).2).bind (fun f2 => some (f2, l)))))) =
        some r := h
    simp only [Option.bind_eq_some, Option.some.injEq] at h2
    obtain ⟨f0, hf0, cr, h1, s, hs, f1, hf1, f2, hc, rfl⟩ := h2
    have hw1 : (wfOpt c.inner init && wfExpr c cond && wfStmt c.loopBody body &&
        wfOpt c.noJump inc) = true := hw
    simp only [Bool.and_eq_true] at hw1
    obtain ⟨⟨⟨w1, w2⟩, w3⟩, w4⟩ := hw1
    have hlab : l.getD [] = c.pending := labelsOk_getD hl rfl
    have s0 := step_advance c f 1
    have i0 := inv_step hi s0
    have sI := step_of_inner (step_EmitOptStmt abi init c.inner _ f0 (inv_inner i0) w1 hf0)
    have iI := inv_step i0 sI
    have hpos : (f.advance 1).pc_ ≤ f0.pc_ := by
      rw [sI.1.1]
      exact Nat.le_add_right _ _
    have hfresh : (f.advance 1).pc_ ∉ f0.loopStack_ := by
      rw [sI.1.2.1]
      exact (fresh_pos hi (f.advance 1).pc_ (Nat.lt_succ_self _)).1
    have iL := inv_startPendingLoop iI (f.advance 1).pc_ hpos
    have s1 := step_EmitExpr abi cond c _ cr iL w2 h1
    have i1 := inv_step iL (step_of_noJump s1)
    obtain ⟨q2, q3⟩ := branchAndStartLoopBody_quiet cr.1 cr.2
    have i2 := inv_loopBody (inv_bk i1 q2)
    have s3 := (step_EmitStatement abi body none c.loopBody _ s i2 rfl w3 hs).1
    have hmid : Step c.loopBody (f0.startPendingLoop (f.advance 1).pc_).1 s.1
        (cond.bytes + (0 + body.bytes)) :=
      step_trans (step_weaken s1 (fun h => by cases h) (fun h => by cases h)
        (fun _ h => absurd h (List.not_mem_nil _)) (fun _ h => absurd h (List.not_mem_nil _)))
        (step_trans (step_quiet _ _ _ q2 q3) s3)
    obtain ⟨iB, -, -⟩ := loop_mid c f0 s.1 (f.advance 1).pc_ _ l iI hpos hfresh hlab hmid
    have D0 := idle_advance f 1 hd
    have DI := dead_EmitOptStmt abi init c.inner _ f0 (inv_inner i0) w1 (idle_dead D0) hf0
    have hd0 := idle_dead DI
    obtain ⟨hL, hle⟩ := (startPendingLoop_spec f0 (f.advance 1).pc_).2.1 hd0
    have D1 := dead_EmitExpr abi cond c _ cr iL w2 hL h1
    obtain ⟨DB, hA⟩ := idle_branchAndStartLoopBody cr.1 cr.2 (idle_dead D1)
    have D3 := dead_EmitStatement abi body none c.loopBody _ s i2 rfl w3 (idle_dead DB) hs
    have W := idle_then D1 (idle_then DB D3)
    have D4 := idle_bindContinues c f0 s.1 (f.advance 1).pc_ l iI hfresh hlab W
    have D5 := dead_EmitOptStmt abi inc c.noJump _ f1 (inv_noJump iB) w4 (idle_dead D4) hf1
    rw [hle] at hc
    have D6 := idle_closeLoop f0 f1 f2 (f.advance 1).pc_ _ hd0 (idle_then W (idle_then D4 D5)) hc
    exact idle_then D0 (idle_then DI D6)
  | .label labelId s, some labels, c, f, r, hi, hl, hw, hd, h => by
    have h2 : EmitStatement abi s (some (labels ++ [labelId])) (f.advance 5) = some r := h
    have hw0 : (if c.pending = [] then
        ((labelId :: s.chainLabels).Nodup && (labelId :: s.chainLabels).all (fun x => x ∉ c.scope) &&
          wfStmt (c.chain (labelId :: s.chainLabels)) s)
        else wfStmt c s) = true := hw
    rw [if_neg hl.2] at hw0
    have hl1 : labels ++ (labelId :: s.chainLabels) = c.pending := hl.1
    have hl' : LabelsOk (some (labels ++ [labelId])) c s :=
      ⟨by rw [List.append_assoc]; exact hl1, hl.2⟩
    have s0 := step_advance c f 5
    have D0 := idle_advance f 5 hd
    exact idle_then D0 (dead_EmitStatement abi s _ c _ r (inv_step hi s0) hl' hw0
      (idle_dead D0) h2)
  | .label labelId s, none, c, f, r, hi, hl, hw, hd, h => by
    have h2 : (EmitStatement abi s (some [labelId]) (f.advance 5)).bind (fun r =>
        some (r.1.bindLabeledBreaks r.2, none)) = some r := h
    simp only [Option.bind_eq_some, Option.some.injEq] at h2
    obtain ⟨r1, h1, rfl⟩ := h2
    have hw0 : (if c.pending = [] then
        ((labelId :: s.chainLabels).Nodup && (labelId :: s.chainLabels).all (fun x => x ∉ c.scope) &&
          wfStmt (c.chain (labelId :: s.chainLabels)) s)
        else wfStmt c s) = true := hw
    have hp : c.pending = [] := hl
    rw [if_pos hp] at hw0
    simp only [Bool.and_eq_true, List.all_eq_true, decide_eq_true_eq] at hw0
    obtain ⟨⟨-, wfresh⟩, w3⟩ := hw0
    have s0 := step_advance c f 5
    have i0 := inv_step hi s0
    have hl' : LabelsOk (some [labelId]) (c.chain (labelId :: s.chainLabels)) s :=
      ⟨rfl, List.cons_ne_nil _ _⟩
    have hr := (step_EmitStatement abi s _ (c.chain (labelId :: s.chainLabels)) _ r1
      (inv_chain i0 _ wfresh) hl' w3 h1).2
    have D0 := idle_advance f 5 hd
    have D1 := dead_EmitStatement abi s _ (c.chain (labelId :: s.chainLabels)) _ r1
      (inv_chain i0 _ wfresh) hl' w3 (idle_dead D0) h1
    have D2 := idle_bindLabeledBreaks c (f.advance 5) r1.1 (labelId :: s.chainLabels) i0 wfresh D1
    rw [hr]
    exact idle_then D0 (idle_then D1 D2)
  | .continueStmt, l, c, f, r, _, _, _, hd, h => by
    have h2 : ((f.advance 1).addContinue none).bind (fun f1 => some (f1, l)) = some r := h
    simp only [Option.bind_eq_some, Option.some.injEq] at h2
    obtain ⟨f1, h1, rfl⟩ := h2
    have D0 := idle_advance f 1 hd
    exact idle_then D0 (idle_addContinue _ f1 none (idle_dead D0) h1)
  | .continueLabel labelId, l, c, f, r, _, _, _, hd, h => by
    have h2 : some ((f.advance 5).addBreakOrContinue labelId .labeledContinues, l) = some r := h
    simp only [Option.some.injEq] at h2
    subst h2
    have D0 := idle_advance f 5 hd
    exact idle_then D0 (idle_addBreakOrContinue _ labelId .labeledContinues (idle_dead D0))
  | .breakStmt, l, c, f, r, _, _, _, hd, h => by
    have h2 : ((f.advance 1).addBreak none).bind (fun f1 => some (f1, l)) = some r := h
    simp only [Option.bind_eq_some, Option.some.injEq] at h2
    obtain ⟨f1, h1, rfl⟩ := h2
    have D0 := idle_advance f 1 hd
    exact idle_then D0 (idle_addBreak _ f1 none (idle_dead D0) h1)
  | .breakLabel labelId, l, c, f, r, _, _, _, hd, h => by
    have h2 : some ((f.advance 5).addBreakOrContinue labelId .labeledBreaks, l) = some r := h
    simp only [Option.some.injEq] at h2
    subst h2
    have D0 := idle_advance f 5 hd
    exact idle_then D0 (idle_addBreakOrContinue _ labelId .labeledBreaks (idle_dead D0))
  | .retVoid, l, c, f, r, _, _, _, hd, h => by
    have h2 : some ((f.advance 1).returnVoid, l) = some r := h
    simp only [Option.some.injEq] at h2
    subst h2
    have D0 := idle_advance f 1 hd
    exact idle_then D0 (idle_returnVoid _ (idle_dead D0))
  | .ret e, l, c, f, r, hi, _, hw, hd, h => by
    have h2 : (EmitExpr abi e (f.advance 1)).bind (fun r => some (r.1.returnExpr r.2, l)) =
        some r := h
    simp only [Option.bind_eq_some, Option.some.injEq] at h2
    obtain ⟨r1, h1, rfl⟩ := h2
    have hw1 : wfExpr c e = true := hw
    have s0 := step_advance c f 1
    have D0 := idle_advance f 1 hd
    have D1 := dead_EmitExpr abi e c (f.advance 1) r1 (inv_step hi s0) hw1 (idle_dead D0) h1
    exact idle_then D0 (idle_then D1 (idle_returnExpr _ _ (idle_dead D1)))
  | .exprStmt e, l, c, f, r, hi, _, hw, hd, h => by
    have h2 : (EmitExpr abi e (f.advance 1)).bind (fun r => some (r.1, l)) = some r := h
    simp only [Option.bind_eq_some, Option.some.injEq] at h2
    obtain ⟨r1, h1, rfl⟩ := h2
    have hw1 : wfExpr c e = true := hw
    have s0 := step_advance c f 1
    have D0 := idle_advance f 1 hd
    exact idle_then D0 (dead_EmitExpr abi e c (f.advance 1) r1 (inv_step hi s0) hw1
      (idle_dead D0) h1)
  | .callStmt ce, l, c, f, r, hi, _, hw, hd, h => by
    have h2 : (EmitCall abi ce (f.advance 1)).bind (fun r => some (r.1, l)) = some r := h
    simp only [Option.bind_eq_some, Option.some.injEq] at h2
    obtain ⟨r1, h1, rfl⟩ := h2
    have hw1 : wfCall c ce = true := hw
    have s0 := step_advance c f 1
    have D0 := idle_advance f 1 hd
    exact idle_then D0 (dead_EmitCall abi ce c (f.advance 1) r1 (inv_step hi s0) hw1
      (idle_dead D0) h1)
  | .atomicsFence, l, c, f, r, _, _, _, hd, h => by
    have h2 : some ((f.advance 1).memoryBarrier, l) = some r := h
    simp only [Option.some.injEq] at h2
    subst h2
    have D0 := idle_advance f 1 hd
    have D1 : Idle (f.advance 1)
        (f.advance 1).memoryBarrier := idle_emit _ _ _ (idle_dead D0)
    exact idle_then D0 D1
  | .noop, l, c, f, r, _, _, _, hd, h => by
    have h2 : some (f.advance 1, l) = some r := h
    simp only [Option.some.injEq] at h2
    subst h2
    exact idle_advance f 1 hd
  | .idStmt s, l, c, f, r, hi, _, hw, hd, h => by
    have h2 : (EmitStatement abi s none (f.advance 1)).bind (fun r => some (r.1, l)) = some r := h
    simp only [Option.bind_eq_some, Option.some.injEq] at h2
    obtain ⟨r1, h1, rfl⟩ := h2
    have hw1 : wfStmt c.inner s = true := hw
    have s0 := step_advance c f 1
    have D0 := idle_advance f 1 hd
    exact idle_then D0 (dead_EmitStatement abi s none c.inner _ r1
      (inv_inner (inv_step hi s0)) rfl hw1 (idle_dead D0) h1)
  | .interruptCheckHead, l, c, f, r, _, _, _, hd, h => by
    have h2 : some ((f.advance 9).addInterruptCheck, l) = some r := h
    simp only [Option.some.injEq] at h2
    subst h2
    have D0 := idle_advance f 9 hd
    have D1 : Idle (f.advance 9)
        (f.advance 9).addInterruptCheck := idle_emit _ _ _ (idle_dead D0)
    exact idle_then D0 D1
  | .interruptCheckLoop s, l, c, f, r, hi, _, hw, hd, h => by
    have h2 : (EmitStatement abi s none (f.advance 9).addInterruptCheck).bind
        (fun r => some (r.1, l)) = some r := h
    simp only [Option.bind_eq_some, Option.some.injEq] at h2
    obtain ⟨r1, h1, rfl⟩ := h2
    have hw1 : wfStmt c.inner s = true := hw
    have s0 := step_advance c f 9
    have s1 : Step c (f.advance 9) (f.advance 9).addInterruptCheck 0 :=
      step_quiet2 c (emit_quiet _ _ _)
    have i1 := inv_step (inv_step hi s0) s1
    have D0 := idle_advance f 9 hd
    have D1 : Idle (f.advance 9)
        (f.advance 9).addInterruptCheck := idle_emit _ _ _ (idle_dead D0)
    have D2 := dead_EmitStatement abi s none c.inner _ r1 (inv_inner i1) rfl hw1 (idle_dead D1) h1
    exact idle_then D0 (idle_then D1 D2)
end

/-! ## The calls of the loop methods (C24, C25, C26) -/

theorem pendingHeader_start (f : FunctionCompiler) (pos : Nat) (cur : BlockId)
    (hok : FrameOk f) (hc : f.curBlock_ = some cur) :
    PendingHeader (f.startPendingLoop pos).1.graph_ f.graph_.blocks.length cur := by
  obtain ⟨h1, h2, h3, h4, h5, h6, h7⟩ := startPendingLoop_header f pos cur hc
  have hv := (fstep_ok (frame_startPendingLoop f pos hok).1).1.1.1
  exact ⟨by rw [h3]; exact Nat.lt_succ_self _, h4, h5, fun p hp => ⟨hv _ p hp, h6 p hp⟩⟩

theorem pendingHeader_keeps {P : BlockId → Prop} {g g' : MIRGraph} {H entry : BlockId}
    (h : PendingHeader g H entry) (hk : Keeps P g g') (hP : P H) :
    PendingHeader g' H entry := by
  obtain ⟨h1, h2, h3, h4⟩ := h
  obtain ⟨k1, k2, k3⟩ := hk.2.2.2 H h1 hP
  refine ⟨Nat.lt_of_lt_of_le h1 hk.1, k1.trans h2, by rw [k2]; exact h3, fun p hp => ?_⟩
  rw [k2] at hp
  exact ⟨Nat.lt_of_lt_of_le (h4 p hp).1 hk.2.1, (k3 p hp).trans (h4 p hp).2⟩

/-- Setting the backedge of a pending loop header: the header has exactly the
predecessors `entry` and the backedge block, and each of its phis has exactly
two operands. -/
theorem backedge_two (g : MIRGraph) (H entry be : BlockId) (h : PendingHeader g H entry) :
    ((MBasicBlock.setBackedgeAsmJS g H be).block H).predecessors = [entry, be] ∧
    ∀ p ∈ ((MBasicBlock.setBackedgeAsmJS g H be).block H).phis,
      ((MBasicBlock.setBackedgeAsmJS g H be).getDef p).operands.length = 2 := by
  obtain ⟨h1, h2, h3, h4⟩ := h
  obtain ⟨s1, s2, s3, s4⟩ := setBackedgeAsmJS_spec g H be
  refine ⟨?_, fun p hp => ?_⟩
  · rw [(s3 H).1, if_pos ⟨rfl, h1⟩, h2]
    rfl
  · rw [(s3 H).2.1] at hp
    rw [s4 p (h4 p hp).1, (h4 p hp).2, List.count_eq_one_of_mem h3 hp]

theorem start_depthAsserts (f : FunctionCompiler) (pos : Nat) (hok : FrameOk f) :
    (LoopCall.start f pos).depthAsserts := by
  intro cur hc
  rw [(hok.2 cur hc).2]
  simp

theorem branch_depthAsserts (f : FunctionCompiler) (cond : Option DefId)
    (hok : FrameOk f) (hs : f.loopStack_ ≠ []) :
    (LoopCall.branch f cond).depthAsserts := by
  intro cur hc
  rw [(hok.2 cur hc).2]
  exact List.length_pos.2 hs

theorem ready_pop {c : Ctx} {f0 g : FunctionCompiler} {pos : Nat} {al : Option BlockId}
    (h : LoopReady c f0 pos g al) :
    g.popLoop = some (pos, { g with loopStack_ := g.loopStack_.dropLast,
                                    breakableStack_ := g.breakableStack_.dropLast }) ∧
    g.loopStack_.dropLast.length = f0.loopStack_.length := by
  obtain ⟨-, -, -, -, -, hs, -, -⟩ := h
  refine ⟨?_, by rw [hs]; simp⟩
  unfold popLoop
  rw [hs]
  simp

theorem ready_header {c : Ctx} {f0 g : FunctionCompiler} {pos : Nat} {al : Option BlockId}
    (h : LoopReady c f0 pos g al) (H : BlockId) (hH : (f0.startPendingLoop pos).2 = some H) :
    ∃ entry, f0.curBlock_ = some entry ∧ H = f0.graph_.blocks.length ∧
      PendingHeader g.graph_ H entry ∧ HeldAt g H (f0.loopStack_.length + 1) := by
  obtain ⟨-, hok, -, -, hfr, hs, -, -⟩ := h
  cases hc : f0.curBlock_ with
  | none =>
    rw [((startPendingLoop_spec f0 pos).2.1 hc).2] at hH
    cases hH
  | some entry =>
    obtain ⟨h1, h2, h3, h4, h5, h6, h7⟩ := startPendingLoop_header f0 pos entry hc
    rw [h1] at hH
    simp only [Option.some.injEq] at hH
    subst hH
    have hlt : f0.graph_.blocks.length < (f0.startPendingLoop pos).1.graph_.blocks.length := by
      rw [h3]
      exact Nat.lt_succ_self _
    exact ⟨entry, rfl, rfl, pendingHeader_keeps (pendingHeader_start f0 pos entry hok hc)
      hfr.2.1 hlt, heldAt_step ⟨hlt, h7⟩ hfr⟩

theorem ready_depth_close {c : Ctx} {f0 g : FunctionCompiler} {pos : Nat}
    {al : Option BlockId} (h : LoopReady c f0 pos g al) :
    (LoopCall.close f0 pos g al).depthAsserts := by
  obtain ⟨hp, hl⟩ := ready_pop h
  refine ⟨pos, _, hp, fun H hH => ?_⟩
  obtain ⟨entry, -, -, -, hh⟩ := ready_header h H hH
  obtain ⟨-, -, -, -, hfr, hs, ha, -⟩ := h
  refine ⟨?_, fun A hA => ?_, fun cur hc => ?_⟩
  · show (g.graph_.block H).loopDepth = g.loopStack_.dropLast.length + 1
    rw [hh.2, hl]
  · show (g.graph_.block A).loopDepth = g.loopStack_.dropLast.length
    rw [(ha A hA).2, hl]
  · show (g.graph_.block cur).loopDepth = g.loopStack_.dropLast.length + 1
    rw [((fstep_ok hfr).2 cur hc).2, hl, hs]
    simp

theorem ready_depth_closeDoWhile {c : Ctx} {f0 g : FunctionCompiler} {pos : Nat}
    {al : Option BlockId} (h : LoopReady c f0 pos g al) (cond : Option DefId) :
    (LoopCall.closeDoWhile f0 pos g cond).depthAsserts := by
  obtain ⟨hp, hl⟩ := ready_pop h
  refine ⟨pos, _, hp, fun H hH => ?_⟩
  obtain ⟨entry, -, -, -, hh⟩ := ready_header h H hH
  obtain ⟨-, -, -, -, hfr, hs, ha, -⟩ := h
  refine ⟨?_, fun cur hc => ?_⟩
  · show (g.graph_.block H).loopDepth = g.loopStack_.dropLast.length + 1
    rw [hh.2, hl]
  · show (g.graph_.block cur).loopDepth = g.loopStack_.dropLast.length + 1
    rw [((fstep_ok hfr).2 cur hc).2, hl, hs]
    simp

/-- After `popLoop` in a loop started in dead code: the builder is in dead
code and no break is parked under the position of the loop. -/
theorem ready_dead {c : Ctx} {f0 g : FunctionCompiler} {pos : Nat} {al : Option BlockId}
    (h : LoopReady c f0 pos g al) (hle : (f0.startPendingLoop pos).2 = none) :
    al = none ∧ g.curBlock_ = none ∧ BlockMap.lookup g.unlabeledBreaks_ pos = none := by
  obtain ⟨hi, -, hfresh, -, -, -, -, hd⟩ := h
  have hc := (startPendingLoop_spec f0 pos).2.2 hle
  obtain ⟨hid, hal⟩ := hd hc
  obtain ⟨g1, g2, g3, g4, g5, -, -⟩ := idle_fields hid
  have hm : g.maps = f0.maps := g2.trans (startPendingLoop_fields f0 pos).2.1
  have hub : g.unlabeledBreaks_ = f0.unlabeledBreaks_ := congrArg (fun m => m.1) hm
  refine ⟨hal, g5, BlockMap.lookup_eq_none _ _ ?_⟩
  rw [hub]
  exact fun hk => hfresh (hi.2.1 pos hk)

theorem ready_dead_close {c : Ctx} {f0 g : FunctionCompiler} {pos : Nat}
    {al : Option BlockId} (h : LoopReady c f0 pos g al) :
    (LoopCall.close f0 pos g al).deadAsserts := by
  intro hle
  obtain ⟨d1, d2, d3⟩ := ready_dead h hle
  exact ⟨pos, _, (ready_pop h).1, d1, congrArg Option.isNone d2, d3⟩

theorem ready_dead_closeDoWhile {c : Ctx} {f0 g : FunctionCompiler} {pos : Nat}
    {al : Option BlockId} (h : LoopReady c f0 pos g al) (cond : Option DefId) :
    (LoopCall.closeDoWhile f0 pos g cond).deadAsserts := by
  intro hle
  obtain ⟨d1, d2, d3⟩ := ready_dead h hle
  exact ⟨pos, _, (ready_pop h).1, congrArg Option.isNone d2, d3⟩

/-- No continue is parked under the position of a loop in a state whose
continue entries were all there when the loop was started. -/
theorem no_continue_left {c : Ctx} {f0 g : FunctionCompiler} {pos : Nat} (hi : Inv c f0)
    (hfresh : pos ∉ f0.loopStack_)
    (hm : ∀ k ∈ BlockMap.keys g.unlabeledContinues_,
      k ∈ BlockMap.keys (f0.startPendingLoop pos).1.unlabeledContinues_) :
    pos ∉ BlockMap.keys g.unlabeledContinues_ := by
  intro hk
  have h1 := hm pos hk
  have hmaps := (startPendingLoop_fields f0 pos).2.1
  have h2 : (f0.startPendingLoop pos).1.unlabeledContinues_ = f0.unlabeledContinues_ :=
    congrArg (fun m => m.2.1) hmaps
  rw [h2] at h1
  exact hfresh (hi.2.2.1 pos h1)

/-- The header of a loop right before and after `setBackedgeAsmJS`, in a graph
that kept the pending header. -/
theorem backedge_of_keeps {P : BlockId → Prop} {g g' : MIRGraph} {H entry : BlockId}
    (be : BlockId) (h : PendingHeader g H entry) (hk : Keeps P g g') (hP : P H) :
    (g'.block H).predecessors = [entry] ∧
    ((MBasicBlock.setBackedgeAsmJS g' H be).block H).predecessors = [entry, be] ∧
    ∀ p ∈ ((MBasicBlock.setBackedgeAsmJS g' H be).block H).phis,
      ((MBasicBlock.setBackedgeAsmJS g' H be).getDef p).operands.length = 2 :=
  ⟨(pendingHeader_keeps h hk hP).2.1, backedge_two g' H entry be (pendingHeader_keeps h hk hP)⟩

theorem popped_newBlock (g : FunctionCompiler) (cur : BlockId) (hg : GOk g.graph_) :
    GStep (fun _ => True) g.graph_
      (FunctionCompiler.newBlock { g with loopStack_ := g.loopStack_.dropLast,
                                          breakableStack_ := g.breakableStack_.dropLast }
        (some cur)).1.graph_ :=
  (newBlock_frame _ cur _ hg).1

theorem ready_backedge_close {c : Ctx} {f0 g : FunctionCompiler} {pos : Nat}
    {al : Option BlockId} (h : LoopReady c f0 pos g al) (gg : FunctionCompiler)
    (H be : BlockId)
    (hb : (LoopCall.close f0 pos g al).backedge = some (gg, H, be)) :
    ∃ entry, f0.curBlock_ = some entry ∧ H = f0.graph_.blocks.length ∧
      g.curBlock_ = some be ∧ BlockMap.lookup g.unlabeledContinues_ pos = none ∧
      (gg.graph_.block H).predecessors = [entry] ∧
      ((backedgeGraph gg H be).block H).predecessors = [entry, be] ∧
      ∀ p ∈ ((backedgeGraph gg H be).block H).phis,
        ((backedgeGraph gg H be).getDef p).operands.length = 2 := by
  have hpop := (ready_pop h).1
  have hnc := BlockMap.lookup_eq_none _ _ h.2.2.2.1
  have hg := (fstep_ok h.2.2.2.2.1).1
  cases hle : (f0.startPendingLoop pos).2 with
  | none =>
    simp only [LoopCall.backedge, hle] at hb
    cases hb
  | some H0 =>
    obtain ⟨entry, e1, e2, e3, -⟩ := ready_header h H0 hle
    simp only [LoopCall.backedge, hle, hpop] at hb
    cases hc : g.curBlock_ with
    | none =>
      rw [hc] at hb
      cases hb
    | some cur =>
      rw [hc] at hb
      simp only [Option.some.injEq, Prod.mk.injEq] at hb
      obtain ⟨rfl, rfl, rfl⟩ := hb
      exact ⟨entry, e1, e2, rfl, hnc,
        backedge_of_keeps cur e3 (gstep_endBlock (fun _ => True) g.graph_ cur _ hg).2 trivial⟩

theorem ready_backedge_closeDoWhile {c : Ctx} {f0 g : FunctionCompiler} {pos : Nat}
    {al : Option BlockId} (h : LoopReady c f0 pos g al) (cond : Option DefId)
    (gg : FunctionCompiler) (H be : BlockId)
    (hb : (LoopCall.closeDoWhile f0 pos g cond).backedge =
      some (gg, H, be)) :
    ∃ entry, f0.curBlock_ = some entry ∧ H = f0.graph_.blocks.length ∧
      g.curBlock_ = some be ∧ BlockMap.lookup g.unlabeledContinues_ pos = none ∧
      (gg.graph_.block H).predecessors = [entry] ∧
      ((backedgeGraph gg H be).block H).predecessors = [entry, be] ∧
      ∀ p ∈ ((backedgeGraph gg H be).block H).phis,
        ((backedgeGraph gg H be).getDef p).operands.length = 2 := by
  have hpop := (ready_pop h).1
  have hnc := BlockMap.lookup_eq_none _ _ h.2.2.2.1
  have hg := (fstep_ok h.2.2.2.2.1).1
  cases hle : (f0.startPendingLoop pos).2 with
  | none =>
    simp only [LoopCall.backedge, hle] at hb
    cases hb
  | some H0 =>
    obtain ⟨entry, e1, e2, e3, -⟩ := ready_header h H0 hle
    simp only [LoopCall.backedge, hle, hpop] at hb
    cases hc : g.curBlock_ with
    | none =>
      rw [hc] at hb
      cases hb
    | some cur =>
      rw [hc] at hb
      dsimp only at hb
      split at hb
      · split at hb
        · simp only [Option.some.injEq, Prod.mk.injEq] at hb
          obtain ⟨rfl, rfl, rfl⟩ := hb
          exact ⟨entry, e1, e2, rfl, hnc,
            backedge_of_keeps cur e3 (gstep_endBlock (fun _ => True) g.graph_ cur _ hg).2
              trivial⟩
        · cases hb
      · simp only [Option.some.injEq, Prod.mk.injEq] at hb
        obtain ⟨rfl, rfl, rfl⟩ := hb
        have n1 := popped_newBlock g cur hg
        exact ⟨entry, e1, e2, rfl, hnc,
          backedge_of_keeps cur e3 (n1.2.k_trans
            (gstep_endBlock (fun _ => True) _ cur _ n1.1).2) trivial⟩

theorem heldAt_len {f : FunctionCompiler} {A : BlockId} {d e : Nat} (h : HeldAt f A d)
    (he : d = e) : HeldAt f A e := he ▸ h

/-- The state in which `EmitWhile` closes the loop. -/
theorem ready_while (abi : ABIArgGenerator) (cond : Expr) (body : Stmt)
    (l : Option LabelVector) (c : Ctx) (f : FunctionCompiler) (hi : Inv c f)
    (hl : LabelsOk l c (.whileStmt cond body)) (hw : wfStmt c (.whileStmt cond body) = true)
    (hd : FrameOk f) :
    FrameOk (f.advance 1) ∧
    Inv c ((f.advance 1).startPendingLoop (f.advance 1).pc_).1 ∧
    FrameOk ((f.advance 1).startPendingLoop (f.advance 1).pc_).1 ∧
    ∀ cr, EmitExpr abi cond ((f.advance 1).startPendingLoop (f.advance 1).pc_).1 = some cr →
      FrameOk cr.1 ∧ cr.1.loopStack_ ≠ [] ∧
      Inv c.loopBody (cr.1.branchAndStartLoopBody cr.2).1 ∧
      FrameOk (cr.1.branchAndStartLoopBody cr.2).1 ∧
      ∀ s, EmitStatement abi body none (cr.1.branchAndStartLoopBody cr.2).1 = some s →
        LoopReady c (f.advance 1) (f.advance 1).pc_ (s.1.bindContinues (f.advance 1).pc_ l)
          (cr.1.branchAndStartLoopBody cr.2).2 := by
  have hw1 : (wfExpr c cond && wfStmt c.loopBody body) = true := hw
  simp only [Bool.and_eq_true] at hw1
  have hlab : l.getD [] = c.pending := labelsOk_getD hl rfl
  have s0 := step_advance c f 1
  have i0 := inv_step hi s0
  have hfresh := (fresh_pos hi (f.advance 1).pc_ (Nat.lt_succ_self _)).1
  have hfreshB := (fresh_pos hi (f.advance 1).pc_ (Nat.lt_succ_self _)).2
  have iL := inv_startPendingLoop i0 (f.advance 1).pc_ (Nat.le_refl _)
  have D0 := frame_advance f 1 hd
  obtain ⟨DL, hH⟩ := frame_startPendingLoop (f.advance 1) (f.advance 1).pc_ (fstep_ok D0)
  obtain ⟨b1, b2, b3, b4⟩ := startPendingLoop_fields (f.advance 1) (f.advance 1).pc_
  refine ⟨fstep_ok D0, iL, fstep_ok DL, fun cr h1 => ?_⟩
  have s1 := step_EmitExpr abi cond c _ cr iL hw1.1 h1
  have i1 := inv_step iL (step_of_noJump s1)
  obtain ⟨q2, q3⟩ := branchAndStartLoopBody_quiet cr.1 cr.2
  have i2 := inv_loopBody (inv_bk i1 q2)
  have D1 := frame_EmitExpr abi cond c _ cr iL hw1.1 (fstep_ok DL) h1
  obtain ⟨DB, hA⟩ := frame_branchAndStartLoopBody cr.1 cr.2 (fstep_ok D1)
  have hcs : cr.1.loopStack_ = (f.advance 1).loopStack_ ++ [(f.advance 1).pc_] :=
    s1.1.2.1.trans b3
  refine ⟨fstep_ok D1, by rw [hcs]; simp, i2, fstep_ok DB, fun s hs => ?_⟩
  have s3 := (step_EmitStatement abi body none c.loopBody _ s i2 rfl hw1.2 hs).1
  have hmid : Step c.loopBody ((f.advance 1).startPendingLoop (f.advance 1).pc_).1 s.1
      (cond.bytes + (0 + body.bytes)) :=
    step_trans (step_weaken s1 (fun h => by cases h) (fun h => by cases h)
      (fun _ h => absurd h (List.not_mem_nil _)) (fun _ h => absurd h (List.not_mem_nil _)))
      (step_trans (step_quiet _ _ _ q2 q3) s3)
  obtain ⟨iB, mB, sdB⟩ := loop_mid c (f.advance 1) s.1 (f.advance 1).pc_ _ l i0 (Nat.le_refl _)
    hfresh hlab hmid
  have D3 := frame_EmitStatement abi body none c.loopBody _ s i2 rfl hw1.2 (fstep_ok DB) hs
  have D4 := frame_bindContinues s.1 (f.advance 1).pc_ l (fstep_ok D3)
  refine ⟨i0, fstep_ok D0, hfreshB,
    no_continue_left i0 hfresh (fun k hk =>
      (mB.2.2.2.2.1 k hk).resolve_right (fun h => Bool.false_ne_true h.1)),
    fstep_then (fstep_then (fstep_then D1 DB) D3) D4,
    mB.2.1.trans b3, fun A hA1 => ?_, fun hd0 => ?_⟩
  · exact heldAt_len (heldAt_step (heldAt_step (hA A hA1).1 D3) D4) (by rw [hcs]; simp)
  · obtain ⟨hL, hle⟩ := (startPendingLoop_spec (f.advance 1) (f.advance 1).pc_).2.1 hd0
    have E1 := dead_EmitExpr abi cond c _ cr iL hw1.1 hL h1
    obtain ⟨EB, hA0⟩ := idle_branchAndStartLoopBody cr.1 cr.2 (idle_dead E1)
    have E3 := dead_EmitStatement abi body none c.loopBody _ s i2 rfl hw1.2 (idle_dead EB) hs
    have W := idle_then E1 (idle_then EB E3)
    have E4 := idle_bindContinues c (f.advance 1) s.1 (f.advance 1).pc_ l i0 hfresh hlab W
    exact ⟨idle_then W E4, hA0⟩

/-- The state in which `EmitDoWhile` closes the loop. -/
theorem ready_doWhile (abi : ABIArgGenerator) (body : Stmt) (cond : Expr)
    (l : Option LabelVector) (c : Ctx) (f : FunctionCompiler) (hi : Inv c f)
    (hl : LabelsOk l c (.doWhile body cond)) (hw : wfStmt c (.doWhile body cond) = true)
    (hd : FrameOk f) :
    FrameOk (f.advance 1) ∧
    Inv c.loopBody ((f.advance 1).startPendingLoop (f.advance 1).pc_).1 ∧
    FrameOk ((f.advance 1).startPendingLoop (f.advance 1).pc_).1 ∧
    ∀ s, EmitStatement abi body none
        ((f.advance 1).startPendingLoop (f.advance 1).pc_).1 = some s →
      Inv c (s.1.bindContinues (f.advance 1).pc_ l) ∧
      FrameOk (s.1.bindContinues (f.advance 1).pc_ l) ∧
      ∀ cr, EmitExpr abi cond (s.1.bindContinues (f.advance 1).pc_ l) = some cr →
        LoopReady c (f.advance 1) (f.advance 1).pc_ cr.1 none := by
  have hw1 : (wfStmt c.loopBody body && wfExpr c cond) = true := hw
  simp only [Bool.and_eq_true] at hw1
  have hlab : l.getD [] = c.pending := labelsOk_getD hl rfl
  have s0 := step_advance c f 1
  have i0 := inv_step hi s0
  have hfresh := (fresh_pos hi (f.advance 1).pc_ (Nat.lt_succ_self _)).1
  have hfreshB := (fresh_pos hi (f.advance 1).pc_ (Nat.lt_succ_self _)).2
  have iL := inv_startPendingLoop i0 (f.advance 1).pc_ (Nat.le_refl _)
  have D0 := frame_advance f 1 hd
  obtain ⟨DL, hH⟩ := frame_startPendingLoop (f.advance 1) (f.advance 1).pc_ (fstep_ok D0)
  obtain ⟨b1, b2, b3, b4⟩ := startPendingLoop_fields (f.advance 1) (f.advance 1).pc_
  refine ⟨fstep_ok D0, inv_loopBody iL, fstep_ok DL, fun s hs => ?_⟩
  have hmid := (step_EmitStatement abi body none c.loopBody _ s (inv_loopBody iL) rfl
    hw1.1 hs).1
  obtain ⟨iB, mB, sdB⟩ := loop_mid c (f.advance 1) s.1 (f.advance 1).pc_ _ l i0 (Nat.le_refl _)
    hfresh hlab hmid
  have D2 := frame_EmitStatement abi body none c.loopBody _ s (inv_loopBody iL) rfl hw1.1
    (fstep_ok DL) hs
  have D3 := frame_bindContinues s.1 (f.advance 1).pc_ l (fstep_ok D2)
  refine ⟨iB, fstep_ok D3, fun cr h1 => ?_⟩
  have s4 := step_EmitExpr abi cond c _ cr iB hw1.2 h1
  have D4 := frame_EmitExpr abi cond c _ cr iB hw1.2 (fstep_ok D3) h1
  refine ⟨i0, fstep_ok D0, hfreshB,
    no_continue_left i0 hfresh (fun k hk =>
      (mB.2.2.2.2.1 k ((s4.1.2.2.2.2.1 k hk).resolve_right
        (fun h => Bool.false_ne_true h.1))).resolve_right (fun h => Bool.false_ne_true h.1)),
    fstep_then (fstep_then D2 D3) D4,
    s4.1.2.1.trans (mB.2.1.trans b3), fun A hA1 => (by cases hA1), fun hd0 => ?_⟩
  obtain ⟨hL, hle⟩ := (startPendingLoop_spec (f.advance 1) (f.advance 1).pc_).2.1 hd0
  have E2 := dead_EmitStatement abi body none c.loopBody _ s (inv_loopBody iL) rfl hw1.1
    hL hs
  have E3 := idle_bindContinues c (f.advance 1) s.1 (f.advance 1).pc_ l i0 hfresh hlab E2
  have E4 := dead_EmitExpr abi cond c _ cr iB hw1.2 (idle_dead E3) h1
  exact ⟨idle_then E2 (idle_then E3 E4), rfl⟩

/-- The state in which `EmitFor` closes the loop. -/
theorem ready_for (abi : ABIArgGenerator) (init : OptStmt) (cond : Expr) (body : Stmt)
    (inc : OptStmt) (l : Option LabelVector) (c : Ctx) (f : FunctionCompiler) (hi : Inv c f)
    (hl : LabelsOk l c (.forStmt init cond body inc))
    (hw : wfStmt c (.forStmt init cond body inc) = true) (hd : FrameOk f) :
    Inv c.inner (f.advance 1) ∧ FrameOk (f.advance 1) ∧
    ∀ f0, EmitOptStmt abi init (f.advance 1) = some f0 →
      FrameOk f0 ∧ Inv c (f0.startPendingLoop (f.advance 1).pc_).1 ∧
      FrameOk (f0.startPendingLoop (f.advance 1).pc_).1 ∧
      ∀ cr, EmitExpr abi cond (f0.startPendingLoop (f.advance 1).pc_).1 = some cr →
        FrameOk cr.1 ∧ cr.1.loopStack_ ≠ [] ∧
        Inv c.loopBody (cr.1.branchAndStartLoopBody cr.2).1 ∧
        FrameOk (cr.1.branchAndStartLoopBody cr.2).1 ∧
        ∀ s, EmitStatement abi body none (cr.1.branchAndStartLoopBody cr.2).1 = some s →
          Inv c.noJump (s.1.bindContinues (f.advance 1).pc_ l) ∧
          FrameOk (s.1.bindContinues (f.advance 1).pc_ l) ∧
          ∀ f1, EmitOptStmt abi inc (s.1.bindContinues (f.advance 1).pc_ l) = some f1 →
            LoopReady c f0 (f.advance 1).pc_ f1 (cr.1.branchAndStartLoopBody cr.2).2 := by
  refine ⟨inv_inner (inv_step hi (step_advance c f 1)), fstep_ok (frame_advance f 1 hd),
    fun f0 hf0 => ?_⟩
  have hw1 : (wfOpt c.inner init && wfExpr c cond && wfStmt c.loopBody body &&
      wfOpt c.noJump inc) = true := hw
  simp only [Bool.and_eq_true] at hw1
  obtain ⟨⟨⟨w1, w2⟩, w3⟩, w4⟩ := hw1
  have hlab : l.getD [] = c.pending := labelsOk_getD hl rfl
  have s0 := step_advance c f 1
  have i0 := inv_step hi s0
  have sI := step_of_inner (step_EmitOptStmt abi init c.inner _ f0 (inv_inner i0) w1 hf0)
  have iI := inv_step i0 sI
  have hpos : (f.advance 1).pc_ ≤ f0.pc_ := by
    rw [sI.1.1]
    exact Nat.le_add_right _ _
  have hfresh : (f.advance 1).pc_ ∉ f0.loopStack_ := by
    rw [sI.1.2.1]
    exact (fresh_pos hi (f.advance 1).pc_ (Nat.lt_succ_self _)).1
  have hfreshB : (f.advance 1).pc_ ∉ f0.breakableStack_ := by
    rw [sI.1.2.2.1]
    exact (fresh_pos hi (f.advance 1).pc_ (Nat.lt_succ_self _)).2
  have iL := inv_startPendingLoop iI (f.advance 1).pc_ hpos
  have D0 := frame_advance f 1 hd
  have DI := frame_EmitOptStmt abi init c.inner _ f0 (inv_inner i0) w1 (fstep_ok D0) hf0
  obtain ⟨DL, hH⟩ := frame_startPendingLoop f0 (f.advance 1).pc_ (fstep_ok DI)
  obtain ⟨b1, b2, b3, b4⟩ := startPendingLoop_fields f0 (f.advance 1).pc_
  refine ⟨fstep_ok DI, iL, fstep_ok DL, fun cr h1 => ?_⟩
  have s1 := step_EmitExpr abi cond c _ cr iL w2 h1
  have i1 := inv_step iL (step_of_noJump s1)
  obtain ⟨q2, q3⟩ := branchAndStartLoopBody_quiet cr.1 cr.2
  have i2 := inv_loopBody (inv_bk i1 q2)
  have D1 := frame_EmitExpr abi cond c _ cr iL w2 (fstep_ok DL) h1
  obtain ⟨DB, hA⟩ := frame_branchAndStartLoopBody cr.1 cr.2 (fstep_ok D1)
  have hcs : cr.1.loopStack_ = f0.loopStack_ ++ [(f.advance 1).pc_] := s1.1.2.1.trans b3
  refine ⟨fstep_ok D1, by rw [hcs]; simp, i2, fstep_ok DB, fun s hs => ?_⟩
  have s3 := (step_EmitStatement abi body none c.loopBody _ s i2 rfl w3 hs).1
  have hmid : Step c.loopBody (f0.startPendingLoop (f.advance 1).pc_).1 s.1
      (cond.bytes + (0 + body.bytes)) :=
    step_trans (step_weaken s1 (fun h => by cases h) (fun h => by cases h)
      (fun _ h => absurd h (List.not_mem_nil _)) (fun _ h => absurd h (List.not_mem_nil _)))
      (step_trans (step_quiet _ _ _ q2 q3) s3)
  obtain ⟨iB, mB, sdB⟩ := loop_mid c f0 s.1 (f.advance 1).pc_ _ l iI hpos hfresh hlab hmid
  have D3 := frame_EmitStatement abi body none c.loopBody _ s i2 rfl w3 (fstep_ok DB) hs
  have D4 := frame_bindContinues s.1 (f.advance 1).pc_ l (fstep_ok D3)
  refine ⟨inv_noJump iB, fstep_ok D4, fun f1 hf1 => ?_⟩
  have s5 := step_EmitOptStmt abi inc c.noJump _ f1 (inv_noJump iB) w4 hf1
  have D5 := frame_EmitOptStmt abi inc c.noJump _ f1 (inv_noJump iB) w4 (fstep_ok D4) hf1
  refine ⟨iI, fstep_ok DI, hfreshB,
    no_continue_left iI hfresh (fun k hk =>
      (mB.2.2.2.2.1 k ((s5.1.2.2.2.2.1 k hk).resolve_right
        (fun h => Bool.false_ne_true h.1))).resolve_right (fun h => Bool.false_ne_true h.1)),
    fstep_then (fstep_then (fstep_then (fstep_then D1 DB) D3) D4) D5,
    s5.1.2.1.trans (mB.2.1.trans b3), fun A hA1 => ?_, fun hd0 => ?_⟩
  · exact heldAt_len (heldAt_step (heldAt_step (heldAt_step (hA A hA1).1 D3) D4) D5)
      (by rw [hcs]; simp)
  · obtain ⟨hL, hle⟩ := (startPendingLoop_spec f0 (f.advance 1).pc_).2.1 hd0
    have E1 := dead_EmitExpr abi cond c _ cr iL w2 hL h1
    obtain ⟨EB, hA0⟩ := idle_branchAndStartLoopBody cr.1 cr.2 (idle_dead E1)
    have E3 := dead_EmitStatement abi body none c.loopBody _ s i2 rfl w3 (idle_dead EB) hs
    have W := idle_then E1 (idle_then EB E3)
    have E4 := idle_bindContinues c f0 s.1 (f.advance 1).pc_ l iI hfresh hlab W
    have E5 := dead_EmitOptStmt abi inc c.noJump _ f1 (inv_noJump iB) w4 (idle_dead E4) hf1
    exact ⟨idle_then W (idle_then E4 E5), hA0⟩

theorem mem_callsAfter {α : Type} {o : Option α} {k : α → List LoopCall} {call : LoopCall}
    (h : call ∈ callsAfter o k) : ∃ a, o = some a ∧ call ∈ k a := by
  cases o with
  | none => cases h
  | some a => exact ⟨a, rfl, h⟩

theorem callsIfElse_else (abi : ABIArgGenerator) (cond : Expr) (thenStmt s : Stmt)
    (f : FunctionCompiler) (hs : ∀ chain, s ≠ .ifStmt chain) :
    callsIfElse abi (.ifElse cond thenStmt s) f =
      callsExpr abi cond f ++ callsAfter (EmitExpr abi cond f) (fun c =>
        callsStatement abi thenStmt none (c.1.branchAndStartThen c.2 none none).1 ++
          callsAfter (EmitStatement abi thenStmt none (c.1.branchAndStartThen c.2 none none).1)
            (fun t =>
              callsStatement abi s none
                (t.1.switchToElse (c.1.branchAndStartThen c.2 none none).2.2))) := by
  cases s with
  | ifStmt chain => exact absurd rfl (hs chain)
  | _ => rfl

/-! ### The induction over the decoder functions -/

set_option maxHeartbeats 4000000 in
mutual
theorem ok_callsExpr (abi : ABIArgGenerator) :
    ∀ (e : Expr) (c : Ctx) (f : FunctionCompiler),
      Inv c f → wfExpr c e = true → FrameOk f → ∀ call ∈ callsExpr abi e f, call.ok
  | .literal type v, c, f, _, _, _, call, hm => by
    have hm2 : call ∈ ([] : List LoopCall) := hm
    cases hm2
  | .getLocal slot, c, f, _, _, _, call, hm => by
    have hm2 : call ∈ ([] : List LoopCall) := hm
    cases hm2
  | .setLocal slot e, c, f, hi, hw, hd, call, hm => by
    have hm2 : call ∈ callsExpr abi e (f.advance 5) := hm
    have hw1 : wfExpr c e = true := hw
    exact ok_callsExpr abi e c (f.advance 5) (inv_step hi (step_advance c f 5)) hw1
      (fstep_ok (frame_advance f 5 hd)) call hm2
  | .idExpr e, c, f, hi, hw, hd, call, hm => by
    have hm2 : call ∈ callsExpr abi e (f.advance 1) := hm
    have hw1 : wfExpr c e = true := hw
    exact ok_callsExpr abi e c (f.advance 1) (inv_step hi (step_advance c f 1)) hw1
      (fstep_ok (frame_advance f 1 hd)) call hm2
  | .operator o args, c, f, hi, hw, hd, call, hm => by
    have hm2 : call ∈ callsOperands abi args (f.advance (1 + o.immBefore)) := hm
    have hw1 : wfArgs c args = true := hw
    exact ok_callsOperands abi args c _ (inv_step hi (step_advance c f (1 + o.immBefore))) hw1
      (fstep_ok (frame_advance f (1 + o.immBefore) hd)) call hm2
  | .minMax first rest, c, f, hi, hw, hd, call, hm => by
    have hm2 : call ∈ callsExpr abi first (f.advance 2) ++
        callsAfter (EmitExpr abi first (f.advance 2))
          (fun r => callsMinMaxRest abi rest r.2 r.1) := hm
    have hw1 : (wfExpr c first && wfArgs c rest) = true := hw
    simp only [Bool.and_eq_true] at hw1
    have i0 := inv_step hi (step_advance c f 2)
    have D0 := frame_advance f 2 hd
    rcases List.mem_append.1 hm2 with m | m
    · exact ok_callsExpr abi first c _ i0 hw1.1 (fstep_ok D0) call m
    · obtain ⟨r1, h1, m⟩ := mem_callsAfter m
      have s1 := step_EmitExpr abi first c _ r1 i0 hw1.1 h1
      have D1 := frame_EmitExpr abi first c _ r1 i0 hw1.1 (fstep_ok D0) h1
      exact ok_callsMinMaxRest abi rest r1.2 c r1.1 (inv_step i0 (step_of_noJump s1)) hw1.2
        (fstep_ok D1) call m
  | .storeWithCoercion ptr rhs, c, f, hi, hw, hd, call, hm => by
    have hm2 : call ∈ callsExpr abi ptr (f.advance 2) ++
        callsAfter (EmitExpr abi ptr (f.advance 2)) (fun p => callsExpr abi rhs p.1) := hm
    have hw1 : (wfExpr c ptr && wfExpr c rhs) = true := hw
    simp only [Bool.and_eq_true] at hw1
    have i0 := inv_step hi (step_advance c f 2)
    have D0 := frame_advance f 2 hd
    rcases List.mem_append.1 hm2 with m | m
    · exact ok_callsExpr abi ptr c _ i0 hw1.1 (fstep_ok D0) call m
    · obtain ⟨p, h1, m⟩ := mem_callsAfter m
      have s1 := step_EmitExpr abi ptr c _ p i0 hw1.1 h1
      have D1 := frame_EmitExpr abi ptr c _ p i0 hw1.1 (fstep_ok D0) h1
      exact ok_callsExpr abi rhs c p.1 (inv_step i0 (step_of_noJump s1)) hw1.2
        (fstep_ok D1) call m
  | .call ce, c, f, hi, hw, hd, call, hm => by
    have hm2 : call ∈ callsCall abi ce (f.advance 1) := hm
    have hw1 : wfCall c ce = true := hw
    exact ok_callsCall abi ce c _ (inv_step hi (step_advance c f 1)) hw1
      (fstep_ok (frame_advance f 1 hd)) call hm2
  | .conditional cond ifTrue ifFalse, c, f, hi, hw, hd, call, hm => by
    have hm2 : call ∈ callsExpr abi cond (f.advance 1) ++
        callsAfter (EmitExpr abi cond (f.advance 1)) (fun cr =>
          callsExpr abi ifTrue (cr.1.branchAndStartThen cr.2 none none).1 ++
            callsAfter (EmitExpr abi ifTrue (cr.1.branchAndStartThen cr.2 none none).1)
              (fun t =>
                callsExpr abi ifFalse ((t.1.pushPhiInput t.2).switchToElse
                  (cr.1.branchAndStartThen cr.2 none none).2.2))) := hm
    have hw1 : (wfExpr c cond && wfExpr c ifTrue && wfExpr c ifFalse) = true := hw
    simp only [Bool.and_eq_true] at hw1
    obtain ⟨⟨w1, w2⟩, w3⟩ := hw1
    have i0 := inv_step hi (step_advance c f 1)
    have D0 := frame_advance f 1 hd
    rcases List.mem_append.1 hm2 with m | m
    · exact ok_callsExpr abi cond c _ i0 w1 (fstep_ok D0) call m
    · obtain ⟨cr, h1, m⟩ := mem_callsAfter m
      have s1 := step_EmitExpr abi cond c _ cr i0 w1 h1
      have i1 := inv_step i0 (step_of_noJump s1)
      obtain ⟨q1, q2⟩ := branchAndStartThen_quiet cr.1 cr.2 none none
      have i2 : Inv c (cr.1.branchAndStartThen cr.2 none none).1 := inv_bk i1 q1
      have D1 := frame_EmitExpr abi cond c _ cr i0 w1 (fstep_ok D0) h1
      obtain ⟨DB, hE⟩ := frame_branchAndStartThen cr.1 cr.2 (fstep_ok D1)
      rcases List.mem_append.1 m with m | m
      · exact ok_callsExpr abi ifTrue c _ i2 w2 (fstep_ok DB) call m
      · obtain ⟨t, ht, m⟩ := mem_callsAfter m
        have s3 := step_EmitExpr abi ifTrue c _ t i2 w2 ht
        have i3 := inv_step i2 (step_of_noJump s3)
        have q3 : ((t.1.pushPhiInput t.2).switchToElse
            (cr.1.branchAndStartThen cr.2 none none).2.2).bookkeeping = t.1.bookkeeping :=
          (switchToElse_quiet _ _).1.trans (pushPhiInput_quiet _ _).1
        have D3 := frame_EmitExpr abi ifTrue c _ t i2 w2 (fstep_ok DB) ht
        have DP := frame_pushPhiInput t.1 t.2 (fstep_ok D3)
        have X := fstep_then (fstep_then DB D3) DP
        have hst : (t.1.pushPhiInput t.2).loopStack_ = cr.1.loopStack_ :=
          (loopStack_of_bk (pushPhiInput_quiet _ _).1).trans
            (s3.1.2.1.trans (loopStack_of_bk q1))
        have DS := frame_switchToElse cr.1.graph_.blocks.length (t.1.pushPhiInput t.2)
          (cr.1.branchAndStartThen cr.2 none none).2.2 (fstep_ok X) X.2.1.1
          (fun E hEe => by rw [hst]; exact heldAt_step (heldAt_step (hE E hEe).2 D3) DP)
        exact ok_callsExpr abi ifFalse c _ (inv_bk i3 q3) w3 (fstep_ok DS) call m
  | .comma stmts last, c, f, hi, hw, hd, call, hm => by
    have hm2 : call ∈ callsStatements abi stmts (f.advance 5) ++
        callsAfter (EmitStatements abi stmts (f.advance 5))
          (fun f1 => callsExpr abi last f1) := hm
    have hw1 : (wfStmts c.noJump stmts && wfExpr c last) = true := hw
    simp only [Bool.and_eq_true] at hw1
    have i0 := inv_step hi (step_advance c f 5)
    have D0 := frame_advance f 5 hd
    rcases List.mem_append.1 hm2 with m | m
    · exact ok_callsStatements abi stmts c.noJump _ (inv_noJump i0) hw1.1 (fstep_ok D0) call m
    · obtain ⟨f1, h1, m⟩ := mem_callsAfter m
      have s1 := step_EmitStatements abi stmts c.noJump (f.advance 5) f1 (inv_noJump i0)
        hw1.1 h1
      have D1 := frame_EmitStatements abi stmts c.noJump (f.advance 5) f1 (inv_noJump i0)
        hw1.1 (fstep_ok D0) h1
      exact ok_callsExpr abi last c f1 (inv_step i0 (step_of_noJump s1)) hw1.2
        (fstep_ok D1) call m
theorem ok_callsOperands (abi : ABIArgGenerator) :
    ∀ (args : Args) (c : Ctx) (f : FunctionCompiler),
      Inv c f → wfArgs c args = true → FrameOk f → ∀ call ∈ callsOperands abi args f, call.ok
  | .nil, c, f, _, _, _, call, hm => by
    have hm2 : call ∈ ([] : List LoopCall) := hm
    cases hm2
  | .cons _ e rest, c, f, hi, hw, hd, call, hm => by
    have hm2 : call ∈ callsExpr abi e f ++
        callsAfter (EmitExpr abi e f) (fun r => callsOperands abi rest r.1) := hm
    have hw1 : (wfExpr c e && wfArgs c rest) = true := hw
    simp only [Bool.and_eq_true] at hw1
    rcases List.mem_append.1 hm2 with m | m
    · exact ok_callsExpr abi e c f hi hw1.1 hd call m
    · obtain ⟨r1, h1, m⟩ := mem_callsAfter m
      have s1 := step_EmitExpr abi e c f r1 hi hw1.1 h1
      have D1 := frame_EmitExpr abi e c f r1 hi hw1.1 hd h1
      exact ok_callsOperands abi rest c r1.1 (inv_step hi (step_of_noJump s1)) hw1.2
        (fstep_ok D1) call m
theorem ok_callsMinMaxRest (abi : ABIArgGenerator) :
    ∀ (args : Args) (d : Option DefId) (c : Ctx) (f : FunctionCompiler),
      Inv c f → wfArgs c args = true → FrameOk f →
      ∀ call ∈ callsMinMaxRest abi args d f, call.ok
  | .nil, d, c, f, _, _, _, call, hm => by
    have hm2 : call ∈ ([] : List LoopCall) := hm
    cases hm2
  | .cons _ e rest, d, c, f, hi, hw, hd, call, hm => by
    have hm2 : call ∈ callsExpr abi e f ++ callsAfter (EmitExpr abi e f) (fun r =>
        callsMinMaxRest abi rest (r.1.emitOp Op.minMax [d, r.2]).2
          (r.1.emitOp Op.minMax [d, r.2]).1) := hm
    have hw1 : (wfExpr c e && wfArgs c rest) = true := hw
    simp only [Bool.and_eq_true] at hw1
    rcases List.mem_append.1 hm2 with m | m
    · exact ok_callsExpr abi e c f hi hw1.1 hd call m
    · obtain ⟨r1, h1, m⟩ := mem_callsAfter m
      have s1 := step_EmitExpr abi e c f r1 hi hw1.1 h1
      have i1 := inv_step hi (step_of_noJump s1)
      have s2 : Step c.noJump r1.1 (r1.1.emitOp Op.minMax [d, r1.2]).1 0 :=
        step_quiet2 _ (emit_quiet _ _ _)
      have D1 := frame_EmitExpr abi e c f r1 hi hw1.1 hd h1
      have D2 : FrameStep r1.1.graph_.blocks.length r1.1 (r1.1.emitOp Op.minMax [d, r1.2]).1 :=
        frame_emit _ _ _ (fstep_ok D1)
      exact ok_callsMinMaxRest abi rest _ c _ (inv_step i1 (step_of_noJump s2)) hw1.2
        (fstep_ok D2) call m
theorem ok_callsCallArgsLoop (abi : ABIArgGenerator) :
    ∀ (args : Args) (cl : Call) (c : Ctx) (f : FunctionCompiler),
      Inv c f → wfArgs c args = true → FrameOk f →
      ∀ call ∈ callsCallArgsLoop abi args cl f, call.ok
  | .nil, cl, c, f, _, _, _, call, hm => by
    have hm2 : call ∈ ([] : List LoopCall) := hm
    cases hm2
  | .cons type e rest, cl, c, f, hi, hw, hd, call, hm => by
    have hm2 : call ∈ callsExpr abi e f ++ callsAfter (EmitExpr abi e f) (fun r =>
        callsCallArgsLoop abi rest
          (FunctionCompiler.passArg abi r.1 r.2 (MIRTypeFromAsmType type) cl).2
          (FunctionCompiler.passArg abi r.1 r.2 (MIRTypeFromAsmType type) cl).1) := hm
    have hw1 : (wfExpr c e && wfArgs c rest) = true := hw
    simp only [Bool.and_eq_true] at hw1
    rcases List.mem_append.1 hm2 with m | m
    · exact ok_callsExpr abi e c f hi hw1.1 hd call m
    · obtain ⟨r1, h1, m⟩ := mem_callsAfter m
      have s1 := step_EmitExpr abi e c f r1 hi hw1.1 h1
      have i1 := inv_step hi (step_of_noJump s1)
      have s2 : Step c.noJump r1.1
          (FunctionCompiler.passArg abi r1.1 r1.2 (MIRTypeFromAsmType type) cl).1 0 :=
        step_quiet2 _ (passArg_quiet _ _ _ _ _)
      have D1 := frame_EmitExpr abi e c f r1 hi hw1.1 hd h1
      have D2 := frame_passArg abi r1.1 r1.2 (MIRTypeFromAsmType type) cl (fstep_ok D1)
      exact ok_callsCallArgsLoop abi rest _ c _ (inv_step i1 (step_of_noJump s2)) hw1.2
        (fstep_ok D2) call m
theorem ok_callsCall (abi : ABIArgGenerator) :
    ∀ (ce : CallExpr) (c : Ctx) (f : FunctionCompiler),
      Inv c f → wfCall c ce = true → FrameOk f → ∀ call ∈ callsCall abi ce f, call.ok
  | .direct kind lineno column args, c, f, hi, hw, hd, call, hm => by
    have hm2 : call ∈ callsCallArgsLoop abi args
        ((f.advance kind.immBytes).startCallArgs (Call.new lineno column)).2
        ((f.advance kind.immBytes).startCallArgs (Call.new lineno column)).1 := hm
    have hw1 : wfArgs c args = true := hw
    have i0 := inv_step hi (step_advance c f kind.immBytes)
    have s1 : Step c.noJump (f.advance kind.immBytes)
        ((f.advance kind.immBytes).startCallArgs (Call.new lineno column)).1 0 :=
      step_quiet2 _ (startCallArgs_quiet _ _)
    have D0 := frame_advance f kind.immBytes hd
    have D1 := frame_startCallArgs (f.advance kind.immBytes) (Call.new lineno column)
      (fstep_ok D0)
    exact ok_callsCallArgsLoop abi args _ c _ (inv_step i0 (step_of_noJump s1)) hw1
      (fstep_ok D1) call hm2
  | .indirect mask globalDataOffset lineno column index args, c, f, hi, hw, hd, call, hm => by
    have hm2 : call ∈ callsExpr abi index (f.advance 24) ++
        callsAfter (EmitExpr abi index (f.advance 24)) (fun ix =>
          callsCallArgsLoop abi args (ix.1.startCallArgs (Call.new lineno column)).2
            (ix.1.startCallArgs (Call.new lineno column)).1) := hm
    have hw1 : (wfExpr c index && wfArgs c args) = true := hw
    simp only [Bool.and_eq_true] at hw1
    have i0 := inv_step hi (step_advance c f 24)
    have D0 := frame_advance f 24 hd
    rcases List.mem_append.1 hm2 with m | m
    · exact ok_callsExpr abi index c _ i0 hw1.1 (fstep_ok D0) call m
    · obtain ⟨ix, h1, m⟩ := mem_callsAfter m
      have s1 := step_EmitExpr abi index c _ ix i0 hw1.1 h1
      have i1 := inv_step i0 (step_of_noJump s1)
      have s2 : Step c.noJump ix.1 (ix.1.startCallArgs (Call.new lineno column)).1 0 :=
        step_quiet2 _ (startCallArgs_quiet _ _)
      have D1 := frame_EmitExpr abi index c _ ix i0 hw1.1 (fstep_ok D0) h1
      have D2 := frame_startCallArgs ix.1 (Call.new lineno column) (fstep_ok D1)
      exact ok_callsCallArgsLoop abi args _ c _ (inv_step i1 (step_of_noJump s2)) hw1.2
        (fstep_ok D2) call m
theorem ok_callsStatements (abi : ABIArgGenerator) :
    ∀ (stmts : Stmts) (c : Ctx) (f : FunctionCompiler),
      Inv c f → wfStmts c stmts = true → FrameOk f →
      ∀ call ∈ callsStatements abi stmts f, call.ok
  | .nil, c, f, _, _, _, call, hm => by
    have hm2 : call ∈ ([] : List LoopCall) := hm
    cases hm2
  | .cons s rest, c, f, hi, hw, hd, call, hm => by
    have hm2 : call ∈ callsStatement abi s none f ++
        callsAfter (EmitStatement abi s none f) (fun r => callsStatements abi rest r.1) := hm
    have hw1 : (wfStmt c.inner s && wfStmts c rest) = true := hw
    simp only [Bool.and_eq_true] at hw1
    rcases List.mem_append.1 hm2 with m | m
    · exact ok_callsStatement abi s none c.inner f (inv_inner hi) rfl hw1.1 hd call m
    · obtain ⟨r1, h1, m⟩ := mem_callsAfter m
      have s1 := step_of_inner
        (step_EmitStatement abi s none c.inner f r1 (inv_inner hi) rfl hw1.1 h1).1
      have D1 := frame_EmitStatement abi s none c.inner f r1 (inv_inner hi) rfl hw1.1 hd h1
      exact ok_callsStatements abi rest c r1.1 (inv_step hi s1) hw1.2 (fstep_ok D1) call m
theorem ok_callsIfElse (abi : ABIArgGenerator) :
    ∀ (chain : IfChain) (c : Ctx) (f : FunctionCompiler),
      Inv c f → wfIf c chain = true → FrameOk f → ∀ call ∈ callsIfElse abi chain f, call.ok
  | .ifThen cond thenStmt, c, f, hi, hw, hd, call, hm => by
    have hm2 : call ∈ callsExpr abi cond f ++ callsAfter (EmitExpr abi cond f) (fun cr =>
        callsStatement abi thenStmt none (cr.1.branchAndStartThen cr.2 none none).1) := hm
    have hw1 : (wfExpr c cond && wfStmt c.inner thenStmt) = true := hw
    simp only [Bool.and_eq_true] at hw1
    rcases List.mem_append.1 hm2 with m | m
    · exact ok_callsExpr abi cond c f hi hw1.1 hd call m
    · obtain ⟨cr, h1, m⟩ := mem_callsAfter m
      have s1 := step_EmitExpr abi cond c f cr hi hw1.1 h1
      have i1 := inv_step hi (step_of_noJump s1)
      obtain ⟨q1, q2⟩ := branchAndStartThen_quiet cr.1 cr.2 none none
      have i2 : Inv c (cr.1.branchAndStartThen cr.2 none none).1 := inv_bk i1 q1
      have D1 := frame_EmitExpr abi cond c f cr hi hw1.1 hd h1
      obtain ⟨DB, hE⟩ := frame_branchAndStartThen cr.1 cr.2 (fstep_ok D1)
      exact ok_callsStatement abi thenStmt none c.inner _ (inv_inner i2) rfl hw1.2
        (fstep_ok DB) call m
  | .ifElse cond thenStmt elseStmt, c, f, hi, hw, hd, call, hm => by
    by_cases hs : ∀ chain, elseStmt ≠ .ifStmt chain
    · rw [callsIfElse_else _ _ _ _ _ hs] at hm
      have hw1 : (wfExpr c cond && wfStmt c.inner thenStmt && wfStmt c.inner elseStmt) = true :=
        hw
      simp only [Bool.and_eq_true] at hw1
      obtain ⟨⟨w1, w2⟩, w3⟩ := hw1
      rcases List.mem_append.1 hm with m | m
      · exact ok_callsExpr abi cond c f hi w1 hd call m
      · obtain ⟨cr, h1, m⟩ := mem_callsAfter m
        have s1 := step_EmitExpr abi cond c f cr hi w1 h1
        have i1 := inv_step hi (step_of_noJump s1)
        obtain ⟨q1, q2⟩ := branchAndStartThen_quiet cr.1 cr.2 none none
        have i2 : Inv c (cr.1.branchAndStartThen cr.2 none none).1 := inv_bk i1 q1
        have D1 := frame_EmitExpr abi cond c f cr hi w1 hd h1
        obtain ⟨DB, hE⟩ := frame_branchAndStartThen cr.1 cr.2 (fstep_ok D1)
        rcases List.mem_append.1 m with m | m
        · exact ok_callsStatement abi thenStmt none c.inner _ (inv_inner i2) rfl w2
            (fstep_ok DB) call m
        · obtain ⟨t, ht, m⟩ := mem_callsAfter m
          have s3 := step_of_inner
            (step_EmitStatement abi thenStmt none c.inner _ t (inv_inner i2) rfl w2 ht).1
          have i3 := inv_step i2 s3
          obtain ⟨q4, q5⟩ := switchToElse_quiet t.1 (cr.1.branchAndStartThen cr.2 none none).2.2
          have i4 := inv_bk i3 q4
          have D3 := frame_EmitStatement abi thenStmt none c.inner _ t (inv_inner i2) rfl w2
            (fstep_ok DB) ht
          have X := fstep_then DB D3
          have hst : t.1.loopStack_ = cr.1.loopStack_ := s3.1.2.1.trans (loopStack_of_bk q1)
          have DE := frame_switchToElse cr.1.graph_.blocks.length t.1
            (cr.1.branchAndStartThen cr.2 none none).2.2 (fstep_ok X) X.2.1.1
            (fun E hEe => by rw [hst]; exact heldAt_step (hE E hEe).2 D3)
          exact ok_callsStatement abi elseStmt none c.inner _ (inv_inner i4) rfl w3
            (fstep_ok DE) call m
    · push_neg at hs
      obtain ⟨chain, rfl⟩ := hs
      have hm2 : call ∈ callsExpr abi cond f ++ callsAfter (EmitExpr abi cond f) (fun cr =>
          callsStatement abi thenStmt none (cr.1.branchAndStartThen cr.2 none none).1 ++
            callsAfter
              (EmitStatement abi thenStmt none (cr.1.branchAndStartThen cr.2 none none).1)
              (fun t =>
                callsIfElse abi chain
                  ((t.1.switchToElse (cr.1.branchAndStartThen cr.2 none none).2.2).advance
                    1))) := hm
      have hw1 : (wfExpr c cond && wfStmt c.inner thenStmt && wfIf c.inner chain) = true := hw
      simp only [Bool.and_eq_true] at hw1
      obtain ⟨⟨w1, w2⟩, w3⟩ := hw1
      rcases List.mem_append.1 hm2 with m | m
      · exact ok_callsExpr abi cond c f hi w1 hd call m
      · obtain ⟨cr, h1, m⟩ := mem_callsAfter m
        have s1 := step_EmitExpr abi cond c f cr hi w1 h1
        have i1 := inv_step hi (step_of_noJump s1)
        obtain ⟨q1, q2⟩ := branchAndStartThen_quiet cr.1 cr.2 none none
        have i2 : Inv c (cr.1.branchAndStartThen cr.2 none none).1 := inv_bk i1 q1
        have D1 := frame_EmitExpr abi cond c f cr hi w1 hd h1
        obtain ⟨DB, hE⟩ := frame_branchAndStartThen cr.1 cr.2 (fstep_ok D1)
        rcases List.mem_append.1 m with m | m
        · exact ok_callsStatement abi thenStmt none c.inner _ (inv_inner i2) rfl w2
            (fstep_ok DB) call m
        · obtain ⟨t, ht, m⟩ := mem_callsAfter m
          have s3 := step_of_inner
            (step_EmitStatement abi thenStmt none c.inner _ t (inv_inner i2) rfl w2 ht).1
          have i3 := inv_step i2 s3
          obtain ⟨q4, q5⟩ := switchToElse_quiet t.1 (cr.1.branchAndStartThen cr.2 none none).2.2
          have i4 := inv_bk i3 q4
          have s5 := step_advance c
            (t.1.switchToElse (cr.1.branchAndStartThen cr.2 none none).2.2) 1
          have D3 := frame_EmitStatement abi thenStmt none c.inner _ t (inv_inner i2) rfl w2
            (fstep_ok DB) ht
          have X := fstep_then DB D3
          have hst : t.1.loopStack_ = cr.1.loopStack_ := s3.1.2.1.trans (loopStack_of_bk q1)
          have DE := frame_switchToElse cr.1.graph_.blocks.length t.1
            (cr.1.branchAndStartThen cr.2 none none).2.2 (fstep_ok X) X.2.1.1
            (fun E hEe => by rw [hst]; exact heldAt_step (hE E hEe).2 D3)
          have D5 := frame_advance
            (t.1.switchToElse (cr.1.branchAndStartThen cr.2 none none).2.2) 1 (fstep_ok DE)
          exact ok_callsIfElse abi chain c.inner _ (inv_inner (inv_step i4 s5)) w3
            (fstep_ok D5) call m
theorem ok_callsOptStmt (abi : ABIArgGenerator) :
    ∀ (o : OptStmt) (c : Ctx) (f : FunctionCompiler),
      Inv c f → wfOpt c o = true → FrameOk f → ∀ call ∈ callsOptStmt abi o f, call.ok
  | .absent, c, f, _, _, _, call, hm => by
    have hm2 : call ∈ ([] : List LoopCall) := hm
    cases hm2
  | .present s, c, f, hi, hw, hd, call, hm => by
    have hm2 : call ∈ callsStatement abi s none f := hm
    have hw1 : wfStmt c.inner s = true := hw
    exact ok_callsStatement abi s none c.inner f (inv_inner hi) rfl hw1 hd call hm2
theorem ok_callsSwitchCases (abi : ABIArgGenerator) :
    ∀ (cases : Cases) (low : Int) (sb : Option BlockId) (table : List (Option BlockId))
      (c : Ctx) (f : FunctionCompiler),
      Inv c f → wfCases c cases = true → FrameOk f →
      ∀ call ∈ callsSwitchCases abi cases low sb table f, call.ok
  | .nil, low, sb, table, c, f, _, _, _, call, hm => by
    have hm2 : call ∈ ([] : List LoopCall) := hm
    cases hm2
  | .cons caseValue body rest, low, sb, table, c, f, hi, hw, hd, call, hm => by
    have hm2 : call ∈ callsAfter (caseIndex low caseValue table.length) (fun idx =>
        callsStatement abi body none ((f.advance 4).startSwitchCase sb).1 ++
          callsAfter (EmitStatement abi body none ((f.advance 4).startSwitchCase sb).1)
            (fun r =>
              callsSwitchCases abi rest low sb
                (table.set idx ((f.advance 4).startSwitchCase sb).2) r.1)) := hm
    have hw1 : (wfStmt c.inner body && wfCases c rest) = true := hw
    simp only [Bool.and_eq_true] at hw1
    have s0 := step_advance c f 4
    have i0 := inv_step hi s0
    obtain ⟨q1, q2⟩ := startSwitchCase_quiet (f.advance 4) sb
    have i1 := inv_bk i0 q1
    have D0 := frame_advance f 4 hd
    have D1 := frame_startSwitchCase (f.advance 4) sb (fstep_ok D0)
    obtain ⟨idx, -, m⟩ := mem_callsAfter hm2
    rcases List.mem_append.1 m with m | m
    · exact ok_callsStatement abi body none c.inner _ (inv_inner i1) rfl hw1.1 (fstep_ok D1)
        call m
    · obtain ⟨r1, h1, m⟩ := mem_callsAfter m
      have s2 := step_of_inner
        (step_EmitStatement abi body none c.inner _ r1 (inv_inner i1) rfl hw1.1 h1).1
      have D2 := frame_EmitStatement abi body none c.inner _ r1 (inv_inner i1) rfl hw1.1
        (fstep_ok D1) h1
      exact ok_callsSwitchCases abi rest low sb _ c r1.1 (inv_step i1 s2) hw1.2
        (fstep_ok D2) call m
theorem ok_callsStatement (abi : ABIArgGenerator) :
    ∀ (s : Stmt) (l : Option LabelVector) (c : Ctx) (f : FunctionCompiler),
      Inv c f → LabelsOk l c s → wfStmt c s = true → FrameOk f →
      ∀ call ∈ callsStatement abi s l f, call.ok
  | .block stmts, l, c, f, hi, _, hw, hd, call, hm => by
    have hm2 : call ∈ callsStatements abi stmts (f.advance 5) := hm
    have hw1 : wfStmts c.inner stmts = true := hw
    exact ok_callsStatements abi stmts c.inner _ (inv_inner (inv_step hi (step_advance c f 5)))
      hw1 (fstep_ok (frame_advance f 5 hd)) call hm2
  | .ifStmt chain, l, c, f, hi, _, hw, hd, call, hm => by
    have hm2 : call ∈ callsIfElse abi chain (f.advance 1) := hm
    have hw1 : wfIf c chain = true := hw
    exact ok_callsIfElse abi chain c _ (inv_step hi (step_advance c f 1)) hw1
      (fstep_ok (frame_advance f 1 hd)) call hm2
  | .switchStmt low high expr cases dflt, l, c, f, hi, _, hw, hd, call, hm => by
    have hm2 : call ∈ callsExpr abi expr (f.advance 14) ++
        callsAfter (EmitExpr abi expr (f.advance 14)) (fun e =>
          if switchIsEmpty cases dflt then []
          else callsAfter (tableLength low high) (fun len =>
            callsSwitchCases abi cases low (e.1.startSwitch e.1.pc_ e.2 low high).2
                (List.replicate len none) (e.1.startSwitch e.1.pc_ e.2 low high).1 ++
              callsAfter (EmitSwitchCases abi cases low
                  (e.1.startSwitch e.1.pc_ e.2 low high).2
                  (List.replicate len none) (e.1.startSwitch e.1.pc_ e.2 low high).1)
                (fun cs =>
                  callsOptStmt abi dflt
                    (cs.1.startSwitchDefault (e.1.startSwitch e.1.pc_ e.2 low high).2).1))) :=
      hm
    have hw1 : (wfExpr c expr && wfCases c.switchBody cases && wfOpt c.switchBody dflt) = true :=
      hw
    simp only [Bool.and_eq_true] at hw1
    obtain ⟨⟨w1, w2⟩, w3⟩ := hw1
    have s0 := step_advance c f 14
    have i0 := inv_step hi s0
    have D0 := frame_advance f 14 hd
    rcases List.mem_append.1 hm2 with m | m
    · exact ok_callsExpr abi expr c _ i0 w1 (fstep_ok D0) call m
    · obtain ⟨e, h1, m⟩ := mem_callsAfter m
      have s1 := step_of_noJump (step_EmitExpr abi expr c _ e i0 w1 h1)
      have i1 := inv_step i0 s1
      have D1 := frame_EmitExpr abi expr c _ e i0 w1 (fstep_ok D0) h1
      by_cases hempty : switchIsEmpty cases dflt = true
      · rw [if_pos hempty] at m
        cases m
      · rw [if_neg hempty] at m
        obtain ⟨len, -, m⟩ := mem_callsAfter m
        have isw := inv_switchBody (inv_startSwitch i1 e.1.pc_ e.2 low high (Nat.le_refl _))
        have DS := frame_startSwitch e.1 e.1.pc_ e.2 low high (fstep_ok D1)
        rcases List.mem_append.1 m with m | m
        · exact ok_callsSwitchCases abi cases low _ _ c.switchBody _ isw w2 (fstep_ok DS) call m
        · obtain ⟨cs, hcs, m⟩ := mem_callsAfter m
          obtain ⟨m2, d2⟩ := step_EmitSwitchCases abi cases low _ _ c.switchBody _ cs isw w2 hcs
          obtain ⟨q3, q4⟩ := startSwitchDefault_quiet cs.1
            (e.1.startSwitch e.1.pc_ e.2 low high).2
          have i3 := inv_bk (inv_moves isw m2) q3
          have D2 := frame_EmitSwitchCases abi cases low _ _ c.switchBody _ cs isw w2
            (fstep_ok DS) hcs
          have D3 := frame_startSwitchDefault cs.1 (e.1.startSwitch e.1.pc_ e.2 low high).2
            (fstep_ok D2)
          exact ok_callsOptStmt abi dflt c.switchBody _ i3 w3 (fstep_ok D3) call m
  | .whileStmt cond body, l, c, f, hi, hl, hw, hd, call, hm => by
    have hm2 : call ∈ LoopCall.start (f.advance 1) (f.advance 1).pc_ ::
        (callsExpr abi cond ((f.advance 1).startPendingLoop (f.advance 1).pc_).1 ++
          callsAfter (EmitExpr abi cond ((f.advance 1).startPendingLoop (f.advance 1).pc_).1)
            (fun cr =>
              LoopCall.branch cr.1 cr.2 ::
                (callsStatement abi body none (cr.1.branchAndStartLoopBody cr.2).1 ++
                  callsAfter (EmitStatement abi body none (cr.1.branchAndStartLoopBody cr.2).1)
                    (fun s =>
                      [LoopCall.close (f.advance 1) (f.advance 1).pc_
                        (s.1.bindContinues (f.advance 1).pc_ l)
                        (cr.1.branchAndStartLoopBody cr.2).2])))) := hm
    have hw1 : (wfExpr c cond && wfStmt c.loopBody body) = true := hw
    simp only [Bool.and_eq_true] at hw1
    obtain ⟨k0, kL, kLf, krest⟩ := ready_while abi cond body l c f hi hl hw hd
    rcases List.mem_cons.1 hm2 with rfl | m
    · exact k0
    rcases List.mem_append.1 m with m | m
    · exact ok_callsExpr abi cond c _ kL hw1.1 kLf call m
    obtain ⟨cr, h1, m⟩ := mem_callsAfter m
    obtain ⟨kc, kne, kB, kBf, krest2⟩ := krest cr h1
    rcases List.mem_cons.1 m with rfl | m
    · exact ⟨kc, kne⟩
    rcases List.mem_append.1 m with m | m
    · exact ok_callsStatement abi body none c.loopBody _ kB rfl hw1.2 kBf call m
    obtain ⟨s, hs, m⟩ := mem_callsAfter m
    rcases List.mem_singleton.1 m with rfl
    exact ⟨c, krest2 s hs⟩
  | .doWhile body cond, l, c, f, hi, hl, hw, hd, call, hm => by
    have hm2 : call ∈ LoopCall.start (f.advance 1) (f.advance 1).pc_ ::
        (callsStatement abi body none ((f.advance 1).startPendingLoop (f.advance 1).pc_).1 ++
          callsAfter
            (EmitStatement abi body none ((f.advance 1).startPendingLoop (f.advance 1).pc_).1)
            (fun s =>
              callsExpr abi cond (s.1.bindContinues (f.advance 1).pc_ l) ++
                callsAfter (EmitExpr abi cond (s.1.bindContinues (f.advance 1).pc_ l))
                  (fun cr =>
                    [LoopCall.closeDoWhile (f.advance 1) (f.advance 1).pc_ cr.1 cr.2]))) := hm
    have hw1 : (wfStmt c.loopBody body && wfExpr c cond) = true := hw
    simp only [Bool.and_eq_true] at hw1
    obtain ⟨k0, kL, kLf, krest⟩ := ready_doWhile abi body cond l c f hi hl hw hd
    rcases List.mem_cons.1 hm2 with rfl | m
    · exact k0
    rcases List.mem_append.1 m with m | m
    · exact ok_callsStatement abi body none c.loopBody _ kL rfl hw1.1 kLf call m
    obtain ⟨s, hs, m⟩ := mem_callsAfter m
    obtain ⟨kB, kBf, krest2⟩ := krest s hs
    rcases List.mem_append.1 m with m | m
    · exact ok_callsExpr abi cond c _ kB hw1.2 kBf call m
    obtain ⟨cr, h1, m⟩ := mem_callsAfter m
    rcases List.mem_singleton.1 m with rfl
    exact ⟨c, krest2 cr h1⟩
  | .forStmt init cond body inc, l, c, f, hi, hl, hw, hd, call, hm => by
    have hm2 : call ∈ callsOptStmt abi init (f.advance 1) ++
        callsAfter (EmitOptStmt abi init (f.advance 1)) (fun f0 =>
          LoopCall.start f0 (f.advance 1).pc_ ::
            (callsExpr abi cond (f0.startPendingLoop (f.advance 1).pc_).1 ++
              callsAfter (EmitExpr abi cond (f0.startPendingLoop (f.advance 1).pc_).1)
                (fun cr =>
                  LoopCall.branch cr.1 cr.2 ::
                    (callsStatement abi body none (cr.1.branchAndStartLoopBody cr.2).1 ++
                      callsAfter
                        (EmitStatement abi body none (cr.1.branchAndStartLoopBody cr.2).1)
                        (fun s =>
                          callsOptStmt abi inc (s.1.bindContinues (f.advance 1).pc_ l) ++
                            callsAfter
                              (EmitOptStmt abi inc (s.1.bindContinues (f.advance 1).pc_ l))
                              (fun f1 =>
                                [LoopCall.close f0 (f.advance 1).pc_ f1
                                  (cr.1.branchAndStartLoopBody cr.2).2])))))) := hm
    have hw1 : (wfOpt c.inner init && wfExpr c cond && wfStmt c.loopBody body &&
        wfOpt c.noJump inc) = true := hw
    simp only [Bool.and_eq_true] at hw1
    obtain ⟨⟨⟨w1, w2⟩, w3⟩, w4⟩ := hw1
    obtain ⟨kI, kIf, krest⟩ := ready_for abi init cond body inc l c f hi hl hw hd
    rcases List.mem_append.1 hm2 with m | m
    · exact ok_callsOptStmt abi init c.inner _ kI w1 kIf call m
    obtain ⟨f0, hf0, m⟩ := mem_callsAfter m
    obtain ⟨k0, kL, kLf, krest1⟩ := krest f0 hf0
    rcases List.mem_cons.1 m with rfl | m
    · exact k0
    rcases List.mem_append.1 m with m | m
    · exact ok_callsExpr abi cond c _ kL w2 kLf call m
    obtain ⟨cr, h1, m⟩ := mem_callsAfter m
    obtain ⟨kc, kne, kB, kBf, krest2⟩ := krest1 cr h1
    rcases List.mem_cons.1 m with rfl | m
    · exact ⟨kc, kne⟩
    rcases List.mem_append.1 m with m | m
    · exact ok_callsStatement abi body none c.loopBody _ kB rfl w3 kBf call m
    obtain ⟨s, hs, m⟩ := mem_callsAfter m
    obtain ⟨kT, kTf, krest3⟩ := krest2 s hs
    rcases List.mem_append.1 m with m | m
    · exact ok_callsOptStmt abi inc c.noJump _ kT w4 kTf call m
    obtain ⟨f1, hf1, m⟩ := mem_callsAfter m
    rcases List.mem_singleton.1 m with rfl
    exact ⟨c, krest3 f1 hf1⟩
  | .label labelId s, some labels, c, f, hi, hl, hw, hd, call, hm => by
    have hm2 : call ∈ callsStatement abi s (some (labels ++ [labelId])) (f.advance 5) := hm
    have hw0 : (if c.pending = [] then
        ((labelId :: s.chainLabels).Nodup && (labelId :: s.chainLabels).all (fun x => x ∉ c.scope) &&
          wfStmt (c.chain (labelId :: s.chainLabels)) s)
        else wfStmt c s) = true := hw
    rw [if_neg hl.2] at hw0
    have hl1 : labels ++ (labelId :: s.chainLabels) = c.pending := hl.1
    have hl' : LabelsOk (some (labels ++ [labelId])) c s :=
      ⟨by rw [List.append_assoc]; exact hl1, hl.2⟩
    exact ok_callsStatement abi s _ c _ (inv_step hi (step_advance c f 5)) hl' hw0
      (fstep_ok (frame_advance f 5 hd)) call hm2
  | .label labelId s, none, c, f, hi, hl, hw, hd, call, hm => by
    have hm2 : call ∈ callsStatement abi s (some [labelId]) (f.advance 5) := hm
    have hw0 : (if c.pending = [] then
        ((labelId :: s.chainLabels).Nodup && (labelId :: s.chainLabels).all (fun x => x ∉ c.scope) &&
          wfStmt (c.chain (labelId :: s.chainLabels)) s)
        else wfStmt c s) = true := hw
    have hp : c.pending = [] := hl
    rw [if_pos hp] at hw0
    simp only [Bool.and_eq_true, List.all_eq_true, decide_eq_true_eq] at hw0
    obtain ⟨⟨-, wfresh⟩, w3⟩ := hw0
    have i0 := inv_step hi (step_advance c f 5)
    have hl' : LabelsOk (some [labelId]) (c.chain (labelId :: s.chainLabels)) s :=
      ⟨rfl, List.cons_ne_nil _ _⟩
    exact ok_callsStatement abi s _ (c.chain (labelId :: s.chainLabels)) _
      (inv_chain i0 _ wfresh) hl' w3 (fstep_ok (frame_advance f 5 hd)) call hm2
  | .continueStmt, l, c, f, _, _, _, _, call, hm => by
    have hm2 : call ∈ ([] : List LoopCall) := hm
    cases hm2
  | .continueLabel labelId, l, c, f, _, _, _, _, call, hm => by
    have hm2 : call ∈ ([] : List LoopCall) := hm
    cases hm2
  | .breakStmt, l, c, f, _, _, _, _, call, hm => by
    have hm2 : call ∈ ([] : List LoopCall) := hm
    cases hm2
  | .breakLabel labelId, l, c, f, _, _, _, _, call, hm => by
    have hm2 : call ∈ ([] : List LoopCall) := hm
    cases hm2
  | .retVoid, l, c, f, _, _, _, _, call, hm => by
    have hm2 : call ∈ ([] : List LoopCall) := hm
    cases hm2
  | .ret e, l, c, f, hi, _, hw, hd, call, hm => by
    have hm2 : call ∈ callsExpr abi e (f.advance 1) := hm
    have hw1 : wfExpr c e = true := hw
    exact ok_callsExpr abi e c (f.advance 1) (inv_step hi (step_advance c f 1)) hw1
      (fstep_ok (frame_advance f 1 hd)) call hm2
  | .exprStmt e, l, c, f, hi, _, hw, hd, call, hm => by
    have hm2 : call ∈ callsExpr abi e (f.advance 1) := hm
    have hw1 : wfExpr c e = true := hw
    exact ok_callsExpr abi e c (f.advance 1) (inv_step hi (step_advance c f 1)) hw1
      (fstep_ok (frame_advance f 1 hd)) call hm2
  | .callStmt ce, l, c, f, hi, _, hw, hd, call, hm => by
    have hm2 : call ∈ callsCall abi ce (f.advance 1) := hm
    have hw1 : wfCall c ce = true := hw
    exact ok_callsCall abi ce c (f.advance 1) (inv_step hi (step_advance c f 1)) hw1
      (fstep_ok (frame_advance f 1 hd)) call hm2
  | .atomicsFence, l, c, f, _, _, _, _, call, hm => by
    have hm2 : call ∈ ([] : List LoopCall) := hm
    cases hm2
  | .noop, l, c, f, _, _, _, _, call, hm => by
    have hm2 : call ∈ ([] : List LoopCall) := hm
    cases hm2
  | .idStmt s, l, c, f, hi, _, hw, hd, call, hm => by
    have hm2 : call ∈ callsStatement abi s none (f.advance 1) := hm
    have hw1 : wfStmt c.inner s = true := hw
    exact ok_callsStatement abi s none c.inner _ (inv_inner (inv_step hi (step_advance c f 1)))
      rfl hw1 (fstep_ok (frame_advance f 1 hd)) call hm2
  | .interruptCheckHead, l, c, f, _, _, _, _, call, hm => by
    have hm2 : call ∈ ([] : List LoopCall) := hm
    cases hm2
  | .interruptCheckLoop s, l, c, f, hi, _, hw, hd, call, hm => by
    have hm2 : call ∈ callsStatement abi s none (f.advance 9).addInterruptCheck := hm
    have hw1 : wfStmt c.inner s = true := hw
    have s0 := step_advance c f 9
    have s1 : Step c (f.advance 9) (f.advance 9).addInterruptCheck 0 :=
      step_quiet2 c (emit_quiet _ _ _)
    have i1 := inv_step (inv_step hi s0) s1
    have D0 := frame_advance f 9 hd
    have D1 : FrameStep (f.advance 9).graph_.blocks.length (f.advance 9)
        (f.advance 9).addInterruptCheck := frame_emit _ _ _ (fstep_ok D0)
    exact ok_callsStatement abi s none c.inner _ (inv_inner i1) rfl hw1 (fstep_ok D1) call hm2
end

/-! ## The claims on loops and predecessors (C21, C24, C25, C26) -/

theorem frameOk_prepareEmitMIR (argTypes : List MIRType) (vars : List (MIRType × Int)) :
    FrameOk (prepareEmitMIR argTypes vars) ∧
    0 < (prepareEmitMIR argTypes vars).graph_.blocks.length := by
  have hg0 : GOk ⟨[], [], [], []⟩ :=
    ⟨⟨fun _ _ hp => absurd hp (List.not_mem_nil _),
      fun _ _ _ _ hp => absurd hp (List.not_mem_nil _)⟩,
      fun b _ hb => absurd hb (Nat.not_lt_zero _)⟩
  have h1 : GStep (fun _ => True) ⟨[], [], [], []⟩
      ((MBasicBlock.NewAsmJS ⟨[], [], [], []⟩ (argTypes.length + vars.length) none
        .NORMAL).1.addBlock
        (MBasicBlock.NewAsmJS ⟨[], [], [], []⟩ (argTypes.length + vars.length) none
          .NORMAL).2).1 :=
    gstep_addBlock _ _ _ (Or.inr rfl) (fun p hp => by cases hp) hg0
  have h2 := gstep_foldl (fun _ => True)
    (fun g i => ((g.add 0 (.parameter i) []).1.setSlot 0 i (some (g.add 0 (.parameter i) []).2)))
    (List.range argTypes.length)
    (fun g i _ hg => (gstep_add _ g 0 _ _ hg).g_trans
      (gstep_setSlot _ _ 0 i _ (gstep_add (fun _ => True) g 0 _ _ hg).1)) _ h1.1
  have h3 := gstep_foldl (fun _ => True)
    (fun g (iv : Nat × MIRType × Int) =>
      ((g.add 0 (.constant iv.2.1 iv.2.2) []).1.setSlot 0 (argTypes.length + iv.1)
        (some (g.add 0 (.constant iv.2.1 iv.2.2) []).2)))
    vars.enum
    (fun g iv _ hg => (gstep_add _ g 0 _ _ hg).g_trans
      (gstep_setSlot _ _ 0 _ _ (gstep_add (fun _ => True) g 0 _ _ hg).1)) _ h2.1
  have hk := h2.2.k_trans h3.2
  have hlen : 0 < (prepareEmitMIR argTypes vars).graph_.blocks.length :=
    Nat.lt_of_lt_of_le Nat.zero_lt_one hk.1
  refine ⟨⟨h3.1, fun cur hc => ?_⟩, hlen⟩
  have h0 : (prepareEmitMIR argTypes vars).curBlock_ = some 0 := rfl
  rw [h0] at hc
  simp only [Option.some.injEq] at hc
  subst hc
  exact ⟨hlen, (hk.2.2.1 0 Nat.zero_lt_one).trans rfl⟩

theorem ok_state {call : LoopCall} (h : call.ok) : FrameOk call.state := by
  cases call with
  | start f pos => exact h
  | branch f cond => exact h.1
  | close f0 pos g al =>
    obtain ⟨c, hr⟩ := h
    exact fstep_ok hr.2.2.2.2.1
  | closeDoWhile f0 pos g cond =>
    obtain ⟨c, hr⟩ := h
    exact fstep_ok hr.2.2.2.2.1

theorem ok_depthAsserts {call : LoopCall} (h : call.ok) : call.depthAsserts := by
  cases call with
  | start f pos => exact start_depthAsserts f pos h
  | branch f cond => exact branch_depthAsserts f cond h.1 h.2
  | close f0 pos g al =>
    obtain ⟨c, hr⟩ := h
    exact ready_depth_close hr
  | closeDoWhile f0 pos g cond =>
    obtain ⟨c, hr⟩ := h
    exact ready_depth_closeDoWhile hr cond

theorem ok_deadAsserts {call : LoopCall} (h : call.ok) : call.deadAsserts := by
  cases call with
  | start f pos => exact trivial
  | branch f cond => exact trivial
  | close f0 pos g al =>
    obtain ⟨c, hr⟩ := h
    exact ready_dead_close hr
  | closeDoWhile f0 pos g cond =>
    obtain ⟨c, hr⟩ := h
    exact ready_dead_closeDoWhile hr cond

theorem created_of_predsOk {n : Nat} {g : MIRGraph} (h : PredsOk g) (hn : 0 < n) :
    CreatedWithPred n g :=
  fun b hb hlt => h b (Nat.lt_of_lt_of_le hn hb) hlt

/-- C21. Let `f` be a builder state that satisfies the graph invariants
(`FrameOk`, which holds after `prepareEmitMIR`) and whose graph has its entry
block. `newBlockWithDepth` on a block `p` creates the block with index
`blocks.length` and predecessor list `[p]`. After `joinIfElse`,
`bindBreaksOrContinues`, `startSwitchCase` and `startPendingLoop`, and after
a well-formed statement sequence was emitted from `f` (under a context for
which the bookkeeping invariant `Inv` holds), every block created, that is
every block from index `f.graph_.blocks.length` on, has a predecessor, and so
has every block other than the entry block; the same holds in the state of
every call of a loop method made on the way. For a well-formed function, every
block of the graph of `GenerateAsmFunctionMIR` other than block 0 has a
predecessor. -/
theorem C21_blocks_created_with_predecessor (abi : ABIArgGenerator) (f : FunctionCompiler)
    (hok : FrameOk f) (hentry : 0 < f.graph_.blocks.length) :
    (∀ p d, (f.newBlockWithDepth (some p) d).2 = f.graph_.blocks.length ∧
      (f.newBlockWithDepth (some p) d).1.graph_.blocks.length = f.graph_.blocks.length + 1 ∧
      ((f.newBlockWithDepth (some p) d).1.graph_.block f.graph_.blocks.length).predecessors =
        [p]) ∧
    (∀ thenBlocks, CreatedWithPred f.graph_.blocks.length (f.joinIfElse thenBlocks).graph_) ∧
    (∀ preds created,
      CreatedWithPred f.graph_.blocks.length (bindBreaksOrContinues f preds created).1.graph_) ∧
    (∀ switchBlock,
      CreatedWithPred f.graph_.blocks.length (f.startSwitchCase switchBlock).1.graph_) ∧
    (∀ pos, CreatedWithPred f.graph_.blocks.length (f.startPendingLoop pos).1.graph_) ∧
    (∀ c stmts, Inv c f → wfStmts c stmts = true →
      (∀ call ∈ callsStatements abi stmts f, PredsOk call.state.graph_) ∧
      ∀ f', EmitStatements abi stmts f = some f' →
        CreatedWithPred f.graph_.blocks.length f'.graph_ ∧ PredsOk f'.graph_) ∧
    (∀ func f', func.wellFormed = true → GenerateAsmFunctionMIR abi func = some f' →
      PredsOk f'.graph_) := by
  refine ⟨fun p d => ?_, fun tb => ?_, fun preds created => ?_, fun sb => ?_, fun pos => ?_,
    fun c stmts hi hw => ⟨fun call hm => ?_, fun f' h => ?_⟩, fun func f' hwf h => ?_⟩
  · obtain ⟨-, n1, n2, -⟩ := newBlock_frame f p d hok.1
    exact ⟨n1, n2, (preds_newBlock f p d).1⟩
  · exact created_of_predsOk (fstep_ok (frame_joinIfElse f tb hok)).1.2 hentry
  · exact created_of_predsOk (fstep_ok (frame_bind 0 preds f created hok (Nat.zero_le _)
      (fun _ j _ => Nat.zero_le j)).1).1.2 hentry
  · exact created_of_predsOk (fstep_ok (frame_startSwitchCase f sb hok)).1.2 hentry
  · exact created_of_predsOk (fstep_ok (frame_startPendingLoop f pos hok).1).1.2 hentry
  · exact (ok_state (ok_callsStatements abi stmts c f hi hw hok call hm)).1.2
  · have hp := (fstep_ok (frame_EmitStatements abi stmts c f f' hi hw hok h)).1.2
    exact ⟨created_of_predsOk hp hentry, hp⟩
  · exact (fstep_ok (frame_EmitStatements abi func.body Ctx.top _ f' (inv_prepareEmitMIR _ _)
      hwf (frameOk_prepareEmitMIR _ _).1 h)).1.2

theorem C21_blocks_created_with_predecessor_witness :
    0 < oneIntArg.graph_.blocks.length ∧
    (∀ p d, (oneIntArg.newBlockWithDepth (some p) d).2 = oneIntArg.graph_.blocks.length ∧
      (oneIntArg.newBlockWithDepth (some p) d).1.graph_.blocks.length =
        oneIntArg.graph_.blocks.length + 1 ∧
      ((oneIntArg.newBlockWithDepth (some p) d).1.graph_.block
        oneIntArg.graph_.blocks.length).predecessors = [p]) ∧
    (∀ thenBlocks,
      CreatedWithPred oneIntArg.graph_.blocks.length (oneIntArg.joinIfElse thenBlocks).graph_) ∧
    (∀ preds created, CreatedWithPred oneIntArg.graph_.blocks.length
      (bindBreaksOrContinues oneIntArg preds created).1.graph_) ∧
    (∀ switchBlock, CreatedWithPred oneIntArg.graph_.blocks.length
      (oneIntArg.startSwitchCase switchBlock).1.graph_) ∧
    (∀ pos, CreatedWithPred oneIntArg.graph_.blocks.length
      (oneIntArg.startPendingLoop pos).1.graph_) ∧
    (∀ c stmts, Inv c oneIntArg → wfStmts c stmts = true →
      (∀ call ∈ callsStatements x64ABI stmts oneIntArg, PredsOk call.state.graph_) ∧
      ∀ f', EmitStatements x64ABI stmts oneIntArg = some f' →
        CreatedWithPred oneIntArg.graph_.blocks.length f'.graph_ ∧ PredsOk f'.graph_) ∧
    (∀ func f', func.wellFormed = true → GenerateAsmFunctionMIR x64ABI func = some f' →
      PredsOk f'.graph_) :=
  ⟨(frameOk_prepareEmitMIR [.Int32] []).2,
    C21_blocks_created_with_predecessor x64ABI oneIntArg (frameOk_prepareEmitMIR [.Int32] []).1
      (frameOk_prepareEmitMIR [.Int32] []).2⟩

/-- C24. Let a well-formed statement sequence be emitted from a state that
satisfies the bookkeeping and graph invariants (`Inv`, `FrameOk`; the state
after `prepareEmitMIR` does). Consider any call of `closeLoop` or
`branchAndCloseDoWhileLoop` made on the way, by `EmitWhile`, `EmitFor` or
`EmitDoWhile` at any nesting depth, that reaches `setLoopBackedge`, with loop
header `H` and backedge block `be`; `f0` is the state in which the loop was
started. Then the loop was started in live code, in a block `entry`, and `H`
is the block that `startPendingLoop` created; `be` is the current block of the
closing call and no continue is parked under the position of the loop any
more; before `setBackedgeAsmJS` the only predecessor of `H` is `entry`, after
it the predecessors of `H` are `entry` and `be`, and every phi of `H` has
exactly two operands, which is the assertion of `setLoopBackedge`. -/
theorem C24_loop_header_two_predecessors (abi : ABIArgGenerator) (stmts : Stmts) (c : Ctx)
    (f : FunctionCompiler) (hi : Inv c f) (hw : wfStmts c stmts = true) (hok : FrameOk f) :
    (∀ f0 pos g al, LoopCall.close f0 pos g al ∈ callsStatements abi stmts f →
      ∀ gg H be, (LoopCall.close f0 pos g al).backedge = some (gg, H, be) →
        ∃ entry, f0.curBlock_ = some entry ∧ H = f0.graph_.blocks.length ∧
          g.curBlock_ = some be ∧ BlockMap.lookup g.unlabeledContinues_ pos = none ∧
          (gg.graph_.block H).predecessors = [entry] ∧
          ((backedgeGraph gg H be).block H).predecessors = [entry, be] ∧
          ∀ p ∈ ((backedgeGraph gg H be).block H).phis,
            ((backedgeGraph gg H be).getDef p).operands.length = 2) ∧
    (∀ f0 pos g cond, LoopCall.closeDoWhile f0 pos g cond ∈ callsStatements abi stmts f →
      ∀ gg H be, (LoopCall.closeDoWhile f0 pos g cond).backedge = some (gg, H, be) →
        ∃ entry, f0.curBlock_ = some entry ∧ H = f0.graph_.blocks.length ∧
          g.curBlock_ = some be ∧ BlockMap.lookup g.unlabeledContinues_ pos = none ∧
          (gg.graph_.block H).predecessors = [entry] ∧
          ((backedgeGraph gg H be).block H).predecessors = [entry, be] ∧
          ∀ p ∈ ((backedgeGraph gg H be).block H).phis,
            ((backedgeGraph gg H be).getDef p).operands.length = 2) := by
  refine ⟨fun f0 pos g al hm gg H be hb => ?_, fun f0 pos g cond hm gg H be hb => ?_⟩
  · obtain ⟨c', hr⟩ := ok_callsStatements abi stmts c f hi hw hok _ hm
    exact ready_backedge_close hr gg H be hb
  · obtain ⟨c', hr⟩ := ok_callsStatements abi stmts c f hi hw hok _ hm
    exact ready_backedge_closeDoWhile hr cond gg H be hb

/-- C25. Let a well-formed statement sequence be emitted from a state that
satisfies the bookkeeping invariant and the graph and loop-depth invariants
(`Inv`, `FrameOk`; the state after `prepareEmitMIR` does). In the state of
every call of `startPendingLoop`, `branchAndStartLoopBody`, `closeLoop` and
`branchAndCloseDoWhileLoop` made on the way, at any nesting depth, a live
builder has a current block whose `loopDepth` is the length of `loopStack_`,
and the assertions of the method on loop depths hold: the current block has
depth `loopStack_.length() - 1` after the push in `startPendingLoop` and a
positive depth in `branchAndStartLoopBody`; after `popLoop` in the closing
methods the header has depth `loopStack_.length() + 1`, the block after the
loop depth `loopStack_.length()` and a live current block depth
`loopStack_.length() + 1`. If the sequence is emitted, the state after it
satisfies the invariant again, with the loop stack it started with. -/
theorem C25_loop_depth_invariant (abi : ABIArgGenerator) (stmts : Stmts) (c : Ctx)
    (f : FunctionCompiler) (hi : Inv c f) (hw : wfStmts c stmts = true) (hok : FrameOk f) :
    (∀ call ∈ callsStatements abi stmts f, LoopOk call.state ∧ call.depthAsserts) ∧
    (∀ f', EmitStatements abi stmts f = some f' →
      LoopOk f' ∧ f'.loopStack_ = f.loopStack_) := by
  refine ⟨fun call hm => ?_, fun f' h => ?_⟩
  · have hk := ok_callsStatements abi stmts c f hi hw hok call hm
    exact ⟨(ok_state hk).2, ok_depthAsserts hk⟩
  · exact ⟨(fstep_ok (frame_EmitStatements abi stmts c f f' hi hw hok h)).2,
      (step_EmitStatements abi stmts c f f' hi hw h).1.2.1⟩

/-- C26. Let `s` be a well-formed statement, emitted from a state that
satisfies the bookkeeping invariant `Inv`. If the builder is in dead code and
`EmitStatement` returns a state, the builder is still in dead code in it, the
graph is the same (no block and no instruction was created), the four
pending-branch maps are the same and so are `loopStack_` and
`breakableStack_`. And from a state that also satisfies the graph invariants,
live or dead, every call of `closeLoop` and `branchAndCloseDoWhileLoop` made
while `s` is emitted, at any nesting depth, whose `loopEntry` is null
satisfies the assertions of that branch after `popLoop`: `!afterLoop`,
`inDeadCode()` and `!unlabeledBreaks_.has(pos)`. -/
theorem C26_dead_statement_is_inert (abi : ABIArgGenerator) (s : Stmt)
    (l : Option LabelVector) (c : Ctx) (f : FunctionCompiler) (hi : Inv c f)
    (hl : LabelsOk l c s) (hw : wfStmt c s = true) :
    (f.curBlock_ = none → ∀ r, EmitStatement abi s l f = some r →
      r.1.curBlock_ = none ∧ r.1.graph_ = f.graph_ ∧
      r.1.unlabeledBreaks_ = f.unlabeledBreaks_ ∧
      r.1.unlabeledContinues_ = f.unlabeledContinues_ ∧
      r.1.labeledBreaks_ = f.labeledBreaks_ ∧
      r.1.labeledContinues_ = f.labeledContinues_ ∧
      r.1.loopStack_ = f.loopStack_ ∧ r.1.breakableStack_ = f.breakableStack_) ∧
    (FrameOk f → ∀ call ∈ callsStatement abi s l f, call.deadAsserts) := by
  refine ⟨fun hd r h => ?_, fun hok call hm => ?_⟩
  · obtain ⟨g1, g2, g3, g4, g5, -, -⟩ :=
      idle_fields (dead_EmitStatement abi s l c f r hi hl hw hd h)
    exact ⟨g5, g1, congrArg (fun m => m.1) g2, congrArg (fun m => m.2.1) g2,
      congrArg (fun m => m.2.2.1) g2, congrArg (fun m => m.2.2.2) g2, g3, g4⟩
  · exact ok_deadAsserts (ok_callsStatement abi s l c f hi hl hw hok call hm)

/-! ## The slots of pending blocks after `setLoopBackedge` (C23) -/

theorem fixupSlot_congr (g g1 : MIRGraph) (h : g.defs = g1.defs) (s : Option DefId) :
    fixupSlot g s = fixupSlot g1 s := by
  simp only [fixupSlot, MIRGraph.getDef, h]

theorem SlotsFixed.sf_congr {g1 g : MIRGraph} {T T' : BlockId → Prop}
    (h : SlotsFixed g1 T g) (ht : ∀ c, T' c ↔ T c) : SlotsFixed g1 T' g :=
  ⟨h.1, h.2.1, fun c => ⟨(h.2.2 c).1, fun hc => (h.2.2 c).2.1 ((ht c).1 hc),
    fun hc => (h.2.2 c).2.2 (fun hx => hc ((ht c).2 hx))⟩⟩

theorem slotsFixed_step {g1 g : MIRGraph} {T : BlockId → Prop} (b : BlockId)
    (h : SlotsFixed g1 T g)
    (hid : ∀ s ∈ (g1.block b).slots, fixupSlot g1 (fixupSlot g1 s) = fixupSlot g1 s) :
    SlotsFixed g1 (fun c => c = b ∨ T c) (fixupRedundantPhis g b) := by
  obtain ⟨hd, hl, hb⟩ := h
  refine ⟨hd, (blocks_length_modifyBlock _ _ _).trans hl, fun c => ?_⟩
  unfold fixupRedundantPhis
  rw [block_modifyBlock]
  by_cases hc : b = c ∧ c < g.blocks.length
  · rw [if_pos hc]
    obtain ⟨rfl, hlt⟩ := hc
    refine ⟨(hb b).1, fun _ => ?_, fun hn => absurd (Or.inl rfl) hn⟩
    show (g.block b).slots.map (fixupSlot g) = _
    rw [List.map_congr_left (fun s _ => fixupSlot_congr g g1 hd s)]
    by_cases hT : T b
    · rw [(hb b).2.1 hT, List.map_map]
      exact List.map_congr_left (fun s hs => hid s hs)
    · rw [(hb b).2.2 hT]
  · rw [if_neg hc]
    refine ⟨(hb c).1, fun ht => ?_, fun hn => (hb c).2.2 (fun hx => hn (Or.inr hx))⟩
    by_cases hT : T c
    · exact (hb c).2.1 hT
    · rcases ht with rfl | ht
      · have hge : g.blocks.length ≤ c := Nat.le_of_not_lt (fun hlt => hc ⟨rfl, hlt⟩)
        rw [block_default_of_ge g c hge, block_default_of_ge g1 c (hl ▸ hge)]
        rfl
      · exact absurd ht hT

theorem slotsFixed_blocks (g1 : MIRGraph) (le : BlockId) (bs : List BlockId) :
    ∀ (g : MIRGraph) (T : BlockId → Prop), SlotsFixed g1 T g →
      (∀ b ∈ bs, (g1.block le).loopDepth ≤ (g1.block b).loopDepth →
        ∀ s ∈ (g1.block b).slots, fixupSlot g1 (fixupSlot g1 s) = fixupSlot g1 s) →
      SlotsFixed g1
        (fun c => (c ∈ bs ∧ (g1.block le).loopDepth ≤ (g1.block c).loopDepth) ∨ T c)
        (bs.foldl (fun g b =>
          if (g.block le).loopDepth ≤ (g.block b).loopDepth then fixupRedundantPhis g b
          else g) g) := by
  induction bs with
  | nil =>
    intro g T h _
    exact h.sf_congr (fun c => ⟨fun hc => hc.elim (fun x => absurd x.1 (List.not_mem_nil _))
      (fun x => x), fun hc => Or.inr hc⟩)
  | cons b rest ih =>
    intro g T h hid
    simp only [List.foldl_cons]
    have hcond : ((g.block le).loopDepth ≤ (g.block b).loopDepth) ↔
        ((g1.block le).loopDepth ≤ (g1.block b).loopDepth) := by
      rw [(h.2.2 le).1, (h.2.2 b).1]
    by_cases hc : (g.block le).loopDepth ≤ (g.block b).loopDepth
    · rw [if_pos hc]
      have h1 := slotsFixed_step b h (hid b (List.mem_cons_self _ _) (hcond.1 hc))
      refine (ih _ _ h1 (fun x hx => hid x (List.mem_cons_of_mem _ hx))).sf_congr (fun c => ?_)
      constructor
      · rintro (⟨hm, hd⟩ | ht)
        · rcases List.mem_cons.1 hm with rfl | hm
          · exact Or.inr (Or.inl rfl)
          · exact Or.inl ⟨hm, hd⟩
        · exact Or.inr (Or.inr ht)
      · rintro (⟨hm, hd⟩ | rfl | ht)
        · exact Or.inl ⟨List.mem_cons_of_mem _ hm, hd⟩
        · exact Or.inl ⟨List.mem_cons_self _ _, hcond.1 hc⟩
        · exact Or.inr ht
    · rw [if_neg hc]
      refine (ih _ _ h (fun x hx => hid x (List.mem_cons_of_mem _ hx))).sf_congr (fun c => ?_)
      constructor
      · rintro (⟨hm, hd⟩ | ht)
        · rcases List.mem_cons.1 hm with rfl | hm
          · exact absurd (hcond.2 hd) hc
          · exact Or.inl ⟨hm, hd⟩
        · exact Or.inr ht
      · rintro (⟨hm, hd⟩ | ht)
        · exact Or.inl ⟨List.mem_cons_of_mem _ hm, hd⟩
        · exact Or.inr ht

theorem slotsFixed_map (g1 : MIRGraph) (le : BlockId) (m : BlockMap) :
    ∀ (g : MIRGraph) (T : BlockId → Prop), SlotsFixed g1 T g →
      (∀ e ∈ m, ∀ b ∈ e.2, (g1.block le).loopDepth ≤ (g1.block b).loopDepth →
        ∀ s ∈ (g1.block b).slots, fixupSlot g1 (fixupSlot g1 s) = fixupSlot g1 s) →
      SlotsFixed g1
        (fun c => (∃ e ∈ m, c ∈ e.2 ∧ (g1.block le).loopDepth ≤ (g1.block c).loopDepth) ∨ T c)
        (fixupRedundantPhisMap g le m) := by
  unfold fixupRedundantPhisMap
  induction m with
  | nil =>
    intro g T h _
    exact h.sf_congr (fun c => ⟨fun hc => hc.elim
      (fun ⟨_, hx, _⟩ => absurd hx (List.not_mem_nil _)) (fun x => x), fun hc => Or.inr hc⟩)
  | cons e rest ih =>
    intro g T h hid
    simp only [List.foldl_cons]
    have h1 := slotsFixed_blocks g1 le e.2 g T h (hid e (List.mem_cons_self _ _))
    refine (ih _ _ h1 (fun x hx => hid x (List.mem_cons_of_mem _ hx))).sf_congr (fun c => ?_)
    constructor
    · rintro (⟨x, hx, hm, hd⟩ | ht)
      · rcases List.mem_cons.1 hx with rfl | hx
        · exact Or.inr (Or.inl ⟨hm, hd⟩)
        · exact Or.inl ⟨x, hx, hm, hd⟩
      · exact Or.inr (Or.inr ht)
    · rintro (⟨x, hx, hm, hd⟩ | ⟨hm, hd⟩ | ht)
      · exact Or.inl ⟨x, List.mem_cons_of_mem _ hx, hm, hd⟩
      · exact Or.inl ⟨e, List.mem_cons_self _ _, hm, hd⟩
      · exact Or.inr ht

theorem discard_fold_slots (le : BlockId) (l : List DefId) :
    ∀ g : MIRGraph,
      (∀ c, ((l.foldl (fun g p =>
        if (g.getDef p).unused then
          addPhiToFreeList
            (discardPhi (justReplaceAllUsesWith g p ((g.getDef p).operands.getD 0 none)) le p) p
        else g) g).block c).slots = (g.block c).slots) ∧
      (∀ d, ((l.foldl (fun g p =>
        if (g.getDef p).unused then
          addPhiToFreeList
            (discardPhi (justReplaceAllUsesWith g p ((g.getDef p).operands.getD 0 none)) le p) p
        else g) g).getDef d).unused = (g.getDef d).unused) := by
  induction l with
  | nil => intro g; exact ⟨fun _ => rfl, fun _ => rfl⟩
  | cons p ps ih =>
    intro g
    simp only [List.foldl_cons]
    by_cases hu : (g.getDef p).unused = true
    · rw [if_pos hu]
      obtain ⟨i1, i2⟩ := ih (addPhiToFreeList
        (discardPhi (justReplaceAllUsesWith g p ((g.getDef p).operands.getD 0 none)) le p) p)
      have hs : ∀ c, ((addPhiToFreeList (discardPhi (justReplaceAllUsesWith g p
          ((g.getDef p).operands.getD 0 none)) le p) p).block c).slots = (g.block c).slots := by
        intro c
        have e1 : (addPhiToFreeList (discardPhi (justReplaceAllUsesWith g p
            ((g.getDef p).operands.getD 0 none)) le p) p).block c =
            (discardPhi (justReplaceAllUsesWith g p
              ((g.getDef p).operands.getD 0 none)) le p).block c := rfl
        rw [e1]
        unfold discardPhi
        rw [block_modifyBlock]
        split
        · exact (block_justReplace_attrs g p _ c).2.2.2
        · exact (block_justReplace_attrs g p _ c).2.2.2
      have hd : ∀ d, ((addPhiToFreeList (discardPhi (justReplaceAllUsesWith g p
          ((g.getDef p).operands.getD 0 none)) le p) p).getDef d).unused =
          (g.getDef d).unused := by
        intro d
        have e1 : (addPhiToFreeList (discardPhi (justReplaceAllUsesWith g p
            ((g.getDef p).operands.getD 0 none)) le p) p).getDef d =
            (justReplaceAllUsesWith g p ((g.getDef p).operands.getD 0 none)).getDef d := rfl
        rw [e1]
        exact (getDef_justReplace g p _ d).2
      exact ⟨fun c => (i1 c).trans (hs c), fun d => (i2 d).trans (hd d)⟩
    · rw [if_neg hu]
      exact ih g

theorem setLoopBackedge_fixups (f : FunctionCompiler) (le be : BlockId)
    (afterLoop : Option BlockId) :
    ∃ g2, (f.setLoopBackedge le be afterLoop).graph_ =
        discardRedundantPhis (fixupRedundantPhisMap (fixupRedundantPhisMap
          (fixupRedundantPhisMap (fixupRedundantPhisMap g2 le f.labeledContinues_) le
            f.labeledBreaks_) le f.unlabeledContinues_) le f.unlabeledBreaks_) le ∧
      (afterLoop = none → g2 = flagRedundantPhis (backedgeGraph f le be) le) ∧
      (∀ a, afterLoop = some a →
        g2 = fixupRedundantPhis (flagRedundantPhis (backedgeGraph f le be) le) a) := by
  cases afterLoop with
  | none => exact ⟨_, rfl, fun _ => rfl, fun a h => (by cases h)⟩
  | some a =>
    refine ⟨_, rfl, fun h => (by cases h), fun b h => ?_⟩
    simp only [Option.some.injEq] at h
    subst h
    rfl

/-- C23. `setLoopBackedge` on header `le`, backedge block `be` and the block
`afterLoop`; `G` is the graph right after `setBackedgeAsmJS` and the redundant
phis are the header phis whose two operands are the same in `G`
(`flaggedPhis`). The blocks fixed up are `afterLoop` and the blocks parked in
one of the four pending-branch maps whose loop depth is at least that of the
header. Suppose that the header phis are definitions of the graph, that
before the call no slot of a block to fix up holds a definition flagged unused
(a phi discarded earlier), and that operand 0 of a redundant phi, the value
from the loop entry, is neither flagged unused nor a redundant phi itself.
Then after `setLoopBackedge` every slot of a block fixed up that held a
redundant header phi holds operand 0 of that phi and every other slot of the
block is unchanged; no slot of the block holds a redundant phi or a definition
flagged unused; and the slots of all other blocks are unchanged. -/
theorem C23_pending_slots_fixed_up (f : FunctionCompiler) (le be : BlockId)
    (afterLoop : Option BlockId)
    (hlt : ∀ p ∈ ((backedgeGraph f le be).block le).phis, p < (backedgeGraph f le be).defs.length)
    (hslots : ∀ b, fixedUp f le be afterLoop b →
      ∀ d, some d ∈ ((backedgeGraph f le be).block b).slots →
        ((backedgeGraph f le be).getDef d).unused = false)
    (hentry : ∀ p ∈ flaggedPhis f le be, ∀ r,
      ((backedgeGraph f le be).getDef p).operands.getD 0 none = some r →
        ((backedgeGraph f le be).getDef r).unused = false ∧ r ∉ flaggedPhis f le be) :
    (∀ b, fixedUp f le be afterLoop b →
      ((f.setLoopBackedge le be afterLoop).graph_.block b).slots =
        ((backedgeGraph f le be).block b).slots.map
          (rewriteUse (backedgeGraph f le be) (flaggedPhis f le be)) ∧
      ∀ d, some d ∈ ((f.setLoopBackedge le be afterLoop).graph_.block b).slots →
        d ∉ flaggedPhis f le be ∧
        ((f.setLoopBackedge le be afterLoop).graph_.getDef d).unused = false) ∧
    (∀ b, ¬ fixedUp f le be afterLoop b →
      ((f.setLoopBackedge le be afterLoop).graph_.block b).slots =
        ((backedgeGraph f le be).block b).slots) := by
  obtain ⟨g2, hres, hg2n, hg2s⟩ := setLoopBackedge_fixups f le be afterLoop
  obtain ⟨hA1, hA2, hA3, hA4⟩ :=
    flag_fold ((backedgeGraph f le be).block le).phis (backedgeGraph f le be)
  have hg1 : flagRedundantPhis (backedgeGraph f le be) le =
      ((backedgeGraph f le be).block le).phis.foldl (fun g p =>
        if (g.getDef p).operands.getD 0 none = (g.getDef p).operands.getD 1 none then
          g.modifyDef p (fun d => { d with unused := true })
        else g) (backedgeGraph f le be) := rfl
  rw [← hg1] at hA1 hA2 hA3 hA4
  generalize hG : backedgeGraph f le be = G at *
  generalize hg : flagRedundantPhis G le = g1 at *
  have hF : ∀ d, d ∈ flaggedPhis f le be ↔ (d ∈ (G.block le).phis ∧ redundantPhi G d = true) := by
    intro d
    unfold flaggedPhis
    rw [hG, List.mem_filter]
  have hblk : ∀ c, g1.block c = G.block c := by
    intro c
    simp only [MIRGraph.block, hA1]
  have hU : ∀ d, (G.getDef d).unused = false →
      ((g1.getDef d).unused = true ↔ d ∈ flaggedPhis f le be) := by
    intro d hd
    rw [hF]
    by_cases hlen : d < G.defs.length
    · rw [hA3 d hlen, hd]
      simp
    · constructor
      · intro hx
        have : g1.getDef d = default := by
          simp only [MIRGraph.getDef]
          exact List.getD_eq_default _ _ (hA4 ▸ Nat.le_of_not_lt hlen)
        rw [this] at hx
        cases hx
      · intro hx
        exact absurd (hlt d hx.1) hlen
  have hφ : ∀ d, (G.getDef d).unused = false →
      fixupSlot g1 (some d) = rewriteUse G (flaggedPhis f le be) (some d) := by
    intro d hd
    simp only [fixupSlot, rewriteUse]
    by_cases hm : d ∈ flaggedPhis f le be
    · rw [if_pos ((hU d hd).2 hm), if_pos hm, hA2]
    · have hn : ¬ (g1.getDef d).unused = true := fun hx => hm ((hU d hd).1 hx)
      rw [if_neg hn, if_neg hm]
  have hmap : ∀ b, fixedUp f le be afterLoop b →
      (g1.block b).slots.map (fixupSlot g1) =
        (G.block b).slots.map (rewriteUse G (flaggedPhis f le be)) := by
    intro b hb
    rw [hblk]
    refine List.map_congr_left (fun s hs => ?_)
    cases s with
    | none => rfl
    | some d => exact hφ d (hslots b hb d hs)
  have hnew : ∀ b, fixedUp f le be afterLoop b → ∀ s ∈ (G.block b).slots, ∀ d,
      rewriteUse G (flaggedPhis f le be) s = some d →
        (G.getDef d).unused = false ∧ d ∉ flaggedPhis f le be := by
    intro b hb s hs d he
    cases s with
    | none => cases he
    | some d0 =>
      simp only [rewriteUse] at he
      by_cases hm : d0 ∈ flaggedPhis f le be
      · rw [if_pos hm] at he
        exact hentry d0 hm d he
      · rw [if_neg hm] at he
        simp only [Option.some.injEq] at he
        subst he
        exact ⟨hslots b hb d0 hs, hm⟩
  have hid : ∀ b, fixedUp f le be afterLoop b → ∀ s ∈ (g1.block b).slots,
      fixupSlot g1 (fixupSlot g1 s) = fixupSlot g1 s := by
    intro b hb s hs
    rw [hblk] at hs
    cases s with
    | none => rfl
    | some d =>
      rw [hφ d (hslots b hb d hs)]
      cases hr : rewriteUse G (flaggedPhis f le be) (some d) with
      | none => rfl
      | some r =>
        obtain ⟨n1, n2⟩ := hnew b hb (some d) hs r hr
        have hn : ¬ (g1.getDef r).unused = true := fun hx => n2 ((hU r n1).1 hx)
        simp only [fixupSlot]
        rw [if_neg hn]
  have hdepth : ∀ c, ((g1.block le).loopDepth ≤ (g1.block c).loopDepth) ↔
      ((G.block le).loopDepth ≤ (G.block c).loopDepth) := by
    intro c
    rw [hblk, hblk]
  have hpark : ∀ sel, ∀ e ∈ f.getMap sel, ∀ b ∈ e.2,
      (g1.block le).loopDepth ≤ (g1.block b).loopDepth →
      ∀ s ∈ (g1.block b).slots, fixupSlot g1 (fixupSlot g1 s) = fixupSlot g1 s :=
    fun sel e he b hb hd =>
      hid b (Or.inr ⟨⟨sel, e, he, hb⟩, by rw [hG]; exact (hdepth b).1 hd⟩)
  have h0 : SlotsFixed g1 (fun _ => False) g1 :=
    ⟨rfl, rfl, fun c => ⟨rfl, fun h => absurd h id, fun _ => rfl⟩⟩
  have h2 : SlotsFixed g1 (fun c => afterLoop = some c) g2 := by
    cases hal : afterLoop with
    | none =>
      rw [hg2n hal]
      exact h0.sf_congr (fun c => ⟨fun h => (by cases h), fun h => absurd h id⟩)
    | some a =>
      rw [hg2s a hal]
      refine (slotsFixed_step a h0 (hid a (Or.inl hal))).sf_congr (fun c => ?_)
      constructor
      · intro h
        simp only [Option.some.injEq] at h
        exact Or.inl h.symm
      · rintro (rfl | h)
        · rfl
        · exact absurd h id
  have h3 := slotsFixed_map g1 le f.labeledContinues_ _ _ h2 (hpark .labeledContinues)
  have h4 := slotsFixed_map g1 le f.labeledBreaks_ _ _ h3 (hpark .labeledBreaks)
  have h5 := slotsFixed_map g1 le f.unlabeledContinues_ _ _ h4 (hpark .unlabeledContinues)
  have h6 := slotsFixed_map g1 le f.unlabeledBreaks_ _ _ h5 (hpark .unlabeledBreaks)
  have hT : SlotsFixed g1 (fixedUp f le be afterLoop)
      (fixupRedundantPhisMap (fixupRedundantPhisMap (fixupRedundantPhisMap
        (fixupRedundantPhisMap g2 le f.labeledContinues_) le f.labeledBreaks_) le
          f.unlabeledContinues_) le f.unlabeledBreaks_) := by
    refine h6.sf_congr (fun c => ?_)
    unfold fixedUp
    rw [hG]
    constructor
    · rintro (ha | ⟨⟨sel, e, he, hb⟩, hd⟩)
      · exact Or.inr (Or.inr (Or.inr (Or.inr ha)))
      · have hd' := (hdepth c).2 hd
        cases sel with
        | unlabeledBreaks => exact Or.inl ⟨e, he, hb, hd'⟩
        | unlabeledContinues => exact Or.inr (Or.inl ⟨e, he, hb, hd'⟩)
        | labeledBreaks => exact Or.inr (Or.inr (Or.inl ⟨e, he, hb, hd'⟩))
        | labeledContinues => exact Or.inr (Or.inr (Or.inr (Or.inl ⟨e, he, hb, hd'⟩)))
    · rintro (⟨e, he, hb, hd⟩ | ⟨e, he, hb, hd⟩ | ⟨e, he, hb, hd⟩ | ⟨e, he, hb, hd⟩ | ha)
      · exact Or.inr ⟨⟨.unlabeledBreaks, e, he, hb⟩, (hdepth c).1 hd⟩
      · exact Or.inr ⟨⟨.unlabeledContinues, e, he, hb⟩, (hdepth c).1 hd⟩
      · exact Or.inr ⟨⟨.labeledBreaks, e, he, hb⟩, (hdepth c).1 hd⟩
      · exact Or.inr ⟨⟨.labeledContinues, e, he, hb⟩, (hdepth c).1 hd⟩
      · exact Or.inl ha
  rw [hres]
  generalize fixupRedundantPhisMap (fixupRedundantPhisMap (fixupRedundantPhisMap
    (fixupRedundantPhisMap g2 le f.labeledContinues_) le f.labeledBreaks_) le
      f.unlabeledContinues_) le f.unlabeledBreaks_ = g6 at hT
  obtain ⟨d1, d2⟩ := discard_fold_slots le (g6.block le).phis g6
  have hds : ∀ c, ((discardRedundantPhis g6 le).block c).slots = (g6.block c).slots := d1
  have hdu : ∀ d, ((discardRedundantPhis g6 le).getDef d).unused = (g1.getDef d).unused := by
    intro d
    have e1 : ((discardRedundantPhis g6 le).getDef d).unused = (g6.getDef d).unused := d2 d
    rw [e1]
    simp only [MIRGraph.getDef, hT.1]
  refine ⟨fun b hb => ?_, fun b hb => ?_⟩
  · have hsl : ((discardRedundantPhis g6 le).block b).slots =
        (G.block b).slots.map (rewriteUse G (flaggedPhis f le be)) := by
      rw [hds, (hT.2.2 b).2.1 hb, hmap b hb]
    refine ⟨hsl, fun d hd => ?_⟩
    rw [hsl] at hd
    obtain ⟨s, hs, he⟩ := List.mem_map.1 hd
    obtain ⟨n1, n2⟩ := hnew b hb s hs d he
    refine ⟨n2, ?_⟩
    rw [hdu]
    cases hx : (g1.getDef d).unused with
    | false => rfl
    | true => exact absurd ((hU d n1).1 hx) n2
  · rw [hds, (hT.2.2 b).2.2 hb, hblk]

theorem C24_loop_header_two_predecessors_witness :
    (callsStatements x64ABI twoLoops oneIntArg).map LoopCall.backedgeBlocks =
      [none, none, some (1, 2), none, some (4, 4)] ∧
    ((∀ f0 pos g al, LoopCall.close f0 pos g al ∈ callsStatements x64ABI twoLoops oneIntArg →
      ∀ gg H be, (LoopCall.close f0 pos g al).backedge = some (gg, H, be) →
        ∃ entry, f0.curBlock_ = some entry ∧ H = f0.graph_.blocks.length ∧
          g.curBlock_ = some be ∧ BlockMap.lookup g.unlabeledContinues_ pos = none ∧
          (gg.graph_.block H).predecessors = [entry] ∧
          ((backedgeGraph gg H be).block H).predecessors = [entry, be] ∧
          ∀ p ∈ ((backedgeGraph gg H be).block H).phis,
            ((backedgeGraph gg H be).getDef p).operands.length = 2) ∧
    (∀ f0 pos g cond,
      LoopCall.closeDoWhile f0 pos g cond ∈ callsStatements x64ABI twoLoops oneIntArg →
      ∀ gg H be, (LoopCall.closeDoWhile f0 pos g cond).backedge = some (gg, H, be) →
        ∃ entry, f0.curBlock_ = some entry ∧ H = f0.graph_.blocks.length ∧
          g.curBlock_ = some be ∧ BlockMap.lookup g.unlabeledContinues_ pos = none ∧
          (gg.graph_.block H).predecessors = [entry] ∧
          ((backedgeGraph gg H be).block H).predecessors = [entry, be] ∧
          ∀ p ∈ ((backedgeGraph gg H be).block H).phis,
            ((backedgeGraph gg H be).getDef p).operands.length = 2)) :=
  ⟨by decide, C24_loop_header_two_predecessors x64ABI twoLoops Ctx.top oneIntArg
    (inv_prepareEmitMIR [.Int32] []) (by decide) (frameOk_prepareEmitMIR [.Int32] []).1⟩

theorem C25_loop_depth_invariant_witness :
    (callsStatements x64ABI twoLoops oneIntArg).map
        (fun call => (call.state.curBlock_, call.state.loopStack_)) =
      [(some 0, []), (some 1, [1]), (some 2, [1]), (some 3, []), (some 4, [18])] ∧
    ((∀ call ∈ callsStatements x64ABI twoLoops oneIntArg,
      LoopOk call.state ∧ call.depthAsserts) ∧
    (∀ f', EmitStatements x64ABI twoLoops oneIntArg = some f' →
      LoopOk f' ∧ f'.loopStack_ = oneIntArg.loopStack_)) :=
  ⟨by decide, C25_loop_depth_invariant x64ABI twoLoops Ctx.top oneIntArg
    (inv_prepareEmitMIR [.Int32] []) (by decide) (frameOk_prepareEmitMIR [.Int32] []).1⟩

theorem C26_dead_statement_is_inert_witness :
    oneIntArg.returnVoid.curBlock_ = none ∧
    (EmitStatement x64ABI emptyWhile none oneIntArg.returnVoid).isSome = true ∧
    ((oneIntArg.returnVoid.curBlock_ = none →
      ∀ r, EmitStatement x64ABI emptyWhile none oneIntArg.returnVoid = some r →
        r.1.curBlock_ = none ∧ r.1.graph_ = oneIntArg.returnVoid.graph_ ∧
        r.1.unlabeledBreaks_ = oneIntArg.returnVoid.unlabeledBreaks_ ∧
        r.1.unlabeledContinues_ = oneIntArg.returnVoid.unlabeledContinues_ ∧
        r.1.labeledBreaks_ = oneIntArg.returnVoid.labeledBreaks_ ∧
        r.1.labeledContinues_ = oneIntArg.returnVoid.labeledContinues_ ∧
        r.1.loopStack_ = oneIntArg.returnVoid.loopStack_ ∧
        r.1.breakableStack_ = oneIntArg.returnVoid.breakableStack_) ∧
    (FrameOk oneIntArg.returnVoid →
      ∀ call ∈ callsStatement x64ABI emptyWhile none oneIntArg.returnVoid,
        call.deadAsserts)) :=
  ⟨by decide, by decide, C26_dead_statement_is_inert x64ABI emptyWhile none Ctx.top
    oneIntArg.returnVoid
    (inv_bk (inv_prepareEmitMIR [.Int32] []) (returnVoid_quiet oneIntArg).1) rfl (by decide)⟩

theorem copyBack_slots (b : BlockId) (hb : fixedUp copyBackBeforeBackedge.1 1 2 (some 3) b)
    (d : DefId) (hd : some d ∈ ((backedgeGraph copyBackBeforeBackedge.1 1 2).block b).slots) :
    ((backedgeGraph copyBackBeforeBackedge.1 1 2).getDef d).unused = false := by
  have hb3 : b = 3 := by
    rcases hb with h | ⟨⟨sel, e, he, _⟩, _⟩
    · exact (Option.some.inj h).symm
    · have hm : copyBackBeforeBackedge.1.getMap sel = [] := by
        cases sel <;> decide
      rw [hm] at he
      cases he
  subst hb3
  have hs : ((backedgeGraph copyBackBeforeBackedge.1 1 2).block 3).slots = [some 2, some 3] := by
    decide
  rw [hs] at hd
  simp only [List.mem_cons, Option.some.injEq, List.mem_nil_iff, or_false] at hd
  rcases hd with rfl | rfl <;> decide

theorem copyBack_entry (p : DefId) (hp : p ∈ flaggedPhis copyBackBeforeBackedge.1 1 2)
    (r : DefId)
    (hr : ((backedgeGraph copyBackBeforeBackedge.1 1 2).getDef p).operands.getD 0 none = some r) :
    ((backedgeGraph copyBackBeforeBackedge.1 1 2).getDef r).unused = false ∧
    r ∉ flaggedPhis copyBackBeforeBackedge.1 1 2 := by
  have hF : flaggedPhis copyBackBeforeBackedge.1 1 2 = [3] := by decide
  rw [hF] at hp ⊢
  have hp3 : p = 3 := by simpa using hp
  subst hp3
  have h0 : ((backedgeGraph copyBackBeforeBackedge.1 1 2).getDef 3).operands.getD 0 none =
      some 0 := by decide
  rw [h0] at hr
  have hr0 : r = 0 := (Option.some.inj hr).symm
  subst hr0
  exact ⟨by decide, by decide⟩

theorem C23_pending_slots_fixed_up_witness :
    fixedUp copyBackBeforeBackedge.1 1 2 (some 3) 3 ∧
    ((backedgeGraph copyBackBeforeBackedge.1 1 2).block 3).slots = [some 2, some 3] ∧
    flaggedPhis copyBackBeforeBackedge.1 1 2 = [3] ∧
    ((copyBackBeforeBackedge.1.setLoopBackedge 1 2 (some 3)).graph_.block 3).slots =
      [some 2, some 0] ∧
    ((∀ b, fixedUp copyBackBeforeBackedge.1 1 2 (some 3) b →
      ((copyBackBeforeBackedge.1.setLoopBackedge 1 2 (some 3)).graph_.block b).slots =
        ((backedgeGraph copyBackBeforeBackedge.1 1 2).block b).slots.map
          (rewriteUse (backedgeGraph copyBackBeforeBackedge.1 1 2)
            (flaggedPhis copyBackBeforeBackedge.1 1 2)) ∧
      ∀ d, some d ∈ ((copyBackBeforeBackedge.1.setLoopBackedge 1 2 (some 3)).graph_.block
          b).slots →
        d ∉ flaggedPhis copyBackBeforeBackedge.1 1 2 ∧
        ((copyBackBeforeBackedge.1.setLoopBackedge 1 2 (some 3)).graph_.getDef d).unused =
          false) ∧
    (∀ b, ¬ fixedUp copyBackBeforeBackedge.1 1 2 (some 3) b →
      ((copyBackBeforeBackedge.1.setLoopBackedge 1 2 (some 3)).graph_.block b).slots =
        ((backedgeGraph copyBackBeforeBackedge.1 1 2).block b).slots)) :=
  ⟨Or.inl rfl, by decide, by decide, by decide,
    C23_pending_slots_fixed_up copyBackBeforeBackedge.1 1 2 (some 3) (by decide)
      copyBack_slots copyBack_entry⟩

/-! ## Loading and pushing an `ImmWord` on x64 (C31, C32) -/

theorem run_append (code : List Instruction) (i : Instruction) (m : Machine) :
    run (code ++ [i]) m = i.exec (run code m) := by
  simp only [run, List.foldl_append, List.foldl_cons, List.foldl_nil]

/-- The encoding that `movq(ImmWord, Register)` selects, by the range of the
word. -/
theorem movq_cases (a : Assembler) (w : Nat) (hw : w < 2 ^ 64) (dest : Register) :
    (w ≤ 2 ^ 32 - 1 → (a.movq w dest).masm = a.masm ++ [.movl_i32r w dest]) ∧
    (2 ^ 32 - 1 < w → 2 ^ 64 - 2 ^ 31 ≤ w →
      (a.movq w dest).masm = a.masm ++ [.movq_i32r ((w : Int) - 2 ^ 64) dest]) ∧
    (2 ^ 32 - 1 < w → w < 2 ^ 64 - 2 ^ 31 →
      (a.movq w dest).masm = a.masm ++ [.movq_i64r w dest]) := by
  refine ⟨fun h => ?_, fun h1 h2 => ?_, fun h1 h2 => ?_⟩
  · have hu : u32 w = w := by unfold u32; omega
    simp only [Assembler.movq, UINT32_MAX, if_pos h, hu]
  · have h0 : ¬ w ≤ UINT32_MAX := by unfold UINT32_MAX; omega
    have hi : toIntptr w = (w : Int) - 2 ^ 64 := by
      unfold toIntptr
      rw [Nat.mod_eq_of_lt hw, if_neg (by omega)]
    have hr : (w : Int) - 2 ^ 64 ≥ INT32_MIN ∧ (w : Int) - 2 ^ 64 ≤ INT32_MAX := by
      unfold INT32_MIN INT32_MAX; omega
    have h32 : toInt32 ((w : Int) - 2 ^ 64) = (w : Int) - 2 ^ 64 := by
      unfold toInt32; omega
    simp only [Assembler.movq, if_neg h0, hi, if_pos hr, h32]
  · have h0 : ¬ w ≤ UINT32_MAX := by unfold UINT32_MAX; omega
    have hr : ¬ (toIntptr w ≥ INT32_MIN ∧ toIntptr w ≤ INT32_MAX) := by
      unfold toIntptr INT32_MIN INT32_MAX
      rw [Nat.mod_eq_of_lt hw]
      split <;> omega
    simp only [Assembler.movq, if_neg h0, if_neg hr]

theorem signExtend32_neg (w : Nat) (hw : w < 2 ^ 64) (h : 2 ^ 64 - 2 ^ 31 ≤ w) :
    signExtend32 ((w : Int) - 2 ^ 64) = w := by
  unfold signExtend32 toUintptr toInt32
  omega

theorem signExtend32_small (w : Nat) (h : w ≤ 2 ^ 31 - 1) :
    toInt32 (w : Int) = w ∧ signExtend32 (w : Int) = w := by
  unfold signExtend32 toUintptr toInt32
  omega

/-- The register `dest` after the code of `movq(ImmWord(w), dest)`. -/
theorem movq_loads (a : Assembler) (w : Nat) (hw : w < 2 ^ 64) (dest : Register) (m : Machine) :
    run (a.movq w dest).masm m = (run a.masm m).setReg dest w := by
  obtain ⟨h1, h2, h3⟩ := movq_cases a w hw dest
  by_cases c1 : w ≤ 2 ^ 32 - 1
  · rw [h1 c1, run_append]
    have : zeroExtend32 w = w := by unfold zeroExtend32; omega
    simp only [Instruction.exec, this]
  · by_cases c2 : 2 ^ 64 - 2 ^ 31 ≤ w
    · rw [h2 (by omega) c2, run_append]
      simp only [Instruction.exec, signExtend32_neg w hw c2]
    · rw [h3 (by omega) (by omega), run_append]
      simp only [Instruction.exec, Nat.mod_eq_of_lt hw]

theorem toIntptr_range (w : Nat) (hw : w < 2 ^ 64) :
    (INT32_MIN ≤ toIntptr w ∧ toIntptr w ≤ INT32_MAX) ↔ (w ≤ 2 ^ 31 - 1 ∨ 2 ^ 64 - 2 ^ 31 ≤ w) := by
  unfold toIntptr INT32_MIN INT32_MAX
  rw [Nat.mod_eq_of_lt hw]
  split <;> omega

theorem toIntptr_big (w : Nat) (hw : w < 2 ^ 64) (h : 2 ^ 63 ≤ w) :
    toIntptr w = (w : Int) - 2 ^ 64 := by
  unfold toIntptr
  rw [Nat.mod_eq_of_lt hw, if_neg (by omega)]

theorem mov_zero (a : Assembler) (dest : Register) (m : Machine) :
    run (a.mov 0 dest).masm m = (run a.masm m).setReg dest 0 := by
  have h : (a.mov 0 dest).masm = a.masm ++ [.xorl_rr dest dest] := by
    simp only [Assembler.mov, Assembler.xorl, if_true]
  rw [h, run_append]
  simp only [Instruction.exec, Nat.xor_self, zeroExtend32, Nat.zero_mod]

theorem regs_setReg (m : Machine) (dest : Register) (v : Nat) :
    (m.setReg dest v).regs dest = v ∧ (∀ r, r ≠ dest → (m.setReg dest v).regs r = m.regs r) ∧
    (m.setReg dest v).stack = m.stack :=
  ⟨Function.update_same _ _ _, fun _ hr => Function.update_noteq hr _ _, rfl⟩

/-- C31. For every 64-bit word `w`, the code that `mov(ImmWord(w), dest)` and
the code that `movq(ImmWord(w), dest)` append leave `w` in `dest` and every
other register as it was. `mov` emits `xorl dest, dest` for `w = 0` and is
`movq` otherwise. `movq` tests three ranges in order: for `w ≤ UINT32_MAX` it
emits `movl` with the immediate `w`, whose zero extension is `w`; otherwise,
for `(intptr_t)w` in `[INT32_MIN, INT32_MAX]` (for such `w`: `2^64 - 2^31 ≤ w`),
it emits `movq` with the 32-bit immediate `(intptr_t)w`, whose sign extension
is `w`; otherwise it emits the 64-bit `movabs` with `w`. Whenever one of the
two 32-bit forms is emitted, the extension of its immediate is `w`. -/
theorem C31_mov_immword_loads_word (w : Nat) (hw : w < 2 ^ 64) (dest : Register)
    (a : Assembler) (m : Machine) :
    ((run (a.mov w dest).masm m).regs dest = w ∧
      ∀ r, r ≠ dest → (run (a.mov w dest).masm m).regs r = (run a.masm m).regs r) ∧
    ((run (a.movq w dest).masm m).regs dest = w ∧
      ∀ r, r ≠ dest → (run (a.movq w dest).masm m).regs r = (run a.masm m).regs r) ∧
    (w = 0 → (a.mov w dest).masm = a.masm ++ [.xorl_rr dest dest]) ∧
    (w ≠ 0 → a.mov w dest = a.movq w dest) ∧
    (w ≤ UINT32_MAX →
      (a.movq w dest).masm = a.masm ++ [.movl_i32r w dest] ∧ zeroExtend32 w = w) ∧
    (UINT32_MAX < w → INT32_MIN ≤ toIntptr w ∧ toIntptr w ≤ INT32_MAX →
      (a.movq w dest).masm = a.masm ++ [.movq_i32r (toIntptr w) dest] ∧
      signExtend32 (toIntptr w) = w ∧ 2 ^ 64 - 2 ^ 31 ≤ w) ∧
    (UINT32_MAX < w → ¬ (INT32_MIN ≤ toIntptr w ∧ toIntptr w ≤ INT32_MAX) →
      (a.movq w dest).masm = a.masm ++ [.movq_i64r w dest]) ∧
    (∀ imm, (a.movq w dest).masm = a.masm ++ [.movl_i32r imm dest] → zeroExtend32 imm = w) ∧
    (∀ imm, (a.movq w dest).masm = a.masm ++ [.movq_i32r imm dest] → signExtend32 imm = w) := by
  obtain ⟨h1, h2, h3⟩ := movq_cases a w hw dest
  have hq := movq_loads a w hw dest m
  have hrange := toIntptr_range w hw
  have hz : ∀ v, v ≤ 2 ^ 32 - 1 → zeroExtend32 v = v := by
    intro v hv; unfold zeroExtend32; omega
  have hmov : run (a.mov w dest).masm m = (run a.masm m).setReg dest w := by
    by_cases h0 : w = 0
    · subst h0; exact mov_zero a dest m
    · simp only [Assembler.mov, if_neg h0]; exact hq
  have hsel2 : UINT32_MAX < w → INT32_MIN ≤ toIntptr w ∧ toIntptr w ≤ INT32_MAX →
      (a.movq w dest).masm = a.masm ++ [.movq_i32r (toIntptr w) dest] ∧
      signExtend32 (toIntptr w) = w ∧ 2 ^ 64 - 2 ^ 31 ≤ w := by
    intro hu hr
    unfold UINT32_MAX at hu
    have hb : 2 ^ 64 - 2 ^ 31 ≤ w := by
      rcases hrange.1 hr with h | h
      · omega
      · exact h
    rw [toIntptr_big w hw (by omega)]
    exact ⟨h2 hu hb, signExtend32_neg w hw hb, hb⟩
  have hsel3 : UINT32_MAX < w → ¬ (INT32_MIN ≤ toIntptr w ∧ toIntptr w ≤ INT32_MAX) →
      (a.movq w dest).masm = a.masm ++ [.movq_i64r w dest] := by
    intro hu hr
    unfold UINT32_MAX at hu
    rw [hrange] at hr
    exact h3 hu (by omega)
  refine ⟨?_, ?_, ?_, ?_, ?_, hsel2, hsel3, ?_, ?_⟩
  · rw [hmov]
    exact ⟨(regs_setReg _ _ _).1, (regs_setReg _ _ _).2.1⟩
  · rw [hq]
    exact ⟨(regs_setReg _ _ _).1, (regs_setReg _ _ _).2.1⟩
  · intro h0
    subst h0
    simp only [Assembler.mov, Assembler.xorl, if_true]
  · intro h0
    simp only [Assembler.mov, if_neg h0]
  · intro hu
    unfold UINT32_MAX at hu
    exact ⟨h1 hu, hz w hu⟩
  · intro imm himm
    by_cases c1 : w ≤ 2 ^ 32 - 1
    · rw [h1 c1] at himm
      have := List.append_cancel_left himm
      simp only [List.cons.injEq, Instruction.movl_i32r.injEq, and_true] at this
      rw [← this]
      exact hz w c1
    · by_cases c2 : 2 ^ 64 - 2 ^ 31 ≤ w
      · rw [h2 (by omega) c2] at himm
        have := List.append_cancel_left himm
        simp only [List.cons.injEq, and_true, reduceCtorEq] at this
      · rw [h3 (by omega) (by omega)] at himm
        have := List.append_cancel_left himm
        simp only [List.cons.injEq, and_true, reduceCtorEq] at this
  · intro imm himm
    by_cases c1 : w ≤ 2 ^ 32 - 1
    · rw [h1 c1] at himm
      have := List.append_cancel_left himm
      simp only [List.cons.injEq, and_true, reduceCtorEq] at this
    · by_cases c2 : 2 ^ 64 - 2 ^ 31 ≤ w
      · rw [h2 (by omega) c2] at himm
        have := List.append_cancel_left himm
        simp only [List.cons.injEq, Instruction.movq_i32r.injEq, and_true] at this
        rw [← this]
        exact signExtend32_neg w hw c2
      · rw [h3 (by omega) (by omega)] at himm
        have := List.append_cancel_left himm
        simp only [List.cons.injEq, and_true, reduceCtorEq] at this

/-- Witness for C31: the word `2^64 - 1` is loaded by `movq` with the 32-bit
immediate `-1`, whose sign extension is the word. -/
theorem C31_mov_immword_loads_word_witness :
    (18446744073709551615 : Nat) < 2 ^ 64 ∧
    (emptyAssembler.mov 18446744073709551615 .rax).masm = [.movq_i32r (-1) .rax] ∧
    (run (emptyAssembler.mov 18446744073709551615 .rax).masm zeroMachine).regs .rax =
      18446744073709551615 :=
  ⟨by decide, by decide,
    (C31_mov_immword_loads_word 18446744073709551615 (by decide) .rax emptyAssembler
      zeroMachine).1.1⟩

/-- C32. For every 64-bit word `w`, the code that `push(ImmWord(w))` appends
pushes `w`: the stack afterwards is `w` on top of the stack before. For
`w ≤ INT32_MAX`, compared in `uintptr_t` (that is `w ≤ 2^31 - 1`), it is the
push of the 32-bit immediate `w`, whose sign extension is `w`; for every other
`w` it is the code of `movq(ImmWord(w), ScratchReg)`, after which `ScratchReg`
holds `w`, followed by the push of `ScratchReg`. The immediate form is
appended only for `w ≤ INT32_MAX`, and then the sign extension of its immediate
is `w`. -/
theorem C32_push_immword_pushes_word (w : Nat) (hw : w < 2 ^ 64) (a : Assembler) (m : Machine) :
    (run (a.push w).masm m).stack = w :: (run a.masm m).stack ∧
    toUintptr INT32_MAX = 2 ^ 31 - 1 ∧
    (w ≤ toUintptr INT32_MAX →
      (a.push w).masm = a.masm ++ [.push_i32 w] ∧ signExtend32 w = w) ∧
    (toUintptr INT32_MAX < w →
      (a.push w).masm = (a.movq w ScratchReg).masm ++ [.push_r ScratchReg] ∧
      (run (a.movq w ScratchReg).masm m).regs ScratchReg = w ∧
      (run (a.movq w ScratchReg).masm m).stack = (run a.masm m).stack) ∧
    (∀ imm, (a.push w).masm = a.masm ++ [.push_i32 imm] →
      w ≤ toUintptr INT32_MAX ∧ signExtend32 imm = w) := by
  have hmax : toUintptr INT32_MAX = 2 ^ 31 - 1 := by
    unfold toUintptr INT32_MAX; omega
  have hq := movq_loads a w hw ScratchReg m
  have hsmall : w ≤ toUintptr INT32_MAX →
      (a.push w).masm = a.masm ++ [.push_i32 w] ∧ signExtend32 w = w := by
    intro h
    have h' : w ≤ 2 ^ 31 - 1 := by rw [hmax] at h; exact h
    simp only [Assembler.push, if_pos h, Assembler.pushImm32, (signExtend32_small w h').1]
    exact ⟨trivial, (signExtend32_small w h').2⟩
  have hbig : toUintptr INT32_MAX < w →
      (a.push w).masm = (a.movq w ScratchReg).masm ++ [.push_r ScratchReg] := by
    intro h
    simp only [Assembler.push, if_neg (Nat.not_le.2 h), Assembler.pushReg]
  refine ⟨?_, hmax, hsmall, fun h => ⟨hbig h, ?_, ?_⟩, ?_⟩
  · by_cases h : w ≤ toUintptr INT32_MAX
    · rw [(hsmall h).1, run_append]
      simp only [Instruction.exec, Machine.pushValue, (hsmall h).2]
    · rw [hbig (Nat.not_le.1 h), run_append, hq]
      simp only [Instruction.exec, Machine.pushValue, (regs_setReg _ _ _).1,
        (regs_setReg _ _ _).2.2]
  · rw [hq]; exact (regs_setReg _ _ _).1
  · rw [hq]; exact (regs_setReg _ _ _).2.2
  · intro imm himm
    by_cases h : w ≤ toUintptr INT32_MAX
    · rw [(hsmall h).1] at himm
      have := List.append_cancel_left himm
      simp only [List.cons.injEq, Instruction.push_i32.injEq, and_true] at this
      rw [← this]
      exact ⟨h, (hsmall h).2⟩
    · exfalso
      have h5 := congrArg List.length himm
      obtain ⟨h1, h2, h3⟩ := movq_cases a w hw ScratchReg
      rw [hbig (Nat.not_le.1 h)] at h5
      by_cases c1 : w ≤ 2 ^ 32 - 1
      · rw [h1 c1] at h5
        simp only [List.length_append, List.length_singleton] at h5
        omega
      · by_cases c2 : 2 ^ 64 - 2 ^ 31 ≤ w
        · rw [h2 (by omega) c2] at h5
          simp only [List.length_append, List.length_singleton] at h5
          omega
        · rw [h3 (by omega) (by omega)] at h5
          simp only [List.length_append, List.length_singleton] at h5
          omega

/-- Witness for C32: the word `2^31` does not fit the immediate form, whose
sign extension would be `2^64 - 2^31`; it is loaded into `r11` with `movl` and
pushed from there. -/
theorem C32_push_immword_pushes_word_witness :
    (2147483648 : Nat) < 2 ^ 64 ∧
    (emptyAssembler.push 2147483648).masm = [.movl_i32r 2147483648 .r11, .push_r .r11] ∧
    signExtend32 2147483648 = 18446744071562067968 ∧
    (run (emptyAssembler.push 2147483648).masm zeroMachine).stack = [2147483648] :=
  ⟨by decide, by decide, by decide,
    (C32_push_immword_pushes_word 2147483648 (by decide) emptyAssembler zeroMachine).1⟩

/-! ## Fall-through between the arms of a switch (C33) -/

/-- The method `startSwitchCase` with a switch block, called in live code with a
current block of the graph. -/
theorem startSwitchCase_live (f : FunctionCompiler) (sb cur : BlockId)
    (hc : f.curBlock_ = some cur) (hlt : cur < f.graph_.blocks.length) :
    (f.startSwitchCase (some sb)).2 = some f.graph_.blocks.length ∧
    (f.startSwitchCase (some sb)).1.curBlock_ = some f.graph_.blocks.length ∧
    (f.startSwitchCase (some sb)).1.graph_.blocks.length = f.graph_.blocks.length + 1 ∧
    JumpsTo (f.startSwitchCase (some sb)).1.graph_ cur f.graph_.blocks.length ∧
    ((f.startSwitchCase (some sb)).1.graph_.block f.graph_.blocks.length).predecessors =
      [sb, cur] := by
  obtain ⟨a1, a2, _, _⟩ := newBlockWithDepth_spec f (some sb) f.loopStack_.length
  have a5 := (preds_newBlock f sb f.loopStack_.length).1
  have hg : (f.startSwitchCase (some sb)).1.graph_ =
      MBasicBlock.addPredecessor
        ((f.newBlockWithDepth (some sb) f.loopStack_.length).1.graph_.endBlock cur
          (.goto f.graph_.blocks.length)) f.graph_.blocks.length cur := by
    simp only [startSwitchCase, newBlock, hc, a1]
  have hlen : ((f.newBlockWithDepth (some sb) f.loopStack_.length).1.graph_.endBlock cur
      (.goto f.graph_.blocks.length)).blocks.length = f.graph_.blocks.length + 1 := by
    rw [blocks_length_endBlock, a2]
  have h1 : cur < (f.newBlockWithDepth (some sb) f.loopStack_.length).1.graph_.blocks.length := by
    rw [a2]; exact Nat.lt_succ_of_lt hlt
  have h2 : f.graph_.blocks.length <
      ((f.newBlockWithDepth (some sb) f.loopStack_.length).1.graph_.endBlock cur
        (.goto f.graph_.blocks.length)).blocks.length := by
    rw [hlen]; exact Nat.lt_succ_self _
  refine ⟨?_, ?_, ?_, ?_, ?_⟩
  · simp only [startSwitchCase, newBlock, a1]
  · simp only [startSwitchCase, newBlock, a1]
  · rw [hg, (preds_addPredecessor _ _ _ 0).2, hlen]
  · unfold JumpsTo
    rw [hg, (sameControl_addPredecessor _ _ _).2, lastIns_endBlock, if_pos ⟨rfl, h1⟩]
  · rw [hg, (preds_addPredecessor _ _ _ _).1, if_pos ⟨rfl, h2⟩, preds_endBlock, a5]
    rfl

/-- The method `startSwitchCase` with a switch block, called in dead code. -/
theorem startSwitchCase_dead (f : FunctionCompiler) (sb : BlockId) (hc : f.curBlock_ = none) :
    (f.startSwitchCase (some sb)).2 = some f.graph_.blocks.length ∧
    (f.startSwitchCase (some sb)).1.curBlock_ = some f.graph_.blocks.length ∧
    (f.startSwitchCase (some sb)).1.graph_.blocks.length = f.graph_.blocks.length + 1 ∧
    ((f.startSwitchCase (some sb)).1.graph_.block f.graph_.blocks.length).predecessors = [sb] ∧
    ∀ c, c < f.graph_.blocks.length →
      (f.startSwitchCase (some sb)).1.graph_.block c = f.graph_.block c := by
  obtain ⟨a1, a2, a3, _⟩ := newBlockWithDepth_spec f (some sb) f.loopStack_.length
  have a5 := (preds_newBlock f sb f.loopStack_.length).1
  have hg : (f.startSwitchCase (some sb)).1.graph_ =
      (f.newBlockWithDepth (some sb) f.loopStack_.length).1.graph_ := by
    simp only [startSwitchCase, newBlock, hc]
  refine ⟨?_, ?_, ?_, ?_, ?_⟩
  · simp only [startSwitchCase, newBlock, a1]
  · simp only [startSwitchCase, newBlock, a1]
  · rw [hg, a2]
  · rw [hg, a5]
  · intro c hc'
    rw [hg, a3 c hc']

/-- The method `startSwitchDefault` when `startSwitchCase` returns a block: the
same state but for the order of the blocks, and the same block. -/
theorem startSwitchDefault_of_some (f : FunctionCompiler) (sb n : BlockId)
    (h : (f.startSwitchCase (some sb)).2 = some n) :
    (f.startSwitchDefault (some sb)).2 = some n ∧
    (f.startSwitchDefault (some sb)).1.curBlock_ = (f.startSwitchCase (some sb)).1.curBlock_ ∧
    (f.startSwitchDefault (some sb)).1.graph_.blocks =
      (f.startSwitchCase (some sb)).1.graph_.blocks ∧
    ∀ c, (f.startSwitchDefault (some sb)).1.graph_.block c =
      (f.startSwitchCase (some sb)).1.graph_.block c := by
  have hd : f.startSwitchDefault (some sb) =
      ({ (f.startSwitchCase (some sb)).1 with
          graph_ := (f.startSwitchCase (some sb)).1.graph_.moveBlockToEnd n }, some n) := by
    simp only [startSwitchDefault, h]
  rw [hd]
  exact ⟨rfl, rfl, rfl, fun _ => rfl⟩

/-- C33. `startSwitchCase` and `startSwitchDefault` with a switch block (the
switch was started in live code) create one block, the block of the new arm,
and make it current. When the builder is in live code, in a block `cur` of the
graph (the previous arm's body left it there), `cur` afterwards ends with a
jump to the new block and the predecessors of the new block are the switch
block and then `cur`. When the builder is in dead code, the only predecessor
of the new block is the switch block and no existing block is changed. -/
theorem C33_switch_fall_through (f : FunctionCompiler) (sb : BlockId) :
    (∀ cur, f.curBlock_ = some cur → cur < f.graph_.blocks.length →
      ((f.startSwitchCase (some sb)).2 = some f.graph_.blocks.length ∧
        (f.startSwitchCase (some sb)).1.curBlock_ = some f.graph_.blocks.length ∧
        (f.startSwitchCase (some sb)).1.graph_.blocks.length = f.graph_.blocks.length + 1 ∧
        JumpsTo (f.startSwitchCase (some sb)).1.graph_ cur f.graph_.blocks.length ∧
        ((f.startSwitchCase (some sb)).1.graph_.block f.graph_.blocks.length).predecessors =
          [sb, cur]) ∧
      ((f.startSwitchDefault (some sb)).2 = some f.graph_.blocks.length ∧
        (f.startSwitchDefault (some sb)).1.curBlock_ = some f.graph_.blocks.length ∧
        (f.startSwitchDefault (some sb)).1.graph_.blocks.length = f.graph_.blocks.length + 1 ∧
        JumpsTo (f.startSwitchDefault (some sb)).1.graph_ cur f.graph_.blocks.length ∧
        ((f.startSwitchDefault (some sb)).1.graph_.block f.graph_.blocks.length).predecessors =
          [sb, cur])) ∧
    (f.curBlock_ = none →
      ((f.startSwitchCase (some sb)).2 = some f.graph_.blocks.length ∧
        (f.startSwitchCase (some sb)).1.curBlock_ = some f.graph_.blocks.length ∧
        (f.startSwitchCase (some sb)).1.graph_.blocks.length = f.graph_.blocks.length + 1 ∧
        ((f.startSwitchCase (some sb)).1.graph_.block f.graph_.blocks.length).predecessors =
          [sb] ∧
        ∀ c, c < f.graph_.blocks.length →
          (f.startSwitchCase (some sb)).1.graph_.block c = f.graph_.block c) ∧
      ((f.startSwitchDefault (some sb)).2 = some f.graph_.blocks.length ∧
        (f.startSwitchDefault (some sb)).1.curBlock_ = some f.graph_.blocks.length ∧
        (f.startSwitchDefault (some sb)).1.graph_.blocks.length = f.graph_.blocks.length + 1 ∧
        ((f.startSwitchDefault (some sb)).1.graph_.block f.graph_.blocks.length).predecessors =
          [sb] ∧
        ∀ c, c < f.graph_.blocks.length →
          (f.startSwitchDefault (some sb)).1.graph_.block c = f.graph_.block c)) := by
  refine ⟨fun cur hc hlt => ?_, fun hc => ?_⟩
  · have h := startSwitchCase_live f sb cur hc hlt
    obtain ⟨d1, d2, d3, d4⟩ := startSwitchDefault_of_some f sb _ h.1
    refine ⟨h, d1, d2.trans h.2.1, ?_, ?_, ?_⟩
    · rw [d3]; exact h.2.2.1
    · unfold JumpsTo; rw [d4]; exact h.2.2.2.1
    · rw [d4]; exact h.2.2.2.2
  · have h := startSwitchCase_dead f sb hc
    obtain ⟨d1, d2, d3, d4⟩ := startSwitchDefault_of_some f sb _ h.1
    refine ⟨h, d1, d2.trans h.2.1, ?_, ?_, ?_⟩
    · rw [d3]; exact h.2.2.1
    · rw [d4]; exact h.2.2.2.1
    · intro c hc'; rw [d4]; exact h.2.2.2.2 c hc'

/-- Witness for C33, on `switch (x) { case 0: ; case 1: return; default: ; }`:
the switch block is block 0 and the first arm is block 1; the first arm is
live at its end, so the second arm, block 2, has the predecessors 0 and 1 and
block 1 jumps to it; the second arm ends in dead code, so the default arm,
block 3, has the predecessor 0 only. The two states are those of the case
loop of `EmitSwitch`. -/
theorem C33_switch_fall_through_witness :
    fallThroughStart.2 = some 0 ∧
    EmitSwitchCases x64ABI fallThroughCases 0 (some 0) [none, none] fallThroughStart.1 =
      some (fallThroughDefault, [some 1, some 2]) ∧
    fallThroughSecond.curBlock_ = some 1 ∧ (1 : Nat) < fallThroughSecond.graph_.blocks.length ∧
    fallThroughSecond.graph_.blocks.length = 2 ∧
    JumpsTo (fallThroughSecond.startSwitchCase (some 0)).1.graph_ 1 2 ∧
    ((fallThroughSecond.startSwitchCase (some 0)).1.graph_.block 2).predecessors = [0, 1] ∧
    fallThroughDefault.curBlock_ = none ∧
    fallThroughDefault.graph_.blocks.length = 3 ∧
    ((fallThroughDefault.startSwitchDefault (some 0)).1.graph_.block 3).predecessors = [0] :=
  ⟨by decide, by decide, by decide, by decide, by decide,
    ((C33_switch_fall_through fallThroughSecond 0).1 1 (by decide) (by decide)).1.2.2.2.1,
    ((C33_switch_fall_through fallThroughSecond 0).1 1 (by decide) (by decide)).1.2.2.2.2,
    by decide, by decide,
    ((C33_switch_fall_through fallThroughDefault 0).2 (by decide)).2.2.2.2.1⟩

/-! ## The stack-argument byte count of a function (C3) -/

/-! ### The builder methods that do not touch the count -/

theorem bytes_emit (f : FunctionCompiler) (op : MOpcode) (ops : List (Option DefId)) :
    (f.emit op ops).1.maxAsmJSStackArgBytes_ = f.maxAsmJSStackArgBytes_ := by
  unfold emit
  split <;> rfl

theorem bytes_assign (f : FunctionCompiler) (slot : Nat) (d : Option DefId) :
    (f.assign slot d).maxAsmJSStackArgBytes_ = f.maxAsmJSStackArgBytes_ := by
  unfold assign
  split <;> rfl

theorem bytes_callPrivate (f : FunctionCompiler) (callee : Callee) (call : Call) :
    (f.callPrivate callee call).1.maxAsmJSStackArgBytes_ = f.maxAsmJSStackArgBytes_ :=
  bytes_emit f _ _

theorem bytes_funcPtrCall (f : FunctionCompiler) (m g : Nat) (index : Option DefId)
    (call : Call) :
    (f.funcPtrCall m g index call).1.maxAsmJSStackArgBytes_ = f.maxAsmJSStackArgBytes_ := by
  unfold funcPtrCall
  split
  · rfl
  · dsimp only
    rw [bytes_callPrivate, bytes_emit, bytes_emit, bytes_emit]

theorem bytes_ffiCall (f : FunctionCompiler) (g : Nat) (call : Call) :
    (f.ffiCall g call).1.maxAsmJSStackArgBytes_ = f.maxAsmJSStackArgBytes_ := by
  unfold ffiCall
  split
  · rfl
  · dsimp only
    rw [bytes_callPrivate, bytes_emit]

theorem bytes_emitDirectCall (kind : CallKind) (fin : FunctionCompiler × Call) :
    (emitDirectCall kind fin).1.maxAsmJSStackArgBytes_ = fin.1.maxAsmJSStackArgBytes_ := by
  cases kind with
  | Internal i => exact bytes_callPrivate _ _ _
  | FFI g => exact bytes_ffiCall _ _ _
  | MathBuiltin b => exact bytes_callPrivate _ _ _

theorem bytes_returnVoid (f : FunctionCompiler) :
    f.returnVoid.maxAsmJSStackArgBytes_ = f.maxAsmJSStackArgBytes_ := by
  unfold returnVoid
  split <;> rfl

theorem bytes_returnExpr (f : FunctionCompiler) (e : Option DefId) :
    (f.returnExpr e).maxAsmJSStackArgBytes_ = f.maxAsmJSStackArgBytes_ := by
  unfold returnExpr
  split <;> rfl

theorem bytes_branchAndStartThen (f : FunctionCompiler) (cond : Option DefId)
    (tb eb : Option BlockId) :
    (f.branchAndStartThen cond tb eb).1.maxAsmJSStackArgBytes_ = f.maxAsmJSStackArgBytes_ := by
  unfold branchAndStartThen
  split
  · rfl
  · dsimp only
    cases tb <;> cases eb <;> rfl

theorem bytes_switchToElse (f : FunctionCompiler) (e : Option BlockId) :
    (f.switchToElse e).maxAsmJSStackArgBytes_ = f.maxAsmJSStackArgBytes_ := by
  unfold switchToElse
  split <;> rfl

theorem bytes_joinIf (f : FunctionCompiler) (tb : BlockVector) (j : Option BlockId) :
    (f.joinIf tb j).maxAsmJSStackArgBytes_ = f.maxAsmJSStackArgBytes_ := by
  unfold joinIf
  split <;> rfl

theorem bytes_joinIfElse (f : FunctionCompiler) (tb : BlockVector) :
    (f.joinIfElse tb).maxAsmJSStackArgBytes_ = f.maxAsmJSStackArgBytes_ := by
  unfold joinIfElse
  split <;> rfl

theorem bytes_pushPhiInput (f : FunctionCompiler) (d : Option DefId) :
    (f.pushPhiInput d).maxAsmJSStackArgBytes_ = f.maxAsmJSStackArgBytes_ := by
  unfold pushPhiInput
  split <;> rfl

theorem bytes_popPhiOutput (f : FunctionCompiler) :
    f.popPhiOutput.1.maxAsmJSStackArgBytes_ = f.maxAsmJSStackArgBytes_ := by
  unfold popPhiOutput
  split <;> rfl

theorem bytes_startPendingLoop (f : FunctionCompiler) (pos : Nat) :
    (f.startPendingLoop pos).1.maxAsmJSStackArgBytes_ = f.maxAsmJSStackArgBytes_ := by
  unfold startPendingLoop
  dsimp only
  split <;> rfl

theorem bytes_branchAndStartLoopBody (f : FunctionCompiler) (cond : Option DefId) :
    (f.branchAndStartLoopBody cond).1.maxAsmJSStackArgBytes_ = f.maxAsmJSStackArgBytes_ := by
  unfold branchAndStartLoopBody
  split
  · rfl
  · dsimp only
    split <;> rfl

theorem bytes_bindStep (st : FunctionCompiler × Bool) (pred : BlockId) :
    (bindBreaksOrContinuesStep st pred).1.maxAsmJSStackArgBytes_ =
      st.1.maxAsmJSStackArgBytes_ := by
  unfold bindBreaksOrContinuesStep
  split
  · split <;> rfl
  · rfl

theorem bytes_bind (preds : BlockVector) (f : FunctionCompiler) (c : Bool) :
    (bindBreaksOrContinues f preds c).1.maxAsmJSStackArgBytes_ = f.maxAsmJSStackArgBytes_ := by
  unfold bindBreaksOrContinues
  induction preds generalizing f c with
  | nil => rfl
  | cons p ps ih =>
    simp only [List.foldl_cons]
    have h := ih (bindBreaksOrContinuesStep (f, c) p).1 (bindBreaksOrContinuesStep (f, c) p).2
    exact h.trans (bytes_bindStep (f, c) p)

theorem bytes_setMap (f : FunctionCompiler) (sel : MapSel) (m : BlockMap) :
    (f.setMap sel m).maxAsmJSStackArgBytes_ = f.maxAsmJSStackArgBytes_ := by
  cases sel <;> rfl

theorem bytes_bindLabeledStep (sel : MapSel) (st : FunctionCompiler × Bool) (label : Nat) :
    (bindLabeledStep sel st label).1.maxAsmJSStackArgBytes_ = st.1.maxAsmJSStackArgBytes_ := by
  unfold bindLabeledStep
  split
  · rfl
  · dsimp only
    rw [bytes_setMap, bytes_bind]

theorem bytes_bindLabeled (f : FunctionCompiler) (l : Option LabelVector) (sel : MapSel)
    (c : Bool) :
    (bindLabeledBreaksOrContinues f l sel c).1.maxAsmJSStackArgBytes_ =
      f.maxAsmJSStackArgBytes_ := by
  cases l with
  | none => rfl
  | some labels =>
    simp only [bindLabeledBreaksOrContinues]
    have key : ∀ st : FunctionCompiler × Bool,
        (labels.foldl (bindLabeledStep sel) st).1.maxAsmJSStackArgBytes_ =
          st.1.maxAsmJSStackArgBytes_ := by
      induction labels with
      | nil => exact fun _ => rfl
      | cons x xs ih =>
        intro st
        simp only [List.foldl_cons]
        exact (ih _).trans (bytes_bindLabeledStep sel st x)
    exact key (f, c)

theorem bytes_bindUnlabeledBreaks (f : FunctionCompiler) (pos : Nat) :
    (f.bindUnlabeledBreaks pos).maxAsmJSStackArgBytes_ = f.maxAsmJSStackArgBytes_ := by
  unfold bindUnlabeledBreaks
  split
  · rfl
  · exact bytes_bind _ f false

theorem bytes_bindContinues (f : FunctionCompiler) (pos : Nat) (l : Option LabelVector) :
    (f.bindContinues pos l).maxAsmJSStackArgBytes_ = f.maxAsmJSStackArgBytes_ := by
  unfold bindContinues
  dsimp only
  rw [bytes_bindLabeled]
  split
  · rfl
  · exact bytes_bind _ f false

theorem bytes_bindLabeledBreaks (f : FunctionCompiler) (l : Option LabelVector) :
    (f.bindLabeledBreaks l).maxAsmJSStackArgBytes_ = f.maxAsmJSStackArgBytes_ :=
  bytes_bindLabeled f l _ false

theorem bytes_popLoop (f : FunctionCompiler) (pos : Nat) (f1 : FunctionCompiler)
    (h : f.popLoop = some (pos, f1)) :
    f1.maxAsmJSStackArgBytes_ = f.maxAsmJSStackArgBytes_ := by
  unfold popLoop at h
  split at h
  · cases h
  · simp only [Option.some.injEq, Prod.mk.injEq] at h
    rw [← h.2]

theorem bytes_closeLoop (f f' : FunctionCompiler) (le al : Option BlockId)
    (h : f.closeLoop le al = some f') :
    f'.maxAsmJSStackArgBytes_ = f.maxAsmJSStackArgBytes_ := by
  unfold closeLoop at h
  cases hp : f.popLoop with
  | none => rw [hp] at h; cases h
  | some x =>
    obtain ⟨pos, f1⟩ := x
    rw [hp] at h
    have e1 := bytes_popLoop f pos f1 hp
    cases le with
    | none =>
      simp only [Option.some.injEq] at h
      rw [← h, e1]
    | some l =>
      simp only [Option.some.injEq] at h
      rw [← h, bytes_bindUnlabeledBreaks, ← e1]
      cases al <;> cases f1.curBlock_ <;> rfl

theorem bytes_doWhileClose (f f' : FunctionCompiler) (cond : Option DefId) (le : Option BlockId)
    (h : f.branchAndCloseDoWhileLoop cond le = some f') :
    f'.maxAsmJSStackArgBytes_ = f.maxAsmJSStackArgBytes_ := by
  unfold branchAndCloseDoWhileLoop at h
  cases hp : f.popLoop with
  | none => rw [hp] at h; cases h
  | some x =>
    obtain ⟨pos, f1⟩ := x
    rw [hp] at h
    have e1 := bytes_popLoop f pos f1 hp
    cases le with
    | none =>
      simp only [Option.some.injEq] at h
      rw [← h, e1]
    | some l =>
      simp only [Option.some.injEq] at h
      rw [← h, bytes_bindUnlabeledBreaks, ← e1]
      cases f1.curBlock_ with
      | none => rfl
      | some cur =>
        dsimp only
        split
        · split <;> rfl
        · rfl

theorem bytes_addBreakOrContinue (f : FunctionCompiler) (key : Nat) (sel : MapSel) :
    (f.addBreakOrContinue key sel).maxAsmJSStackArgBytes_ = f.maxAsmJSStackArgBytes_ := by
  unfold addBreakOrContinue
  split
  · rfl
  · cases sel <;> rfl

theorem bytes_addBreak (f f' : FunctionCompiler) (l : Option Nat) (h : f.addBreak l = some f') :
    f'.maxAsmJSStackArgBytes_ = f.maxAsmJSStackArgBytes_ := by
  unfold addBreak at h
  cases l with
  | some x =>
    simp only [Option.some.injEq] at h
    rw [← h, bytes_addBreakOrContinue]
  | none =>
    dsimp only at h
    split at h
    · cases h
    · simp only [Option.some.injEq] at h
      rw [← h, bytes_addBreakOrContinue]

theorem bytes_addContinue (f f' : FunctionCompiler) (l : Option Nat)
    (h : f.addContinue l = some f') :
    f'.maxAsmJSStackArgBytes_ = f.maxAsmJSStackArgBytes_ := by
  unfold addContinue at h
  cases l with
  | some x =>
    simp only [Option.some.injEq] at h
    rw [← h, bytes_addBreakOrContinue]
  | none =>
    dsimp only at h
    split at h
    · cases h
    · simp only [Option.some.injEq] at h
      rw [← h, bytes_addBreakOrContinue]

theorem bytes_startSwitch (f : FunctionCompiler) (pos : Nat) (e : Option DefId)
    (low high : Int) :
    (f.startSwitch pos e low high).1.maxAsmJSStackArgBytes_ = f.maxAsmJSStackArgBytes_ := by
  unfold startSwitch
  dsimp only
  split <;> rfl

theorem bytes_startSwitchCase (f : FunctionCompiler) (sb : Option BlockId) :
    (f.startSwitchCase sb).1.maxAsmJSStackArgBytes_ = f.maxAsmJSStackArgBytes_ := by
  cases sb <;> rfl

theorem bytes_startSwitchDefault (f : FunctionCompiler) (sb : Option BlockId) :
    (f.startSwitchDefault sb).1.maxAsmJSStackArgBytes_ = f.maxAsmJSStackArgBytes_ := by
  cases sb <;> rfl

theorem bytes_joinSwitch (f f' : FunctionCompiler) (sb : Option BlockId)
    (cases : List (Option BlockId)) (d : Option BlockId)
    (h : f.joinSwitch sb cases d = some f') :
    f'.maxAsmJSStackArgBytes_ = f.maxAsmJSStackArgBytes_ := by
  unfold joinSwitch at h
  split at h
  · cases h
  · cases sb with
    | none =>
      simp only [Option.some.injEq] at h
      rw [← h]
    | some b =>
      simp only [Option.some.injEq] at h
      rw [← h, bytes_bindUnlabeledBreaks]
      split <;> rfl

/-! ### The count along a sequence of steps -/

theorem covers_of_eq {abi : ABIArgGenerator} {f g : FunctionCompiler}
    (e : g.maxAsmJSStackArgBytes_ = f.maxAsmJSStackArgBytes_) : Covers abi f g [] :=
  ⟨Nat.le_of_eq e.symm, fun _ hx => absurd hx (List.not_mem_nil _)⟩

theorem covers_seq {abi : ABIArgGenerator} {f g h : FunctionCompiler}
    {T1 T2 : List (FunctionCompiler × Call)} (h1 : Covers abi f g T1) (h2 : Covers abi g h T2) :
    Covers abi f h (T1 ++ T2) := by
  refine ⟨Nat.le_trans h1.1 h2.1, fun x hx => ?_⟩
  rcases List.mem_append.1 hx with m | m
  · exact Nat.le_trans (h1.2 x m) h2.1
  · exact h2.2 x m

theorem covers_pre {abi : ABIArgGenerator} {f g h : FunctionCompiler}
    {T : List (FunctionCompiler × Call)}
    (e : g.maxAsmJSStackArgBytes_ = f.maxAsmJSStackArgBytes_) (h2 : Covers abi g h T) :
    Covers abi f h T :=
  ⟨e ▸ h2.1, h2.2⟩

theorem covers_post {abi : ABIArgGenerator} {f g h : FunctionCompiler}
    {T : List (FunctionCompiler × Call)} (h1 : Covers abi f g T)
    (e : h.maxAsmJSStackArgBytes_ = g.maxAsmJSStackArgBytes_) : Covers abi f h T :=
  ⟨e ▸ h1.1, fun x hx => e ▸ h1.2 x hx⟩

/-! ### Live and dead code in a conditional expression -/

theorem isSome_branchAndStartThen (f : FunctionCompiler) (cond : Option DefId) :
    (f.branchAndStartThen cond none none).1.curBlock_.isSome = f.curBlock_.isSome ∧
    (f.branchAndStartThen cond none none).2.2.isSome = f.curBlock_.isSome := by
  cases hc : f.curBlock_ with
  | none =>
    rw [branchAndStartThen_dead f cond hc]
    exact ⟨by rw [hc], rfl⟩
  | some cur =>
    rw [branchAndStartThen_live f cond cur hc]
    exact ⟨rfl, rfl⟩

theorem isSome_switchToElse (f : FunctionCompiler) (e : Option BlockId) :
    (f.switchToElse e).curBlock_.isSome = (e.isSome || f.curBlock_.isSome) := by
  cases e with
  | none => simp [switchToElse]
  | some b => rfl

theorem isSome_joinIfElse (t f : FunctionCompiler) :
    (f.joinIfElse (t.appendThenBlock [])).curBlock_.isSome =
      (f.curBlock_.isSome || t.curBlock_.isSome) := by
  unfold appendThenBlock joinIfElse
  cases hf : f.curBlock_ <;> cases ht : t.curBlock_ <;> simp [hf]

/-- The liveness of the builder after a conditional expression whose condition
and arms keep it. -/
theorem isSome_conditional (f cr t e : FunctionCompiler) (cv tv ev : Option DefId)
    (l1 : cr.curBlock_.isSome = f.curBlock_.isSome)
    (l2 : t.curBlock_.isSome = (cr.branchAndStartThen cv none none).1.curBlock_.isSome)
    (l3 : e.curBlock_.isSome =
      ((t.pushPhiInput tv).switchToElse (cr.branchAndStartThen cv none none).2.2).curBlock_.isSome) :
    ((e.pushPhiInput ev).joinIfElse (t.appendThenBlock [])).popPhiOutput.1.curBlock_.isSome =
      f.curBlock_.isSome := by
  obtain ⟨b1, b2⟩ := isSome_branchAndStartThen cr cv
  rw [(popPhiOutput_quiet _).2, isSome_joinIfElse, (pushPhiInput_quiet e ev).2, l3,
    isSome_switchToElse, (pushPhiInput_quiet t tv).2, b2, l2, b1, l1]
  cases f.curBlock_.isSome <;> rfl

/-! ### The count in the call protocol -/

theorem startCallArgs_count (f : FunctionCompiler) (call : Call) :
    (f.startCallArgs call).1.curBlock_ = f.curBlock_ ∧
    (f.curBlock_ = none → f.startCallArgs call = (f, call)) ∧
    (f.curBlock_ ≠ none →
      (f.startCallArgs call).2.prevMaxStackBytes_ = f.maxAsmJSStackArgBytes_ ∧
      (f.startCallArgs call).2.maxChildStackBytes_ = call.maxChildStackBytes_) := by
  unfold startCallArgs
  cases hc : f.curBlock_ with
  | none => exact ⟨hc, fun _ => rfl, fun h => absurd rfl h⟩
  | some cur => exact ⟨hc, fun h => (by cases h), fun _ => ⟨rfl, rfl⟩⟩

theorem passArg_count (abi : ABIArgGenerator) (f : FunctionCompiler) (d : Option DefId)
    (t : MIRType) (call : Call) :
    (passArg abi f d t call).1.curBlock_ = f.curBlock_ ∧
    (f.curBlock_ = none → passArg abi f d t call = (f, call)) ∧
    (f.curBlock_ ≠ none →
      (passArg abi f d t call).2.prevMaxStackBytes_ = call.prevMaxStackBytes_ ∧
      (passArg abi f d t call).2.maxChildStackBytes_ =
        max call.maxChildStackBytes_ f.maxAsmJSStackArgBytes_) := by
  refine ⟨(passArg_quiet abi f d t call).2, fun h => ?_, fun h => ?_⟩
  · unfold passArg
    rw [h]
  · cases hc : f.curBlock_ with
    | none => exact absurd hc h
    | some cur =>
      refine ⟨?_, (passArg_live abi f d t call cur hc).1⟩
      unfold passArg
      simp only [hc, resetAsmJSMaxStackArgBytes]
      cases abi.next call.abi_ t <;> rfl

theorem finishCallArgs_count (abi : ABIArgGenerator) (f : FunctionCompiler) (call : Call) :
    (finishCallArgs abi f call).1.curBlock_ = f.curBlock_ ∧
    (f.curBlock_ = none → finishCallArgs abi f call = (f, call)) ∧
    (f.curBlock_ ≠ none → fitsUint32 abi (finishCallArgs abi f call).2 →
      call.prevMaxStackBytes_ ≤ (finishCallArgs abi f call).1.maxAsmJSStackArgBytes_ ∧
      call.maxChildStackBytes_ ≤ (finishCallArgs abi f call).1.maxAsmJSStackArgBytes_ ∧
      stackArgRequirement abi (finishCallArgs abi f call).2 ≤
        (finishCallArgs abi f call).1.maxAsmJSStackArgBytes_) := by
  refine ⟨(finishCallArgs_quiet abi f call).2, fun h => ?_, fun h hfit => ?_⟩
  · unfold finishCallArgs
    rw [h]
  · cases hc : f.curBlock_ with
    | none => exact absurd hc h
    | some cur =>
      unfold fitsUint32 at hfit
      unfold stackArgRequirement
      cases hcl : call.childClobbers_ with
      | true =>
        have e : finishCallArgs abi f call =
            ({ f with
                graph_ := call.stackArgs_.foldl (fun g d => incrementOffset g d
                  (AlignBytes call.maxChildStackBytes_ AsmJSStackAlignment)) f.graph_,
                maxAsmJSStackArgBytes_ := max call.prevMaxStackBytes_
                  (u32 (AlignBytes call.maxChildStackBytes_ AsmJSStackAlignment +
                    abi.stackBytesConsumedSoFar call.abi_)) },
              { call with
                spIncrement_ := AlignBytes call.maxChildStackBytes_ AsmJSStackAlignment }) := by
          simp [finishCallArgs, hc, hcl]
        rw [e] at hfit ⊢
        dsimp only at hfit ⊢
        have hfit := hfit hcl
        unfold AsmJSStackAlignment
        obtain ⟨a1, -, a3⟩ := AlignBytes_16_spec call.maxChildStackBytes_ (by omega)
        have hu : u32 (AlignBytes call.maxChildStackBytes_ 16 +
            abi.stackBytesConsumedSoFar call.abi_) =
            AlignBytes call.maxChildStackBytes_ 16 + abi.stackBytesConsumedSoFar call.abi_ := by
          unfold u32
          exact Nat.mod_eq_of_lt (by omega)
        rw [hu]
        omega
      | false =>
        have e : finishCallArgs abi f call =
            ({ f with
                maxAsmJSStackArgBytes_ := max call.prevMaxStackBytes_
                  (max call.maxChildStackBytes_ (abi.stackBytesConsumedSoFar call.abi_)) },
              { call with spIncrement_ := 0 }) := by
          simp [finishCallArgs, hc, hcl]
        rw [e]
        dsimp only
        omega

theorem isSome_emitDirectCall (kind : CallKind) (fin : FunctionCompiler × Call) :
    (emitDirectCall kind fin).1.curBlock_ = fin.1.curBlock_ :=
  (emitDirectCall_quiet kind fin).2



theorem fits_left {P : FunctionCompiler × Call → Prop} {T1 T2 : List (FunctionCompiler × Call)}
    (h : ∀ x ∈ T1 ++ T2, P x) : ∀ x ∈ T1, P x :=
  fun x hx => h x (List.mem_append_left _ hx)

theorem fits_right {P : FunctionCompiler × Call → Prop} {T1 T2 : List (FunctionCompiler × Call)}
    (h : ∀ x ∈ T1 ++ T2, P x) : ∀ x ∈ T2, P x :=
  fun x hx => h x (List.mem_append_right _ hx)

/-- The end of a call emitter, after the argument loop: `finishCallArgs` and
the call instruction. `f0` is the state in which `startCallArgs` ran, `a` the
result of the argument loop with the emitted calls `TL`, and `g` the state
after the call instruction. -/
theorem call_tail (abi : ABIArgGenerator) (f0 : FunctionCompiler) (cd : Call)
    (a : FunctionCompiler × Call) (TL : List (FunctionCompiler × Call)) (g : FunctionCompiler)
    (hl : a.1.curBlock_.isSome = (f0.startCallArgs cd).1.curBlock_.isSome)
    (hdead : (f0.startCallArgs cd).1.curBlock_ = none → Covers abi (f0.startCallArgs cd).1 a.1 TL)
    (hlive : (f0.startCallArgs cd).1.curBlock_ ≠ none →
      a.2.prevMaxStackBytes_ = (f0.startCallArgs cd).2.prevMaxStackBytes_ ∧
      ∀ x ∈ TL, stackArgRequirement abi x.2 ≤ a.2.maxChildStackBytes_)
    (hg : g.maxAsmJSStackArgBytes_ = (finishCallArgs abi a.1 a.2).1.maxAsmJSStackArgBytes_)
    (hfit : ∀ x ∈ callIfLive (finishCallArgs abi a.1 a.2), fitsUint32 abi x.2) :
    Covers abi f0 g (TL ++ callIfLive (finishCallArgs abi a.1 a.2)) := by
  obtain ⟨s1, s2, s3⟩ := startCallArgs_count f0 cd
  obtain ⟨e1, e2, e3⟩ := finishCallArgs_count abi a.1 a.2
  rw [s1] at hl
  cases hc : f0.curBlock_ with
  | none =>
    have hs : f0.startCallArgs cd = (f0, cd) := s2 hc
    rw [hs] at hdead
    rw [hc] at hl
    have ha : a.1.curBlock_ = none := by
      cases h : a.1.curBlock_ with
      | none => rfl
      | some b => rw [h] at hl; cases hl
    have hf : finishCallArgs abi a.1 a.2 = (a.1, a.2) := e2 ha
    have hT : callIfLive (finishCallArgs abi a.1 a.2) = [] := by
      unfold callIfLive
      rw [hf, ha]
      rfl
    rw [hT, List.append_nil]
    rw [hf] at hg
    exact covers_post (hdead hc) hg
  | some cur =>
    have hne : f0.curBlock_ ≠ none := by rw [hc]; exact fun h => (by cases h)
    have hsl : (f0.startCallArgs cd).1.curBlock_ ≠ none := by rw [s1]; exact hne
    obtain ⟨p1, p2⟩ := hlive hsl
    rw [(s3 hne).1] at p1
    rw [hc] at hl
    have ha : a.1.curBlock_ ≠ none := by
      intro h
      rw [h] at hl
      cases hl
    have hfl : (finishCallArgs abi a.1 a.2).1.curBlock_.isSome = true := by
      rw [e1, hl]
      rfl
    have hT : callIfLive (finishCallArgs abi a.1 a.2) = [finishCallArgs abi a.1 a.2] := by
      unfold callIfLive
      rw [if_pos hfl]
    rw [hT] at hfit ⊢
    obtain ⟨q1, q2, q3⟩ := e3 ha (hfit _ (List.mem_singleton_self _))
    rw [p1] at q1
    refine ⟨by rw [hg]; exact q1, fun x hx => ?_⟩
    rw [hg]
    rcases List.mem_append.1 hx with m | m
    · exact Nat.le_trans (p2 x m) q2
    · rw [List.mem_singleton.1 m]
      exact q3

theorem emittedAfter_some {α : Type} (a : α) (k : α → List (FunctionCompiler × Call)) :
    emittedAfter (some a) k = k a := rfl

theorem none_of_isSome {α β : Type} {a : Option α} {b : Option β} (h : a.isSome = b.isSome)
    (hb : b = none) : a = none := by
  subst hb
  cases a with
  | none => rfl
  | some x => cases h

theorem ne_none_of_isSome {α β : Type} {a : Option α} {b : Option β}
    (h : a.isSome = b.isSome) (hb : b ≠ none) : a ≠ none := by
  intro ha
  subst ha
  cases b with
  | none => exact hb rfl
  | some x => cases h

theorem emittedIfElse_else (abi : ABIArgGenerator) (cond : Expr) (thenStmt s : Stmt)
    (f : FunctionCompiler) (hs : ∀ chain, s ≠ .ifStmt chain) :
    emittedIfElse abi (.ifElse cond thenStmt s) f =
      emittedExpr abi cond f ++ emittedAfter (EmitExpr abi cond f) (fun c =>
        emittedStatement abi thenStmt none (c.1.branchAndStartThen c.2 none none).1 ++
          emittedAfter
            (EmitStatement abi thenStmt none (c.1.branchAndStartThen c.2 none none).1)
            (fun t =>
              emittedStatement abi s none
                (t.1.switchToElse (c.1.branchAndStartThen c.2 none none).2.2))) := by
  cases s with
  | ifStmt chain => exact absurd rfl (hs chain)
  | _ => rfl

/-! ### The induction over the decoder functions -/

set_option maxHeartbeats 4000000 in
mutual
theorem count_EmitExpr (abi : ABIArgGenerator) :
    ∀ (e : Expr) (f : FunctionCompiler) (r : FunctionCompiler × Option DefId),
      plainExpr e = true → EmitExpr abi e f = some r →
      (∀ x ∈ emittedExpr abi e f, fitsUint32 abi x.2) →
      Covers abi f r.1 (emittedExpr abi e f) ∧ r.1.curBlock_.isSome = f.curBlock_.isSome
  | .literal type v, f, r, _, h, _ => by
    have h2 : some ((f.advance (1 + literalWidth type)).constant v (MIRTypeFromAsmType type)) =
        some r := h
    simp only [Option.some.injEq] at h2
    subst h2
    exact ⟨covers_of_eq (bytes_emit (f.advance (1 + literalWidth type)) _ _),
      congrArg Option.isSome (emit_quiet (f.advance (1 + literalWidth type)) _ _).2⟩
  | .getLocal slot, f, r, _, h, _ => by
    have h2 : some (f.advance 5, (f.advance 5).getLocalDef slot) = some r := h
    simp only [Option.some.injEq] at h2
    subst h2
    exact ⟨covers_of_eq rfl, rfl⟩
  | .setLocal slot e, f, r, hp, h, hfit => by
    have h2 : (EmitExpr abi e (f.advance 5)).bind (fun r => some (r.1.assign slot r.2, r.2)) =
        some r := h
    simp only [Option.bind_eq_some, Option.some.injEq] at h2
    obtain ⟨r1, h1, rfl⟩ := h2
    obtain ⟨c1, l1⟩ := count_EmitExpr abi e (f.advance 5) r1 hp h1 hfit
    have c1' : Covers abi f r1.1 (emittedExpr abi (.setLocal slot e) f) := c1
    exact ⟨covers_post c1' (bytes_assign _ _ _),
      (congrArg Option.isSome (assign_quiet r1.1 slot r1.2).2).trans l1⟩
  | .idExpr e, f, r, hp, h, hfit => by
    have h2 : EmitExpr abi e (f.advance 1) = some r := h
    exact count_EmitExpr abi e (f.advance 1) r hp h2 hfit
  | .operator o args, f, r, hp, h, hfit => by
    have h2 : (EmitOperands abi args (f.advance (1 + o.immBefore))).bind (fun r =>
        some (((r.1.advance o.immAfter).emitOp o.code r.2).1,
          if o.yieldsLast then r.2.getLast?.join
          else ((r.1.advance o.immAfter).emitOp o.code r.2).2)) = some r := h
    simp only [Option.bind_eq_some, Option.some.injEq] at h2
    obtain ⟨r1, h1, rfl⟩ := h2
    obtain ⟨c1, l1⟩ := count_EmitOperands abi args (f.advance (1 + o.immBefore)) r1 hp h1 hfit
    have c1' : Covers abi f r1.1 (emittedExpr abi (.operator o args) f) := c1
    exact ⟨covers_post c1' (bytes_emit (r1.1.advance o.immAfter) _ _),
      (congrArg Option.isSome (emit_quiet (r1.1.advance o.immAfter) _ _).2).trans l1⟩
  | .minMax first rest, f, r, hp, h, hfit => by
    have h2 : (EmitExpr abi first (f.advance 2)).bind
        (fun r => EmitMinMaxRest abi rest r.2 r.1) = some r := h
    simp only [Option.bind_eq_some] at h2
    obtain ⟨r1, h1, h3⟩ := h2
    have hp1 : (plainExpr first && plainArgs rest) = true := hp
    simp only [Bool.and_eq_true] at hp1
    have eT : emittedExpr abi (.minMax first rest) f =
        emittedExpr abi first (f.advance 2) ++
          emittedAfter (EmitExpr abi first (f.advance 2))
            (fun r => emittedMinMaxRest abi rest r.2 r.1) := rfl
    rw [eT, h1, emittedAfter_some] at hfit ⊢
    obtain ⟨c1, l1⟩ := count_EmitExpr abi first (f.advance 2) r1 hp1.1 h1 (fits_left hfit)
    obtain ⟨c2, l2⟩ := count_EmitMinMaxRest abi rest r1.2 r1.1 r hp1.2 h3 (fits_right hfit)
    have c1' : Covers abi f r1.1 (emittedExpr abi first (f.advance 2)) := c1
    exact ⟨covers_seq c1' c2, l2.trans l1⟩
  | .storeWithCoercion ptr rhs, f, r, hp, h, hfit => by
    have h2 : (EmitExpr abi ptr (f.advance 2)).bind (fun p =>
        (EmitExpr abi rhs p.1).bind (fun r =>
          some (((r.1.emitOp Op.coerce [r.2]).1.emitOp Op.storeHeap
            [p.2, (r.1.emitOp Op.coerce [r.2]).2]).1, r.2))) = some r := h
    simp only [Option.bind_eq_some, Option.some.injEq] at h2
    obtain ⟨p, h1, r1, h3, rfl⟩ := h2
    have hp1 : (plainExpr ptr && plainExpr rhs) = true := hp
    simp only [Bool.and_eq_true] at hp1
    have eT : emittedExpr abi (.storeWithCoercion ptr rhs) f =
        emittedExpr abi ptr (f.advance 2) ++
          emittedAfter (EmitExpr abi ptr (f.advance 2)) (fun p => emittedExpr abi rhs p.1) := rfl
    rw [eT, h1, emittedAfter_some] at hfit ⊢
    obtain ⟨c1, l1⟩ := count_EmitExpr abi ptr (f.advance 2) p hp1.1 h1 (fits_left hfit)
    obtain ⟨c2, l2⟩ := count_EmitExpr abi rhs p.1 r1 hp1.2 h3 (fits_right hfit)
    have c1' : Covers abi f p.1 (emittedExpr abi ptr (f.advance 2)) := c1
    refine ⟨covers_post (covers_seq c1' c2) ?_, ?_⟩
    · exact (bytes_emit _ _ _).trans (bytes_emit _ _ _)
    · exact ((congrArg Option.isSome (emit_quiet _ _ _).2).trans
        (congrArg Option.isSome (emit_quiet r1.1 _ _).2)).trans (l2.trans l1)
  | .call ce, f, r, hp, h, hfit => by
    have h2 : EmitCall abi ce (f.advance 1) = some r := h
    exact count_EmitCall abi ce (f.advance 1) r hp h2 hfit
  | .conditional cond ifTrue ifFalse, f, r, hp, h, hfit => by
    have h2 : (EmitExpr abi cond (f.advance 1)).bind (fun cr =>
        (EmitExpr abi ifTrue (cr.1.branchAndStartThen cr.2 none none).1).bind (fun t =>
          (EmitExpr abi ifFalse ((t.1.pushPhiInput t.2).switchToElse
              (cr.1.branchAndStartThen cr.2 none none).2.2)).bind (fun e =>
            some (((e.1.pushPhiInput e.2).joinIfElse (t.1.appendThenBlock [])).popPhiOutput)))) =
        some r := h
    simp only [Option.bind_eq_some, Option.some.injEq] at h2
    obtain ⟨cr, h1, t, ht, e, he, rfl⟩ := h2
    have hp1 : (plainExpr cond && plainExpr ifTrue && plainExpr ifFalse) = true := hp
    simp only [Bool.and_eq_true] at hp1
    obtain ⟨⟨p1, p2⟩, p3⟩ := hp1
    have eT : emittedExpr abi (.conditional cond ifTrue ifFalse) f =
        emittedExpr abi cond (f.advance 1) ++
          emittedAfter (EmitExpr abi cond (f.advance 1)) (fun c =>
            emittedExpr abi ifTrue (c.1.branchAndStartThen c.2 none none).1 ++
              emittedAfter (EmitExpr abi ifTrue (c.1.branchAndStartThen c.2 none none).1)
                (fun t =>
                  emittedExpr abi ifFalse
                    ((t.1.pushPhiInput t.2).switchToElse
                      (c.1.branchAndStartThen c.2 none none).2.2))) := rfl
    rw [eT, h1, emittedAfter_some, ht, emittedAfter_some] at hfit ⊢
    obtain ⟨c1, l1⟩ := count_EmitExpr abi cond (f.advance 1) cr p1 h1 (fits_left hfit)
    obtain ⟨c2, l2⟩ := count_EmitExpr abi ifTrue _ t p2 ht (fits_left (fits_right hfit))
    obtain ⟨c3, l3⟩ := count_EmitExpr abi ifFalse _ e p3 he (fits_right (fits_right hfit))
    have c1' : Covers abi f cr.1 (emittedExpr abi cond (f.advance 1)) := c1
    have c2' := covers_pre (bytes_branchAndStartThen cr.1 cr.2 none none) c2
    have c3' := covers_pre ((bytes_switchToElse _ _).trans (bytes_pushPhiInput t.1 t.2)) c3
    refine ⟨covers_post (covers_seq c1' (covers_seq c2' c3')) ?_, ?_⟩
    · exact (bytes_popPhiOutput _).trans ((bytes_joinIfElse _ _).trans (bytes_pushPhiInput _ _))
    · exact isSome_conditional f cr.1 t.1 e.1 cr.2 t.2 e.2 l1 l2 l3
  | .comma stmts last, f, r, hp, h, hfit => by
    have h2 : (EmitStatements abi stmts (f.advance 5)).bind (fun f1 => EmitExpr abi last f1) =
        some r := h
    simp only [Option.bind_eq_some] at h2
    obtain ⟨f1, h1, h3⟩ := h2
    have hp1 : (operandStmts stmts && plainExpr last) = true := hp
    simp only [Bool.and_eq_true] at hp1
    have eT : emittedExpr abi (.comma stmts last) f =
        emittedStatements abi stmts (f.advance 5) ++
          emittedAfter (EmitStatements abi stmts (f.advance 5))
            (fun f1 => emittedExpr abi last f1) := rfl
    rw [eT, h1, emittedAfter_some] at hfit ⊢
    obtain ⟨c1, l1⟩ := count_operandStmts abi stmts (f.advance 5) f1 hp1.1 h1 (fits_left hfit)
    obtain ⟨c2, l2⟩ := count_EmitExpr abi last f1 r hp1.2 h3 (fits_right hfit)
    have c1' : Covers abi f f1 (emittedStatements abi stmts (f.advance 5)) := c1
    exact ⟨covers_seq c1' c2, l2.trans l1⟩
theorem count_EmitOperands (abi : ABIArgGenerator) :
    ∀ (args : Args) (f : FunctionCompiler) (r : FunctionCompiler × List (Option DefId)),
      plainArgs args = true → EmitOperands abi args f = some r →
      (∀ x ∈ emittedOperands abi args f, fitsUint32 abi x.2) →
      Covers abi f r.1 (emittedOperands abi args f) ∧ r.1.curBlock_.isSome = f.curBlock_.isSome
  | .nil, f, r, _, h, _ => by
    have h2 : some (f, ([] : List (Option DefId))) = some r := h
    simp only [Option.some.injEq] at h2
    subst h2
    exact ⟨covers_of_eq rfl, rfl⟩
  | .cons type e rest, f, r, hp, h, hfit => by
    have h2 : (EmitExpr abi e f).bind (fun r =>
        (EmitOperands abi rest r.1).bind (fun rs => some (rs.1, r.2 :: rs.2))) = some r := h
    simp only [Option.bind_eq_some, Option.some.injEq] at h2
    obtain ⟨r1, h1, rs, h3, rfl⟩ := h2
    have hp1 : (plainExpr e && plainArgs rest) = true := hp
    simp only [Bool.and_eq_true] at hp1
    have eT : emittedOperands abi (.cons type e rest) f =
        emittedExpr abi e f ++
          emittedAfter (EmitExpr abi e f) (fun r => emittedOperands abi rest r.1) := rfl
    rw [eT, h1, emittedAfter_some] at hfit ⊢
    obtain ⟨c1, l1⟩ := count_EmitExpr abi e f r1 hp1.1 h1 (fits_left hfit)
    obtain ⟨c2, l2⟩ := count_EmitOperands abi rest r1.1 rs hp1.2 h3 (fits_right hfit)
    exact ⟨covers_seq c1 c2, l2.trans l1⟩
theorem count_EmitMinMaxRest (abi : ABIArgGenerator) :
    ∀ (args : Args) (d : Option DefId) (f : FunctionCompiler)
      (r : FunctionCompiler × Option DefId),
      plainArgs args = true → EmitMinMaxRest abi args d f = some r →
      (∀ x ∈ emittedMinMaxRest abi args d f, fitsUint32 abi x.2) →
      Covers abi f r.1 (emittedMinMaxRest abi args d f) ∧
        r.1.curBlock_.isSome = f.curBlock_.isSome
  | .nil, d, f, r, _, h, _ => by
    have h2 : some (f, d) = some r := h
    simp only [Option.some.injEq] at h2
    subst h2
    exact ⟨covers_of_eq rfl, rfl⟩
  | .cons type e rest, d, f, r, hp, h, hfit => by
    have h2 : (EmitExpr abi e f).bind (fun r =>
        EmitMinMaxRest abi rest (r.1.emitOp Op.minMax [d, r.2]).2
          (r.1.emitOp Op.minMax [d, r.2]).1) = some r := h
    simp only [Option.bind_eq_some] at h2
    obtain ⟨r1, h1, h3⟩ := h2
    have hp1 : (plainExpr e && plainArgs rest) = true := hp
    simp only [Bool.and_eq_true] at hp1
    have eT : emittedMinMaxRest abi (.cons type e rest) d f =
        emittedExpr abi e f ++ emittedAfter (EmitExpr abi e f) (fun r =>
          emittedMinMaxRest abi rest (r.1.emitOp Op.minMax [d, r.2]).2
            (r.1.emitOp Op.minMax [d, r.2]).1) := rfl
    rw [eT, h1, emittedAfter_some] at hfit ⊢
    obtain ⟨c1, l1⟩ := count_EmitExpr abi e f r1 hp1.1 h1 (fits_left hfit)
    obtain ⟨c2, l2⟩ := count_EmitMinMaxRest abi rest _ _ r hp1.2 h3 (fits_right hfit)
    have c2' := covers_pre (bytes_emit r1.1 (.op Op.minMax) [d, r1.2]) c2
    exact ⟨covers_seq c1 c2',
      (l2.trans (congrArg Option.isSome (emit_quiet r1.1 _ _).2)).trans l1⟩
theorem count_EmitCallArgsLoop (abi : ABIArgGenerator) :
    ∀ (args : Args) (call : Call) (f : FunctionCompiler) (a : FunctionCompiler × Call),
      plainArgs args = true → EmitCallArgsLoop abi args call f = some a →
      (∀ x ∈ emittedCallArgsLoop abi args call f, fitsUint32 abi x.2) →
      a.1.curBlock_.isSome = f.curBlock_.isSome ∧
      (f.curBlock_ = none → Covers abi f a.1 (emittedCallArgsLoop abi args call f)) ∧
      (f.curBlock_ ≠ none →
        a.2.prevMaxStackBytes_ = call.prevMaxStackBytes_ ∧
        call.maxChildStackBytes_ ≤ a.2.maxChildStackBytes_ ∧
        ∀ x ∈ emittedCallArgsLoop abi args call f,
          stackArgRequirement abi x.2 ≤ a.2.maxChildStackBytes_)
  | .nil, call, f, a, _, h, _ => by
    have h2 : some (f, call) = some a := h
    simp only [Option.some.injEq] at h2
    subst h2
    exact ⟨rfl, fun _ => covers_of_eq rfl,
      fun _ => ⟨rfl, Nat.le_refl _, fun _ hx => absurd hx (List.not_mem_nil _)⟩⟩
  | .cons type e rest, call, f, a, hp, h, hfit => by
    have h2 : (EmitExpr abi e f).bind (fun r =>
        EmitCallArgsLoop abi rest
          (FunctionCompiler.passArg abi r.1 r.2 (MIRTypeFromAsmType type) call).2
          (FunctionCompiler.passArg abi r.1 r.2 (MIRTypeFromAsmType type) call).1) = some a := h
    simp only [Option.bind_eq_some] at h2
    obtain ⟨r1, h1, h3⟩ := h2
    have hp1 : (plainExpr e && plainArgs rest) = true := hp
    simp only [Bool.and_eq_true] at hp1
    have eT : emittedCallArgsLoop abi (.cons type e rest) call f =
        emittedExpr abi e f ++ emittedAfter (EmitExpr abi e f) (fun r =>
          emittedCallArgsLoop abi rest
            (FunctionCompiler.passArg abi r.1 r.2 (MIRTypeFromAsmType type) call).2
            (FunctionCompiler.passArg abi r.1 r.2 (MIRTypeFromAsmType type) call).1) := rfl
    rw [eT, h1, emittedAfter_some] at hfit ⊢
    obtain ⟨c1, l1⟩ := count_EmitExpr abi e f r1 hp1.1 h1 (fits_left hfit)
    obtain ⟨k1, k2, k3⟩ := count_EmitCallArgsLoop abi rest _ _ a hp1.2 h3 (fits_right hfit)
    obtain ⟨q1, q2, q3⟩ := passArg_count abi r1.1 r1.2 (MIRTypeFromAsmType type) call
    refine ⟨(k1.trans (congrArg Option.isSome q1)).trans l1, fun hd => ?_, fun hl => ?_⟩
    · have hd1 : r1.1.curBlock_ = none := none_of_isSome l1 hd
      have e1 : (FunctionCompiler.passArg abi r1.1 r1.2 (MIRTypeFromAsmType type)
          call).1.maxAsmJSStackArgBytes_ = r1.1.maxAsmJSStackArgBytes_ := by rw [q2 hd1]
      exact covers_seq c1 (covers_pre e1 (k2 (q1.trans hd1)))
    · have hl1 : r1.1.curBlock_ ≠ none := ne_none_of_isSome l1 hl
      obtain ⟨m1, m2, m3⟩ := k3 (by rw [q1]; exact hl1)
      obtain ⟨n1, n2⟩ := q3 hl1
      rw [n1] at m1
      rw [n2] at m2
      refine ⟨m1, Nat.le_trans (Nat.le_max_left _ _) m2, fun x hx => ?_⟩
      rcases List.mem_append.1 hx with m | m
      · exact Nat.le_trans (c1.2 x m) (Nat.le_trans (Nat.le_max_right _ _) m2)
      · exact m3 x m
theorem count_EmitCall (abi : ABIArgGenerator) :
    ∀ (ce : CallExpr) (f : FunctionCompiler) (r : FunctionCompiler × Option DefId),
      plainCall ce = true → EmitCall abi ce f = some r →
      (∀ x ∈ emittedCall abi ce f, fitsUint32 abi x.2) →
      Covers abi f r.1 (emittedCall abi ce f) ∧ r.1.curBlock_.isSome = f.curBlock_.isSome
  | .direct kind lineno column args, f, r, hp, h, hfit => by
    have h2 : (EmitCallArgsLoop abi args
        ((f.advance kind.immBytes).startCallArgs (Call.new lineno column)).2
        ((f.advance kind.immBytes).startCallArgs (Call.new lineno column)).1).bind (fun a =>
          some (emitDirectCall kind (FunctionCompiler.finishCallArgs abi a.1 a.2))) = some r := h
    simp only [Option.bind_eq_some, Option.some.injEq] at h2
    obtain ⟨a, h1, rfl⟩ := h2
    have hp1 : plainArgs args = true := hp
    have eT : emittedCall abi (.direct kind lineno column args) f =
        emittedCallArgsLoop abi args
            ((f.advance kind.immBytes).startCallArgs (Call.new lineno column)).2
            ((f.advance kind.immBytes).startCallArgs (Call.new lineno column)).1 ++
          emittedAfter (EmitCallArgsLoop abi args
              ((f.advance kind.immBytes).startCallArgs (Call.new lineno column)).2
              ((f.advance kind.immBytes).startCallArgs (Call.new lineno column)).1) (fun a =>
            callIfLive (FunctionCompiler.finishCallArgs abi a.1 a.2)) := rfl
    rw [eT, h1, emittedAfter_some] at hfit ⊢
    obtain ⟨k1, k2, k3⟩ := count_EmitCallArgsLoop abi args _ _ a hp1 h1 (fits_left hfit)
    have ct := call_tail abi (f.advance kind.immBytes) (Call.new lineno column) a _
      (emitDirectCall kind (FunctionCompiler.finishCallArgs abi a.1 a.2)).1 k1 k2
      (fun hl => ⟨(k3 hl).1, (k3 hl).2.2⟩) (bytes_emitDirectCall _ _) (fits_right hfit)
    refine ⟨ct, ?_⟩
    rw [isSome_emitDirectCall, (finishCallArgs_count abi a.1 a.2).1, k1,
      (startCallArgs_count _ _).1]
    rfl
  | .indirect mask globalDataOffset lineno column index args, f, r, hp, h, hfit => by
    have h2 : (EmitExpr abi index (f.advance 24)).bind (fun ix =>
        (EmitCallArgsLoop abi args (ix.1.startCallArgs (Call.new lineno column)).2
          (ix.1.startCallArgs (Call.new lineno column)).1).bind (fun a =>
            some ((FunctionCompiler.finishCallArgs abi a.1 a.2).1.funcPtrCall mask globalDataOffset
              ix.2 (FunctionCompiler.finishCallArgs abi a.1 a.2).2))) = some r := h
    simp only [Option.bind_eq_some, Option.some.injEq] at h2
    obtain ⟨ix, h1, a, h3, rfl⟩ := h2
    have hp1 : (plainExpr index && plainArgs args) = true := hp
    simp only [Bool.and_eq_true] at hp1
    have eT : emittedCall abi (.indirect mask globalDataOffset lineno column index args) f =
        emittedExpr abi index (f.advance 24) ++
          emittedAfter (EmitExpr abi index (f.advance 24)) (fun ix =>
            emittedCallArgsLoop abi args (ix.1.startCallArgs (Call.new lineno column)).2
                (ix.1.startCallArgs (Call.new lineno column)).1 ++
              emittedAfter (EmitCallArgsLoop abi args
                  (ix.1.startCallArgs (Call.new lineno column)).2
                  (ix.1.startCallArgs (Call.new lineno column)).1) (fun a =>
                callIfLive (FunctionCompiler.finishCallArgs abi a.1 a.2))) := rfl
    rw [eT, h1, emittedAfter_some, h3, emittedAfter_some] at hfit ⊢
    obtain ⟨c1, l1⟩ := count_EmitExpr abi index (f.advance 24) ix hp1.1 h1 (fits_left hfit)
    obtain ⟨k1, k2, k3⟩ := count_EmitCallArgsLoop abi args _ _ a hp1.2 h3
      (fits_left (fits_right hfit))
    have ct := call_tail abi ix.1 (Call.new lineno column) a _
      ((FunctionCompiler.finishCallArgs abi a.1 a.2).1.funcPtrCall mask globalDataOffset ix.2
        (FunctionCompiler.finishCallArgs abi a.1 a.2).2).1 k1 k2
      (fun hl => ⟨(k3 hl).1, (k3 hl).2.2⟩) (bytes_funcPtrCall _ _ _ _ _)
      (fits_right (fits_right hfit))
    have c1' : Covers abi f ix.1 (emittedExpr abi index (f.advance 24)) := c1
    refine ⟨covers_seq c1' ct, ?_⟩
    rw [(funcPtrCall_quiet _ _ _ _ _).2, (finishCallArgs_count abi a.1 a.2).1, k1,
      (startCallArgs_count _ _).1, l1]
    rfl
theorem count_operandStmts (abi : ABIArgGenerator) :
    ∀ (stmts : Stmts) (f f' : FunctionCompiler),
      operandStmts stmts = true → EmitStatements abi stmts f = some f' →
      (∀ x ∈ emittedStatements abi stmts f, fitsUint32 abi x.2) →
      Covers abi f f' (emittedStatements abi stmts f) ∧
        f'.curBlock_.isSome = f.curBlock_.isSome
  | .nil, f, f', _, h, _ => by
    have h2 : some f = some f' := h
    simp only [Option.some.injEq] at h2
    subst h2
    exact ⟨covers_of_eq rfl, rfl⟩
  | .cons (.exprStmt e) rest, f, f', hp, h, hfit => by
    have h2 : ((EmitExpr abi e (f.advance 1)).bind
        (fun r => some (r.1, (none : Option LabelVector)))).bind
          (fun r => EmitStatements abi rest r.1) = some f' := h
    simp only [Option.bind_eq_some, Option.some.injEq] at h2
    obtain ⟨r0, ⟨r1, h1, rfl⟩, h3⟩ := h2
    have hp1 : (plainExpr e && operandStmts rest) = true := hp
    simp only [Bool.and_eq_true] at hp1
    have hs : EmitStatement abi (.exprStmt e) none f = some (r1.1, none) := by
      show (EmitExpr abi e (f.advance 1)).bind (fun r => some (r.1, none)) = _
      rw [h1]
      rfl
    have eT : emittedStatements abi (.cons (.exprStmt e) rest) f =
        emittedExpr abi e (f.advance 1) ++
          emittedAfter (EmitStatement abi (.exprStmt e) none f)
            (fun r => emittedStatements abi rest r.1) := rfl
    rw [eT, hs, emittedAfter_some] at hfit ⊢
    obtain ⟨c1, l1⟩ := count_EmitExpr abi e (f.advance 1) r1 hp1.1 h1 (fits_left hfit)
    obtain ⟨c2, l2⟩ := count_operandStmts abi rest r1.1 f' hp1.2 h3 (fits_right hfit)
    have c1' : Covers abi f r1.1 (emittedExpr abi e (f.advance 1)) := c1
    exact ⟨covers_seq c1' c2, l2.trans l1⟩
  | .cons (.callStmt ce) rest, f, f', hp, h, hfit => by
    have h2 : ((EmitCall abi ce (f.advance 1)).bind
        (fun r => some (r.1, (none : Option LabelVector)))).bind
          (fun r => EmitStatements abi rest r.1) = some f' := h
    simp only [Option.bind_eq_some, Option.some.injEq] at h2
    obtain ⟨r0, ⟨r1, h1, rfl⟩, h3⟩ := h2
    have hp1 : (plainCall ce && operandStmts rest) = true := hp
    simp only [Bool.and_eq_true] at hp1
    have hs : EmitStatement abi (.callStmt ce) none f = some (r1.1, none) := by
      show (EmitCall abi ce (f.advance 1)).bind (fun r => some (r.1, none)) = _
      rw [h1]
      rfl
    have eT : emittedStatements abi (.cons (.callStmt ce) rest) f =
        emittedCall abi ce (f.advance 1) ++
          emittedAfter (EmitStatement abi (.callStmt ce) none f)
            (fun r => emittedStatements abi rest r.1) := rfl
    rw [eT, hs, emittedAfter_some] at hfit ⊢
    obtain ⟨c1, l1⟩ := count_EmitCall abi ce (f.advance 1) r1 hp1.1 h1 (fits_left hfit)
    obtain ⟨c2, l2⟩ := count_operandStmts abi rest r1.1 f' hp1.2 h3 (fits_right hfit)
    have c1' : Covers abi f r1.1 (emittedCall abi ce (f.advance 1)) := c1
    exact ⟨covers_seq c1' c2, l2.trans l1⟩
  | .cons (.block _) _, _, _, hp, _, _ => by cases hp
  | .cons (.ifStmt _) _, _, _, hp, _, _ => by cases hp
  | .cons (.switchStmt _ _ _ _ _) _, _, _, hp, _, _ => by cases hp
  | .cons (.whileStmt _ _) _, _, _, hp, _, _ => by cases hp
  | .cons (.doWhile _ _) _, _, _, hp, _, _ => by cases hp
  | .cons (.forStmt _ _ _ _) _, _, _, hp, _, _ => by cases hp
  | .cons (.label _ _) _, _, _, hp, _, _ => by cases hp
  | .cons .continueStmt _, _, _, hp, _, _ => by cases hp
  | .cons (.continueLabel _) _, _, _, hp, _, _ => by cases hp
  | .cons .breakStmt _, _, _, hp, _, _ => by cases hp
  | .cons (.breakLabel _) _, _, _, hp, _, _ => by cases hp
  | .cons .retVoid _, _, _, hp, _, _ => by cases hp
  | .cons (.ret _) _, _, _, hp, _, _ => by cases hp
  | .cons .atomicsFence _, _, _, hp, _, _ => by cases hp
  | .cons .noop _, _, _, hp, _, _ => by cases hp
  | .cons (.idStmt _) _, _, _, hp, _, _ => by cases hp
  | .cons .interruptCheckHead _, _, _, hp, _, _ => by cases hp
  | .cons (.interruptCheckLoop _) _, _, _, hp, _, _ => by cases hp
theorem count_EmitStatements (abi : ABIArgGenerator) :
    ∀ (stmts : Stmts) (f f' : FunctionCompiler),
      plainStmts stmts = true → EmitStatements abi stmts f = some f' →
      (∀ x ∈ emittedStatements abi stmts f, fitsUint32 abi x.2) →
      Covers abi f f' (emittedStatements abi stmts f)
  | .nil, f, f', _, h, _ => by
    have h2 : some f = some f' := h
    simp only [Option.some.injEq] at h2
    subst h2
    exact covers_of_eq rfl
  | .cons s rest, f, f', hp, h, hfit => by
    have h2 : (EmitStatement abi s none f).bind (fun r => EmitStatements abi rest r.1) =
        some f' := h
    simp only [Option.bind_eq_some] at h2
    obtain ⟨r1, h1, h3⟩ := h2
    have hp1 : (plainStmt s && plainStmts rest) = true := hp
    simp only [Bool.and_eq_true] at hp1
    have eT : emittedStatements abi (.cons s rest) f =
        emittedStatement abi s none f ++
          emittedAfter (EmitStatement abi s none f)
            (fun r => emittedStatements abi rest r.1) := rfl
    rw [eT, h1, emittedAfter_some] at hfit ⊢
    have c1 := count_EmitStatement abi s none f r1 hp1.1 h1 (fits_left hfit)
    have c2 := count_EmitStatements abi rest r1.1 f' hp1.2 h3 (fits_right hfit)
    exact covers_seq c1 c2
theorem count_EmitIfElse (abi : ABIArgGenerator) :
    ∀ (chain : IfChain) (tb : BlockVector) (f f' : FunctionCompiler),
      plainIf chain = true → EmitIfElse abi chain tb f = some f' →
      (∀ x ∈ emittedIfElse abi chain f, fitsUint32 abi x.2) →
      Covers abi f f' (emittedIfElse abi chain f)
  | .ifThen cond thenStmt, tb, f, f', hp, h, hfit => by
    have h2 : (EmitExpr abi cond f).bind (fun cr =>
        (EmitStatement abi thenStmt none (cr.1.branchAndStartThen cr.2 none none).1).bind (fun t =>
          some (t.1.joinIf (t.1.appendThenBlock tb)
            (cr.1.branchAndStartThen cr.2 none none).2.2))) = some f' := h
    simp only [Option.bind_eq_some, Option.some.injEq] at h2
    obtain ⟨cr, h1, t, ht, rfl⟩ := h2
    have hp1 : (plainExpr cond && plainStmt thenStmt) = true := hp
    simp only [Bool.and_eq_true] at hp1
    have eT : emittedIfElse abi (.ifThen cond thenStmt) f =
        emittedExpr abi cond f ++ emittedAfter (EmitExpr abi cond f) (fun c =>
          emittedStatement abi thenStmt none (c.1.branchAndStartThen c.2 none none).1) := rfl
    rw [eT, h1, emittedAfter_some] at hfit ⊢
    obtain ⟨c1, -⟩ := count_EmitExpr abi cond f cr hp1.1 h1 (fits_left hfit)
    have c2 := count_EmitStatement abi thenStmt none _ t hp1.2 ht (fits_right hfit)
    have c2' := covers_pre (bytes_branchAndStartThen cr.1 cr.2 none none) c2
    exact covers_post (covers_seq c1 c2') (bytes_joinIf _ _ _)
  | .ifElse cond thenStmt elseStmt, tb, f, f', hp, h, hfit => by
    have hp1 : (plainExpr cond && plainStmt thenStmt && plainStmt elseStmt) = true := hp
    simp only [Bool.and_eq_true] at hp1
    obtain ⟨⟨p1, p2⟩, p3⟩ := hp1
    by_cases hs : ∀ chain, elseStmt ≠ .ifStmt chain
    · rw [EmitIfElse_else _ _ _ _ _ _ hs] at h
      simp only [Option.bind_eq_some, Option.some.injEq] at h
      obtain ⟨cr, h1, t, ht, e, he, rfl⟩ := h
      rw [emittedIfElse_else _ _ _ _ _ hs, h1, emittedAfter_some, ht, emittedAfter_some]
        at hfit ⊢
      obtain ⟨c1, -⟩ := count_EmitExpr abi cond f cr p1 h1 (fits_left hfit)
      have c2 := count_EmitStatement abi thenStmt none _ t p2 ht (fits_left (fits_right hfit))
      have c3 := count_EmitStatement abi elseStmt none _ e p3 he
        (fits_right (fits_right hfit))
      have c2' := covers_pre (bytes_branchAndStartThen cr.1 cr.2 none none) c2
      have c3' := covers_pre (bytes_switchToElse t.1 _) c3
      exact covers_post (covers_seq c1 (covers_seq c2' c3')) (bytes_joinIfElse _ _)
    · push_neg at hs
      obtain ⟨chain, rfl⟩ := hs
      have h2 : (EmitExpr abi cond f).bind (fun cr =>
          (EmitStatement abi thenStmt none (cr.1.branchAndStartThen cr.2 none none).1).bind (fun t =>
            EmitIfElse abi chain (t.1.appendThenBlock tb)
              ((t.1.switchToElse (cr.1.branchAndStartThen cr.2 none none).2.2).advance 1))) =
          some f' := h
      simp only [Option.bind_eq_some] at h2
      obtain ⟨cr, h1, t, ht, h3⟩ := h2
      have eT : emittedIfElse abi (.ifElse cond thenStmt (.ifStmt chain)) f =
          emittedExpr abi cond f ++ emittedAfter (EmitExpr abi cond f) (fun c =>
            emittedStatement abi thenStmt none (c.1.branchAndStartThen c.2 none none).1 ++
              emittedAfter
                (EmitStatement abi thenStmt none (c.1.branchAndStartThen c.2 none none).1)
                (fun t =>
                  emittedIfElse abi chain
                    ((t.1.switchToElse (c.1.branchAndStartThen c.2 none none).2.2).advance 1))) :=
        rfl
      rw [eT, h1, emittedAfter_some, ht, emittedAfter_some] at hfit ⊢
      obtain ⟨c1, -⟩ := count_EmitExpr abi cond f cr p1 h1 (fits_left hfit)
      have c2 := count_EmitStatement abi thenStmt none _ t p2 ht (fits_left (fits_right hfit))
      have p3' : plainIf chain = true := p3
      have c3 := count_EmitIfElse abi chain _ _ f' p3' h3 (fits_right (fits_right hfit))
      have c2' := covers_pre (bytes_branchAndStartThen cr.1 cr.2 none none) c2
      have c3' := covers_pre (bytes_switchToElse t.1 (cr.1.branchAndStartThen cr.2 none none).2.2)
        c3
      exact covers_seq c1 (covers_seq c2' c3')
theorem count_EmitOptStmt (abi : ABIArgGenerator) :
    ∀ (o : OptStmt) (f f' : FunctionCompiler),
      plainOpt o = true → EmitOptStmt abi o f = some f' →
      (∀ x ∈ emittedOptStmt abi o f, fitsUint32 abi x.2) →
      Covers abi f f' (emittedOptStmt abi o f)
  | .absent, f, f', _, h, _ => by
    have h2 : some f = some f' := h
    simp only [Option.some.injEq] at h2
    subst h2
    exact covers_of_eq rfl
  | .present s, f, f', hp, h, hfit => by
    have h2 : (EmitStatement abi s none f).bind (fun r => some r.1) = some f' := h
    simp only [Option.bind_eq_some, Option.some.injEq] at h2
    obtain ⟨r1, h1, rfl⟩ := h2
    exact count_EmitStatement abi s none f r1 hp h1 hfit
theorem count_EmitSwitchCases (abi : ABIArgGenerator) :
    ∀ (cases : Cases) (low : Int) (sb : Option BlockId) (table : List (Option BlockId))
      (f : FunctionCompiler) (r : FunctionCompiler × List (Option BlockId)),
      plainCases cases = true → EmitSwitchCases abi cases low sb table f = some r →
      (∀ x ∈ emittedSwitchCases abi cases low sb table f, fitsUint32 abi x.2) →
      Covers abi f r.1 (emittedSwitchCases abi cases low sb table f)
  | .nil, low, sb, table, f, r, _, h, _ => by
    have h2 : some (f, table) = some r := h
    simp only [Option.some.injEq] at h2
    subst h2
    exact covers_of_eq rfl
  | .cons caseValue body rest, low, sb, table, f, r, hp, h, hfit => by
    have h2 : (caseIndex low caseValue table.length).bind (fun idx =>
        (EmitStatement abi body none ((f.advance 4).startSwitchCase sb).1).bind (fun r =>
          EmitSwitchCases abi rest low sb
            (table.set idx ((f.advance 4).startSwitchCase sb).2) r.1)) = some r := h
    simp only [Option.bind_eq_some] at h2
    obtain ⟨idx, hidx, r1, h1, h3⟩ := h2
    have hp1 : (plainStmt body && plainCases rest) = true := hp
    simp only [Bool.and_eq_true] at hp1
    have eT : emittedSwitchCases abi (.cons caseValue body rest) low sb table f =
        emittedAfter (caseIndex low caseValue table.length) (fun idx =>
          emittedStatement abi body none ((f.advance 4).startSwitchCase sb).1 ++
            emittedAfter (EmitStatement abi body none ((f.advance 4).startSwitchCase sb).1)
              (fun r =>
                emittedSwitchCases abi rest low sb
                  (table.set idx ((f.advance 4).startSwitchCase sb).2) r.1)) := rfl
    rw [eT, hidx, emittedAfter_some, h1, emittedAfter_some] at hfit ⊢
    have c1 := count_EmitStatement abi body none _ r1 hp1.1 h1 (fits_left hfit)
    have c2 := count_EmitSwitchCases abi rest low sb _ r1.1 r hp1.2 h3 (fits_right hfit)
    have c1' := covers_pre (bytes_startSwitchCase (f.advance 4) sb) c1
    exact covers_seq c1' c2
theorem count_EmitStatement (abi : ABIArgGenerator) :
    ∀ (s : Stmt) (l : Option LabelVector) (f : FunctionCompiler)
      (r : FunctionCompiler × Option LabelVector),
      plainStmt s = true → EmitStatement abi s l f = some r →
      (∀ x ∈ emittedStatement abi s l f, fitsUint32 abi x.2) →
      Covers abi f r.1 (emittedStatement abi s l f)
  | .block stmts, l, f, r, hp, h, hfit => by
    have h2 : (EmitStatements abi stmts (f.advance 5)).bind (fun f1 => some (f1, l)) = some r := h
    simp only [Option.bind_eq_some, Option.some.injEq] at h2
    obtain ⟨f1, h1, rfl⟩ := h2
    exact count_EmitStatements abi stmts (f.advance 5) f1 hp h1 hfit
  | .ifStmt chain, l, f, r, hp, h, hfit => by
    have h2 : (EmitIfElse abi chain [] (f.advance 1)).bind (fun f1 => some (f1, l)) = some r := h
    simp only [Option.bind_eq_some, Option.some.injEq] at h2
    obtain ⟨f1, h1, rfl⟩ := h2
    exact count_EmitIfElse abi chain [] (f.advance 1) f1 hp h1 hfit
  | .switchStmt low high expr cases dflt, l, f, r, hp, h, hfit => by
    have h2 : (EmitExpr abi expr (f.advance 14)).bind (fun e =>
        if switchIsEmpty cases dflt then some (e.1, l)
        else (tableLength low high).bind (fun len =>
          (EmitSwitchCases abi cases low (e.1.startSwitch e.1.pc_ e.2 low high).2
            (List.replicate len none) (e.1.startSwitch e.1.pc_ e.2 low high).1).bind (fun cs =>
            (EmitOptStmt abi dflt
              (cs.1.startSwitchDefault (e.1.startSwitch e.1.pc_ e.2 low high).2).1).bind (fun f1 =>
              (f1.joinSwitch (e.1.startSwitch e.1.pc_ e.2 low high).2 cs.2
                (cs.1.startSwitchDefault (e.1.startSwitch e.1.pc_ e.2 low high).2).2).bind
                  (fun f2 => some (f2, l)))))) = some r := h
    simp only [Option.bind_eq_some] at h2
    obtain ⟨e, h1, h3⟩ := h2
    have hp1 : (plainExpr expr && plainCases cases && plainOpt dflt) = true := hp
    simp only [Bool.and_eq_true] at hp1
    obtain ⟨⟨p1, p2⟩, p3⟩ := hp1
    have eT : emittedStatement abi (.switchStmt low high expr cases dflt) l f =
        emittedExpr abi expr (f.advance 14) ++
          emittedAfter (EmitExpr abi expr (f.advance 14)) (fun e =>
            if switchIsEmpty cases dflt then []
            else emittedAfter (tableLength low high) (fun len =>
              emittedSwitchCases abi cases low (e.1.startSwitch e.1.pc_ e.2 low high).2
                  (List.replicate len none) (e.1.startSwitch e.1.pc_ e.2 low high).1 ++
                emittedAfter (EmitSwitchCases abi cases low
                    (e.1.startSwitch e.1.pc_ e.2 low high).2
                    (List.replicate len none) (e.1.startSwitch e.1.pc_ e.2 low high).1)
                  (fun cs =>
                    emittedOptStmt abi dflt
                      (cs.1.startSwitchDefault
                        (e.1.startSwitch e.1.pc_ e.2 low high).2).1))) := rfl
    rw [eT, h1, emittedAfter_some] at hfit ⊢
    by_cases hempty : switchIsEmpty cases dflt = true
    · rw [if_pos hempty] at h3 hfit ⊢
      simp only [Option.some.injEq] at h3
      subst h3
      obtain ⟨c1, -⟩ := count_EmitExpr abi expr (f.advance 14) e p1 h1 (fits_left hfit)
      have c1' : Covers abi f e.1 (emittedExpr abi expr (f.advance 14)) := c1
      rw [List.append_nil]
      exact c1'
    · rw [if_neg hempty] at h3 hfit ⊢
      simp only [Option.bind_eq_some, Option.some.injEq] at h3
      obtain ⟨len, hlen, cs, hcs, f1, hf1, f2, hj, rfl⟩ := h3
      rw [hlen, emittedAfter_some, hcs, emittedAfter_some] at hfit ⊢
      obtain ⟨c1, -⟩ := count_EmitExpr abi expr (f.advance 14) e p1 h1 (fits_left hfit)
      have c1' : Covers abi f e.1 (emittedExpr abi expr (f.advance 14)) := c1
      have c2 := count_EmitSwitchCases abi cases low _ _ _ cs p2 hcs
        (fits_left (fits_right hfit))
      have c3 := count_EmitOptStmt abi dflt _ f1 p3 hf1 (fits_right (fits_right hfit))
      have c2' := covers_pre (bytes_startSwitch e.1 e.1.pc_ e.2 low high) c2
      have c3' := covers_pre (bytes_startSwitchDefault cs.1 _) c3
      exact covers_post (covers_seq c1' (covers_seq c2' c3')) (bytes_joinSwitch _ _ _ _ _ hj)
  | .whileStmt cond body, l, f, r, hp, h, hfit => by
    have h2 : (EmitExpr abi cond ((f.advance 1).startPendingLoop (f.advance 1).pc_).1).bind
        (fun cr =>
          (EmitStatement abi body none (cr.1.branchAndStartLoopBody cr.2).1).bind (fun s =>
            ((s.1.bindContinues (f.advance 1).pc_ l).closeLoop
              ((f.advance 1).startPendingLoop (f.advance 1).pc_).2
              (cr.1.branchAndStartLoopBody cr.2).2).bind (fun f1 => some (f1, l)))) = some r := h
    simp only [Option.bind_eq_some, Option.some.injEq] at h2
    obtain ⟨cr, h1, s, hs, f1, hc, rfl⟩ := h2
    have hp1 : (plainExpr cond && plainStmt body) = true := hp
    simp only [Bool.and_eq_true] at hp1
    have eT : emittedStatement abi (.whileStmt cond body) l f =
        emittedExpr abi cond ((f.advance 1).startPendingLoop (f.advance 1).pc_).1 ++
          emittedAfter (EmitExpr abi cond ((f.advance 1).startPendingLoop (f.advance 1).pc_).1)
            (fun c => emittedStatement abi body none (c.1.branchAndStartLoopBody c.2).1) := rfl
    rw [eT, h1, emittedAfter_some] at hfit ⊢
    obtain ⟨c1, -⟩ := count_EmitExpr abi cond _ cr hp1.1 h1 (fits_left hfit)
    have c2 := count_EmitStatement abi body none _ s hp1.2 hs (fits_right hfit)
    have c1' := covers_pre (bytes_startPendingLoop (f.advance 1) (f.advance 1).pc_) c1
    have d1 : Covers abi f cr.1
        (emittedExpr abi cond ((f.advance 1).startPendingLoop (f.advance 1).pc_).1) := c1'
    have c2' := covers_pre (bytes_branchAndStartLoopBody cr.1 cr.2) c2
    exact covers_post (covers_seq d1 c2')
      ((bytes_closeLoop _ _ _ _ hc).trans (bytes_bindContinues _ _ _))
  | .doWhile body cond, l, f, r, hp, h, hfit => by
    have h2 : (EmitStatement abi body none
        ((f.advance 1).startPendingLoop (f.advance 1).pc_).1).bind (fun s =>
          (EmitExpr abi cond (s.1.bindContinues (f.advance 1).pc_ l)).bind (fun cr =>
            (cr.1.branchAndCloseDoWhileLoop cr.2
              ((f.advance 1).startPendingLoop (f.advance 1).pc_).2).bind
                (fun f1 => some (f1, l)))) = some r := h
    simp only [Option.bind_eq_some, Option.some.injEq] at h2
    obtain ⟨s, hs, cr, h1, f1, hc, rfl⟩ := h2
    have hp1 : (plainStmt body && plainExpr cond) = true := hp
    simp only [Bool.and_eq_true] at hp1
    have eT : emittedStatement abi (.doWhile body cond) l f =
        emittedStatement abi body none ((f.advance 1).startPendingLoop (f.advance 1).pc_).1 ++
          emittedAfter
            (EmitStatement abi body none ((f.advance 1).startPendingLoop (f.advance 1).pc_).1)
            (fun s => emittedExpr abi cond (s.1.bindContinues (f.advance 1).pc_ l)) := rfl
    rw [eT, hs, emittedAfter_some] at hfit ⊢
    have c1 := count_EmitStatement abi body none _ s hp1.1 hs (fits_left hfit)
    obtain ⟨c2, -⟩ := count_EmitExpr abi cond _ cr hp1.2 h1 (fits_right hfit)
    have c1' := covers_pre (bytes_startPendingLoop (f.advance 1) (f.advance 1).pc_) c1
    have d1 : Covers abi f s.1
        (emittedStatement abi body none
          ((f.advance 1).startPendingLoop (f.advance 1).pc_).1) := c1'
    have c2' := covers_pre (bytes_bindContinues s.1 (f.advance 1).pc_ l) c2
    exact covers_post (covers_seq d1 c2') (bytes_doWhileClose _ _ _ _ hc)
  | .forStmt init cond body inc, l, f, r, hp, h, hfit => by
    have h2 : (EmitOptStmt abi init (f.advance 1)).bind (fun f0 =>
        (EmitExpr abi cond (f0.startPendingLoop (f.advance 1).pc_).1).bind (fun cr =>
          (EmitStatement abi body none (cr.1.branchAndStartLoopBody cr.2).1).bind (fun s =>
            (EmitOptStmt abi inc (s.1.bindContinues (f.advance 1).pc_ l)).bind (fun f1 =>
              (f1.closeLoop (f0.startPendingLoop (f.advance 1).pc_).2
                (cr.1.branchAndStartLoopBody cr.2).2).bind (fun f2 => some (f2, l)))))) =
        some r := h
    simp only [Option.bind_eq_some, Option.some.injEq] at h2
    obtain ⟨f0, hf0, cr, h1, s, hs, f1, hf1, f2, hc, rfl⟩ := h2
    have hp1 : (plainOpt init && plainExpr cond && plainStmt body && plainOpt inc) = true := hp
    simp only [Bool.and_eq_true] at hp1
    obtain ⟨⟨⟨p1, p2⟩, p3⟩, p4⟩ := hp1
    have eT : emittedStatement abi (.forStmt init cond body inc) l f =
        emittedOptStmt abi init (f.advance 1) ++
          emittedAfter (EmitOptStmt abi init (f.advance 1)) (fun f0 =>
            emittedExpr abi cond (f0.startPendingLoop (f.advance 1).pc_).1 ++
              emittedAfter (EmitExpr abi cond (f0.startPendingLoop (f.advance 1).pc_).1)
                (fun c =>
                  emittedStatement abi body none (c.1.branchAndStartLoopBody c.2).1 ++
                    emittedAfter
                      (EmitStatement abi body none (c.1.branchAndStartLoopBody c.2).1)
                      (fun s =>
                        emittedOptStmt abi inc (s.1.bindContinues (f.advance 1).pc_ l)))) := rfl
    rw [eT, hf0, emittedAfter_some, h1, emittedAfter_some, hs, emittedAfter_some] at hfit ⊢
    have c0 := count_EmitOptStmt abi init (f.advance 1) f0 p1 hf0 (fits_left hfit)
    obtain ⟨c1, -⟩ := count_EmitExpr abi cond _ cr p2 h1 (fits_left (fits_right hfit))
    have c2 := count_EmitStatement abi body none _ s p3 hs
      (fits_left (fits_right (fits_right hfit)))
    have c3 := count_EmitOptStmt abi inc _ f1 p4 hf1 (fits_right (fits_right (fits_right hfit)))
    have c0' : Covers abi f f0 (emittedOptStmt abi init (f.advance 1)) := c0
    have c1' := covers_pre (bytes_startPendingLoop f0 (f.advance 1).pc_) c1
    have c2' := covers_pre (bytes_branchAndStartLoopBody cr.1 cr.2) c2
    have c3' := covers_pre (bytes_bindContinues s.1 (f.advance 1).pc_ l) c3
    exact covers_post (covers_seq c0' (covers_seq c1' (covers_seq c2' c3')))
      (bytes_closeLoop _ _ _ _ hc)
  | .label labelId s, some labels, f, r, hp, h, hfit => by
    have h2 : EmitStatement abi s (some (labels ++ [labelId])) (f.advance 5) = some r := h
    exact count_EmitStatement abi s (some (labels ++ [labelId])) (f.advance 5) r hp h2 hfit
  | .label labelId s, none, f, r, hp, h, hfit => by
    have h2 : (EmitStatement abi s (some [labelId]) (f.advance 5)).bind (fun r =>
        some (r.1.bindLabeledBreaks r.2, none)) = some r := h
    simp only [Option.bind_eq_some, Option.some.injEq] at h2
    obtain ⟨r1, h1, rfl⟩ := h2
    have c1 := count_EmitStatement abi s (some [labelId]) (f.advance 5) r1 hp h1 hfit
    have c1' : Covers abi f r1.1 (emittedStatement abi (.label labelId s) none f) := c1
    exact covers_post c1' (bytes_bindLabeledBreaks _ _)
  | .continueStmt, l, f, r, _, h, _ => by
    have h2 : ((f.advance 1).addContinue none).bind (fun f1 => some (f1, l)) = some r := h
    simp only [Option.bind_eq_some, Option.some.injEq] at h2
    obtain ⟨f1, h1, rfl⟩ := h2
    exact covers_of_eq (bytes_addContinue (f.advance 1) f1 none h1)
  | .continueLabel labelId, l, f, r, _, h, _ => by
    have h2 : some ((f.advance 5).addBreakOrContinue labelId .labeledContinues, l) = some r := h
    simp only [Option.some.injEq] at h2
    subst h2
    exact covers_of_eq (bytes_addBreakOrContinue (f.advance 5) _ _)
  | .breakStmt, l, f, r, _, h, _ => by
    have h2 : ((f.advance 1).addBreak none).bind (fun f1 => some (f1, l)) = some r := h
    simp only [Option.bind_eq_some, Option.some.injEq] at h2
    obtain ⟨f1, h1, rfl⟩ := h2
    exact covers_of_eq (bytes_addBreak (f.advance 1) f1 none h1)
  | .breakLabel labelId, l, f, r, _, h, _ => by
    have h2 : some ((f.advance 5).addBreakOrContinue labelId .labeledBreaks, l) = some r := h
    simp only [Option.some.injEq] at h2
    subst h2
    exact covers_of_eq (bytes_addBreakOrContinue (f.advance 5) _ _)
  | .retVoid, l, f, r, _, h, _ => by
    have h2 : some ((f.advance 1).returnVoid, l) = some r := h
    simp only [Option.some.injEq] at h2
    subst h2
    exact covers_of_eq (bytes_returnVoid (f.advance 1))
  | .ret e, l, f, r, hp, h, hfit => by
    have h2 : (EmitExpr abi e (f.advance 1)).bind (fun r => some (r.1.returnExpr r.2, l)) =
        some r := h
    simp only [Option.bind_eq_some, Option.some.injEq] at h2
    obtain ⟨r1, h1, rfl⟩ := h2
    obtain ⟨c1, -⟩ := count_EmitExpr abi e (f.advance 1) r1 hp h1 hfit
    have c1' : Covers abi f r1.1 (emittedStatement abi (.ret e) l f) := c1
    exact covers_post c1' (bytes_returnExpr _ _)
  | .exprStmt e, l, f, r, hp, h, hfit => by
    have h2 : (EmitExpr abi e (f.advance 1)).bind (fun r => some (r.1, l)) = some r := h
    simp only [Option.bind_eq_some, Option.some.injEq] at h2
    obtain ⟨r1, h1, rfl⟩ := h2
    exact (count_EmitExpr abi e (f.advance 1) r1 hp h1 hfit).1
  | .callStmt ce, l, f, r, hp, h, hfit => by
    have h2 : (EmitCall abi ce (f.advance 1)).bind (fun r => some (r.1, l)) = some r := h
    simp only [Option.bind_eq_some, Option.some.injEq] at h2
    obtain ⟨r1, h1, rfl⟩ := h2
    exact (count_EmitCall abi ce (f.advance 1) r1 hp h1 hfit).1
  | .atomicsFence, l, f, r, _, h, _ => by
    have h2 : some ((f.advance 1).memoryBarrier, l) = some r := h
    simp only [Option.some.injEq] at h2
    subst h2
    exact covers_of_eq (bytes_emit (f.advance 1) _ _)
  | .noop, l, f, r, _, h, _ => by
    have h2 : some (f.advance 1, l) = some r := h
    simp only [Option.some.injEq] at h2
    subst h2
    exact covers_of_eq rfl
  | .idStmt s, l, f, r, hp, h, hfit => by
    have h2 : (EmitStatement abi s none (f.advance 1)).bind (fun r => some (r.1, l)) = some r := h
    simp only [Option.bind_eq_some, Option.some.injEq] at h2
    obtain ⟨r1, h1, rfl⟩ := h2
    exact count_EmitStatement abi s none (f.advance 1) r1 hp h1 hfit
  | .interruptCheckHead, l, f, r, _, h, _ => by
    have h2 : some ((f.advance 9).addInterruptCheck, l) = some r := h
    simp only [Option.some.injEq] at h2
    subst h2
    exact covers_of_eq (bytes_emit (f.advance 9) _ _)
  | .interruptCheckLoop s, l, f, r, hp, h, hfit => by
    have h2 : (EmitStatement abi s none (f.advance 9).addInterruptCheck).bind
        (fun r => some (r.1, l)) = some r := h
    simp only [Option.bind_eq_some, Option.some.injEq] at h2
    obtain ⟨r1, h1, rfl⟩ := h2
    have c1 := count_EmitStatement abi s none _ r1 hp h1 hfit
    exact covers_pre (bytes_emit (f.advance 9) .interruptCheck []) c1
end

/-! ### The count at the end of a function -/

/-- The restriction to `plain` streams is needed. In `callThenDeadArg` a return
statement is an operand of a comma expression inside a call argument, which is
not `plain`: the operands of an asm.js comma are expressions. The first call is
emitted and needs 8 bytes; the argument list of the second call starts in live
code and ends in dead code, `finishCallArgs` returns at its dead-code check
without writing the saved maximum back, and the count at the end is 0. -/
theorem callThenDeadArg_count :
    callThenDeadArg.plain = false ∧
    (emittedCalls x64ABI callThenDeadArg).map (fun x => stackArgRequirement x64ABI x.2) = [8] ∧
    (GenerateAsmFunctionMIR x64ABI callThenDeadArg).map
      (fun f => (f.maxAsmJSStackArgBytes_, f.graph_.calls, f.graph_.stackArgOffsets)) =
      some (0, [(.Internal 0, 0)], [0]) := by
  decide

end AsmJS
